import Mathlib

/-! # Virtual DOM patching (`src/vue-2.6.14/src/core/vdom/patch.js`)

A shallow embedding of the reconciliation engine of Vue 2.6.14: the identity
predicate `sameVnode`, the keyed child diff `updateChildren`, `patchVnode`,
`createElm`, `removeVnodes` and their helpers, over an explicit model of the
live tree.

Scope of the embedding.
* VNodes are element, text and comment nodes.  Component placeholders (the
  `init` hook, keep-alive), namespaces and scoped-style ids are outside the
  fragment; `componentInstance` is carried as an uninterpreted identity token that
  the engine copies and never inspects.
* A key is a number or a string.  The strict equality `===` of the source
  tells the number `1` from the string `"1"`; the key map is a plain object
  `{}`, indexed by the property name of the key, with the properties it
  inherits from `Object.prototype`.
* The live tree is a tree of `LNode`s.  A function that the source calls with
  a parent handle receives, in addition, the child list of that parent.
* Module hooks and per-node hooks are external callbacks: their invocation is
  recorded among the events a function returns and they do not touch the live
  tree.  One `moduleDestroy`, `moduleRemove`, ... event stands for the loop
  over the registered module hooks of that kind, from index 0.  A remove
  listener is handed the callback `rm` and either calls it before it returns
  or keeps it; which of the two is recorded on the node (`rmDeferred`), and the
  callback with its counter is embedded apart, as `RmCb`.
* The entry point `patch` is embedded for a root that has no parent
  placeholder (`vnode.parent` undefined); the insertion queue holds the nodes
  that declare an insert hook.
* Development-only diagnostics (`warn`, `checkDuplicateKeys`) do not alter
  control flow and are not recorded; the development build is the one
  embedded, so `hydrate` asserts the node match.
* JavaScript object identity is not represented: `patchVnode` is the path
  taken when `oldVnode !== vnode`, and `oldCh !== ch`.
* Two further modules are embedded after the engine: the event methods of
  `core/instance/events.js` (a handler is known by its identity and by the
  event methods it calls while it runs) and `extractPropsFromVNodeData` of
  `core/vdom/helpers/extract-props.js` (objects are association lists).
-/

namespace VuePatch

/-! ## Data model -/

/-- A realized handle: the identity of a live node. -/
abbrev Handle := Nat

/-- A sibling key: a number or a string, as the field `key` of a VNode holds.
A number key is a natural number, taken among the safe integers of the
language, where the property name of a number is its decimal numeral. -/
inductive Key where
  | num (n : Nat)
  | str (s : String)
deriving DecidableEq, Repr

instance (n : Nat) : OfNat Key n := ⟨Key.num n⟩

/-- The property name a key is converted to when it indexes an object: the
number `1` and the string `"1"` name the same property. -/
def Key.name : Key → String
  | .num n => toString n
  | .str s => s

/-- The property names a plain object `{}` inherits from `Object.prototype`:
a read of one of them on an object that has no own property of that name
yields the inherited value, which is defined and is no index. -/
def objectPrototypeNames : List String :=
  ["constructor", "hasOwnProperty", "isPrototypeOf", "propertyIsEnumerable",
   "toLocaleString", "toString", "valueOf", "__proto__", "__defineGetter__",
   "__defineSetter__", "__lookupGetter__", "__lookupSetter__"]

/-- The async factory a placeholder stands for; `uid` is its identity and the
two flags record whether `factory.error` and `factory.resolved` are defined. -/
structure AsyncFactory where
  uid : Nat
  hasError : Bool
  resolved : Bool
deriving DecidableEq, Repr

/-- The `attrs` block of a data object, with its `type` entry. -/
structure Attrs where
  inputType : Option String
deriving DecidableEq, Repr

/-- Which per-node hooks `data.hook` declares. -/
structure Hooks where
  prepatch : Bool
  update : Bool
  postpatch : Bool
  insert : Bool
  create : Bool
  destroy : Bool
  remove : Bool
deriving DecidableEq, Repr

/-- The data block of a VNode: `attrs`, `hook`, the field `innerHTML` of
`domProps`, and the names of the further fields the block has (`class`,
`style`, `on`, ...), which the engine enumerates but does not read.
`rmDeferred` is no field of the block: it records what the remove listeners do
with the node, which they are external code to decide from it.  It is set when
one of the functions handed the removal callback `rm` for the node (a module
remove hook, or `data.hook.remove`) returns without having called it, as a
leave transition does; it is set only on a node for which such a function
exists. -/
structure VData where
  attrs : Option Attrs
  hook : Option Hooks
  innerHTML : Option String := none
  others : List String := []
  rmDeferred : Bool := false
deriving DecidableEq, Repr

/-- The scalar fields of a VNode; a `componentInstance` is carried as the
identity of the instance. -/
structure VInfo where
  tag : Option String
  data : Option VData
  text : Option String
  elm : Option Handle
  key : Option Key
  isComment : Bool
  isStatic : Bool
  isCloned : Bool
  isOnce : Bool
  isAsyncPlaceholder : Bool
  asyncFactory : Option AsyncFactory
  componentInstance : Option Nat := none
deriving DecidableEq, Repr

/-- A virtual node: its scalar fields and its optional child array. -/
inductive VNode where
  | mk (info : VInfo) (children : Option (List VNode))
deriving Repr

namespace VNode

/-- Scalar fields of the node. -/
def info : VNode → VInfo
  | mk i _ => i

/-- The field `children`. -/
def children : VNode → Option (List VNode)
  | mk _ c => c

/-- The node with its scalar fields replaced. -/
def setInfo : VNode → VInfo → VNode
  | mk _ c, i => mk i c

/-- The node with its child array replaced. -/
def setChildren : VNode → Option (List VNode) → VNode
  | mk i _, c => mk i c

/-- The field `elm`. -/
def elm (v : VNode) : Option Handle := v.info.elm

/-- The field `key`. -/
def key (v : VNode) : Option Key := v.info.key

/-- The property name of the key, when the node declares one. -/
def keyName (v : VNode) : Option String := v.key.map Key.name

/-- Whether a remove listener of the node keeps the removal callback past its
return. -/
def rmDeferred (v : VNode) : Bool := (v.info.data.map VData.rmDeferred).getD false

/-- The assignment `vnode.elm = e`. -/
def setElm (v : VNode) (e : Option Handle) : VNode :=
  v.setInfo { v.info with elm := e }

end VNode

/-- Node type of a live node (`nodeType` 1, 3 and 8). -/
inductive NodeType where
  | element (tagName : String)
  | text
  | comment
deriving DecidableEq, Repr

/-- A live node: handle, node type, character data, and child nodes. -/
inductive LNode where
  | mk (h : Nat) (kind : NodeType) (data : String) (kids : List LNode)
deriving Repr

namespace LNode

/-- Handle of the live node. -/
def h : LNode → Nat
  | mk x _ _ _ => x

/-- Node type of the live node. -/
def kind : LNode → NodeType
  | mk _ k _ _ => k

/-- Character data of a text or comment node. -/
def data : LNode → String
  | mk _ _ d _ => d

/-- Child nodes. -/
def kids : LNode → List LNode
  | mk _ _ _ ks => ks

/-- The live node with its child list replaced. -/
def setKids : LNode → List LNode → LNode
  | mk x k d _, ks => mk x k d ks

/-- The live node with its character data replaced. -/
def setData : LNode → String → LNode
  | mk x k _ ks, d => mk x k d ks

end LNode

/-- Hook phases recorded in the log. -/
inductive HookKind where
  | prepatch
  | moduleUpdate
  | update
  | postpatch
  | moduleCreate
  | create
  | moduleDestroy
  | destroy
  | moduleRemove
  | remove
  | insert
deriving DecidableEq, Repr

/-- Calls recorded in the log: Node Operations and hook invocations. -/
inductive Ev where
  | createElement (tag : String) (h : Handle)
  | createTextNode (text : String) (h : Handle)
  | createComment (text : String) (h : Handle)
  | insertBefore (parent : Handle) (elm : Handle) (ref : Option Handle)
  | appendChild (parent : Handle) (elm : Handle)
  | removeChild (parent : Handle) (elm : Handle)
  | setTextContent (elm : Handle) (text : String)
  | hook (kind : HookKind) (elm : Option Handle)
deriving DecidableEq, Repr

/-- What can go wrong: a JavaScript `TypeError`, a DOM `NotFoundError`, a
handle that is not where the model can see it, and exhausted fuel. -/
inductive Err where
  | typeError
  | notFound
  | detached
  | fuel
deriving DecidableEq, Repr

/-- Whether `data.hook.insert` is defined on a node. -/
def declaresInsert (i : VInfo) : Bool :=
  ((i.data.bind VData.hook).map Hooks.insert).getD false

/-- The mutable state threaded through the engine: the next fresh handle and
the insertion queue.  A node enters the queue in `invokeCreateHooks` only,
under the test that it declares an insert hook, and the queue keeps that
fact with the node.  The calls a function makes are returned by it as a list
of events. -/
structure St where
  next : Nat
  queue : List { i : VInfo // declaresInsert i = true }
deriving DecidableEq, Repr

/-- Calls made by one run of `updateChildren` on its own sibling list. -/
inductive UEv where
  | patch (oldIdx : Int) (newIdx : Int)
  | create (newIdx : Int)
  | move (elm : Handle) (ref : Option Handle)
  | remove (oldIdx : Int)
deriving DecidableEq, Repr

/-! ## Arrays indexed by JavaScript numbers -/

/-- Array read `l[i]`: `none` is `undefined`. -/
def getAt {α : Type} (l : List α) (i : Int) : Option α :=
  if i < 0 then none else l[i.toNat]?

/-- Array read of an array with holes: a hole and an index out of range both
read as `undefined`. -/
def slotAt {α : Type} (l : List (Option α)) (i : Int) : Option α :=
  (getAt l i).bind id

/-- Array write `l[i] = x` at an index in range. -/
def setAt {α : Type} (l : List α) (i : Int) (x : α) : List α :=
  if i < 0 then l else l.set i.toNat x

/-! ## Node Operations on a child list -/

/-- Modelled from the spec: the Node Operations adapter (the DOM), here the
child of the list that has handle `x`. -/
def findH (kids : List LNode) (x : Handle) : Option LNode :=
  kids.find? (fun n => n.h == x)

/-- Modelled from the spec: the Node Operations adapter, `parentNode(x)` is the
parent whose child list is `kids`. -/
def hasH (kids : List LNode) (x : Handle) : Bool :=
  kids.any (fun n => n.h == x)

/-- Modelled from the spec: the Node Operations adapter, the child list after
`removeChild`. -/
def removeH : List LNode → Handle → List LNode
  | [], _ => []
  | n :: ns, x => if n.h == x then ns else n :: removeH ns x

/-- Modelled from the spec: the Node Operations adapter, the child list with
`node` placed immediately before the child `ref`; `none` when `ref` is not a
child. -/
def insertBeforeH : List LNode → LNode → Handle → Option (List LNode)
  | [], _, _ => none
  | n :: ns, node, ref =>
    if n.h == ref then some (node :: n :: ns)
    else (insertBeforeH ns node ref).map (fun r => n :: r)

/-- Modelled from the spec: the Node Operations adapter, `nextSibling`. -/
def nextSiblingH : List LNode → Handle → Option Handle
  | [], _ => none
  | n :: ns, x => if n.h == x then ns.head?.map LNode.h else nextSiblingH ns x

/-- Modelled from the spec: the Node Operations adapter, the child list with
the child of handle `x` replaced by `node`. -/
def replaceH : List LNode → Handle → LNode → List LNode
  | [], _, _ => []
  | n :: ns, x, node => if n.h == x then node :: ns else n :: replaceH ns x node

/-- Modelled from the spec: the Node Operations adapter,
`insertBefore(parent, node, ref)` on the child list of `parent`: the node is
first taken out of the list if it is in it, a `null` reference appends, and a
reference that is not a child raises `NotFoundError`. -/
def domInsertBefore (kids : List LNode) (node : LNode) (ref : Option Handle) :
    Except Err (List LNode) :=
  match ref with
  | none => .ok (removeH kids node.h ++ [node])
  | some r =>
    if r == node.h then
      if hasH kids r then .ok kids else .error .notFound
    else
      match insertBeforeH (removeH kids node.h) node r with
      | some ks => .ok ks
      | none => .error .notFound

/-- Modelled from the spec: the Node Operations adapter, `appendChild`. -/
def domAppendChild (kids : List LNode) (node : LNode) : List LNode :=
  removeH kids node.h ++ [node]

/-! ## The identity predicate -/

/-- The value of `isDef(data) && isDef(attrs) && attrs.type`: the boolean
`false`, `undefined`, or a string. -/
inductive TypeVal where
  | boolFalse
  | undef
  | str (s : String)
deriving DecidableEq, Repr

/-- The expression `isDef(i = a.data) && isDef(i = i.attrs) && i.type` of
`sameInputType`. -/
def typeAttr (a : VInfo) : TypeVal :=
  match a.data with
  | none => .boolFalse
  | some d =>
    match d.attrs with
    | none => .boolFalse
    | some attrs => match attrs.inputType with
      | none => .undef
      | some s => .str s

/-- Modelled from the spec: `isTextInputType` of `web/util/element`, the
text-like category of input types. -/
def isTextInputType : TypeVal → Bool
  | .str s => decide (s ∈ ["text", "number", "password", "search", "email", "tel", "url"])
  | _ => false

/-- The function `sameInputType`. -/
def sameInputType (a b : VInfo) : Bool :=
  if a.tag ≠ some "input" then true
  else
    typeAttr a == typeAttr b || (isTextInputType (typeAttr a) && isTextInputType (typeAttr b))

/-- The function `sameVnode` on the scalar fields; reading `.error` of an
undefined `asyncFactory` is a `TypeError`. -/
def sameVnodeInfo (a b : VInfo) : Except Err Bool :=
  if a.key = b.key ∧ a.asyncFactory = b.asyncFactory then
    if a.tag = b.tag ∧ a.isComment = b.isComment ∧ a.data.isSome = b.data.isSome
        ∧ sameInputType a b = true then .ok true
    else if a.isAsyncPlaceholder then
      match b.asyncFactory with
      | none => .error .typeError
      | some f => .ok (!f.hasError)
    else .ok false
  else .ok false

/-- The function `sameVnode`. -/
def sameVnode (a b : VNode) : Except Err Bool := sameVnodeInfo a.info b.info

/-! ## The key map -/

/-- The object `oldKeyToIdx`, a plain `{}`: its own properties by property
name, the most recent entry of a name in front. -/
abbrev KeyMap := List (String × Int)

/-- The assignment `map[key] = i` on a plain object: it writes the own property
the key names.  The name `__proto__` is the accessor inherited from
`Object.prototype`, whose setter ignores a value that is no object: no own
property is written. -/
def keyMapSet (map : KeyMap) (key : Key) (i : Int) : KeyMap :=
  if key.name = "__proto__" then map else (key.name, i) :: map

/-- What a read `map[key]` of a plain object yields: `undefined`, the index
stored in the own property of that name, or the value inherited from
`Object.prototype`. -/
inductive Found where
  | undefined
  | index (i : Int)
  | inherited
deriving DecidableEq, Repr

/-- The read `map[key]` on the plain object: the own property the key names
if there is one, else what `Object.prototype` has under that name. -/
def keyMapGet (map : KeyMap) (key : Key) : Found :=
  match map.lookup key.name with
  | some i => .index i
  | none => if key.name ∈ objectPrototypeNames then .inherited else .undefined

/-- The loop of `createKeyToOldIdx`, from index `i` with `n` iterations left. -/
def createKeyToOldIdxLoop (children : List (Option VNode)) (endIdx : Int) :
    Nat → Int → KeyMap → Except Err KeyMap
  | 0, _, map => .ok map
  | n + 1, i, map =>
    if i ≤ endIdx then
      match slotAt children i with
      | none => .error .typeError
      | some c =>
        createKeyToOldIdxLoop children endIdx n (i + 1)
          (match c.key with
           | some key => keyMapSet map key i
           | none => map)
    else .ok map

/-- The function `createKeyToOldIdx`. -/
def createKeyToOldIdx (children : List (Option VNode)) (beginIdx endIdx : Int) :
    Except Err KeyMap :=
  createKeyToOldIdxLoop children endIdx (endIdx - beginIdx + 1).toNat beginIdx []

/-- The loop of `findIdxInOld`, from index `i` with `n` iterations left. -/
def findIdxInOldLoop (node : VNode) (oldCh : List (Option VNode)) (endIdx : Int) :
    Nat → Int → Except Err (Option Int)
  | 0, _ => .ok none
  | n + 1, i =>
    if i < endIdx then
      match slotAt oldCh i with
      | none => findIdxInOldLoop node oldCh endIdx n (i + 1)
      | some c =>
        match sameVnode node c with
        | .error e => .error e
        | .ok true => .ok (some i)
        | .ok false => findIdxInOldLoop node oldCh endIdx n (i + 1)
    else .ok none

/-- The function `findIdxInOld`. -/
def findIdxInOld (node : VNode) (oldCh : List (Option VNode)) (start endIdx : Int) :
    Except Err (Option Int) :=
  findIdxInOldLoop node oldCh endIdx (endIdx - start).toNat start

/-! ## Creation -/

/-- Modelled from the spec: `cloneVNode` of `vdom/vnode`, a copy flagged
`isCloned`. -/
def cloneVNode (v : VNode) : VNode :=
  v.setInfo { v.info with isCloned := true }

/-- The guard `if (isDef(vnode.elm) && isDef(ownerArray)) vnode = cloneVNode(vnode)`. -/
def cloneIfUsed (v : VNode) (hasOwner : Bool) : VNode :=
  if v.elm.isSome && hasOwner then cloneVNode v else v

/-- The function `insert`; `kids` is the child list of `parent`. -/
def insert (parent : Option Handle) (kids : List LNode) (node : LNode) (ref : Option Handle) :
    Except Err (List LNode × List Ev) :=
  match parent with
  | none => .ok (kids, [])
  | some p =>
    match ref with
    | some r =>
      if hasH kids r then
        match domInsertBefore kids node (some r) with
        | .error e => .error e
        | .ok ks => .ok (ks, [.insertBefore p node.h (some r)])
      else .ok (kids, [])
    | none => .ok (domAppendChild kids node, [.appendChild p node.h])

/-- The hook `data.hook.<name>` of a VNode, when declared. -/
def hasHook (v : VNode) (f : Hooks → Bool) : Bool :=
  ((v.info.data.bind VData.hook).map f).getD false

/-- The function `invokeCreateHooks`. -/
def invokeCreateHooks (vnode : VNode) (st : St) : St × List Ev :=
  ((if h : hasHook vnode Hooks.insert = true then
      { st with queue := st.queue ++ [⟨vnode.info, h⟩] }
    else st),
   [.hook .moduleCreate vnode.elm] ++
     (if hasHook vnode Hooks.create then [.hook .create vnode.elm] else []))

/-- The type of `createElm`: the VNode, the parent handle and its child list,
the reference handle, and whether `ownerArray` is defined; it returns the
VNode as left in the owner array, the created node, the parent child list,
the state and the events. -/
abbrev CreateElm :=
  VNode → Option Handle → List LNode → Option Handle → Bool → St →
    Except Err (VNode × LNode × List LNode × St × List Ev)

/-- The array loop of `createChildren`. -/
def createChildrenLoop (ce : CreateElm) (parent : Handle) :
    List VNode → List LNode → St → Except Err (List VNode × List LNode × St × List Ev)
  | [], kids, st => .ok ([], kids, st, [])
  | c :: cs, kids, st =>
    match ce c (some parent) kids none true st with
    | .error e => .error e
    | .ok (c1, _, kids1, st1, ev1) =>
      match createChildrenLoop ce parent cs kids1 st1 with
      | .error e => .error e
      | .ok (cs1, kids2, st2, ev2) => .ok (c1 :: cs1, kids2, st2, ev1 ++ ev2)

/-- The function `createChildren`; `node` is the live node `vnode.elm`. -/
def createChildren (ce : CreateElm) (vnode : VNode) (node : LNode) (st : St) :
    Except Err (VNode × LNode × St × List Ev) :=
  match vnode.children with
  | some cs =>
    match createChildrenLoop ce node.h cs node.kids st with
    | .error e => .error e
    | .ok (cs1, kids1, st1, ev1) =>
      .ok (vnode.setChildren (some cs1), node.setKids kids1, st1, ev1)
  | none =>
    match vnode.info.text with
    | some t =>
      .ok (vnode, node.setKids (domAppendChild node.kids (LNode.mk st.next .text t [])),
        { st with next := st.next + 1 },
        [.createTextNode t st.next, .appendChild node.h st.next])
    | none => .ok (vnode, node, st, [])

/-- The string a missing text is converted to. -/
def textOf (t : Option String) : String := t.getD "undefined"

/-- The function `createElm`, with recursion depth `d`. -/
def createElm : Nat → CreateElm
  | 0 => fun _ _ _ _ _ _ => .error .fuel
  | d + 1 => fun vnode0 parentElm kids refElm hasOwner st =>
    let vnode := cloneIfUsed vnode0 hasOwner
    match vnode.info.tag with
    | some tag =>
      match createChildren (createElm d) (vnode.setElm (some st.next))
          (LNode.mk st.next (.element tag) "" []) { st with next := st.next + 1 } with
      | .error e => .error e
      | .ok (vnode2, node2, st2, ev2) =>
        let hk := if vnode2.info.data.isSome then invokeCreateHooks vnode2 st2 else (st2, [])
        match insert parentElm kids node2 refElm with
        | .error e => .error e
        | .ok (kids4, ev4) =>
          .ok (vnode2, node2, kids4, hk.1, [.createElement tag st.next] ++ ev2 ++ hk.2 ++ ev4)
    | none =>
      let txt := textOf vnode.info.text
      let node := LNode.mk st.next (if vnode.info.isComment then .comment else .text) txt []
      match insert parentElm kids node refElm with
      | .error e => .error e
      | .ok (kids2, ev2) =>
        .ok (vnode.setElm (some st.next), node, kids2, { st with next := st.next + 1 },
          [if vnode.info.isComment then Ev.createComment txt st.next
           else Ev.createTextNode txt st.next] ++ ev2)

/-- The loop of `addVnodes`, from index `i` with `n` iterations left; it
returns the array, the child list, the state, the creations and the events. -/
def addVnodesLoop (ce : CreateElm) (parentElm : Handle) (refElm : Option Handle) (endIdx : Int) :
    Nat → Int → List VNode → List LNode → St →
      Except Err (List VNode × List LNode × St × List UEv × List Ev)
  | 0, _, vnodes, kids, st => .ok (vnodes, kids, st, [], [])
  | n + 1, i, vnodes, kids, st =>
    if i ≤ endIdx then
      match getAt vnodes i with
      | none => .error .typeError
      | some v =>
        match ce v (some parentElm) kids refElm true st with
        | .error e => .error e
        | .ok (v1, _, kids1, st1, ev1) =>
          match addVnodesLoop ce parentElm refElm endIdx n (i + 1) (setAt vnodes i v1) kids1
              st1 with
          | .error e => .error e
          | .ok (vnodes2, kids2, st2, tr2, ev2) =>
            .ok (vnodes2, kids2, st2, UEv.create i :: tr2, ev1 ++ ev2)
    else .ok (vnodes, kids, st, [], [])

/-- The function `addVnodes`. -/
def addVnodes (ce : CreateElm) (parentElm : Handle) (refElm : Option Handle)
    (vnodes : List VNode) (startIdx endIdx : Int) (kids : List LNode) (st : St) :
    Except Err (List VNode × List LNode × St × List UEv × List Ev) :=
  addVnodesLoop ce parentElm refElm endIdx (endIdx - startIdx + 1).toNat startIdx vnodes kids st

/-! ## Removal and destruction -/

/-- The function `removeNode`; `kids` is the child list the node may be in. -/
def removeNode (parent : Handle) (kids : List LNode) (el : Option Handle) :
    Except Err (List LNode × List Ev) :=
  match el with
  | none => .error .typeError
  | some e =>
    if hasH kids e then .ok (removeH kids e, [.removeChild parent e])
    else .ok (kids, [])

/-- The child loop of `invokeDestroyHook`. -/
def destroyLoop (f : VNode → Except Err (List Ev)) : List VNode → Except Err (List Ev)
  | [] => .ok []
  | c :: cs =>
    match f c with
    | .error e => .error e
    | .ok ev1 =>
      match destroyLoop f cs with
      | .error e => .error e
      | .ok ev2 => .ok (ev1 ++ ev2)

/-- The function `invokeDestroyHook`, with recursion depth `d`. -/
def invokeDestroyHook : Nat → VNode → Except Err (List Ev)
  | 0, _ => .error .fuel
  | d + 1, vnode =>
    let ev1 : List Ev :=
      if vnode.info.data.isSome then
        (if hasHook vnode Hooks.destroy then [.hook .destroy vnode.elm] else []) ++
          [.hook .moduleDestroy vnode.elm]
      else []
    match vnode.children with
    | some cs =>
      match destroyLoop (invokeDestroyHook d) cs with
      | .error e => .error e
      | .ok ev2 => .ok (ev1 ++ ev2)
    | none => .ok ev1

/-- The function `removeAndInvokeRemoveHook` called without `rm`, up to its
return.  On a node with data it makes the callback `rm`, whose counter is one
more than the number of module remove hooks, hands it to every module remove
hook and to the remove hook of the node, and calls it itself only when the
node has no remove hook.  The call of `rm` that brings the counter to zero
detaches the node: that happens before the return when every listener has
called `rm` by then, and it is left to the listener that keeps the callback
otherwise (`rmDeferred`).  A node without data is detached at once. -/
def removeAndInvokeRemoveHook (parent : Handle) (kids : List LNode) (vnode : VNode) :
    Except Err (List LNode × List Ev) :=
  if vnode.info.data.isSome then
    if vnode.rmDeferred then
      .ok (kids, [.hook .moduleRemove vnode.elm] ++
        (if hasHook vnode Hooks.remove then [.hook .remove vnode.elm] else []))
    else
      match removeNode parent kids vnode.elm with
      | .error e => .error e
      | .ok (kids1, ev1) =>
        .ok (kids1, [.hook .moduleRemove vnode.elm] ++
          (if hasHook vnode Hooks.remove then [.hook .remove vnode.elm] else []) ++ ev1)
  else removeNode parent kids vnode.elm

/-- The loop of `removeVnodes`, from index `i` with `n` iterations left; it
returns the child list, the removals and the events. -/
def removeVnodesLoop (d : Nat) (parent : Handle) (vnodes : List (Option VNode)) (endIdx : Int) :
    Nat → Int → List LNode → Except Err (List LNode × List UEv × List Ev)
  | 0, _, kids => .ok (kids, [], [])
  | n + 1, i, kids =>
    if i ≤ endIdx then
      match slotAt vnodes i with
      | none => removeVnodesLoop d parent vnodes endIdx n (i + 1) kids
      | some ch =>
        if ch.info.tag.isSome then
          match removeAndInvokeRemoveHook parent kids ch with
          | .error e => .error e
          | .ok (kids1, ev1) =>
            match invokeDestroyHook d ch with
            | .error e => .error e
            | .ok ev2 =>
              match removeVnodesLoop d parent vnodes endIdx n (i + 1) kids1 with
              | .error e => .error e
              | .ok (kids3, tr3, ev3) => .ok (kids3, UEv.remove i :: tr3, ev1 ++ ev2 ++ ev3)
        else
          match removeNode parent kids ch.elm with
          | .error e => .error e
          | .ok (kids1, ev1) =>
            match removeVnodesLoop d parent vnodes endIdx n (i + 1) kids1 with
            | .error e => .error e
            | .ok (kids3, tr3, ev3) => .ok (kids3, UEv.remove i :: tr3, ev1 ++ ev3)
    else .ok (kids, [], [])

/-- The function `removeVnodes`. -/
def removeVnodes (d : Nat) (parent : Handle) (vnodes : List (Option VNode))
    (startIdx endIdx : Int) (kids : List LNode) :
    Except Err (List LNode × List UEv × List Ev) :=
  removeVnodesLoop d parent vnodes endIdx (endIdx - startIdx + 1).toNat startIdx kids

/-! ## Hydration -/

/-- The function `assertNodeMatch`; the platform test `isUnknownElement` is
taken to answer no. -/
def assertNodeMatch (node : LNode) (vnode : VNode) : Bool :=
  match vnode.info.tag with
  | some tag =>
    tag.startsWith "vue-component" ||
      (match node.kind with
       | .element t => tag.toLower == t.toLower
       | _ => false)
  | none => node.kind == (if vnode.info.isComment then NodeType.comment else NodeType.text)

/-- The type of `hydrate`: the live node, the VNode; it returns the verdict,
the VNode and the live node as they are left, the state and the events. -/
abbrev Hydrate := LNode → VNode → St → Except Err (Bool × VNode × LNode × St × List Ev)

/-- The loop of `hydrate` over the virtual children, walking the live
children in lockstep; it returns `childrenMatch`, the children, the live
children already visited and those still ahead (`childNode` and its
following siblings). -/
def hydrateChildrenLoop (hy : Hydrate) :
    List VNode → List LNode → St →
      Except Err (Bool × List VNode × List LNode × List LNode × St × List Ev)
  | [], rest, st => .ok (true, [], [], rest, st, [])
  | c :: cs, [], st => .ok (false, c :: cs, [], [], st, [])
  | c :: cs, n :: rest, st =>
    match hy n c st with
    | .error e => .error e
    | .ok (false, c1, n1, st1, ev1) => .ok (false, c1 :: cs, [n1], rest, st1, ev1)
    | .ok (true, c1, n1, st1, ev1) =>
      match hydrateChildrenLoop hy cs rest st1 with
      | .error e => .error e
      | .ok (b, cs1, done, ahead, st2, ev2) =>
        .ok (b, c1 :: cs1, n1 :: done, ahead, st2, ev1 ++ ev2)

mutual
/-- Modelled from the spec: the Node Operations adapter, the markup of a live
node (`outerHTML`; attributes are not part of the live tree). -/
def outerHTML : LNode → String
  | .mk _ k d ks =>
    match k with
    | .element t => "<" ++ t ++ ">" ++ htmlOfL ks ++ "</" ++ t ++ ">"
    | .text => d
    | .comment => "<!--" ++ d ++ "-->"
/-- Modelled from the spec: the markup of a list of live nodes. -/
def htmlOfL : List LNode → String
  | [] => ""
  | k :: ks => outerHTML k ++ htmlOfL ks
end

/-- Modelled from the spec: the Node Operations adapter, `elm.innerHTML`. -/
def innerHTML (n : LNode) : String := htmlOfL n.kids

/-- The map `isRenderedModule`. -/
def isRenderedModule (key : String) : Bool :=
  decide (key ∈ ["attrs", "class", "staticClass", "staticStyle", "key"])

/-- The keys `for (const key in data)` enumerates. -/
def dataKeys (d : VData) : List String :=
  (if d.attrs.isSome then ["attrs"] else []) ++ (if d.hook.isSome then ["hook"] else []) ++
    (if d.innerHTML.isSome then ["domProps"] else []) ++ d.others

/-- The tail of `hydrate` for an element, from `if (isDef(data))` on: the
create hooks are invoked in full at the first key of the data block that is
not a rendered module. -/
def hydrateFinish (v : VNode) (n : LNode) (st : St) (ev : List Ev) :
    Except Err (Bool × VNode × LNode × St × List Ev) :=
  match v.info.data with
  | some data =>
    if (dataKeys data).any (fun key => !isRenderedModule key) then
      .ok (true, v, n, (invokeCreateHooks v st).1, ev ++ (invokeCreateHooks v st).2)
    else .ok (true, v, n, st, ev)
  | none => .ok (true, v, n, st, ev)

/-- The function `hydrate`, with recursion depth `d`. -/
def hydrate : Nat → Hydrate
  | 0 => fun _ _ _ => .error .fuel
  | d + 1 => fun elm vnode0 st =>
    let vnode := vnode0.setElm (some elm.h)
    if vnode.info.isComment && vnode.info.asyncFactory.isSome then
      .ok (true, vnode.setInfo { vnode.info with isAsyncPlaceholder := true }, elm, st, [])
    else if !assertNodeMatch elm vnode then .ok (false, vnode, elm, st, [])
    else
      match vnode.info.tag with
      | some _ =>
        match vnode.children with
        | some cs =>
          if elm.kids.isEmpty then
            match createChildren (createElm d) vnode elm st with
            | .error e => .error e
            | .ok (v1, n1, st1, ev1) => hydrateFinish v1 n1 st1 ev1
          else
            match vnode.info.data.bind VData.innerHTML with
            | some html =>
              if html ≠ innerHTML elm then .ok (false, vnode, elm, st, [])
              else hydrateFinish vnode elm st []
            | none =>
              match hydrateChildrenLoop (hydrate d) cs elm.kids st with
              | .error e => .error e
              | .ok (b, cs1, done, ahead, st1, ev1) =>
                if !b || !ahead.isEmpty then
                  .ok (false, vnode.setChildren (some cs1), elm.setKids (done ++ ahead), st1, ev1)
                else
                  hydrateFinish (vnode.setChildren (some cs1)) (elm.setKids (done ++ ahead)) st1
                    ev1
        | none => hydrateFinish vnode elm st []
      | none =>
        if elm.data ≠ textOf vnode.info.text then
          .ok (true, vnode, elm.setData (textOf vnode.info.text), st, [])
        else .ok (true, vnode, elm, st, [])

/-! ## The keyed child diff and `patchVnode` -/

/-- The type of `patchVnode` as called with fixed `ownerArray` and
`removeOnly`: the old VNode, the new VNode, the live node `oldVnode.elm`; it
returns the new VNode as left in the owner array, the live node, the state
and the events. -/
abbrev PatchVnode := VNode → VNode → LNode → St → Except Err (VNode × LNode × St × List Ev)

/-- The local variables of `updateChildren` together with the child list of
`parentElm`, the engine state, the trace of its own calls and the events so
far.  The cached `oldStartVnode`, `oldEndVnode`, `newStartVnode`,
`newEndVnode` are read from the arrays at the four indices. -/
structure UState where
  kids : List LNode
  oldCh : List (Option VNode)
  newCh : List VNode
  oldStartIdx : Int
  oldEndIdx : Int
  newStartIdx : Int
  newEndIdx : Int
  oldKeyToIdx : Option KeyMap
  st : St
  trace : List UEv
  log : List Ev

/-- The call `patchVnode(old, vnode, insertedVnodeQueue, newCh, ni)` of
`updateChildren`, on the live child with handle `old.elm`. -/
def patchAt (pv : PatchVnode) (s : UState) (old : VNode) (oi : Int) (vnode : VNode) (ni : Int) :
    Except Err UState :=
  match old.elm with
  | none => .error .detached
  | some e =>
    match findH s.kids e with
    | none => .error .detached
    | some sub =>
      match pv old vnode sub s.st with
      | .error err => .error err
      | .ok (v1, sub1, st1, ev1) =>
        .ok { s with kids := replaceH s.kids e sub1, newCh := setAt s.newCh ni v1, st := st1,
                     trace := s.trace ++ [.patch oi ni], log := s.log ++ ev1 }

/-- The call `createElm(vnode, insertedVnodeQueue, parentElm, refElm, false, newCh, ni)`
of `updateChildren`. -/
def createAt (ce : CreateElm) (parentElm : Handle) (s : UState) (vnode : VNode) (ni : Int)
    (refElm : Option Handle) : Except Err UState :=
  match ce vnode (some parentElm) s.kids refElm true s.st with
  | .error err => .error err
  | .ok (v1, _, kids1, st1, ev1) =>
    .ok { s with kids := kids1, newCh := setAt s.newCh ni v1, st := st1,
                 trace := s.trace ++ [.create ni], log := s.log ++ ev1 }

/-- The guarded call `canMove && nodeOps.insertBefore(parentElm, elm, ref)`. -/
def moveAt (parentElm : Handle) (canMove : Bool) (s : UState) (elm : Option Handle)
    (ref : Option Handle) : Except Err UState :=
  if canMove then
    match elm with
    | none => .error .typeError
    | some e =>
      match findH s.kids e with
      | none => .error .detached
      | some node =>
        match domInsertBefore s.kids node ref with
        | .error err => .error err
        | .ok ks =>
          .ok { s with kids := ks, trace := s.trace ++ [.move e ref],
                       log := s.log ++ [.insertBefore parentElm e ref] }
  else .ok s

/-- The call `nodeOps.nextSibling(elm)`. -/
def nextSiblingOf (kids : List LNode) (elm : Option Handle) : Except Err (Option Handle) :=
  match elm with
  | none => .error .typeError
  | some e => .ok (nextSiblingH kids e)

/-- The statement `if (isUndef(oldKeyToIdx)) oldKeyToIdx = createKeyToOldIdx(oldCh,
oldStartIdx, oldEndIdx)`: the key map in force after it. -/
def keyMapOf (s : UState) : Except Err KeyMap :=
  match s.oldKeyToIdx with
  | some m => .ok m
  | none => createKeyToOldIdx s.oldCh s.oldStartIdx s.oldEndIdx

/-- The value `idxInOld`: the map entry of the key of the new start node, or
the result of `findIdxInOld` when it has no key. -/
def idxInOldOf (s : UState) (newStartVnode : VNode) (map : KeyMap) : Except Err Found :=
  match newStartVnode.key with
  | some key => .ok (keyMapGet map key)
  | none =>
    match findIdxInOld newStartVnode s.oldCh s.oldStartIdx s.oldEndIdx with
    | .error err => .error err
    | .ok none => .ok .undefined
    | .ok (some i) => .ok (.index i)

/-- The new start node is treated as a new element: it is created in front of
the old start node and `newStartIdx` advances. -/
def stepNew (ce : CreateElm) (parentElm : Handle) (s : UState) (map : KeyMap)
    (oldStartVnode newStartVnode : VNode) : Except Err UState :=
  match createAt ce parentElm { s with oldKeyToIdx := some map } newStartVnode s.newStartIdx
      oldStartVnode.elm with
  | .error err => .error err
  | .ok s2 => .ok { s2 with newStartIdx := s.newStartIdx + 1 }

/-- An index was found for the new start node: when the old node there is the
same node it is patched, its slot is emptied and its live node moves in front
of the old start node; otherwise the new start node is a new element. -/
def stepFound (pv : PatchVnode) (ce : CreateElm) (parentElm : Handle) (canMove : Bool)
    (s : UState) (map : KeyMap) (oldStartVnode newStartVnode : VNode) (idxInOld : Int) :
    Except Err UState :=
  match slotAt s.oldCh idxInOld with
  | none => .error .typeError
  | some vnodeToMove =>
    match sameVnode vnodeToMove newStartVnode with
    | .error err => .error err
    | .ok true =>
      match patchAt pv { s with oldKeyToIdx := some map } vnodeToMove idxInOld newStartVnode
          s.newStartIdx with
      | .error err => .error err
      | .ok s2 =>
        match moveAt parentElm canMove { s2 with oldCh := setAt s2.oldCh idxInOld none }
            vnodeToMove.elm oldStartVnode.elm with
        | .error err => .error err
        | .ok s3 => .ok { s3 with newStartIdx := s.newStartIdx + 1 }
    | .ok false => stepNew ce parentElm s map oldStartVnode newStartVnode

/-- The last branch of the loop of `updateChildren`: look the new start node
up among the old children. -/
def stepLookup (pv : PatchVnode) (ce : CreateElm) (parentElm : Handle) (canMove : Bool)
    (s : UState) (oldStartVnode newStartVnode : VNode) : Except Err UState :=
  match keyMapOf s with
  | .error err => .error err
  | .ok map =>
    match idxInOldOf s newStartVnode map with
    | .error err => .error err
    | .ok .undefined => stepNew ce parentElm s map oldStartVnode newStartVnode
    | .ok (.index idxInOld) =>
      stepFound pv ce parentElm canMove s map oldStartVnode newStartVnode idxInOld
    | .ok .inherited =>
      -- `idxInOld` is defined and no index: `oldCh[idxInOld]` is undefined, and
      -- `sameVnode` reads the field `key` of it
      .error .typeError

/-- One iteration of the loop of `updateChildren`. -/
def ucStep (pv : PatchVnode) (ce : CreateElm) (parentElm : Handle) (canMove : Bool)
    (s : UState) : Except Err UState :=
  match slotAt s.oldCh s.oldStartIdx with
  | none => .ok { s with oldStartIdx := s.oldStartIdx + 1 }
  | some oldStartVnode =>
    match slotAt s.oldCh s.oldEndIdx with
    | none => .ok { s with oldEndIdx := s.oldEndIdx - 1 }
    | some oldEndVnode =>
      match getAt s.newCh s.newStartIdx, getAt s.newCh s.newEndIdx with
      | some newStartVnode, some newEndVnode =>
        match sameVnode oldStartVnode newStartVnode with
        | .error err => .error err
        | .ok true =>
          match patchAt pv s oldStartVnode s.oldStartIdx newStartVnode s.newStartIdx with
          | .error err => .error err
          | .ok s1 =>
            .ok { s1 with oldStartIdx := s.oldStartIdx + 1, newStartIdx := s.newStartIdx + 1 }
        | .ok false =>
          match sameVnode oldEndVnode newEndVnode with
          | .error err => .error err
          | .ok true =>
            match patchAt pv s oldEndVnode s.oldEndIdx newEndVnode s.newEndIdx with
            | .error err => .error err
            | .ok s1 =>
              .ok { s1 with oldEndIdx := s.oldEndIdx - 1, newEndIdx := s.newEndIdx - 1 }
          | .ok false =>
            match sameVnode oldStartVnode newEndVnode with
            | .error err => .error err
            | .ok true =>
              match patchAt pv s oldStartVnode s.oldStartIdx newEndVnode s.newEndIdx with
              | .error err => .error err
              | .ok s1 =>
                match (if canMove then nextSiblingOf s1.kids oldEndVnode.elm
                       else Except.ok none) with
                | .error err => .error err
                | .ok ref =>
                  match moveAt parentElm canMove s1 oldStartVnode.elm ref with
                  | .error err => .error err
                  | .ok s2 =>
                    .ok { s2 with oldStartIdx := s.oldStartIdx + 1,
                                  newEndIdx := s.newEndIdx - 1 }
            | .ok false =>
              match sameVnode oldEndVnode newStartVnode with
              | .error err => .error err
              | .ok true =>
                match patchAt pv s oldEndVnode s.oldEndIdx newStartVnode s.newStartIdx with
                | .error err => .error err
                | .ok s1 =>
                  match moveAt parentElm canMove s1 oldEndVnode.elm oldStartVnode.elm with
                  | .error err => .error err
                  | .ok s2 =>
                    .ok { s2 with oldEndIdx := s.oldEndIdx - 1,
                                  newStartIdx := s.newStartIdx + 1 }
              | .ok false => stepLookup pv ce parentElm canMove s oldStartVnode newStartVnode
      | _, _ => .error .typeError

/-- The `while` loop of `updateChildren`, with `n` iterations allowed. -/
def ucLoop (pv : PatchVnode) (ce : CreateElm) (parentElm : Handle) (canMove : Bool) :
    Nat → UState → Except Err UState
  | 0, s =>
    if s.oldStartIdx ≤ s.oldEndIdx ∧ s.newStartIdx ≤ s.newEndIdx then .error .fuel else .ok s
  | n + 1, s =>
    if s.oldStartIdx ≤ s.oldEndIdx ∧ s.newStartIdx ≤ s.newEndIdx then
      match ucStep pv ce parentElm canMove s with
      | .error err => .error err
      | .ok s1 => ucLoop pv ce parentElm canMove n s1
    else .ok s

/-- The code of `updateChildren` after the loop. -/
def ucFinish (ce : CreateElm) (d : Nat) (parentElm : Handle) (s : UState) : Except Err UState :=
  if s.oldStartIdx > s.oldEndIdx then
    match addVnodes ce parentElm
        (match getAt s.newCh (s.newEndIdx + 1) with
         | none => none
         | some v => v.elm)
        s.newCh s.newStartIdx s.newEndIdx s.kids s.st with
    | .error err => .error err
    | .ok (newCh1, kids1, st1, tr1, ev1) =>
      .ok { s with newCh := newCh1, kids := kids1, st := st1, trace := s.trace ++ tr1,
                   log := s.log ++ ev1 }
  else if s.newStartIdx > s.newEndIdx then
    match removeVnodes d parentElm s.oldCh s.oldStartIdx s.oldEndIdx s.kids with
    | .error err => .error err
    | .ok (kids1, tr1, ev1) =>
      .ok { s with kids := kids1, trace := s.trace ++ tr1, log := s.log ++ ev1 }
  else .ok s

/-- The function `updateChildren` over given `patchVnode` and `createElm`;
`kids` is the child list of `parentElm`.  The loop is allowed as many
iterations as the two arrays have slots. -/
def updateChildrenWith (pv : PatchVnode) (ce : CreateElm) (d : Nat) (parentElm : Handle)
    (kids : List LNode) (oldCh : List (Option VNode)) (newCh : List VNode) (removeOnly : Bool)
    (st : St) : Except Err UState :=
  match ucLoop pv ce parentElm (!removeOnly) (oldCh.length + newCh.length)
      { kids := kids, oldCh := oldCh, newCh := newCh,
        oldStartIdx := 0, oldEndIdx := (oldCh.length : Int) - 1,
        newStartIdx := 0, newEndIdx := (newCh.length : Int) - 1,
        oldKeyToIdx := none, st := st, trace := [], log := [] } with
  | .error err => .error err
  | .ok s => ucFinish ce d parentElm s

/-- Modelled from the spec: the Node Operations adapter, `setTextContent` on a
live node: an element keeps a single text child (none for the empty string),
a text or comment node takes the string as its data. -/
def domSetTextContent (node : LNode) (t : String) (st : St) : LNode × St × List Ev :=
  match node.kind with
  | .element _ =>
    if t = "" then (node.setKids [], st, [.setTextContent node.h t])
    else
      (node.setKids [LNode.mk st.next .text t []], { st with next := st.next + 1 },
        [.setTextContent node.h t])
  | _ => (node.setData t, st, [.setTextContent node.h t])

/-- The hooks `patchVnode` runs before it looks at the children: `prepatch`,
then the module `update` hooks and the `update` hook of the node. -/
def updateHooks (vnode : VNode) (elm : Handle) : List Ev :=
  (if hasHook vnode Hooks.prepatch then [Ev.hook .prepatch (some elm)] else []) ++
    (if vnode.info.data.isSome && vnode.info.tag.isSome then
      [Ev.hook .moduleUpdate (some elm)] ++
        (if hasHook vnode Hooks.update then [Ev.hook .update (some elm)] else [])
     else [])

/-- The `postpatch` hook at the end of `patchVnode`. -/
def postHooks (vnode : VNode) (elm : Handle) : List Ev :=
  if hasHook vnode Hooks.postpatch then [Ev.hook .postpatch (some elm)] else []

/-- The function `patchVnode`, with recursion depth `d`; `hasOwner` tells
whether `ownerArray` is defined, `sub` is the live node `oldVnode.elm`. -/
def patchVnode : Nat → Bool → Bool → PatchVnode
  | 0, _, _ => fun _ _ _ _ => .error .fuel
  | d + 1, hasOwner, removeOnly => fun oldVnode vnode0 sub st =>
    let vnode := (cloneIfUsed vnode0 hasOwner).setElm oldVnode.elm
    if oldVnode.info.isAsyncPlaceholder then
      match vnode.info.asyncFactory with
      | none => .error .typeError
      | some f =>
        if f.resolved then
          match hydrate (d + 1) sub vnode st with
          | .error err => .error err
          | .ok (_, v1, n1, st1, ev1) => .ok (v1, n1, st1, ev1)
        else .ok (vnode.setInfo { vnode.info with isAsyncPlaceholder := true }, sub, st, [])
    else if vnode.info.isStatic && oldVnode.info.isStatic && vnode.key = oldVnode.key
        && (vnode.info.isCloned || vnode.info.isOnce) then
      .ok (vnode.setInfo { vnode.info with
        componentInstance := oldVnode.info.componentInstance }, sub, st, [])
    else
      let pre := updateHooks vnode sub.h
      let post := postHooks vnode sub.h
      match vnode.info.text with
      | none =>
        match oldVnode.children, vnode.children with
        | some oldCh, some ch =>
          match updateChildrenWith (patchVnode d true false) (createElm d) d sub.h sub.kids
              (oldCh.map some) ch removeOnly st with
          | .error err => .error err
          | .ok s =>
            .ok (vnode.setChildren (some s.newCh), sub.setKids s.kids, s.st, pre ++ s.log ++ post)
        | none, some ch =>
          let cleared :=
            if oldVnode.info.text.isSome then domSetTextContent sub "" st else (sub, st, [])
          match addVnodes (createElm d) sub.h none ch 0 ((ch.length : Int) - 1) cleared.1.kids
              cleared.2.1 with
          | .error err => .error err
          | .ok (ch1, kids1, st1, _, ev1) =>
            .ok (vnode.setChildren (some ch1), cleared.1.setKids kids1, st1,
              pre ++ cleared.2.2 ++ ev1 ++ post)
        | some oldCh, none =>
          match removeVnodes d sub.h (oldCh.map some) 0 ((oldCh.length : Int) - 1) sub.kids with
          | .error err => .error err
          | .ok (kids1, _, ev1) => .ok (vnode, sub.setKids kids1, st, pre ++ ev1 ++ post)
        | none, none =>
          if oldVnode.info.text.isSome then
            .ok (vnode, (domSetTextContent sub "" st).1, (domSetTextContent sub "" st).2.1,
              pre ++ (domSetTextContent sub "" st).2.2 ++ post)
          else .ok (vnode, sub, st, pre ++ post)
      | some t =>
        if oldVnode.info.text ≠ some t then
          .ok (vnode, (domSetTextContent sub t st).1, (domSetTextContent sub t st).2.1,
            pre ++ (domSetTextContent sub t st).2.2 ++ post)
        else .ok (vnode, sub, st, pre ++ post)

/-- The function `updateChildren`, with recursion depth `d` for the nodes it
patches, creates and destroys. -/
def updateChildren (d : Nat) (parentElm : Handle) (kids : List LNode)
    (oldCh : List (Option VNode)) (newCh : List VNode) (removeOnly : Bool) (st : St) :
    Except Err UState :=
  updateChildrenWith (patchVnode d true false) (createElm d) d parentElm kids oldCh newCh
    removeOnly st

/-! ## Well-formed inputs -/

/-- The handles of a child list, in order. -/
def handlesOf (kids : List LNode) : List Handle := kids.map LNode.h

/-- The declared keys of a sibling list, in order. -/
def keysOf (l : List VNode) : List Key := l.filterMap VNode.key

/-- The property names of the declared keys of a sibling list, in order. -/
def namesOf (l : List VNode) : List String := l.filterMap VNode.keyName

/-- The keys of a sibling list are plain: no two children declare keys of the
same property name, and no key is named like a property of
`Object.prototype`. -/
def plainKeys (l : List VNode) : Bool :=
  decide ((namesOf l).Nodup) && (namesOf l).all (fun nm => decide (nm ∉ objectPrototypeNames))

mutual
/-- Every handle of the live subtree is smaller than `b`. -/
def LNode.bounded (b : Nat) : LNode → Bool
  | .mk x _ _ ks => decide (x < b) && LNode.boundedL b ks
/-- Every handle of the live subtrees is smaller than `b`. -/
def LNode.boundedL (b : Nat) : List LNode → Bool
  | [] => true
  | k :: ks => LNode.bounded b k && LNode.boundedL b ks
end

mutual
/-- The live subtree is the rendering of the VNode: the node is the VNode's
`elm`, and where the VNode has a child array the live children are the
renderings of its children, in order and with distinct handles. -/
def mirrors : LNode → VNode → Bool
  | n, .mk i none => i.elm == some n.h
  | n, .mk i (some cs) =>
    i.elm == some n.h && decide ((handlesOf n.kids).Nodup) && mirrorsL n.kids cs
/-- The live nodes are the renderings of the VNodes, one for one. -/
def mirrorsL : List LNode → List VNode → Bool
  | ks, [] => ks.isEmpty
  | ks, c :: cs =>
    match ks with
    | [] => false
    | k :: ks1 => mirrors k c && mirrorsL ks1 cs
end

mutual
/-- Well-formed VNode tree: an async placeholder carries its factory, no
remove listener of a node keeps the removal callback past its return, and the
keys of every sibling list are plain. -/
def VNode.wellFormed : VNode → Bool
  | .mk i none =>
    (!i.isAsyncPlaceholder || i.asyncFactory.isSome) &&
      !(i.data.map VData.rmDeferred).getD false
  | .mk i (some cs) =>
    (!i.isAsyncPlaceholder || i.asyncFactory.isSome) &&
      !(i.data.map VData.rmDeferred).getD false && plainKeys cs && VNode.wellFormedL cs
/-- Well-formed VNode trees. -/
def VNode.wellFormedL : List VNode → Bool
  | [] => true
  | c :: cs => VNode.wellFormed c && VNode.wellFormedL cs
end

mutual
/-- Height of a VNode tree: the recursion depth it needs. -/
def VNode.height : VNode → Nat
  | .mk _ none => 1
  | .mk _ (some cs) => VNode.heightL cs + 1
/-- Largest height in a list of VNode trees. -/
def VNode.heightL : List VNode → Nat
  | [] => 0
  | c :: cs => max (VNode.height c) (VNode.heightL cs)
end


/-- What the keyed diff needs of `createElm` on a node: the created VNode,
live node, state and events do not depend on where the node is inserted, the
handle is the next fresh one, and the call is `insert` of the created node. -/
def CeSpec (ce : CreateElm) (n : VNode) : Prop :=
  ∀ (hasOwner : Bool) (st : St), ∃ n1 node st1 ev,
    n1.elm = some st.next ∧ node.h = st.next ∧ n1.key = n.key ∧ st.next < st1.next ∧
    LNode.bounded st1.next node = true ∧
    ∀ parentElm kids ref, ce n parentElm kids ref hasOwner st =
      match insert parentElm kids node ref with
      | .error e => .error e
      | .ok r => .ok (n1, node, r.1, st1, ev ++ r.2)

/-- The new-array indices a trace handled: one entry for each patch and each
creation. -/
def newIdxs (tr : List UEv) : List Int :=
  tr.filterMap (fun e =>
    match e with
    | .patch _ j => some j
    | .create j => some j
    | _ => none)

/-- The old-array indices a trace handled: one entry for each patch and each
removal. -/
def oldIdxs (tr : List UEv) : List Int :=
  tr.filterMap (fun e =>
    match e with
    | .patch i _ => some i
    | .remove i => some i
    | _ => none)

/-- The node-level part of well-formedness: an async placeholder carries its
factory. -/
def nodeOk (v : VNode) : Prop :=
  v.info.isAsyncPlaceholder = true → v.info.asyncFactory.isSome = true

/-- The index facts that hold at the head of every iteration of the loop of
`updateChildren`; `olds` and `news` are the arrays as passed in and `b0` the
first fresh handle at entry. -/
structure Core (olds news : List VNode) (b0 : Nat) (s : UState) : Prop where
  lenO : s.oldCh.length = olds.length
  lenN : s.newCh.length = news.length
  os0 : 0 ≤ s.oldStartIdx
  oe1 : s.oldEndIdx < olds.length
  ose : s.oldStartIdx ≤ s.oldEndIdx + 1
  ns0 : 0 ≤ s.newStartIdx
  ne1 : s.newEndIdx < news.length
  nse : s.newStartIdx ≤ s.newEndIdx + 1
  oldSlot : ∀ i v, slotAt s.oldCh i = some v → getAt olds i = some v
  newMid : ∀ j, s.newStartIdx ≤ j → j ≤ s.newEndIdx → getAt s.newCh j = getAt news j
  newKey : ∀ j v, getAt s.newCh j = some v → ∃ v0, getAt news j = some v0 ∧ v.key = v0.key
  mapInv : ∀ m, s.oldKeyToIdx = some m → ∀ k i, m.lookup k = some i →
    (s.oldStartIdx ≤ i ∧ i ≤ s.oldEndIdx ∧
      ∃ v, slotAt s.oldCh i = some v ∧ v.keyName = some k) ∨
    (∃ j v, (j < s.newStartIdx ∨ s.newEndIdx < j) ∧ getAt s.newCh j = some v ∧
      v.keyName = some k)
  noHole : s.oldKeyToIdx = none →
    ∀ i, s.oldStartIdx ≤ i → i ≤ s.oldEndIdx → slotAt s.oldCh i ≠ none
  mapFull : ∀ m, s.oldKeyToIdx = some m → ∀ i v k, s.oldStartIdx ≤ i → i ≤ s.oldEndIdx →
    slotAt s.oldCh i = some v → v.keyName = some k → k ≠ "__proto__" →
    ∃ i1, m.lookup k = some i1
  trNewNodup : (newIdxs s.trace).Nodup
  trNewMem : ∀ j, j ∈ newIdxs s.trace ↔
    (0 ≤ j ∧ j < s.newStartIdx) ∨ (s.newEndIdx < j ∧ j < news.length)
  trOldNodup : (oldIdxs s.trace).Nodup
  trOldMem : ∀ i, i ∈ oldIdxs s.trace ↔
    0 ≤ i ∧ i < olds.length ∧ (i < s.oldStartIdx ∨ s.oldEndIdx < i ∨ slotAt s.oldCh i = none)
  trPatch : ∀ i j, UEv.patch i j ∈ s.trace → ∃ o n v, getAt olds i = some o ∧
    getAt news j = some n ∧ sameVnode o n = .ok true ∧ getAt s.newCh j = some v ∧ v.elm = o.elm
  trCreate : ∀ j, UEv.create j ∈ s.trace →
    ∃ v x, getAt s.newCh j = some v ∧ v.elm = some x ∧ b0 ≤ x
  trRemove : ∀ i, UEv.remove i ∉ s.trace

/-- What the keyed diff needs of `patchVnode` on a pair: on the rendering of
the old node it returns, keeps the handle of the live node, gives the new
node the old handle, keeps the key, and takes fresh handles only. -/
def PvSpec (pv : PatchVnode) (o n : VNode) : Prop :=
  ∀ (sub : LNode) (st : St), mirrors sub o = true → LNode.bounded st.next sub = true →
    ∃ n1 sub1 st1 ev, pv o n sub st = .ok (n1, sub1, st1, ev) ∧ sub1.h = sub.h ∧
      n1.elm = o.elm ∧ n1.key = n.key ∧ st.next ≤ st1.next ∧
      LNode.bounded st1.next sub1 = true

/-- The shape of the arrays and of the live child list at the head of every
iteration of the loop of `updateChildren` when moves are allowed: the live
children are the handled new start nodes, then the old nodes still to be
handled, then the handled new end nodes. -/
structure Dom (s : UState) (Po Mo So : List (Option VNode)) (Pn Mn Sn : List VNode)
    (KP KM KS : List LNode) : Prop where
  hO : s.oldCh = Po ++ (Mo ++ So)
  hPo : (Po.length : Int) = s.oldStartIdx
  hMo : (Po.length : Int) + Mo.length = s.oldEndIdx + 1
  hN : s.newCh = Pn ++ (Mn ++ Sn)
  hPn : (Pn.length : Int) = s.newStartIdx
  hMn : (Pn.length : Int) + Mn.length = s.newEndIdx + 1
  hK : s.kids = KP ++ (KM ++ KS)
  domP : KP.map (fun k => some k.h) = Pn.map VNode.elm
  domM : KM.map (fun k => some k.h) = Mo.reduceOption.map VNode.elm
  domS : KS.map (fun k => some k.h) = Sn.map VNode.elm
  nodup : (s.kids.map LNode.h).Nodup
  bnd : ∀ k ∈ s.kids, LNode.bounded s.st.next k = true
  mir : ∀ v ∈ Mo.reduceOption, ∀ k ∈ KM, v.elm = some k.h → mirrors k v = true

/-- The live child list right after one of the old nodes still to be handled
has been patched: `sub1` is its live node, `KA` and `KB` are the live nodes of
the old nodes before and after it. -/
structure Split (KP KA KB KS : List LNode) (sub1 : LNode) (Pn Sn : List VNode)
    (A B : List (Option VNode)) (o : VNode) (next : Nat) : Prop where
  hP : KP.map (fun k => some k.h) = Pn.map VNode.elm
  hA : KA.map (fun k => some k.h) = A.reduceOption.map VNode.elm
  hB : KB.map (fun k => some k.h) = B.reduceOption.map VNode.elm
  hS : KS.map (fun k => some k.h) = Sn.map VNode.elm
  hsub : o.elm = some sub1.h
  nodup : ((KP ++ (KA ++ sub1 :: (KB ++ KS))).map LNode.h).Nodup
  bnd : ∀ k ∈ KP ++ (KA ++ sub1 :: (KB ++ KS)), LNode.bounded next k = true
  mir : ∀ v ∈ A.reduceOption ++ B.reduceOption, ∀ k ∈ KA ++ KB,
    v.elm = some k.h → mirrors k v = true

/-- The shape of the arrays and of the live child list holds for some split
of the arrays and of the child list. -/
def DomInv (s : UState) : Prop :=
  ∃ Po Mo So Pn Mn Sn KP KM KS, Dom s Po Mo So Pn Mn Sn KP KM KS

/-- The four indices of two states agree. -/
def samePtrs (s s1 : UState) : Prop :=
  s1.oldStartIdx = s.oldStartIdx ∧ s1.oldEndIdx = s.oldEndIdx ∧
    s1.newStartIdx = s.newStartIdx ∧ s1.newEndIdx = s.newEndIdx

/-- What `updateChildren` is given: well-formed nodes, no key declared twice
among the new children, and a `patchVnode` and a `createElm` that behave on
the nodes of the two arrays. -/
structure Hyp (pv : PatchVnode) (ce : CreateElm) (olds news : List VNode) : Prop where
  hno : ∀ o ∈ olds, nodeOk o
  hnn : ∀ n ∈ news, nodeOk n
  hkeys : (keysOf news).Nodup
  hpv : ∀ o ∈ olds, ∀ n ∈ news, sameVnode o n = .ok true → PvSpec pv o n
  hce : ∀ n ∈ news, CeSpec ce n

/-- The facts that hold at the head of every iteration of the loop of
`updateChildren` when moves are allowed. -/
structure LoopInv (olds news : List VNode) (b0 : Nat) (s : UState) : Prop where
  core : Core olds news b0 s
  dom : DomInv s
  fresh : b0 ≤ s.st.next


/-- The indices of the slots of `Mo` that hold a node, when `Mo` starts at
index `i` of its array. -/
def someIdxs (i : Int) : List (Option VNode) → List Int
  | [] => []
  | none :: B => someIdxs (i + 1) B
  | some _ :: B => i :: someIdxs (i + 1) B

/-- The removals of a run of `removeVnodes` over the slots `Mo` from index
`i`: one for each slot that holds a node. -/
def removesOf (i : Int) (Mo : List (Option VNode)) : List UEv :=
  (someIdxs i Mo).map UEv.remove

/-- The facts that hold when `updateChildren` returns with moves allowed:
the live children are the new nodes in order, every new index was patched or
created exactly once and every old index was patched or removed exactly
once. -/
structure Done (olds news : List VNode) (b0 : Nat) (s : UState) : Prop where
  lenN : s.newCh.length = news.length
  order : s.kids.map (fun k => some k.h) = s.newCh.map VNode.elm
  nodup : (s.kids.map LNode.h).Nodup
  bnd : ∀ k ∈ s.kids, LNode.bounded s.st.next k = true
  fresh : b0 ≤ s.st.next
  trNewNodup : (newIdxs s.trace).Nodup
  trNewMem : ∀ j, j ∈ newIdxs s.trace ↔ 0 ≤ j ∧ j < news.length
  trOldNodup : (oldIdxs s.trace).Nodup
  trOldMem : ∀ i, i ∈ oldIdxs s.trace ↔ 0 ≤ i ∧ i < olds.length
  trPatch : ∀ i j, UEv.patch i j ∈ s.trace → ∃ o n v, getAt olds i = some o ∧
    getAt news j = some n ∧ sameVnode o n = .ok true ∧ getAt s.newCh j = some v ∧ v.elm = o.elm
  trCreate : ∀ j, UEv.create j ∈ s.trace →
    ∃ v x, getAt s.newCh j = some v ∧ v.elm = some x ∧ b0 ≤ x


/-- What `patchVnode` and the loop of `hydrate` need of `hydrate` on a node:
on a live node whose handles are in use it returns, keeps the handle of the
live node, gives it to the VNode, and takes fresh handles only. -/
def HySpec (hy : Hydrate) (v : VNode) : Prop :=
  ∀ (elm : LNode) (st : St), LNode.bounded st.next elm = true →
    ∃ b v1 n1 st1 ev, hy elm v st = .ok (b, v1, n1, st1, ev) ∧ n1.h = elm.h ∧
      v1.elm = some elm.h ∧ v1.key = v.key ∧ st.next ≤ st1.next ∧
      LNode.bounded st1.next n1 = true


/-- What a call of `updateChildren` is given, whatever the keys of the new
children: the live children are the rendering of the old children with
distinct handles all in use, the trees are well formed, and the depth is
enough for every tree. -/
structure Rendered (d : Nat) (olds news : List VNode) (kids : List LNode) (st : St) : Prop where
  wfOld : VNode.wellFormedL olds = true
  wfNew : VNode.wellFormedL news = true
  hOld : VNode.heightL olds ≤ d
  hNew : VNode.heightL news ≤ d
  mir : mirrorsL kids olds = true
  nodup : (handlesOf kids).Nodup
  bnd : LNode.boundedL st.next kids = true

/-- What a call of `updateChildren` is given: rendered and well-formed input
in which the keys of the new children are plain, so that no key is declared
twice among them, no two of them have the same property name, and none is
named like a property of `Object.prototype`. -/
structure Ready (d : Nat) (olds news : List VNode) (kids : List LNode) (st : St)
    extends Rendered d olds news kids st : Prop where
  keysNew : plainKeys news = true

/-- Example data: an element VNode without data and with an empty child
array. -/
def mkEl (tag : String) (key : Option Key) (elm : Option Handle) : VNode :=
  .mk { tag := some tag, data := none, text := none, elm := elm, key := key, isComment := false,
        isStatic := false, isCloned := false, isOnce := false, isAsyncPlaceholder := false,
        asyncFactory := none } (some [])

/-- Example data: a live element without children. -/
def liveEl (h : Handle) (tag : String) : LNode := .mk h (.element tag) "" []

/-- Example data: an engine state whose next fresh handle is 100. -/
def st0 : St := { next := 100, queue := [] }


/-- Example data: the old children `[a, b, c, d]`, keyed 1 to 4 and rendered
as the live nodes 10 to 13. -/
def oldAbcd : List VNode :=
  [mkEl "li" (some 1) (some 10), mkEl "li" (some 2) (some 11), mkEl "li" (some 3) (some 12),
   mkEl "li" (some 4) (some 13)]

/-- Example data: the new children `[d, b, c, a]`. -/
def newDbca : List VNode :=
  [mkEl "li" (some 4) none, mkEl "li" (some 2) none, mkEl "li" (some 3) none,
   mkEl "li" (some 1) none]

/-- Example data: the live children of the parent, the renderings of
`[a, b, c, d]`. -/
def kidsAbcd : List LNode := [liveEl 10 "li", liveEl 11 "li", liveEl 12 "li", liveEl 13 "li"]


/-- Example data: `updateChildren` on `[a, b, c, d]` and `[d, b, c, a]` at
the head of the loop. -/
def abcdS0 : UState :=
  { kids := kidsAbcd, oldCh := oldAbcd.map some, newCh := newDbca,
    oldStartIdx := 0, oldEndIdx := 3, newStartIdx := 0, newEndIdx := 3,
    oldKeyToIdx := none, st := st0, trace := [], log := [] }

/-- Example data: the state after `a` was patched and moved to the end. -/
def abcdS1 : UState :=
  { kids := [liveEl 11 "li", liveEl 12 "li", liveEl 13 "li", liveEl 10 "li"],
    oldCh := oldAbcd.map some,
    newCh := [mkEl "li" (some 4) none, mkEl "li" (some 2) none, mkEl "li" (some 3) none,
              mkEl "li" (some 1) (some 10)],
    oldStartIdx := 1, oldEndIdx := 3, newStartIdx := 0, newEndIdx := 2,
    oldKeyToIdx := none, st := st0,
    trace := [.patch 0 3, .move 10 none],
    log := [.insertBefore 0 10 none] }

/-- Example data: the state after `d` was patched and moved to the front. -/
def abcdS2 : UState :=
  { kids := [liveEl 13 "li", liveEl 11 "li", liveEl 12 "li", liveEl 10 "li"],
    oldCh := oldAbcd.map some,
    newCh := [mkEl "li" (some 4) (some 13), mkEl "li" (some 2) none, mkEl "li" (some 3) none,
              mkEl "li" (some 1) (some 10)],
    oldStartIdx := 1, oldEndIdx := 2, newStartIdx := 1, newEndIdx := 2,
    oldKeyToIdx := none, st := st0,
    trace := [.patch 0 3, .move 10 none, .patch 3 0, .move 13 (some 11)],
    log := [.insertBefore 0 10 none, .insertBefore 0 13 (some 11)] }

/-- Example data: the state after `b` was patched in place. -/
def abcdS3 : UState :=
  { kids := [liveEl 13 "li", liveEl 11 "li", liveEl 12 "li", liveEl 10 "li"],
    oldCh := oldAbcd.map some,
    newCh := [mkEl "li" (some 4) (some 13), mkEl "li" (some 2) (some 11), mkEl "li" (some 3) none,
              mkEl "li" (some 1) (some 10)],
    oldStartIdx := 2, oldEndIdx := 2, newStartIdx := 2, newEndIdx := 2,
    oldKeyToIdx := none, st := st0,
    trace := [.patch 0 3, .move 10 none, .patch 3 0, .move 13 (some 11), .patch 1 1],
    log := [.insertBefore 0 10 none, .insertBefore 0 13 (some 11)] }

/-- Example data: the state after `c` was patched in place, at the exit of
the loop. -/
def abcdS4 : UState :=
  { kids := [liveEl 13 "li", liveEl 11 "li", liveEl 12 "li", liveEl 10 "li"],
    oldCh := oldAbcd.map some,
    newCh := [mkEl "li" (some 4) (some 13), mkEl "li" (some 2) (some 11),
              mkEl "li" (some 3) (some 12), mkEl "li" (some 1) (some 10)],
    oldStartIdx := 3, oldEndIdx := 2, newStartIdx := 3, newEndIdx := 2,
    oldKeyToIdx := none, st := st0,
    trace := [.patch 0 3, .move 10 none, .patch 3 0, .move 13 (some 11), .patch 1 1, .patch 2 2],
    log := [.insertBefore 0 10 none, .insertBefore 0 13 (some 11)] }

/-- Example data: old children keyed `[2, 1, 3]` against new children keyed
`[1, 1]`, at the head of the loop. -/
def dupS0 : UState :=
  { kids := [liveEl 10 "li", liveEl 11 "li", liveEl 12 "li"],
    oldCh := [some (mkEl "li" (some 2) (some 10)), some (mkEl "li" (some 1) (some 11)),
              some (mkEl "li" (some 3) (some 12))],
    newCh := [mkEl "li" (some 1) none, mkEl "li" (some 1) none],
    oldStartIdx := 0, oldEndIdx := 2, newStartIdx := 0, newEndIdx := 1,
    oldKeyToIdx := none, st := st0, trace := [], log := [] }

/-- Example data: the state after the first new child took the old node of
key 1 and left its slot empty. -/
def dupS1 : UState :=
  { kids := [liveEl 11 "li", liveEl 10 "li", liveEl 12 "li"],
    oldCh := [some (mkEl "li" (some 2) (some 10)), none, some (mkEl "li" (some 3) (some 12))],
    newCh := [mkEl "li" (some 1) (some 11), mkEl "li" (some 1) none],
    oldStartIdx := 0, oldEndIdx := 2, newStartIdx := 1, newEndIdx := 1,
    oldKeyToIdx := some [("3", 2), ("1", 1), ("2", 0)], st := st0,
    trace := [.patch 1 0, .move 11 (some 10)],
    log := [.insertBefore 0 11 (some 10)] }


/-- The events of a pure removal, for old children `P ++ R ++ S` and new
children matching `P ++ S`, with `a`, `r`, `c` the lengths of `P`, `R`, `S`: a
patch of a pair of `P` in place, a patch of a pair of `S` in place, or the
removal of a node of `R`. -/
def Kept (a r c : Nat) (ev : UEv) : Prop :=
  (∃ t : Nat, t < a ∧ ev = UEv.patch t t) ∨
  (∃ t : Nat, t < c ∧ ev = UEv.patch ((a : Int) + r + t) ((a : Int) + t)) ∨
  (∃ t : Nat, t < r ∧ ev = UEv.remove ((a : Int) + t))

/-- The facts that hold at the head of every iteration of the loop of
`updateChildren` on a pure removal: no slot was emptied, the start indices
agree, the end indices are `r` apart, and only surviving pairs were
patched. -/
structure RemInv (olds news : List VNode) (b0 : Nat) (a r c : Nat) (s : UState) : Prop where
  inv : LoopInv olds news b0 s
  hO : s.oldCh = olds.map some
  hs : s.oldStartIdx = s.newStartIdx
  he : s.oldEndIdx = s.newEndIdx + r
  hfront : r = 0 ∨ s.newStartIdx ≤ a
  hback : (a : Int) ≤ s.newEndIdx + 1
  htr : ∀ ev ∈ s.trace, Kept a r c ev


/-- Whether a trace event is something else than a move. -/
def notMove : UEv → Bool
  | .move _ _ => false
  | _ => true

/-- The state `s1` of a run of `updateChildren` with `removeOnly` set, next to
the state `s` of the run without it: the arrays, indices, key map and engine
state agree, the live children are the same nodes in some order, and the
trace is the trace of `s` without its moves. -/
structure Rel (s s1 : UState) : Prop where
  hO : s1.oldCh = s.oldCh
  hN : s1.newCh = s.newCh
  hos : s1.oldStartIdx = s.oldStartIdx
  hoe : s1.oldEndIdx = s.oldEndIdx
  hns : s1.newStartIdx = s.newStartIdx
  hne : s1.newEndIdx = s.newEndIdx
  hM : s1.oldKeyToIdx = s.oldKeyToIdx
  hst : s1.st = s.st
  hK : s1.kids.Perm s.kids
  hT : s1.trace = s.trace.filter notMove


/-- Two final states of `updateChildren` that differ by the moves only: the
new children, the engine state and the trace without its moves agree, and
the live children are the same nodes in some order. -/
structure Same (s s1 : UState) : Prop where
  hN : s1.newCh = s.newCh
  hst : s1.st = s.st
  hK : s1.kids.Perm s.kids
  hT : s1.trace.filter notMove = s.trace.filter notMove


/-- The new children are a permutation of the old children: every old child
declares a key, no key is declared twice, the keys of the two lists are the
same, and children of the same key are the same node. -/
structure PermHyp (olds news : List VNode) : Prop where
  hko : ∀ o ∈ olds, o.key.isSome = true
  hkn : (keysOf olds).Nodup
  hperm : (olds.map VNode.key).Perm (news.map VNode.key)
  hsame : ∀ o ∈ olds, ∀ n ∈ news, o.key = n.key → sameVnode o n = .ok true


/-- The fields the idempotence claim compares at one position: tag, key,
comment flag, data presence and text. -/
def sameFields (i j : VInfo) : Bool :=
  decide (i.tag = j.tag) && decide (i.key = j.key) && decide (i.isComment = j.isComment)
    && decide (i.data.isSome = j.data.isSome) && decide (i.text = j.text)

mutual
/-- The relation the idempotence claim names, in its words: the same shape,
tags, keys, comment flags, data presence and text at every position. -/
def structurallyIdentical : VNode → VNode → Bool
  | .mk i none, .mk j none => sameFields i j
  | .mk i (some a), .mk j (some b) => sameFields i j && structurallyIdenticalL a b
  | _, _ => false
/-- The relation of the idempotence claim on two child arrays, pair by
pair. -/
def structurallyIdenticalL : List VNode → List VNode → Bool
  | [], [] => true
  | x :: xs, y :: ys => structurallyIdentical x y && structurallyIdenticalL xs ys
  | _, _ => false
end

/-- Two nodes that `patchVnode` takes for one: the old node is not an async
placeholder, the two are the same node for `sameVnode`, and they have the
same text. -/
def sameNode (i j : VInfo) : Bool :=
  (match sameVnodeInfo i j with
    | .ok true => true
    | _ => false)
    && !i.isAsyncPlaceholder && decide (i.text = j.text)

mutual
/-- Two trees that `patchVnode` leaves alone: at every position the old node
is not an async placeholder, the two nodes are the same node for `sameVnode`
and have the same text, and the child arrays have the same length. -/
def sameTree : VNode → VNode → Bool
  | .mk i none, .mk j none => sameNode i j
  | .mk i (some a), .mk j (some b) => sameNode i j && sameTreeL a b
  | _, _ => false
/-- Two child arrays that `patchVnode` leaves alone, pair by pair. -/
def sameTreeL : List VNode → List VNode → Bool
  | [], [] => true
  | x :: xs, y :: ys => sameTree x y && sameTreeL xs ys
  | _, _ => false
end

/-- The hooks of the update phase: `prepatch`, the module `update` hooks,
`update` and `postpatch`. -/
def isUpdateHook : Ev → Bool
  | .hook .prepatch _ => true
  | .hook .moduleUpdate _ => true
  | .hook .update _ => true
  | .hook .postpatch _ => true
  | _ => false

/-- Example data: an `input` element with a `type` attribute. -/
def inputEl (ty : String) (elm : Option Handle) : VNode :=
  .mk { tag := some "input",
        data := some { attrs := some { inputType := some ty }, hook := none },
        text := none, elm := elm, key := none, isComment := false, isStatic := false,
        isCloned := false, isOnce := false, isAsyncPlaceholder := false,
        asyncFactory := none } (some [])

/-- Example data: a `div` with one child. -/
def divOf (elm : Option Handle) (c : VNode) : VNode :=
  .mk { tag := some "div", data := none, text := none, elm := elm, key := none,
        isComment := false, isStatic := false, isCloned := false, isOnce := false,
        isAsyncPlaceholder := false, asyncFactory := none } (some [c])

/-- Example data: the rendering of a `div` holding one `input`. -/
def formLive : LNode := .mk 10 (.element "div") "" [liveEl 11 "input"]


/-- Example data: a rendered `div` holding a checkbox. -/
def formOld : VNode := divOf (some 10) (inputEl "checkbox" (some 11))

/-- Example data: the same `div` holding a radio button. -/
def formNew : VNode := divOf none (inputEl "radio" none)

/-- Example data: `updateChildren` on the children of `formOld` and `formNew`
at the head of the loop. -/
def formS0 : UState :=
  { kids := [liveEl 11 "input"], oldCh := [some (inputEl "checkbox" (some 11))],
    newCh := [inputEl "radio" none],
    oldStartIdx := 0, oldEndIdx := 0, newStartIdx := 0, newEndIdx := 0,
    oldKeyToIdx := none, st := st0, trace := [], log := [] }

/-- Example data: the state after the radio button was created in front of
the checkbox. -/
def formS1 : UState :=
  { kids := [liveEl 100 "input", liveEl 11 "input"],
    oldCh := [some (inputEl "checkbox" (some 11))],
    newCh := [inputEl "radio" (some 100)],
    oldStartIdx := 0, oldEndIdx := 0, newStartIdx := 1, newEndIdx := 0,
    oldKeyToIdx := some [], st := { next := 101, queue := [] },
    trace := [.create 0],
    log := [.createElement "input" 100, .hook .moduleCreate (some 100),
            .insertBefore 10 100 (some 11)] }

/-- Example data: the state after the checkbox was removed. -/
def formS2 : UState :=
  { kids := [liveEl 100 "input"],
    oldCh := [some (inputEl "checkbox" (some 11))],
    newCh := [inputEl "radio" (some 100)],
    oldStartIdx := 0, oldEndIdx := 0, newStartIdx := 1, newEndIdx := 0,
    oldKeyToIdx := some [], st := { next := 101, queue := [] },
    trace := [.create 0, .remove 0],
    log := [.createElement "input" 100, .hook .moduleCreate (some 100),
            .insertBefore 10 100 (some 11), .hook .moduleRemove (some 11),
            .removeChild 10 11, .hook .moduleDestroy (some 11)] }

/-- A pair of child nodes that the loop of `updateChildren` patches without
touching the live children `kids` or the state `st`: the two are the same
node, the old one is rendered by a child of `kids`, and `pv` returns that
child and the state as they were, with update hooks as its only events. -/
def QuietPair (pv : PatchVnode) (kids : List LNode) (st : St) (o n : VNode) : Prop :=
  sameVnode o n = .ok true ∧ ∃ e sub, o.elm = some e ∧ findH kids e = some sub ∧
    ∃ v1 ev, pv o n sub st = .ok (v1, sub, st, ev) ∧ ∀ x ∈ ev, isUpdateHook x = true

/-- Example data: a rendered `div` holding a text input. -/
def textOld : VNode := divOf (some 10) (inputEl "text" (some 11))

/-- Example data: the same `div` holding an e-mail input. -/
def emailNew : VNode := divOf none (inputEl "email" none)

/-- What the run of `updateChildren` on arbitrary lists needs of `patchVnode`
on a new node: when it returns, it keeps the handle of the live node and
takes fresh handles only. -/
def PvKeeps (pv : PatchVnode) (n : VNode) : Prop :=
  ∀ (o : VNode) (sub : LNode) (st : St) (v1 : VNode) (sub1 : LNode) (st1 : St) (ev : List Ev),
    LNode.bounded st.next sub = true → pv o n sub st = .ok (v1, sub1, st1, ev) →
      sub1.h = sub.h ∧ st.next ≤ st1.next ∧ LNode.bounded st1.next sub1 = true

/-- What a patch, a creation or a move inside one iteration of
`updateChildren` keeps, whatever the lists: handles are only taken fresh, the
live children stay within the handles in use and stay distinct, and the new
array changes at index `j` only. -/
def Step (j : Int) (s sp : UState) : Prop :=
  s.st.next ≤ sp.st.next ∧ (∀ k ∈ sp.kids, LNode.bounded sp.st.next k = true) ∧
    ((s.kids.map LNode.h).Nodup → (sp.kids.map LNode.h).Nodup) ∧
    (∀ t, t ≠ j → getAt sp.newCh t = getAt s.newCh t) ∧
    sp.newStartIdx = s.newStartIdx ∧ sp.newEndIdx = s.newEndIdx

/-- What holds at the head of every iteration of the loop of
`updateChildren`, whatever the lists: the live children are within the
handles in use, and the new nodes still to be handled are those of the
array given. -/
structure Lite (news : List VNode) (b0 : Nat) (s : UState) : Prop where
  bnd : ∀ k ∈ s.kids, LNode.bounded s.st.next k = true
  fresh : b0 ≤ s.st.next
  mid : ∀ j, s.newStartIdx ≤ j → j ≤ s.newEndIdx → getAt s.newCh j = getAt news j

/-- Example data: an old node flagged as an async placeholder, a `div` that
carries the factory 7. -/
def asyncOld : VNode :=
  .mk { tag := some "div", data := none, text := none, elm := some 10, key := none,
        isComment := false, isStatic := false, isCloned := false, isOnce := false,
        isAsyncPlaceholder := true,
        asyncFactory := some { uid := 7, hasError := false, resolved := false } } none

/-- Example data: a new node of another tag that carries the factory 7 and is
not flagged as an async placeholder. -/
def asyncNew : VNode :=
  .mk { tag := some "span", data := none, text := none, elm := none, key := none,
        isComment := false, isStatic := false, isCloned := false, isOnce := false,
        isAsyncPlaceholder := false,
        asyncFactory := some { uid := 7, hasError := false, resolved := false } } none

/-- Example data: a node flagged as an async placeholder that carries no
factory. -/
def orphanOld : VNode :=
  .mk { tag := some "div", data := none, text := none, elm := some 10, key := none,
        isComment := false, isStatic := false, isCloned := false, isOnce := false,
        isAsyncPlaceholder := true, asyncFactory := none } none

/-- Whether a recorded call is a Node Operations call (and not a hook). -/
def isNodeOp : Ev → Bool
  | .hook _ _ => false
  | _ => true

/-- Example data: a static text node. -/
def staticText (txt : String) (elm : Option Handle) (cloned : Bool) : VNode :=
  .mk { tag := none, data := none, text := some txt, elm := elm, key := none,
        isComment := false, isStatic := true, isCloned := cloned, isOnce := false,
        isAsyncPlaceholder := false, asyncFactory := none } none

/-- Example data: a text node. -/
def textNode (txt : String) (elm : Option Handle) : VNode :=
  .mk { tag := none, data := none, text := some txt, elm := elm, key := none,
        isComment := false, isStatic := false, isCloned := false, isOnce := false,
        isAsyncPlaceholder := false, asyncFactory := none } none

/-- Example data: a `div` with data that declares a remove hook. -/
def hookedDiv (elm : Option Handle) (withRemove : Bool) : VNode :=
  .mk { tag := some "div",
        data := some { attrs := none,
                       hook := some { prepatch := false, update := false, postpatch := false,
                                      insert := false, create := false, destroy := false,
                                      remove := withRemove } },
        text := none, elm := elm, key := none, isComment := false, isStatic := false,
        isCloned := false, isOnce := false, isAsyncPlaceholder := false,
        asyncFactory := none } (some [])

/-! ## The entry point `patch` -/

/-- Modelled from the spec: the VNode constructor of `vdom/vnode` as
`emptyNodeAt` calls it, on the tag name of a live element (the Node
Operations adapter's `tagName`), with an empty data block, an empty child
array and the element as `elm`; the tag name of a node that is not an element
is undefined, and lowering it is a `TypeError`. -/
def emptyNodeAt (elm : LNode) : Except Err VNode :=
  match elm.kind with
  | .element t =>
    .ok (.mk { tag := some t.toLower, data := some { attrs := none, hook := none },
               text := none, elm := some elm.h, key := none, isComment := false,
               isStatic := false, isCloned := false, isOnce := false,
               isAsyncPlaceholder := false, asyncFactory := none } (some []))
  | _ => .error .typeError

/-- The loop of `invokeInsertHook`: `queue[i].data.hook.insert(queue[i])` for
every queued node; calling a hook that is not there is a `TypeError`. -/
def insertHookLoop : List VInfo → Except Err (List Ev)
  | [] => .ok []
  | q :: qs =>
    if declaresInsert q then
      match insertHookLoop qs with
      | .error e => .error e
      | .ok ev => .ok (Ev.hook .insert q.elm :: ev)
    else .error .typeError

/-- The function `invokeInsertHook`; `parent` is `vnode.parent`, when it is
defined, given by its `data`.  It returns the queue it stores in
`vnode.parent.data.pendingInsert`, if it does, and the hooks it invokes;
writing a field of an undefined `data` is a `TypeError`. -/
def invokeInsertHook (parent : Option (Option VData)) (queue : List VInfo) (initial : Bool) :
    Except Err (Option (List VInfo) × List Ev) :=
  if initial && parent.isSome then
    match parent with
    | some (some _) => .ok (some queue, [])
    | _ => .error .typeError
  else
    match insertHookLoop queue with
    | .error e => .error e
    | .ok ev => .ok (none, ev)

/-- The first argument of `patch`: undefined, a live node of the page (its
`nodeType` is defined; `ssr` tells whether it carries the server-rendering
attribute), or a VNode. -/
inductive OldRoot where
  | absent
  | real (elm : Handle) (ssr : Bool)
  | vnode (v : VNode)

/-- What a call of `patch` leaves: the value it returns, the new VNode, the
live node of the new root when the call made or patched one, the child list
the old root is in, the state and the events. -/
structure PatchOut where
  ret : Option Handle
  vnode : Option VNode
  node : Option LNode
  kids : List LNode
  st : St
  log : List Ev

/-- The statement `if (isDef(parentElm)) removeVnodes([oldVnode], 0, 0) else
if (isDef(oldVnode.tag)) invokeDestroyHook(oldVnode)` at the end of the
replacing branch of `patch`. -/
def destroyOld (d : Nat) (oldVnode : VNode) (parent : Option Handle) (kids : List LNode) :
    Except Err (List LNode × List Ev) :=
  match parent with
  | some p =>
    match removeVnodes d p [some oldVnode] 0 0 kids with
    | .error e => .error e
    | .ok (kids1, _, ev1) => .ok (kids1, ev1)
  | none =>
    if oldVnode.info.tag.isSome then
      match invokeDestroyHook d oldVnode with
      | .error e => .error e
      | .ok ev1 => .ok (kids, ev1)
    else .ok (kids, [])

/-- The branch of `patch` that replaces the old root, from `const oldElm =
oldVnode.elm` on: the new tree is created in front of the next sibling of the
old element, then the old node is removed and destroyed, and the insert hooks
run.  `parent` is `nodeOps.parentNode(oldElm)`, `kids` the child list the old
element is in, `ev0` the events so far.  The new root has no parent
placeholder and the old element is in no leaving transition. -/
def patchReplace (d : Nat) (oldVnode vnode : VNode) (parent : Option Handle)
    (kids : List LNode) (st : St) (ev0 : List Ev) : Except Err PatchOut :=
  match oldVnode.elm with
  | none => .error .typeError
  | some oldElm =>
    if !hasH kids oldElm then .error .detached
    else
      match createElm d vnode parent kids
          (if parent.isSome then nextSiblingH kids oldElm else none) false st with
      | .error e => .error e
      | .ok (v1, node, kids1, st1, ev1) =>
        match destroyOld d oldVnode parent kids1 with
        | .error e => .error e
        | .ok (kids2, ev2) =>
          match invokeInsertHook none (st1.queue.map Subtype.val) false with
          | .error e => .error e
          | .ok (_, ev3) =>
            .ok { ret := v1.elm, vnode := some v1, node := some node, kids := kids2, st := st1,
                  log := ev0 ++ ev1 ++ ev2 ++ ev3 }

/-- The function `patch`, with recursion depth `d`.  `parent` is the parent
of the old root element, if it has one, and `kids` the child list the old
root element is in (the old root alone when it has no parent).  The
insertion queue starts empty. -/
def patch (d : Nat) (oldVnode : OldRoot) (vnode : Option VNode) (hydrating removeOnly : Bool)
    (parent : Option Handle) (kids : List LNode) (st0 : St) : Except Err PatchOut :=
  match vnode with
  | none =>
    match oldVnode with
    | .absent =>
      .ok { ret := none, vnode := none, node := none, kids := kids, st := st0, log := [] }
    | .vnode o =>
      match invokeDestroyHook d o with
      | .error e => .error e
      | .ok ev =>
        .ok { ret := none, vnode := none, node := none, kids := kids, st := st0, log := ev }
    | .real e _ =>
      -- `invokeDestroyHook` on a live node: an element has no `data`, and its
      -- `children` are elements; the `data` of a text or a comment is a string
      match findH kids e with
      | none => .error .detached
      | some elm =>
        .ok { ret := none, vnode := none, node := none, kids := kids, st := st0,
              log := match elm.kind with
                | .element _ => []
                | _ => [.hook .moduleDestroy none] }
  | some v =>
    match oldVnode with
    | .absent =>
      match createElm d v none kids none false { st0 with queue := [] } with
      | .error e => .error e
      | .ok (v1, node, kids1, st1, ev1) =>
        match invokeInsertHook none (st1.queue.map Subtype.val) true with
        | .error e => .error e
        | .ok (_, ev2) =>
          .ok { ret := v1.elm, vnode := some v1, node := some node, kids := kids1, st := st1,
                log := ev1 ++ ev2 }
    | .vnode o =>
      match sameVnode o v with
      | .error e => .error e
      | .ok true =>
        match o.elm with
        | none => .error .detached
        | some e =>
          match findH kids e with
          | none => .error .detached
          | some sub =>
            match patchVnode d false removeOnly o v sub { st0 with queue := [] } with
            | .error err => .error err
            | .ok (v1, sub1, st1, ev1) =>
              match invokeInsertHook none (st1.queue.map Subtype.val) false with
              | .error err => .error err
              | .ok (_, ev2) =>
                .ok { ret := v1.elm, vnode := some v1, node := some sub1,
                      kids := replaceH kids e sub1, st := st1, log := ev1 ++ ev2 }
      | .ok false => patchReplace d o v parent kids { st0 with queue := [] } []
    | .real e ssr =>
      match findH kids e with
      | none => .error .detached
      | some elm =>
        if hydrating || (ssr && (match elm.kind with
                                 | .element _ => true
                                 | _ => false)) then
          match hydrate d elm v { st0 with queue := [] } with
          | .error err => .error err
          | .ok (true, v1, n1, st1, ev1) =>
            match invokeInsertHook none (st1.queue.map Subtype.val) true with
            | .error err => .error err
            | .ok (_, ev2) =>
              .ok { ret := some e, vnode := some v1, node := some n1,
                    kids := replaceH kids e n1, st := st1, log := ev1 ++ ev2 }
          | .ok (false, v1, n1, st1, ev1) =>
            match emptyNodeAt n1 with
            | .error err => .error err
            | .ok o => patchReplace d o v1 parent (replaceH kids e n1) st1 ev1
        else
          match emptyNodeAt elm with
          | .error err => .error err
          | .ok o => patchReplace d o v parent kids { st0 with queue := [] } []

/-! ## The removal callback -/

/-- The function object `remove` that `createRmCb` returns: the element it
detaches and its field `listeners`. -/
structure RmCb where
  childElm : Option Handle
  listeners : Int
deriving DecidableEq, Repr

/-- The function `createRmCb`. -/
def createRmCb (childElm : Option Handle) (listeners : Int) : RmCb :=
  { childElm := childElm, listeners := listeners }

/-- One call of the callback: `if (--remove.listeners === 0)
removeNode(childElm)`; `kids` is the child list the element may be in. -/
def RmCb.call (rm : RmCb) (parent : Handle) (kids : List LNode) :
    Except Err (RmCb × List LNode × List Ev) :=
  if rm.listeners - 1 = 0 then
    match removeNode parent kids rm.childElm with
    | .error e => .error e
    | .ok (kids1, ev1) => .ok ({ rm with listeners := rm.listeners - 1 }, kids1, ev1)
  else .ok ({ rm with listeners := rm.listeners - 1 }, kids, [])

/-- So many calls of the callback, one after the other. -/
def RmCb.calls : Nat → RmCb → Handle → List LNode → Except Err (RmCb × List LNode × List Ev)
  | 0, rm, _, kids => .ok (rm, kids, [])
  | k + 1, rm, parent, kids =>
    match rm.call parent kids with
    | .error e => .error e
    | .ok (rm1, kids1, ev1) =>
      match RmCb.calls k rm1 parent kids1 with
      | .error e => .error e
      | .ok (rm2, kids2, ev2) => .ok (rm2, kids2, ev1 ++ ev2)

/-- The function `removeAndInvokeRemoveHook` called without `rm` on a node
without child component, with `nRemove` module remove hooks registered, up to
its return: the callback it makes is handed to the module remove hooks and to
the remove hook of the node, which call it when they are done; when the node
has no remove hook the function calls it itself.  A node without data is
removed at once, without callback. -/
def removeAndInvokeRemoveHookCb (nRemove : Nat) (parent : Handle) (kids : List LNode)
    (vnode : VNode) : Except Err (Option RmCb × List LNode × List Ev) :=
  if vnode.info.data.isSome then
    if hasHook vnode Hooks.remove then
      .ok (some (createRmCb vnode.elm ((nRemove : Int) + 1)), kids,
        [.hook .moduleRemove vnode.elm, .hook .remove vnode.elm])
    else
      match (createRmCb vnode.elm ((nRemove : Int) + 1)).call parent kids with
      | .error e => .error e
      | .ok (rm1, kids1, ev1) => .ok (some rm1, kids1, [.hook .moduleRemove vnode.elm] ++ ev1)
  else
    match removeNode parent kids vnode.elm with
    | .error e => .error e
    | .ok (kids1, ev1) => .ok (none, kids1, ev1)

/-! ## Destruction order -/

mutual
/-- The nodes of a subtree in depth-first pre-order. -/
def preorder : VNode → List VInfo
  | .mk i none => [i]
  | .mk i (some cs) => i :: preorderL cs
/-- The nodes of a list of subtrees in depth-first pre-order. -/
def preorderL : List VNode → List VInfo
  | [] => []
  | c :: cs => preorder c ++ preorderL cs
end

/-- Whether `data.hook.destroy` is defined on a node. -/
def declaresDestroy (i : VInfo) : Bool :=
  ((i.data.bind VData.hook).map Hooks.destroy).getD false

/-- The destroy hooks run on one node: when the node has data, its own
destroy hook if declared, then the module destroy hooks. -/
def destroyCalls (i : VInfo) : List Ev :=
  if i.data.isSome then
    (if declaresDestroy i then [Ev.hook .destroy i.elm] else []) ++ [.hook .moduleDestroy i.elm]
  else []

/-- The destroy hooks on one node in the words of the destruction-order
claim: its own destroy hook if present, then the module destroy hooks, at
every node. -/
def destroyCallsClaimed (i : VInfo) : List Ev :=
  (if declaresDestroy i then [Ev.hook .destroy i.elm] else []) ++ [.hook .moduleDestroy i.elm]

/-! ## Input elements -/

/-- Example data: an `input` element with the given data block. -/
def inputWith (data : Option VData) : VNode :=
  .mk { tag := some "input", data := data, text := none, elm := none, key := none,
        isComment := false, isStatic := false, isCloned := false, isOnce := false,
        isAsyncPlaceholder := false, asyncFactory := none } none

/-! ## Insert hooks -/

/-- Example data: a `div` whose data declares an insert hook or not, with the
given children. -/
def insertDiv (elm : Option Handle) (withInsert : Bool) (children : Option (List VNode)) :
    VNode :=
  .mk { tag := some "div",
        data := some { attrs := none,
                       hook := some { prepatch := false, update := false, postpatch := false,
                                      insert := withInsert, create := false, destroy := false,
                                      remove := false } },
        text := none, elm := elm, key := none, isComment := false, isStatic := false,
        isCloned := false, isOnce := false, isAsyncPlaceholder := false,
        asyncFactory := none } children

/-! ## Termination of the keyed child diff -/

/-- The quantity `(oldEndIdx - oldStartIdx) + (newEndIdx - newStartIdx)` of
the loop of `updateChildren`. -/
def ucMeasure (s : UState) : Int :=
  (s.oldEndIdx - s.oldStartIdx) + (s.newEndIdx - s.newStartIdx)

/-! ## Symmetry of the identity predicate -/

/-- The scan of `findIdxInOld` with the arguments of `sameVnode` in the order
of the four pointer comparisons of `updateChildren`, old node first. -/
def findIdxInOldLoopSwapped (node : VNode) (oldCh : List (Option VNode)) (endIdx : Int) :
    Nat → Int → Except Err (Option Int)
  | 0, _ => .ok none
  | n + 1, i =>
    if i < endIdx then
      match slotAt oldCh i with
      | none => findIdxInOldLoopSwapped node oldCh endIdx n (i + 1)
      | some c =>
        match sameVnode c node with
        | .error e => .error e
        | .ok true => .ok (some i)
        | .ok false => findIdxInOldLoopSwapped node oldCh endIdx n (i + 1)
    else .ok none

/-- The function `findIdxInOld` with the arguments of `sameVnode` swapped. -/
def findIdxInOldSwapped (node : VNode) (oldCh : List (Option VNode)) (start endIdx : Int) :
    Except Err (Option Int) :=
  findIdxInOldLoopSwapped node oldCh endIdx (endIdx - start).toNat start

/-- The property name under which `createKeyToOldIdx` stores the index of a
child: the name of its key, when it declares one and the assignment writes an
own property. -/
def storedName (c : VNode) : Option String :=
  match c.key with
  | some key => if key.name = "__proto__" then none else some key.name
  | none => none

/-! # Instance events (`src/vue-2.6.14/src/core/instance/events.js`)

The event methods `$on`, `$once`, `$off` and `$emit` of an instance, for an
event given by its name.  Handlers of the caller are external functions: a
call to one of them is recorded, its result and its exceptions are dropped
(`invokeWithErrorHandling`), and while it runs it may call the event methods
of the instance, as its code has it (`Code`).  The wrapper that `$once` makes
is code of the file and is embedded as such. -/

/-- A function value as the event methods meet it: a handler of the caller,
known by its identity, or the function `on` made by a call of `$once`, known
by the serial number of that call, with the event name it closes over and the
handler that its property `fn` holds. -/
inductive Fn where
  | user (id : Nat)
  | once (serial : Nat) (event : String) (fn : Nat)
deriving DecidableEq, Repr

/-- The instance as far as events go: the object `_events` (an undefined and
a `null` entry both read as `none`), the flag `_hasHookEvent`, and the number
of wrappers made so far. -/
structure Vm where
  events : String → Option (List Fn)
  hasHookEvent : Bool
  onces : Nat

/-- A call of a handler of the caller: the handler, the arguments, and the
serial number of the wrapper that made the call, if one did. -/
structure Call where
  fn : Nat
  args : List Nat
  via : Option Nat
deriving DecidableEq, Repr

/-- The assignment `vm._events[event] = v`. -/
def setEvents (m : String → Option (List Fn)) (event : String) (v : Option (List Fn)) :
    String → Option (List Fn) :=
  fun x => if x = event then v else m x

/-- The method `$on` for one event name. -/
def Vm.on (vm : Vm) (event : String) (fn : Fn) : Vm :=
  { vm with
    events := setEvents vm.events event (some ((vm.events event).getD [] ++ [fn])),
    hasHookEvent := if event.startsWith "hook:" then true else vm.hasHookEvent }

/-- The method `$once`: a new function `on` is registered, with `on.fn = fn`. -/
def Vm.once (vm : Vm) (event : String) (fn : Nat) : Vm :=
  Vm.on { vm with onces := vm.onces + 1 } event (.once vm.onces event fn)

/-- The test `cb === fn || cb.fn === fn`; a handler of the caller has no
property `fn`. -/
def sameHandler (cb fn : Fn) : Bool :=
  cb == fn ||
    (match cb with
     | .once _ _ f => Fn.user f == fn
     | .user _ => false)

/-- The loop `while (i--)` of `$off`, with `i` the index it starts from: the
first registration it meets that passes the test is spliced out. -/
def offLoop (cbs : List Fn) (fn : Fn) : Nat → List Fn
  | 0 => cbs
  | i + 1 =>
    match cbs[i]? with
    | some cb => if sameHandler cb fn then cbs.eraseIdx i else offLoop cbs fn i
    | none => offLoop cbs fn i

/-- The method `$off` without arguments. -/
def Vm.offAll (vm : Vm) : Vm := { vm with events := fun _ => none }

/-- The method `$off` for one event name, with or without handler. -/
def Vm.off (vm : Vm) (event : String) (fn : Option Fn) : Vm :=
  match vm.events event with
  | none => vm
  | some cbs =>
    match fn with
    | none => { vm with events := setEvents vm.events event none }
    | some f => { vm with events := setEvents vm.events event (some (offLoop cbs f cbs.length)) }

/-- What a handler of the caller does to the instance while it runs: a handler
is a function of the caller, which receives the instance as `this` and may call
its event methods. -/
inductive Act where
  | emit (event : String) (args : List Nat)
  | on (event : String) (fn : Nat)
  | once (event : String) (fn : Nat)
  | off (event : String) (fn : Option Nat)
  | offAll
deriving DecidableEq, Repr

/-- The handlers of the caller: for the handler of a given identity and the
arguments it is called with, the calls of event methods it makes, in order. -/
abbrev Code := Nat → List Nat → List Act

/-- The type of `$emit` on one event name; `none` is a run that needs more
nested `$emit` calls than the depth allows. -/
abbrev Emit := Vm → String → List Nat → Option (Vm × List Call)

/-- The calls of event methods a handler makes while it runs, one after the
other; `emit` is `$emit` at the depth left. -/
def runActs (emit : Emit) : List Act → Vm → Option (Vm × List Call)
  | [], vm => some (vm, [])
  | a :: rest, vm =>
    match (match a with
           | .emit event args => emit vm event args
           | .on event f => some (vm.on event (.user f), [])
           | .once event f => some (vm.once event f, [])
           | .off event f => some (vm.off event (f.map Fn.user), [])
           | .offAll => some (vm.offAll, [])) with
    | none => none
    | some (vm1, c1) =>
      match runActs emit rest vm1 with
      | none => none
      | some (vm2, c2) => some (vm2, c1 ++ c2)

/-- One handler called by `$emit`: the call is recorded and the handler runs.
The wrapper of `$once` unregisters itself and then calls the handler it wraps
with the arguments it received.  What a handler returns or throws is dropped
(`invokeWithErrorHandling`). -/
def invokeHandler (code : Code) (emit : Emit) (vm : Vm) (cb : Fn) (args : List Nat) :
    Option (Vm × List Call) :=
  match cb with
  | .user f =>
    match runActs emit (code f args) vm with
    | none => none
    | some (vm1, c1) => some (vm1, { fn := f, args := args, via := none } :: c1)
  | .once s event f =>
    match runActs emit (code f args) (vm.off event (some (.once s event f))) with
    | none => none
    | some (vm1, c1) => some (vm1, { fn := f, args := args, via := some s } :: c1)

/-- The loop of `$emit` over the handlers it found registered.  The source
walks a copy of the array when it holds more than one handler and the array
itself otherwise, up to the length it had at the start; with at most one
handler only index 0 is read, before any handler has run. -/
def emitLoop (code : Code) (emit : Emit) : List Fn → Vm → List Nat → Option (Vm × List Call)
  | [], vm, _ => some (vm, [])
  | cb :: cbs, vm, args =>
    match invokeHandler code emit vm cb args with
    | none => none
    | some (vm1, c1) =>
      match emitLoop code emit cbs vm1 args with
      | none => none
      | some (vm2, c2) => some (vm2, c1 ++ c2)

/-- The method `$emit`, with `d` the depth of nested `$emit` calls allowed. -/
def Vm.emit (code : Code) : Nat → Emit
  | 0 => fun _ _ _ => none
  | d + 1 => fun vm event args =>
    match vm.events event with
    | some cbs => emitLoop code (Vm.emit code d) cbs vm args
    | none => some (vm, [])

/-- A sequence of `$emit` calls on one event, one list of arguments each. -/
def emits (code : Code) (d : Nat) : Vm → String → List (List Nat) → Option (Vm × List Call)
  | vm, _, [] => some (vm, [])
  | vm, event, args :: rest =>
    match Vm.emit code d vm event args with
    | none => none
    | some (vm1, c1) =>
      match emits code d vm1 event rest with
      | none => none
      | some (vm2, c2) => some (vm2, c1 ++ c2)

/-! ## Handlers that do not emit -/

/-- Whether a call of an event method is a call of `$emit`. -/
def Act.isEmit : Act → Bool
  | .emit _ _ => true
  | _ => false

/-- No handler calls `$emit` while it runs; a handler is free to call `$on`,
`$once` and `$off`. -/
def noEmit (code : Code) : Prop := ∀ f a, ∀ act ∈ code f a, Act.isEmit act = false

/-- Example data: an instance with the handlers 1, a once-wrapper of 2, and 2
registered on `"save"`, and the handler 3 on `"load"`. -/
def vmExample : Vm :=
  { events := fun x =>
      if x = "save" then some [.user 1, .once 0 "save" 2, .user 2]
      else if x = "load" then some [.user 3] else none,
    hasHookEvent := false, onces := 1 }

/-- Whether a function value is the wrapper made by the `s`-th call of
`$once`. -/
def hasSerial (s : Nat) : Fn → Bool
  | .once s1 _ _ => s1 == s
  | .user _ => false

/-- Whether a handler call was made by the wrapper of serial number `s`. -/
def viaSerial (s : Nat) (c : Call) : Bool := c.via == some s

/-- Wrappers made from now on have a serial number above `s`, every
registration on `e` that has the serial number `s` is the wrapper `w`, and `w`
stands at most `k` times in the list of `e`. -/
def Held (s : Nat) (e : String) (w : Fn) (k : Nat) (vm : Vm) : Prop :=
  s < vm.onces ∧ ∀ cbs, vm.events e = some cbs →
    (∀ c ∈ cbs, hasSerial s c = true → c = w) ∧ cbs.count w ≤ k

/-- Example data: an instance with the handler 1 registered on `"e"`. -/
def vmOne : Vm :=
  { events := fun x => if x = "e" then some [.user 1] else none,
    hasHookEvent := false, onces := 0 }

/-- Example data: the handler 1 emits `"e"` with the argument 1 when it is
called with the argument 0; no other handler calls an event method. -/
def codeAgain : Code := fun f args =>
  if f = 1 ∧ args = [0] then [.emit "e" [1]] else []

/-- Example data: the handler 1 registers the handler 9 on `"save"` and
unregisters the handler 2 from it each time it is called, and the handler 3
registers itself once more on `"load"`; no handler calls `$emit`. -/
def codeBusy : Code := fun f _ =>
  if f = 1 then [.on "save" 9, .off "save" (some 2)]
  else if f = 3 then [.once "load" 3] else []

/-! # Prop extraction (`src/vue-2.6.14/src/core/vdom/helpers/extract-props.js`)

Objects are lists of own properties with string keys; a value is known by its
identity. -/

/-- An object: its own properties, the most recently set first. -/
abbrev Obj := List (String × Nat)

/-- The assignment `o[key] = v`. -/
def objSet (o : Obj) (key : String) (v : Nat) : Obj :=
  (key, v) :: o.filter (fun p => decide (p.1 ≠ key))

/-- The statement `delete o[key]`. -/
def objDelete (o : Obj) (key : String) : Obj :=
  o.filter (fun p => decide (p.1 ≠ key))

/-- Whether a character is a word character of a regular expression. -/
def isWordChar (c : Char) : Bool := c.isAlphanum || c == '_'

/-- The replacement of `hyphenate` on the characters: a hyphen goes in front
of every capital letter that follows a word character (`\B([A-Z])`), and the
whole is lowered. -/
def hyphenateChars : Bool → List Char → List Char
  | _, [] => []
  | prev, c :: cs =>
    (if c.isUpper && prev then ['-', c.toLower] else [c.toLower]) ++
      hyphenateChars (isWordChar c) cs

/-- Modelled from the spec: `hyphenate` of `shared/util`,
`str.replace(/\B([A-Z])/g, "-$1").toLowerCase()`. -/
def hyphenate (s : String) : String := String.mk (hyphenateChars false s.toList)

/-- What `checkProp` leaves: its verdict, `res`, and `hash`. -/
structure Checked where
  found : Bool
  res : Obj
  hash : Option Obj

/-- The function `checkProp`; `hasOwn(hash, key)` is the lookup of an own
property. -/
def checkProp (res : Obj) (hash : Option Obj) (key altKey : String) (preserve : Bool) :
    Checked :=
  match hash with
  | none => { found := false, res := res, hash := none }
  | some h =>
    match h.lookup key with
    | some v =>
      { found := true, res := objSet res key v,
        hash := some (if preserve then h else objDelete h key) }
    | none =>
      match h.lookup altKey with
      | some v =>
        { found := true, res := objSet res key v,
          hash := some (if preserve then h else objDelete h altKey) }
      | none => { found := false, res := res, hash := some h }

/-- What `extractPropsFromVNodeData` leaves: the object it returns and the
blocks `attrs` and `props` of the data. -/
structure Extracted where
  res : Obj
  attrs : Option Obj
  props : Option Obj

/-- The loop `for (const key in propOptions)` of `extractPropsFromVNodeData`,
over the declared names still to come. -/
def extractLoop (props : Option Obj) : List String → Obj → Option Obj → Obj × Option Obj
  | [], res, attrs => (res, attrs)
  | key :: rest, res, attrs =>
    if (checkProp res props key (hyphenate key) true).found then
      extractLoop props rest (checkProp res props key (hyphenate key) true).res attrs
    else
      extractLoop props rest (checkProp res attrs key (hyphenate key) false).res
        (checkProp res attrs key (hyphenate key) false).hash

/-- The function `extractPropsFromVNodeData` on the blocks `attrs` and
`props` of the data and the names of `Ctor.options.props`, when defined; it
returns undefined when the component declares no props. -/
def extractPropsFromVNodeData (attrs props : Option Obj) (propOptions : Option (List String)) :
    Option Extracted :=
  match propOptions with
  | none => none
  | some declared =>
    if attrs.isSome || props.isSome then
      some { res := (extractLoop props declared [] attrs).1,
             attrs := (extractLoop props declared [] attrs).2, props := props }
    else some { res := [], attrs := attrs, props := props }

/-- The value the precedence rule names for a declared prop `k`, read in the
data as given: `props[k]`, else `props[hyphenate(k)]`, else `attrs[k]`, else
`attrs[hyphenate(k)]`. -/
def propValue (attrs props : Option Obj) (k : String) : Option Nat :=
  ((props.bind (fun o => o.lookup k)).orElse fun _ =>
    (props.bind (fun o => o.lookup (hyphenate k)))).orElse fun _ =>
      ((attrs.bind (fun o => o.lookup k)).orElse fun _ =>
        (attrs.bind (fun o => o.lookup (hyphenate k))))

/-- The key of `attrs` a declared prop `k` takes its value from, if it takes
it from `attrs`. -/
def takenKey (attrs props : Option Obj) (k : String) : Option String :=
  if ((props.bind (fun o => o.lookup k)).orElse fun _ =>
      (props.bind (fun o => o.lookup (hyphenate k)))).isSome then none
  else if (attrs.bind (fun o => o.lookup k)).isSome then some k
  else if (attrs.bind (fun o => o.lookup (hyphenate k))).isSome then some (hyphenate k)
  else none

/-- No two declared names read the same key: for different names `k1` and
`k2`, neither `k1` nor its hyphenated form is the hyphenated form of `k2`. -/
def noSharedKey (declared : List String) : Prop :=
  ∀ k1 ∈ declared, ∀ k2 ∈ declared, k1 ≠ k2 →
    k1 ≠ hyphenate k2 ∧ hyphenate k1 ≠ hyphenate k2

/-! ## Hydration of child lists -/

/-- The live children were paired one to one, in order, with the virtual
children, each pair hydrated with success, and no child of either list was
left over. -/
def pairedOk (hy : Hydrate) : List VNode → List LNode → St → Bool
  | [], [], _ => true
  | c :: cs, n :: rest, st =>
    match hy n c st with
    | .ok (true, _, _, st1, _) => pairedOk hy cs rest st1
    | _ => false
  | _, _, _ => false

/-- Example data: a `div` without data that holds the given children. -/
def plainDiv (children : List VNode) : VNode :=
  .mk { tag := some "div", data := none, text := none, elm := none, key := none,
        isComment := false, isStatic := false, isCloned := false, isOnce := false,
        isAsyncPlaceholder := false, asyncFactory := none } (some children)

/-! ## Hydration of a mirrored tree -/

mutual
/-- The handles of a live subtree, in pre-order. -/
def allHandles : LNode → List Nat
  | .mk x _ _ ks => x :: allHandlesL ks
/-- The handles of live subtrees, in pre-order. -/
def allHandlesL : List LNode → List Nat
  | [] => []
  | k :: ks => allHandles k ++ allHandlesL ks
end

/-- Same tag, or same text or comment node type: an element VNode (a tag, not
flagged as a comment) against a live element of that tag, a text VNode
against a live text node, a comment VNode against a live comment node. -/
def sameKind (n : LNode) (i : VInfo) : Bool :=
  match i.tag with
  | some t => n.kind == .element t && !i.isComment
  | none => n.kind == (if i.isComment then NodeType.comment else NodeType.text)

mutual
/-- The live tree and the virtual tree mirror each other exactly: the same
tag or node type at every position and the same number of children
everywhere; a VNode with children is an element. -/
def mirrorsExactly : LNode → VNode → Bool
  | n, .mk i none => sameKind n i && n.kids.isEmpty
  | n, .mk i (some cs) => sameKind n i && i.tag.isSome && mirrorsExactlyL n.kids cs
/-- The live nodes and the VNodes mirror each other exactly, one for one. -/
def mirrorsExactlyL : List LNode → List VNode → Bool
  | ks, [] => ks.isEmpty
  | ks, c :: cs =>
    match ks with
    | [] => false
    | k :: ks1 => mirrorsExactly k c && mirrorsExactlyL ks1 cs
end

mutual
/-- No node that has children carries the data field `domProps.innerHTML`. -/
def noRawHTML : VNode → Bool
  | .mk _ none => true
  | .mk i (some cs) => (cs.isEmpty || (i.data.bind VData.innerHTML).isNone) && noRawHTMLL cs
/-- No node of the list that has children carries `domProps.innerHTML`. -/
def noRawHTMLL : List VNode → Bool
  | [] => true
  | c :: cs => noRawHTML c && noRawHTMLL cs
end

/-- The fields of a VNode once it is bound to a live node: `elm` is the live
node, and a comment that carries an async factory is flagged as an async
placeholder. -/
def bindInfo (n : LNode) (i : VInfo) : VInfo :=
  { i with elm := some n.h,
           isAsyncPlaceholder :=
             if i.isComment && i.asyncFactory.isSome then true else i.isAsyncPlaceholder }

mutual
/-- The virtual tree with the `elm` of every VNode bound to the live node at
the same position. -/
def bindElm : LNode → VNode → VNode
  | n, .mk i none => .mk (bindInfo n i) none
  | n, .mk i (some cs) => .mk (bindInfo n i) (some (bindElmL n.kids cs))
/-- The VNodes bound to the live nodes, one for one. -/
def bindElmL : List LNode → List VNode → List VNode
  | _, [] => []
  | ks, c :: cs =>
    match ks with
    | [] => c :: cs
    | k :: ks1 => bindElm k c :: bindElmL ks1 cs
end

/-- Example data: a `div` whose data sets `innerHTML` and that holds a
`span`. -/
def htmlDiv : VNode :=
  .mk { tag := some "div",
        data := some { attrs := none, hook := none, innerHTML := some "<b>x</b>" },
        text := none, elm := none, key := none, isComment := false, isStatic := false,
        isCloned := false, isOnce := false, isAsyncPlaceholder := false,
        asyncFactory := none } (some [mkEl "span" none none])

/-- Example data: a live `div` that holds a `span`. -/
def spanLive : LNode := .mk 10 (.element "div") "" [liveEl 11 "span"]

/-! ## Create hooks in hydration -/

/-- What the hydration of children needs of `createElm` on a node: the fresh
handle counter does not go back, and the module create hooks run are those of
nodes given fresh handles. -/
def CeHooks (ce : CreateElm) (v : VNode) : Prop :=
  ∀ parent kids ref hasOwner st r, ce v parent kids ref hasOwner st = .ok r →
    st.next ≤ r.2.2.2.1.next ∧
      ∀ h, Ev.hook .moduleCreate h ∈ r.2.2.2.2 → ∃ x, h = some x ∧ st.next ≤ x

/-- What the hydration of children needs of `hydrate` on a node: the fresh
handle counter does not go back, and the module create hooks run are those of
nodes of the live subtree or of nodes given fresh handles. -/
def HyHooks (hy : Hydrate) (v : VNode) : Prop :=
  ∀ elm st r, hy elm v st = .ok r →
    st.next ≤ r.2.2.2.1.next ∧
      ∀ h, Ev.hook .moduleCreate h ∈ r.2.2.2.2 →
        ∃ x, h = some x ∧ (x ∈ allHandles elm ∨ st.next ≤ x)

/-- Example data: a `div` whose data has a field `on` besides `attrs`, over
the given children. -/
def listenerDiv (children : List VNode) : VNode :=
  .mk { tag := some "div",
        data := some { attrs := some { inputType := none }, hook := none, others := ["on"] },
        text := none, elm := none, key := none, isComment := false, isStatic := false,
        isCloned := false, isOnce := false, isAsyncPlaceholder := false,
        asyncFactory := none } (some children)

/-- Whether the data block of a node has a field that is not a rendered
module: the test under which the tail of `hydrate` invokes the create hooks. -/
def fullInvoke (v : VNode) : Bool :=
  match v.info.data with
  | some data => (dataKeys data).any (fun key => !isRenderedModule key)
  | none => false

/-! ## Mounting a tree -/

mutual
/-- The nodes of a subtree in post-order: every descendant before its
ancestor, siblings left to right. -/
def postorder : VNode → List VInfo
  | .mk i none => [i]
  | .mk i (some cs) => postorderL cs ++ [i]
/-- The nodes of a list of subtrees in post-order. -/
def postorderL : List VNode → List VInfo
  | [] => []
  | c :: cs => postorder c ++ postorderL cs
end

mutual
/-- A tree of elements: a node that is not an element is a leaf and declares
no insert hook (a text or a comment among the elements). -/
def elementTree : VNode → Bool
  | .mk i none => i.tag.isSome || !declaresInsert i
  | .mk i (some cs) => i.tag.isSome && elementTreeL cs
/-- A list of trees of elements. -/
def elementTreeL : List VNode → Bool
  | [] => true
  | c :: cs => elementTree c && elementTreeL cs
end

mutual
/-- The tree as the renderer gave it: without the handles and the clone
marks that creation puts on it. -/
def strip : VNode → VNode
  | .mk i none => .mk { i with elm := none, isCloned := false } none
  | .mk i (some cs) => .mk { i with elm := none, isCloned := false } (some (stripL cs))
/-- The trees as the renderer gave them. -/
def stripL : List VNode → List VNode
  | [] => []
  | c :: cs => strip c :: stripL cs
end

/-- What the queue claim needs of `createElm` on a node: whenever it
returns, the tree it leaves is the given one with handles and clone marks, the
queue has gained the nodes of that tree that declare an insert hook, in
post-order, and no insert hook was invoked. -/
def CeQueue (ce : CreateElm) (v : VNode) : Prop :=
  ∀ parent kids ref hasOwner st r, ce v parent kids ref hasOwner st = .ok r →
    strip r.1 = strip v ∧
      r.2.2.2.1.queue.map Subtype.val
        = st.queue.map Subtype.val ++ (postorder r.1).filter declaresInsert ∧
      ∀ x, Ev.hook .insert x ∉ r.2.2.2.2

mutual
/-- The number of nodes of a VNode tree. -/
def size : VNode → Nat
  | .mk _ none => 1
  | .mk _ (some cs) => 1 + sizeL cs
/-- The number of nodes of a list of VNode trees. -/
def sizeL : List VNode → Nat
  | [] => 0
  | c :: cs => size c + sizeL cs
end

mutual
/-- No node of the tree has a realized handle. -/
def unrealized : VNode → Bool
  | .mk i none => i.elm.isNone
  | .mk i (some cs) => i.elm.isNone && unrealizedL cs
/-- No node of the trees has a realized handle. -/
def unrealizedL : List VNode → Bool
  | [] => true
  | c :: cs => unrealized c && unrealizedL cs
end

mutual
/-- A tree made of element, text and comment nodes: an element has a tag and
its content is its child array (it carries no text of its own in place of
children); a text or a comment has no tag and no children. -/
def plainTree : VNode → Bool
  | .mk i none => i.tag.isNone || i.text.isNone
  | .mk i (some cs) => i.tag.isSome && plainTreeL cs
/-- A list of trees made of element, text and comment nodes. -/
def plainTreeL : List VNode → Bool
  | [] => true
  | c :: cs => plainTree c && plainTreeL cs
end

mutual
/-- The tree with a handle assigned to every node, counting from `n` in
pre-order. -/
def assign : Nat → VNode → VNode
  | n, .mk i none => .mk { i with elm := some n } none
  | n, .mk i (some cs) => .mk { i with elm := some n } (some (assignL (n + 1) cs))
/-- The trees with handles assigned from `n` on, one tree after the other. -/
def assignL : Nat → List VNode → List VNode
  | _, [] => []
  | n, c :: cs => assign n c :: assignL (n + size c) cs
end

mutual
/-- The live subtree is the mirror of the VNode tree: the node is the `elm`
of the VNode; for an element it is an element of that tag whose children are
the mirrors of the VNode children, in order; for a text or a comment it is a
node of that type that carries the text of the VNode and has no children. -/
def renders : LNode → VNode → Bool
  | n, .mk i none =>
    i.elm == some n.h && n.kids.isEmpty &&
      (match i.tag with
       | some t => n.kind == .element t
       | none =>
         n.kind == (if i.isComment then NodeType.comment else NodeType.text) &&
           n.data == textOf i.text)
  | n, .mk i (some cs) =>
    i.elm == some n.h &&
      (match i.tag with
       | some t => n.kind == .element t
       | none => false) && rendersL n.kids cs
/-- The live nodes are the mirrors of the VNodes, one for one. -/
def rendersL : List LNode → List VNode → Bool
  | ks, [] => ks.isEmpty
  | ks, c :: cs =>
    match ks with
    | [] => false
    | k :: ks1 => renders k c && rendersL ks1 cs
end

/-- Where `insert` puts a node: at the end of the child list without a
reference, immediately before the child that is the reference otherwise. -/
def insertedAt (kids : List LNode) (node : LNode) (ref : Option Handle)
    (kids1 : List LNode) : Prop :=
  match ref with
  | none => kids1 = kids ++ [node]
  | some r => ∃ X y Z, kids = X ++ y :: Z ∧ y.h = r ∧ r ∉ X.map LNode.h ∧
      kids1 = X ++ node :: y :: Z

/-- What the mount claim needs of `createElm` on a tree made of element, text
and comment nodes without realized handles: whenever it returns, the tree it
leaves is the given one with fresh handles assigned in pre-order, the node
it made is the mirror of that tree, and the node went through `insert`. -/
def CeMount (ce : CreateElm) (v : VNode) : Prop :=
  plainTree v = true → unrealized v = true →
    ∀ parent kids ref hasOwner st r, ce v parent kids ref hasOwner st = .ok r →
      r.1 = assign st.next v ∧ renders r.2.1 r.1 = true ∧ r.2.1.h = st.next ∧
        r.2.2.2.1.next = st.next + size v ∧
        ∃ e, insert parent kids r.2.1 ref = .ok (r.2.2.1, e)

/-- Example data: a `p` that carries the text `hi` in place of children. -/
def textP : VNode :=
  .mk { tag := some "p", data := none, text := some "hi", elm := none, key := none,
        isComment := false, isStatic := false, isCloned := false, isOnce := false,
        isAsyncPlaceholder := false, asyncFactory := none } none

/-! ## Example data: keys as property names, and a deferred removal -/

/-- Example data: one old child keyed `"a"` against one new child keyed
`"constructor"`, at the head of the loop. -/
def protoS0 : UState :=
  { kids := [liveEl 10 "li"],
    oldCh := [some (mkEl "li" (some (.str "a")) (some 10))],
    newCh := [mkEl "li" (some (.str "constructor")) none],
    oldStartIdx := 0, oldEndIdx := 0, newStartIdx := 0, newEndIdx := 0,
    oldKeyToIdx := none, st := st0, trace := [], log := [] }

/-- Example data: old children keyed `"a"`, `"b"` against new children keyed
`"toString"`, `"y"`, at the head of the loop. -/
def protoT0 : UState :=
  { kids := [liveEl 10 "li", liveEl 11 "li"],
    oldCh := [some (mkEl "li" (some (.str "a")) (some 10)),
              some (mkEl "li" (some (.str "b")) (some 11))],
    newCh := [mkEl "li" (some (.str "toString")) none, mkEl "li" (some (.str "y")) none],
    oldStartIdx := 0, oldEndIdx := 1, newStartIdx := 0, newEndIdx := 1,
    oldKeyToIdx := none, st := st0, trace := [], log := [] }

/-- Example data: old children keyed by the numbers 10 and 1, the string
`"1"` and the number 20. -/
def mixOld : List VNode :=
  [mkEl "li" (some (.num 10)) (some 10), mkEl "li" (some (.num 1)) (some 11),
   mkEl "li" (some (.str "1")) (some 12), mkEl "li" (some (.num 20)) (some 13)]

/-- Example data: the same keys in the order 1, 20, 10, `"1"`. -/
def mixNew : List VNode :=
  [mkEl "li" (some (.num 1)) none, mkEl "li" (some (.num 20)) none,
   mkEl "li" (some (.num 10)) none, mkEl "li" (some (.str "1")) none]

/-- Example data: the live children of `mixOld`. -/
def mixKids : List LNode := [liveEl 10 "li", liveEl 11 "li", liveEl 12 "li", liveEl 13 "li"]

/-- Example data: `updateChildren` on `mixOld` and `mixNew` at the head of the
loop. -/
def mixS0 : UState :=
  { kids := mixKids, oldCh := mixOld.map some, newCh := mixNew,
    oldStartIdx := 0, oldEndIdx := 3, newStartIdx := 0, newEndIdx := 3,
    oldKeyToIdx := none, st := st0, trace := [], log := [] }

/-- Example data: the state after the new child keyed 1 found the old child
keyed `"1"` under the name `1` and was created. -/
def mixS1 : UState :=
  { kids := liveEl 100 "li" :: mixKids, oldCh := mixOld.map some,
    newCh := [mkEl "li" (some (.num 1)) (some 100), mkEl "li" (some (.num 20)) none,
              mkEl "li" (some (.num 10)) none, mkEl "li" (some (.str "1")) none],
    oldStartIdx := 0, oldEndIdx := 3, newStartIdx := 1, newEndIdx := 3,
    oldKeyToIdx := some [("20", 3), ("1", 2), ("1", 1), ("10", 0)],
    st := { next := 101, queue := [] },
    trace := [.create 0],
    log := [.createElement "li" 100, .insertBefore 0 100 (some 10)] }

/-- Example data: the state after the child keyed 20 was patched and moved. -/
def mixS2 : UState :=
  { kids := [liveEl 100 "li", liveEl 13 "li", liveEl 10 "li", liveEl 11 "li", liveEl 12 "li"],
    oldCh := mixOld.map some,
    newCh := [mkEl "li" (some (.num 1)) (some 100), mkEl "li" (some (.num 20)) (some 13),
              mkEl "li" (some (.num 10)) none, mkEl "li" (some (.str "1")) none],
    oldStartIdx := 0, oldEndIdx := 2, newStartIdx := 2, newEndIdx := 3,
    oldKeyToIdx := some [("20", 3), ("1", 2), ("1", 1), ("10", 0)],
    st := { next := 101, queue := [] },
    trace := [.create 0, .patch 3 1, .move 13 (some 10)],
    log := [.createElement "li" 100, .insertBefore 0 100 (some 10),
            .insertBefore 0 13 (some 10)] }

/-- Example data: the state after the child keyed 10 was patched in place. -/
def mixS3 : UState :=
  { kids := [liveEl 100 "li", liveEl 13 "li", liveEl 10 "li", liveEl 11 "li", liveEl 12 "li"],
    oldCh := mixOld.map some,
    newCh := [mkEl "li" (some (.num 1)) (some 100), mkEl "li" (some (.num 20)) (some 13),
              mkEl "li" (some (.num 10)) (some 10), mkEl "li" (some (.str "1")) none],
    oldStartIdx := 1, oldEndIdx := 2, newStartIdx := 3, newEndIdx := 3,
    oldKeyToIdx := some [("20", 3), ("1", 2), ("1", 1), ("10", 0)],
    st := { next := 101, queue := [] },
    trace := [.create 0, .patch 3 1, .move 13 (some 10), .patch 0 2],
    log := [.createElement "li" 100, .insertBefore 0 100 (some 10),
            .insertBefore 0 13 (some 10)] }

/-- Example data: the state after the child keyed `"1"` was patched in place,
at the exit of the loop. -/
def mixS4 : UState :=
  { kids := [liveEl 100 "li", liveEl 13 "li", liveEl 10 "li", liveEl 11 "li", liveEl 12 "li"],
    oldCh := mixOld.map some,
    newCh := [mkEl "li" (some (.num 1)) (some 100), mkEl "li" (some (.num 20)) (some 13),
              mkEl "li" (some (.num 10)) (some 10), mkEl "li" (some (.str "1")) (some 12)],
    oldStartIdx := 1, oldEndIdx := 1, newStartIdx := 3, newEndIdx := 2,
    oldKeyToIdx := some [("20", 3), ("1", 2), ("1", 1), ("10", 0)],
    st := { next := 101, queue := [] },
    trace := [.create 0, .patch 3 1, .move 13 (some 10), .patch 0 2, .patch 2 3],
    log := [.createElement "li" 100, .insertBefore 0 100 (some 10),
            .insertBefore 0 13 (some 10)] }

/-- Example data: the state `updateChildren` returns on `mixOld` and `mixNew`:
the old child keyed 1 has been removed. -/
def mixS5 : UState :=
  { mixS4 with
    kids := [liveEl 100 "li", liveEl 13 "li", liveEl 10 "li", liveEl 12 "li"],
    trace := [.create 0, .patch 3 1, .move 13 (some 10), .patch 0 2, .patch 2 3, .remove 1],
    log := [.createElement "li" 100, .insertBefore 0 100 (some 10),
            .insertBefore 0 13 (some 10), .removeChild 0 11] }

/-- Example data: a rendered `div` of key 1 whose remove hook keeps the
removal callback. -/
def deferDiv : VNode :=
  .mk { tag := some "div",
        data := some { attrs := none,
                       hook := some { prepatch := false, update := false, postpatch := false,
                                      insert := false, create := false, destroy := false,
                                      remove := true },
                       rmDeferred := true },
        text := none, elm := some 10, key := some 1, isComment := false, isStatic := false,
        isCloned := false, isOnce := false, isAsyncPlaceholder := false, asyncFactory := none }
    (some [])

/-- Example data: `deferDiv` against a `span` of key 1, at the head of the
loop. -/
def deferS0 : UState :=
  { kids := [liveEl 10 "div"], oldCh := [some deferDiv], newCh := [mkEl "span" (some 1) none],
    oldStartIdx := 0, oldEndIdx := 0, newStartIdx := 0, newEndIdx := 0,
    oldKeyToIdx := none, st := st0, trace := [], log := [] }

/-- Example data: the state after the `span` was created, at the exit of the
loop. -/
def deferS1 : UState :=
  { kids := [liveEl 100 "span", liveEl 10 "div"], oldCh := [some deferDiv],
    newCh := [mkEl "span" (some 1) (some 100)],
    oldStartIdx := 0, oldEndIdx := 0, newStartIdx := 1, newEndIdx := 0,
    oldKeyToIdx := some [("1", 0)], st := { next := 101, queue := [] },
    trace := [.create 0],
    log := [.createElement "span" 100, .insertBefore 0 100 (some 10)] }

/-- Example data: the state `updateChildren` returns: the remove hooks of the
`div` have run, and the `div` is still a child of the parent. -/
def deferS2 : UState :=
  { deferS1 with
    trace := [.create 0, .remove 0],
    log := [.createElement "span" 100, .insertBefore 0 100 (some 10),
            .hook .moduleRemove (some 10), .hook .remove (some 10),
            .hook .moduleDestroy (some 10)] }

/-! # Theorems -/

/-! ## Array lemmas -/

theorem getAt_append_mid {α : Type} (P : List α) (x : α) (S : List α) (i : Int)
    (h : (P.length : Int) = i) : getAt (P ++ x :: S) i = some x := by
  unfold getAt
  have h0 : ¬ i < 0 := by omega
  have h1 : i.toNat = P.length := by omega
  simp only [h0, h1, if_false]
  rw [List.getElem?_append_right (le_refl _)]
  simp

theorem setAt_append_mid {α : Type} (P : List α) (x y : α) (S : List α) (i : Int)
    (h : (P.length : Int) = i) : setAt (P ++ x :: S) i y = P ++ y :: S := by
  unfold setAt
  have h0 : ¬ i < 0 := by omega
  have h1 : i.toNat = P.length := by omega
  simp [h0, h1]

theorem getAt_split {α : Type} (l : List α) (i : Int) (x : α) (h : getAt l i = some x) :
    ∃ P S, l = P ++ x :: S ∧ (P.length : Int) = i := by
  unfold getAt at h
  split at h
  · cases h
  · rename_i h0
    have hlt : i.toNat < l.length := by
      by_contra hc
      rw [List.getElem?_eq_none (by omega)] at h
      cases h
    rw [List.getElem?_eq_getElem hlt] at h
    refine ⟨l.take i.toNat, l.drop (i.toNat + 1), ?_, ?_⟩
    · have := List.take_append_drop i.toNat l
      rw [List.drop_eq_getElem_cons hlt] at this
      simp only [Option.some.injEq] at h
      rw [h] at this
      exact this.symm
    · simp [List.length_take]
      omega

theorem getAt_length_lt {α : Type} (l : List α) (i : Int) (x : α) (h : getAt l i = some x) :
    0 ≤ i ∧ i < l.length := by
  obtain ⟨P, S, rfl, hp⟩ := getAt_split l i x h
  simp
  omega

theorem getAt_of_range {α : Type} (l : List α) (i : Int) (h0 : 0 ≤ i) (h1 : i < l.length) :
    ∃ x, getAt l i = some x := by
  unfold getAt
  have : ¬ i < 0 := by omega
  have hlt : i.toNat < l.length := by omega
  simp [this, List.getElem?_eq_getElem hlt]

theorem getAt_append_left {α : Type} (P S : List α) (i : Int) (h : i < P.length) :
    getAt (P ++ S) i = getAt P i := by
  unfold getAt
  split
  · rfl
  · have hlt : i.toNat < P.length := by omega
    rw [List.getElem?_append_left hlt]

theorem getAt_append_right {α : Type} (P S : List α) (i : Int) (h : (P.length : Int) ≤ i) :
    getAt (P ++ S) i = getAt S (i - P.length) := by
  unfold getAt
  have h0 : ¬ i < 0 := by omega
  have h1 : ¬ i - (P.length : Int) < 0 := by omega
  simp only [h0, h1, if_false]
  rw [List.getElem?_append_right (by omega)]
  congr 1
  omega

theorem length_setAt {α : Type} (l : List α) (i : Int) (x : α) :
    (setAt l i x).length = l.length := by
  unfold setAt
  split <;> simp

theorem getAt_setAt_ne {α : Type} (l : List α) (i j : Int) (x : α) (h : i ≠ j) :
    getAt (setAt l i x) j = getAt l j := by
  unfold getAt setAt
  split
  · rfl
  · split
    · rfl
    · rw [List.getElem?_set_ne]
      omega

theorem getAt_setAt_eq {α : Type} (l : List α) (i : Int) (x : α) (h0 : 0 ≤ i)
    (h1 : i < l.length) : getAt (setAt l i x) i = some x := by
  unfold getAt setAt
  have : ¬ i < 0 := by omega
  simp only [this, if_false]
  rw [List.getElem?_set_self (by omega)]

theorem slotAt_append_mid {α : Type} (P : List (Option α)) (x : Option α) (S : List (Option α))
    (i : Int) (h : (P.length : Int) = i) : slotAt (P ++ x :: S) i = x := by
  unfold slotAt
  rw [getAt_append_mid P x S i h]
  rfl

theorem slotAt_some_getAt {α : Type} (l : List (Option α)) (i : Int) (v : α)
    (h : slotAt l i = some v) : getAt l i = some (some v) := by
  unfold slotAt at h
  cases hg : getAt l i with
  | none => rw [hg] at h; cases h
  | some o =>
    rw [hg] at h
    simp at h
    rw [h]

/-! ## Lemmas on child lists -/

theorem hasH_iff (kids : List LNode) (x : Handle) :
    hasH kids x = true ↔ x ∈ kids.map LNode.h := by
  unfold hasH
  simp only [List.any_eq_true, beq_iff_eq, List.mem_map]

theorem findH_mid (KX KY : List LNode) (node : LNode) (h : node.h ∉ KX.map LNode.h) :
    findH (KX ++ node :: KY) node.h = some node := by
  unfold findH
  induction KX with
  | nil => simp
  | cons k ks ih =>
    simp only [List.map_cons, List.mem_cons, not_or] at h
    have hk : (k.h == node.h) = false := by
      simp only [beq_eq_false_iff_ne, ne_eq]
      exact fun e => h.1 e.symm
    simp only [List.cons_append, List.find?_cons, hk]
    exact ih h.2

theorem removeH_mid (KX KY : List LNode) (node : LNode) (h : node.h ∉ KX.map LNode.h) :
    removeH (KX ++ node :: KY) node.h = KX ++ KY := by
  induction KX with
  | nil => simp [removeH]
  | cons k ks ih =>
    simp only [List.map_cons, List.mem_cons, not_or] at h
    have hk : (k.h == node.h) = false := by
      simp only [beq_eq_false_iff_ne, ne_eq]
      exact fun e => h.1 e.symm
    simp only [List.cons_append, removeH, hk, Bool.false_eq_true, if_false]
    exact congrArg (fun l => k :: l) (ih h.2)

theorem removeH_not_mem (kids : List LNode) (x : Handle) (h : x ∉ kids.map LNode.h) :
    removeH kids x = kids := by
  induction kids with
  | nil => rfl
  | cons k ks ih =>
    simp only [List.map_cons, List.mem_cons, not_or] at h
    have hk : (k.h == x) = false := by
      simp only [beq_eq_false_iff_ne, ne_eq]
      exact fun e => h.1 e.symm
    simp only [removeH, hk, Bool.false_eq_true, if_false]
    rw [ih h.2]

theorem replaceH_mid (KX KY : List LNode) (node n1 : LNode) (h : node.h ∉ KX.map LNode.h) :
    replaceH (KX ++ node :: KY) node.h n1 = KX ++ n1 :: KY := by
  induction KX with
  | nil => simp [replaceH]
  | cons k ks ih =>
    simp only [List.map_cons, List.mem_cons, not_or] at h
    have hk : (k.h == node.h) = false := by
      simp only [beq_eq_false_iff_ne, ne_eq]
      exact fun e => h.1 e.symm
    simp only [List.cons_append, replaceH, hk, Bool.false_eq_true, if_false]
    exact congrArg (fun l => k :: l) (ih h.2)

theorem nextSiblingH_mid (KX KY : List LNode) (node : LNode) (h : node.h ∉ KX.map LNode.h) :
    nextSiblingH (KX ++ node :: KY) node.h = KY.head?.map LNode.h := by
  induction KX with
  | nil => simp [nextSiblingH]
  | cons k ks ih =>
    simp only [List.map_cons, List.mem_cons, not_or] at h
    have hk : (k.h == node.h) = false := by
      simp only [beq_eq_false_iff_ne, ne_eq]
      exact fun e => h.1 e.symm
    simp only [List.cons_append, nextSiblingH, hk, Bool.false_eq_true, if_false]
    exact ih h.2

theorem insertBeforeH_mid (KX KY : List LNode) (r n1 : LNode) (h : r.h ∉ KX.map LNode.h) :
    insertBeforeH (KX ++ r :: KY) n1 r.h = some (KX ++ n1 :: r :: KY) := by
  induction KX with
  | nil => simp [insertBeforeH]
  | cons k ks ih =>
    simp only [List.map_cons, List.mem_cons, not_or] at h
    have hk : (k.h == r.h) = false := by
      simp only [beq_eq_false_iff_ne, ne_eq]
      exact fun e => h.1 e.symm
    simp only [List.cons_append, insertBeforeH, hk, Bool.false_eq_true, if_false]
    show Option.map _ (insertBeforeH (ks ++ r :: KY) n1 r.h) = _
    rw [ih h.2]
    rfl

theorem mem_split_handle (kids : List LNode) (x : Handle) (h : x ∈ kids.map LNode.h) :
    ∃ KX node KY, kids = KX ++ node :: KY ∧ node.h = x ∧ x ∉ KX.map LNode.h := by
  induction kids with
  | nil => simp at h
  | cons k ks ih =>
    by_cases hk : k.h = x
    · exact ⟨[], k, ks, rfl, hk, by simp⟩
    · simp only [List.map_cons, List.mem_cons] at h
      rcases h with h | h
      · exact absurd h.symm hk
      · obtain ⟨KX, node, KY, he, hn, hx⟩ := ih h
        refine ⟨k :: KX, node, KY, by rw [he]; rfl, hn, ?_⟩
        simp only [List.map_cons, List.mem_cons, not_or]
        exact ⟨fun e => hk e.symm, hx⟩

/-- Appending: the node leaves its place and becomes the last child. -/
theorem domInsertBefore_none (KX KY : List LNode) (node : LNode)
    (h : node.h ∉ KX.map LNode.h) :
    domInsertBefore (KX ++ node :: KY) node none = .ok (KX ++ KY ++ [node]) := by
  simp [domInsertBefore, removeH_mid KX KY node h]

/-- Moving a node to just before a later sibling. -/
theorem domInsertBefore_later (KX KY1 KY2 : List LNode) (node r : LNode)
    (h : node.h ∉ KX.map LNode.h) (hr : r.h ∉ (KX ++ KY1).map LNode.h) (hne : r.h ≠ node.h) :
    domInsertBefore (KX ++ node :: (KY1 ++ r :: KY2)) node (some r.h)
      = .ok (KX ++ KY1 ++ node :: r :: KY2) := by
  have hb : (r.h == node.h) = false := by simpa using hne
  simp only [domInsertBefore, hb, Bool.false_eq_true, if_false]
  rw [removeH_mid KX _ node h]
  have : KX ++ (KY1 ++ r :: KY2) = (KX ++ KY1) ++ r :: KY2 := by simp
  rw [this, insertBeforeH_mid (KX ++ KY1) KY2 r node hr]

/-- Moving a node to just before an earlier sibling. -/
theorem domInsertBefore_earlier (KX1 KX2 KY : List LNode) (node r : LNode)
    (h : node.h ∉ (KX1 ++ r :: KX2).map LNode.h) (hr : r.h ∉ KX1.map LNode.h) :
    domInsertBefore (KX1 ++ r :: (KX2 ++ node :: KY)) node (some r.h)
      = .ok (KX1 ++ node :: r :: (KX2 ++ KY)) := by
  have hne : r.h ≠ node.h := by
    intro e
    apply h
    simp [e]
  have hb : (r.h == node.h) = false := by simpa using hne
  simp only [domInsertBefore, hb, Bool.false_eq_true, if_false]
  have e1 : KX1 ++ r :: (KX2 ++ node :: KY) = (KX1 ++ r :: KX2) ++ node :: KY := by simp
  rw [e1, removeH_mid _ KY node h]
  have e2 : (KX1 ++ r :: KX2) ++ KY = KX1 ++ r :: (KX2 ++ KY) := by simp
  rw [e2, insertBeforeH_mid KX1 _ r node hr]

/-- A node asked to move before itself stays where it is. -/
theorem domInsertBefore_self (kids : List LNode) (node : LNode)
    (h : node.h ∈ kids.map LNode.h) :
    domInsertBefore kids node (some node.h) = .ok kids := by
  simp [domInsertBefore, (hasH_iff kids node.h).2 h]

/-! ## Field lemmas -/

@[simp] theorem VNode.setInfo_info (v : VNode) (i : VInfo) : (v.setInfo i).info = i := by
  cases v; rfl

@[simp] theorem VNode.setInfo_children (v : VNode) (i : VInfo) :
    (v.setInfo i).children = v.children := by
  cases v; rfl

@[simp] theorem VNode.setChildren_info (v : VNode) (c : Option (List VNode)) :
    (v.setChildren c).info = v.info := by
  cases v; rfl

@[simp] theorem VNode.setChildren_children (v : VNode) (c : Option (List VNode)) :
    (v.setChildren c).children = c := by
  cases v; rfl

@[simp] theorem VNode.setElm_elm (v : VNode) (e : Option Handle) : (v.setElm e).elm = e := by
  cases v; rfl

@[simp] theorem VNode.setElm_key (v : VNode) (e : Option Handle) : (v.setElm e).key = v.key := by
  cases v; rfl

@[simp] theorem VNode.setElm_children (v : VNode) (e : Option Handle) :
    (v.setElm e).children = v.children := by
  cases v; rfl

@[simp] theorem VNode.setChildren_elm (v : VNode) (c : Option (List VNode)) :
    (v.setChildren c).elm = v.elm := by
  cases v; rfl

@[simp] theorem VNode.setChildren_key (v : VNode) (c : Option (List VNode)) :
    (v.setChildren c).key = v.key := by
  cases v; rfl

@[simp] theorem cloneIfUsed_key (v : VNode) (b : Bool) : (cloneIfUsed v b).key = v.key := by
  unfold cloneIfUsed cloneVNode
  split
  · cases v; rfl
  · rfl

@[simp] theorem cloneIfUsed_children (v : VNode) (b : Bool) :
    (cloneIfUsed v b).children = v.children := by
  unfold cloneIfUsed cloneVNode
  split
  · cases v; rfl
  · rfl

@[simp] theorem LNode.setKids_h (n : LNode) (ks : List LNode) : (n.setKids ks).h = n.h := by
  cases n; rfl

@[simp] theorem LNode.setKids_kids (n : LNode) (ks : List LNode) : (n.setKids ks).kids = ks := by
  cases n; rfl

@[simp] theorem LNode.setData_h (n : LNode) (d : String) : (n.setData d).h = n.h := by
  cases n; rfl

@[simp] theorem LNode.setData_kids (n : LNode) (d : String) : (n.setData d).kids = n.kids := by
  cases n; rfl

/-! ## Bounded handles -/

theorem boundedL_iff (b : Nat) (ks : List LNode) :
    LNode.boundedL b ks = true ↔ ∀ k ∈ ks, LNode.bounded b k = true := by
  induction ks with
  | nil => simp [LNode.boundedL]
  | cons k ks ih => simp [LNode.boundedL, ih]

theorem bounded_iff (b : Nat) (n : LNode) :
    LNode.bounded b n = true ↔ n.h < b ∧ ∀ k ∈ n.kids, LNode.bounded b k = true := by
  cases n with
  | mk x kd dt ks =>
    simp only [LNode.bounded, Bool.and_eq_true, decide_eq_true_eq, boundedL_iff]
    rfl

mutual
theorem bounded_mono (b c : Nat) (h : b ≤ c) :
    ∀ n : LNode, LNode.bounded b n = true → LNode.bounded c n = true
  | .mk x kd dt ks, hn => by
    simp only [LNode.bounded, Bool.and_eq_true, decide_eq_true_eq] at hn ⊢
    exact ⟨by omega, boundedL_mono b c h ks hn.2⟩
theorem boundedL_mono (b c : Nat) (h : b ≤ c) :
    ∀ ks : List LNode, LNode.boundedL b ks = true → LNode.boundedL c ks = true
  | [], _ => rfl
  | k :: ks, hk => by
    simp only [LNode.boundedL, Bool.and_eq_true] at hk ⊢
    exact ⟨bounded_mono b c h k hk.1, boundedL_mono b c h ks hk.2⟩
end

theorem bounded_h_lt (b : Nat) (n : LNode) (h : LNode.bounded b n = true) : n.h < b :=
  ((bounded_iff b n).1 h).1

theorem bounded_not_mem (b : Nat) (kids : List LNode)
    (h : ∀ k ∈ kids, LNode.bounded b k = true) (x : Nat) (hx : b ≤ x) :
    x ∉ kids.map LNode.h := by
  intro hm
  obtain ⟨k, hk, rfl⟩ := List.mem_map.1 hm
  have := bounded_h_lt b k (h k hk)
  omega

theorem mem_removeH (kids : List LNode) (x : Handle) (k : LNode) (h : k ∈ removeH kids x) :
    k ∈ kids := by
  induction kids with
  | nil => simp [removeH] at h
  | cons n ns ih =>
    unfold removeH at h
    split at h
    · exact List.mem_cons_of_mem _ h
    · rcases List.mem_cons.1 h with h | h
      · rw [h]; exact List.mem_cons_self _ _
      · exact List.mem_cons_of_mem _ (ih h)

/-! ## Creation -/

theorem insert_append (p : Handle) (kids : List LNode) (node : LNode)
    (h : node.h ∉ kids.map LNode.h) :
    insert (some p) kids node none = .ok (kids ++ [node], [.appendChild p node.h]) := by
  simp [insert, domAppendChild, removeH_not_mem kids node.h h]

theorem insert_before (p : Handle) (KX KY : List LNode) (r node : LNode)
    (hr : r.h ∉ KX.map LNode.h) (h : node.h ∉ (KX ++ r :: KY).map LNode.h) :
    insert (some p) (KX ++ r :: KY) node (some r.h)
      = .ok (KX ++ node :: r :: KY, [.insertBefore p node.h (some r.h)]) := by
  have hne : r.h ≠ node.h := by
    intro e
    apply h
    simp [e]
  have hb : (r.h == node.h) = false := by simpa using hne
  have hh : hasH (KX ++ r :: KY) r.h = true := by
    rw [hasH_iff]; simp
  simp only [insert, hh, if_true, domInsertBefore, hb, Bool.false_eq_true, if_false]
  rw [removeH_not_mem _ _ h, insertBeforeH_mid KX KY r node hr]

theorem mem_insertBeforeH (kids : List LNode) (node : LNode) (r : Handle) (ks : List LNode)
    (h : insertBeforeH kids node r = some ks) (k : LNode) (hk : k ∈ ks) :
    k = node ∨ k ∈ kids := by
  induction kids generalizing ks with
  | nil => simp [insertBeforeH] at h
  | cons n ns ih =>
    unfold insertBeforeH at h
    split at h
    · simp only [Option.some.injEq] at h
      subst h
      rcases List.mem_cons.1 hk with hk | hk
      · exact Or.inl hk
      · exact Or.inr hk
    · cases hi : insertBeforeH ns node r with
      | none => rw [hi] at h; simp at h
      | some r1 =>
        rw [hi] at h
        simp only [Option.map_some', Option.some.injEq] at h
        subst h
        rcases List.mem_cons.1 hk with hk | hk
        · exact Or.inr (by rw [hk]; exact List.mem_cons_self _ _)
        · rcases ih r1 hi hk with h1 | h1
          · exact Or.inl h1
          · exact Or.inr (List.mem_cons_of_mem _ h1)

theorem insertBeforeH_isSome (kids : List LNode) (node : LNode) (r : Handle)
    (h : r ∈ kids.map LNode.h) : ∃ ks, insertBeforeH kids node r = some ks := by
  obtain ⟨KX, rn, KY, rfl, hrn, hx⟩ := mem_split_handle kids r h
  subst hrn
  exact ⟨_, insertBeforeH_mid KX KY rn node hx⟩

/-- Inserting a node whose handle is not in the list never fails, and the
list gains at most that node. -/
theorem insert_fresh (p : Option Handle) (kids : List LNode) (node : LNode)
    (ref : Option Handle) (h : node.h ∉ kids.map LNode.h) :
    ∃ r, insert p kids node ref = .ok r ∧ ∀ k ∈ r.1, k = node ∨ k ∈ kids := by
  cases p with
  | none => exact ⟨(kids, []), rfl, fun k hk => Or.inr hk⟩
  | some q =>
    cases ref with
    | none =>
      refine ⟨_, insert_append q kids node h, ?_⟩
      intro k hk
      rcases List.mem_append.1 hk with hk | hk
      · exact Or.inr hk
      · exact Or.inl (by simpa using hk)
    | some r =>
      by_cases hr : hasH kids r = true
      · have hm := (hasH_iff kids r).1 hr
        obtain ⟨ks, hks⟩ := insertBeforeH_isSome kids node r hm
        have hne : r ≠ node.h := fun e => h (e ▸ hm)
        have hb : (r == node.h) = false := by simpa using hne
        refine ⟨(ks, [.insertBefore q node.h (some r)]), ?_, ?_⟩
        · simp only [insert, hr, if_true, domInsertBefore, hb, Bool.false_eq_true, if_false]
          rw [removeH_not_mem _ _ h, hks]
        · exact fun k hk => mem_insertBeforeH kids node r ks hks k hk
      · refine ⟨(kids, []), ?_, fun k hk => Or.inr hk⟩
        simp [insert, hr]

theorem createChildrenLoop_ok (ce : CreateElm) (parent : Handle) :
    ∀ (cs : List VNode) (kids : List LNode) (st : St),
      (∀ c ∈ cs, CeSpec ce c) → (∀ k ∈ kids, LNode.bounded st.next k = true) →
      ∃ cs1 kids1 st1 ev, createChildrenLoop ce parent cs kids st = .ok (cs1, kids1, st1, ev)
        ∧ st.next ≤ st1.next ∧ (∀ k ∈ kids1, LNode.bounded st1.next k = true) := by
  intro cs
  induction cs with
  | nil =>
    intro kids st _ hk
    exact ⟨[], kids, st, [], rfl, le_refl _, hk⟩
  | cons c cs ih =>
    intro kids st hce hk
    obtain ⟨n1, node, st1, ev, _, hnh, _, hlt, hnb, hrun⟩ :=
      hce c (List.mem_cons_self _ _) true st
    have hfresh : node.h ∉ kids.map LNode.h := by
      rw [hnh]; exact bounded_not_mem st.next kids hk st.next (le_refl _)
    have hk1 : ∀ k ∈ kids ++ [node], LNode.bounded st1.next k = true := by
      intro k hkm
      rcases List.mem_append.1 hkm with hkm | hkm
      · exact bounded_mono st.next st1.next (by omega) k (hk k hkm)
      · have : k = node := by simpa using hkm
        rw [this]; exact hnb
    obtain ⟨cs1, kids1, st2, ev2, hloop, hle, hb2⟩ :=
      ih (kids ++ [node]) st1 (fun c1 hc1 => hce c1 (List.mem_cons_of_mem _ hc1)) hk1
    refine ⟨n1 :: cs1, kids1, st2, ev ++ [.appendChild parent node.h] ++ ev2, ?_, by omega, hb2⟩
    simp only [createChildrenLoop]
    rw [hrun (some parent) kids none, insert_append parent kids node hfresh]
    simp only [hloop]

theorem height_pos (n : VNode) : 0 < n.height := by
  cases n with
  | mk i cs => cases cs <;> simp [VNode.height]

theorem heightL_le (cs : List VNode) (c : VNode) (h : c ∈ cs) :
    c.height ≤ VNode.heightL cs := by
  induction cs with
  | nil => simp at h
  | cons x xs ih =>
    simp only [VNode.heightL]
    rcases List.mem_cons.1 h with h | h
    · rw [h]; exact le_max_left _ _
    · exact le_trans (ih h) (le_max_right _ _)

theorem height_children (n : VNode) (cs : List VNode) (h : n.children = some cs)
    (c : VNode) (hc : c ∈ cs) : c.height < n.height := by
  cases n with
  | mk i cs0 =>
    simp only [VNode.children] at h
    subst h
    simp only [VNode.height]
    have := heightL_le cs c hc
    omega

theorem cloneIfUsed_info_tag (v : VNode) (b : Bool) :
    (cloneIfUsed v b).info.tag = v.info.tag := by
  unfold cloneIfUsed cloneVNode
  split <;> simp

@[simp] theorem invokeCreateHooks_next (v : VNode) (st : St) :
    (invokeCreateHooks v st).1.next = st.next := by
  unfold invokeCreateHooks
  split <;> rfl

theorem createHooks_next (c : Bool) (v : VNode) (st : St) :
    (if c then invokeCreateHooks v st else (st, [])).1.next = st.next := by
  split
  · simp
  · rfl

theorem LNode.setKids_self (n : LNode) : n.setKids n.kids = n := by
  cases n; rfl

theorem createChildren_ok (ce : CreateElm) (vnode : VNode) (node : LNode) (st : St)
    (hce : ∀ cs, vnode.children = some cs → ∀ c ∈ cs, CeSpec ce c)
    (hk : ∀ k ∈ node.kids, LNode.bounded st.next k = true) :
    ∃ v1 kids1 st1 ev, createChildren ce vnode node st = .ok (v1, node.setKids kids1, st1, ev)
      ∧ v1.info = vnode.info ∧ st.next ≤ st1.next
      ∧ (∀ k ∈ kids1, LNode.bounded st1.next k = true) := by
  unfold createChildren
  cases hch : vnode.children with
  | some cs =>
    obtain ⟨cs1, kids1, st1, ev1, hloop, hle, hb⟩ :=
      createChildrenLoop_ok ce node.h cs node.kids st (hce cs hch) hk
    exact ⟨vnode.setChildren (some cs1), kids1, st1, ev1, by simp [hloop], by simp, hle, hb⟩
  | none =>
    cases htx : vnode.info.text with
    | some t =>
      refine ⟨vnode, domAppendChild node.kids (LNode.mk st.next .text t []),
        { st with next := st.next + 1 }, _, rfl, rfl, by simp, ?_⟩
      intro k hkm
      unfold domAppendChild at hkm
      rcases List.mem_append.1 hkm with hkm | hkm
      · exact bounded_mono st.next _ (by simp) k (hk k (mem_removeH _ _ _ hkm))
      · have : k = LNode.mk st.next .text t [] := by simpa using hkm
        rw [this]
        simp [LNode.bounded, LNode.boundedL]
    | none =>
      exact ⟨vnode, node.kids, st, [], by simp [LNode.setKids_self], rfl, le_refl _, hk⟩

theorem createElm_spec : ∀ (d : Nat) (n : VNode), n.height ≤ d → CeSpec (createElm d) n := by
  intro d
  induction d with
  | zero =>
    intro n hn
    have := height_pos n
    omega
  | succ d ih =>
    intro n hn hasOwner st
    cases htag : (cloneIfUsed n hasOwner).info.tag with
    | some tag =>
      have hce : ∀ cs, ((cloneIfUsed n hasOwner).setElm (some st.next)).children = some cs →
          ∀ c ∈ cs, CeSpec (createElm d) c := by
        intro cs hcs c hc
        apply ih
        rw [VNode.setElm_children, cloneIfUsed_children] at hcs
        have := height_children n cs hcs c hc
        omega
      obtain ⟨v1, kids1, st1, ev1, hrun, hinfo, hle, hb⟩ :=
        createChildren_ok (createElm d) ((cloneIfUsed n hasOwner).setElm (some st.next))
          (LNode.mk st.next (.element tag) "" []) { st with next := st.next + 1 } hce (by simp [LNode.kids])
      have hle1 : st.next + 1 ≤ st1.next := hle
      have hnext := createHooks_next v1.info.data.isSome v1 st1
      refine ⟨v1, (LNode.mk st.next (.element tag) "" []).setKids kids1,
        (if v1.info.data.isSome then invokeCreateHooks v1 st1 else (st1, [])).1,
        [.createElement tag st.next] ++ ev1 ++
          (if v1.info.data.isSome then invokeCreateHooks v1 st1 else (st1, [])).2,
        ?_, rfl, ?_, by omega, ?_, ?_⟩
      · show v1.info.elm = _
        rw [hinfo]; simp [VNode.setElm]
      · show v1.info.key = _
        rw [hinfo]
        show ((cloneIfUsed n hasOwner).setElm (some st.next)).key = _
        simp
      · rw [bounded_iff]
        refine ⟨by show st.next < _; omega, ?_⟩
        intro k hk
        rw [hnext]
        exact hb k hk
      · intro parentElm kids ref
        simp only [createElm, htag, hrun]
        cases hins : insert parentElm kids
            ((LNode.mk st.next (.element tag) "" []).setKids kids1) ref with
        | error e => rfl
        | ok r => simp [List.append_assoc]
    | none =>
      refine ⟨(cloneIfUsed n hasOwner).setElm (some st.next),
        LNode.mk st.next (if (cloneIfUsed n hasOwner).info.isComment then .comment else .text)
          (textOf (cloneIfUsed n hasOwner).info.text) [],
        { st with next := st.next + 1 },
        [if (cloneIfUsed n hasOwner).info.isComment
          then Ev.createComment (textOf (cloneIfUsed n hasOwner).info.text) st.next
          else Ev.createTextNode (textOf (cloneIfUsed n hasOwner).info.text) st.next],
        by simp, rfl, by simp, by simp, by simp [LNode.bounded, LNode.boundedL], ?_⟩
      intro parentElm kids ref
      simp only [createElm, htag]
      cases hins : insert parentElm kids _ ref with
      | error e => rfl
      | ok r => rfl

/-! ## The identity predicate and the lookups -/

theorem sameVnode_key (a b : VNode) (h : sameVnode a b = .ok true) : a.key = b.key := by
  unfold sameVnode sameVnodeInfo at h
  split at h
  · rename_i hk
    exact hk.1
  · cases h

theorem sameVnode_factory (a b : VNode) (h : sameVnode a b = .ok true) :
    a.info.asyncFactory = b.info.asyncFactory := by
  unfold sameVnode sameVnodeInfo at h
  split at h
  · rename_i hk
    exact hk.2
  · cases h

theorem sameVnode_total (a b : VNode) (ha : nodeOk a) : ∃ r, sameVnode a b = .ok r := by
  unfold sameVnode sameVnodeInfo
  split
  · rename_i hk
    split
    · exact ⟨_, rfl⟩
    · split
      · rename_i hp
        have := ha hp
        rw [hk.2] at this
        cases hb : b.info.asyncFactory with
        | none => rw [hb] at this; cases this
        | some f => exact ⟨_, rfl⟩
      · exact ⟨_, rfl⟩
  · exact ⟨_, rfl⟩

theorem keyName_some (v : VNode) (key : Key) (h : v.key = some key) :
    v.keyName = some key.name := by
  unfold VNode.keyName
  rw [h]
  rfl

theorem keyName_none (v : VNode) (h : v.key = none) : v.keyName = none := by
  unfold VNode.keyName
  rw [h]
  rfl

theorem keyName_eq (v : VNode) (k : String) (h : v.keyName = some k) :
    ∃ key, v.key = some key ∧ key.name = k := by
  unfold VNode.keyName at h
  cases hk : v.key with
  | none => rw [hk] at h; cases h
  | some key =>
    rw [hk] at h
    simp only [Option.map_some', Option.some.injEq] at h
    exact ⟨key, rfl, h⟩

theorem createKeyToOldIdxLoop_spec (children : List (Option VNode)) (endIdx : Int) :
    ∀ (n : Nat) (i : Int) (map : KeyMap), i + n = endIdx + 1 →
      (∀ i1, i ≤ i1 → i1 ≤ endIdx → slotAt children i1 ≠ none) →
      ∃ m, createKeyToOldIdxLoop children endIdx n i map = .ok m ∧
        (∀ k i1, m.lookup k = some i1 → map.lookup k = some i1 ∨
          (i ≤ i1 ∧ i1 ≤ endIdx ∧ ∃ v, slotAt children i1 = some v ∧ v.keyName = some k)) ∧
        (∀ k, (map.lookup k).isSome = true → (m.lookup k).isSome = true) ∧
        (∀ k i1 v, i ≤ i1 → i1 ≤ endIdx → slotAt children i1 = some v → v.keyName = some k →
          k ≠ "__proto__" → (m.lookup k).isSome = true) := by
  intro n
  induction n with
  | zero =>
    intro i map hn _
    refine ⟨map, rfl, fun k i1 h => Or.inl h, fun k h => h, ?_⟩
    intro k i1 v h1 h2
    omega
  | succ n ih =>
    intro i map hn hdef
    have hle : i ≤ endIdx := by omega
    cases hs : slotAt children i with
    | none => exact absurd hs (hdef i (le_refl _) hle)
    | some c =>
      obtain ⟨m, hm, h1, h2, h3⟩ := ih (i + 1)
        (match c.key with
         | some key => keyMapSet map key i
         | none => map) (by omega) (fun i1 ha hb => hdef i1 (by omega) hb)
      refine ⟨m, ?_, ?_, ?_, ?_⟩
      · simp only [createKeyToOldIdxLoop, hle, if_true, hs]
        exact hm
      · intro k i1 hk
        rcases h1 k i1 hk with h | ⟨ha, hb, hc⟩
        · cases hck : c.key with
          | none =>
            rw [hck] at h
            exact Or.inl h
          | some key =>
            rw [hck] at h
            simp only [keyMapSet] at h
            by_cases hp : key.name = "__proto__"
            · rw [if_pos hp] at h
              exact Or.inl h
            · rw [if_neg hp] at h
              simp only [List.lookup_cons] at h
              by_cases hkk : k = key.name
              · subst hkk
                simp only [beq_self_eq_true] at h
                simp only [Option.some.injEq] at h
                subst h
                exact Or.inr ⟨le_refl _, hle, c, hs, keyName_some c key hck⟩
              · have : (k == key.name) = false := by simpa using hkk
                rw [this] at h
                exact Or.inl h
        · exact Or.inr ⟨by omega, hb, hc⟩
      · intro k hk
        apply h2
        cases hck : c.key with
        | none => exact hk
        | some key =>
          simp only [keyMapSet]
          by_cases hp : key.name = "__proto__"
          · rw [if_pos hp]
            exact hk
          · rw [if_neg hp]
            simp only [List.lookup_cons]
            by_cases hkk : k = key.name
            · subst hkk; simp
            · have : (k == key.name) = false := by simpa using hkk
              rw [this]; exact hk
      · intro k i1 v ha hb hv hkv hnp
        by_cases hi : i1 = i
        · subst hi
          rw [hs] at hv
          simp only [Option.some.injEq] at hv
          subst hv
          apply h2
          obtain ⟨key, hkey, hname⟩ := keyName_eq c k hkv
          rw [hkey]
          simp only [keyMapSet]
          rw [if_neg (by rw [hname]; exact hnp), hname]
          simp
        · exact h3 k i1 v (by omega) hb hv hkv hnp

theorem createKeyToOldIdx_spec (children : List (Option VNode)) (b e : Int) (hbe : b ≤ e + 1)
    (hdef : ∀ i1, b ≤ i1 → i1 ≤ e → slotAt children i1 ≠ none) :
    ∃ m, createKeyToOldIdx children b e = .ok m ∧
      (∀ k i1, m.lookup k = some i1 →
        b ≤ i1 ∧ i1 ≤ e ∧ ∃ v, slotAt children i1 = some v ∧ v.keyName = some k) ∧
      (∀ k i1 v, b ≤ i1 → i1 ≤ e → slotAt children i1 = some v → v.keyName = some k →
        k ≠ "__proto__" → (m.lookup k).isSome = true) := by
  obtain ⟨m, hm, h1, _, h3⟩ :=
    createKeyToOldIdxLoop_spec children e (e - b + 1).toNat b [] (by omega) hdef
  refine ⟨m, hm, ?_, h3⟩
  intro k i1 hk
  rcases h1 k i1 hk with h | h
  · simp at h
  · exact h

theorem findIdxInOldLoop_spec (node : VNode) (oldCh : List (Option VNode)) (endIdx : Int)
    (hn : nodeOk node) :
    ∀ (n : Nat) (i : Int), ∃ r, findIdxInOldLoop node oldCh endIdx n i = .ok r ∧
      ∀ i1, r = some i1 → i ≤ i1 ∧ i1 < endIdx ∧
        ∃ c, slotAt oldCh i1 = some c ∧ sameVnode node c = .ok true := by
  intro n
  induction n with
  | zero =>
    intro i
    exact ⟨none, rfl, fun i1 h => by cases h⟩
  | succ n ih =>
    intro i
    unfold findIdxInOldLoop
    split
    · rename_i hlt
      obtain ⟨r, hr, hspec⟩ := ih (i + 1)
      cases hs : slotAt oldCh i with
      | none =>
        refine ⟨r, by simpa using hr, ?_⟩
        intro i1 h1
        obtain ⟨a, b, c⟩ := hspec i1 h1
        exact ⟨by omega, b, c⟩
      | some c =>
        obtain ⟨b, hb⟩ := sameVnode_total node c hn
        cases b with
        | true =>
          refine ⟨some i, by simp [hb], ?_⟩
          intro i1 h1
          simp only [Option.some.injEq] at h1
          subst h1
          exact ⟨le_refl _, hlt, c, hs, hb⟩
        | false =>
          refine ⟨r, by simpa [hb] using hr, ?_⟩
          intro i1 h1
          obtain ⟨a, b, c⟩ := hspec i1 h1
          exact ⟨by omega, b, c⟩
    · exact ⟨none, rfl, fun i1 h => by cases h⟩

theorem findIdxInOld_spec (node : VNode) (oldCh : List (Option VNode)) (b e : Int)
    (hn : nodeOk node) :
    ∃ r, findIdxInOld node oldCh b e = .ok r ∧
      ∀ i1, r = some i1 → b ≤ i1 ∧ i1 < e ∧
        ∃ c, slotAt oldCh i1 = some c ∧ sameVnode node c = .ok true :=
  findIdxInOldLoop_spec node oldCh e hn _ b

/-! ## Index facts of the loop -/

theorem slotAt_setAt_ne {α : Type} (l : List (Option α)) (i j : Int) (x : Option α)
    (h : i ≠ j) : slotAt (setAt l i x) j = slotAt l j := by
  unfold slotAt
  rw [getAt_setAt_ne l i j x h]

theorem slotAt_setAt_none {α : Type} (l : List (Option α)) (i : Int) :
    slotAt (setAt l i none) i = none := by
  unfold slotAt
  by_cases h : 0 ≤ i ∧ i < l.length
  · rw [getAt_setAt_eq l i none h.1 h.2]
    rfl
  · cases hg : getAt (setAt l i none) i with
    | none => rfl
    | some x =>
      have := getAt_length_lt _ _ _ hg
      rw [length_setAt] at this
      exact absurd this h

theorem slotAt_map_some {α : Type} (l : List α) (i : Int) :
    slotAt (l.map some) i = getAt l i := by
  unfold slotAt getAt
  split
  · rfl
  · simp only [List.getElem?_map]
    cases l[i.toNat]? <;> rfl

theorem newIdxs_append (a b : List UEv) : newIdxs (a ++ b) = newIdxs a ++ newIdxs b := by
  simp [newIdxs, List.filterMap_append]

theorem oldIdxs_append (a b : List UEv) : oldIdxs (a ++ b) = oldIdxs a ++ oldIdxs b := by
  simp [oldIdxs, List.filterMap_append]

theorem mem_newIdxs_patch (tr : List UEv) (i j : Int) (h : UEv.patch i j ∈ tr) :
    j ∈ newIdxs tr := by
  unfold newIdxs
  rw [List.mem_filterMap]
  exact ⟨_, h, rfl⟩

theorem mem_newIdxs_create (tr : List UEv) (j : Int) (h : UEv.create j ∈ tr) :
    j ∈ newIdxs tr := by
  unfold newIdxs
  rw [List.mem_filterMap]
  exact ⟨_, h, rfl⟩

theorem mem_oldIdxs_patch (tr : List UEv) (i j : Int) (h : UEv.patch i j ∈ tr) :
    i ∈ oldIdxs tr := by
  unfold oldIdxs
  rw [List.mem_filterMap]
  exact ⟨_, h, rfl⟩

theorem mem_oldIdxs_remove (tr : List UEv) (i : Int) (h : UEv.remove i ∈ tr) :
    i ∈ oldIdxs tr := by
  unfold oldIdxs
  rw [List.mem_filterMap]
  exact ⟨_, h, rfl⟩

/-- The state at entry satisfies the index facts. -/
theorem core_init (olds news : List VNode) (kids : List LNode) (st : St) :
    Core olds news st.next
      { kids := kids, oldCh := olds.map some, newCh := news,
        oldStartIdx := 0, oldEndIdx := (olds.length : Int) - 1,
        newStartIdx := 0, newEndIdx := (news.length : Int) - 1,
        oldKeyToIdx := none, st := st, trace := [], log := [] } where
  lenO := by simp
  lenN := rfl
  os0 := le_refl _
  oe1 := by show (olds.length : Int) - 1 < _; omega
  ose := by show (0 : Int) ≤ (olds.length : Int) - 1 + 1; omega
  ns0 := le_refl _
  ne1 := by show (news.length : Int) - 1 < _; omega
  nse := by show (0 : Int) ≤ (news.length : Int) - 1 + 1; omega
  oldSlot := by
    intro i v h
    rw [← slotAt_map_some]
    exact h
  newMid := fun _ _ _ => rfl
  newKey := fun j v h => ⟨v, h, rfl⟩
  mapInv := by intro m h; cases h
  noHole := by
    intro _ i h0 h1
    show slotAt (olds.map some) i ≠ none
    rw [slotAt_map_some]
    obtain ⟨x, hx⟩ := getAt_of_range olds i h0 (by
      have : i ≤ (olds.length : Int) - 1 := h1
      omega)
    rw [hx]
    simp
  mapFull := by intro m h; cases h
  trNewNodup := by simp [newIdxs]
  trNewMem := by
    intro j
    show j ∈ newIdxs [] ↔ (0 ≤ j ∧ j < 0) ∨ ((news.length : Int) - 1 < j ∧ j < news.length)
    simp [newIdxs]
    omega
  trOldNodup := by simp [oldIdxs]
  trOldMem := by
    intro i
    show i ∈ oldIdxs [] ↔ 0 ≤ i ∧ i < olds.length ∧
      (i < 0 ∨ (olds.length : Int) - 1 < i ∨ slotAt (olds.map some) i = none)
    simp only [oldIdxs, List.filterMap_nil, List.not_mem_nil, false_iff, not_and, not_or]
    intro h0 h1
    refine ⟨by omega, by omega, ?_⟩
    rw [slotAt_map_some]
    obtain ⟨x, hx⟩ := getAt_of_range olds i h0 h1
    rw [hx]
    simp
  trPatch := by intro i j h; cases h
  trCreate := by intro j h; cases h
  trRemove := by intro i h; cases h

/-- Stepping over a consumed slot at the old start. -/
theorem core_skipFront (olds news : List VNode) (b0 : Nat) (s : UState)
    (hc : Core olds news b0 s) (hs : slotAt s.oldCh s.oldStartIdx = none)
    (hle : s.oldStartIdx ≤ s.oldEndIdx) :
    Core olds news b0 { s with oldStartIdx := s.oldStartIdx + 1 } where
  lenO := hc.lenO
  lenN := hc.lenN
  os0 := by have := hc.os0; show (0 : Int) ≤ s.oldStartIdx + 1; omega
  oe1 := hc.oe1
  ose := by show s.oldStartIdx + 1 ≤ s.oldEndIdx + 1; omega
  ns0 := hc.ns0
  ne1 := hc.ne1
  nse := hc.nse
  oldSlot := hc.oldSlot
  newMid := hc.newMid
  newKey := hc.newKey
  mapInv := by
    intro m hm k i hk
    rcases hc.mapInv m hm k i hk with ⟨h1, h2, v, hv, hkv⟩ | h
    · refine Or.inl ⟨?_, h2, v, hv, hkv⟩
      show s.oldStartIdx + 1 ≤ i
      by_contra hcon
      have : i = s.oldStartIdx := by omega
      rw [this, hs] at hv
      cases hv
    · exact Or.inr h
  noHole := by
    intro hm i h1 h2
    exact absurd hs (hc.noHole hm s.oldStartIdx (le_refl _) hle)
  mapFull := by
    intro m hm i v k h1 h2 hv hk
    have h1' : s.oldStartIdx + 1 ≤ i := h1
    exact hc.mapFull m hm i v k (by omega) h2 hv hk
  trNewNodup := hc.trNewNodup
  trNewMem := hc.trNewMem
  trOldNodup := hc.trOldNodup
  trOldMem := by
    intro i
    rw [hc.trOldMem i]
    show _ ↔ 0 ≤ i ∧ i < olds.length ∧
      (i < s.oldStartIdx + 1 ∨ s.oldEndIdx < i ∨ slotAt s.oldCh i = none)
    constructor
    · rintro ⟨h0, h1, h | h | h⟩
      · exact ⟨h0, h1, Or.inl (by omega)⟩
      · exact ⟨h0, h1, Or.inr (Or.inl h)⟩
      · exact ⟨h0, h1, Or.inr (Or.inr h)⟩
    · rintro ⟨h0, h1, h | h | h⟩
      · by_cases hi : i = s.oldStartIdx
        · exact ⟨h0, h1, Or.inr (Or.inr (by rw [hi]; exact hs))⟩
        · exact ⟨h0, h1, Or.inl (by omega)⟩
      · exact ⟨h0, h1, Or.inr (Or.inl h)⟩
      · exact ⟨h0, h1, Or.inr (Or.inr h)⟩
  trPatch := hc.trPatch
  trCreate := hc.trCreate
  trRemove := hc.trRemove

/-- Stepping over a consumed slot at the old end. -/
theorem core_skipBack (olds news : List VNode) (b0 : Nat) (s : UState)
    (hc : Core olds news b0 s) (hs : slotAt s.oldCh s.oldEndIdx = none)
    (hle : s.oldStartIdx ≤ s.oldEndIdx) :
    Core olds news b0 { s with oldEndIdx := s.oldEndIdx - 1 } where
  lenO := hc.lenO
  lenN := hc.lenN
  os0 := hc.os0
  oe1 := by have := hc.oe1; show s.oldEndIdx - 1 < _; omega
  ose := by show s.oldStartIdx ≤ s.oldEndIdx - 1 + 1; omega
  ns0 := hc.ns0
  ne1 := hc.ne1
  nse := hc.nse
  oldSlot := hc.oldSlot
  newMid := hc.newMid
  newKey := hc.newKey
  mapInv := by
    intro m hm k i hk
    rcases hc.mapInv m hm k i hk with ⟨h1, h2, v, hv, hkv⟩ | h
    · refine Or.inl ⟨h1, ?_, v, hv, hkv⟩
      show i ≤ s.oldEndIdx - 1
      by_contra hcon
      have : i = s.oldEndIdx := by omega
      rw [this, hs] at hv
      cases hv
    · exact Or.inr h
  noHole := by
    intro hm i h1 h2
    exact absurd hs (hc.noHole hm s.oldEndIdx hle (le_refl _))
  mapFull := by
    intro m hm i v k h1 h2 hv hk
    have h2' : i ≤ s.oldEndIdx - 1 := h2
    exact hc.mapFull m hm i v k h1 (by omega) hv hk
  trNewNodup := hc.trNewNodup
  trNewMem := hc.trNewMem
  trOldNodup := hc.trOldNodup
  trOldMem := by
    intro i
    rw [hc.trOldMem i]
    show _ ↔ 0 ≤ i ∧ i < olds.length ∧
      (i < s.oldStartIdx ∨ s.oldEndIdx - 1 < i ∨ slotAt s.oldCh i = none)
    constructor
    · rintro ⟨h0, h1, h | h | h⟩
      · exact ⟨h0, h1, Or.inl h⟩
      · exact ⟨h0, h1, Or.inr (Or.inl (by omega))⟩
      · exact ⟨h0, h1, Or.inr (Or.inr h)⟩
    · rintro ⟨h0, h1, h | h | h⟩
      · exact ⟨h0, h1, Or.inl h⟩
      · by_cases hi : i = s.oldEndIdx
        · exact ⟨h0, h1, Or.inr (Or.inr (by rw [hi]; exact hs))⟩
        · exact ⟨h0, h1, Or.inr (Or.inl (by omega))⟩
      · exact ⟨h0, h1, Or.inr (Or.inr h)⟩
  trPatch := hc.trPatch
  trCreate := hc.trCreate
  trRemove := hc.trRemove

/-- Building the key map keeps the index facts. -/
theorem core_setMap (olds news : List VNode) (b0 : Nat) (s : UState)
    (hc : Core olds news b0 s) (m : KeyMap)
    (hm : s.oldKeyToIdx = some m ∨
      (s.oldKeyToIdx = none ∧
        createKeyToOldIdx s.oldCh s.oldStartIdx s.oldEndIdx = .ok m)) :
    Core olds news b0 { s with oldKeyToIdx := some m } := by
  rcases hm with hm | ⟨hnone, hm⟩
  · have : { s with oldKeyToIdx := some m } = s := by
      cases s
      simp only at hm
      simp [hm]
    rw [this]
    exact hc
  · obtain ⟨m1, hm1, hsp1, hsp2⟩ := createKeyToOldIdx_spec s.oldCh s.oldStartIdx s.oldEndIdx
      hc.ose (hc.noHole hnone)
    rw [hm] at hm1
    simp only [Except.ok.injEq] at hm1
    subst hm1
    exact
      { lenO := hc.lenO, lenN := hc.lenN, os0 := hc.os0, oe1 := hc.oe1, ose := hc.ose,
        ns0 := hc.ns0, ne1 := hc.ne1, nse := hc.nse, oldSlot := hc.oldSlot,
        newMid := hc.newMid, newKey := hc.newKey,
        mapInv := by
          intro m2 hm2 k i hk
          simp only [Option.some.injEq] at hm2
          subst hm2
          exact Or.inl (hsp1 k i hk)
        noHole := by intro h; cases h
        mapFull := by
          intro m2 hm2 i v k h1 h2 hv hk hnp
          simp only [Option.some.injEq] at hm2
          subst hm2
          have := hsp2 k i v h1 h2 hv hk hnp
          cases hl : List.lookup k m with
          | none => rw [hl] at this; cases this
          | some i1 => exact ⟨i1, rfl⟩
        trNewNodup := hc.trNewNodup, trNewMem := hc.trNewMem, trOldNodup := hc.trOldNodup,
        trOldMem := hc.trOldMem, trPatch := hc.trPatch, trCreate := hc.trCreate,
        trRemove := hc.trRemove }

/-- Patching the old slot `i` against the new slot `j` keeps the index facts,
whichever of the four pointers the branch then moves. -/
theorem core_patch (olds news : List VNode) (b0 : Nat) (s s1 : UState)
    (hc : Core olds news b0 s) (i j : Int) (o n v1 : VNode)
    (hi : slotAt s.oldCh i = some o)
    (hir : s.oldStartIdx ≤ i ∧ i ≤ s.oldEndIdx)
    (hj : getAt s.newCh j = some n)
    (hjr : s.newStartIdx ≤ j ∧ j ≤ s.newEndIdx)
    (hsame : sameVnode o n = .ok true)
    (hnew : s1.newCh = setAt s.newCh j v1) (helm : v1.elm = o.elm) (hkey : v1.key = n.key)
    (hold : s1.oldCh = s.oldCh ∨
      (s1.oldCh = setAt s.oldCh i none ∧ s.oldKeyToIdx ≠ none))
    (hos : s.oldStartIdx ≤ s1.oldStartIdx) (hoe : s1.oldEndIdx ≤ s.oldEndIdx)
    (hose : s1.oldStartIdx ≤ s1.oldEndIdx + 1)
    (hout : ∀ i1, s.oldStartIdx ≤ i1 → i1 ≤ s.oldEndIdx →
      (s1.oldStartIdx ≤ i1 ∧ i1 ≤ s1.oldEndIdx) ∨ i1 = i)
    (hiout : i < s1.oldStartIdx ∨ s1.oldEndIdx < i ∨ s1.oldCh = setAt s.oldCh i none)
    (hns : s.newStartIdx ≤ s1.newStartIdx) (hne : s1.newEndIdx ≤ s.newEndIdx)
    (hnse : s1.newStartIdx ≤ s1.newEndIdx + 1)
    (hnout : ∀ j1, s.newStartIdx ≤ j1 → j1 ≤ s.newEndIdx →
      (s1.newStartIdx ≤ j1 ∧ j1 ≤ s1.newEndIdx) ∨ j1 = j)
    (hjout : j < s1.newStartIdx ∨ s1.newEndIdx < j)
    (hmap : s1.oldKeyToIdx = s.oldKeyToIdx)
    (htrn : newIdxs s1.trace = newIdxs s.trace ++ [j])
    (htro : oldIdxs s1.trace = oldIdxs s.trace ++ [i])
    (htr : ∀ e ∈ s1.trace, e ∈ s.trace ∨ e = .patch i j ∨ ∃ a b, e = .move a b) :
    Core olds news b0 s1 := by
  have hlenj : 0 ≤ j ∧ j < s.newCh.length := getAt_length_lt _ _ _ hj
  have hleni : 0 ≤ i ∧ i < s.oldCh.length :=
    getAt_length_lt _ _ _ (slotAt_some_getAt _ _ _ hi)
  have hjnews : getAt news j = some n := by
    rw [← hc.newMid j hjr.1 hjr.2]; exact hj
  have hslot1 : ∀ i1, i1 ≠ i → slotAt s1.oldCh i1 = slotAt s.oldCh i1 := by
    intro i1 hne1
    rcases hold with h | ⟨h, _⟩
    · rw [h]
    · rw [h]; exact slotAt_setAt_ne _ _ _ _ (fun e => hne1 e.symm)
  have hslotNone : ∀ i1, slotAt s.oldCh i1 = none → slotAt s1.oldCh i1 = none := by
    intro i1 h1
    by_cases hii : i1 = i
    · rw [hii, hi] at h1; cases h1
    · rw [hslot1 i1 hii]; exact h1
  have hget1 : ∀ j1, j1 ≠ j → getAt s1.newCh j1 = getAt s.newCh j1 := by
    intro j1 hne1
    rw [hnew]
    exact getAt_setAt_ne _ _ _ _ (fun e => hne1 e.symm)
  have hgetj : getAt s1.newCh j = some v1 := by
    rw [hnew]; exact getAt_setAt_eq _ _ _ hlenj.1 hlenj.2
  have hjnot : j ∉ newIdxs s.trace := by
    rw [hc.trNewMem]
    omega
  have hinot : i ∉ oldIdxs s.trace := by
    rw [hc.trOldMem]
    rintro ⟨_, _, h | h | h⟩
    · omega
    · omega
    · rw [hi] at h; cases h
  exact
    { lenO := by
        rcases hold with h | ⟨h, _⟩
        · rw [h]; exact hc.lenO
        · rw [h, length_setAt]; exact hc.lenO
      lenN := by rw [hnew, length_setAt]; exact hc.lenN
      os0 := by have := hc.os0; omega
      oe1 := by have := hc.oe1; omega
      ose := hose
      ns0 := by have := hc.ns0; omega
      ne1 := by have := hc.ne1; omega
      nse := hnse
      oldSlot := by
        intro i1 v hv
        by_cases hii : i1 = i
        · rcases hold with h | ⟨h, _⟩
          · rw [h] at hv; exact hc.oldSlot i1 v hv
          · rw [h, hii, slotAt_setAt_none] at hv; cases hv
        · rw [hslot1 i1 hii] at hv
          exact hc.oldSlot i1 v hv
      newMid := by
        intro j1 h1 h2
        have hne1 : j1 ≠ j := by omega
        rw [hget1 j1 hne1]
        exact hc.newMid j1 (by omega) (by omega)
      newKey := by
        intro j1 v hv
        by_cases hjj : j1 = j
        · subst hjj
          rw [hgetj] at hv
          simp only [Option.some.injEq] at hv
          subst hv
          exact ⟨n, hjnews, hkey⟩
        · rw [hget1 j1 hjj] at hv
          exact hc.newKey j1 v hv
      mapInv := by
        intro m hm k i1 hk
        rw [hmap] at hm
        rcases hc.mapInv m hm k i1 hk with ⟨h1, h2, v, hv, hkv⟩ | ⟨j1, v, hj1, hv, hkv⟩
        · by_cases hii : i1 = i
          · subst hii
            rw [hi] at hv
            simp only [Option.some.injEq] at hv
            subst hv
            refine Or.inr ⟨j, v1, hjout, hgetj, ?_⟩
            unfold VNode.keyName at hkv ⊢
            rw [hkey, ← sameVnode_key _ _ hsame]
            exact hkv
          · rcases hout i1 h1 h2 with h | h
            · exact Or.inl ⟨h.1, h.2, v, by rw [hslot1 i1 hii]; exact hv, hkv⟩
            · exact absurd h hii
        · have hne1 : j1 ≠ j := by omega
          exact Or.inr ⟨j1, v, by omega, by rw [hget1 j1 hne1]; exact hv, hkv⟩
      noHole := by
        intro hm i1 h1 h2
        rw [hmap] at hm
        rcases hold with h | ⟨_, h⟩
        · rw [h]; exact hc.noHole hm i1 (by omega) (by omega)
        · exact absurd hm h
      mapFull := by
        intro m hm i1 v k h1 h2 hv hk
        rw [hmap] at hm
        by_cases hii : i1 = i
        · subst hii
          rcases hiout with h | h | h
          · omega
          · omega
          · rw [h, slotAt_setAt_none] at hv; cases hv
        · rw [hslot1 i1 hii] at hv
          exact hc.mapFull m hm i1 v k (by omega) (by omega) hv hk
      trNewNodup := by
        rw [htrn]
        exact List.Nodup.append hc.trNewNodup (List.nodup_singleton _)
          (by simpa using hjnot)
      trNewMem := by
        intro j1
        rw [htrn, List.mem_append, hc.trNewMem]
        have := hc.ns0
        have := hc.ne1
        have hl := hc.lenN
        constructor
        · rintro (h | h)
          · omega
          · have : j1 = j := by simpa using h
            omega
        · intro h
          by_cases hjj : j1 = j
          · exact Or.inr (by simp [hjj])
          · left
            by_contra hcon
            have hr : s.newStartIdx ≤ j1 ∧ j1 ≤ s.newEndIdx := by omega
            rcases hnout j1 hr.1 hr.2 with h3 | h3
            · omega
            · exact hjj h3
      trOldNodup := by
        rw [htro]
        exact List.Nodup.append hc.trOldNodup (List.nodup_singleton _)
          (by simpa using hinot)
      trOldMem := by
        intro i1
        rw [htro, List.mem_append, hc.trOldMem]
        have hlo := hc.lenO
        constructor
        · rintro (⟨h0, h1, h | h | h⟩ | h)
          · exact ⟨h0, h1, Or.inl (by omega)⟩
          · exact ⟨h0, h1, Or.inr (Or.inl (by omega))⟩
          · exact ⟨h0, h1, Or.inr (Or.inr (hslotNone i1 h))⟩
          · have hii : i1 = i := by simpa using h
            subst hii
            refine ⟨hleni.1, by omega, ?_⟩
            rcases hiout with h | h | h
            · exact Or.inl h
            · exact Or.inr (Or.inl h)
            · exact Or.inr (Or.inr (by rw [h]; exact slotAt_setAt_none _ _))
        · rintro ⟨h0, h1, h⟩
          by_cases hii : i1 = i
          · exact Or.inr (by simp [hii])
          · left
            refine ⟨h0, h1, ?_⟩
            rcases h with h | h | h
            · by_cases hlt : i1 < s.oldStartIdx
              · exact Or.inl hlt
              · by_cases hgt : s.oldEndIdx < i1
                · exact Or.inr (Or.inl hgt)
                · rcases hout i1 (by omega) (by omega) with h3 | h3
                  · omega
                  · exact absurd h3 hii
            · by_cases hlt : i1 < s.oldStartIdx
              · exact Or.inl hlt
              · by_cases hgt : s.oldEndIdx < i1
                · exact Or.inr (Or.inl hgt)
                · rcases hout i1 (by omega) (by omega) with h3 | h3
                  · omega
                  · exact absurd h3 hii
            · rw [hslot1 i1 hii] at h
              exact Or.inr (Or.inr h)
      trPatch := by
        intro i1 j1 he
        rcases htr _ he with h | h | ⟨a, b, h⟩
        · obtain ⟨o1, n1, v, h1, h2, h3, h4, h5⟩ := hc.trPatch i1 j1 h
          have hne1 : j1 ≠ j := by
            intro e
            apply hjnot
            rw [← e]
            exact mem_newIdxs_patch _ _ _ h
          exact ⟨o1, n1, v, h1, h2, h3, by rw [hget1 j1 hne1]; exact h4, h5⟩
        · simp only [UEv.patch.injEq] at h
          obtain ⟨rfl, rfl⟩ := h
          exact ⟨o, n, v1, hc.oldSlot _ _ hi, hjnews, hsame, hgetj, helm⟩
        · cases h
      trCreate := by
        intro j1 he
        rcases htr _ he with h | h | ⟨a, b, h⟩
        · obtain ⟨v, x, h1, h2, h3⟩ := hc.trCreate j1 h
          have hne1 : j1 ≠ j := by
            intro e
            apply hjnot
            rw [← e]
            exact mem_newIdxs_create _ _ h
          exact ⟨v, x, by rw [hget1 j1 hne1]; exact h1, h2, h3⟩
        · cases h
        · cases h
      trRemove := by
        intro i1 he
        rcases htr _ he with h | h | ⟨a, b, h⟩
        · exact hc.trRemove i1 h
        · cases h
        · cases h }

/-- Creating the new start node keeps the index facts. -/
theorem core_create (olds news : List VNode) (b0 : Nat) (s s1 : UState)
    (hc : Core olds news b0 s) (n v1 : VNode) (x : Nat)
    (hj : getAt s.newCh s.newStartIdx = some n)
    (hjr : s.newStartIdx ≤ s.newEndIdx)
    (hnew : s1.newCh = setAt s.newCh s.newStartIdx v1) (helm : v1.elm = some x)
    (hx : b0 ≤ x) (hkey : v1.key = n.key)
    (hold : s1.oldCh = s.oldCh)
    (hos : s1.oldStartIdx = s.oldStartIdx) (hoe : s1.oldEndIdx = s.oldEndIdx)
    (hns : s1.newStartIdx = s.newStartIdx + 1) (hne : s1.newEndIdx = s.newEndIdx)
    (hmap : s1.oldKeyToIdx = s.oldKeyToIdx)
    (htr : s1.trace = s.trace ++ [.create s.newStartIdx]) :
    Core olds news b0 s1 := by
  have hlenj : 0 ≤ s.newStartIdx ∧ s.newStartIdx < s.newCh.length := getAt_length_lt _ _ _ hj
  have hjnews : getAt news s.newStartIdx = some n := by
    rw [← hc.newMid _ (le_refl _) hjr]; exact hj
  have hget1 : ∀ j1, j1 ≠ s.newStartIdx → getAt s1.newCh j1 = getAt s.newCh j1 := by
    intro j1 hne1
    rw [hnew]
    exact getAt_setAt_ne _ _ _ _ (fun e => hne1 e.symm)
  have hgetj : getAt s1.newCh s.newStartIdx = some v1 := by
    rw [hnew]; exact getAt_setAt_eq _ _ _ hlenj.1 hlenj.2
  have hjnot : s.newStartIdx ∉ newIdxs s.trace := by
    rw [hc.trNewMem]
    omega
  have htrn : newIdxs s1.trace = newIdxs s.trace ++ [s.newStartIdx] := by
    rw [htr, newIdxs_append]; rfl
  have htro : oldIdxs s1.trace = oldIdxs s.trace := by
    rw [htr, oldIdxs_append]; simp [oldIdxs]
  exact
    { lenO := by rw [hold]; exact hc.lenO
      lenN := by rw [hnew, length_setAt]; exact hc.lenN
      os0 := by rw [hos]; exact hc.os0
      oe1 := by rw [hoe]; exact hc.oe1
      ose := by rw [hos, hoe]; exact hc.ose
      ns0 := by have := hc.ns0; omega
      ne1 := by rw [hne]; exact hc.ne1
      nse := by omega
      oldSlot := by rw [hold]; exact hc.oldSlot
      newMid := by
        intro j1 h1 h2
        have hne1 : j1 ≠ s.newStartIdx := by omega
        rw [hget1 j1 hne1]
        exact hc.newMid j1 (by omega) (by omega)
      newKey := by
        intro j1 v hv
        by_cases hjj : j1 = s.newStartIdx
        · subst hjj
          rw [hgetj] at hv
          simp only [Option.some.injEq] at hv
          subst hv
          exact ⟨n, hjnews, hkey⟩
        · rw [hget1 j1 hjj] at hv
          exact hc.newKey j1 v hv
      mapInv := by
        intro m hm k i1 hk
        rw [hmap] at hm
        rw [hold, hos, hoe]
        rcases hc.mapInv m hm k i1 hk with h | ⟨j1, v, hj1, hv, hkv⟩
        · exact Or.inl h
        · have hne1 : j1 ≠ s.newStartIdx := by omega
          exact Or.inr ⟨j1, v, by omega, by rw [hget1 j1 hne1]; exact hv, hkv⟩
      noHole := by
        intro hm
        rw [hmap] at hm
        rw [hold, hos, hoe]
        exact hc.noHole hm
      mapFull := by
        intro m hm
        rw [hmap] at hm
        rw [hold, hos, hoe]
        exact hc.mapFull m hm
      trNewNodup := by
        rw [htrn]
        exact List.Nodup.append hc.trNewNodup (List.nodup_singleton _)
          (by simpa using hjnot)
      trNewMem := by
        intro j1
        rw [htrn, List.mem_append, hc.trNewMem]
        have := hc.ns0
        have := hc.ne1
        constructor
        · rintro (h | h)
          · omega
          · have : j1 = s.newStartIdx := by simpa using h
            omega
        · intro h
          by_cases hjj : j1 = s.newStartIdx
          · exact Or.inr (by simp [hjj])
          · left
            omega
      trOldNodup := by rw [htro]; exact hc.trOldNodup
      trOldMem := by
        intro i1
        rw [htro, hold, hos, hoe]
        exact hc.trOldMem i1
      trPatch := by
        intro i1 j1 he
        rw [htr] at he
        rcases List.mem_append.1 he with h | h
        · obtain ⟨o1, n1, v, h1, h2, h3, h4, h5⟩ := hc.trPatch i1 j1 h
          have hne1 : j1 ≠ s.newStartIdx := by
            intro e
            apply hjnot
            rw [← e]
            exact mem_newIdxs_patch _ _ _ h
          exact ⟨o1, n1, v, h1, h2, h3, by rw [hget1 j1 hne1]; exact h4, h5⟩
        · simp at h
      trCreate := by
        intro j1 he
        rw [htr] at he
        rcases List.mem_append.1 he with h | h
        · obtain ⟨v, x1, h1, h2, h3⟩ := hc.trCreate j1 h
          have hne1 : j1 ≠ s.newStartIdx := by
            intro e
            apply hjnot
            rw [← e]
            exact mem_newIdxs_create _ _ h
          exact ⟨v, x1, by rw [hget1 j1 hne1]; exact h1, h2, h3⟩
        · have : j1 = s.newStartIdx := by simpa using h
          subst this
          exact ⟨v1, x, hgetj, helm, hx⟩
      trRemove := by
        intro i1 he
        rw [htr] at he
        rcases List.mem_append.1 he with h | h
        · exact hc.trRemove i1 h
        · simp at h }

/-! ## The live child list during the loop -/

theorem patchAt_mid (pv : PatchVnode) (s : UState) (o n : VNode) (i j : Int)
    (KX KY : List LNode) (sub : LNode) (hk : s.kids = KX ++ sub :: KY)
    (hx : sub.h ∉ KX.map LNode.h) (helm : o.elm = some sub.h)
    (hm : mirrors sub o = true) (hb : LNode.bounded s.st.next sub = true)
    (hpv : PvSpec pv o n) :
    ∃ n1 sub1 st1 ev, patchAt pv s o i n j =
        .ok { s with kids := KX ++ sub1 :: KY, newCh := setAt s.newCh j n1, st := st1,
                     trace := s.trace ++ [.patch i j], log := s.log ++ ev } ∧
      sub1.h = sub.h ∧ n1.elm = o.elm ∧ n1.key = n.key ∧ s.st.next ≤ st1.next ∧
      LNode.bounded st1.next sub1 = true := by
  obtain ⟨n1, sub1, st1, ev, hrun, h1, h2, h3, h4, h5⟩ := hpv sub s.st hm hb
  refine ⟨n1, sub1, st1, ev, ?_, h1, h2, h3, h4, h5⟩
  unfold patchAt
  rw [helm]
  simp only [hk, findH_mid KX KY sub hx]
  rw [← hk, hrun]
  simp only [hk, replaceH_mid KX KY sub sub1 hx]

theorem nodup_mid_not_mem (KX KY : List LNode) (x : LNode)
    (h : ((KX ++ x :: KY).map LNode.h).Nodup) : x.h ∉ KX.map LNode.h := by
  rw [List.map_append, List.map_cons] at h
  have := (List.nodup_middle.1 h)
  rw [List.nodup_cons] at this
  intro hm
  exact this.1 (List.mem_append_left _ hm)

theorem dom_patch (pv : PatchVnode) (s : UState) (Po Mo So : List (Option VNode))
    (Pn Mn Sn : List VNode) (KP KM KS : List LNode)
    (hd : Dom s Po Mo So Pn Mn Sn KP KM KS) (A B : List (Option VNode)) (o n : VNode)
    (hMo : Mo = A ++ some o :: B) (i j : Int) (hpv : PvSpec pv o n) :
    ∃ n1 sub1 st1 ev KA KB,
      patchAt pv s o i n j =
        .ok { s with kids := KP ++ (KA ++ sub1 :: (KB ++ KS)), newCh := setAt s.newCh j n1,
                     st := st1, trace := s.trace ++ [.patch i j], log := s.log ++ ev } ∧
      n1.elm = o.elm ∧ n1.key = n.key ∧ s.st.next ≤ st1.next ∧
      Split KP KA KB KS sub1 Pn Sn A B o st1.next := by
  have hdm := hd.domM
  rw [hMo, List.reduceOption_append, List.reduceOption_cons_of_some, List.map_append,
    List.map_cons, List.map_eq_append_iff] at hdm
  obtain ⟨KA, KB1, hKM, hA, hB1⟩ := hdm
  rw [List.map_eq_cons_iff] at hB1
  obtain ⟨sub, KB, hKB1, hsub, hB⟩ := hB1
  subst hKB1
  have hk : s.kids = (KP ++ KA) ++ sub :: (KB ++ KS) := by
    rw [hd.hK, hKM]; simp
  have hnd := hd.nodup
  rw [hk] at hnd
  have hx := nodup_mid_not_mem _ _ _ hnd
  have hsubmem : sub ∈ s.kids := by rw [hk]; simp
  have hoin : o ∈ Mo.reduceOption := by
    rw [hMo, List.reduceOption_append, List.reduceOption_cons_of_some]; simp
  have hm := hd.mir o hoin sub (by rw [hKM]; simp) hsub.symm
  obtain ⟨n1, sub1, st1, ev, hrun, h1, h2, h3, h4, h5⟩ :=
    patchAt_mid pv s o n i j (KP ++ KA) (KB ++ KS) sub hk hx hsub.symm hm
      (hd.bnd sub hsubmem) hpv
  refine ⟨n1, sub1, st1, ev, KA, KB, ?_, h2, h3, h4, ?_⟩
  · rw [hrun]; simp
  · exact
      { hP := hd.domP
        hA := hA
        hB := hB
        hS := hd.domS
        hsub := by rw [h1]; exact hsub.symm
        nodup := by
          have : (KP ++ (KA ++ sub1 :: (KB ++ KS))).map LNode.h
              = ((KP ++ KA) ++ sub :: (KB ++ KS)).map LNode.h := by
            simp [h1]
          rw [this]; exact hnd
        bnd := by
          intro k hkm
          have : k = sub1 ∨ k ∈ s.kids := by
            rw [hk]
            simp only [List.mem_append, List.mem_cons] at hkm ⊢
            tauto
          rcases this with h | h
          · rw [h]; exact h5
          · exact bounded_mono _ _ h4 k (hd.bnd k h)
        mir := by
          intro v hv k hkm he
          refine hd.mir v ?_ k ?_ he
          · rw [hMo, List.reduceOption_append, List.reduceOption_cons_of_some]
            simp only [List.mem_append, List.mem_cons] at hv ⊢
            tauto
          · rw [hKM]
            simp only [List.mem_append, List.mem_cons] at hkm ⊢
            tauto }

theorem getAt_mem {α : Type} (l : List α) (i : Int) (x : α) (h : getAt l i = some x) :
    x ∈ l := by
  obtain ⟨P, S, rfl, _⟩ := getAt_split l i x h
  simp

theorem dom_front_old (s : UState) (Po Mo So : List (Option VNode)) (Pn Mn Sn : List VNode)
    (KP KM KS : List LNode) (hd : Dom s Po Mo So Pn Mn Sn KP KM KS)
    (hle : s.oldStartIdx ≤ s.oldEndIdx) :
    ∃ x B, Mo = x :: B ∧ slotAt s.oldCh s.oldStartIdx = x := by
  cases hMo : Mo with
  | nil =>
    have h1 := hd.hMo
    have h2 := hd.hPo
    rw [hMo] at h1
    simp at h1
    omega
  | cons x B =>
    refine ⟨x, B, rfl, ?_⟩
    rw [hd.hO, hMo]
    exact slotAt_append_mid Po x (B ++ So) _ hd.hPo

theorem dom_back_old (s : UState) (Po Mo So : List (Option VNode)) (Pn Mn Sn : List VNode)
    (KP KM KS : List LNode) (hd : Dom s Po Mo So Pn Mn Sn KP KM KS)
    (hle : s.oldStartIdx ≤ s.oldEndIdx) :
    ∃ A y, Mo = A ++ [y] ∧ slotAt s.oldCh s.oldEndIdx = y := by
  rcases List.eq_nil_or_concat Mo with hMo | ⟨A, y, hMo⟩
  · have h1 := hd.hMo
    have h2 := hd.hPo
    rw [hMo] at h1
    simp at h1
    omega
  · rw [List.concat_eq_append] at hMo
    refine ⟨A, y, hMo, ?_⟩
    have h1 := hd.hMo
    rw [hMo] at h1
    simp only [List.length_append, List.length_singleton] at h1
    have : s.oldCh = (Po ++ A) ++ y :: So := by
      rw [hd.hO, hMo]; simp
    rw [this]
    apply slotAt_append_mid
    simp only [List.length_append]
    push_cast at h1 ⊢
    omega

theorem dom_front_new (s : UState) (Po Mo So : List (Option VNode)) (Pn Mn Sn : List VNode)
    (KP KM KS : List LNode) (hd : Dom s Po Mo So Pn Mn Sn KP KM KS)
    (hle : s.newStartIdx ≤ s.newEndIdx) :
    ∃ n C, Mn = n :: C ∧ getAt s.newCh s.newStartIdx = some n := by
  cases hMn : Mn with
  | nil =>
    have h1 := hd.hMn
    have h2 := hd.hPn
    rw [hMn] at h1
    simp at h1
    omega
  | cons x B =>
    refine ⟨x, B, rfl, ?_⟩
    rw [hd.hN, hMn]
    exact getAt_append_mid Pn x (B ++ Sn) _ hd.hPn

theorem dom_back_new (s : UState) (Po Mo So : List (Option VNode)) (Pn Mn Sn : List VNode)
    (KP KM KS : List LNode) (hd : Dom s Po Mo So Pn Mn Sn KP KM KS)
    (hle : s.newStartIdx ≤ s.newEndIdx) :
    ∃ C n, Mn = C ++ [n] ∧ getAt s.newCh s.newEndIdx = some n := by
  rcases List.eq_nil_or_concat Mn with hMn | ⟨A, y, hMn⟩
  · have h1 := hd.hMn
    have h2 := hd.hPn
    rw [hMn] at h1
    simp at h1
    omega
  · rw [List.concat_eq_append] at hMn
    refine ⟨A, y, hMn, ?_⟩
    have h1 := hd.hMn
    rw [hMn] at h1
    simp only [List.length_append, List.length_singleton] at h1
    have : s.newCh = (Pn ++ A) ++ y :: Sn := by
      rw [hd.hN, hMn]; simp
    rw [this]
    apply getAt_append_mid
    simp only [List.length_append]
    push_cast at h1 ⊢
    omega

theorem map_some_nil (KA : List LNode) (A : List (Option VNode)) (hA : A.reduceOption = [])
    (h : KA.map (fun k => some k.h) = A.reduceOption.map VNode.elm) : KA = [] := by
  rw [hA] at h
  simpa using h

/-- Branch 3 of the loop: old start and new start are the same node. -/
theorem step_b3 (pv : PatchVnode) (olds news : List VNode) (b0 : Nat) (s : UState)
    (hc : Core olds news b0 s) (hd : DomInv s) (o n : VNode)
    (ho : slotAt s.oldCh s.oldStartIdx = some o)
    (hn : getAt s.newCh s.newStartIdx = some n)
    (hle : s.oldStartIdx ≤ s.oldEndIdx) (hnle : s.newStartIdx ≤ s.newEndIdx)
    (hsame : sameVnode o n = .ok true) (hpv : PvSpec pv o n) :
    ∃ s1, patchAt pv s o s.oldStartIdx n s.newStartIdx = .ok s1 ∧
      Core olds news b0
        { s1 with oldStartIdx := s.oldStartIdx + 1, newStartIdx := s.newStartIdx + 1 } ∧
      DomInv { s1 with oldStartIdx := s.oldStartIdx + 1, newStartIdx := s.newStartIdx + 1 } ∧
      s.st.next ≤ s1.st.next := by
  obtain ⟨Po, Mo, So, Pn, Mn, Sn, KP, KM, KS, hd⟩ := hd
  obtain ⟨x, B, hMo, hx⟩ := dom_front_old s _ _ _ _ _ _ _ _ _ hd hle
  rw [ho] at hx
  subst hx
  obtain ⟨n0, C, hMn, hn0⟩ := dom_front_new s _ _ _ _ _ _ _ _ _ hd hnle
  rw [hn] at hn0
  simp only [Option.some.injEq] at hn0
  subst hn0
  obtain ⟨n1, sub1, st1, ev, KA, KB, hrun, h1, h2, h3, hsp⟩ :=
    dom_patch pv s Po Mo So Pn Mn Sn KP KM KS hd [] B o n (by rw [hMo]; rfl)
      s.oldStartIdx s.newStartIdx hpv
  have hKA : KA = [] := map_some_nil KA [] rfl hsp.hA
  subst hKA
  refine ⟨_, hrun, ?_, ?_, h3⟩
  · apply core_patch olds news b0 s _ hc s.oldStartIdx s.newStartIdx o n n1 ho ⟨le_refl _, hle⟩
      hn ⟨le_refl _, hnle⟩ hsame (by rfl) h1 h2 (Or.inl (by rfl))
    · show s.oldStartIdx ≤ s.oldStartIdx + 1; omega
    · exact le_refl _
    · show s.oldStartIdx + 1 ≤ s.oldEndIdx + 1; omega
    · intro i1 ha hb
      show (s.oldStartIdx + 1 ≤ i1 ∧ i1 ≤ s.oldEndIdx) ∨ i1 = s.oldStartIdx
      omega
    · left; show s.oldStartIdx < s.oldStartIdx + 1; omega
    · show s.newStartIdx ≤ s.newStartIdx + 1; omega
    · exact le_refl _
    · show s.newStartIdx + 1 ≤ s.newEndIdx + 1; omega
    · intro j1 ha hb
      show (s.newStartIdx + 1 ≤ j1 ∧ j1 ≤ s.newEndIdx) ∨ j1 = s.newStartIdx
      omega
    · left; show s.newStartIdx < s.newStartIdx + 1; omega
    · rfl
    · show newIdxs (s.trace ++ [.patch s.oldStartIdx s.newStartIdx]) = _
      rw [newIdxs_append]; rfl
    · show oldIdxs (s.trace ++ [.patch s.oldStartIdx s.newStartIdx]) = _
      rw [oldIdxs_append]; rfl
    · intro e he
      have he' : e ∈ s.trace ++ [.patch s.oldStartIdx s.newStartIdx] := he
      rcases List.mem_append.1 he' with h | h
      · exact Or.inl h
      · exact Or.inr (Or.inl (by simpa using h))
  · refine ⟨Po ++ [some o], B, So, Pn ++ [n1], C, Sn, KP ++ [sub1], KB, KS, ?_⟩
    exact
      { hO := by
          show s.oldCh = _
          rw [hd.hO, hMo]; simp
        hPo := by
          show _ = s.oldStartIdx + 1
          have := hd.hPo
          simp only [List.length_append, List.length_singleton]
          push_cast
          omega
        hMo := by
          show _ = s.oldEndIdx + 1
          have h5 := hd.hMo
          rw [hMo] at h5
          simp only [List.length_append, List.length_singleton, List.length_cons, List.length_nil] at h5 ⊢
          push_cast at h5 ⊢
          omega
        hN := by
          show setAt s.newCh s.newStartIdx n1 = _
          rw [hd.hN, hMn, List.cons_append, setAt_append_mid Pn n n1 (C ++ Sn) _ hd.hPn]
          simp
        hPn := by
          show _ = s.newStartIdx + 1
          have := hd.hPn
          simp only [List.length_append, List.length_singleton]
          push_cast
          omega
        hMn := by
          show _ = s.newEndIdx + 1
          have h5 := hd.hMn
          rw [hMn] at h5
          simp only [List.length_append, List.length_singleton, List.length_cons, List.length_nil] at h5 ⊢
          push_cast at h5 ⊢
          omega
        hK := by
          show KP ++ ([] ++ sub1 :: (KB ++ KS)) = _
          simp
        domP := by
          simp only [List.map_append, List.map_cons, List.map_nil, hsp.hP, h1, hsp.hsub]
        domM := hsp.hB
        domS := hsp.hS
        nodup := hsp.nodup
        bnd := hsp.bnd
        mir := fun v hv k hk he => hsp.mir v (by simpa using hv) k (by simpa using hk) he }

theorem core_patch_trace (tr : List UEv) (i j : Int) (e : UEv)
    (he : e ∈ tr ++ [.patch i j]) : e ∈ tr ∨ e = .patch i j ∨ ∃ a b, e = .move a b := by
  rcases List.mem_append.1 he with h | h
  · exact Or.inl h
  · exact Or.inr (Or.inl (by simpa using h))

theorem core_patch_trace_move (tr : List UEv) (i j : Int) (a : Handle) (b : Option Handle)
    (e : UEv) (he : e ∈ tr ++ [.patch i j] ++ [.move a b]) :
    e ∈ tr ∨ e = .patch i j ∨ ∃ a b, e = .move a b := by
  rcases List.mem_append.1 he with h | h
  · exact core_patch_trace tr i j e h
  · exact Or.inr (Or.inr ⟨a, b, by simpa using h⟩)

/-- Branch 4 of the loop: old end and new end are the same node. -/
theorem step_b4 (pv : PatchVnode) (olds news : List VNode) (b0 : Nat) (s : UState)
    (hc : Core olds news b0 s) (hd : DomInv s) (o n : VNode)
    (ho : slotAt s.oldCh s.oldEndIdx = some o)
    (hn : getAt s.newCh s.newEndIdx = some n)
    (hle : s.oldStartIdx ≤ s.oldEndIdx) (hnle : s.newStartIdx ≤ s.newEndIdx)
    (hsame : sameVnode o n = .ok true) (hpv : PvSpec pv o n) :
    ∃ s1, patchAt pv s o s.oldEndIdx n s.newEndIdx = .ok s1 ∧
      Core olds news b0
        { s1 with oldEndIdx := s.oldEndIdx - 1, newEndIdx := s.newEndIdx - 1 } ∧
      DomInv { s1 with oldEndIdx := s.oldEndIdx - 1, newEndIdx := s.newEndIdx - 1 } ∧
      s.st.next ≤ s1.st.next := by
  obtain ⟨Po, Mo, So, Pn, Mn, Sn, KP, KM, KS, hd⟩ := hd
  obtain ⟨A, y, hMo, hy⟩ := dom_back_old s _ _ _ _ _ _ _ _ _ hd hle
  rw [ho] at hy
  subst hy
  obtain ⟨C, n0, hMn, hn0⟩ := dom_back_new s _ _ _ _ _ _ _ _ _ hd hnle
  rw [hn] at hn0
  simp only [Option.some.injEq] at hn0
  subst hn0
  obtain ⟨n1, sub1, st1, ev, KA, KB, hrun, h1, h2, h3, hsp⟩ :=
    dom_patch pv s Po Mo So Pn Mn Sn KP KM KS hd A [] o n hMo
      s.oldEndIdx s.newEndIdx hpv
  have hKB : KB = [] := map_some_nil KB [] rfl hsp.hB
  subst hKB
  have hlenO := hd.hMo
  have hlenN := hd.hMn
  rw [hMo] at hlenO
  rw [hMn] at hlenN
  simp only [List.length_append, List.length_singleton] at hlenO hlenN
  push_cast at hlenO hlenN
  refine ⟨_, hrun, ?_, ?_, h3⟩
  · apply core_patch olds news b0 s _ hc s.oldEndIdx s.newEndIdx o n n1 ho ⟨hle, le_refl _⟩
      hn ⟨hnle, le_refl _⟩ hsame (by rfl) h1 h2 (Or.inl (by rfl))
    · exact le_refl _
    · show s.oldEndIdx - 1 ≤ s.oldEndIdx; omega
    · show s.oldStartIdx ≤ s.oldEndIdx - 1 + 1; omega
    · intro i1 ha hb
      show (s.oldStartIdx ≤ i1 ∧ i1 ≤ s.oldEndIdx - 1) ∨ i1 = s.oldEndIdx
      omega
    · right; left; show s.oldEndIdx - 1 < s.oldEndIdx; omega
    · exact le_refl _
    · show s.newEndIdx - 1 ≤ s.newEndIdx; omega
    · show s.newStartIdx ≤ s.newEndIdx - 1 + 1; omega
    · intro j1 ha hb
      show (s.newStartIdx ≤ j1 ∧ j1 ≤ s.newEndIdx - 1) ∨ j1 = s.newEndIdx
      omega
    · right; show s.newEndIdx - 1 < s.newEndIdx; omega
    · rfl
    · show newIdxs (s.trace ++ [.patch s.oldEndIdx s.newEndIdx]) = _
      rw [newIdxs_append]; rfl
    · show oldIdxs (s.trace ++ [.patch s.oldEndIdx s.newEndIdx]) = _
      rw [oldIdxs_append]; rfl
    · exact fun e he => core_patch_trace _ _ _ e he
  · refine ⟨Po, A, some o :: So, Pn, C, n1 :: Sn, KP, KA, sub1 :: KS, ?_⟩
    exact
      { hO := by
          show s.oldCh = _
          rw [hd.hO, hMo]; simp
        hPo := hd.hPo
        hMo := by
          show _ = s.oldEndIdx - 1 + 1
          omega
        hN := by
          show setAt s.newCh s.newEndIdx n1 = _
          have e1 : s.newCh = (Pn ++ C) ++ n :: Sn := by rw [hd.hN, hMn]; simp
          rw [e1, setAt_append_mid (Pn ++ C) n n1 Sn _ (by
            simp only [List.length_append]; push_cast; omega)]
          simp
        hPn := hd.hPn
        hMn := by
          show _ = s.newEndIdx - 1 + 1
          omega
        hK := by
          show KP ++ (KA ++ sub1 :: ([] ++ KS)) = _
          simp
        domP := hsp.hP
        domM := hsp.hA
        domS := by
          simp only [List.map_cons, hsp.hS, h1, hsp.hsub]
        nodup := hsp.nodup
        bnd := hsp.bnd
        mir := fun v hv k hk he => hsp.mir v (by simpa using hv) k (by simpa using hk) he }

theorem perm_move_back (KP KB KS : List LNode) (x : LNode) :
    (KP ++ (KB ++ x :: KS)).Perm (KP ++ (x :: (KB ++ KS))) := by
  rw [← Multiset.coe_eq_coe]
  simp only [← Multiset.coe_add, ← Multiset.cons_coe, ← Multiset.singleton_add]
  abel

theorem perm_move_front (KP KA KR : List LNode) (x : LNode) :
    (KP ++ (x :: (KA ++ KR))).Perm (KP ++ (KA ++ x :: KR)) := by
  rw [← Multiset.coe_eq_coe]
  simp only [← Multiset.coe_add, ← Multiset.cons_coe, ← Multiset.singleton_add]
  abel

theorem nodup_of_perm (l1 l2 : List LNode) (h : l1.Perm l2)
    (hn : (l2.map LNode.h).Nodup) : (l1.map LNode.h).Nodup :=
  (List.Perm.nodup_iff (List.Perm.map LNode.h h)).2 hn

theorem moveAt_back (p : Handle) (s : UState) (KP KB KS : List LNode) (sub1 : LNode)
    (hk : s.kids = KP ++ (sub1 :: (KB ++ KS))) (hnd : (s.kids.map LNode.h).Nodup)
    (ref : Option Handle) (href : ref = KS.head?.map LNode.h) :
    moveAt p true s (some sub1.h) ref =
      .ok { s with kids := KP ++ (KB ++ sub1 :: KS), trace := s.trace ++ [.move sub1.h ref],
                   log := s.log ++ [.insertBefore p sub1.h ref] } := by
  rw [hk] at hnd
  have hx := nodup_mid_not_mem _ _ _ hnd
  unfold moveAt
  simp only [if_true, hk, findH_mid KP (KB ++ KS) sub1 hx]
  cases hKS : KS with
  | nil =>
    subst href
    simp only [hKS, List.head?_nil, Option.map_none', List.append_nil]
    rw [domInsertBefore_none KP KB sub1 hx]
    simp
  | cons r KS1 =>
    subst href
    simp only [hKS, List.head?_cons, Option.map_some']
    have hnd2 := hnd
    rw [hKS] at hnd2
    have e1 : KP ++ sub1 :: (KB ++ r :: KS1) = (KP ++ sub1 :: KB) ++ r :: KS1 := by simp
    rw [e1] at hnd2
    have hr := nodup_mid_not_mem _ _ _ hnd2
    have hr1 : r.h ∉ (KP ++ KB).map LNode.h := by
      intro hm
      apply hr
      simp only [List.map_append, List.mem_append, List.map_cons, List.mem_cons] at hm ⊢
      tauto
    have hne : r.h ≠ sub1.h := by
      intro e
      apply hr
      simp [e]
    rw [domInsertBefore_later KP KB KS1 sub1 r hx hr1 hne]
    simp

theorem moveAt_front (p : Handle) (s : UState) (KP KA KR : List LNode) (sub1 : LNode)
    (hk : s.kids = KP ++ (KA ++ sub1 :: KR)) (hnd : (s.kids.map LNode.h).Nodup)
    (ref : Option Handle)
    (href : (KA = [] ∧ ref = some sub1.h) ∨ ∃ ka KA1, KA = ka :: KA1 ∧ ref = some ka.h) :
    moveAt p true s (some sub1.h) ref =
      .ok { s with kids := KP ++ (sub1 :: (KA ++ KR)), trace := s.trace ++ [.move sub1.h ref],
                   log := s.log ++ [.insertBefore p sub1.h ref] } := by
  rw [hk] at hnd
  have e0 : KP ++ (KA ++ sub1 :: KR) = (KP ++ KA) ++ sub1 :: KR := by simp
  have hx : sub1.h ∉ (KP ++ KA).map LNode.h := by
    rw [e0] at hnd
    exact nodup_mid_not_mem _ _ _ hnd
  unfold moveAt
  simp only [if_true, hk]
  rw [e0, findH_mid (KP ++ KA) KR sub1 hx]
  rcases href with ⟨hKA, href⟩ | ⟨ka, KA1, hKA, href⟩
  · subst hKA
    subst href
    simp only [List.append_nil]
    rw [domInsertBefore_self _ _ (by simp)]
    simp
  · subst hKA
    subst href
    have e1 : (KP ++ ka :: KA1) ++ sub1 :: KR = KP ++ ka :: (KA1 ++ sub1 :: KR) := by simp
    have hr : ka.h ∉ KP.map LNode.h := by
      rw [e0, e1] at hnd
      exact nodup_mid_not_mem _ _ _ hnd
    rw [e1]
    dsimp only
    rw [domInsertBefore_earlier KP KA1 KR sub1 ka hx hr]
    simp

theorem nextSibling_last (kids X KS : List LNode) (l : LNode) (hk : kids = X ++ l :: KS)
    (hnd : (kids.map LNode.h).Nodup) :
    nextSiblingH kids l.h = KS.head?.map LNode.h := by
  rw [hk] at hnd
  rw [hk, nextSiblingH_mid X KS l (nodup_mid_not_mem _ _ _ hnd)]

/-- Branch 5 of the loop: old start and new end are the same node; the live
node moves to the right of the old end node. -/
theorem step_b5 (pv : PatchVnode) (p : Handle) (olds news : List VNode) (b0 : Nat)
    (s : UState) (hc : Core olds news b0 s) (hd : DomInv s) (o oe n : VNode)
    (ho : slotAt s.oldCh s.oldStartIdx = some o)
    (hoe : slotAt s.oldCh s.oldEndIdx = some oe)
    (hn : getAt s.newCh s.newEndIdx = some n)
    (hle : s.oldStartIdx ≤ s.oldEndIdx) (hnle : s.newStartIdx ≤ s.newEndIdx)
    (hsame : sameVnode o n = .ok true) (hpv : PvSpec pv o n) :
    ∃ s1 ref s2, patchAt pv s o s.oldStartIdx n s.newEndIdx = .ok s1 ∧
      nextSiblingOf s1.kids oe.elm = .ok ref ∧
      moveAt p true s1 o.elm ref = .ok s2 ∧
      Core olds news b0
        { s2 with oldStartIdx := s.oldStartIdx + 1, newEndIdx := s.newEndIdx - 1 } ∧
      DomInv { s2 with oldStartIdx := s.oldStartIdx + 1, newEndIdx := s.newEndIdx - 1 } ∧
      s.st.next ≤ s2.st.next := by
  obtain ⟨Po, Mo, So, Pn, Mn, Sn, KP, KM, KS, hd⟩ := hd
  obtain ⟨x, B, hMo, hx⟩ := dom_front_old s _ _ _ _ _ _ _ _ _ hd hle
  rw [ho] at hx
  subst hx
  obtain ⟨A1, y, hMo1, hy⟩ := dom_back_old s _ _ _ _ _ _ _ _ _ hd hle
  rw [hoe] at hy
  subst hy
  obtain ⟨C, n0, hMn, hn0⟩ := dom_back_new s _ _ _ _ _ _ _ _ _ hd hnle
  rw [hn] at hn0
  simp only [Option.some.injEq] at hn0
  subst hn0
  obtain ⟨n1, sub1, st1, ev, KA, KB, hrun, h1, h2, h3, hsp⟩ :=
    dom_patch pv s Po Mo So Pn Mn Sn KP KM KS hd [] B o n (by rw [hMo]; rfl)
      s.oldStartIdx s.newEndIdx hpv
  have hKA : KA = [] := map_some_nil KA [] rfl hsp.hA
  subst hKA
  have hlenO := hd.hMo
  have hlenN := hd.hMn
  rw [hMo] at hlenO
  rw [hMn] at hlenN
  simp only [List.length_append, List.length_singleton, List.length_cons, List.length_nil] at hlenO hlenN
  push_cast at hlenO hlenN
  have hnd1 : ((KP ++ (sub1 :: (KB ++ KS))).map LNode.h).Nodup := by
    have := hsp.nodup
    simpa using this
  -- the live node of the old end node is the last of `sub1 :: KB`
  have hlast : ∃ X l, KP ++ (sub1 :: (KB ++ KS)) = X ++ l :: KS ∧ oe.elm = some l.h := by
    rcases List.eq_nil_or_concat B with hB | ⟨B1, z, hB⟩
    · subst hB
      have hKB : KB = [] := map_some_nil KB [] rfl hsp.hB
      subst hKB
      rw [hMo] at hMo1
      have : A1 = [] ∧ some o = some oe := by
        cases A1 with
        | nil => simpa using hMo1
        | cons a A2 =>
          simp only [List.cons_append, List.cons.injEq] at hMo1
          have := congrArg List.length hMo1.2
          simp at this
      simp only [Option.some.injEq] at this
      rw [← this.2]
      exact ⟨KP, sub1, by simp, hsp.hsub⟩
    · rw [List.concat_eq_append] at hB
      subst hB
      rw [hMo] at hMo1
      have e1 : some o :: (B1 ++ [z]) = (some o :: B1) ++ [z] := by simp
      rw [e1] at hMo1
      have hz := List.append_inj' hMo1 rfl
      have hz2 : z = some oe := by simpa using hz.2
      subst hz2
      have hB := hsp.hB
      rw [List.reduceOption_append, List.map_append, List.map_eq_append_iff] at hB
      obtain ⟨KB1, KL, hKB, _, hKL⟩ := hB
      simp only [List.reduceOption_cons_of_some, List.reduceOption_nil, List.map_cons,
        List.map_nil] at hKL
      rw [List.map_eq_cons_iff] at hKL
      obtain ⟨l, KL1, hKL1, hl, hnil⟩ := hKL
      simp only [List.map_eq_nil_iff] at hnil
      subst hnil
      subst hKL1
      subst hKB
      exact ⟨KP ++ sub1 :: KB1, l, by simp, hl.symm⟩
  obtain ⟨X, l, hXl, hl⟩ := hlast
  have hns : nextSiblingOf (KP ++ ([] ++ sub1 :: (KB ++ KS))) oe.elm
      = .ok (KS.head?.map LNode.h) := by
    rw [hl]
    simp only [nextSiblingOf, List.nil_append]
    rw [nextSibling_last _ X KS l hXl hnd1]
  have hmv := moveAt_back p
    { s with kids := KP ++ ([] ++ sub1 :: (KB ++ KS)), newCh := setAt s.newCh s.newEndIdx n1,
             st := st1, trace := s.trace ++ [.patch s.oldStartIdx s.newEndIdx],
             log := s.log ++ ev }
    KP KB KS sub1 (by simp) (by simpa using hnd1) (KS.head?.map LNode.h) rfl
  rw [← hsp.hsub] at hmv
  refine ⟨_, _, _, hrun, hns, hmv, ?_, ?_, h3⟩
  · apply core_patch olds news b0 s _ hc s.oldStartIdx s.newEndIdx o n n1 ho ⟨le_refl _, hle⟩
      hn ⟨hnle, le_refl _⟩ hsame (by rfl) h1 h2 (Or.inl (by rfl))
    · show s.oldStartIdx ≤ s.oldStartIdx + 1; omega
    · exact le_refl _
    · show s.oldStartIdx + 1 ≤ s.oldEndIdx + 1; omega
    · intro i1 ha hb
      show (s.oldStartIdx + 1 ≤ i1 ∧ i1 ≤ s.oldEndIdx) ∨ i1 = s.oldStartIdx
      omega
    · left; show s.oldStartIdx < s.oldStartIdx + 1; omega
    · exact le_refl _
    · show s.newEndIdx - 1 ≤ s.newEndIdx; omega
    · show s.newStartIdx ≤ s.newEndIdx - 1 + 1; omega
    · intro j1 ha hb
      show (s.newStartIdx ≤ j1 ∧ j1 ≤ s.newEndIdx - 1) ∨ j1 = s.newEndIdx
      omega
    · right; show s.newEndIdx - 1 < s.newEndIdx; omega
    · rfl
    · show newIdxs (s.trace ++ [.patch s.oldStartIdx s.newEndIdx] ++ [.move _ _]) = _
      rw [newIdxs_append, newIdxs_append]; simp [newIdxs]
    · show oldIdxs (s.trace ++ [.patch s.oldStartIdx s.newEndIdx] ++ [.move _ _]) = _
      rw [oldIdxs_append, oldIdxs_append]; simp [oldIdxs]
    · exact fun e he => core_patch_trace_move _ _ _ _ _ e he
  · refine ⟨Po ++ [some o], B, So, Pn, C, n1 :: Sn, KP, KB, sub1 :: KS, ?_⟩
    exact
      { hO := by
          show s.oldCh = _
          rw [hd.hO, hMo]; simp
        hPo := by
          show _ = s.oldStartIdx + 1
          have := hd.hPo
          simp only [List.length_append, List.length_singleton]
          push_cast
          omega
        hMo := by
          show _ = s.oldEndIdx + 1
          simp only [List.length_append, List.length_singleton]
          push_cast
          omega
        hN := by
          show setAt s.newCh s.newEndIdx n1 = _
          have e1 : s.newCh = (Pn ++ C) ++ n :: Sn := by rw [hd.hN, hMn]; simp
          rw [e1, setAt_append_mid (Pn ++ C) n n1 Sn _ (by
            simp only [List.length_append]; push_cast; omega)]
          simp
        hPn := hd.hPn
        hMn := by
          show _ = s.newEndIdx - 1 + 1
          omega
        hK := rfl
        domP := hsp.hP
        domM := hsp.hB
        domS := by
          simp only [List.map_cons, hsp.hS, h1, hsp.hsub]
        nodup := by
          show ((KP ++ (KB ++ sub1 :: KS)).map LNode.h).Nodup
          exact nodup_of_perm _ _ (perm_move_back KP KB KS sub1) hnd1
        bnd := by
          intro k hk
          have hk1 : k ∈ KP ++ (KB ++ sub1 :: KS) := hk
          exact hsp.bnd k (by
            have := (perm_move_back KP KB KS sub1).mem_iff.1 hk1
            simpa using this)
        mir := fun v hv k hk he => hsp.mir v (by simpa using hv) k (by simpa using hk) he }

theorem two_split {α : Type} (Mo So X Y : List α) (y : α) (h : Mo ++ So = X ++ y :: Y)
    (h2 : X.length < Mo.length) : ∃ B, Mo = X ++ y :: B := by
  induction X generalizing Mo with
  | nil =>
    cases Mo with
    | nil => simp at h2
    | cons m Mo1 =>
      simp only [List.cons_append, List.nil_append, List.cons.injEq] at h
      exact ⟨Mo1, by rw [h.1]; rfl⟩
  | cons x X1 ih =>
    cases Mo with
    | nil => simp at h2
    | cons m Mo1 =>
      simp only [List.cons_append, List.cons.injEq] at h
      simp only [List.length_cons] at h2
      obtain ⟨B, hB⟩ := ih Mo1 h.2 (by omega)
      exact ⟨B, by rw [h.1, hB]; rfl⟩

theorem mid_split {α : Type} (Po Mo So X Y : List α) (y : α)
    (h : Po ++ (Mo ++ So) = X ++ y :: Y) (h1 : Po.length ≤ X.length)
    (h2 : X.length < Po.length + Mo.length) : ∃ A B, Mo = A ++ y :: B ∧ X = Po ++ A := by
  induction Po generalizing X with
  | nil =>
    obtain ⟨B, hB⟩ := two_split Mo So X Y y (by simpa using h) (by simpa using h2)
    exact ⟨X, B, hB, by simp⟩
  | cons p Po1 ih =>
    cases X with
    | nil => simp at h1
    | cons x X1 =>
      simp only [List.cons_append, List.cons.injEq] at h
      simp only [List.length_cons] at h1 h2
      obtain ⟨A, B, hA, hX⟩ := ih X1 h.2 (by omega) (by omega)
      exact ⟨A, B, hA, by rw [h.1, hX]; rfl⟩

theorem dom_mid_old (s : UState) (Po Mo So : List (Option VNode)) (Pn Mn Sn : List VNode)
    (KP KM KS : List LNode) (hd : Dom s Po Mo So Pn Mn Sn KP KM KS) (i : Int) (o : VNode)
    (h1 : s.oldStartIdx ≤ i) (h2 : i ≤ s.oldEndIdx) (ho : slotAt s.oldCh i = some o) :
    ∃ A B, Mo = A ++ some o :: B ∧ (Po.length : Int) + A.length = i := by
  obtain ⟨X, Y, hXY, hX⟩ := getAt_split _ _ _ (slotAt_some_getAt _ _ _ ho)
  have hPo := hd.hPo
  have hMo := hd.hMo
  obtain ⟨A, B, hA, hXA⟩ := mid_split Po Mo So X Y (some o) (by rw [← hd.hO]; exact hXY)
    (by omega) (by omega)
  refine ⟨A, B, hA, ?_⟩
  rw [hXA] at hX
  simp only [List.length_append] at hX
  push_cast at hX
  exact hX

/-- The reference a node is moved in front of is the first live node of the
old nodes still to be handled. -/
theorem split_front_ref (KP KA KB KS : List LNode) (sub1 : LNode) (Pn Sn : List VNode)
    (A B : List (Option VNode)) (o os : VNode) (next : Nat)
    (hsp : Split KP KA KB KS sub1 Pn Sn A B o next)
    (hos : (A = [] ∧ os = o) ∨ ∃ A1, A = some os :: A1) :
    (KA = [] ∧ os.elm = some sub1.h) ∨ ∃ ka KA1, KA = ka :: KA1 ∧ os.elm = some ka.h := by
  rcases hos with ⟨hA, hoo⟩ | ⟨A1, hA⟩
  · subst hA
    subst hoo
    exact Or.inl ⟨map_some_nil KA [] rfl hsp.hA, hsp.hsub⟩
  · subst hA
    have := hsp.hA
    rw [List.reduceOption_cons_of_some, List.map_cons, List.map_eq_cons_iff] at this
    obtain ⟨ka, KA1, hKA, hka, _⟩ := this
    exact Or.inr ⟨ka, KA1, hKA, hka.symm⟩

/-- Branch 6 of the loop: old end and new start are the same node; the live
node moves in front of the old start node. -/
theorem step_b6 (pv : PatchVnode) (p : Handle) (olds news : List VNode) (b0 : Nat)
    (s : UState) (hc : Core olds news b0 s) (hd : DomInv s) (o os n : VNode)
    (ho : slotAt s.oldCh s.oldEndIdx = some o)
    (hos : slotAt s.oldCh s.oldStartIdx = some os)
    (hn : getAt s.newCh s.newStartIdx = some n)
    (hle : s.oldStartIdx ≤ s.oldEndIdx) (hnle : s.newStartIdx ≤ s.newEndIdx)
    (hsame : sameVnode o n = .ok true) (hpv : PvSpec pv o n) :
    ∃ s1 s2, patchAt pv s o s.oldEndIdx n s.newStartIdx = .ok s1 ∧
      moveAt p true s1 o.elm os.elm = .ok s2 ∧
      Core olds news b0
        { s2 with oldEndIdx := s.oldEndIdx - 1, newStartIdx := s.newStartIdx + 1 } ∧
      DomInv { s2 with oldEndIdx := s.oldEndIdx - 1, newStartIdx := s.newStartIdx + 1 } ∧
      s.st.next ≤ s2.st.next := by
  obtain ⟨Po, Mo, So, Pn, Mn, Sn, KP, KM, KS, hd⟩ := hd
  obtain ⟨A, y, hMo, hy⟩ := dom_back_old s _ _ _ _ _ _ _ _ _ hd hle
  rw [ho] at hy
  subst hy
  obtain ⟨x, B0, hMo0, hx⟩ := dom_front_old s _ _ _ _ _ _ _ _ _ hd hle
  rw [hos] at hx
  subst hx
  obtain ⟨n0, C, hMn, hn0⟩ := dom_front_new s _ _ _ _ _ _ _ _ _ hd hnle
  rw [hn] at hn0
  simp only [Option.some.injEq] at hn0
  subst hn0
  obtain ⟨n1, sub1, st1, ev, KA, KB, hrun, h1, h2, h3, hsp⟩ :=
    dom_patch pv s Po Mo So Pn Mn Sn KP KM KS hd A [] o n hMo
      s.oldEndIdx s.newStartIdx hpv
  have hKB : KB = [] := map_some_nil KB [] rfl hsp.hB
  subst hKB
  have hlenO := hd.hMo
  have hlenN := hd.hMn
  rw [hMo] at hlenO
  rw [hMn] at hlenN
  simp only [List.length_append, List.length_singleton, List.length_cons,
    List.length_nil] at hlenO hlenN
  push_cast at hlenO hlenN
  have hosA : (A = [] ∧ os = o) ∨ ∃ A1, A = some os :: A1 := by
    rw [hMo] at hMo0
    cases A with
    | nil =>
      left
      simp only [List.nil_append, List.cons.injEq, Option.some.injEq] at hMo0
      exact ⟨rfl, hMo0.1.symm⟩
    | cons a A1 =>
      right
      simp only [List.cons_append, List.cons.injEq] at hMo0
      exact ⟨A1, by rw [hMo0.1]⟩
  have href := split_front_ref KP KA [] KS sub1 Pn Sn A [] o os st1.next hsp hosA
  have hmv := moveAt_front p
    { s with kids := KP ++ (KA ++ sub1 :: ([] ++ KS)), newCh := setAt s.newCh s.newStartIdx n1,
             st := st1, trace := s.trace ++ [.patch s.oldEndIdx s.newStartIdx],
             log := s.log ++ ev }
    KP KA ([] ++ KS) sub1 rfl hsp.nodup os.elm href
  rw [← hsp.hsub] at hmv
  refine ⟨_, _, hrun, hmv, ?_, ?_, h3⟩
  · apply core_patch olds news b0 s _ hc s.oldEndIdx s.newStartIdx o n n1 ho ⟨hle, le_refl _⟩
      hn ⟨le_refl _, hnle⟩ hsame (by rfl) h1 h2 (Or.inl (by rfl))
    · exact le_refl _
    · show s.oldEndIdx - 1 ≤ s.oldEndIdx; omega
    · show s.oldStartIdx ≤ s.oldEndIdx - 1 + 1; omega
    · intro i1 ha hb
      show (s.oldStartIdx ≤ i1 ∧ i1 ≤ s.oldEndIdx - 1) ∨ i1 = s.oldEndIdx
      omega
    · right; left; show s.oldEndIdx - 1 < s.oldEndIdx; omega
    · show s.newStartIdx ≤ s.newStartIdx + 1; omega
    · exact le_refl _
    · show s.newStartIdx + 1 ≤ s.newEndIdx + 1; omega
    · intro j1 ha hb
      show (s.newStartIdx + 1 ≤ j1 ∧ j1 ≤ s.newEndIdx) ∨ j1 = s.newStartIdx
      omega
    · left; show s.newStartIdx < s.newStartIdx + 1; omega
    · rfl
    · show newIdxs (s.trace ++ [.patch s.oldEndIdx s.newStartIdx] ++ [.move _ _]) = _
      rw [newIdxs_append, newIdxs_append]; simp [newIdxs]
    · show oldIdxs (s.trace ++ [.patch s.oldEndIdx s.newStartIdx] ++ [.move _ _]) = _
      rw [oldIdxs_append, oldIdxs_append]; simp [oldIdxs]
    · exact fun e he => core_patch_trace_move _ _ _ _ _ e he
  · refine ⟨Po, A, some o :: So, Pn ++ [n1], C, Sn, KP ++ [sub1], KA, KS, ?_⟩
    exact
      { hO := by
          show s.oldCh = _
          rw [hd.hO, hMo]; simp
        hPo := hd.hPo
        hMo := by
          show _ = s.oldEndIdx - 1 + 1
          omega
        hN := by
          show setAt s.newCh s.newStartIdx n1 = _
          rw [hd.hN, hMn, List.cons_append, setAt_append_mid Pn n n1 (C ++ Sn) _ hd.hPn]
          simp
        hPn := by
          show _ = s.newStartIdx + 1
          have := hd.hPn
          simp only [List.length_append, List.length_singleton]
          push_cast
          omega
        hMn := by
          show _ = s.newEndIdx + 1
          simp only [List.length_append, List.length_singleton]
          push_cast
          omega
        hK := by
          show KP ++ (sub1 :: (KA ++ ([] ++ KS))) = _
          simp
        domP := by
          simp only [List.map_append, List.map_cons, List.map_nil, hsp.hP, h1, hsp.hsub]
        domM := hsp.hA
        domS := hsp.hS
        nodup := by
          show ((KP ++ (sub1 :: (KA ++ ([] ++ KS)))).map LNode.h).Nodup
          exact nodup_of_perm _ _ (perm_move_front KP KA ([] ++ KS) sub1) hsp.nodup
        bnd := by
          intro k hk
          have hk1 : k ∈ KP ++ (sub1 :: (KA ++ ([] ++ KS))) := hk
          exact hsp.bnd k ((perm_move_front KP KA ([] ++ KS) sub1).mem_iff.1 hk1)
        mir := fun v hv k hk he => hsp.mir v (by simpa using hv) k (by simpa using hk) he }

theorem dom_setMap (s : UState) (m : Option KeyMap) (hd : DomInv s) :
    DomInv { s with oldKeyToIdx := m } := by
  obtain ⟨Po, Mo, So, Pn, Mn, Sn, KP, KM, KS, hd⟩ := hd
  exact ⟨Po, Mo, So, Pn, Mn, Sn, KP, KM, KS,
    { hO := hd.hO, hPo := hd.hPo, hMo := hd.hMo, hN := hd.hN, hPn := hd.hPn, hMn := hd.hMn,
      hK := hd.hK, domP := hd.domP, domM := hd.domM, domS := hd.domS, nodup := hd.nodup,
      bnd := hd.bnd, mir := hd.mir }⟩

/-- The last branch of the loop when the looked-up old node is the same node:
it is patched, its slot emptied, and its live node moves in front of the old
start node. -/
theorem step_b7m (pv : PatchVnode) (p : Handle) (olds news : List VNode) (b0 : Nat)
    (s : UState) (hc : Core olds news b0 s) (hd : DomInv s) (o os n : VNode) (i : Int)
    (hmapSome : s.oldKeyToIdx ≠ none)
    (hi1 : s.oldStartIdx ≤ i) (hi2 : i ≤ s.oldEndIdx)
    (ho : slotAt s.oldCh i = some o)
    (hos : slotAt s.oldCh s.oldStartIdx = some os)
    (hn : getAt s.newCh s.newStartIdx = some n)
    (hnle : s.newStartIdx ≤ s.newEndIdx)
    (hsame : sameVnode o n = .ok true) (hpv : PvSpec pv o n) :
    ∃ s1 s2, patchAt pv s o i n s.newStartIdx = .ok s1 ∧
      moveAt p true { s1 with oldCh := setAt s1.oldCh i none } o.elm os.elm = .ok s2 ∧
      Core olds news b0 { s2 with newStartIdx := s.newStartIdx + 1 } ∧
      DomInv { s2 with newStartIdx := s.newStartIdx + 1 } ∧
      s.st.next ≤ s2.st.next := by
  have hle : s.oldStartIdx ≤ s.oldEndIdx := by omega
  obtain ⟨Po, Mo, So, Pn, Mn, Sn, KP, KM, KS, hd⟩ := hd
  obtain ⟨A, B, hMo, hiA⟩ := dom_mid_old s _ _ _ _ _ _ _ _ _ hd i o hi1 hi2 ho
  obtain ⟨x, B0, hMo0, hx⟩ := dom_front_old s _ _ _ _ _ _ _ _ _ hd hle
  rw [hos] at hx
  subst hx
  obtain ⟨n0, C, hMn, hn0⟩ := dom_front_new s _ _ _ _ _ _ _ _ _ hd hnle
  rw [hn] at hn0
  simp only [Option.some.injEq] at hn0
  subst hn0
  obtain ⟨n1, sub1, st1, ev, KA, KB, hrun, h1, h2, h3, hsp⟩ :=
    dom_patch pv s Po Mo So Pn Mn Sn KP KM KS hd A B o n hMo i s.newStartIdx hpv
  have hlenO := hd.hMo
  have hlenN := hd.hMn
  rw [hMo] at hlenO
  rw [hMn] at hlenN
  simp only [List.length_append, List.length_singleton, List.length_cons,
    List.length_nil] at hlenO hlenN
  push_cast at hlenO hlenN
  have hosA : (A = [] ∧ os = o) ∨ ∃ A1, A = some os :: A1 := by
    rw [hMo] at hMo0
    cases A with
    | nil =>
      left
      simp only [List.nil_append, List.cons.injEq, Option.some.injEq] at hMo0
      exact ⟨rfl, hMo0.1.symm⟩
    | cons a A1 =>
      right
      simp only [List.cons_append, List.cons.injEq] at hMo0
      exact ⟨A1, by rw [hMo0.1]⟩
  have href := split_front_ref KP KA KB KS sub1 Pn Sn A B o os st1.next hsp hosA
  have hmv := moveAt_front p
    { s with kids := KP ++ (KA ++ sub1 :: (KB ++ KS)), oldCh := setAt s.oldCh i none,
             newCh := setAt s.newCh s.newStartIdx n1,
             st := st1, trace := s.trace ++ [.patch i s.newStartIdx],
             log := s.log ++ ev }
    KP KA (KB ++ KS) sub1 rfl hsp.nodup os.elm href
  rw [← hsp.hsub] at hmv
  refine ⟨_, _, hrun, hmv, ?_, ?_, h3⟩
  · apply core_patch olds news b0 s _ hc i s.newStartIdx o n n1 ho ⟨hi1, hi2⟩
      hn ⟨le_refl _, hnle⟩ hsame (by rfl) h1 h2 (Or.inr ⟨by rfl, hmapSome⟩)
    · exact le_refl _
    · exact le_refl _
    · show s.oldStartIdx ≤ s.oldEndIdx + 1; omega
    · intro i1 ha hb
      exact Or.inl ⟨ha, hb⟩
    · right; right; rfl
    · show s.newStartIdx ≤ s.newStartIdx + 1; omega
    · exact le_refl _
    · show s.newStartIdx + 1 ≤ s.newEndIdx + 1; omega
    · intro j1 ha hb
      show (s.newStartIdx + 1 ≤ j1 ∧ j1 ≤ s.newEndIdx) ∨ j1 = s.newStartIdx
      omega
    · left; show s.newStartIdx < s.newStartIdx + 1; omega
    · rfl
    · show newIdxs (s.trace ++ [.patch i s.newStartIdx] ++ [.move _ _]) = _
      rw [newIdxs_append, newIdxs_append]; simp [newIdxs]
    · show oldIdxs (s.trace ++ [.patch i s.newStartIdx] ++ [.move _ _]) = _
      rw [oldIdxs_append, oldIdxs_append]; simp [oldIdxs]
    · exact fun e he => core_patch_trace_move _ _ _ _ _ e he
  · refine ⟨Po, A ++ none :: B, So, Pn ++ [n1], C, Sn, KP ++ [sub1], KA ++ KB, KS, ?_⟩
    exact
      { hO := by
          show setAt s.oldCh i none = _
          have e1 : s.oldCh = (Po ++ A) ++ some o :: (B ++ So) := by
            rw [hd.hO, hMo]; simp
          rw [e1, setAt_append_mid (Po ++ A) (some o) none (B ++ So) _ (by
            simp only [List.length_append]; push_cast; omega)]
          simp
        hPo := hd.hPo
        hMo := by
          show _ = s.oldEndIdx + 1
          simp only [List.length_append, List.length_cons]
          push_cast
          omega
        hN := by
          show setAt s.newCh s.newStartIdx n1 = _
          rw [hd.hN, hMn, List.cons_append, setAt_append_mid Pn n n1 (C ++ Sn) _ hd.hPn]
          simp
        hPn := by
          show _ = s.newStartIdx + 1
          have := hd.hPn
          simp only [List.length_append, List.length_singleton]
          push_cast
          omega
        hMn := by
          show _ = s.newEndIdx + 1
          simp only [List.length_append, List.length_singleton]
          push_cast
          omega
        hK := by
          show KP ++ (sub1 :: (KA ++ (KB ++ KS))) = _
          simp
        domP := by
          simp only [List.map_append, List.map_cons, List.map_nil, hsp.hP, h1, hsp.hsub]
        domM := by
          rw [List.reduceOption_append, List.reduceOption_cons_of_none, List.map_append,
            List.map_append, hsp.hA, hsp.hB]
        domS := hsp.hS
        nodup := by
          show ((KP ++ (sub1 :: (KA ++ (KB ++ KS)))).map LNode.h).Nodup
          exact nodup_of_perm _ _ (perm_move_front KP KA (KB ++ KS) sub1) hsp.nodup
        bnd := by
          intro k hk
          have hk1 : k ∈ KP ++ (sub1 :: (KA ++ (KB ++ KS))) := hk
          exact hsp.bnd k ((perm_move_front KP KA (KB ++ KS) sub1).mem_iff.1 hk1)
        mir := by
          intro v hv k hk he
          rw [List.reduceOption_append, List.reduceOption_cons_of_none] at hv
          exact hsp.mir v hv k hk he }

/-- The last branch of the loop when the new start node is created: the new
live node goes in front of the old start node. -/
theorem step_create (ce : CreateElm) (p : Handle) (olds news : List VNode) (b0 : Nat)
    (s : UState) (hc : Core olds news b0 s) (hd : DomInv s) (hb0 : b0 ≤ s.st.next)
    (os n : VNode)
    (hos : slotAt s.oldCh s.oldStartIdx = some os)
    (hn : getAt s.newCh s.newStartIdx = some n)
    (hle : s.oldStartIdx ≤ s.oldEndIdx) (hnle : s.newStartIdx ≤ s.newEndIdx)
    (hce : CeSpec ce n) :
    ∃ s1, createAt ce p s n s.newStartIdx os.elm = .ok s1 ∧
      Core olds news b0 { s1 with newStartIdx := s.newStartIdx + 1 } ∧
      DomInv { s1 with newStartIdx := s.newStartIdx + 1 } ∧
      s.st.next ≤ s1.st.next := by
  obtain ⟨Po, Mo, So, Pn, Mn, Sn, KP, KM, KS, hd⟩ := hd
  obtain ⟨x, B, hMo, hx⟩ := dom_front_old s _ _ _ _ _ _ _ _ _ hd hle
  rw [hos] at hx
  subst hx
  obtain ⟨n0, C, hMn, hn0⟩ := dom_front_new s _ _ _ _ _ _ _ _ _ hd hnle
  rw [hn] at hn0
  simp only [Option.some.injEq] at hn0
  subst hn0
  have hdm := hd.domM
  rw [hMo, List.reduceOption_cons_of_some, List.map_cons, List.map_eq_cons_iff] at hdm
  obtain ⟨ka, KM1, hKM, hka, _⟩ := hdm
  obtain ⟨n1, node, st1, ev, he1, hnh, hk1, hlt, hnb, hrun⟩ := hce true s.st
  have hk : s.kids = KP ++ ka :: (KM1 ++ KS) := by rw [hd.hK, hKM]; simp
  have hnd := hd.nodup
  rw [hk] at hnd
  have hr := nodup_mid_not_mem _ _ _ hnd
  have hfresh : node.h ∉ s.kids.map LNode.h := by
    rw [hnh]; exact bounded_not_mem s.st.next s.kids hd.bnd s.st.next (le_refl _)
  have hins := insert_before p KP (KM1 ++ KS) ka node hr (by rw [← hk]; exact hfresh)
  have hlenN := hd.hMn
  rw [hMn] at hlenN
  simp only [List.length_cons] at hlenN
  push_cast at hlenN
  have hcreate : createAt ce p s n s.newStartIdx os.elm =
      .ok { s with kids := KP ++ node :: ka :: (KM1 ++ KS),
                   newCh := setAt s.newCh s.newStartIdx n1, st := st1,
                   trace := s.trace ++ [.create s.newStartIdx],
                   log := s.log ++ (ev ++ [.insertBefore p node.h (some ka.h)]) } := by
    unfold createAt
    rw [hrun, ← hka, hk, hins]
  refine ⟨_, hcreate, ?_, ?_, by show s.st.next ≤ st1.next; omega⟩
  · exact core_create olds news b0 s _ hc n n1 s.st.next hn hnle (by rfl) he1 hb0 hk1
      (by rfl) (by rfl) (by rfl) (by rfl) (by rfl) (by rfl) (by rfl)
  · refine ⟨Po, Mo, So, Pn ++ [n1], C, Sn, KP ++ [node], KM, KS, ?_⟩
    exact
      { hO := hd.hO
        hPo := hd.hPo
        hMo := hd.hMo
        hN := by
          show setAt s.newCh s.newStartIdx n1 = _
          rw [hd.hN, hMn, List.cons_append, setAt_append_mid Pn n n1 (C ++ Sn) _ hd.hPn]
          simp
        hPn := by
          show _ = s.newStartIdx + 1
          have := hd.hPn
          simp only [List.length_append, List.length_singleton]
          push_cast
          omega
        hMn := by
          show _ = s.newEndIdx + 1
          simp only [List.length_append, List.length_singleton]
          push_cast
          omega
        hK := by
          show KP ++ node :: ka :: (KM1 ++ KS) = _
          rw [hKM]; simp
        domP := by
          simp only [List.map_append, List.map_cons, List.map_nil, hd.domP, he1, hnh]
        domM := hd.domM
        domS := hd.domS
        nodup := by
          show ((KP ++ node :: ka :: (KM1 ++ KS)).map LNode.h).Nodup
          rw [List.map_append, List.map_cons, List.nodup_middle, List.nodup_cons]
          refine ⟨?_, ?_⟩
          · rw [hk] at hfresh
            simpa using hfresh
          · simpa using hnd
        bnd := by
          intro k hkm
          have hkm1 : k ∈ KP ++ node :: ka :: (KM1 ++ KS) := hkm
          have : k = node ∨ k ∈ s.kids := by
            rw [hk]
            simp only [List.mem_append, List.mem_cons] at hkm1 ⊢
            tauto
          rcases this with h | h
          · rw [h]; exact hnb
          · exact bounded_mono _ _ (by show s.st.next ≤ st1.next; omega) k (hd.bnd k h)
        mir := hd.mir }

theorem patchAt_ptrs (pv : PatchVnode) (s s1 : UState) (o n : VNode) (i j : Int)
    (h : patchAt pv s o i n j = .ok s1) : samePtrs s s1 := by
  unfold patchAt at h
  split at h
  · cases h
  · split at h
    · cases h
    · split at h
      · cases h
      · simp only [Except.ok.injEq] at h
        subst h
        exact ⟨rfl, rfl, rfl, rfl⟩

theorem createAt_ptrs (ce : CreateElm) (p : Handle) (s s1 : UState) (n : VNode) (j : Int)
    (ref : Option Handle) (h : createAt ce p s n j ref = .ok s1) : samePtrs s s1 := by
  unfold createAt at h
  split at h
  · cases h
  · simp only [Except.ok.injEq] at h
    subst h
    exact ⟨rfl, rfl, rfl, rfl⟩

theorem moveAt_ptrs (p : Handle) (cm : Bool) (s s1 : UState) (e ref : Option Handle)
    (h : moveAt p cm s e ref = .ok s1) : samePtrs s s1 := by
  unfold moveAt at h
  split at h
  · split at h
    · cases h
    · split at h
      · cases h
      · split at h
        · cases h
        · simp only [Except.ok.injEq] at h
          subst h
          exact ⟨rfl, rfl, rfl, rfl⟩
  · simp only [Except.ok.injEq] at h
    subst h
    exact ⟨rfl, rfl, rfl, rfl⟩

theorem dom_skipFront (s : UState) (hd : DomInv s)
    (hs : slotAt s.oldCh s.oldStartIdx = none) (hle : s.oldStartIdx ≤ s.oldEndIdx) :
    DomInv { s with oldStartIdx := s.oldStartIdx + 1 } := by
  obtain ⟨Po, Mo, So, Pn, Mn, Sn, KP, KM, KS, hd⟩ := hd
  obtain ⟨x, B, hMo, hx⟩ := dom_front_old s _ _ _ _ _ _ _ _ _ hd hle
  rw [hs] at hx
  subst hx
  have hlenO := hd.hMo
  rw [hMo] at hlenO
  simp only [List.length_cons] at hlenO
  push_cast at hlenO
  exact ⟨Po ++ [none], B, So, Pn, Mn, Sn, KP, KM, KS,
    { hO := by
        show s.oldCh = _
        rw [hd.hO, hMo]; simp
      hPo := by
        show _ = s.oldStartIdx + 1
        have := hd.hPo
        simp only [List.length_append, List.length_singleton]
        push_cast
        omega
      hMo := by
        show _ = s.oldEndIdx + 1
        simp only [List.length_append, List.length_singleton]
        push_cast
        omega
      hN := hd.hN, hPn := hd.hPn, hMn := hd.hMn, hK := hd.hK, domP := hd.domP
      domM := by
        have := hd.domM
        rw [hMo, List.reduceOption_cons_of_none] at this
        exact this
      domS := hd.domS, nodup := hd.nodup, bnd := hd.bnd
      mir := by
        intro v hv k hk he
        exact hd.mir v (by rw [hMo, List.reduceOption_cons_of_none]; exact hv) k hk he }⟩

theorem dom_skipBack (s : UState) (hd : DomInv s)
    (hs : slotAt s.oldCh s.oldEndIdx = none) (hle : s.oldStartIdx ≤ s.oldEndIdx) :
    DomInv { s with oldEndIdx := s.oldEndIdx - 1 } := by
  obtain ⟨Po, Mo, So, Pn, Mn, Sn, KP, KM, KS, hd⟩ := hd
  obtain ⟨A, y, hMo, hy⟩ := dom_back_old s _ _ _ _ _ _ _ _ _ hd hle
  rw [hs] at hy
  subst hy
  have hlenO := hd.hMo
  rw [hMo] at hlenO
  simp only [List.length_append, List.length_singleton] at hlenO
  push_cast at hlenO
  have hro : Mo.reduceOption = A.reduceOption := by
    rw [hMo, List.reduceOption_append]
    simp [List.reduceOption_cons_of_none]
  exact ⟨Po, A, none :: So, Pn, Mn, Sn, KP, KM, KS,
    { hO := by
        show s.oldCh = _
        rw [hd.hO, hMo]; simp
      hPo := hd.hPo
      hMo := by
        show _ = s.oldEndIdx - 1 + 1
        omega
      hN := hd.hN, hPn := hd.hPn, hMn := hd.hMn, hK := hd.hK, domP := hd.domP
      domM := by
        rw [← hro]; exact hd.domM
      domS := hd.domS, nodup := hd.nodup, bnd := hd.bnd
      mir := by
        intro v hv k hk he
        exact hd.mir v (by rw [hro]; exact hv) k hk he }⟩

theorem keys_distinct (news : List VNode) (hk : (keysOf news).Nodup) (j1 j2 : Int)
    (a b : VNode) (k : Key) (h1 : getAt news j1 = some a) (h2 : getAt news j2 = some b)
    (ha : a.key = some k) (hb : b.key = some k) : j1 = j2 := by
  by_contra hne
  obtain ⟨P1, S1, e1, l1⟩ := getAt_split _ _ _ h1
  rcases lt_or_gt_of_ne hne with hlt | hgt
  · -- j1 < j2: b lies in S1
    have hb2 : getAt S1 (j2 - P1.length - 1) = some b := by
      rw [e1] at h2
      rw [getAt_append_right P1 (a :: S1) j2 (by omega)] at h2
      have : a :: S1 = [a] ++ S1 := rfl
      rw [this, getAt_append_right [a] S1 _ (by simp; omega)] at h2
      simpa using h2
    have hbm := getAt_mem _ _ _ hb2
    rw [e1] at hk
    unfold keysOf at hk
    rw [List.filterMap_append, List.filterMap_cons_some ha] at hk
    have := (List.nodup_cons.1 (List.nodup_append.1 hk).2.1).1
    apply this
    rw [List.mem_filterMap]
    exact ⟨b, hbm, hb⟩
  · -- j2 < j1: b lies in P1
    have hb2 : getAt P1 j2 = some b := by
      rw [e1] at h2
      rw [getAt_append_left P1 (a :: S1) j2 (by omega)] at h2
      exact h2
    have hbm := getAt_mem _ _ _ hb2
    rw [e1] at hk
    unfold keysOf at hk
    rw [List.filterMap_append, List.filterMap_cons_some ha] at hk
    have := (List.nodup_append.1 hk).2.2
    exact this (List.mem_filterMap.2 ⟨b, hbm, hb⟩) (List.mem_cons_self _ _)

theorem names_distinct (news : List VNode) (hk : (namesOf news).Nodup) (j1 j2 : Int)
    (a b : VNode) (k : String) (h1 : getAt news j1 = some a) (h2 : getAt news j2 = some b)
    (ha : a.keyName = some k) (hb : b.keyName = some k) : j1 = j2 := by
  by_contra hne
  obtain ⟨P1, S1, e1, l1⟩ := getAt_split _ _ _ h1
  rcases lt_or_gt_of_ne hne with hlt | hgt
  · have hb2 : getAt S1 (j2 - P1.length - 1) = some b := by
      rw [e1] at h2
      rw [getAt_append_right P1 (a :: S1) j2 (by omega)] at h2
      have : a :: S1 = [a] ++ S1 := rfl
      rw [this, getAt_append_right [a] S1 _ (by simp; omega)] at h2
      simpa using h2
    have hbm := getAt_mem _ _ _ hb2
    rw [e1] at hk
    unfold namesOf at hk
    rw [List.filterMap_append, List.filterMap_cons_some ha] at hk
    have := (List.nodup_cons.1 (List.nodup_append.1 hk).2.1).1
    apply this
    rw [List.mem_filterMap]
    exact ⟨b, hbm, hb⟩
  · have hb2 : getAt P1 j2 = some b := by
      rw [e1] at h2
      rw [getAt_append_left P1 (a :: S1) j2 (by omega)] at h2
      exact h2
    have hbm := getAt_mem _ _ _ hb2
    rw [e1] at hk
    unfold namesOf at hk
    rw [List.filterMap_append, List.filterMap_cons_some ha] at hk
    have := (List.nodup_append.1 hk).2.2
    exact this (List.mem_filterMap.2 ⟨b, hbm, hb⟩) (List.mem_cons_self _ _)

theorem plainKeys_names (l : List VNode) (h : plainKeys l = true) : (namesOf l).Nodup := by
  unfold plainKeys at h
  simp only [Bool.and_eq_true, decide_eq_true_eq] at h
  exact h.1

theorem plainKeys_own (l : List VNode) (h : plainKeys l = true) (n : VNode) (hn : n ∈ l)
    (k : Key) (hk : n.key = some k) : k.name ∉ objectPrototypeNames := by
  unfold plainKeys at h
  simp only [Bool.and_eq_true, decide_eq_true_eq, List.all_eq_true] at h
  exact h.2 k.name (List.mem_filterMap.2 ⟨n, hn, keyName_some n k hk⟩)

theorem namesOf_eq (l : List VNode) : namesOf l = (keysOf l).map Key.name := by
  unfold namesOf keysOf VNode.keyName
  induction l with
  | nil => rfl
  | cons x xs ih =>
    cases hx : x.key with
    | none =>
      rw [List.filterMap_cons_none (by rw [hx]; rfl), List.filterMap_cons_none hx]
      exact ih
    | some k =>
      rw [List.filterMap_cons_some (by rw [hx]; rfl), List.filterMap_cons_some hx, ih]
      rfl

theorem plainKeys_keys (l : List VNode) (h : plainKeys l = true) : (keysOf l).Nodup := by
  have := plainKeys_names l h
  rw [namesOf_eq] at this
  exact List.Nodup.of_map _ this

theorem news_mem_of_mid (olds news : List VNode) (b0 : Nat) (s : UState)
    (hc : Core olds news b0 s) (j : Int) (n : VNode) (h1 : s.newStartIdx ≤ j)
    (h2 : j ≤ s.newEndIdx) (hn : getAt s.newCh j = some n) : n ∈ news := by
  rw [hc.newMid j h1 h2] at hn
  exact getAt_mem _ _ _ hn

theorem olds_mem_of_slot (olds news : List VNode) (b0 : Nat) (s : UState)
    (hc : Core olds news b0 s) (i : Int) (o : VNode) (ho : slotAt s.oldCh i = some o) :
    o ∈ olds :=
  getAt_mem _ _ _ (hc.oldSlot i o ho)

theorem keyMapOf_ok (olds news : List VNode) (b0 : Nat) (s : UState)
    (hc : Core olds news b0 s) :
    ∃ m, keyMapOf s = .ok m ∧ (s.oldKeyToIdx = some m ∨ (s.oldKeyToIdx = none ∧
      createKeyToOldIdx s.oldCh s.oldStartIdx s.oldEndIdx = .ok m)) := by
  unfold keyMapOf
  cases hm : s.oldKeyToIdx with
  | some m => exact ⟨m, rfl, Or.inl rfl⟩
  | none =>
    obtain ⟨m, hm1, _⟩ := createKeyToOldIdx_spec s.oldCh s.oldStartIdx s.oldEndIdx hc.ose
      (hc.noHole hm)
    exact ⟨m, hm1, Or.inr ⟨rfl, hm1⟩⟩

theorem stepNew_ok (ce : CreateElm) (p : Handle) (olds news : List VNode) (b0 : Nat)
    (s : UState) (m : KeyMap) (hc : Core olds news b0 { s with oldKeyToIdx := some m })
    (hd : DomInv s) (hb0 : b0 ≤ s.st.next) (os n : VNode)
    (hos : slotAt s.oldCh s.oldStartIdx = some os)
    (hn : getAt s.newCh s.newStartIdx = some n)
    (hle : s.oldStartIdx ≤ s.oldEndIdx) (hnle : s.newStartIdx ≤ s.newEndIdx)
    (hce : CeSpec ce n) :
    ∃ s1, stepNew ce p s m os n = .ok s1 ∧ LoopInv olds news b0 s1 ∧
      s1.oldStartIdx = s.oldStartIdx ∧ s1.oldEndIdx = s.oldEndIdx ∧
      s1.newStartIdx = s.newStartIdx + 1 ∧ s1.newEndIdx = s.newEndIdx := by
  obtain ⟨s1, hrun, hc1, hd1, hnext⟩ :=
    step_create ce p olds news b0 { s with oldKeyToIdx := some m } hc (dom_setMap s _ hd) hb0
      os n hos hn hle hnle hce
  have hp := createAt_ptrs _ _ _ _ _ _ _ hrun
  refine ⟨{ s1 with newStartIdx := s.newStartIdx + 1 }, ?_, ⟨hc1, hd1, ?_⟩, hp.1, hp.2.1, rfl,
    hp.2.2.2⟩
  · unfold stepNew
    rw [hrun]
  · exact le_trans hb0 hnext

theorem stepFound_ok (pv : PatchVnode) (ce : CreateElm) (p : Handle)
    (olds news : List VNode) (b0 : Nat) (H : Hyp pv ce olds news)
    (s : UState) (m : KeyMap) (hc : Core olds news b0 { s with oldKeyToIdx := some m })
    (hd : DomInv s) (hb0 : b0 ≤ s.st.next) (os n : VNode)
    (hos : slotAt s.oldCh s.oldStartIdx = some os)
    (hn : getAt s.newCh s.newStartIdx = some n)
    (hnle : s.newStartIdx ≤ s.newEndIdx) (idx : Int) (v : VNode)
    (h1 : s.oldStartIdx ≤ idx) (h2 : idx ≤ s.oldEndIdx) (hv : slotAt s.oldCh idx = some v) :
    ∃ s1, stepFound pv ce p true s m os n idx = .ok s1 ∧ LoopInv olds news b0 s1 ∧
      s1.oldStartIdx = s.oldStartIdx ∧ s1.oldEndIdx = s.oldEndIdx ∧
      s1.newStartIdx = s.newStartIdx + 1 ∧ s1.newEndIdx = s.newEndIdx := by
  have hnm : n ∈ news := news_mem_of_mid olds news b0 _ hc _ n (le_refl _) hnle hn
  have hvm : v ∈ olds := olds_mem_of_slot olds news b0 _ hc idx v hv
  obtain ⟨b, hb⟩ := sameVnode_total v n (H.hno v hvm)
  unfold stepFound
  rw [hv]
  simp only [hb]
  cases b with
  | false =>
    exact stepNew_ok ce p olds news b0 s m hc hd hb0 os n hos hn (by omega) hnle (H.hce n hnm)
  | true =>
    obtain ⟨s1, s2, hrun, hmv, hc1, hd1, hnext⟩ :=
      step_b7m pv p olds news b0 { s with oldKeyToIdx := some m } hc (dom_setMap s _ hd)
        v os n idx (by simp) h1 h2 hv hos hn hnle hb (H.hpv v hvm n hnm hb)
    have hp1 := patchAt_ptrs _ _ _ _ _ _ _ hrun
    have hp2 := moveAt_ptrs _ _ _ _ _ _ hmv
    simp only [hrun, hmv]
    refine ⟨_, rfl, ⟨hc1, hd1, le_trans hb0 hnext⟩, ?_, ?_, rfl, ?_⟩
    · show s2.oldStartIdx = _
      rw [hp2.1]; exact hp1.1
    · show s2.oldEndIdx = _
      rw [hp2.2.1]; exact hp1.2.1
    · show s2.newEndIdx = _
      rw [hp2.2.2.2]; exact hp1.2.2.2

theorem stepLookup_ok (pv : PatchVnode) (ce : CreateElm) (p : Handle)
    (olds news : List VNode) (b0 : Nat) (H : Hyp pv ce olds news)
    (hpk : plainKeys news = true)
    (s : UState) (hi : LoopInv olds news b0 s) (os n : VNode)
    (hos : slotAt s.oldCh s.oldStartIdx = some os)
    (hn : getAt s.newCh s.newStartIdx = some n)
    (hle : s.oldStartIdx ≤ s.oldEndIdx) (hnle : s.newStartIdx ≤ s.newEndIdx) :
    ∃ s1, stepLookup pv ce p true s os n = .ok s1 ∧ LoopInv olds news b0 s1 ∧
      s1.oldStartIdx = s.oldStartIdx ∧ s1.oldEndIdx = s.oldEndIdx ∧
      s1.newStartIdx = s.newStartIdx + 1 ∧ s1.newEndIdx = s.newEndIdx := by
  obtain ⟨m, hm, hmc⟩ := keyMapOf_ok olds news b0 s hi.core
  have hc := core_setMap olds news b0 s hi.core m hmc
  have hnm : n ∈ news := news_mem_of_mid olds news b0 s hi.core _ n (le_refl _) hnle hn
  unfold stepLookup
  rw [hm]
  simp only
  -- the index found, if any, is an old slot still to be handled
  have hn0 : getAt news s.newStartIdx = some n := by
    rw [← hi.core.newMid _ (le_refl _) hnle]; exact hn
  have hidx : ∃ r, idxInOldOf s n m = .ok r ∧ r ≠ .inherited ∧ ∀ idx, r = .index idx →
      s.oldStartIdx ≤ idx ∧ idx ≤ s.oldEndIdx ∧ ∃ v, slotAt s.oldCh idx = some v := by
    unfold idxInOldOf
    cases hk : n.key with
    | none =>
      obtain ⟨r, hr, hsp⟩ := findIdxInOld_spec n s.oldCh s.oldStartIdx s.oldEndIdx
        (H.hnn n hnm)
      simp only [hr]
      cases r with
      | none => exact ⟨_, rfl, by simp, by intro idx h; cases h⟩
      | some i0 =>
        refine ⟨_, rfl, by simp, ?_⟩
        intro idx hidx
        simp only [Found.index.injEq] at hidx
        subst hidx
        obtain ⟨a, b, c, hc1, _⟩ := hsp i0 rfl
        exact ⟨a, by omega, c, hc1⟩
    | some k =>
      refine ⟨keyMapGet m k, rfl, ?_, ?_⟩
      · unfold keyMapGet
        cases hl : m.lookup k.name with
        | some i0 => simp
        | none =>
          simp only [if_neg (plainKeys_own news hpk n hnm k hk)]
          simp
      · intro idx hidx
        unfold keyMapGet at hidx
        cases hl : m.lookup k.name with
        | none =>
          rw [hl] at hidx
          simp only at hidx
          split at hidx <;> cases hidx
        | some i0 =>
          rw [hl] at hidx
          simp only [Found.index.injEq] at hidx
          subst hidx
          rcases hc.mapInv m rfl k.name i0 hl with ⟨a, b, v, hv, _⟩ | ⟨j, v, hj, hv, hkv⟩
          · exact ⟨a, b, v, hv⟩
          · exfalso
            obtain ⟨v0, hv0, hkv0⟩ := hi.core.newKey j v hv
            have := names_distinct news (plainKeys_names news hpk) j s.newStartIdx v0 n k.name
              hv0 hn0 (by unfold VNode.keyName at hkv ⊢; rw [← hkv0]; exact hkv)
              (keyName_some n k hk)
            have hj' : j < s.newStartIdx ∨ s.newEndIdx < j := hj
            omega
  obtain ⟨r, hr, hni, hsp⟩ := hidx
  rw [hr]
  cases r with
  | inherited => exact absurd rfl hni
  | undefined =>
    exact stepNew_ok ce p olds news b0 s m hc hi.dom hi.fresh os n hos hn hle hnle
      (H.hce n hnm)
  | index idx =>
    obtain ⟨a, b, v, hv⟩ := hsp idx rfl
    exact stepFound_ok pv ce p olds news b0 H s m hc hi.dom hi.fresh os n hos hn hnle idx v
      a b hv

/-- One iteration of the loop returns, keeps the loop facts, and brings the
pointers closer together. -/
theorem ucStep_ok (pv : PatchVnode) (ce : CreateElm) (p : Handle)
    (olds news : List VNode) (b0 : Nat) (H : Hyp pv ce olds news)
    (hpk : plainKeys news = true)
    (s : UState) (hi : LoopInv olds news b0 s)
    (hle : s.oldStartIdx ≤ s.oldEndIdx) (hnle : s.newStartIdx ≤ s.newEndIdx) :
    ∃ s1, ucStep pv ce p true s = .ok s1 ∧ LoopInv olds news b0 s1 ∧
      (s1.oldEndIdx - s1.oldStartIdx) + (s1.newEndIdx - s1.newStartIdx)
        < (s.oldEndIdx - s.oldStartIdx) + (s.newEndIdx - s.newStartIdx) := by
  have hc := hi.core
  unfold ucStep
  cases hos : slotAt s.oldCh s.oldStartIdx with
  | none =>
    refine ⟨_, rfl, ⟨core_skipFront olds news b0 s hc hos hle,
      dom_skipFront s hi.dom hos hle, hi.fresh⟩, ?_⟩
    show (s.oldEndIdx - (s.oldStartIdx + 1)) + (s.newEndIdx - s.newStartIdx) < _
    omega
  | some os =>
    cases hoe : slotAt s.oldCh s.oldEndIdx with
    | none =>
      refine ⟨_, rfl, ⟨core_skipBack olds news b0 s hc hoe hle,
        dom_skipBack s hi.dom hoe hle, hi.fresh⟩, ?_⟩
      show (s.oldEndIdx - 1 - s.oldStartIdx) + (s.newEndIdx - s.newStartIdx) < _
      omega
    | some oe =>
      obtain ⟨ns, hns⟩ := getAt_of_range s.newCh s.newStartIdx hc.ns0 (by
        have := hc.ne1; have := hc.lenN; omega)
      obtain ⟨ne, hne⟩ := getAt_of_range s.newCh s.newEndIdx (by have := hc.ns0; omega) (by
        have := hc.ne1; have := hc.lenN; omega)
      have hosm := olds_mem_of_slot olds news b0 s hc _ os hos
      have hoem := olds_mem_of_slot olds news b0 s hc _ oe hoe
      have hnsm := news_mem_of_mid olds news b0 s hc _ ns (le_refl _) hnle hns
      have hnem := news_mem_of_mid olds news b0 s hc _ ne hnle (le_refl _) hne
      simp only [hns, hne]
      obtain ⟨b3, hb3⟩ := sameVnode_total os ns (H.hno os hosm)
      rw [hb3]
      cases b3 with
      | true =>
        obtain ⟨s1, hrun, hc1, hd1, hnext⟩ := step_b3 pv olds news b0 s hc hi.dom os ns hos hns
          hle hnle hb3 (H.hpv os hosm ns hnsm hb3)
        have hp := patchAt_ptrs _ _ _ _ _ _ _ hrun
        simp only [hrun]
        refine ⟨_, rfl, ⟨hc1, hd1, le_trans hi.fresh hnext⟩, ?_⟩
        show (s1.oldEndIdx - (s.oldStartIdx + 1)) + (s1.newEndIdx - (s.newStartIdx + 1)) < _
        rw [hp.2.1, hp.2.2.2]
        omega
      | false =>
        obtain ⟨b4, hb4⟩ := sameVnode_total oe ne (H.hno oe hoem)
        simp only [hb4]
        cases b4 with
        | true =>
          obtain ⟨s1, hrun, hc1, hd1, hnext⟩ := step_b4 pv olds news b0 s hc hi.dom oe ne hoe
            hne hle hnle hb4 (H.hpv oe hoem ne hnem hb4)
          have hp := patchAt_ptrs _ _ _ _ _ _ _ hrun
          simp only [hrun]
          refine ⟨_, rfl, ⟨hc1, hd1, le_trans hi.fresh hnext⟩, ?_⟩
          show (s.oldEndIdx - 1 - s1.oldStartIdx) + (s.newEndIdx - 1 - s1.newStartIdx) < _
          rw [hp.1, hp.2.2.1]
          omega
        | false =>
          obtain ⟨b5, hb5⟩ := sameVnode_total os ne (H.hno os hosm)
          simp only [hb5]
          cases b5 with
          | true =>
            obtain ⟨s1, ref, s2, hrun, hnsib, hmv, hc1, hd1, hnext⟩ :=
              step_b5 pv p olds news b0 s hc hi.dom os oe ne hos hoe hne hle hnle hb5
                (H.hpv os hosm ne hnem hb5)
            have hp1 := patchAt_ptrs _ _ _ _ _ _ _ hrun
            have hp2 := moveAt_ptrs _ _ _ _ _ _ hmv
            simp only [hrun, if_true, hnsib, hmv]
            refine ⟨_, rfl, ⟨hc1, hd1, le_trans hi.fresh hnext⟩, ?_⟩
            show (s2.oldEndIdx - (s.oldStartIdx + 1)) + (s.newEndIdx - 1 - s2.newStartIdx) < _
            rw [hp2.2.1, hp2.2.2.1, hp1.2.1, hp1.2.2.1]
            omega
          | false =>
            obtain ⟨b6, hb6⟩ := sameVnode_total oe ns (H.hno oe hoem)
            simp only [hb6]
            cases b6 with
            | true =>
              obtain ⟨s1, s2, hrun, hmv, hc1, hd1, hnext⟩ :=
                step_b6 pv p olds news b0 s hc hi.dom oe os ns hoe hos hns hle hnle hb6
                  (H.hpv oe hoem ns hnsm hb6)
              have hp1 := patchAt_ptrs _ _ _ _ _ _ _ hrun
              have hp2 := moveAt_ptrs _ _ _ _ _ _ hmv
              simp only [hrun, hmv]
              refine ⟨_, rfl, ⟨hc1, hd1, le_trans hi.fresh hnext⟩, ?_⟩
              show (s.oldEndIdx - 1 - s2.oldStartIdx) + (s2.newEndIdx - (s.newStartIdx + 1)) < _
              rw [hp2.1, hp2.2.2.2, hp1.1, hp1.2.2.2]
              omega
            | false =>
              obtain ⟨s1, hrun, hinv, h1, h2, h3, h4⟩ :=
                stepLookup_ok pv ce p olds news b0 H hpk s hi os ns hos hns hle hnle
              refine ⟨s1, hrun, hinv, ?_⟩
              rw [h1, h2, h3, h4]
              omega

/-- The loop returns with the loop facts and with a pair of pointers crossed. -/
theorem ucLoop_ok (pv : PatchVnode) (ce : CreateElm) (p : Handle)
    (olds news : List VNode) (b0 : Nat) (H : Hyp pv ce olds news)
    (hpk : plainKeys news = true) :
    ∀ (fuel : Nat) (s : UState), LoopInv olds news b0 s →
      (s.oldEndIdx - s.oldStartIdx + 1) + (s.newEndIdx - s.newStartIdx + 1) ≤ fuel →
      ∃ s1, ucLoop pv ce p true fuel s = .ok s1 ∧ LoopInv olds news b0 s1 ∧
        (s1.oldStartIdx > s1.oldEndIdx ∨ s1.newStartIdx > s1.newEndIdx) := by
  intro fuel
  induction fuel with
  | zero =>
    intro s hi hf
    have h1 := hi.core.ose
    have h2 := hi.core.nse
    have hf' : (s.oldEndIdx - s.oldStartIdx + 1) + (s.newEndIdx - s.newStartIdx + 1) ≤ 0 := by
      simpa using hf
    have hcond : ¬ (s.oldStartIdx ≤ s.oldEndIdx ∧ s.newStartIdx ≤ s.newEndIdx) := by omega
    refine ⟨s, by simp [ucLoop, hcond], hi, by omega⟩
  | succ fuel ih =>
    intro s hi hf
    by_cases hcond : s.oldStartIdx ≤ s.oldEndIdx ∧ s.newStartIdx ≤ s.newEndIdx
    · obtain ⟨s1, hrun, hi1, hm⟩ := ucStep_ok pv ce p olds news b0 H hpk s hi hcond.1 hcond.2
      obtain ⟨s2, hrun2, hi2, hx⟩ := ih s1 hi1 (by push_cast at hf ⊢; omega)
      refine ⟨s2, ?_, hi2, hx⟩
      simp only [ucLoop, hcond, and_self, if_true, hrun]
      exact hrun2
    · refine ⟨s, by simp [ucLoop, hcond], hi, by omega⟩

/-! ## After the loop -/

/-- Inserting a fresh node in front of the first node of the tail of a child
list, or at the end when the tail is empty. -/
theorem insert_at_ref (p : Handle) (KP KS : List LNode) (node : LNode)
    (hnd : ((KP ++ KS).map LNode.h).Nodup) (hf : node.h ∉ (KP ++ KS).map LNode.h) :
    ∃ ev, insert (some p) (KP ++ KS) node (KS.head?.map LNode.h)
      = .ok ((KP ++ [node]) ++ KS, ev) := by
  cases KS with
  | nil =>
    refine ⟨[.appendChild p node.h], ?_⟩
    simp only [List.head?_nil, Option.map_none', List.append_nil] at hf ⊢
    exact insert_append p KP node hf
  | cons r KY =>
    refine ⟨[.insertBefore p node.h (some r.h)], ?_⟩
    simp only [List.head?_cons, Option.map_some']
    rw [insert_before p KP KY r node (nodup_mid_not_mem _ _ _ hnd) hf]
    simp

/-- The trace of a run of `addVnodes` over `n` slots from index `i`. -/
theorem range_create_succ (i : Int) (n : Nat) :
    (List.range (n + 1)).map (fun t => UEv.create (i + (t : Nat)))
      = UEv.create i :: (List.range n).map (fun t => UEv.create (i + 1 + (t : Nat))) := by
  rw [List.range_succ_eq_map, List.map_cons, List.map_map]
  simp only [Nat.cast_zero, add_zero, List.cons.injEq, true_and]
  apply List.map_congr_left
  intro t _
  simp only [Function.comp, Nat.succ_eq_add_one, Nat.cast_add, Nat.cast_one]
  congr 1
  omega

/-- The loop of `addVnodes` returns: it creates the nodes of the range in
order, each in front of the reference node, or at the end when there is
none. -/
theorem addVnodesLoop_ok (ce : CreateElm) (p : Handle) (KS : List LNode) (Sn : List VNode)
    (e : Int) :
    ∀ (Mn Pn : List VNode) (KP : List LNode) (st : St) (i : Int),
      (∀ v ∈ Mn, CeSpec ce v) → (Pn.length : Int) = i → i + Mn.length = e + 1 →
      ((KP ++ KS).map LNode.h).Nodup → (∀ k ∈ KP ++ KS, LNode.bounded st.next k = true) →
      ∃ Mn1 KN st1 ev,
        addVnodesLoop ce p (KS.head?.map LNode.h) e Mn.length i (Pn ++ (Mn ++ Sn)) (KP ++ KS) st
          = .ok (Pn ++ (Mn1 ++ Sn), KP ++ (KN ++ KS), st1,
              (List.range Mn.length).map (fun t => UEv.create (i + (t : Nat))), ev) ∧
        KN.map (fun k => some k.h) = Mn1.map VNode.elm ∧
        Mn1.length = Mn.length ∧
        (∀ v ∈ Mn1, ∃ x, v.elm = some x ∧ st.next ≤ x) ∧
        st.next ≤ st1.next ∧
        ((KP ++ (KN ++ KS)).map LNode.h).Nodup ∧
        (∀ k ∈ KP ++ (KN ++ KS), LNode.bounded st1.next k = true) := by
  intro Mn
  induction Mn with
  | nil =>
    intro Pn KP st i _ _ _ hnd hb
    exact ⟨[], [], st, [], by simp [addVnodesLoop], rfl, rfl, by simp, le_refl _,
      by simpa using hnd, by simpa using hb⟩
  | cons v Mn ih =>
    intro Pn KP st i hce hP hM hnd hb
    obtain ⟨n1, node, st1, ev, he1, hnh, _, hlt, hnb, hrun⟩ := hce v (List.mem_cons_self _ _) true st
    have hfresh : node.h ∉ (KP ++ KS).map LNode.h := by
      rw [hnh]; exact bounded_not_mem st.next _ hb st.next (le_refl _)
    obtain ⟨ev2, hins⟩ := insert_at_ref p KP KS node hnd hfresh
    have hnd1 : (((KP ++ [node]) ++ KS).map LNode.h).Nodup := by
      rw [List.append_assoc, List.singleton_append, List.map_append, List.map_cons,
        List.nodup_middle, List.nodup_cons]
      refine ⟨by simpa using hfresh, by simpa using hnd⟩
    have hb1 : ∀ k ∈ (KP ++ [node]) ++ KS, LNode.bounded st1.next k = true := by
      intro k hk
      have : k = node ∨ k ∈ KP ++ KS := by
        simp only [List.mem_append, List.mem_singleton] at hk ⊢
        tauto
      rcases this with h | h
      · rw [h]; exact hnb
      · exact bounded_mono _ _ (by omega) k (hb k h)
    simp only [List.length_cons] at hM
    push_cast at hM
    obtain ⟨Mn1, KN, st2, ev3, hrec, hK, hlen, hx, hle, hnd2, hb2⟩ :=
      ih (Pn ++ [n1]) (KP ++ [node]) st1 (i + 1) (fun w hw => hce w (List.mem_cons_of_mem _ hw))
        (by simp only [List.length_append, List.length_singleton]; push_cast; omega)
        (by omega) hnd1 hb1
    refine ⟨n1 :: Mn1, node :: KN, st2, ev ++ ev2 ++ ev3, ?_, ?_, ?_, ?_, by omega, ?_, ?_⟩
    · have hie : i ≤ e := by omega
      have hget : getAt (Pn ++ (v :: Mn ++ Sn)) i = some v := by
        rw [List.cons_append]; exact getAt_append_mid Pn v _ i hP
      have hset : setAt (Pn ++ (v :: Mn ++ Sn)) i n1 = (Pn ++ [n1]) ++ (Mn ++ Sn) := by
        rw [List.cons_append, setAt_append_mid Pn v n1 _ i hP]; simp
      rw [List.length_cons, range_create_succ]
      simp only [addVnodesLoop, hie, if_true, hget, hrun, hins, hset, hrec]
      simp
    · simp only [List.map_cons, hK, he1, hnh]
    · simp only [List.length_cons, hlen]
    · intro w hw
      rcases List.mem_cons.1 hw with h | h
      · exact ⟨st.next, by rw [h]; exact he1, le_refl _⟩
      · obtain ⟨x, hx1, hx2⟩ := hx w h
        exact ⟨x, hx1, by omega⟩
    · simpa using hnd2
    · simpa using hb2

theorem destroyLoop_ok (f : VNode → Except Err (List Ev)) (cs : List VNode)
    (h : ∀ c ∈ cs, ∃ ev, f c = .ok ev) : ∃ ev, destroyLoop f cs = .ok ev := by
  induction cs with
  | nil => exact ⟨[], rfl⟩
  | cons c cs ih =>
    obtain ⟨ev1, h1⟩ := h c (List.mem_cons_self _ _)
    obtain ⟨ev2, h2⟩ := ih (fun x hx => h x (List.mem_cons_of_mem _ hx))
    exact ⟨ev1 ++ ev2, by simp only [destroyLoop, h1, h2]⟩

/-- With depth for the whole tree, `invokeDestroyHook` returns. -/
theorem invokeDestroyHook_ok : ∀ (d : Nat) (n : VNode), n.height ≤ d →
    ∃ ev, invokeDestroyHook d n = .ok ev := by
  intro d
  induction d with
  | zero =>
    intro n h
    have := height_pos n
    omega
  | succ d ih =>
    intro n h
    unfold invokeDestroyHook
    cases hc : n.children with
    | none => exact ⟨_, rfl⟩
    | some cs =>
      obtain ⟨ev, hev⟩ := destroyLoop_ok (invokeDestroyHook d) cs (fun c hcm =>
        ih c (by have := height_children n cs hc c hcm; omega))
      simp only [hev]
      exact ⟨_, rfl⟩

theorem removeNode_mid (p : Handle) (KX KY : List LNode) (k : LNode)
    (h : k.h ∉ KX.map LNode.h) :
    removeNode p (KX ++ k :: KY) (some k.h) = .ok (KX ++ KY, [.removeChild p k.h]) := by
  have hh : hasH (KX ++ k :: KY) k.h = true := by
    rw [hasH_iff]; simp
  simp only [removeNode, hh, if_true, removeH_mid KX KY k h]

theorem someIdxs_ge : ∀ (Mo : List (Option VNode)) (i t : Int), t ∈ someIdxs i Mo → i ≤ t := by
  intro Mo
  induction Mo with
  | nil => intro i t h; simp [someIdxs] at h
  | cons x B ih =>
    intro i t h
    cases x with
    | none =>
      have := ih (i + 1) t (by simpa [someIdxs] using h)
      omega
    | some v =>
      simp only [someIdxs, List.mem_cons] at h
      rcases h with h | h
      · omega
      · have := ih (i + 1) t h
        omega

theorem someIdxs_nodup : ∀ (Mo : List (Option VNode)) (i : Int), (someIdxs i Mo).Nodup := by
  intro Mo
  induction Mo with
  | nil => intro i; simp [someIdxs]
  | cons x B ih =>
    intro i
    cases x with
    | none => simpa [someIdxs] using ih (i + 1)
    | some v =>
      simp only [someIdxs, List.nodup_cons]
      refine ⟨?_, ih (i + 1)⟩
      intro h
      have := someIdxs_ge B (i + 1) i h
      omega

theorem mem_someIdxs (So : List (Option VNode)) :
    ∀ (Mo Q : List (Option VNode)) (i t : Int), (Q.length : Int) = i →
      (t ∈ someIdxs i Mo ↔ i ≤ t ∧ t < i + Mo.length ∧ slotAt (Q ++ (Mo ++ So)) t ≠ none) := by
  intro Mo
  induction Mo with
  | nil =>
    intro Q i t _
    simp only [someIdxs, List.not_mem_nil, List.length_nil, Nat.cast_zero, add_zero, false_iff]
    omega
  | cons x B ih =>
    intro Q i t hQ
    have hrec := ih (Q ++ [x]) (i + 1) t (by
      simp only [List.length_append, List.length_singleton]; push_cast; omega)
    have harr : (Q ++ [x]) ++ (B ++ So) = Q ++ (x :: B ++ So) := by simp
    rw [harr] at hrec
    have hslot : slotAt (Q ++ (x :: B ++ So)) i = x := by
      rw [List.cons_append]; exact slotAt_append_mid Q x _ i hQ
    simp only [List.length_cons]
    push_cast
    cases x with
    | none =>
      simp only [someIdxs]
      rw [hrec]
      constructor
      · rintro ⟨a, b, c⟩
        exact ⟨by omega, by omega, c⟩
      · rintro ⟨a, b, c⟩
        refine ⟨?_, by omega, c⟩
        by_contra hlt
        have : t = i := by omega
        subst this
        exact c hslot
    | some v =>
      simp only [someIdxs, List.mem_cons]
      rw [hrec]
      constructor
      · rintro (h | ⟨a, b, c⟩)
        · subst h
          exact ⟨le_refl _, by omega, by rw [hslot]; simp⟩
        · exact ⟨by omega, by omega, c⟩
      · rintro ⟨a, b, c⟩
        by_cases h : t = i
        · exact Or.inl h
        · exact Or.inr ⟨by omega, by omega, c⟩

/-- The loop of `removeVnodes` returns: it detaches the live nodes of the
slots of the range that hold a node, one removal each. -/
theorem removeVnodesLoop_ok (d : Nat) (p : Handle) (So : List (Option VNode))
    (KP KS : List LNode) (e : Int) :
    ∀ (Mo Q : List (Option VNode)) (KM : List LNode) (i : Int),
      (∀ v ∈ Mo.reduceOption, v.height ≤ d ∧ v.rmDeferred = false) →
      (Q.length : Int) = i → i + Mo.length = e + 1 →
      KM.map (fun k => some k.h) = Mo.reduceOption.map VNode.elm →
      ((KP ++ (KM ++ KS)).map LNode.h).Nodup →
      ∃ ev, removeVnodesLoop d p (Q ++ (Mo ++ So)) e Mo.length i (KP ++ (KM ++ KS))
        = .ok (KP ++ KS, removesOf i Mo, ev) := by
  intro Mo
  induction Mo with
  | nil =>
    intro Q KM i _ _ _ hK _
    have : KM = [] := by simpa using hK
    subst this
    exact ⟨[], by simp [removeVnodesLoop, removesOf, someIdxs]⟩
  | cons x B ih =>
    intro Q KM i hh hQ hM hK hnd
    simp only [List.length_cons] at hM
    push_cast at hM
    have hie : i ≤ e := by omega
    have harr : Q ++ (x :: B ++ So) = (Q ++ [x]) ++ (B ++ So) := by simp
    have hslot : slotAt (Q ++ (x :: B ++ So)) i = x := by
      rw [List.cons_append]; exact slotAt_append_mid Q x _ i hQ
    have hQ1 : (((Q ++ [x]).length : Nat) : Int) = i + 1 := by
      simp only [List.length_append, List.length_singleton]; push_cast; omega
    cases x with
    | none =>
      obtain ⟨ev, hev⟩ := ih (Q ++ [none]) KM (i + 1)
        (fun v hv => hh v (by simpa using hv)) hQ1 (by omega) (by simpa using hK) hnd
      refine ⟨ev, ?_⟩
      rw [List.length_cons]
      simp only [removeVnodesLoop, hie, if_true, hslot]
      rw [harr, hev]
      simp [removesOf, someIdxs]
    | some ch =>
      rw [List.reduceOption_cons_of_some, List.map_cons, List.map_eq_cons_iff] at hK
      obtain ⟨k, KM1, hKM, hk, hK1⟩ := hK
      subst hKM
      have hkn : k.h ∉ KP.map LNode.h := by
        rw [List.cons_append] at hnd
        exact nodup_mid_not_mem _ _ _ hnd
      have hnd1 : ((KP ++ (KM1 ++ KS)).map LNode.h).Nodup := by
        rw [List.cons_append, List.map_append, List.map_cons] at hnd
        have := (List.nodup_middle.1 hnd)
        rw [List.nodup_cons] at this
        simpa using this.2
      obtain ⟨ev, hev⟩ := ih (Q ++ [some ch]) KM1 (i + 1)
        (fun v hv => hh v (by simp [List.reduceOption_cons_of_some, hv])) hQ1 (by omega) hK1 hnd1
      obtain ⟨evd, hevd⟩ := invokeDestroyHook_ok d ch
        (hh ch (by simp [List.reduceOption_cons_of_some])).1
      have hnr : ch.rmDeferred = false := (hh ch (by simp [List.reduceOption_cons_of_some])).2
      have hrm : removeNode p (KP ++ (k :: KM1 ++ KS)) ch.elm
          = .ok (KP ++ (KM1 ++ KS), [.removeChild p k.h]) := by
        rw [← hk, List.cons_append]; exact removeNode_mid p KP _ k hkn
      rw [harr] at hslot
      rw [List.length_cons]
      by_cases htag : ch.info.tag.isSome = true
      · by_cases hdata : ch.info.data.isSome = true
        · refine ⟨([.hook .moduleRemove ch.elm] ++
            (if hasHook ch Hooks.remove then [.hook .remove ch.elm] else []) ++
              [.removeChild p k.h]) ++ evd ++ ev, ?_⟩
          simp only [removeVnodesLoop, hie, if_true, harr, hslot, htag, removeAndInvokeRemoveHook,
            hdata, hnr, Bool.false_eq_true, if_false, hrm, hevd, hev]
          simp [removesOf, someIdxs]
        · refine ⟨[.removeChild p k.h] ++ evd ++ ev, ?_⟩
          simp only [removeVnodesLoop, hie, if_true, harr, hslot, htag, removeAndInvokeRemoveHook,
            hdata, Bool.false_eq_true, if_false, hrm, hevd, hev]
          simp [removesOf, someIdxs]
      · refine ⟨[.removeChild p k.h] ++ ev, ?_⟩
        simp only [removeVnodesLoop, hie, if_true, harr, hslot, htag, Bool.false_eq_true,
          if_false, hrm, hev]
        simp [removesOf, someIdxs]

/-- The reference node of the final `addVnodes`: the live node of the first
handled new end node, if any. -/
theorem finish_ref (Pn Mn Sn : List VNode) (KS : List LNode) (e : Int)
    (hM : (Pn.length : Int) + Mn.length = e + 1)
    (hS : KS.map (fun k => some k.h) = Sn.map VNode.elm) :
    (match getAt (Pn ++ (Mn ++ Sn)) (e + 1) with
      | none => none
      | some v => v.elm) = KS.head?.map LNode.h := by
  cases Sn with
  | nil =>
    have hK : KS = [] := by simpa using hS
    subst hK
    have : getAt (Pn ++ (Mn ++ [])) (e + 1) = none := by
      unfold getAt
      have h0 : ¬ (e + 1 < 0) := by omega
      simp only [h0, if_false, List.append_nil]
      apply List.getElem?_eq_none
      simp only [List.length_append]
      omega
    rw [this]
    rfl
  | cons x Sn1 =>
    rw [List.map_cons, List.map_eq_cons_iff] at hS
    obtain ⟨k, KS1, hKS, hk, _⟩ := hS
    subst hKS
    have : getAt (Pn ++ (Mn ++ x :: Sn1)) (e + 1) = some x := by
      rw [← List.append_assoc]
      apply getAt_append_mid
      simp only [List.length_append]
      push_cast
      omega
    rw [this]
    simp only [List.head?_cons, Option.map_some', hk]

/-- The code after the loop when the old nodes are used up: the remaining new
nodes are created in order, in front of the handled new end nodes. -/
theorem ucFinish_add (ce : CreateElm) (d : Nat) (p : Handle) (s : UState)
    (Po Mo So : List (Option VNode)) (Pn Mn Sn : List VNode) (KP KM KS : List LNode)
    (hd : Dom s Po Mo So Pn Mn Sn KP KM KS) (hx : s.oldStartIdx > s.oldEndIdx)
    (hce : ∀ v ∈ Mn, CeSpec ce v) :
    ∃ Mn1 KN st1 ev,
      ucFinish ce d p s = .ok { s with
        newCh := Pn ++ (Mn1 ++ Sn), kids := KP ++ (KN ++ KS), st := st1,
        trace := s.trace ++ (List.range Mn.length).map (fun t => UEv.create (s.newStartIdx + (t : Nat))),
        log := s.log ++ ev } ∧
      Mo = [] ∧ KM = [] ∧
      KN.map (fun k => some k.h) = Mn1.map VNode.elm ∧
      Mn1.length = Mn.length ∧
      (∀ v ∈ Mn1, ∃ x, v.elm = some x ∧ s.st.next ≤ x) ∧
      s.st.next ≤ st1.next ∧
      ((KP ++ (KN ++ KS)).map LNode.h).Nodup ∧
      (∀ k ∈ KP ++ (KN ++ KS), LNode.bounded st1.next k = true) := by
  have hMo : Mo = [] := by
    have h1 := hd.hPo
    have h2 := hd.hMo
    apply List.eq_nil_of_length_eq_zero
    omega
  have hKM : KM = [] := by
    have := hd.domM
    rw [hMo] at this
    simpa using this
  have hk : s.kids = KP ++ KS := by rw [hd.hK, hKM]; rfl
  have hnd : ((KP ++ KS).map LNode.h).Nodup := by rw [← hk]; exact hd.nodup
  have hb : ∀ k ∈ KP ++ KS, LNode.bounded s.st.next k = true := by rw [← hk]; exact hd.bnd
  obtain ⟨Mn1, KN, st1, ev, hrun, h1, h2, h3, h4, h5, h6⟩ :=
    addVnodesLoop_ok ce p KS Sn s.newEndIdx Mn Pn KP s.st s.newStartIdx hce hd.hPn
      (by have := hd.hPn; have := hd.hMn; omega) hnd hb
  refine ⟨Mn1, KN, st1, ev, ?_, hMo, hKM, h1, h2, h3, h4, h5, h6⟩
  have hfuel : (s.newEndIdx - s.newStartIdx + 1).toNat = Mn.length := by
    have := hd.hPn; have := hd.hMn; omega
  have href := finish_ref Pn Mn Sn KS s.newEndIdx hd.hMn hd.domS
  unfold ucFinish addVnodes
  simp only [hx, if_true, hfuel]
  rw [hd.hN, href, hk, hrun]

/-- The code after the loop when the new nodes are used up first: the old
nodes still to be handled are removed. -/
theorem ucFinish_remove (ce : CreateElm) (d : Nat) (p : Handle) (s : UState)
    (Po Mo So : List (Option VNode)) (Pn Mn Sn : List VNode) (KP KM KS : List LNode)
    (hd : Dom s Po Mo So Pn Mn Sn KP KM KS) (hle : s.oldStartIdx ≤ s.oldEndIdx)
    (hx : s.newStartIdx > s.newEndIdx) (hh : ∀ v ∈ Mo.reduceOption, v.height ≤ d ∧ v.rmDeferred = false) :
    ∃ ev,
      ucFinish ce d p s = .ok { s with
        kids := KP ++ KS, trace := s.trace ++ removesOf s.oldStartIdx Mo, log := s.log ++ ev } ∧
      Mn = [] := by
  have hMn : Mn = [] := by
    have h1 := hd.hPn
    have h2 := hd.hMn
    apply List.eq_nil_of_length_eq_zero
    omega
  have hnd : ((KP ++ (KM ++ KS)).map LNode.h).Nodup := by rw [← hd.hK]; exact hd.nodup
  obtain ⟨ev, hrun⟩ := removeVnodesLoop_ok d p So KP KS s.oldEndIdx Mo Po KM s.oldStartIdx hh
    hd.hPo (by have := hd.hPo; have := hd.hMo; omega) hd.domM hnd
  refine ⟨ev, ?_, hMn⟩
  have hfuel : (s.oldEndIdx - s.oldStartIdx + 1).toNat = Mo.length := by
    have := hd.hPo; have := hd.hMo; omega
  have h1 : ¬ s.oldStartIdx > s.oldEndIdx := by omega
  unfold ucFinish removeVnodes
  simp only [h1, if_false, hx, if_true, hfuel]
  rw [hd.hO, hd.hK, hrun]

theorem newIdxs_creates (i : Int) (n : Nat) :
    newIdxs ((List.range n).map (fun t => UEv.create (i + (t : Nat))))
      = (List.range n).map (fun t => i + (t : Nat)) := by
  unfold newIdxs
  rw [List.filterMap_map]
  rw [← List.filterMap_eq_map]
  rfl

theorem oldIdxs_creates (i : Int) (n : Nat) :
    oldIdxs ((List.range n).map (fun t => UEv.create (i + (t : Nat)))) = [] := by
  unfold oldIdxs
  rw [List.filterMap_map, List.filterMap_eq_nil_iff]
  intro t _
  rfl

theorem newIdxs_removes (i : Int) (Mo : List (Option VNode)) : newIdxs (removesOf i Mo) = [] := by
  unfold newIdxs removesOf
  rw [List.filterMap_map, List.filterMap_eq_nil_iff]
  intro t _
  rfl

theorem oldIdxs_removes (i : Int) (Mo : List (Option VNode)) :
    oldIdxs (removesOf i Mo) = someIdxs i Mo := by
  unfold oldIdxs removesOf
  rw [List.filterMap_map]
  have : ((fun e => match e with
      | UEv.patch i _ => some i
      | UEv.remove i => some i
      | _ => none) ∘ UEv.remove) = some := rfl
  rw [this, List.filterMap_some]

theorem mem_creates (i : Int) (n : Nat) (e : UEv)
    (h : e ∈ (List.range n).map (fun t => UEv.create (i + (t : Nat)))) :
    ∃ t : Nat, t < n ∧ e = UEv.create (i + t) := by
  obtain ⟨t, ht, rfl⟩ := List.mem_map.1 h
  exact ⟨t, List.mem_range.1 ht, rfl⟩

theorem mem_removesOf (i : Int) (Mo : List (Option VNode)) (e : UEv)
    (h : e ∈ removesOf i Mo) : ∃ t, e = UEv.remove t := by
  obtain ⟨t, _, rfl⟩ := List.mem_map.1 h
  exact ⟨t, rfl⟩

/-- Outside the middle part an array read does not depend on the middle
part. -/
theorem getAt_mid_irrel {α : Type} (P M M1 S : List α) (j : Int) (hl : M1.length = M.length)
    (hj : j < P.length ∨ (P.length : Int) + M.length ≤ j) :
    getAt (P ++ (M1 ++ S)) j = getAt (P ++ (M ++ S)) j := by
  rcases hj with hj | hj
  · rw [getAt_append_left _ _ _ hj, getAt_append_left _ _ _ hj]
  · rw [getAt_append_right _ _ _ (by omega), getAt_append_right _ _ _ (by omega),
      getAt_append_right _ _ _ (by omega), getAt_append_right _ _ _ (by omega), hl]

theorem mid_mem_news (olds news : List VNode) (b0 : Nat) (s : UState)
    (hc : Core olds news b0 s) (Po Mo So : List (Option VNode)) (Pn Mn Sn : List VNode)
    (KP KM KS : List LNode) (hd : Dom s Po Mo So Pn Mn Sn KP KM KS) (v : VNode)
    (hv : v ∈ Mn) : v ∈ news := by
  obtain ⟨A, B, hAB⟩ := List.append_of_mem hv
  have hget : getAt s.newCh ((Pn.length : Int) + A.length) = some v := by
    rw [hd.hN, hAB, List.append_assoc, ← List.append_assoc Pn, List.cons_append]
    apply getAt_append_mid
    simp
  have hlen := hd.hMn
  rw [hAB] at hlen
  simp only [List.length_append, List.length_cons] at hlen
  push_cast at hlen
  exact news_mem_of_mid olds news b0 s hc _ v (by have := hd.hPn; omega) (by omega) hget

theorem mid_mem_olds (olds news : List VNode) (b0 : Nat) (s : UState)
    (hc : Core olds news b0 s) (Po Mo So : List (Option VNode)) (Pn Mn Sn : List VNode)
    (KP KM KS : List LNode) (hd : Dom s Po Mo So Pn Mn Sn KP KM KS) (v : VNode)
    (hv : v ∈ Mo.reduceOption) : v ∈ olds := by
  rw [List.reduceOption_mem_iff] at hv
  obtain ⟨A, B, hAB⟩ := List.append_of_mem hv
  have hget : slotAt s.oldCh ((Po.length : Int) + A.length) = some v := by
    rw [hd.hO, hAB, List.append_assoc, ← List.append_assoc Po, List.cons_append]
    apply slotAt_append_mid
    simp
  exact olds_mem_of_slot olds news b0 s hc _ v hget

/-- The code after the loop returns, and the exit facts hold of its result. -/
theorem ucFinish_ok (ce : CreateElm) (d : Nat) (p : Handle) (olds news : List VNode) (b0 : Nat)
    (hce : ∀ n ∈ news, CeSpec ce n) (hh : ∀ o ∈ olds, o.height ≤ d ∧ o.rmDeferred = false)
    (s : UState) (hi : LoopInv olds news b0 s)
    (hx : s.oldStartIdx > s.oldEndIdx ∨ s.newStartIdx > s.newEndIdx) :
    ∃ s1, ucFinish ce d p s = .ok s1 ∧ Done olds news b0 s1 := by
  have hc := hi.core
  obtain ⟨Po, Mo, So, Pn, Mn, Sn, KP, KM, KS, hd⟩ := hi.dom
  by_cases hadd : s.oldStartIdx > s.oldEndIdx
  · obtain ⟨Mn1, KN, st1, ev, hrun, hMo, hKM, hKN, hlen, hx1, hst, hnd, hb⟩ :=
      ucFinish_add ce d p s Po Mo So Pn Mn Sn KP KM KS hd hadd
        (fun v hv => hce v (mid_mem_news olds news b0 s hc _ _ _ _ _ _ _ _ _ hd v hv))
    have hPn := hd.hPn
    have hMn := hd.hMn
    have hkeep : ∀ j, j ∈ newIdxs s.trace →
        getAt (Pn ++ (Mn1 ++ Sn)) j = getAt s.newCh j := by
      intro j hj
      rw [hd.hN]
      apply getAt_mid_irrel _ _ _ _ _ hlen
      have := (hc.trNewMem j).1 hj
      omega
    refine ⟨_, hrun, ?_⟩
    exact
      { lenN := by
          show (Pn ++ (Mn1 ++ Sn)).length = _
          rw [← hc.lenN, hd.hN]
          simp only [List.length_append, hlen]
        order := by
          show (KP ++ (KN ++ KS)).map _ = (Pn ++ (Mn1 ++ Sn)).map _
          simp only [List.map_append, hd.domP, hKN, hd.domS]
        nodup := hnd
        bnd := hb
        fresh := le_trans hi.fresh hst
        trNewNodup := by
          show (newIdxs (s.trace ++ _)).Nodup
          rw [newIdxs_append, newIdxs_creates, List.nodup_append]
          refine ⟨hc.trNewNodup, ?_, ?_⟩
          · apply List.Nodup.map_on _ (List.nodup_range _)
            intro a _ b _ hab
            omega
          · intro j hj1 hj2
            obtain ⟨t, ht, rfl⟩ := List.mem_map.1 hj2
            have := (hc.trNewMem _).1 hj1
            have := List.mem_range.1 ht
            omega
        trNewMem := by
          intro j
          show j ∈ newIdxs (s.trace ++ _) ↔ _
          rw [newIdxs_append, newIdxs_creates, List.mem_append, hc.trNewMem, List.mem_map]
          have h1 := hc.ns0
          have h2 := hc.ne1
          constructor
          · rintro (h | ⟨t, ht, rfl⟩)
            · omega
            · have := List.mem_range.1 ht
              omega
          · intro h
            by_cases hj : j < s.newStartIdx ∨ s.newEndIdx < j
            · left; omega
            · right
              refine ⟨(j - s.newStartIdx).toNat, List.mem_range.2 (by omega), by omega⟩
        trOldNodup := by
          show (oldIdxs (s.trace ++ _)).Nodup
          rw [oldIdxs_append, oldIdxs_creates, List.append_nil]
          exact hc.trOldNodup
        trOldMem := by
          intro i
          show i ∈ oldIdxs (s.trace ++ _) ↔ _
          rw [oldIdxs_append, oldIdxs_creates, List.append_nil, hc.trOldMem]
          constructor
          · rintro ⟨a, b, _⟩
            exact ⟨a, b⟩
          · rintro ⟨a, b⟩
            refine ⟨a, b, ?_⟩
            by_cases hlt : i < s.oldStartIdx
            · exact Or.inl hlt
            · exact Or.inr (Or.inl (by omega))
        trPatch := by
          intro i j hm
          have hm1 : UEv.patch i j ∈ s.trace ++ _ := hm
          rcases List.mem_append.1 hm1 with h | h
          · obtain ⟨o, n, v, h1, h2, h3, h4, h5⟩ := hc.trPatch i j h
            refine ⟨o, n, v, h1, h2, h3, ?_, h5⟩
            show getAt (Pn ++ (Mn1 ++ Sn)) j = _
            rw [hkeep j (mem_newIdxs_patch _ i j h)]
            exact h4
          · obtain ⟨t, _, ht⟩ := mem_creates _ _ _ h
            cases ht
        trCreate := by
          intro j hm
          have hm1 : UEv.create j ∈ s.trace ++ _ := hm
          rcases List.mem_append.1 hm1 with h | h
          · obtain ⟨v, x, h1, h2, h3⟩ := hc.trCreate j h
            refine ⟨v, x, ?_, h2, h3⟩
            show getAt (Pn ++ (Mn1 ++ Sn)) j = _
            rw [hkeep j (mem_newIdxs_create _ j h)]
            exact h1
          · obtain ⟨t, ht, hj⟩ := mem_creates _ _ _ h
            simp only [UEv.create.injEq] at hj
            have hlt : t < Mn1.length := by omega
            have hget : getAt (Pn ++ (Mn1 ++ Sn)) j = some (Mn1.get ⟨t, hlt⟩) := by
              rw [getAt_append_right _ _ _ (by omega), getAt_append_left _ _ _ (by omega)]
              unfold getAt
              have h0 : ¬ (j - (Pn.length : Int) < 0) := by omega
              have h1 : (j - (Pn.length : Int)).toNat = t := by omega
              simp only [h0, if_false, h1]
              exact List.getElem?_eq_getElem hlt
            obtain ⟨x, hx2, hx3⟩ := hx1 _ (List.get_mem Mn1 t hlt)
            exact ⟨_, x, hget, hx2, le_trans hi.fresh hx3⟩ }
  · have hle : s.oldStartIdx ≤ s.oldEndIdx := by omega
    have hx2 : s.newStartIdx > s.newEndIdx := by
      rcases hx with h | h
      · exact absurd h hadd
      · exact h
    obtain ⟨ev, hrun, hMn⟩ := ucFinish_remove ce d p s Po Mo So Pn Mn Sn KP KM KS hd hle hx2
      (fun v hv => hh v (mid_mem_olds olds news b0 s hc _ _ _ _ _ _ _ _ _ hd v hv))
    have hPo := hd.hPo
    have hMo := hd.hMo
    have hsub : (KP ++ KS).Sublist s.kids := by
      rw [hd.hK]
      exact List.Sublist.append (List.Sublist.refl _) (List.sublist_append_right _ _)
    refine ⟨_, hrun, ?_⟩
    exact
      { lenN := hc.lenN
        order := by
          show (KP ++ KS).map _ = s.newCh.map _
          rw [hd.hN, hMn]
          simp only [List.map_append, hd.domP, hd.domS, List.nil_append]
        nodup := List.Nodup.sublist (List.Sublist.map _ hsub) hd.nodup
        bnd := fun k hk => hd.bnd k (hsub.subset hk)
        fresh := hi.fresh
        trNewNodup := by
          show (newIdxs (s.trace ++ _)).Nodup
          rw [newIdxs_append, newIdxs_removes, List.append_nil]
          exact hc.trNewNodup
        trNewMem := by
          intro j
          show j ∈ newIdxs (s.trace ++ _) ↔ _
          rw [newIdxs_append, newIdxs_removes, List.append_nil, hc.trNewMem]
          have := hc.nse
          have := hc.ns0
          have := hc.ne1
          omega
        trOldNodup := by
          show (oldIdxs (s.trace ++ _)).Nodup
          rw [oldIdxs_append, oldIdxs_removes, List.nodup_append]
          refine ⟨hc.trOldNodup, someIdxs_nodup _ _, ?_⟩
          intro t ht1 ht2
          have h1 := (hc.trOldMem t).1 ht1
          have h2 := (mem_someIdxs So Mo Po s.oldStartIdx t hPo).1 ht2
          rw [← hd.hO] at h2
          rcases h1.2.2 with h | h | h
          · omega
          · omega
          · exact h2.2.2 h
        trOldMem := by
          intro i
          show i ∈ oldIdxs (s.trace ++ _) ↔ _
          rw [oldIdxs_append, oldIdxs_removes, List.mem_append, hc.trOldMem,
            mem_someIdxs So Mo Po s.oldStartIdx i hPo, ← hd.hO]
          have h1 := hc.os0
          have h2 := hc.oe1
          constructor
          · rintro (⟨a, b, _⟩ | ⟨a, b, _⟩)
            · exact ⟨a, b⟩
            · exact ⟨by omega, by omega⟩
          · rintro ⟨a, b⟩
            by_cases hs : slotAt s.oldCh i = none
            · exact Or.inl ⟨a, b, Or.inr (Or.inr hs)⟩
            · by_cases hw : i < s.oldStartIdx ∨ s.oldEndIdx < i
              · left
                refine ⟨a, b, ?_⟩
                rcases hw with hw | hw
                · exact Or.inl hw
                · exact Or.inr (Or.inl hw)
              · exact Or.inr ⟨by omega, by omega, hs⟩
        trPatch := by
          intro i j hm
          have hm1 : UEv.patch i j ∈ s.trace ++ _ := hm
          rcases List.mem_append.1 hm1 with h | h
          · exact hc.trPatch i j h
          · obtain ⟨t, ht⟩ := mem_removesOf _ _ _ h
            cases ht
        trCreate := by
          intro j hm
          have hm1 : UEv.create j ∈ s.trace ++ _ := hm
          rcases List.mem_append.1 hm1 with h | h
          · exact hc.trCreate j h
          · obtain ⟨t, ht⟩ := mem_removesOf _ _ _ h
            cases ht }

theorem reduceOption_map_some {α : Type} (l : List α) : (l.map some).reduceOption = l := by
  induction l with
  | nil => rfl
  | cons x xs ih => rw [List.map_cons, List.reduceOption_cons_of_some, ih]

/-- The state at entry satisfies the loop facts. -/
theorem loopInv_init (olds news : List VNode) (kids : List LNode) (st : St)
    (hk : kids.map (fun k => some k.h) = olds.map VNode.elm)
    (hnd : (kids.map LNode.h).Nodup)
    (hb : ∀ k ∈ kids, LNode.bounded st.next k = true)
    (hm : ∀ v ∈ olds, ∀ k ∈ kids, v.elm = some k.h → mirrors k v = true) :
    LoopInv olds news st.next
      { kids := kids, oldCh := olds.map some, newCh := news,
        oldStartIdx := 0, oldEndIdx := (olds.length : Int) - 1,
        newStartIdx := 0, newEndIdx := (news.length : Int) - 1,
        oldKeyToIdx := none, st := st, trace := [], log := [] } := by
  refine ⟨core_init olds news kids st, ?_, le_refl _⟩
  refine ⟨[], olds.map some, [], [], news, [], [], kids, [], ?_⟩
  exact
    { hO := by simp
      hPo := by simp
      hMo := by simp
      hN := by simp
      hPn := by simp
      hMn := by simp
      hK := by simp
      domP := by simp
      domM := by rw [reduceOption_map_some]; exact hk
      domS := by simp
      nodup := hnd
      bnd := hb
      mir := by rw [reduceOption_map_some]; exact hm }

/-- With moves allowed and given a `patchVnode` and a `createElm` that
behave, `updateChildren` returns and the exit facts hold of its result. -/
theorem updateChildrenWith_ok (pv : PatchVnode) (ce : CreateElm) (d : Nat) (p : Handle)
    (olds news : List VNode) (H : Hyp pv ce olds news) (hpk : plainKeys news = true)
    (hh : ∀ o ∈ olds, o.height ≤ d ∧ o.rmDeferred = false)
    (kids : List LNode) (st : St)
    (hk : kids.map (fun k => some k.h) = olds.map VNode.elm)
    (hnd : (kids.map LNode.h).Nodup)
    (hb : ∀ k ∈ kids, LNode.bounded st.next k = true)
    (hm : ∀ v ∈ olds, ∀ k ∈ kids, v.elm = some k.h → mirrors k v = true) :
    ∃ s, updateChildrenWith pv ce d p kids (olds.map some) news false st = .ok s ∧
      Done olds news st.next s := by
  have hinit := loopInv_init olds news kids st hk hnd hb hm
  obtain ⟨s1, hloop, hi1, hx⟩ := ucLoop_ok pv ce p olds news st.next H hpk
    (olds.length + news.length) _ hinit (by
      show ((olds.length : Int) - 1 - 0 + 1) + ((news.length : Int) - 1 - 0 + 1) ≤ _
      push_cast
      omega)
  obtain ⟨s2, hfin, hdone⟩ := ucFinish_ok ce d p olds news st.next H.hce hh s1 hi1 hx
  refine ⟨s2, ?_, hdone⟩
  unfold updateChildrenWith
  simp only [Bool.not_false, List.length_map]
  rw [hloop]
  exact hfin

/-! ## Renderings and well-formed trees -/

theorem mirrors_elm (sub : LNode) (o : VNode) (h : mirrors sub o = true) :
    o.elm = some sub.h := by
  cases o with
  | mk i cs =>
    cases cs with
    | none => simpa [mirrors, VNode.elm, VNode.info] using h
    | some cs =>
      simp only [mirrors, Bool.and_eq_true, beq_iff_eq] at h
      exact h.1.1

theorem mirrors_children (sub : LNode) (o : VNode) (cs : List VNode)
    (h : mirrors sub o = true) (hc : o.children = some cs) :
    (sub.kids.map LNode.h).Nodup ∧ mirrorsL sub.kids cs = true := by
  cases o with
  | mk i cs0 =>
    simp only [VNode.children] at hc
    subst hc
    simp only [mirrors, Bool.and_eq_true, decide_eq_true_eq, handlesOf] at h
    exact ⟨h.1.2, h.2⟩

theorem mirrorsL_map : ∀ (cs : List VNode) (ks : List LNode), mirrorsL ks cs = true →
    ks.map (fun k => some k.h) = cs.map VNode.elm := by
  intro cs
  induction cs with
  | nil =>
    intro ks h
    cases ks with
    | nil => rfl
    | cons k ks => simp [mirrorsL] at h
  | cons c cs ih =>
    intro ks h
    cases ks with
    | nil => simp [mirrorsL] at h
    | cons k ks =>
      simp only [mirrorsL, Bool.and_eq_true] at h
      simp only [List.map_cons, ih ks h.2, mirrors_elm k c h.1]

theorem mirrorsL_pair : ∀ (cs : List VNode) (ks : List LNode), mirrorsL ks cs = true →
    (ks.map LNode.h).Nodup → ∀ v ∈ cs, ∀ k ∈ ks, v.elm = some k.h → mirrors k v = true := by
  intro cs
  induction cs with
  | nil => intro ks _ _ v hv; simp at hv
  | cons c cs ih =>
    intro ks h hnd v hv k hk he
    cases ks with
    | nil => simp [mirrorsL] at h
    | cons k0 ks =>
      simp only [mirrorsL, Bool.and_eq_true] at h
      rw [List.map_cons, List.nodup_cons] at hnd
      have hmap := mirrorsL_map cs ks h.2
      rcases List.mem_cons.1 hv with hv | hv
      · subst hv
        have h0 := mirrors_elm k0 v h.1
        rw [h0] at he
        simp only [Option.some.injEq] at he
        rcases List.mem_cons.1 hk with hk | hk
        · rw [hk]; exact h.1
        · exfalso
          apply hnd.1
          rw [he]
          exact List.mem_map_of_mem _ hk
      · rcases List.mem_cons.1 hk with hk | hk
        · exfalso
          subst hk
          apply hnd.1
          have : v.elm ∈ cs.map VNode.elm := List.mem_map_of_mem _ hv
          rw [← hmap, he, List.mem_map] at this
          obtain ⟨k1, hk1, hk2⟩ := this
          simp only [Option.some.injEq] at hk2
          rw [← hk2]
          exact List.mem_map_of_mem _ hk1
        · exact ih ks h.2 hnd.2 v hv k hk he

theorem wellFormedL_iff (cs : List VNode) :
    VNode.wellFormedL cs = true ↔ ∀ c ∈ cs, c.wellFormed = true := by
  induction cs with
  | nil => simp [VNode.wellFormedL]
  | cons c cs ih => simp [VNode.wellFormedL, ih]

theorem wellFormed_nodeOk (v : VNode) (h : v.wellFormed = true) : nodeOk v := by
  cases v with
  | mk i cs =>
    intro ha
    have ha1 : i.isAsyncPlaceholder = true := ha
    show i.asyncFactory.isSome = true
    cases cs with
    | none =>
      simp only [VNode.wellFormed, Bool.and_eq_true, ha1, Bool.not_true, Bool.false_or] at h
      exact h.1
    | some cs =>
      simp only [VNode.wellFormed, Bool.and_eq_true, ha1, Bool.not_true, Bool.false_or] at h
      exact h.1.1.1

theorem wellFormed_prompt (v : VNode) (h : v.wellFormed = true) : v.rmDeferred = false := by
  cases v with
  | mk i cs =>
    show (i.data.map VData.rmDeferred).getD false = false
    cases cs with
    | none =>
      simp only [VNode.wellFormed, Bool.and_eq_true, Bool.not_eq_true'] at h
      exact h.2
    | some cs =>
      simp only [VNode.wellFormed, Bool.and_eq_true, Bool.not_eq_true'] at h
      exact h.1.1.2

theorem wellFormed_children (v : VNode) (cs : List VNode) (h : v.wellFormed = true)
    (hc : v.children = some cs) : plainKeys cs = true ∧ ∀ c ∈ cs, c.wellFormed = true := by
  cases v with
  | mk i cs0 =>
    simp only [VNode.children] at hc
    subst hc
    simp only [VNode.wellFormed, Bool.and_eq_true, wellFormedL_iff] at h
    exact ⟨h.1.2, h.2⟩

/-! ## Hydration returns -/

theorem hydrateChildrenLoop_ok (hy : Hydrate) :
    ∀ (cs : List VNode) (ks : List LNode) (st : St),
      (∀ c ∈ cs, HySpec hy c) → (∀ k ∈ ks, LNode.bounded st.next k = true) →
      ∃ b cs1 done ahead st1 ev,
        hydrateChildrenLoop hy cs ks st = .ok (b, cs1, done, ahead, st1, ev) ∧
        st.next ≤ st1.next ∧ ∀ k ∈ done ++ ahead, LNode.bounded st1.next k = true := by
  intro cs
  induction cs with
  | nil =>
    intro ks st _ hk
    exact ⟨true, [], [], ks, st, [], rfl, le_refl _, by simpa using hk⟩
  | cons c cs ih =>
    intro ks st hh hk
    cases ks with
    | nil => exact ⟨false, c :: cs, [], [], st, [], rfl, le_refl _, by simp⟩
    | cons n rest =>
      obtain ⟨b, c1, n1, st1, ev1, hrun, _, _, _, hle, hb⟩ :=
        hh c (List.mem_cons_self _ _) n st (hk n (List.mem_cons_self _ _))
      have hrest : ∀ k ∈ rest, LNode.bounded st1.next k = true := fun k hkm =>
        bounded_mono _ _ hle k (hk k (List.mem_cons_of_mem _ hkm))
      cases b with
      | false =>
        refine ⟨false, c1 :: cs, [n1], rest, st1, ev1, by simp only [hydrateChildrenLoop, hrun],
          hle, ?_⟩
        intro k hkm
        rcases List.mem_append.1 hkm with h | h
        · have : k = n1 := by simpa using h
          rw [this]; exact hb
        · exact hrest k h
      | true =>
        obtain ⟨b2, cs2, done, ahead, st2, ev2, hrun2, hle2, hb2⟩ :=
          ih rest st1 (fun x hx => hh x (List.mem_cons_of_mem _ hx)) hrest
        refine ⟨b2, c1 :: cs2, n1 :: done, ahead, st2, ev1 ++ ev2,
          by simp only [hydrateChildrenLoop, hrun, hrun2], by omega, ?_⟩
        intro k hkm
        rcases List.mem_cons.1 hkm with h | h
        · rw [h]; exact bounded_mono _ _ hle2 n1 hb
        · exact hb2 k h

theorem hydrateFinish_ok (v : VNode) (n : LNode) (st : St) (ev : List Ev) :
    ∃ st1 ev1, hydrateFinish v n st ev = .ok (true, v, n, st1, ev1) ∧ st1.next = st.next := by
  unfold hydrateFinish
  split
  · split
    · exact ⟨_, _, rfl, by simp⟩
    · exact ⟨_, _, rfl, rfl⟩
  · exact ⟨_, _, rfl, rfl⟩

theorem bounded_setKids (b : Nat) (n : LNode) (ks : List LNode) (hn : n.h < b)
    (hk : ∀ k ∈ ks, LNode.bounded b k = true) : LNode.bounded b (n.setKids ks) = true := by
  rw [bounded_iff]
  exact ⟨by simpa using hn, by simpa using hk⟩

theorem bounded_setData (b : Nat) (n : LNode) (t : String) (hn : LNode.bounded b n = true) :
    LNode.bounded b (n.setData t) = true := by
  rw [bounded_iff] at hn ⊢
  simpa using hn

/-- With depth for the whole tree, `hydrate` returns. -/
theorem hydrate_ok : ∀ (d : Nat) (v : VNode), v.height ≤ d → HySpec (hydrate d) v := by
  intro d
  induction d with
  | zero =>
    intro v hv
    have := height_pos v
    omega
  | succ d ih =>
    intro v hv elm st hb
    have hbnd := (bounded_iff _ _).1 hb
    unfold hydrate
    simp only
    split
    · exact ⟨_, _, _, _, _, rfl, rfl, by cases v; rfl, by cases v; rfl, le_refl _, hb⟩
    · split
      · exact ⟨_, _, _, _, _, rfl, rfl, by simp, by simp, le_refl _, hb⟩
      · cases htag : (v.setElm (some elm.h)).info.tag with
        | none =>
          simp only
          split
          · exact ⟨_, _, _, _, _, rfl, by simp, by simp, by simp, le_refl _,
              bounded_setData _ _ _ hb⟩
          · exact ⟨_, _, _, _, _, rfl, rfl, by simp, by simp, le_refl _, hb⟩
        | some tag =>
          simp only
          cases hch : (v.setElm (some elm.h)).children with
          | none =>
            simp only
            obtain ⟨st1, ev1, hf, hn⟩ := hydrateFinish_ok (v.setElm (some elm.h)) elm st []
            exact ⟨_, _, _, _, _, hf, rfl, by simp, by simp, by omega, by rw [hn]; exact hb⟩
          | some cs =>
            simp only
            have hcs : v.children = some cs := by simpa using hch
            have hlt : ∀ c ∈ cs, c.height ≤ d := fun c hc => by
              have := height_children v cs hcs c hc
              omega
            split
            · obtain ⟨v1, kids1, st1, ev1, hrun, hinfo, hle, hb1⟩ :=
                createChildren_ok (createElm d) (v.setElm (some elm.h)) elm st
                  (fun cs0 h0 c hc => createElm_spec d c (by
                    rw [hch] at h0
                    simp only [Option.some.injEq] at h0
                    subst h0
                    exact hlt c hc)) hbnd.2
              obtain ⟨st2, ev2, hf, hn⟩ := hydrateFinish_ok v1 (elm.setKids kids1) st1 ev1
              rw [hrun]
              simp only
              refine ⟨_, _, _, _, _, hf, by simp, ?_, ?_, by omega, ?_⟩
              · show v1.info.elm = _
                rw [hinfo]; simp [VNode.setElm]
              · show v1.info.key = _
                rw [hinfo]; simp [VNode.setElm, VNode.key]
              · rw [hn]
                exact bounded_setKids _ _ _ (by omega) hb1
            · cases hhtml : (v.setElm (some elm.h)).info.data.bind VData.innerHTML with
              | some html =>
                simp only
                split
                · exact ⟨_, _, _, _, _, rfl, rfl, by simp, by simp, le_refl _, hb⟩
                · obtain ⟨st1, ev1, hf, hn⟩ := hydrateFinish_ok (v.setElm (some elm.h)) elm st []
                  exact ⟨_, _, _, _, _, hf, rfl, by simp, by simp, by omega, by rw [hn]; exact hb⟩
              | none =>
                simp only
                obtain ⟨b, cs1, done, ahead, st1, ev1, hrun, hle, hb1⟩ :=
                  hydrateChildrenLoop_ok (hydrate d) cs elm.kids st
                    (fun c hc => ih c (hlt c hc)) hbnd.2
                rw [hrun]
                simp only
                split
                · exact ⟨_, _, _, _, _, rfl, by simp, by simp, by simp, hle,
                    bounded_setKids _ _ _ (by omega) hb1⟩
                · obtain ⟨st2, ev2, hf, hn⟩ := hydrateFinish_ok
                    ((v.setElm (some elm.h)).setChildren (some cs1))
                    (elm.setKids (done ++ ahead)) st1 ev1
                  refine ⟨_, _, _, _, _, hf, by simp, by simp, by simp, by omega, ?_⟩
                  rw [hn]
                  exact bounded_setKids _ _ _ (by omega) hb1

/-! ## `patchVnode` returns -/

theorem height_congr (a b : VNode) (h : a.children = b.children) : a.height = b.height := by
  cases a with
  | mk i cs =>
    cases b with
    | mk j ds =>
      simp only [VNode.children] at h
      subst h
      cases cs <;> rfl

theorem target_factory (n : VNode) (b : Bool) (e : Option Handle) :
    ((cloneIfUsed n b).setElm e).info.asyncFactory = n.info.asyncFactory := by
  unfold cloneIfUsed cloneVNode
  split <;> cases n <;> rfl

theorem domSetTextContent_ok (sub : LNode) (t : String) (st : St)
    (hb : LNode.bounded st.next sub = true) :
    (domSetTextContent sub t st).1.h = sub.h ∧
      st.next ≤ (domSetTextContent sub t st).2.1.next ∧
      LNode.bounded (domSetTextContent sub t st).2.1.next (domSetTextContent sub t st).1 = true := by
  have hbnd := (bounded_iff _ _).1 hb
  unfold domSetTextContent
  split
  · split
    · exact ⟨by simp, le_refl _, bounded_setKids _ _ _ hbnd.1 (by simp)⟩
    · refine ⟨by simp, by simp, bounded_setKids _ _ _ (by show sub.h < st.next + 1; omega) ?_⟩
      intro k hk
      have : k = LNode.mk st.next .text t [] := by simpa using hk
      rw [this]
      simp [LNode.bounded, LNode.boundedL]
  · exact ⟨by simp, le_refl _, bounded_setData _ _ _ hb⟩

/-- The loop of `addVnodes` without a reference node returns. -/
theorem addVnodesLoop_append_ok (ce : CreateElm) (p : Handle) (e : Int) :
    ∀ (Mn Pn : List VNode) (kids : List LNode) (st : St) (i : Int),
      (∀ v ∈ Mn, CeSpec ce v) → (Pn.length : Int) = i → i + Mn.length = e + 1 →
      (∀ k ∈ kids, LNode.bounded st.next k = true) →
      ∃ ch1 kids1 st1 tr ev,
        addVnodesLoop ce p none e Mn.length i (Pn ++ Mn) kids st = .ok (ch1, kids1, st1, tr, ev) ∧
        st.next ≤ st1.next ∧ (∀ k ∈ kids1, LNode.bounded st1.next k = true) := by
  intro Mn
  induction Mn with
  | nil =>
    intro Pn kids st i _ _ _ hb
    exact ⟨Pn ++ [], kids, st, [], [], rfl, le_refl _, hb⟩
  | cons v Mn ih =>
    intro Pn kids st i hce hP hM hb
    obtain ⟨n1, node, st1, ev, _, hnh, _, hlt, hnb, hrun⟩ :=
      hce v (List.mem_cons_self _ _) true st
    have hfresh : node.h ∉ kids.map LNode.h := by
      rw [hnh]; exact bounded_not_mem st.next _ hb st.next (le_refl _)
    have hb1 : ∀ k ∈ kids ++ [node], LNode.bounded st1.next k = true := by
      intro k hk
      rcases List.mem_append.1 hk with h | h
      · exact bounded_mono _ _ (by omega) k (hb k h)
      · have : k = node := by simpa using h
        rw [this]; exact hnb
    simp only [List.length_cons] at hM
    push_cast at hM
    obtain ⟨ch1, kids1, st2, tr, ev3, hrec, hle, hb2⟩ :=
      ih (Pn ++ [n1]) (kids ++ [node]) st1 (i + 1)
        (fun w hw => hce w (List.mem_cons_of_mem _ hw))
        (by simp only [List.length_append, List.length_singleton]; push_cast; omega)
        (by omega) hb1
    have hie : i ≤ e := by omega
    have hget : getAt (Pn ++ v :: Mn) i = some v := getAt_append_mid Pn v _ i hP
    have hset : setAt (Pn ++ v :: Mn) i n1 = (Pn ++ [n1]) ++ Mn := by
      rw [setAt_append_mid Pn v n1 _ i hP]; simp
    refine ⟨ch1, kids1, st2, UEv.create i :: tr,
      (ev ++ [.appendChild p node.h]) ++ ev3, ?_, by omega, hb2⟩
    rw [List.length_cons]
    simp only [addVnodesLoop, hie, if_true, hget, hrun, insert_append p kids node hfresh, hset,
      hrec]

/-- On the rendering of a well-formed old tree, with depth for both trees,
`patchVnode` returns: it keeps the live node, hands its handle to the new
node, and takes fresh handles only. -/
theorem patchVnode_spec : ∀ (d : Nat) (hasOwner : Bool) (o n : VNode),
    o.wellFormed = true → n.wellFormed = true → o.height ≤ d → n.height ≤ d →
    (o.info.isAsyncPlaceholder = true → n.info.asyncFactory.isSome = true) →
    PvSpec (patchVnode d hasOwner false) o n := by
  intro d
  induction d with
  | zero =>
    intro _ o _ _ _ ho _ _
    have := height_pos o
    omega
  | succ d ih =>
    intro hasOwner o n hwo hwn hho hhn hasync sub st hm hb
    have helm := mirrors_elm sub o hm
    have hbnd := (bounded_iff _ _).1 hb
    have hvelm : ((cloneIfUsed n hasOwner).setElm o.elm).elm = o.elm := by simp
    have hvkey : ((cloneIfUsed n hasOwner).setElm o.elm).key = n.key := by simp
    have hvch : ((cloneIfUsed n hasOwner).setElm o.elm).children = n.children := by simp
    have hvf := target_factory n hasOwner o.elm
    have hvh : ((cloneIfUsed n hasOwner).setElm o.elm).height = n.height :=
      height_congr _ _ hvch
    unfold patchVnode
    simp only []
    generalize (cloneIfUsed n hasOwner).setElm o.elm = vnode at *
    by_cases hA : o.info.isAsyncPlaceholder = true
    · obtain ⟨f, hf⟩ := Option.isSome_iff_exists.1 (hasync hA)
      rw [← hvf] at hf
      simp only [hA, if_true, hf]
      by_cases hr : f.resolved = true
      · obtain ⟨b, v1, n1, st1, ev, hrun, h1, h2, h3, h4, h5⟩ :=
          hydrate_ok (d + 1) vnode (by omega) sub st hb
        simp only [hr, if_true, hrun]
        exact ⟨_, _, _, _, rfl, h1, by rw [h2, helm], by rw [h3, hvkey], h4, h5⟩
      · simp only [hr, Bool.false_eq_true, if_false]
        exact ⟨_, _, _, _, rfl, rfl, by cases vnode; exact hvelm,
          by cases vnode; exact hvkey, le_refl _, hb⟩
    · simp only [hA, Bool.false_eq_true, if_false]
      split
      · exact ⟨_, _, _, _, rfl, rfl, by cases vnode; exact hvelm, by cases vnode; exact hvkey,
          le_refl _, hb⟩
      · cases htx : vnode.info.text with
        | some t =>
          simp only
          have hd := domSetTextContent_ok sub t st hb
          split
          · exact ⟨_, _, _, _, rfl, hd.1, hvelm, hvkey, hd.2.1, hd.2.2⟩
          · exact ⟨_, _, _, _, rfl, rfl, hvelm, hvkey, le_refl _, hb⟩
        | none =>
          simp only
          have hd := domSetTextContent_ok sub "" st hb
          cases hoc : o.children with
          | none =>
            cases hnc : vnode.children with
            | none =>
              simp only
              split
              · exact ⟨_, _, _, _, rfl, hd.1, hvelm, hvkey, hd.2.1, hd.2.2⟩
              · exact ⟨_, _, _, _, rfl, rfl, hvelm, hvkey, le_refl _, hb⟩
            | some ch =>
              simp only
              rw [hvch] at hnc
              have hcl : ∃ c : LNode × St × List Ev,
                  (if o.info.text.isSome = true then domSetTextContent sub "" st
                    else (sub, st, [])) = c ∧ c.1.h = sub.h ∧ st.next ≤ c.2.1.next ∧
                    LNode.bounded c.2.1.next c.1 = true := by
                split
                · exact ⟨_, rfl, hd⟩
                · exact ⟨_, rfl, rfl, le_refl _, hb⟩
              obtain ⟨c, hc, hc1, hc2, hc3⟩ := hcl
              rw [hc]
              have hcb := (bounded_iff _ _).1 hc3
              obtain ⟨ch1, kids1, st1, tr, ev, hrun, hle, hb1⟩ :=
                addVnodesLoop_append_ok (createElm d) sub.h ((ch.length : Int) - 1) ch []
                  c.1.kids c.2.1 0
                  (fun v hv => createElm_spec d v (by
                    have := height_children n ch hnc v hv
                    omega)) rfl (by omega) hcb.2
              have hfuel : ((ch.length : Int) - 1 - 0 + 1).toNat = ch.length := by omega
              unfold addVnodes
              rw [hfuel]
              rw [List.nil_append] at hrun
              simp only [hrun]
              exact ⟨_, _, _, _, rfl, by simp [hc1], by simp [hvelm], by simp [hvkey],
                by omega, bounded_setKids _ _ _ (by omega) hb1⟩
          | some oldCh =>
            obtain ⟨hnd, hml⟩ := mirrors_children sub o oldCh hm hoc
            have hoh : ∀ c ∈ oldCh, c.height ≤ d := fun c hc => by
              have := height_children o oldCh hoc c hc
              omega
            have hwoc := wellFormed_children o oldCh hwo hoc
            cases hnc : vnode.children with
            | none =>
              simp only
              obtain ⟨ev, hrun⟩ := removeVnodesLoop_ok d sub.h [] [] [] ((oldCh.length : Int) - 1)
                (oldCh.map some) [] sub.kids 0
                (by rw [reduceOption_map_some]
                    exact fun c hc => ⟨hoh c hc, wellFormed_prompt c (hwoc.2 c hc)⟩) rfl
                (by simp) (by rw [reduceOption_map_some]; exact mirrorsL_map _ _ hml)
                (by simpa using hnd)
              have hfuel : ((oldCh.length : Int) - 1 - 0 + 1).toNat = (oldCh.map some).length := by
                simp
              unfold removeVnodes
              rw [hfuel]
              simp only [List.nil_append, List.append_nil] at hrun
              simp only [hrun]
              exact ⟨_, _, _, _, rfl, by simp, hvelm, hvkey, le_refl _,
                bounded_setKids _ _ _ hbnd.1 (by simp)⟩
            | some ch =>
              simp only
              rw [hvch] at hnc
              have hwnc := wellFormed_children n ch hwn hnc
              have hnh : ∀ c ∈ ch, c.height ≤ d := fun c hc => by
                have := height_children n ch hnc c hc
                omega
              have H : Hyp (patchVnode d true false) (createElm d) oldCh ch :=
                { hno := fun c hc => wellFormed_nodeOk c (hwoc.2 c hc)
                  hnn := fun c hc => wellFormed_nodeOk c (hwnc.2 c hc)
                  hkeys := plainKeys_keys ch hwnc.1
                  hpv := fun c hc c1 hc1 hs =>
                    ih true c c1 (hwoc.2 c hc) (hwnc.2 c1 hc1) (hoh c hc) (hnh c1 hc1)
                      (fun ha => by
                        rw [← sameVnode_factory c c1 hs]
                        exact wellFormed_nodeOk c (hwoc.2 c hc) ha)
                  hce := fun c hc => createElm_spec d c (hnh c hc) }
              obtain ⟨s, hrun, hdone⟩ := updateChildrenWith_ok (patchVnode d true false)
                (createElm d) d sub.h oldCh ch H hwnc.1
                (fun c hc => ⟨hoh c hc, wellFormed_prompt c (hwoc.2 c hc)⟩) sub.kids st (mirrorsL_map _ _ hml) hnd hbnd.2
                (mirrorsL_pair _ _ hml hnd)
              simp only [hrun]
              exact ⟨_, _, _, _, rfl, by simp, by simp [hvelm], by simp [hvkey], hdone.fresh,
                bounded_setKids _ _ _ (by have := hdone.fresh; omega) hdone.bnd⟩

/-! ## `updateChildren` on well-formed input -/

/-- On rendered and well-formed input `patchVnode` and `createElm` behave on
the nodes of the two arrays. -/
theorem rendered_real (d : Nat) (olds news : List VNode) (kids : List LNode) (st : St)
    (hr : Rendered d olds news kids st) :
    (∀ o ∈ olds, nodeOk o) ∧ (∀ n ∈ news, nodeOk n) ∧
      (∀ o ∈ olds, ∀ n ∈ news, sameVnode o n = .ok true →
        PvSpec (patchVnode d true false) o n) ∧
      (∀ n ∈ news, CeSpec (createElm d) n) :=
  have hwo := (wellFormedL_iff olds).1 hr.wfOld
  have hwn := (wellFormedL_iff news).1 hr.wfNew
  have hho : ∀ o ∈ olds, o.height ≤ d := fun o ho => le_trans (heightL_le olds o ho) hr.hOld
  have hhn : ∀ n ∈ news, n.height ≤ d := fun n hn => le_trans (heightL_le news n hn) hr.hNew
  ⟨fun o ho => wellFormed_nodeOk o (hwo o ho), fun n hn => wellFormed_nodeOk n (hwn n hn),
    fun o ho n hn hs =>
      patchVnode_spec d true o n (hwo o ho) (hwn n hn) (hho o ho) (hhn n hn) (fun ha => by
        rw [← sameVnode_factory o n hs]
        exact wellFormed_nodeOk o (hwo o ho) ha),
    fun n hn => createElm_spec d n (hhn n hn)⟩

theorem rendered_old (d : Nat) (olds news : List VNode) (kids : List LNode) (st : St)
    (hr : Rendered d olds news kids st) :
    ∀ o ∈ olds, o.height ≤ d ∧ o.rmDeferred = false :=
  fun o ho => ⟨le_trans (heightL_le olds o ho) hr.hOld,
    wellFormed_prompt o ((wellFormedL_iff olds).1 hr.wfOld o ho)⟩

theorem hyp_real (d : Nat) (olds news : List VNode) (kids : List LNode) (st : St)
    (hr : Ready d olds news kids st) :
    Hyp (patchVnode d true false) (createElm d) olds news :=
  have h := rendered_real d olds news kids st hr.toRendered
  { hno := h.1
    hnn := h.2.1
    hkeys := plainKeys_keys news hr.keysNew
    hpv := h.2.2.1
    hce := h.2.2.2 }

/-- On well-formed input and with moves allowed `updateChildren` returns, and
the exit facts hold of its result. -/
theorem updateChildren_ok (d : Nat) (p : Handle) (olds news : List VNode) (kids : List LNode)
    (st : St) (hr : Ready d olds news kids st) (hpk : plainKeys news = true) :
    ∃ s, updateChildren d p kids (olds.map some) news false st = .ok s ∧
      Done olds news st.next s :=
  updateChildrenWith_ok (patchVnode d true false) (createElm d) d p olds news
    (hyp_real d olds news kids st hr) hpk
    (rendered_old d olds news kids st hr.toRendered) kids st
    (mirrorsL_map olds kids hr.mir) hr.nodup ((boundedL_iff _ _).1 hr.bnd)
    (mirrorsL_pair olds kids hr.mir hr.nodup)

theorem mem_newIdxs_iff (tr : List UEv) (j : Int) :
    j ∈ newIdxs tr ↔ (∃ i, UEv.patch i j ∈ tr) ∨ UEv.create j ∈ tr := by
  unfold newIdxs
  rw [List.mem_filterMap]
  constructor
  · rintro ⟨e, he, hj⟩
    cases e with
    | patch a b =>
      simp only [Option.some.injEq] at hj
      subst hj
      exact Or.inl ⟨a, he⟩
    | create b =>
      simp only [Option.some.injEq] at hj
      subst hj
      exact Or.inr he
    | move a b => cases hj
    | remove a => cases hj
  · rintro (⟨i, h⟩ | h)
    · exact ⟨_, h, rfl⟩
    · exact ⟨_, h, rfl⟩

theorem mem_oldIdxs_iff (tr : List UEv) (i : Int) :
    i ∈ oldIdxs tr ↔ (∃ j, UEv.patch i j ∈ tr) ∨ UEv.remove i ∈ tr := by
  unfold oldIdxs
  rw [List.mem_filterMap]
  constructor
  · rintro ⟨e, he, hj⟩
    cases e with
    | patch a b =>
      simp only [Option.some.injEq] at hj
      subst hj
      exact Or.inl ⟨b, he⟩
    | remove b =>
      simp only [Option.some.injEq] at hj
      subst hj
      exact Or.inr he
    | move a b => cases hj
    | create a => cases hj
  · rintro (⟨j, h⟩ | h)
    · exact ⟨_, h, rfl⟩
    · exact ⟨_, h, rfl⟩

theorem count_create_le (tr : List UEv) (j : Int) :
    tr.count (UEv.create j) ≤ (newIdxs tr).count j := by
  induction tr with
  | nil => simp [newIdxs]
  | cons e tr ih =>
    have hcons : newIdxs (e :: tr) = newIdxs [e] ++ newIdxs tr := newIdxs_append [e] tr
    rw [hcons, List.count_append, List.count_cons]
    by_cases he : e = UEv.create j
    · subst he
      have h1 : newIdxs [UEv.create j] = [j] := rfl
      rw [h1]
      simp only [List.count_singleton, beq_self_eq_true, if_true]
      omega
    · have : (e == UEv.create j) = false := by simpa using he
      simp only [this, Bool.false_eq_true, if_false]
      omega

theorem count_remove_le (tr : List UEv) (i : Int) :
    tr.count (UEv.remove i) ≤ (oldIdxs tr).count i := by
  induction tr with
  | nil => simp [oldIdxs]
  | cons e tr ih =>
    have hcons : oldIdxs (e :: tr) = oldIdxs [e] ++ oldIdxs tr := oldIdxs_append [e] tr
    rw [hcons, List.count_append, List.count_cons]
    by_cases he : e = UEv.remove i
    · subst he
      have h1 : oldIdxs [UEv.remove i] = [i] := rfl
      rw [h1]
      simp only [List.count_singleton, beq_self_eq_true, if_true]
      omega
    · have : (e == UEv.remove i) = false := by simpa using he
      simp only [this, Bool.false_eq_true, if_false]
      omega

theorem count_one_of_mem {α : Type} [DecidableEq α] (l : List α) (x : α) (hn : l.Nodup)
    (hx : x ∈ l) : l.count x = 1 :=
  List.count_eq_one_of_mem hn hx

/-! ## Unfolding the loop one iteration at a time -/

theorem ucLoop_succ (pv : PatchVnode) (ce : CreateElm) (p : Handle) (cm : Bool) (n : Nat)
    (s s1 : UState) (hc : s.oldStartIdx ≤ s.oldEndIdx ∧ s.newStartIdx ≤ s.newEndIdx)
    (hs : ucStep pv ce p cm s = .ok s1) :
    ucLoop pv ce p cm (n + 1) s = ucLoop pv ce p cm n s1 := by
  simp [ucLoop, hc, hs]

theorem ucLoop_fail (pv : PatchVnode) (ce : CreateElm) (p : Handle) (cm : Bool) (n : Nat)
    (s : UState) (e : Err) (hc : s.oldStartIdx ≤ s.oldEndIdx ∧ s.newStartIdx ≤ s.newEndIdx)
    (hs : ucStep pv ce p cm s = .error e) :
    ucLoop pv ce p cm (n + 1) s = .error e := by
  simp [ucLoop, hc, hs]

theorem ucLoop_exit (pv : PatchVnode) (ce : CreateElm) (p : Handle) (cm : Bool) (n : Nat)
    (s : UState) (hc : ¬ (s.oldStartIdx ≤ s.oldEndIdx ∧ s.newStartIdx ≤ s.newEndIdx)) :
    ucLoop pv ce p cm n s = .ok s := by
  cases n <;> simp [ucLoop, hc]

/-- The function `updateChildren` is its loop from the state at entry,
followed by the code after the loop. -/
theorem updateChildren_run (d : Nat) (p : Handle) (kids : List LNode)
    (oldCh : List (Option VNode)) (newCh : List VNode) (ro : Bool) (st : St) (n : Nat)
    (s0 : UState) (cm : Bool)
    (hs : s0 = { kids := kids, oldCh := oldCh, newCh := newCh,
                 oldStartIdx := 0, oldEndIdx := (oldCh.length : Int) - 1,
                 newStartIdx := 0, newEndIdx := (newCh.length : Int) - 1,
                 oldKeyToIdx := none, st := st, trace := [], log := [] })
    (hn : oldCh.length + newCh.length = n) (hcm : cm = !ro) :
    updateChildren d p kids oldCh newCh ro st =
      match ucLoop (patchVnode d true false) (createElm d) p cm n s0 with
      | .error err => .error err
      | .ok s => ucFinish (createElm d) d p s := by
  subst hs hn hcm
  rfl

/-! ## What one iteration adds to the trace -/

theorem patchAt_shape (pv : PatchVnode) (s s1 : UState) (o n : VNode) (i j : Int)
    (h : patchAt pv s o i n j = .ok s1) :
    s1.trace = s.trace ++ [.patch i j] ∧ s1.oldCh = s.oldCh ∧
      s1.oldKeyToIdx = s.oldKeyToIdx := by
  unfold patchAt at h
  split at h
  · cases h
  · split at h
    · cases h
    · split at h
      · cases h
      · simp only [Except.ok.injEq] at h
        subst h
        exact ⟨rfl, rfl, rfl⟩

theorem moveAt_shape (p : Handle) (cm : Bool) (s s1 : UState) (e ref : Option Handle)
    (h : moveAt p cm s e ref = .ok s1) :
    s1.oldCh = s.oldCh ∧ s1.newCh = s.newCh ∧ s1.oldKeyToIdx = s.oldKeyToIdx ∧ s1.st = s.st ∧
      (s1.trace = s.trace ∨ ∃ x, s1.trace = s.trace ++ [.move x ref]) := by
  unfold moveAt at h
  split at h
  · split at h
    · cases h
    · split at h
      · cases h
      · split at h
        · cases h
        · simp only [Except.ok.injEq] at h
          subst h
          exact ⟨rfl, rfl, rfl, rfl, Or.inr ⟨_, rfl⟩⟩
  · simp only [Except.ok.injEq] at h
    subst h
    exact ⟨rfl, rfl, rfl, rfl, Or.inl rfl⟩

theorem createAt_shape (ce : CreateElm) (p : Handle) (s s1 : UState) (n : VNode) (j : Int)
    (ref : Option Handle) (h : createAt ce p s n j ref = .ok s1) :
    s1.trace = s.trace ++ [.create j] ∧ s1.oldCh = s.oldCh ∧
      s1.oldKeyToIdx = s.oldKeyToIdx := by
  unfold createAt at h
  split at h
  · cases h
  · simp only [Except.ok.injEq] at h
    subst h
    exact ⟨rfl, rfl, rfl⟩

/-- An iteration whose old start node and new start node are the same node:
the pair is patched and both start indices advance. -/
theorem ucStep_front (pv : PatchVnode) (ce : CreateElm) (p : Handle) (cm : Bool)
    (olds news : List VNode) (b0 : Nat)
    (hpv : ∀ o ∈ olds, ∀ n ∈ news, sameVnode o n = .ok true → PvSpec pv o n)
    (s : UState) (hi : LoopInv olds news b0 s)
    (hle : s.oldStartIdx ≤ s.oldEndIdx) (hnle : s.newStartIdx ≤ s.newEndIdx)
    (o n : VNode) (ho : slotAt s.oldCh s.oldStartIdx = some o)
    (hn : getAt s.newCh s.newStartIdx = some n)
    (hoe : slotAt s.oldCh s.oldEndIdx ≠ none)
    (hsame : sameVnode o n = .ok true) :
    ∃ s1, ucStep pv ce p cm s = .ok s1 ∧ LoopInv olds news b0 s1 ∧
      s1.oldStartIdx = s.oldStartIdx + 1 ∧ s1.newStartIdx = s.newStartIdx + 1 ∧
      s1.oldEndIdx = s.oldEndIdx ∧ s1.newEndIdx = s.newEndIdx ∧
      s1.trace = s.trace ++ [.patch s.oldStartIdx s.newStartIdx] ∧
      s1.oldCh = s.oldCh ∧ s1.oldKeyToIdx = s.oldKeyToIdx := by
  have hc := hi.core
  obtain ⟨oe, hoe1⟩ := Option.ne_none_iff_exists'.1 hoe
  obtain ⟨ne, hne⟩ := getAt_of_range s.newCh s.newEndIdx (by have := hc.ns0; omega) (by
    have := hc.ne1; have := hc.lenN; omega)
  have hom := olds_mem_of_slot olds news b0 s hc _ o ho
  have hnm := news_mem_of_mid olds news b0 s hc _ n (le_refl _) hnle hn
  obtain ⟨s1, hrun, hc1, hd1, hnext⟩ := step_b3 pv olds news b0 s hc hi.dom o n ho hn
    hle hnle hsame (hpv o hom n hnm hsame)
  have hp := patchAt_ptrs _ _ _ _ _ _ _ hrun
  have hsh := patchAt_shape _ _ _ _ _ _ _ hrun
  refine ⟨{ s1 with oldStartIdx := s.oldStartIdx + 1, newStartIdx := s.newStartIdx + 1 }, ?_,
    ⟨hc1, hd1, le_trans hi.fresh hnext⟩, rfl, rfl, hp.2.1, hp.2.2.2, hsh.1, hsh.2.1, hsh.2.2⟩
  unfold ucStep
  simp only [ho, hoe1, hn, hne, hsame, hrun]

/-- An iteration whose start nodes differ and whose old end node and new end
node are the same node: the pair is patched and both end indices retreat. -/
theorem ucStep_back (pv : PatchVnode) (ce : CreateElm) (p : Handle) (cm : Bool)
    (olds news : List VNode) (b0 : Nat)
    (hpv : ∀ o ∈ olds, ∀ n ∈ news, sameVnode o n = .ok true → PvSpec pv o n)
    (s : UState) (hi : LoopInv olds news b0 s)
    (hle : s.oldStartIdx ≤ s.oldEndIdx) (hnle : s.newStartIdx ≤ s.newEndIdx)
    (os ns o n : VNode) (hos : slotAt s.oldCh s.oldStartIdx = some os)
    (hns : getAt s.newCh s.newStartIdx = some ns)
    (hdiff : sameVnode os ns = .ok false)
    (ho : slotAt s.oldCh s.oldEndIdx = some o)
    (hn : getAt s.newCh s.newEndIdx = some n)
    (hsame : sameVnode o n = .ok true) :
    ∃ s1, ucStep pv ce p cm s = .ok s1 ∧ LoopInv olds news b0 s1 ∧
      s1.oldStartIdx = s.oldStartIdx ∧ s1.newStartIdx = s.newStartIdx ∧
      s1.oldEndIdx = s.oldEndIdx - 1 ∧ s1.newEndIdx = s.newEndIdx - 1 ∧
      s1.trace = s.trace ++ [.patch s.oldEndIdx s.newEndIdx] ∧
      s1.oldCh = s.oldCh ∧ s1.oldKeyToIdx = s.oldKeyToIdx := by
  have hc := hi.core
  have hom := olds_mem_of_slot olds news b0 s hc _ o ho
  have hnm := news_mem_of_mid olds news b0 s hc _ n hnle (le_refl _) hn
  obtain ⟨s1, hrun, hc1, hd1, hnext⟩ := step_b4 pv olds news b0 s hc hi.dom o n ho hn
    hle hnle hsame (hpv o hom n hnm hsame)
  have hp := patchAt_ptrs _ _ _ _ _ _ _ hrun
  have hsh := patchAt_shape _ _ _ _ _ _ _ hrun
  refine ⟨{ s1 with oldEndIdx := s.oldEndIdx - 1, newEndIdx := s.newEndIdx - 1 }, ?_,
    ⟨hc1, hd1, le_trans hi.fresh hnext⟩, hp.1, hp.2.2.1, rfl, rfl, hsh.1, hsh.2.1, hsh.2.2⟩
  unfold ucStep
  simp only [hos, ho, hns, hn, hdiff, hsame, hrun]

/-! ## Runs that only patch in place -/

theorem getAt_map {α β : Type} (f : α → β) (l : List α) (i : Int) :
    getAt (l.map f) i = (getAt l i).map f := by
  unfold getAt
  split
  · rfl
  · simp

theorem getAt_natCast {α : Type} (l : List α) (n : Nat) : getAt l (n : Int) = l[n]? := by
  unfold getAt
  have : ¬ ((n : Int) < 0) := by omega
  simp [this]

theorem list_ext_getAt {α : Type} (l1 l2 : List α) (h : ∀ i : Int, getAt l1 i = getAt l2 i) :
    l1 = l2 := by
  apply List.ext_getElem?
  intro n
  have := h (n : Int)
  rwa [getAt_natCast, getAt_natCast] at this

theorem map_some_inj {α : Type} (l1 l2 : List α) (h : l1.map some = l2.map some) : l1 = l2 := by
  have := congrArg List.reduceOption h
  rwa [reduceOption_map_some, reduceOption_map_some] at this

theorem range_patch_succ (t : Nat) :
    (List.range (t + 1)).map (fun (u : Nat) => UEv.patch u u)
      = (List.range t).map (fun (u : Nat) => UEv.patch u u) ++ [UEv.patch t t] := by
  rw [List.range_succ, List.map_append]
  rfl

/-- When every old child is the same node as the new child at its index, the
loop patches the pairs in order and exits with the old children used up. -/
theorem ucLoop_append (pv : PatchVnode) (ce : CreateElm) (p : Handle) (cm : Bool)
    (olds news : List VNode) (b0 : Nat)
    (hpv : ∀ o ∈ olds, ∀ n ∈ news, sameVnode o n = .ok true → PvSpec pv o n)
    (hsame : ∀ (t : Int) (o n : VNode), getAt olds t = some o → getAt news t = some n →
      sameVnode o n = .ok true)
    (hlen : olds.length ≤ news.length) :
    ∀ (k fuel : Nat) (s : UState) (t : Nat), LoopInv olds news b0 s →
      s.oldCh = olds.map some → s.oldStartIdx = t → s.newStartIdx = t →
      s.oldEndIdx = (olds.length : Int) - 1 → s.newEndIdx = (news.length : Int) - 1 →
      t + k = olds.length → k ≤ fuel →
      s.trace = (List.range t).map (fun (u : Nat) => UEv.patch u u) →
      ∃ s1, ucLoop pv ce p cm fuel s = .ok s1 ∧ LoopInv olds news b0 s1 ∧
        s1.oldStartIdx = olds.length ∧ s1.newStartIdx = olds.length ∧
        s1.oldEndIdx = (olds.length : Int) - 1 ∧ s1.newEndIdx = (news.length : Int) - 1 ∧
        s1.trace = (List.range olds.length).map (fun (u : Nat) => UEv.patch u u) := by
  intro k
  induction k with
  | zero =>
    intro fuel s t hi _ hos hns hoe hne ht _ htr
    have htl : t = olds.length := by omega
    subst htl
    refine ⟨s, ucLoop_exit _ _ _ _ _ _ (by omega), hi, hos, hns, hoe, hne, htr⟩
  | succ k ih =>
    intro fuel s t hi hO hos hns hoe hne ht hf htr
    obtain ⟨fuel1, rfl⟩ : ∃ f, fuel = f + 1 := ⟨fuel - 1, by omega⟩
    have hc := hi.core
    obtain ⟨o, ho⟩ := getAt_of_range olds (t : Int) (by omega) (by omega)
    obtain ⟨n, hn⟩ := getAt_of_range news (t : Int) (by omega) (by omega)
    obtain ⟨oe, hoe1⟩ := getAt_of_range olds ((olds.length : Int) - 1) (by omega) (by omega)
    have hle : s.oldStartIdx ≤ s.oldEndIdx := by omega
    have hnle : s.newStartIdx ≤ s.newEndIdx := by omega
    have hso : slotAt s.oldCh s.oldStartIdx = some o := by
      rw [hO, slotAt_map_some, hos]; exact ho
    have hsn : getAt s.newCh s.newStartIdx = some n := by
      rw [hc.newMid _ (le_refl _) hnle, hns]; exact hn
    have hse : slotAt s.oldCh s.oldEndIdx ≠ none := by
      rw [hO, slotAt_map_some, hoe, hoe1]; simp
    obtain ⟨s1, hrun, hi1, h1, h2, h3, h4, h5, h6, _⟩ :=
      ucStep_front pv ce p cm olds news b0 hpv s hi hle hnle o n hso hsn hse (hsame t o n ho hn)
    obtain ⟨s2, hrun2, hres⟩ := ih fuel1 s1 (t + 1) hi1 (by rw [h6, hO])
      (by rw [h1, hos]; push_cast; rfl) (by rw [h2, hns]; push_cast; rfl)
      (by rw [h3, hoe]) (by rw [h4, hne]) (by omega) (by omega)
      (by rw [h5, htr, hos, hns, range_patch_succ])
    exact ⟨s2, by rw [ucLoop_succ _ _ _ _ _ _ _ ⟨hle, hnle⟩ hrun]; exact hrun2, hres⟩

theorem forall2_getAt {α β : Type} (R : α → β → Prop) (l1 : List α) (l2 : List β)
    (h : List.Forall₂ R l1 l2) (i : Int) (a : α) (b : β) (ha : getAt l1 i = some a)
    (hb : getAt l2 i = some b) : R a b := by
  obtain ⟨_, hget⟩ := List.forall₂_iff_get.1 h
  unfold getAt at ha hb
  split at ha
  · cases ha
  · rename_i h0
    simp only [h0, if_false] at hb
    obtain ⟨h1, e1⟩ := List.getElem?_eq_some_iff.1 ha
    obtain ⟨h2, e2⟩ := List.getElem?_eq_some_iff.1 hb
    have := hget i.toNat h1 h2
    simp only [List.get_eq_getElem] at this
    rw [e1, e2] at this
    exact this

/-- Pure append, the run: the old children are patched against the new
children at the same index and the remaining new children are created at the
end of the parent. -/
theorem updateChildrenWith_append (pv : PatchVnode) (ce : CreateElm) (d : Nat) (p : Handle)
    (olds A B : List VNode)
    (hpv : ∀ o ∈ olds, ∀ n ∈ A ++ B, sameVnode o n = .ok true → PvSpec pv o n)
    (hce : ∀ n ∈ A ++ B, CeSpec ce n)
    (hAB : List.Forall₂ (fun o n => sameVnode o n = .ok true) olds A)
    (kids : List LNode) (ro : Bool) (st : St)
    (hk : kids.map (fun k => some k.h) = olds.map VNode.elm)
    (hnd : (kids.map LNode.h).Nodup)
    (hb : ∀ k ∈ kids, LNode.bounded st.next k = true)
    (hm : ∀ v ∈ olds, ∀ k ∈ kids, v.elm = some k.h → mirrors k v = true) :
    ∃ s fresh, updateChildrenWith pv ce d p kids (olds.map some) (A ++ B) ro st = .ok s ∧
      s.trace = (List.range olds.length).map (fun (t : Nat) => UEv.patch t t) ++
        (List.range B.length).map (fun (t : Nat) => UEv.create ((olds.length : Int) + t)) ∧
      s.kids.map LNode.h = kids.map LNode.h ++ fresh ∧ fresh.length = B.length ∧
      (∀ x ∈ fresh, st.next ≤ x) ∧
      s.kids.map (fun k => some k.h) = s.newCh.map VNode.elm := by
  have hlenA : olds.length = A.length := List.Forall₂.length_eq hAB
  have hlen : olds.length ≤ (A ++ B).length := by
    rw [List.length_append]; omega
  have hsame : ∀ (t : Int) (o n : VNode), getAt olds t = some o → getAt (A ++ B) t = some n →
      sameVnode o n = .ok true := by
    intro t o n ho hn
    have hr := getAt_length_lt olds t o ho
    rw [getAt_append_left A B t (by omega)] at hn
    exact forall2_getAt _ olds A hAB t o n ho hn
  have hinit := loopInv_init olds (A ++ B) kids st hk hnd hb hm
  obtain ⟨s1, hloop, hi1, h1, h2, h3, h4, htr⟩ :=
    ucLoop_append pv ce p (!ro) olds (A ++ B) st.next hpv hsame hlen olds.length
      (olds.length + (A ++ B).length) _ 0 hinit rfl rfl rfl rfl rfl (by omega) (by omega) rfl
  have hc := hi1.core
  obtain ⟨Po, Mo, So, Pn, Mn, Sn, KP, KM, KS, hd⟩ := hi1.dom
  obtain ⟨Mn1, KN, st1, ev, hrun, hMo, hKM, hKN, hlen1, hx1, hst, hnd1, hb1⟩ :=
    ucFinish_add ce d p s1 Po Mo So Pn Mn Sn KP KM KS hd (by omega)
      (fun v hv => hce v (mid_mem_news olds (A ++ B) st.next s1 hc _ _ _ _ _ _ _ _ _ hd v hv))
  have hPn := hd.hPn
  have hMn := hd.hMn
  have hMl : Mn.length = B.length := by
    have : (A ++ B).length = A.length + B.length := List.length_append A B
    omega
  have hSn : Sn = [] := by
    apply List.eq_nil_of_length_eq_zero
    have h5 := hc.lenN
    rw [hd.hN] at h5
    simp only [List.length_append] at h5
    omega
  have hKS : KS = [] := by
    have := hd.domS
    rw [hSn] at this
    simpa using this
  -- the live nodes of the patched pairs keep the handles of the old children
  have hKP : KP.map LNode.h = kids.map LNode.h := by
    apply map_some_inj
    rw [List.map_map, List.map_map]
    show KP.map (fun k => some k.h) = kids.map (fun k => some k.h)
    rw [hd.domP, hk]
    apply list_ext_getAt
    intro i
    by_cases hi : 0 ≤ i ∧ i < olds.length
    · have hmem : UEv.patch i i ∈ s1.trace := by
        rw [htr, List.mem_map]
        exact ⟨i.toNat, List.mem_range.2 (by omega), by
          have : ((i.toNat : Nat) : Int) = i := by omega
          rw [this]⟩
      obtain ⟨o, n, v, ho, _, _, hv, hve⟩ := hc.trPatch i i hmem
      rw [getAt_map, getAt_map, ho]
      rw [hd.hN, getAt_append_left _ _ _ (by omega)] at hv
      rw [hv]
      simp only [Option.map_some', hve]
    · have e1 : getAt (Pn.map VNode.elm) i = none := by
        unfold getAt
        split
        · rfl
        · apply List.getElem?_eq_none
          simp only [List.length_map]
          omega
      have e2 : getAt (olds.map VNode.elm) i = none := by
        unfold getAt
        split
        · rfl
        · apply List.getElem?_eq_none
          simp only [List.length_map]
          omega
      rw [e1, e2]
  refine ⟨{ s1 with
      newCh := Pn ++ (Mn1 ++ Sn), kids := KP ++ (KN ++ KS), st := st1,
      trace := s1.trace ++
        (List.range Mn.length).map (fun t => UEv.create (s1.newStartIdx + (t : Nat))),
      log := s1.log ++ ev }, KN.map LNode.h, ?_, ?_, ?_, ?_, ?_, ?_⟩
  · unfold updateChildrenWith
    simp only [List.length_map]
    rw [hloop]
    exact hrun
  · show s1.trace ++ _ = _
    rw [htr, hMl, h2]
  · show (KP ++ (KN ++ KS)).map LNode.h = _
    rw [hKS, List.append_nil, List.map_append, hKP]
  · rw [List.length_map]
    have := congrArg List.length hKN
    simp only [List.length_map] at this
    omega
  · intro x hx
    obtain ⟨k, hk1, rfl⟩ := List.mem_map.1 hx
    have : some k.h ∈ Mn1.map VNode.elm := by
      rw [← hKN]
      exact List.mem_map.2 ⟨k, hk1, rfl⟩
    obtain ⟨v, hv, hve⟩ := List.mem_map.1 this
    obtain ⟨y, hy1, hy2⟩ := hx1 v hv
    rw [hy1] at hve
    simp only [Option.some.injEq] at hve
    rw [← hve]
    exact le_trans hi1.fresh hy2
  · show (KP ++ (KN ++ KS)).map _ = (Pn ++ (Mn1 ++ Sn)).map _
    simp only [List.map_append, hd.domP, hKN, hd.domS]

/-! ## Pure removal -/

/-- One iteration of the loop on a pure removal patches a surviving pair in
place, at the front or at the back. -/
theorem ucStep_removal (pv : PatchVnode) (ce : CreateElm) (p : Handle) (cm : Bool)
    (olds news : List VNode) (b0 : Nat) (H : Hyp pv ce olds news) (a r c : Nat)
    (hlo : olds.length = a + r + c) (hln : news.length = a + c)
    (hP : ∀ (t : Nat) (o n : VNode), t < a → getAt olds t = some o → getAt news t = some n →
      sameVnode o n = .ok true)
    (hS : ∀ (t : Nat) (o n : VNode), t < c → getAt olds ((a : Int) + r + t) = some o →
      getAt news ((a : Int) + t) = some n → sameVnode o n = .ok true)
    (hko : ∀ o ∈ olds, o.key.isSome = true) (hkn : (keysOf olds).Nodup)
    (s : UState) (hj : RemInv olds news b0 a r c s)
    (hle : s.oldStartIdx ≤ s.oldEndIdx) (hnle : s.newStartIdx ≤ s.newEndIdx) :
    ∃ s1, ucStep pv ce p cm s = .ok s1 ∧ RemInv olds news b0 a r c s1 ∧
      (s1.oldEndIdx - s1.oldStartIdx) + (s1.newEndIdx - s1.newStartIdx)
        < (s.oldEndIdx - s.oldStartIdx) + (s.newEndIdx - s.newStartIdx) := by
  have hi := hj.inv
  have hc := hi.core
  have h0 := hc.ns0
  have h1 := hc.ne1
  have h2 := hc.oe1
  have hs := hj.hs
  have he := hj.he
  obtain ⟨o, ho⟩ := getAt_of_range olds s.newStartIdx h0 (by omega)
  obtain ⟨n, hn⟩ := getAt_of_range news s.newStartIdx h0 (by omega)
  obtain ⟨oe, hoe⟩ := getAt_of_range olds s.oldEndIdx (by omega) (by omega)
  obtain ⟨ne, hne⟩ := getAt_of_range news s.newEndIdx (by omega) (by omega)
  have hso : slotAt s.oldCh s.oldStartIdx = some o := by
    rw [hj.hO, slotAt_map_some, hs]; exact ho
  have hsoe : slotAt s.oldCh s.oldEndIdx = some oe := by
    rw [hj.hO, slotAt_map_some]; exact hoe
  have hsn : getAt s.newCh s.newStartIdx = some n := by
    rw [hc.newMid _ (le_refl _) hnle]; exact hn
  have hsne : getAt s.newCh s.newEndIdx = some ne := by
    rw [hc.newMid _ hnle (le_refl _)]; exact hne
  have hom := getAt_mem _ _ _ ho
  obtain ⟨b, hb⟩ := sameVnode_total o n (H.hno o hom)
  cases b with
  | true =>
    obtain ⟨s1, hrun, hi1, e1, e2, e3, e4, e5, e6, _⟩ :=
      ucStep_front pv ce p cm olds news b0 H.hpv s hi hle hnle o n hso hsn
        (by rw [hsoe]; simp) hb
    -- the pair patched is a surviving pair
    have hr0 : s.newStartIdx < a ∨ r = 0 := by
      by_cases hlt : s.newStartIdx < a
      · exact Or.inl hlt
      · right
        obtain ⟨o2, ho2⟩ := getAt_of_range olds ((a : Int) + r + (s.newStartIdx - a).toNat)
          (by omega) (by omega)
        have hn2 : getAt news ((a : Int) + (s.newStartIdx - a).toNat) = some n := by
          have : (a : Int) + (s.newStartIdx - a).toNat = s.newStartIdx := by omega
          rw [this]; exact hn
        have hs2 := hS (s.newStartIdx - a).toNat o2 n (by omega) ho2 hn2
        obtain ⟨k, hk⟩ := Option.isSome_iff_exists.1 (hko o hom)
        have hk2 : o2.key = some k := by
          rw [sameVnode_key o2 n hs2, ← sameVnode_key o n hb]; exact hk
        have := keys_distinct olds hkn _ _ o o2 k ho ho2 hk hk2
        omega
    refine ⟨s1, hrun, ?_, by omega⟩
    exact
      { inv := hi1
        hO := by rw [e6]; exact hj.hO
        hs := by omega
        he := by omega
        hfront := by
          have := hj.hfront
          omega
        hback := by
          have := hj.hback
          omega
        htr := by
          intro ev hev
          rw [e5] at hev
          rcases List.mem_append.1 hev with h | h
          · exact hj.htr ev h
          · have hev1 : ev = UEv.patch s.oldStartIdx s.newStartIdx := by simpa using h
            by_cases hlt : s.newStartIdx < a
            · left
              refine ⟨s.newStartIdx.toNat, by omega, ?_⟩
              have : ((s.newStartIdx.toNat : Nat) : Int) = s.newStartIdx := by omega
              rw [hev1, this, hs]
            · right; left
              have hr : r = 0 := by
                rcases hr0 with h | h
                · exact absurd h hlt
                · exact h
              refine ⟨(s.newStartIdx - a).toNat, by omega, ?_⟩
              have e7 : (a : Int) + r + ((s.newStartIdx - a).toNat : Nat) = s.oldStartIdx := by
                omega
              have e8 : (a : Int) + ((s.newStartIdx - a).toNat : Nat) = s.newStartIdx := by
                omega
              rw [hev1, e7, e8] }
  | false =>
    have hge : (a : Int) ≤ s.newStartIdx := by
      by_contra hlt
      have hn1 : getAt news ((s.newStartIdx.toNat : Nat) : Int) = some n := by
        have : ((s.newStartIdx.toNat : Nat) : Int) = s.newStartIdx := by omega
        rw [this]; exact hn
      have ho1 : getAt olds ((s.newStartIdx.toNat : Nat) : Int) = some o := by
        have : ((s.newStartIdx.toNat : Nat) : Int) = s.newStartIdx := by omega
        rw [this]; exact ho
      have := hP s.newStartIdx.toNat o n (by omega) ho1 hn1
      rw [hb] at this
      cases this
    have e7 : (a : Int) + r + ((s.newEndIdx - a).toNat : Nat) = s.oldEndIdx := by omega
    have e8 : (a : Int) + ((s.newEndIdx - a).toNat : Nat) = s.newEndIdx := by omega
    have hsame : sameVnode oe ne = .ok true :=
      hS (s.newEndIdx - a).toNat oe ne (by omega) (by rw [e7]; exact hoe) (by rw [e8]; exact hne)
    obtain ⟨s1, hrun, hi1, e1, e2, e3, e4, e5, e6, _⟩ :=
      ucStep_back pv ce p cm olds news b0 H.hpv s hi hle hnle o n oe ne hso hsn hb hsoe hsne hsame
    refine ⟨s1, hrun, ?_, by omega⟩
    exact
      { inv := hi1
        hO := by rw [e6]; exact hj.hO
        hs := by omega
        he := by omega
        hfront := by
          have := hj.hfront
          omega
        hback := by omega
        htr := by
          intro ev hev
          rw [e5] at hev
          rcases List.mem_append.1 hev with h | h
          · exact hj.htr ev h
          · have hev1 : ev = UEv.patch s.oldEndIdx s.newEndIdx := by simpa using h
            right; left
            exact ⟨(s.newEndIdx - a).toNat, by omega, by rw [hev1, e7, e8]⟩ }

/-- The loop on a pure removal returns with the removal facts and with a
pair of pointers crossed. -/
theorem ucLoop_removal (pv : PatchVnode) (ce : CreateElm) (p : Handle) (cm : Bool)
    (olds news : List VNode) (b0 : Nat) (H : Hyp pv ce olds news) (a r c : Nat)
    (hlo : olds.length = a + r + c) (hln : news.length = a + c)
    (hP : ∀ (t : Nat) (o n : VNode), t < a → getAt olds t = some o → getAt news t = some n →
      sameVnode o n = .ok true)
    (hS : ∀ (t : Nat) (o n : VNode), t < c → getAt olds ((a : Int) + r + t) = some o →
      getAt news ((a : Int) + t) = some n → sameVnode o n = .ok true)
    (hko : ∀ o ∈ olds, o.key.isSome = true) (hkn : (keysOf olds).Nodup) :
    ∀ (fuel : Nat) (s : UState), RemInv olds news b0 a r c s →
      (s.oldEndIdx - s.oldStartIdx + 1) + (s.newEndIdx - s.newStartIdx + 1) ≤ fuel →
      ∃ s1, ucLoop pv ce p cm fuel s = .ok s1 ∧ RemInv olds news b0 a r c s1 ∧
        (s1.oldStartIdx > s1.oldEndIdx ∨ s1.newStartIdx > s1.newEndIdx) := by
  intro fuel
  induction fuel with
  | zero =>
    intro s hj hf
    have h1 := hj.inv.core.ose
    have h2 := hj.inv.core.nse
    have hf1 : (s.oldEndIdx - s.oldStartIdx + 1) + (s.newEndIdx - s.newStartIdx + 1) ≤ 0 := by
      simpa using hf
    have hcond : ¬ (s.oldStartIdx ≤ s.oldEndIdx ∧ s.newStartIdx ≤ s.newEndIdx) := by omega
    exact ⟨s, ucLoop_exit _ _ _ _ _ _ hcond, hj, by omega⟩
  | succ fuel ih =>
    intro s hj hf
    by_cases hcond : s.oldStartIdx ≤ s.oldEndIdx ∧ s.newStartIdx ≤ s.newEndIdx
    · obtain ⟨s1, hrun, hj1, hm⟩ := ucStep_removal pv ce p cm olds news b0 H a r c hlo hln hP hS
        hko hkn s hj hcond.1 hcond.2
      obtain ⟨s2, hrun2, hj2, hx⟩ := ih s1 hj1 (by push_cast at hf ⊢; omega)
      exact ⟨s2, by rw [ucLoop_succ _ _ _ _ _ _ _ hcond hrun]; exact hrun2, hj2, hx⟩
    · exact ⟨s, ucLoop_exit _ _ _ _ _ _ hcond, hj, by omega⟩

theorem count_patch_le (tr : List UEv) (i j : Int) :
    tr.count (UEv.patch i j) ≤ (newIdxs tr).count j := by
  induction tr with
  | nil => simp [newIdxs]
  | cons e tr ih =>
    have hcons : newIdxs (e :: tr) = newIdxs [e] ++ newIdxs tr := newIdxs_append [e] tr
    rw [hcons, List.count_append, List.count_cons]
    by_cases he : e = UEv.patch i j
    · subst he
      have h1 : newIdxs [UEv.patch i j] = [j] := rfl
      rw [h1]
      simp only [List.count_singleton, beq_self_eq_true, if_true]
      omega
    · have : (e == UEv.patch i j) = false := by simpa using he
      simp only [this, Bool.false_eq_true, if_false]
      omega

/-- Pure removal, the run: only surviving pairs are patched, in place, and
only nodes of the removed part are removed. -/
theorem updateChildrenWith_removal (pv : PatchVnode) (ce : CreateElm) (d : Nat) (p : Handle)
    (olds news : List VNode) (H : Hyp pv ce olds news) (hh : ∀ o ∈ olds, o.height ≤ d ∧ o.rmDeferred = false)
    (a r c : Nat) (hlo : olds.length = a + r + c) (hln : news.length = a + c)
    (hP : ∀ (t : Nat) (o n : VNode), t < a → getAt olds t = some o → getAt news t = some n →
      sameVnode o n = .ok true)
    (hS : ∀ (t : Nat) (o n : VNode), t < c → getAt olds ((a : Int) + r + t) = some o →
      getAt news ((a : Int) + t) = some n → sameVnode o n = .ok true)
    (hko : ∀ o ∈ olds, o.key.isSome = true) (hkn : (keysOf olds).Nodup)
    (kids : List LNode) (ro : Bool) (st : St)
    (hk : kids.map (fun k => some k.h) = olds.map VNode.elm)
    (hnd : (kids.map LNode.h).Nodup)
    (hb : ∀ k ∈ kids, LNode.bounded st.next k = true)
    (hm : ∀ v ∈ olds, ∀ k ∈ kids, v.elm = some k.h → mirrors k v = true) :
    ∃ s, updateChildrenWith pv ce d p kids (olds.map some) news ro st = .ok s ∧
      Done olds news st.next s ∧ ∀ ev ∈ s.trace, Kept a r c ev := by
  have hinit : RemInv olds news st.next a r c
      { kids := kids, oldCh := olds.map some, newCh := news,
        oldStartIdx := 0, oldEndIdx := (olds.length : Int) - 1,
        newStartIdx := 0, newEndIdx := (news.length : Int) - 1,
        oldKeyToIdx := none, st := st, trace := [], log := [] } :=
    { inv := loopInv_init olds news kids st hk hnd hb hm
      hO := rfl
      hs := rfl
      he := by
        show (olds.length : Int) - 1 = (news.length : Int) - 1 + r
        rw [hlo, hln]; push_cast; omega
      hfront := Or.inr (by show (0 : Int) ≤ a; omega)
      hback := by
        show (a : Int) ≤ (news.length : Int) - 1 + 1
        rw [hln]; push_cast; omega
      htr := by intro ev hev; cases hev }
  obtain ⟨s1, hloop, hj1, hx⟩ := ucLoop_removal pv ce p (!ro) olds news st.next H a r c hlo hln
    hP hS hko hkn (olds.length + news.length) _ hinit (by
      show ((olds.length : Int) - 1 - 0 + 1) + ((news.length : Int) - 1 - 0 + 1) ≤ _
      push_cast
      omega)
  have hi1 := hj1.inv
  have hc := hi1.core
  obtain ⟨s2, hfin, hdone⟩ := ucFinish_ok ce d p olds news st.next H.hce hh s1 hi1 hx
  refine ⟨s2, ?_, hdone, ?_⟩
  · unfold updateChildrenWith
    simp only [List.length_map]
    rw [hloop]
    exact hfin
  · obtain ⟨Po, Mo, So, Pn, Mn, Sn, KP, KM, KS, hd⟩ := hi1.dom
    have hs := hj1.hs
    have he := hj1.he
    have hnse := hc.nse
    by_cases hadd : s1.oldStartIdx > s1.oldEndIdx
    · obtain ⟨Mn1, KN, st1, ev, hrun, _⟩ :=
        ucFinish_add ce d p s1 Po Mo So Pn Mn Sn KP KM KS hd hadd
          (fun v hv => H.hce v (mid_mem_news olds news st.next s1 hc _ _ _ _ _ _ _ _ _ hd v hv))
      rw [hrun] at hfin
      simp only [Except.ok.injEq] at hfin
      have hMn0 : Mn.length = 0 := by
        have := hd.hPn
        have := hd.hMn
        omega
      intro ev1 hev
      rw [← hfin, hMn0] at hev
      have hev1 : ev1 ∈ s1.trace ++ [] := hev
      rw [List.append_nil] at hev1
      exact hj1.htr ev1 hev1
    · have hle : s1.oldStartIdx ≤ s1.oldEndIdx := by omega
      have hx2 : s1.newStartIdx > s1.newEndIdx := by
        rcases hx with h | h
        · exact absurd h hadd
        · exact h
      obtain ⟨ev, hrun, _⟩ := ucFinish_remove ce d p s1 Po Mo So Pn Mn Sn KP KM KS hd hle hx2
        (fun v hv => hh v (mid_mem_olds olds news st.next s1 hc _ _ _ _ _ _ _ _ _ hd v hv))
      rw [hrun] at hfin
      simp only [Except.ok.injEq] at hfin
      intro ev1 hev
      rw [← hfin] at hev
      have hev1 : ev1 ∈ s1.trace ++ removesOf s1.oldStartIdx Mo := hev
      rcases List.mem_append.1 hev1 with h | h
      · exact hj1.htr ev1 h
      · obtain ⟨t, ht, rfl⟩ := List.mem_map.1 h
        have h1 := someIdxs_ge Mo _ t ht
        have h2 := ((mem_someIdxs So Mo Po s1.oldStartIdx t hd.hPo).1 ht).2.1
        have h3 := hd.hPo
        have h4 := hd.hMo
        have h5 := hj1.hfront
        have h6 := hj1.hback
        right; right
        refine ⟨(t - a).toNat, by omega, ?_⟩
        have : (a : Int) + ((t - a).toNat : Nat) = t := by omega
        rw [this]

/-! ## Child lists up to order -/

theorem handle_inj (K : List LNode) (hnd : (K.map LNode.h).Nodup) (a b : LNode)
    (ha : a ∈ K) (hb : b ∈ K) (hab : a.h = b.h) : a = b :=
  List.inj_on_of_nodup_map hnd ha hb hab

theorem split_of_mem (K : List LNode) (hnd : (K.map LNode.h).Nodup) (x : LNode) (hx : x ∈ K) :
    ∃ KX KY, K = KX ++ x :: KY ∧ x.h ∉ KX.map LNode.h := by
  obtain ⟨KX, node, KY, hK, hn, hnot⟩ := mem_split_handle K x.h (List.mem_map_of_mem _ hx)
  have hmem : node ∈ K := by rw [hK]; simp
  have : node = x := handle_inj K hnd node x hmem hx hn
  subst this
  exact ⟨KX, KY, hK, hnot⟩

theorem perm_cancel_mid (KX KY KX1 KY1 : List LNode) (x : LNode)
    (h : (KX1 ++ x :: KY1).Perm (KX ++ x :: KY)) : (KX1 ++ KY1).Perm (KX ++ KY) := by
  have h1 : (x :: (KX1 ++ KY1)).Perm (x :: (KX ++ KY)) :=
    (List.perm_middle.symm.trans h).trans List.perm_middle
  exact List.Perm.cons_inv h1

theorem nodup_perm (K K1 : List LNode) (hp : K1.Perm K) (hnd : (K.map LNode.h).Nodup) :
    (K1.map LNode.h).Nodup :=
  ((hp.map LNode.h).nodup_iff).2 hnd

theorem findH_none (K : List LNode) (e : Handle) (h : e ∉ K.map LNode.h) : findH K e = none := by
  unfold findH
  rw [List.find?_eq_none]
  intro x hx hxe
  apply h
  simp only [beq_iff_eq] at hxe
  rw [← hxe]
  exact List.mem_map_of_mem _ hx

theorem replaceH_not_mem (K : List LNode) (e : Handle) (x : LNode) (h : e ∉ K.map LNode.h) :
    replaceH K e x = K := by
  induction K with
  | nil => rfl
  | cons k ks ih =>
    simp only [List.map_cons, List.mem_cons, not_or] at h
    have hk : (k.h == e) = false := by
      simpa using fun he => h.1 he.symm
    simp only [replaceH, hk, Bool.false_eq_true, if_false, ih h.2]

theorem findH_perm (K K1 : List LNode) (hp : K1.Perm K) (hnd : (K.map LNode.h).Nodup)
    (e : Handle) : findH K1 e = findH K e := by
  by_cases he : e ∈ K.map LNode.h
  · obtain ⟨x, hx, rfl⟩ := List.mem_map.1 he
    obtain ⟨KX, KY, hK, hn⟩ := split_of_mem K hnd x hx
    obtain ⟨KX1, KY1, hK1, hn1⟩ := split_of_mem K1 (nodup_perm K K1 hp hnd) x (hp.mem_iff.2 hx)
    rw [hK, hK1, findH_mid _ _ _ hn, findH_mid _ _ _ hn1]
  · have he1 : e ∉ K1.map LNode.h := fun h => he ((hp.map LNode.h).mem_iff.1 h)
    rw [findH_none K e he, findH_none K1 e he1]

theorem replaceH_perm (K K1 : List LNode) (hp : K1.Perm K) (hnd : (K.map LNode.h).Nodup)
    (e : Handle) (y : LNode) : (replaceH K1 e y).Perm (replaceH K e y) := by
  by_cases he : e ∈ K.map LNode.h
  · obtain ⟨x, hx, rfl⟩ := List.mem_map.1 he
    obtain ⟨KX, KY, hK, hn⟩ := split_of_mem K hnd x hx
    obtain ⟨KX1, KY1, hK1, hn1⟩ := split_of_mem K1 (nodup_perm K K1 hp hnd) x (hp.mem_iff.2 hx)
    have hc := perm_cancel_mid KX KY KX1 KY1 x (by rw [← hK, ← hK1]; exact hp)
    rw [hK, hK1, replaceH_mid _ _ _ _ hn, replaceH_mid _ _ _ _ hn1]
    exact (List.perm_middle.trans (hc.cons y)).trans List.perm_middle.symm
  · have he1 : e ∉ K1.map LNode.h := fun h => he ((hp.map LNode.h).mem_iff.1 h)
    rw [replaceH_not_mem K e y he, replaceH_not_mem K1 e y he1]
    exact hp

theorem removeH_perm (K K1 : List LNode) (hp : K1.Perm K) (hnd : (K.map LNode.h).Nodup)
    (e : Handle) : (removeH K1 e).Perm (removeH K e) := by
  by_cases he : e ∈ K.map LNode.h
  · obtain ⟨x, hx, rfl⟩ := List.mem_map.1 he
    obtain ⟨KX, KY, hK, hn⟩ := split_of_mem K hnd x hx
    obtain ⟨KX1, KY1, hK1, hn1⟩ := split_of_mem K1 (nodup_perm K K1 hp hnd) x (hp.mem_iff.2 hx)
    have hc := perm_cancel_mid KX KY KX1 KY1 x (by rw [← hK, ← hK1]; exact hp)
    rw [hK, hK1, removeH_mid _ _ _ hn, removeH_mid _ _ _ hn1]
    exact hc
  · have he1 : e ∉ K1.map LNode.h := fun h => he ((hp.map LNode.h).mem_iff.1 h)
    rw [removeH_not_mem K e he, removeH_not_mem K1 e he1]
    exact hp

theorem hasH_perm (K K1 : List LNode) (hp : K1.Perm K) (e : Handle) : hasH K1 e = hasH K e := by
  rw [Bool.eq_iff_iff, hasH_iff, hasH_iff]
  exact (hp.map LNode.h).mem_iff

theorem insertBeforeH_perm (K : List LNode) (node : LNode) (r : Handle) (K1 : List LNode)
    (h : insertBeforeH K node r = some K1) : K1.Perm (node :: K) := by
  induction K generalizing K1 with
  | nil => simp [insertBeforeH] at h
  | cons n ns ih =>
    unfold insertBeforeH at h
    split at h
    · simp only [Option.some.injEq] at h
      subst h
      exact List.Perm.refl _
    · cases hi : insertBeforeH ns node r with
      | none => rw [hi] at h; simp at h
      | some r1 =>
        rw [hi] at h
        simp only [Option.map_some', Option.some.injEq] at h
        subst h
        exact ((ih r1 hi).cons n).trans (List.Perm.swap node n ns)

/-- The node found under a handle is the one `removeChild` takes out. -/
theorem findH_removeH (K : List LNode) (e : Handle) (node : LNode)
    (h : findH K e = some node) : node.h = e ∧ (node :: removeH K e).Perm K := by
  induction K with
  | nil => simp [findH] at h
  | cons k ks ih =>
    unfold findH at h ih
    rw [List.find?_cons] at h
    by_cases hk : (k.h == e) = true
    · simp only [hk] at h
      simp only [Option.some.injEq] at h
      subst h
      exact ⟨by simpa using hk, by simp [removeH, hk]⟩
    · have hk1 : (k.h == e) = false := by simpa using hk
      simp only [hk1] at h
      obtain ⟨h1, h2⟩ := ih h
      refine ⟨h1, ?_⟩
      simp only [removeH, hk1, Bool.false_eq_true, if_false]
      exact (List.Perm.swap k node _).trans (h2.cons k)

/-- A move keeps the live children, up to order. -/
theorem move_perm (K : List LNode) (e : Handle) (node : LNode) (ref : Option Handle)
    (K1 : List LNode) (hf : findH K e = some node)
    (h : domInsertBefore K node ref = .ok K1) : K1.Perm K := by
  obtain ⟨he, hp⟩ := findH_removeH K e node hf
  unfold domInsertBefore at h
  cases ref with
  | none =>
    simp only [Except.ok.injEq] at h
    subst h
    rw [he]
    exact (List.perm_append_comm.trans (by simp)).trans hp
  | some r =>
    simp only at h
    split at h
    · split at h
      · simp only [Except.ok.injEq] at h
        subst h
        exact List.Perm.refl _
      · cases h
    · cases hi : insertBeforeH (removeH K node.h) node r with
      | none => rw [hi] at h; cases h
      | some ks =>
        rw [hi] at h
        simp only [Except.ok.injEq] at h
        subst h
        rw [he] at hi
        exact (insertBeforeH_perm _ _ _ _ hi).trans hp

/-- Inserting a fresh node does the same to two orderings of the live
children. -/
theorem insert_perm (p : Handle) (K K1 : List LNode) (hp : K1.Perm K) (node : LNode)
    (ref : Option Handle) (hf : node.h ∉ K.map LNode.h) (R : List LNode) (ev : List Ev)
    (h : insert (some p) K node ref = .ok (R, ev)) :
    ∃ R1, insert (some p) K1 node ref = .ok (R1, ev) ∧ R1.Perm R := by
  have hf1 : node.h ∉ K1.map LNode.h := fun hm => hf ((hp.map LNode.h).mem_iff.1 hm)
  cases ref with
  | none =>
    rw [insert_append p K node hf] at h
    simp only [Except.ok.injEq, Prod.mk.injEq] at h
    rw [insert_append p K1 node hf1, ← h.1, ← h.2]
    exact ⟨_, rfl, List.Perm.append_right _ hp⟩
  | some r =>
    unfold insert at h ⊢
    simp only at h ⊢
    rw [hasH_perm K K1 hp r]
    by_cases hr : hasH K r = true
    · have hm := (hasH_iff K r).1 hr
      have hm1 : r ∈ K1.map LNode.h := (hp.map LNode.h).mem_iff.2 hm
      have hne : (r == node.h) = false := by
        simpa using fun e : r = node.h => hf (e ▸ hm)
      simp only [hr, if_true, domInsertBefore, hne, Bool.false_eq_true, if_false,
        removeH_not_mem K node.h hf, removeH_not_mem K1 node.h hf1] at h ⊢
      obtain ⟨ks1, hks1⟩ := insertBeforeH_isSome K1 node r hm1
      cases hi : insertBeforeH K node r with
      | none => rw [hi] at h; cases h
      | some ks =>
        rw [hi] at h
        simp only [Except.ok.injEq, Prod.mk.injEq] at h
        rw [hks1, ← h.1, ← h.2]
        refine ⟨ks1, rfl, ?_⟩
        exact (insertBeforeH_perm _ _ _ _ hks1).trans
          ((hp.cons node).trans (insertBeforeH_perm _ _ _ _ hi).symm)
    · simp only [hr, Bool.false_eq_true, if_false, Except.ok.injEq, Prod.mk.injEq] at h ⊢
      rw [← h.1, ← h.2]
      exact ⟨K1, ⟨rfl, rfl⟩, hp⟩

theorem removeNode_perm (p : Handle) (K K1 : List LNode) (hp : K1.Perm K)
    (hnd : (K.map LNode.h).Nodup) (el : Option Handle) (R : List LNode) (ev : List Ev)
    (h : removeNode p K el = .ok (R, ev)) :
    ∃ R1, removeNode p K1 el = .ok (R1, ev) ∧ R1.Perm R := by
  unfold removeNode at h ⊢
  cases el with
  | none => cases h
  | some e =>
    simp only at h ⊢
    rw [hasH_perm K K1 hp e]
    by_cases hh : hasH K e = true
    · simp only [hh, if_true, Except.ok.injEq, Prod.mk.injEq] at h ⊢
      rw [← h.1, ← h.2]
      exact ⟨_, ⟨rfl, rfl⟩, removeH_perm K K1 hp hnd e⟩
    · simp only [hh, Bool.false_eq_true, if_false, Except.ok.injEq, Prod.mk.injEq] at h ⊢
      rw [← h.1, ← h.2]
      exact ⟨_, ⟨rfl, rfl⟩, hp⟩

/-! ## The run with `removeOnly` set, in lockstep -/

theorem filter_notMove_append_move (tr : List UEv) (e : Handle) (r : Option Handle) :
    (tr ++ [UEv.move e r]).filter notMove = tr.filter notMove := by
  rw [List.filter_append]
  simp [notMove]

theorem patchAt_rel (pv : PatchVnode) (s s1 sp : UState) (o n : VNode) (i j : Int)
    (hR : Rel s s1) (hnd : (s.kids.map LNode.h).Nodup)
    (h : patchAt pv s o i n j = .ok sp) :
    ∃ sp1, patchAt pv s1 o i n j = .ok sp1 ∧ Rel sp sp1 := by
  unfold patchAt at h ⊢
  cases he : o.elm with
  | none => rw [he] at h; cases h
  | some e =>
    rw [he] at h
    simp only at h ⊢
    rw [findH_perm s.kids s1.kids hR.hK hnd e, hR.hst]
    cases hf : findH s.kids e with
    | none => rw [hf] at h; cases h
    | some sub =>
      rw [hf] at h
      simp only at h ⊢
      cases hp : pv o n sub s.st with
      | error err => rw [hp] at h; cases h
      | ok r =>
        obtain ⟨v1, sub1, st1, ev1⟩ := r
        rw [hp] at h
        simp only [Except.ok.injEq] at h
        subst h
        exact ⟨_, rfl,
          { hO := hR.hO
            hN := by show setAt s1.newCh j v1 = setAt s.newCh j v1; rw [hR.hN]
            hos := hR.hos
            hoe := hR.hoe
            hns := hR.hns
            hne := hR.hne
            hM := hR.hM
            hst := rfl
            hK := replaceH_perm s.kids s1.kids hR.hK hnd e sub1
            hT := by
              show s1.trace ++ [UEv.patch i j] = (s.trace ++ [UEv.patch i j]).filter notMove
              rw [List.filter_append, hR.hT]
              rfl }⟩

theorem moveAt_rel (p : Handle) (s s1 sm : UState) (e ref : Option Handle) (hR : Rel s s1)
    (h : moveAt p true s e ref = .ok sm) : Rel sm s1 := by
  unfold moveAt at h
  simp only [if_true] at h
  cases e with
  | none => cases h
  | some x =>
    simp only at h
    cases hf : findH s.kids x with
    | none => rw [hf] at h; cases h
    | some node =>
      rw [hf] at h
      simp only at h
      cases hi : domInsertBefore s.kids node ref with
      | error err => rw [hi] at h; cases h
      | ok ks =>
        rw [hi] at h
        simp only [Except.ok.injEq] at h
        subst h
        exact
          { hO := hR.hO
            hN := hR.hN
            hos := hR.hos
            hoe := hR.hoe
            hns := hR.hns
            hne := hR.hne
            hM := hR.hM
            hst := hR.hst
            hK := hR.hK.trans (move_perm s.kids x node ref ks hf hi).symm
            hT := by
              show s1.trace = (s.trace ++ [UEv.move x ref]).filter notMove
              rw [filter_notMove_append_move]
              exact hR.hT }

theorem createAt_rel (ce : CreateElm) (p : Handle) (s s1 sc : UState) (n : VNode) (j : Int)
    (ref : Option Handle) (hR : Rel s s1) (hce : CeSpec ce n)
    (hb : ∀ k ∈ s.kids, LNode.bounded s.st.next k = true)
    (h : createAt ce p s n j ref = .ok sc) :
    ∃ sc1, createAt ce p s1 n j ref = .ok sc1 ∧ Rel sc sc1 := by
  obtain ⟨n1, node, st1, ev, _, hnh, _, _, _, hrun⟩ := hce true s.st
  have hfresh : node.h ∉ s.kids.map LNode.h := by
    rw [hnh]; exact bounded_not_mem s.st.next s.kids hb s.st.next (le_refl _)
  unfold createAt at h ⊢
  rw [hR.hst, hrun]
  rw [hrun] at h
  cases hi : insert (some p) s.kids node ref with
  | error err => rw [hi] at h; cases h
  | ok r =>
    obtain ⟨R, ev2⟩ := r
    rw [hi] at h
    simp only [Except.ok.injEq] at h
    subst h
    obtain ⟨R1, hi1, hp1⟩ := insert_perm p s.kids s1.kids hR.hK node ref hfresh R ev2 hi
    rw [hi1]
    exact ⟨_, rfl,
      { hO := hR.hO
        hN := by show setAt s1.newCh j n1 = setAt s.newCh j n1; rw [hR.hN]
        hos := hR.hos
        hoe := hR.hoe
        hns := hR.hns
        hne := hR.hne
        hM := hR.hM
        hst := rfl
        hK := hp1
        hT := by
          show s1.trace ++ [UEv.create j] = (s.trace ++ [UEv.create j]).filter notMove
          rw [List.filter_append, hR.hT]
          rfl }⟩

theorem rel_setMap (s s1 : UState) (hR : Rel s s1) (m : Option KeyMap) :
    Rel { s with oldKeyToIdx := m } { s1 with oldKeyToIdx := m } :=
  { hO := hR.hO
    hN := hR.hN
    hos := hR.hos
    hoe := hR.hoe
    hns := hR.hns
    hne := hR.hne
    hM := rfl
    hst := hR.hst
    hK := hR.hK
    hT := hR.hT }

theorem stepNew_rel (ce : CreateElm) (p : Handle) (s s1 sr : UState) (m : KeyMap)
    (os n : VNode) (hR : Rel s s1) (hce : CeSpec ce n)
    (hb : ∀ k ∈ s.kids, LNode.bounded s.st.next k = true)
    (h : stepNew ce p s m os n = .ok sr) :
    ∃ sr1, stepNew ce p s1 m os n = .ok sr1 ∧ Rel sr sr1 := by
  unfold stepNew at h ⊢
  rw [hR.hns]
  cases hc : createAt ce p { s with oldKeyToIdx := some m } n s.newStartIdx os.elm with
  | error err => rw [hc] at h; cases h
  | ok sc =>
    rw [hc] at h
    simp only [Except.ok.injEq] at h
    subst h
    obtain ⟨sc1, hc1, hR1⟩ := createAt_rel ce p _ _ sc n s.newStartIdx os.elm
      (rel_setMap s s1 hR (some m)) hce hb hc
    rw [hR.hns] at hc1
    rw [hc1]
    exact ⟨_, rfl,
      { hO := hR1.hO
        hN := hR1.hN
        hos := hR1.hos
        hoe := hR1.hoe
        hns := rfl
        hne := hR1.hne
        hM := hR1.hM
        hst := hR1.hst
        hK := hR1.hK
        hT := hR1.hT }⟩

theorem stepFound_rel (pv : PatchVnode) (ce : CreateElm) (p : Handle) (s s1 sr : UState)
    (m : KeyMap) (os n : VNode) (idx : Int) (hR : Rel s s1) (hce : CeSpec ce n)
    (hnd : (s.kids.map LNode.h).Nodup)
    (hb : ∀ k ∈ s.kids, LNode.bounded s.st.next k = true)
    (h : stepFound pv ce p true s m os n idx = .ok sr) :
    ∃ sr1, stepFound pv ce p false s1 m os n idx = .ok sr1 ∧ Rel sr sr1 := by
  unfold stepFound at h ⊢
  rw [hR.hO, hR.hns]
  cases hv : slotAt s.oldCh idx with
  | none => rw [hv] at h; cases h
  | some v =>
    rw [hv] at h
    simp only at h ⊢
    cases hs : sameVnode v n with
    | error err => rw [hs] at h; cases h
    | ok b =>
      rw [hs] at h
      cases b with
      | false =>
        simp only at h ⊢
        exact stepNew_rel ce p s s1 sr m os n hR hce hb h
      | true =>
        simp only at h ⊢
        cases hp : patchAt pv { s with oldKeyToIdx := some m } v idx n s.newStartIdx with
        | error err => rw [hp] at h; cases h
        | ok sp =>
          rw [hp] at h
          simp only at h
          obtain ⟨sp1, hp1, hR1⟩ := patchAt_rel pv _ _ sp v n idx s.newStartIdx
            (rel_setMap s s1 hR (some m)) hnd hp
          rw [hR.hO, hR.hns] at hp1
          rw [hp1]
          simp only
          cases hm : moveAt p true { sp with oldCh := setAt sp.oldCh idx none } v.elm os.elm with
          | error err => rw [hm] at h; cases h
          | ok sm =>
            rw [hm] at h
            simp only [Except.ok.injEq] at h
            subst h
            have hR2 : Rel { sp with oldCh := setAt sp.oldCh idx none }
                { sp1 with oldCh := setAt sp1.oldCh idx none } :=
              { hO := by show setAt sp1.oldCh idx none = setAt sp.oldCh idx none; rw [hR1.hO]
                hN := hR1.hN
                hos := hR1.hos
                hoe := hR1.hoe
                hns := hR1.hns
                hne := hR1.hne
                hM := hR1.hM
                hst := hR1.hst
                hK := hR1.hK
                hT := hR1.hT }
            have hR3 := moveAt_rel p _ _ sm v.elm os.elm hR2 hm
            refine ⟨{ sp1 with oldCh := setAt sp1.oldCh idx none,
                               newStartIdx := s.newStartIdx + 1 }, ?_, ?_⟩
            · simp [moveAt]
            · exact
                { hO := hR3.hO
                  hN := hR3.hN
                  hos := hR3.hos
                  hoe := hR3.hoe
                  hns := rfl
                  hne := hR3.hne
                  hM := hR3.hM
                  hst := hR3.hst
                  hK := hR3.hK
                  hT := hR3.hT }

theorem stepLookup_rel (pv : PatchVnode) (ce : CreateElm) (p : Handle) (s s1 sr : UState)
    (os n : VNode) (hR : Rel s s1) (hce : CeSpec ce n)
    (hnd : (s.kids.map LNode.h).Nodup)
    (hb : ∀ k ∈ s.kids, LNode.bounded s.st.next k = true)
    (h : stepLookup pv ce p true s os n = .ok sr) :
    ∃ sr1, stepLookup pv ce p false s1 os n = .ok sr1 ∧ Rel sr sr1 := by
  have hkm : keyMapOf s1 = keyMapOf s := by
    unfold keyMapOf
    rw [hR.hM, hR.hO, hR.hos, hR.hoe]
  have hix : ∀ m, idxInOldOf s1 n m = idxInOldOf s n m := by
    intro m
    unfold idxInOldOf
    rw [hR.hO, hR.hos, hR.hoe]
  unfold stepLookup at h ⊢
  rw [hkm]
  cases hm : keyMapOf s with
  | error err => rw [hm] at h; cases h
  | ok m =>
    rw [hm] at h
    simp only at h ⊢
    rw [hix]
    cases hi : idxInOldOf s n m with
    | error err => rw [hi] at h; cases h
    | ok r =>
      rw [hi] at h
      cases r with
      | undefined =>
        simp only at h ⊢
        exact stepNew_rel ce p s s1 sr m os n hR hce hb h
      | index idx =>
        simp only at h ⊢
        exact stepFound_rel pv ce p s s1 sr m os n idx hR hce hnd hb h
      | inherited =>
        simp only at h
        cases h

theorem rel_front (sp1 sp : UState) (hR : Rel sp sp1) (x y : Int) :
    Rel { sp with oldStartIdx := x, newStartIdx := y }
      { sp1 with oldStartIdx := x, newStartIdx := y } :=
  { hO := hR.hO
    hN := hR.hN
    hos := rfl
    hoe := hR.hoe
    hns := rfl
    hne := hR.hne
    hM := hR.hM
    hst := hR.hst
    hK := hR.hK
    hT := hR.hT }

theorem rel_back (sp1 sp : UState) (hR : Rel sp sp1) (x y : Int) :
    Rel { sp with oldEndIdx := x, newEndIdx := y }
      { sp1 with oldEndIdx := x, newEndIdx := y } :=
  { hO := hR.hO
    hN := hR.hN
    hos := hR.hos
    hoe := rfl
    hns := hR.hns
    hne := rfl
    hM := hR.hM
    hst := hR.hst
    hK := hR.hK
    hT := hR.hT }

theorem rel_cross1 (sp1 sp : UState) (hR : Rel sp sp1) (x y : Int) :
    Rel { sp with oldStartIdx := x, newEndIdx := y }
      { sp1 with oldStartIdx := x, newEndIdx := y } :=
  { hO := hR.hO
    hN := hR.hN
    hos := rfl
    hoe := hR.hoe
    hns := hR.hns
    hne := rfl
    hM := hR.hM
    hst := hR.hst
    hK := hR.hK
    hT := hR.hT }

theorem rel_cross2 (sp1 sp : UState) (hR : Rel sp sp1) (x y : Int) :
    Rel { sp with oldEndIdx := x, newStartIdx := y }
      { sp1 with oldEndIdx := x, newStartIdx := y } :=
  { hO := hR.hO
    hN := hR.hN
    hos := hR.hos
    hoe := rfl
    hns := rfl
    hne := hR.hne
    hM := hR.hM
    hst := hR.hst
    hK := hR.hK
    hT := hR.hT }

theorem rel_eta (s s1 : UState) (hR : Rel s s1) :
    s1 = { s with kids := s1.kids, trace := s1.trace, log := s1.log } := by
  cases s1
  cases s
  obtain ⟨h1, h2, h3, h4, h5, h6, h7, h8, _, _⟩ := hR
  simp only at h1 h2 h3 h4 h5 h6 h7 h8
  subst h1 h2 h3 h4 h5 h6 h7 h8
  rfl

/-- One iteration with `removeOnly` set follows the iteration without it:
it makes the same tests, the same patch and the same creation, and no
move. -/
theorem ucStep_rel (pv : PatchVnode) (ce : CreateElm) (p : Handle) (s s1 sr : UState)
    (hR : Rel s s1) (hce : ∀ n, getAt s.newCh s.newStartIdx = some n → CeSpec ce n)
    (hnd : (s.kids.map LNode.h).Nodup)
    (hb : ∀ k ∈ s.kids, LNode.bounded s.st.next k = true)
    (h : ucStep pv ce p true s = .ok sr) :
    ∃ sr1, ucStep pv ce p false s1 = .ok sr1 ∧ Rel sr sr1 := by
  have heta := rel_eta s s1 hR
  generalize s1.kids = K1 at heta
  generalize s1.trace = T1 at heta
  generalize s1.log = L1 at heta
  subst heta
  unfold ucStep at h ⊢
  simp only at h ⊢
  cases hos : slotAt s.oldCh s.oldStartIdx with
  | none =>
    rw [hos] at h
    simp only [Except.ok.injEq] at h
    subst h
    exact ⟨_, rfl, ⟨hR.hO, hR.hN, rfl, hR.hoe, hR.hns, hR.hne, hR.hM, hR.hst, hR.hK, hR.hT⟩⟩
  | some os =>
    rw [hos] at h
    simp only at h ⊢
    cases hoe : slotAt s.oldCh s.oldEndIdx with
    | none =>
      rw [hoe] at h
      simp only [Except.ok.injEq] at h
      subst h
      exact ⟨_, rfl, ⟨hR.hO, hR.hN, hR.hos, rfl, hR.hns, hR.hne, hR.hM, hR.hst, hR.hK, hR.hT⟩⟩
    | some oe =>
      rw [hoe] at h
      simp only at h ⊢
      cases hns : getAt s.newCh s.newStartIdx with
      | none => rw [hns] at h; cases h
      | some ns =>
        cases hne : getAt s.newCh s.newEndIdx with
        | none => rw [hns, hne] at h; cases h
        | some ne =>
          rw [hns, hne] at h
          simp only at h ⊢
          cases h3 : sameVnode os ns with
          | error err => rw [h3] at h; cases h
          | ok b3 =>
            rw [h3] at h
            cases b3 with
            | true =>
              simp only at h ⊢
              cases hp : patchAt pv s os s.oldStartIdx ns s.newStartIdx with
              | error err => rw [hp] at h; cases h
              | ok sp =>
                rw [hp] at h
                simp only [Except.ok.injEq] at h
                subst h
                obtain ⟨sp1, hp1, hR1⟩ := patchAt_rel pv s _ sp os ns _ _ hR hnd hp
                rw [hp1]
                exact ⟨_, rfl, rel_front sp1 sp hR1 _ _⟩
            | false =>
              simp only at h ⊢
              cases h4 : sameVnode oe ne with
              | error err => rw [h4] at h; cases h
              | ok b4 =>
                rw [h4] at h
                cases b4 with
                | true =>
                  simp only at h ⊢
                  cases hp : patchAt pv s oe s.oldEndIdx ne s.newEndIdx with
                  | error err => rw [hp] at h; cases h
                  | ok sp =>
                    rw [hp] at h
                    simp only [Except.ok.injEq] at h
                    subst h
                    obtain ⟨sp1, hp1, hR1⟩ := patchAt_rel pv s _ sp oe ne _ _ hR hnd hp
                    rw [hp1]
                    exact ⟨_, rfl, rel_back sp1 sp hR1 _ _⟩
                | false =>
                  simp only at h ⊢
                  cases h5 : sameVnode os ne with
                  | error err => rw [h5] at h; cases h
                  | ok b5 =>
                    rw [h5] at h
                    cases b5 with
                    | true =>
                      simp only [if_true] at h ⊢
                      cases hp : patchAt pv s os s.oldStartIdx ne s.newEndIdx with
                      | error err => rw [hp] at h; cases h
                      | ok sp =>
                        rw [hp] at h
                        simp only at h
                        obtain ⟨sp1, hp1, hR1⟩ := patchAt_rel pv s _ sp os ne _ _ hR hnd hp
                        rw [hp1]
                        simp only [Bool.false_eq_true, if_false]
                        cases hsib : nextSiblingOf sp.kids oe.elm with
                        | error err => rw [hsib] at h; cases h
                        | ok ref =>
                          rw [hsib] at h
                          simp only at h
                          cases hm : moveAt p true sp os.elm ref with
                          | error err => rw [hm] at h; cases h
                          | ok sm =>
                            rw [hm] at h
                            simp only [Except.ok.injEq] at h
                            subst h
                            have hR2 := moveAt_rel p sp sp1 sm os.elm ref hR1 hm
                            refine ⟨{ sp1 with oldStartIdx := s.oldStartIdx + 1,
                                               newEndIdx := s.newEndIdx - 1 }, ?_,
                              rel_cross1 sp1 sm hR2 _ _⟩
                            simp [moveAt]
                    | false =>
                      simp only at h ⊢
                      cases h6 : sameVnode oe ns with
                      | error err => rw [h6] at h; cases h
                      | ok b6 =>
                        rw [h6] at h
                        cases b6 with
                        | true =>
                          simp only at h ⊢
                          cases hp : patchAt pv s oe s.oldEndIdx ns s.newStartIdx with
                          | error err => rw [hp] at h; cases h
                          | ok sp =>
                            rw [hp] at h
                            simp only at h
                            obtain ⟨sp1, hp1, hR1⟩ := patchAt_rel pv s _ sp oe ns _ _ hR hnd hp
                            rw [hp1]
                            simp only
                            cases hm : moveAt p true sp oe.elm os.elm with
                            | error err => rw [hm] at h; cases h
                            | ok sm =>
                              rw [hm] at h
                              simp only [Except.ok.injEq] at h
                              subst h
                              have hR2 := moveAt_rel p sp sp1 sm oe.elm os.elm hR1 hm
                              refine ⟨{ sp1 with oldEndIdx := s.oldEndIdx - 1,
                                                 newStartIdx := s.newStartIdx + 1 }, ?_,
                                rel_cross2 sp1 sm hR2 _ _⟩
                              simp [moveAt]
                        | false =>
                          simp only at h ⊢
                          exact stepLookup_rel pv ce p s _ sr os ns hR (hce ns hns) hnd hb h

/-- The loop with `removeOnly` set follows the loop without it. -/
theorem ucLoop_rel (pv : PatchVnode) (ce : CreateElm) (p : Handle)
    (olds news : List VNode) (b0 : Nat) (H : Hyp pv ce olds news)
    (hpk : plainKeys news = true) :
    ∀ (fuel : Nat) (s s1 sr : UState), LoopInv olds news b0 s → Rel s s1 →
      ucLoop pv ce p true fuel s = .ok sr →
      ∃ sr1, ucLoop pv ce p false fuel s1 = .ok sr1 ∧ Rel sr sr1 := by
  intro fuel
  induction fuel with
  | zero =>
    intro s s1 sr _ hR h
    unfold ucLoop at h ⊢
    rw [hR.hos, hR.hoe, hR.hns, hR.hne]
    split at h
    · cases h
    · rename_i hc
      simp only [Except.ok.injEq] at h
      subst h
      exact ⟨s1, by simp only [hc, if_false], hR⟩
  | succ fuel ih =>
    intro s s1 sr hi hR h
    unfold ucLoop at h ⊢
    rw [hR.hos, hR.hoe, hR.hns, hR.hne]
    by_cases hc : s.oldStartIdx ≤ s.oldEndIdx ∧ s.newStartIdx ≤ s.newEndIdx
    · simp only [hc, and_self, if_true] at h ⊢
      obtain ⟨sn, hstep, hin, _⟩ := ucStep_ok pv ce p olds news b0 H hpk s hi hc.1 hc.2
      rw [hstep] at h
      simp only at h
      obtain ⟨Po, Mo, So, Pn, Mn, Sn, KP, KM, KS, hd⟩ := hi.dom
      obtain ⟨sn1, hstep1, hRn⟩ := ucStep_rel pv ce p s s1 sn hR
        (fun n hn => H.hce n (news_mem_of_mid olds news b0 s hi.core _ n (le_refl _) hc.2 hn))
        hd.nodup hd.bnd hstep
      rw [hstep1]
      exact ih sn sn1 sr hin hRn h
    · simp only [hc, if_false, Except.ok.injEq] at h ⊢
      subst h
      exact ⟨s1, rfl, hR⟩

theorem removeH_sublist (K : List LNode) (e : Handle) : (removeH K e).Sublist K := by
  induction K with
  | nil => exact List.Sublist.refl _
  | cons k ks ih =>
    unfold removeH
    split
    · exact List.sublist_cons_self k ks
    · exact ih.cons₂ k

theorem removeNode_nodup (p : Handle) (K : List LNode) (el : Option Handle) (R : List LNode)
    (ev : List Ev) (hnd : (K.map LNode.h).Nodup) (h : removeNode p K el = .ok (R, ev)) :
    (R.map LNode.h).Nodup := by
  unfold removeNode at h
  cases el with
  | none => cases h
  | some e =>
    simp only at h
    split at h
    · simp only [Except.ok.injEq, Prod.mk.injEq] at h
      rw [← h.1]
      exact List.Nodup.sublist ((removeH_sublist K e).map _) hnd
    · simp only [Except.ok.injEq, Prod.mk.injEq] at h
      rw [← h.1]
      exact hnd

theorem removeHook_perm (p : Handle) (K K1 : List LNode) (hp : K1.Perm K)
    (hnd : (K.map LNode.h).Nodup) (v : VNode) (R : List LNode) (ev : List Ev)
    (h : removeAndInvokeRemoveHook p K v = .ok (R, ev)) :
    ∃ R1, removeAndInvokeRemoveHook p K1 v = .ok (R1, ev) ∧ R1.Perm R ∧
      (R.map LNode.h).Nodup := by
  unfold removeAndInvokeRemoveHook at h ⊢
  by_cases hdata : v.info.data.isSome = true
  · simp only [hdata, if_true] at h ⊢
    by_cases hrd : v.rmDeferred = true
    · simp only [hrd, if_true, Except.ok.injEq, Prod.mk.injEq] at h ⊢
      rw [← h.1, ← h.2]
      exact ⟨K1, ⟨rfl, rfl⟩, hp, hnd⟩
    · simp only [hrd, Bool.false_eq_true, if_false] at h ⊢
      cases hr : removeNode p K v.elm with
      | error err => rw [hr] at h; cases h
      | ok r =>
        obtain ⟨R0, ev0⟩ := r
        rw [hr] at h
        simp only [Except.ok.injEq, Prod.mk.injEq] at h
        obtain ⟨R1, hr1, hp1⟩ := removeNode_perm p K K1 hp hnd v.elm R0 ev0 hr
        rw [hr1, ← h.1, ← h.2]
        exact ⟨R1, rfl, hp1, removeNode_nodup p K v.elm R0 ev0 hnd hr⟩
  · simp only [hdata, Bool.false_eq_true, if_false] at h ⊢
    obtain ⟨R1, hr1, hp1⟩ := removeNode_perm p K K1 hp hnd v.elm R ev h
    exact ⟨R1, hr1, hp1, removeNode_nodup p K v.elm R ev hnd h⟩

theorem removeVnodesLoop_rel (d : Nat) (p : Handle) (vnodes : List (Option VNode))
    (e : Int) :
    ∀ (n : Nat) (i : Int) (K K1 R : List LNode) (tr : List UEv) (ev : List Ev),
      K1.Perm K → (K.map LNode.h).Nodup →
      removeVnodesLoop d p vnodes e n i K = .ok (R, tr, ev) →
      ∃ R1, removeVnodesLoop d p vnodes e n i K1 = .ok (R1, tr, ev) ∧ R1.Perm R := by
  intro n
  induction n with
  | zero =>
    intro i K K1 R tr ev hp _ h
    simp only [removeVnodesLoop, Except.ok.injEq, Prod.mk.injEq] at h ⊢
    rw [← h.1, ← h.2.1, ← h.2.2]
    exact ⟨K1, ⟨rfl, rfl, rfl⟩, hp⟩
  | succ n ih =>
    intro i K K1 R tr ev hp hnd h
    unfold removeVnodesLoop at h ⊢
    by_cases hie : i ≤ e
    · simp only [hie, if_true] at h ⊢
      cases hs : slotAt vnodes i with
      | none =>
        rw [hs] at h
        simp only at h ⊢
        exact ih (i + 1) K K1 R tr ev hp hnd h
      | some ch =>
        rw [hs] at h
        simp only at h ⊢
        by_cases htag : ch.info.tag.isSome = true
        · simp only [htag, if_true] at h ⊢
          cases hr : removeAndInvokeRemoveHook p K ch with
          | error err => rw [hr] at h; cases h
          | ok r =>
            obtain ⟨R0, ev0⟩ := r
            rw [hr] at h
            simp only at h
            obtain ⟨R1, hr1, hp1, hnd1⟩ := removeHook_perm p K K1 hp hnd ch R0 ev0 hr
            rw [hr1]
            simp only
            cases hdh : invokeDestroyHook d ch with
            | error err => rw [hdh] at h; cases h
            | ok ev2 =>
              rw [hdh] at h
              simp only at h ⊢
              cases hl : removeVnodesLoop d p vnodes e n (i + 1) R0 with
              | error err => rw [hl] at h; cases h
              | ok r3 =>
                obtain ⟨R3, tr3, ev3⟩ := r3
                rw [hl] at h
                simp only [Except.ok.injEq, Prod.mk.injEq] at h
                obtain ⟨R4, hl1, hp4⟩ := ih (i + 1) R0 R1 R3 tr3 ev3 hp1 hnd1 hl
                rw [hl1, ← h.1, ← h.2.1, ← h.2.2]
                exact ⟨R4, rfl, hp4⟩
        · simp only [htag, Bool.false_eq_true, if_false] at h ⊢
          cases hr : removeNode p K ch.elm with
          | error err => rw [hr] at h; cases h
          | ok r =>
            obtain ⟨R0, ev0⟩ := r
            rw [hr] at h
            simp only at h
            obtain ⟨R1, hr1, hp1⟩ := removeNode_perm p K K1 hp hnd ch.elm R0 ev0 hr
            have hnd1 := removeNode_nodup p K ch.elm R0 ev0 hnd hr
            rw [hr1]
            simp only
            cases hl : removeVnodesLoop d p vnodes e n (i + 1) R0 with
            | error err => rw [hl] at h; cases h
            | ok r3 =>
              obtain ⟨R3, tr3, ev3⟩ := r3
              rw [hl] at h
              simp only [Except.ok.injEq, Prod.mk.injEq] at h
              obtain ⟨R4, hl1, hp4⟩ := ih (i + 1) R0 R1 R3 tr3 ev3 hp1 hnd1 hl
              rw [hl1, ← h.1, ← h.2.1, ← h.2.2]
              exact ⟨R4, rfl, hp4⟩
    · simp only [hie, if_false, Except.ok.injEq, Prod.mk.injEq] at h ⊢
      rw [← h.1, ← h.2.1, ← h.2.2]
      exact ⟨K1, ⟨rfl, rfl, rfl⟩, hp⟩

theorem addVnodesLoop_rel (ce : CreateElm) (p : Handle) (ref : Option Handle) (e : Int) :
    ∀ (n : Nat) (i : Int) (vnodes : List VNode) (K K1 : List LNode) (st : St)
      (vn : List VNode) (R : List LNode) (st1 : St) (tr : List UEv) (ev : List Ev),
      K1.Perm K → (∀ k ∈ K, LNode.bounded st.next k = true) →
      (∀ j v, i ≤ j → j ≤ e → getAt vnodes j = some v → CeSpec ce v) →
      addVnodesLoop ce p ref e n i vnodes K st = .ok (vn, R, st1, tr, ev) →
      ∃ R1, addVnodesLoop ce p ref e n i vnodes K1 st = .ok (vn, R1, st1, tr, ev) ∧
        R1.Perm R := by
  intro n
  induction n with
  | zero =>
    intro i vnodes K K1 st vn R st1 tr ev hp _ _ h
    simp only [addVnodesLoop, Except.ok.injEq, Prod.mk.injEq] at h ⊢
    rw [← h.1, ← h.2.1, ← h.2.2.1, ← h.2.2.2.1, ← h.2.2.2.2]
    exact ⟨K1, ⟨rfl, rfl, rfl, rfl, rfl⟩, hp⟩
  | succ n ih =>
    intro i vnodes K K1 st vn R st1 tr ev hp hb hce h
    unfold addVnodesLoop at h ⊢
    by_cases hie : i ≤ e
    · simp only [hie, if_true] at h ⊢
      cases hg : getAt vnodes i with
      | none => rw [hg] at h; cases h
      | some v =>
        rw [hg] at h
        simp only at h ⊢
        obtain ⟨n1, node, st2, ev1, _, hnh, _, hlt, hnb, hrun⟩ := hce i v (le_refl _) hie hg true st
        have hfresh : node.h ∉ K.map LNode.h := by
          rw [hnh]; exact bounded_not_mem st.next K hb st.next (le_refl _)
        rw [hrun] at h ⊢
        cases hi : insert (some p) K node ref with
        | error err => rw [hi] at h; cases h
        | ok r =>
          obtain ⟨R0, ev0⟩ := r
          rw [hi] at h
          simp only at h
          obtain ⟨R1, hi1, hp1⟩ := insert_perm p K K1 hp node ref hfresh R0 ev0 hi
          obtain ⟨r2, hr2, hmem⟩ := insert_fresh (some p) K node ref hfresh
          rw [hi] at hr2
          simp only [Except.ok.injEq] at hr2
          subst hr2
          rw [hi1]
          simp only
          have hb1 : ∀ k ∈ R0, LNode.bounded st2.next k = true := by
            intro k hk
            rcases hmem k hk with h1 | h1
            · rw [h1]; exact hnb
            · exact bounded_mono _ _ (by omega) k (hb k h1)
          cases hl : addVnodesLoop ce p ref e n (i + 1) (setAt vnodes i n1) R0 st2 with
          | error err => rw [hl] at h; cases h
          | ok r3 =>
            obtain ⟨vn3, R3, st3, tr3, ev3⟩ := r3
            rw [hl] at h
            simp only [Except.ok.injEq, Prod.mk.injEq] at h
            obtain ⟨R4, hl1, hp4⟩ := ih (i + 1) (setAt vnodes i n1) R0 R1 st2 vn3 R3 st3 tr3 ev3
              hp1 hb1 (fun j w hj hje hw => hce j w (by omega) hje (by
                rw [getAt_setAt_ne vnodes i j n1 (by omega)] at hw
                exact hw)) hl
            rw [hl1, ← h.1, ← h.2.1, ← h.2.2.1, ← h.2.2.2.1, ← h.2.2.2.2]
            exact ⟨R4, rfl, hp4⟩
    · simp only [hie, if_false, Except.ok.injEq, Prod.mk.injEq] at h ⊢
      rw [← h.1, ← h.2.1, ← h.2.2.1, ← h.2.2.2.1, ← h.2.2.2.2]
      exact ⟨K1, ⟨rfl, rfl, rfl, rfl, rfl⟩, hp⟩

theorem addVnodesLoop_notMove (ce : CreateElm) (p : Handle) (ref : Option Handle) (e : Int) :
    ∀ (n : Nat) (i : Int) (vnodes : List VNode) (K : List LNode) (st : St)
      (vn : List VNode) (R : List LNode) (st1 : St) (tr : List UEv) (ev : List Ev),
      addVnodesLoop ce p ref e n i vnodes K st = .ok (vn, R, st1, tr, ev) →
      tr.filter notMove = tr := by
  intro n
  induction n with
  | zero =>
    intro i vnodes K st vn R st1 tr ev h
    simp only [addVnodesLoop, Except.ok.injEq, Prod.mk.injEq] at h
    rw [← h.2.2.2.1]
    rfl
  | succ n ih =>
    intro i vnodes K st vn R st1 tr ev h
    unfold addVnodesLoop at h
    split at h
    · split at h
      · cases h
      · split at h
        · cases h
        · split at h
          · cases h
          · rename_i hl
            simp only [Except.ok.injEq, Prod.mk.injEq] at h
            rw [← h.2.2.2.1]
            simp only [List.filter_cons, notMove, if_true, ih _ _ _ _ _ _ _ _ _ hl]
    · simp only [Except.ok.injEq, Prod.mk.injEq] at h
      rw [← h.2.2.2.1]
      rfl

theorem removeVnodesLoop_notMove (d : Nat) (p : Handle) (vnodes : List (Option VNode))
    (e : Int) :
    ∀ (n : Nat) (i : Int) (K R : List LNode) (tr : List UEv) (ev : List Ev),
      removeVnodesLoop d p vnodes e n i K = .ok (R, tr, ev) → tr.filter notMove = tr := by
  intro n
  induction n with
  | zero =>
    intro i K R tr ev h
    simp only [removeVnodesLoop, Except.ok.injEq, Prod.mk.injEq] at h
    rw [← h.2.1]
    rfl
  | succ n ih =>
    intro i K R tr ev h
    unfold removeVnodesLoop at h
    split at h
    · split at h
      · exact ih _ _ _ _ _ h
      · split at h
        · split at h
          · cases h
          · split at h
            · cases h
            · split at h
              · cases h
              · rename_i hl
                simp only [Except.ok.injEq, Prod.mk.injEq] at h
                rw [← h.2.1]
                simp only [List.filter_cons, notMove, if_true, ih _ _ _ _ _ hl]
        · split at h
          · cases h
          · split at h
            · cases h
            · rename_i hl
              simp only [Except.ok.injEq, Prod.mk.injEq] at h
              rw [← h.2.1]
              simp only [List.filter_cons, notMove, if_true, ih _ _ _ _ _ hl]
    · simp only [Except.ok.injEq, Prod.mk.injEq] at h
      rw [← h.2.1]
      rfl

/-- The code after the loop does the same with `removeOnly` set. -/
theorem ucFinish_rel (ce : CreateElm) (d : Nat) (p : Handle) (s s1 sr : UState)
    (hb : ∀ k ∈ s.kids, LNode.bounded s.st.next k = true)
    (hnd : (s.kids.map LNode.h).Nodup)
    (hce : ∀ j v, s.newStartIdx ≤ j → j ≤ s.newEndIdx → getAt s.newCh j = some v →
      CeSpec ce v)
    (hR : Rel s s1) (h : ucFinish ce d p s = .ok sr) :
    ∃ sr1, ucFinish ce d p s1 = .ok sr1 ∧ Rel sr sr1 := by
  have heta := rel_eta s s1 hR
  have hK := hR.hK
  have hT := hR.hT
  generalize s1.kids = K1 at heta hK
  generalize s1.trace = T1 at heta hT
  generalize s1.log = L1 at heta
  subst heta
  unfold ucFinish at h ⊢
  simp only at h ⊢
  by_cases hadd : s.oldStartIdx > s.oldEndIdx
  · simp only [hadd, if_true] at h ⊢
    unfold addVnodes at h ⊢
    cases hl : addVnodesLoop ce p
        (match getAt s.newCh (s.newEndIdx + 1) with
          | none => none
          | some v => v.elm) s.newEndIdx
        (s.newEndIdx - s.newStartIdx + 1).toNat s.newStartIdx s.newCh s.kids s.st with
    | error err => rw [hl] at h; cases h
    | ok r =>
      obtain ⟨vn, R, st1, tr, ev⟩ := r
      rw [hl] at h
      simp only [Except.ok.injEq] at h
      subst h
      obtain ⟨R1, hl1, hp1⟩ := addVnodesLoop_rel ce p _ s.newEndIdx _ s.newStartIdx s.newCh
        s.kids K1 s.st vn R st1 tr ev hK hb hce hl
      rw [hl1]
      exact ⟨_, rfl,
        { hO := rfl
          hN := rfl
          hos := rfl
          hoe := rfl
          hns := rfl
          hne := rfl
          hM := rfl
          hst := rfl
          hK := hp1
          hT := by
            show T1 ++ tr = (s.trace ++ tr).filter notMove
            rw [List.filter_append, addVnodesLoop_notMove _ _ _ _ _ _ _ _ _ _ _ _ _ _ hl, hT] }⟩
  · simp only [hadd, if_false] at h ⊢
    by_cases hrem : s.newStartIdx > s.newEndIdx
    · simp only [hrem, if_true] at h ⊢
      unfold removeVnodes at h ⊢
      cases hl : removeVnodesLoop d p s.oldCh s.oldEndIdx
          (s.oldEndIdx - s.oldStartIdx + 1).toNat s.oldStartIdx s.kids with
      | error err => rw [hl] at h; cases h
      | ok r =>
        obtain ⟨R, tr, ev⟩ := r
        rw [hl] at h
        simp only [Except.ok.injEq] at h
        subst h
        obtain ⟨R1, hl1, hp1⟩ := removeVnodesLoop_rel d p s.oldCh s.oldEndIdx _ s.oldStartIdx
          s.kids K1 R tr ev hK hnd hl
        rw [hl1]
        exact ⟨_, rfl,
          { hO := rfl
            hN := rfl
            hos := rfl
            hoe := rfl
            hns := rfl
            hne := rfl
            hM := rfl
            hst := rfl
            hK := hp1
            hT := by
              show T1 ++ tr = (s.trace ++ tr).filter notMove
              rw [List.filter_append, removeVnodesLoop_notMove _ _ _ _ _ _ _ _ _ _ hl, hT] }⟩
    · simp only [hrem, if_false, Except.ok.injEq] at h ⊢
      subst h
      exact ⟨_, rfl, hR⟩

/-- With or without `removeOnly`, and given a `patchVnode` and a `createElm`
that behave, `updateChildren` returns; the exit facts hold of the run that
may move, and the run that may not differs from it by the moves only. -/
theorem updateChildrenWith_rel (pv : PatchVnode) (ce : CreateElm) (d : Nat) (p : Handle)
    (olds news : List VNode) (H : Hyp pv ce olds news) (hpk : plainKeys news = true)
    (hh : ∀ o ∈ olds, o.height ≤ d ∧ o.rmDeferred = false)
    (kids : List LNode) (st : St)
    (hk : kids.map (fun k => some k.h) = olds.map VNode.elm)
    (hnd : (kids.map LNode.h).Nodup)
    (hb : ∀ k ∈ kids, LNode.bounded st.next k = true)
    (hm : ∀ v ∈ olds, ∀ k ∈ kids, v.elm = some k.h → mirrors k v = true) :
    ∃ s s1, updateChildrenWith pv ce d p kids (olds.map some) news false st = .ok s ∧
      updateChildrenWith pv ce d p kids (olds.map some) news true st = .ok s1 ∧
      Done olds news st.next s ∧ Rel s s1 := by
  have hinit := loopInv_init olds news kids st hk hnd hb hm
  obtain ⟨sL, hloop, hiL, hx⟩ := ucLoop_ok pv ce p olds news st.next H hpk
    (olds.length + news.length) _ hinit (by
      show ((olds.length : Int) - 1 - 0 + 1) + ((news.length : Int) - 1 - 0 + 1) ≤ _
      push_cast
      omega)
  obtain ⟨s2, hfin, hdone⟩ := ucFinish_ok ce d p olds news st.next H.hce hh sL hiL hx
  have hR0 : Rel
      { kids := kids, oldCh := olds.map some, newCh := news,
        oldStartIdx := 0, oldEndIdx := (olds.length : Int) - 1,
        newStartIdx := 0, newEndIdx := (news.length : Int) - 1,
        oldKeyToIdx := none, st := st, trace := [], log := [] }
      { kids := kids, oldCh := olds.map some, newCh := news,
        oldStartIdx := 0, oldEndIdx := (olds.length : Int) - 1,
        newStartIdx := 0, newEndIdx := (news.length : Int) - 1,
        oldKeyToIdx := none, st := st, trace := [], log := [] } :=
    ⟨rfl, rfl, rfl, rfl, rfl, rfl, rfl, rfl, List.Perm.refl _, rfl⟩
  obtain ⟨sL1, hloop1, hRL⟩ := ucLoop_rel pv ce p olds news st.next H hpk _ _ _ sL hinit hR0 hloop
  obtain ⟨Po, Mo, So, Pn, Mn, Sn, KP, KM, KS, hdL⟩ := hiL.dom
  obtain ⟨s21, hfin1, hR2⟩ := ucFinish_rel ce d p sL sL1 s2 hdL.bnd hdL.nodup
    (fun j v hj hje hv => H.hce v (news_mem_of_mid olds news st.next sL hiL.core j v hj hje hv))
    hRL hfin
  refine ⟨s2, s21, ?_, ?_, hdone, hR2⟩
  · unfold updateChildrenWith
    simp only [Bool.not_false, List.length_map]
    rw [hloop]
    exact hfin
  · unfold updateChildrenWith
    simp only [Bool.not_true, List.length_map]
    rw [hloop1]
    exact hfin1

/-! ## Either mode -/

theorem newIdxs_cons (e : UEv) (tr : List UEv) :
    newIdxs (e :: tr) = newIdxs [e] ++ newIdxs tr := newIdxs_append [e] tr

theorem oldIdxs_cons (e : UEv) (tr : List UEv) :
    oldIdxs (e :: tr) = oldIdxs [e] ++ oldIdxs tr := oldIdxs_append [e] tr

theorem newIdxs_filter (tr : List UEv) : newIdxs (tr.filter notMove) = newIdxs tr := by
  induction tr with
  | nil => rfl
  | cons e tr ih =>
    have h1 : newIdxs (e :: tr) = newIdxs [e] ++ newIdxs tr := newIdxs_append [e] tr
    cases e with
    | move a b =>
      have : (UEv.move a b :: tr).filter notMove = tr.filter notMove := by
        simp [List.filter_cons, notMove]
      rw [this, ih, h1]
      rfl
    | patch a b =>
      have : (UEv.patch a b :: tr).filter notMove = UEv.patch a b :: tr.filter notMove := by
        simp [List.filter_cons, notMove]
      rw [this, h1, newIdxs_cons, ih]
    | create a =>
      have : (UEv.create a :: tr).filter notMove = UEv.create a :: tr.filter notMove := by
        simp [List.filter_cons, notMove]
      rw [this, h1, newIdxs_cons, ih]
    | remove a =>
      have : (UEv.remove a :: tr).filter notMove = UEv.remove a :: tr.filter notMove := by
        simp [List.filter_cons, notMove]
      rw [this, h1, newIdxs_cons, ih]

theorem oldIdxs_filter (tr : List UEv) : oldIdxs (tr.filter notMove) = oldIdxs tr := by
  induction tr with
  | nil => rfl
  | cons e tr ih =>
    have h1 : oldIdxs (e :: tr) = oldIdxs [e] ++ oldIdxs tr := oldIdxs_append [e] tr
    cases e with
    | move a b =>
      have : (UEv.move a b :: tr).filter notMove = tr.filter notMove := by
        simp [List.filter_cons, notMove]
      rw [this, ih, h1]
      rfl
    | patch a b =>
      have : (UEv.patch a b :: tr).filter notMove = UEv.patch a b :: tr.filter notMove := by
        simp [List.filter_cons, notMove]
      rw [this, h1, oldIdxs_cons, ih]
    | create a =>
      have : (UEv.create a :: tr).filter notMove = UEv.create a :: tr.filter notMove := by
        simp [List.filter_cons, notMove]
      rw [this, h1, oldIdxs_cons, ih]
    | remove a =>
      have : (UEv.remove a :: tr).filter notMove = UEv.remove a :: tr.filter notMove := by
        simp [List.filter_cons, notMove]
      rw [this, h1, oldIdxs_cons, ih]

theorem same_newIdxs (s s1 : UState) (h : Same s s1) : newIdxs s1.trace = newIdxs s.trace := by
  rw [← newIdxs_filter s1.trace, h.hT, newIdxs_filter]

theorem same_oldIdxs (s s1 : UState) (h : Same s s1) : oldIdxs s1.trace = oldIdxs s.trace := by
  rw [← oldIdxs_filter s1.trace, h.hT, oldIdxs_filter]

theorem same_mem (s s1 : UState) (h : Same s s1) (e : UEv) (he : notMove e = true) :
    e ∈ s1.trace ↔ e ∈ s.trace := by
  have h1 : e ∈ s1.trace.filter notMove ↔ e ∈ s.trace.filter notMove := by rw [h.hT]
  simpa [List.mem_filter, he] using h1

theorem same_count (s s1 : UState) (h : Same s s1) (e : UEv) (he : notMove e = true) :
    s1.trace.count e = s.trace.count e := by
  rw [← List.count_filter he, h.hT, List.count_filter he]

theorem same_refl (s : UState) : Same s s := ⟨rfl, rfl, List.Perm.refl _, rfl⟩

theorem same_of_rel (s s1 : UState) (h : Rel s s1) : Same s s1 :=
  { hN := h.hN
    hst := h.hst
    hK := h.hK
    hT := by rw [h.hT, List.filter_filter]; simp }

/-- On well-formed input `updateChildren` returns with or without
`removeOnly`; the exit facts hold of the run that may move, and the run asked
for differs from it by the moves only. -/
theorem updateChildren_any (d : Nat) (p : Handle) (olds news : List VNode) (kids : List LNode)
    (st : St) (hr : Ready d olds news kids st) (hpk : plainKeys news = true) (ro : Bool) :
    ∃ s0 s, updateChildren d p kids (olds.map some) news false st = .ok s0 ∧
      updateChildren d p kids (olds.map some) news ro st = .ok s ∧
      Done olds news st.next s0 ∧ Same s0 s := by
  obtain ⟨s0, s1, h0, h1, hd, hR⟩ := updateChildrenWith_rel (patchVnode d true false)
    (createElm d) d p olds news (hyp_real d olds news kids st hr) hpk
    (rendered_old d olds news kids st hr.toRendered) kids st
    (mirrorsL_map olds kids hr.mir) hr.nodup ((boundedL_iff _ _).1 hr.bnd)
    (mirrorsL_pair olds kids hr.mir hr.nodup)
  cases ro with
  | false => exact ⟨s0, s0, h0, h0, hd, same_refl s0⟩
  | true => exact ⟨s0, s1, h0, h1, hd, same_of_rel s0 s1 hR⟩

theorem index_unique {α β : Type} (f : α → β) (l : List α) (hnd : (l.map f).Nodup)
    (i j : Int) (a b : α) (ha : getAt l i = some a) (hb : getAt l j = some b)
    (hab : f a = f b) : i = j := by
  have hi := getAt_length_lt l i a ha
  have hj := getAt_length_lt l j b hb
  unfold getAt at ha hb
  have h0 : ¬ i < 0 := by omega
  have h1 : ¬ j < 0 := by omega
  simp only [h0, h1, if_false] at ha hb
  obtain ⟨hil, hia⟩ := List.getElem?_eq_some_iff.1 ha
  obtain ⟨hjl, hjb⟩ := List.getElem?_eq_some_iff.1 hb
  have hil1 : i.toNat < (l.map f).length := by simpa using hil
  have hjl1 : j.toNat < (l.map f).length := by simpa using hjl
  have e : (l.map f)[i.toNat] = (l.map f)[j.toNat] := by
    simp only [List.getElem_map, hia, hjb, hab]
  have := (List.Nodup.getElem_inj_iff hnd).1 e
  omega

theorem mem_getAt {α : Type} (l : List α) (x : α) (h : x ∈ l) :
    ∃ i : Int, getAt l i = some x := by
  obtain ⟨n, hn, hx⟩ := List.mem_iff_getElem.1 h
  refine ⟨(n : Int), ?_⟩
  rw [getAt_natCast, List.getElem?_eq_getElem hn, hx]

/-! ## Permutations -/

/-- An iteration adds a creation to the trace only in its last branch, when
the lookup of the new start node finds no old node, or one that is not the
same node. -/
theorem ucStep_create (pv : PatchVnode) (ce : CreateElm) (p : Handle) (cm : Bool)
    (s s1 : UState) (h : ucStep pv ce p cm s = .ok s1) (j : Int)
    (hj : UEv.create j ∈ s1.trace) :
    UEv.create j ∈ s.trace ∨
      ∃ n m, getAt s.newCh s.newStartIdx = some n ∧ keyMapOf s = .ok m ∧
        (idxInOldOf s n m = .ok .undefined ∨
          ∃ idx v, idxInOldOf s n m = .ok (.index idx) ∧ slotAt s.oldCh idx = some v ∧
            sameVnode v n = .ok false) := by
  -- a patch, with or without a move, adds no creation
  have hpatch : ∀ (s0 sp sm : UState) (o n : VNode) (a b : Int) (e r : Option Handle),
      s0.trace = s.trace → patchAt pv s0 o a n b = .ok sp → moveAt p cm sp e r = .ok sm →
      UEv.create j ∈ sm.trace → UEv.create j ∈ s.trace := by
    intro s0 sp sm o n a b e r h0 hp hm hmem
    have h1 := (patchAt_shape _ _ _ _ _ _ _ hp).1
    rcases (moveAt_shape _ _ _ _ _ _ hm).2.2.2.2 with h2 | ⟨x, h2⟩
    · rw [h2, h1, h0] at hmem
      simpa using hmem
    · rw [h2, h1, h0] at hmem
      simpa using hmem
  have hpatch0 : ∀ (sp : UState) (o n : VNode) (a b : Int),
      patchAt pv s o a n b = .ok sp → UEv.create j ∈ sp.trace → UEv.create j ∈ s.trace := by
    intro sp o n a b hp hmem
    rw [(patchAt_shape _ _ _ _ _ _ _ hp).1] at hmem
    simpa using hmem
  unfold ucStep at h
  split at h
  · simp only [Except.ok.injEq] at h
    subst h
    exact Or.inl hj
  · split at h
    · simp only [Except.ok.injEq] at h
      subst h
      exact Or.inl hj
    · split at h
      · rename_i ns ne hns hne
        split at h
        · cases h
        · split at h
          · cases h
          · rename_i sp hp
            simp only [Except.ok.injEq] at h
            subst h
            exact Or.inl (hpatch0 sp _ _ _ _ hp hj)
        · split at h
          · cases h
          · split at h
            · cases h
            · rename_i sp hp
              simp only [Except.ok.injEq] at h
              subst h
              exact Or.inl (hpatch0 sp _ _ _ _ hp hj)
          · split at h
            · cases h
            · split at h
              · cases h
              · rename_i sp hp
                split at h
                · cases h
                · split at h
                  · cases h
                  · rename_i sm hm
                    simp only [Except.ok.injEq] at h
                    subst h
                    exact Or.inl (hpatch s sp sm _ _ _ _ _ _ rfl hp hm hj)
            · split at h
              · cases h
              · split at h
                · cases h
                · rename_i sp hp
                  split at h
                  · cases h
                  · rename_i sm hm
                    simp only [Except.ok.injEq] at h
                    subst h
                    exact Or.inl (hpatch s sp sm _ _ _ _ _ _ rfl hp hm hj)
              · -- the lookup
                unfold stepLookup at h
                cases hkm : keyMapOf s with
                | error err => rw [hkm] at h; cases h
                | ok m =>
                  rw [hkm] at h
                  simp only at h
                  cases hix : idxInOldOf s ns m with
                  | error err => rw [hix] at h; cases h
                  | ok r =>
                    rw [hix] at h
                    cases r with
                    | inherited =>
                      simp only at h
                      cases h
                    | undefined => exact Or.inr ⟨ns, m, hns, rfl, Or.inl hix⟩
                    | index idx =>
                      simp only at h
                      unfold stepFound at h
                      cases hv : slotAt s.oldCh idx with
                      | none => rw [hv] at h; cases h
                      | some v =>
                        rw [hv] at h
                        simp only at h
                        cases hsv : sameVnode v ns with
                        | error err => rw [hsv] at h; cases h
                        | ok b =>
                          rw [hsv] at h
                          cases b with
                          | false =>
                            exact Or.inr ⟨ns, m, hns, rfl, Or.inr ⟨idx, v, hix, hv, hsv⟩⟩
                          | true =>
                            simp only at h
                            left
                            split at h
                            · cases h
                            · rename_i sp hp
                              split at h
                              · cases h
                              · rename_i sm hm
                                simp only [Except.ok.injEq] at h
                                subst h
                                have h1 := (patchAt_shape _ _ _ _ _ _ _ hp).1
                                have hj1 : UEv.create j ∈ sm.trace := hj
                                rcases (moveAt_shape _ _ _ _ _ _ hm).2.2.2.2 with h2 | ⟨x, h2⟩
                                · rw [h2] at hj1
                                  have hj2 : UEv.create j ∈ sp.trace := hj1
                                  rw [h1] at hj2
                                  simpa using hj2
                                · rw [h2] at hj1
                                  have hj2 : UEv.create j ∈ sp.trace ++ [UEv.move x _] := hj1
                                  rw [h1] at hj2
                                  simpa using hj2
      · cases h

theorem perm_partner_old (olds news : List VNode) (hp : PermHyp olds news) (n : VNode)
    (hn : n ∈ news) : ∃ o k, o ∈ olds ∧ o.key = some k ∧ n.key = some k ∧
      sameVnode o n = .ok true := by
  have h1 : n.key ∈ olds.map VNode.key := hp.hperm.mem_iff.2 (List.mem_map_of_mem _ hn)
  obtain ⟨o, ho, hk⟩ := List.mem_map.1 h1
  obtain ⟨k, hk1⟩ := Option.isSome_iff_exists.1 (hp.hko o ho)
  exact ⟨o, k, ho, hk1, by rw [← hk]; exact hk1, hp.hsame o ho n hn hk⟩

theorem perm_partner_new (olds news : List VNode) (hp : PermHyp olds news) (o : VNode)
    (ho : o ∈ olds) : ∃ n k, n ∈ news ∧ o.key = some k ∧ n.key = some k ∧
      sameVnode o n = .ok true := by
  have h1 : o.key ∈ news.map VNode.key := hp.hperm.mem_iff.1 (List.mem_map_of_mem _ ho)
  obtain ⟨n, hn, hk⟩ := List.mem_map.1 h1
  obtain ⟨k, hk1⟩ := Option.isSome_iff_exists.1 (hp.hko o ho)
  exact ⟨n, k, hn, hk1, by rw [hk]; exact hk1, hp.hsame o ho n hn hk.symm⟩

/-- While the new start node is still to be handled, the old child of its key
is still to be handled too. -/
theorem perm_old_waiting (olds news : List VNode) (b0 : Nat) (keysNew : (keysOf news).Nodup)
    (s : UState) (hc : Core olds news b0 s) (j : Int) (n : VNode)
    (hj1 : s.newStartIdx ≤ j) (hj2 : j ≤ s.newEndIdx) (hn : getAt news j = some n)
    (i : Int) (o : VNode) (k : Key) (ho : getAt olds i = some o) (hok : o.key = some k)
    (hnk : n.key = some k) :
    s.oldStartIdx ≤ i ∧ i ≤ s.oldEndIdx ∧ slotAt s.oldCh i = some o := by
  have hil := getAt_length_lt olds i o ho
  have hnot : i ∉ oldIdxs s.trace := by
    intro him
    rcases (mem_oldIdxs_iff _ _).1 him with ⟨j1, h1⟩ | h1
    · obtain ⟨o1, n1, _, ho1, hn1, hs1, _, _⟩ := hc.trPatch i j1 h1
      rw [ho] at ho1
      simp only [Option.some.injEq] at ho1
      subst ho1
      have hk1 : n1.key = some k := by rw [← sameVnode_key o n1 hs1]; exact hok
      have := keys_distinct news keysNew j1 j n1 n k hn1 hn hk1 hnk
      have hm := (hc.trNewMem j1).1 (mem_newIdxs_patch _ i j1 h1)
      omega
    · exact hc.trRemove i h1
  have hw : ¬ (i < s.oldStartIdx ∨ s.oldEndIdx < i ∨ slotAt s.oldCh i = none) := by
    intro h
    exact hnot ((hc.trOldMem i).2 ⟨hil.1, hil.2, h⟩)
  simp only [not_or] at hw
  obtain ⟨v, hv⟩ := Option.ne_none_iff_exists'.1 hw.2.2
  have := hc.oldSlot i v hv
  rw [ho] at this
  simp only [Option.some.injEq] at this
  subst this
  exact ⟨by omega, by omega, hv⟩

/-- On a permutation an iteration creates nothing. -/
theorem perm_names (olds news : List VNode)
    (h : (olds.map VNode.key).Perm (news.map VNode.key)) :
    (namesOf olds).Perm (namesOf news) := by
  have e : ∀ l : List VNode,
      namesOf l = (l.map VNode.key).filterMap (fun k => k.map Key.name) := by
    intro l
    unfold namesOf
    rw [List.filterMap_map]
    rfl
  rw [e, e]
  exact h.filterMap _

theorem ucStep_noCreate (pv : PatchVnode) (ce : CreateElm) (p : Handle) (cm : Bool)
    (olds news : List VNode) (b0 : Nat) (H : Hyp pv ce olds news) (hp : PermHyp olds news)
    (hpk : plainKeys news = true) (hno : (namesOf olds).Nodup)
    (s s1 : UState) (hi : LoopInv olds news b0 s)
    (hnle : s.newStartIdx ≤ s.newEndIdx)
    (h : ucStep pv ce p cm s = .ok s1) (hnc : ∀ j, UEv.create j ∉ s.trace) :
    ∀ j, UEv.create j ∉ s1.trace := by
  intro j hj
  rcases ucStep_create pv ce p cm s s1 h j hj with h0 | ⟨n, m, hn, hkm, hcase⟩
  · exact hnc j h0
  · have hc := hi.core
    have hn0 : getAt news s.newStartIdx = some n := by
      rw [← hc.newMid _ (le_refl _) hnle]; exact hn
    have hnm := getAt_mem _ _ _ hn0
    obtain ⟨o, k, hom, hok, hnk, hs⟩ := perm_partner_old olds news hp n hnm
    obtain ⟨i, ho⟩ := mem_getAt _ _ hom
    obtain ⟨hw1, hw2, hw3⟩ := perm_old_waiting olds news b0 H.hkeys s hc s.newStartIdx n (le_refl _)
      hnle hn0 i o k ho hok hnk
    obtain ⟨m1, hm1, hmc⟩ := keyMapOf_ok olds news b0 s hc
    rw [hkm] at hm1
    simp only [Except.ok.injEq] at hm1
    subst hm1
    have hcm := core_setMap olds news b0 s hc m hmc
    have hnp : k.name ≠ "__proto__" := fun e =>
      plainKeys_own news hpk n hnm k hnk (by rw [e]; decide)
    obtain ⟨i1, hi1⟩ := hcm.mapFull m rfl i o k.name hw1 hw2 hw3 (keyName_some o k hok) hnp
    have hix : idxInOldOf s n m = .ok (.index i1) := by
      unfold idxInOldOf keyMapGet
      rw [hnk]
      simp only [hi1]
    rcases hcase with h1 | ⟨idx, v, h1, hv, hsv⟩
    · rw [hix] at h1
      cases h1
    · rw [hix] at h1
      simp only [Except.ok.injEq, Found.index.injEq] at h1
      subst h1
      rcases hcm.mapInv m rfl k.name i1 hi1 with ⟨_, _, v1, hv1, hvk⟩ | ⟨j1, v1, hj1, hv1, hvk⟩
      · have hv2 : slotAt s.oldCh i1 = some v1 := hv1
        rw [hv] at hv2
        simp only [Option.some.injEq] at hv2
        subst hv2
        have hov := hc.oldSlot i1 v hv
        have := names_distinct olds hno i1 i v o k.name hov ho hvk (keyName_some o k hok)
        subst this
        rw [ho] at hov
        simp only [Option.some.injEq] at hov
        subst hov
        rw [hs] at hsv
        cases hsv
      · obtain ⟨v0, hv0, hkv0⟩ := hc.newKey j1 v1 hv1
        have := names_distinct news (plainKeys_names news hpk) j1 s.newStartIdx v0 n k.name
          hv0 hn0 (by unfold VNode.keyName at hvk ⊢; rw [← hkv0]; exact hvk)
          (keyName_some n k hnk)
        have hj2 : j1 < s.newStartIdx ∨ s.newEndIdx < j1 := hj1
        omega

/-- On a permutation the loop creates nothing. -/
theorem ucLoop_noCreate (pv : PatchVnode) (ce : CreateElm) (p : Handle)
    (olds news : List VNode) (b0 : Nat) (H : Hyp pv ce olds news) (hp : PermHyp olds news)
    (hpk : plainKeys news = true) (hno : (namesOf olds).Nodup) :
    ∀ (fuel : Nat) (s s1 : UState), LoopInv olds news b0 s →
      ucLoop pv ce p true fuel s = .ok s1 → (∀ j, UEv.create j ∉ s.trace) →
      ∀ j, UEv.create j ∉ s1.trace := by
  intro fuel
  induction fuel with
  | zero =>
    intro s s1 _ h hnc
    unfold ucLoop at h
    split at h
    · cases h
    · simp only [Except.ok.injEq] at h
      subst h
      exact hnc
  | succ fuel ih =>
    intro s s1 hi h hnc
    by_cases hc : s.oldStartIdx ≤ s.oldEndIdx ∧ s.newStartIdx ≤ s.newEndIdx
    · obtain ⟨sn, hstep, hin, _⟩ := ucStep_ok pv ce p olds news b0 H hpk s hi hc.1 hc.2
      rw [ucLoop_succ _ _ _ _ _ _ _ hc hstep] at h
      exact ih sn s1 hin h (ucStep_noCreate pv ce p true olds news b0 H hp hpk hno s sn hi
        hc.2 hstep hnc)
    · rw [ucLoop_exit _ _ _ _ _ _ hc] at h
      simp only [Except.ok.injEq] at h
      subst h
      exact hnc

theorem someIdxs_eq_nil (i : Int) (Mo : List (Option VNode))
    (h : ∀ t, t ∉ someIdxs i Mo) : removesOf i Mo = [] := by
  unfold removesOf
  rw [List.eq_nil_iff_forall_not_mem.2 h]
  rfl

/-- On a permutation `updateChildren` creates nothing and removes nothing,
and patches every new child against the old child of its key. -/
theorem updateChildrenWith_perm (pv : PatchVnode) (ce : CreateElm) (d : Nat) (p : Handle)
    (olds news : List VNode) (H : Hyp pv ce olds news) (hpk : plainKeys news = true)
    (hh : ∀ o ∈ olds, o.height ≤ d ∧ o.rmDeferred = false)
    (hp : PermHyp olds news) (kids : List LNode) (st : St)
    (hk : kids.map (fun k => some k.h) = olds.map VNode.elm)
    (hnd : (kids.map LNode.h).Nodup)
    (hb : ∀ k ∈ kids, LNode.bounded st.next k = true)
    (hm : ∀ v ∈ olds, ∀ k ∈ kids, v.elm = some k.h → mirrors k v = true) :
    ∃ s, updateChildrenWith pv ce d p kids (olds.map some) news false st = .ok s ∧
      Done olds news st.next s ∧ (∀ j, UEv.create j ∉ s.trace) ∧
      (∀ i, UEv.remove i ∉ s.trace) := by
  have hinit := loopInv_init olds news kids st hk hnd hb hm
  obtain ⟨sL, hloop, hiL, hx⟩ := ucLoop_ok pv ce p olds news st.next H hpk
    (olds.length + news.length) _ hinit (by
      show ((olds.length : Int) - 1 - 0 + 1) + ((news.length : Int) - 1 - 0 + 1) ≤ _
      push_cast
      omega)
  have hno : (namesOf olds).Nodup :=
    (perm_names olds news hp.hperm).nodup_iff.2 (plainKeys_names news hpk)
  have hncL := ucLoop_noCreate pv ce p olds news st.next H hp hpk hno _ _ sL hinit hloop (by
    intro j hj; cases hj)
  have hc := hiL.core
  obtain ⟨s2, hfin, hdone⟩ := ucFinish_ok ce d p olds news st.next H.hce hh sL hiL hx
  obtain ⟨Po, Mo, So, Pn, Mn, Sn, KP, KM, KS, hd⟩ := hiL.dom
  have htrace : s2.trace = sL.trace := by
    by_cases hadd : sL.oldStartIdx > sL.oldEndIdx
    · obtain ⟨Mn1, KN, st1, ev, hrun, _⟩ :=
        ucFinish_add ce d p sL Po Mo So Pn Mn Sn KP KM KS hd hadd
          (fun v hv => H.hce v (mid_mem_news olds news st.next sL hc _ _ _ _ _ _ _ _ _ hd v hv))
      rw [hrun] at hfin
      simp only [Except.ok.injEq] at hfin
      -- no new child is left: the old child of its key would be waiting too
      have hMn0 : Mn.length = 0 := by
        by_contra hne
        have hnle : sL.newStartIdx ≤ sL.newEndIdx := by
          have := hd.hPn
          have := hd.hMn
          omega
        obtain ⟨n, hn⟩ := getAt_of_range news sL.newStartIdx hc.ns0 (by
          have := hc.ne1; omega)
        obtain ⟨o, k, hom, hok, hnk, _⟩ := perm_partner_old olds news hp n (getAt_mem _ _ _ hn)
        obtain ⟨i, ho⟩ := mem_getAt _ _ hom
        have := perm_old_waiting olds news st.next H.hkeys sL hc sL.newStartIdx n (le_refl _)
          hnle hn i o k ho hok hnk
        omega
      rw [← hfin, hMn0]
      show sL.trace ++ [] = sL.trace
      rw [List.append_nil]
    · have hle : sL.oldStartIdx ≤ sL.oldEndIdx := by omega
      have hx2 : sL.newStartIdx > sL.newEndIdx := by
        rcases hx with h | h
        · exact absurd h hadd
        · exact h
      obtain ⟨ev, hrun, _⟩ := ucFinish_remove ce d p sL Po Mo So Pn Mn Sn KP KM KS hd hle hx2
        (fun v hv => hh v (mid_mem_olds olds news st.next sL hc _ _ _ _ _ _ _ _ _ hd v hv))
      rw [hrun] at hfin
      simp only [Except.ok.injEq] at hfin
      -- no old child is left: the new child of its key was patched against it
      have hnone : ∀ t, t ∉ someIdxs sL.oldStartIdx Mo := by
        intro t ht
        obtain ⟨h1, h2, h3⟩ := (mem_someIdxs So Mo Po sL.oldStartIdx t hd.hPo).1 ht
        rw [← hd.hO] at h3
        obtain ⟨o, ho⟩ := Option.ne_none_iff_exists'.1 h3
        have ho1 := hc.oldSlot t o ho
        obtain ⟨n, k, hnm, hok, hnk, _⟩ := perm_partner_new olds news hp o (getAt_mem _ _ _ ho1)
        obtain ⟨j, hn⟩ := mem_getAt _ _ hnm
        have hjl := getAt_length_lt news j n hn
        have hnse := hc.nse
        have hjm : j ∈ newIdxs sL.trace := (hc.trNewMem j).2 (by omega)
        rcases (mem_newIdxs_iff _ _).1 hjm with ⟨i1, hi1⟩ | hcr
        · obtain ⟨o1, n1, _, ho2, hn1, hs1, _, _⟩ := hc.trPatch i1 j hi1
          rw [hn] at hn1
          simp only [Option.some.injEq] at hn1
          subst hn1
          have hk1 : o1.key = some k := by rw [sameVnode_key o1 n hs1]; exact hnk
          have := keys_distinct olds hp.hkn i1 t o1 o k ho2 ho1 hk1 hok
          subst this
          have hm1 := (hc.trOldMem i1).1 (mem_oldIdxs_patch _ i1 j hi1)
          have hMo := hd.hMo
          have hPo := hd.hPo
          rcases hm1.2.2 with h | h | h
          · omega
          · omega
          · exact h3 h
        · exact hncL j hcr
      rw [← hfin]
      show sL.trace ++ removesOf sL.oldStartIdx Mo = sL.trace
      rw [someIdxs_eq_nil _ _ hnone, List.append_nil]
  refine ⟨s2, ?_, hdone, ?_, ?_⟩
  · unfold updateChildrenWith
    simp only [Bool.not_false, List.length_map]
    rw [hloop]
    exact hfin
  · rw [htrace]; exact hncL
  · rw [htrace]; exact hc.trRemove

/-! ## `patchVnode` on two child arrays -/

/-- The branch of `patchVnode` for two nodes with child arrays: it is
`updateChildren` on the arrays. -/
theorem patchVnode_children (d : Nat) (ho ro : Bool) (o n : VNode) (sub : LNode) (st : St)
    (oldCh ch : List VNode)
    (h1 : o.info.isAsyncPlaceholder = false)
    (h2 : (((cloneIfUsed n ho).setElm o.elm).info.isStatic && o.info.isStatic
      && decide (((cloneIfUsed n ho).setElm o.elm).key = o.key)
      && (((cloneIfUsed n ho).setElm o.elm).info.isCloned
        || ((cloneIfUsed n ho).setElm o.elm).info.isOnce)) = false)
    (h3 : ((cloneIfUsed n ho).setElm o.elm).info.text = none)
    (h4 : o.children = some oldCh)
    (h5 : ((cloneIfUsed n ho).setElm o.elm).children = some ch) :
    patchVnode (d + 1) ho ro o n sub st =
      match updateChildren d sub.h sub.kids (oldCh.map some) ch ro st with
      | .error err => .error err
      | .ok s =>
        .ok (((cloneIfUsed n ho).setElm o.elm).setChildren (some s.newCh), sub.setKids s.kids,
          s.st, updateHooks ((cloneIfUsed n ho).setElm o.elm) sub.h ++ s.log ++
            postHooks ((cloneIfUsed n ho).setElm o.elm) sub.h) := by
  unfold patchVnode
  simp only [h1, Bool.false_eq_true, if_false, h2, h3, h4, h5]
  rfl

/-! ## Patching a tree against the same tree -/

theorem replaceH_self (K : List LNode) (e : Handle) (sub : LNode) (h : findH K e = some sub) :
    replaceH K e sub = K := by
  induction K with
  | nil => rfl
  | cons k ks ih =>
    unfold findH at h ih
    rw [List.find?_cons] at h
    unfold replaceH
    by_cases hk : (k.h == e) = true
    · simp only [hk, Option.some.injEq] at h
      subst h
      simp only [hk, if_true]
    · simp only [hk] at h
      simp only [hk, Bool.false_eq_true, if_false, ih h]

theorem updateHooks_update (v : VNode) (e : Handle) :
    ∀ x ∈ updateHooks v e, isUpdateHook x = true := by
  intro x hx
  unfold updateHooks at hx
  rw [List.mem_append] at hx
  rcases hx with hx | hx
  · split at hx
    · simp only [List.mem_singleton] at hx
      subst hx
      rfl
    · cases hx
  · split at hx
    · rw [List.mem_append] at hx
      rcases hx with hx | hx
      · simp only [List.mem_singleton] at hx
        subst hx
        rfl
      · split at hx
        · simp only [List.mem_singleton] at hx
          subst hx
          rfl
        · cases hx
    · cases hx

theorem postHooks_update (v : VNode) (e : Handle) :
    ∀ x ∈ postHooks v e, isUpdateHook x = true := by
  intro x hx
  unfold postHooks at hx
  split at hx
  · simp only [List.mem_singleton] at hx
    subst hx
    rfl
  · cases hx

/-- What `sameTree` says of the two roots. -/
theorem sameTree_node (o n : VNode) (h : sameTree o n = true) :
    sameVnode o n = .ok true ∧ o.info.isAsyncPlaceholder = false ∧ o.info.text = n.info.text ∧
      ((o.children = none ∧ n.children = none) ∨
        ∃ a b, o.children = some a ∧ n.children = some b ∧ sameTreeL a b = true) := by
  have hnode : ∀ i j : VInfo, sameNode i j = true →
      sameVnodeInfo i j = .ok true ∧ i.isAsyncPlaceholder = false ∧ i.text = j.text := by
    intro i j hij
    unfold sameNode at hij
    simp only [Bool.and_eq_true, Bool.not_eq_true', decide_eq_true_eq] at hij
    obtain ⟨⟨h1, h2⟩, h3⟩ := hij
    refine ⟨?_, h2, h3⟩
    cases hs : sameVnodeInfo i j with
    | error e => rw [hs] at h1; cases h1
    | ok b =>
      cases b with
      | false => rw [hs] at h1; cases h1
      | true => rfl
  cases o with
  | mk i cs =>
    cases n with
    | mk j ds =>
      cases cs with
      | none =>
        cases ds with
        | none =>
          simp only [sameTree] at h
          obtain ⟨h1, h2, h3⟩ := hnode i j h
          exact ⟨h1, h2, h3, Or.inl ⟨rfl, rfl⟩⟩
        | some b => simp [sameTree] at h
      | some a =>
        cases ds with
        | none => simp [sameTree] at h
        | some b =>
          simp only [sameTree, Bool.and_eq_true] at h
          obtain ⟨h1, h2, h3⟩ := hnode i j h.1
          exact ⟨h1, h2, h3, Or.inr ⟨a, b, rfl, rfl, h.2⟩⟩

/-- The children of two trees related by `sameTree`, rendered by `kids`, are
quiet pairs as soon as `pv` is quiet on each of them. -/
theorem quiet_pairs (pv : PatchVnode) (kids : List LNode) (st : St)
    (hnd : (kids.map LNode.h).Nodup) :
    ∀ (olds news : List VNode) (KX KT : List LNode), kids = KX ++ KT →
      mirrorsL KT olds = true → sameTreeL olds news = true →
      (∀ o ∈ olds, ∀ (n : VNode) (sub : LNode), sameTree o n = true → mirrors sub o = true →
        ∃ v1 ev, pv o n sub st = .ok (v1, sub, st, ev) ∧ ∀ x ∈ ev, isUpdateHook x = true) →
      List.Forall₂ (QuietPair pv kids st) olds news := by
  intro olds
  induction olds with
  | nil =>
    intro news KX KT _ _ hs _
    cases news with
    | nil => exact List.Forall₂.nil
    | cons n ns => simp [sameTreeL] at hs
  | cons o os ih =>
    intro news KX KT hk hm hs hpv
    cases news with
    | nil => simp [sameTreeL] at hs
    | cons n ns =>
      cases KT with
      | nil => simp [mirrorsL] at hm
      | cons k kt =>
        simp only [sameTreeL, Bool.and_eq_true] at hs
        simp only [mirrorsL, Bool.and_eq_true] at hm
        have hnk : k.h ∉ KX.map LNode.h := by
          rw [hk, List.map_append, List.map_cons] at hnd
          have := (List.nodup_append.1 hnd).2.2
          intro hin
          exact this hin (List.mem_cons_self _ _)
        obtain ⟨v1, ev, hrun, hev⟩ := hpv o (List.mem_cons_self _ _) n k hs.1 hm.1
        refine List.Forall₂.cons ⟨(sameTree_node o n hs.1).1, k.h, k, mirrors_elm k o hm.1, ?_,
          v1, ev, hrun, hev⟩ ?_
        · rw [hk]
          exact findH_mid KX kt k hnk
        · exact ih ns (KX ++ [k]) kt (by rw [hk]; simp) hm.2 hs.2
            (fun c hc => hpv c (List.mem_cons_of_mem _ hc))

theorem slotAt_suffix_some (Po : List (Option VNode)) (So : List VNode) (i : Int)
    (h0 : (Po.length : Int) ≤ i) (h1 : i < (Po.length : Int) + So.length) :
    ∃ v, slotAt (Po ++ So.map some) i = some v := by
  unfold slotAt
  rw [getAt_append_right _ _ _ h0, getAt_map]
  obtain ⟨x, hx⟩ := getAt_of_range So (i - Po.length) (by omega) (by omega)
  rw [hx]
  exact ⟨x, rfl⟩

/-- The loop of `updateChildren` on quiet pairs: every iteration patches the
two start nodes, and the live children and the state stay as they were. -/
theorem ucLoop_quiet (pv : PatchVnode) (ce : CreateElm) (p : Handle) (cm : Bool)
    (kids : List LNode) (st : St) :
    ∀ (So Sn : List VNode), List.Forall₂ (QuietPair pv kids st) So Sn →
    ∀ (Po : List (Option VNode)) (Pn : List VNode) (s : UState) (fuel : Nat),
      Po.length = Pn.length → s.oldCh = Po ++ So.map some → s.newCh = Pn ++ Sn →
      s.oldStartIdx = Pn.length → s.newStartIdx = Pn.length →
      s.oldEndIdx = (Pn.length : Int) + Sn.length - 1 →
      s.newEndIdx = (Pn.length : Int) + Sn.length - 1 →
      s.kids = kids → s.st = st → (∀ x ∈ s.log, isUpdateHook x = true) → Sn.length ≤ fuel →
      ∃ s1, ucLoop pv ce p cm fuel s = .ok s1 ∧ s1.kids = kids ∧ s1.st = st ∧
        (∀ x ∈ s1.log, isUpdateHook x = true) ∧ s1.oldEndIdx < s1.oldStartIdx ∧
        s1.newEndIdx < s1.newStartIdx := by
  intro So Sn hF
  induction hF with
  | nil =>
    intro Po Pn s fuel _ _ _ hos hns hoe hne hK hS hL _
    simp only [List.length_nil, Nat.cast_zero, add_zero] at hoe hne
    refine ⟨s, ucLoop_exit _ _ _ _ _ _ (by omega), hK, hS, hL, by omega, by omega⟩
  | @cons o n So Sn hq hrest ih =>
    intro Po Pn s fuel hlen hO hN hos hns hoe hne hK hS hL hfuel
    have hl := hrest.length_eq
    simp only [List.length_cons, Nat.cast_add, Nat.cast_one] at hoe hne hfuel
    cases fuel with
    | zero => omega
    | succ f =>
      obtain ⟨hsv, e, sub, he, hf, v1, ev, hpv, hev⟩ := hq
      have ho : slotAt s.oldCh s.oldStartIdx = some o := by
        rw [hO, hos, List.map_cons]
        exact slotAt_append_mid Po (some o) (So.map some) _ (by omega)
      have hn : getAt s.newCh s.newStartIdx = some n := by
        rw [hN, hns]
        exact getAt_append_mid Pn n Sn _ rfl
      obtain ⟨oe, hoe1⟩ : ∃ v, slotAt s.oldCh s.oldEndIdx = some v := by
        rw [hO, hoe]
        exact slotAt_suffix_some Po (o :: So) _ (by omega) (by
          simp only [List.length_cons, Nat.cast_add, Nat.cast_one]; omega)
      obtain ⟨ne, hne1⟩ : ∃ v, getAt s.newCh s.newEndIdx = some v := by
        rw [hN, hne]
        exact getAt_of_range _ _ (by omega) (by
          simp only [List.length_append, List.length_cons, Nat.cast_add, Nat.cast_one]; omega)
      have hstep : ucStep pv ce p cm s = .ok
          { s with kids := kids, newCh := Pn ++ v1 :: Sn, st := st,
                   trace := s.trace ++ [.patch s.oldStartIdx s.newStartIdx],
                   log := s.log ++ ev, oldStartIdx := s.oldStartIdx + 1,
                   newStartIdx := s.newStartIdx + 1 } := by
        have hset : setAt s.newCh s.newStartIdx v1 = Pn ++ v1 :: Sn := by
          rw [hN, hns]
          exact setAt_append_mid Pn n v1 Sn _ rfl
        unfold ucStep patchAt
        simp only [ho, hoe1, hn, hne1, hsv, he, hK, hf, hS, hpv, replaceH_self kids e sub hf, hset]
      rw [ucLoop_succ _ _ _ _ f _ _ (by omega) hstep]
      exact ih (Po ++ [some o]) (Pn ++ [v1]) _ f (by simp [hlen])
        (by simp [hO]) (by simp)
        (by simp only [List.length_append, List.length_singleton, Nat.cast_add, Nat.cast_one]
            omega)
        (by simp only [List.length_append, List.length_singleton, Nat.cast_add, Nat.cast_one]
            omega)
        (by simp only [List.length_append, List.length_singleton, Nat.cast_add, Nat.cast_one]
            omega)
        (by simp only [List.length_append, List.length_singleton, Nat.cast_add, Nat.cast_one]
            omega)
        rfl rfl
        (fun x hx => by
          rcases List.mem_append.1 hx with hx | hx
          · exact hL x hx
          · exact hev x hx)
        (by omega)

/-- On quiet pairs `updateChildren` returns, and it leaves the live children
and the state as they were; its events are update hooks. -/
theorem updateChildrenWith_quiet (pv : PatchVnode) (ce : CreateElm) (d : Nat) (p : Handle)
    (kids : List LNode) (st : St) (olds news : List VNode) (ro : Bool)
    (hF : List.Forall₂ (QuietPair pv kids st) olds news) :
    ∃ s, updateChildrenWith pv ce d p kids (olds.map some) news ro st = .ok s ∧
      s.kids = kids ∧ s.st = st ∧ ∀ x ∈ s.log, isUpdateHook x = true := by
  obtain ⟨s1, hrun, hK, hS, hL, h1, h2⟩ := ucLoop_quiet pv ce p (!ro) kids st olds news hF [] []
    { kids := kids, oldCh := olds.map some, newCh := news,
      oldStartIdx := 0, oldEndIdx := ((olds.map some).length : Int) - 1,
      newStartIdx := 0, newEndIdx := (news.length : Int) - 1,
      oldKeyToIdx := none, st := st, trace := [], log := [] }
    ((olds.map some).length + news.length) rfl rfl rfl rfl rfl
    (by have := hF.length_eq; simp; omega) (by simp) rfl rfl (by simp) (by omega)
  unfold updateChildrenWith
  rw [hrun]
  unfold ucFinish addVnodes
  have hz : (s1.newEndIdx - s1.newStartIdx + 1).toNat = 0 := by omega
  simp only [gt_iff_lt, h1, if_true, hz, addVnodesLoop]
  exact ⟨_, rfl, hK, hS, by simpa using hL⟩

/-- Patching a rendered tree against a tree that `sameTree` relates to it
returns, leaves the live tree and the state as they were, and fires update
hooks only. -/
theorem patchVnode_quiet : ∀ (d : Nat) (hasOwner removeOnly : Bool) (o n : VNode) (sub : LNode)
    (st : St), sameTree o n = true → mirrors sub o = true → o.height ≤ d →
    ∃ n1 ev, patchVnode d hasOwner removeOnly o n sub st = .ok (n1, sub, st, ev) ∧
      ∀ x ∈ ev, isUpdateHook x = true := by
  intro d
  induction d with
  | zero =>
    intro _ _ o _ _ _ _ _ ho
    have := height_pos o
    omega
  | succ d ih =>
    intro hasOwner removeOnly o n sub st hs hm hd
    obtain ⟨_, hA, htx, hch⟩ := sameTree_node o n hs
    have hvch : ((cloneIfUsed n hasOwner).setElm o.elm).children = n.children := by simp
    have hvtx : ((cloneIfUsed n hasOwner).setElm o.elm).info.text = n.info.text := by
      unfold cloneIfUsed cloneVNode
      split <;> cases n <;> rfl
    unfold patchVnode
    simp only []
    generalize (cloneIfUsed n hasOwner).setElm o.elm = vnode at *
    simp only [hA, Bool.false_eq_true, if_false]
    have hpre := updateHooks_update vnode sub.h
    have hpost := postHooks_update vnode sub.h
    split
    · exact ⟨_, _, rfl, by simp⟩
    · cases hvt : vnode.info.text with
      | some t =>
        simp only
        rw [hvtx] at hvt
        rw [← htx] at hvt
        simp only [hvt, ne_eq, not_true_eq_false, if_false]
        refine ⟨_, _, rfl, ?_⟩
        intro x hx
        rcases List.mem_append.1 hx with hx | hx
        · exact hpre x hx
        · exact hpost x hx
      | none =>
        simp only
        rw [hvtx] at hvt
        rw [← htx] at hvt
        rcases hch with ⟨hoc, hnc⟩ | ⟨a, b, hoc, hnc, hab⟩
        · rw [← hvch] at hnc
          simp only [hoc, hnc, hvt, Option.isSome_none, Bool.false_eq_true, if_false]
          refine ⟨_, _, rfl, ?_⟩
          intro x hx
          rcases List.mem_append.1 hx with hx | hx
          · exact hpre x hx
          · exact hpost x hx
        · rw [← hvch] at hnc
          simp only [hoc, hnc]
          obtain ⟨hnd, hml⟩ := mirrors_children sub o a hm hoc
          have hF := quiet_pairs (patchVnode d true false) sub.kids st hnd a b [] sub.kids rfl
            hml hab (fun c hc c1 k hs1 hm1 => ih true false c c1 k st hs1 hm1 (by
              have := height_children o a hoc c hc
              omega))
          obtain ⟨s, hrun, hK, hS, hL⟩ := updateChildrenWith_quiet (patchVnode d true false)
            (createElm d) d sub.h sub.kids st a b removeOnly hF
          simp only [hrun]
          refine ⟨vnode.setChildren (some s.newCh),
            updateHooks vnode sub.h ++ s.log ++ postHooks vnode sub.h, ?_, ?_⟩
          · rw [hK, hS, LNode.setKids_self]
          · intro x hx
            rcases List.mem_append.1 hx with hx | hx
            · rcases List.mem_append.1 hx with hx | hx
              · exact hpre x hx
              · exact hL x hx
            · exact hpost x hx
theorem sameNode_fields (i j : VInfo) (h : sameNode i j = true) : sameFields i j = true := by
  unfold sameNode at h
  simp only [Bool.and_eq_true, Bool.not_eq_true', decide_eq_true_eq] at h
  obtain ⟨⟨h1, h2⟩, h3⟩ := h
  have hsv : sameVnodeInfo i j = .ok true := by
    cases hs : sameVnodeInfo i j with
    | error e => rw [hs] at h1; cases h1
    | ok b =>
      cases b with
      | false => rw [hs] at h1; cases h1
      | true => rfl
  unfold sameVnodeInfo at hsv
  unfold sameFields
  split at hsv
  · rename_i hk
    split at hsv
    · rename_i ht
      simp only [Bool.and_eq_true, decide_eq_true_eq]
      exact ⟨⟨⟨⟨ht.1, hk.1⟩, ht.2.1⟩, ht.2.2.1⟩, h3⟩
    · simp only [h2, Bool.false_eq_true, if_false] at hsv
      cases hsv
  · cases hsv

/-- Two trees related by `sameTree` are structurally identical in the sense
of the idempotence claim. -/
theorem sameTree_structurallyIdentical : ∀ (d : Nat) (o n : VNode), o.height ≤ d →
    sameTree o n = true → structurallyIdentical o n = true := by
  intro d
  induction d with
  | zero =>
    intro o _ ho _
    have := height_pos o
    omega
  | succ d ih =>
    intro o n hd h
    have hL : ∀ (a b : List VNode), (∀ c ∈ a, c.height ≤ d) → sameTreeL a b = true →
        structurallyIdenticalL a b = true := by
      intro a
      induction a with
      | nil =>
        intro b _ hb
        cases b with
        | nil => rfl
        | cons y ys => simp [sameTreeL] at hb
      | cons x xs iha =>
        intro b hx hb
        cases b with
        | nil => simp [sameTreeL] at hb
        | cons y ys =>
          simp only [sameTreeL, Bool.and_eq_true] at hb
          simp only [structurallyIdenticalL, Bool.and_eq_true]
          exact ⟨ih x y (hx x (List.mem_cons_self _ _)) hb.1,
            iha ys (fun c hc => hx c (List.mem_cons_of_mem _ hc)) hb.2⟩
    cases o with
    | mk i cs =>
      cases n with
      | mk j ds =>
        cases cs with
        | none =>
          cases ds with
          | none =>
            simp only [sameTree] at h
            simp only [structurallyIdentical]
            exact sameNode_fields i j h
          | some b => simp [sameTree] at h
        | some a =>
          cases ds with
          | none => simp [sameTree] at h
          | some b =>
            simp only [sameTree, Bool.and_eq_true] at h
            simp only [structurallyIdentical, Bool.and_eq_true]
            refine ⟨sameNode_fields i j h.1, hL a b (fun c hc => ?_) h.2⟩
            have := height_children (VNode.mk i (some a)) a rfl c hc
            omega

/-! ## The keyed diff on arbitrary lists -/

theorem replaceH_handles (K : List LNode) (e : Handle) (n1 : LNode) (h : n1.h = e) :
    (replaceH K e n1).map LNode.h = K.map LNode.h := by
  induction K with
  | nil => rfl
  | cons k ks ih =>
    unfold replaceH
    by_cases hk : (k.h == e) = true
    · simp only [hk, if_true, List.map_cons]
      rw [h, ← beq_iff_eq.1 hk]
    · simp only [hk, Bool.false_eq_true, if_false, List.map_cons, ih]

theorem mem_replaceH (K : List LNode) (e : Handle) (n1 k : LNode) (h : k ∈ replaceH K e n1) :
    k = n1 ∨ k ∈ K := by
  induction K with
  | nil => simp [replaceH] at h
  | cons x xs ih =>
    unfold replaceH at h
    by_cases hk : (x.h == e) = true
    · simp only [hk, if_true, List.mem_cons] at h
      rcases h with h | h
      · exact Or.inl h
      · exact Or.inr (List.mem_cons_of_mem _ h)
    · simp only [hk, Bool.false_eq_true, if_false, List.mem_cons] at h
      rcases h with h | h
      · exact Or.inr (h ▸ List.mem_cons_self _ _)
      · rcases ih h with h1 | h1
        · exact Or.inl h1
        · exact Or.inr (List.mem_cons_of_mem _ h1)

theorem findH_mem (K : List LNode) (e : Handle) (sub : LNode) (h : findH K e = some sub) :
    sub ∈ K ∧ sub.h = e := by
  unfold findH at h
  exact ⟨List.mem_of_find?_eq_some h, by simpa using List.find?_some h⟩

theorem insert_nodup (p : Handle) (K : List LNode) (node : LNode) (ref : Option Handle)
    (hf : node.h ∉ K.map LNode.h) (hnd : (K.map LNode.h).Nodup) (R : List LNode) (ev : List Ev)
    (h : insert (some p) K node ref = .ok (R, ev)) : (R.map LNode.h).Nodup := by
  have hcons : ((node :: K).map LNode.h).Nodup := by
    rw [List.map_cons]
    exact List.nodup_cons.2 ⟨hf, hnd⟩
  cases ref with
  | none =>
    rw [insert_append p K node hf] at h
    simp only [Except.ok.injEq, Prod.mk.injEq] at h
    rw [← h.1]
    exact nodup_of_perm _ _ (List.perm_append_comm.trans (by simp)) hcons
  | some r =>
    unfold insert at h
    simp only at h
    by_cases hr : hasH K r = true
    · have hm := (hasH_iff K r).1 hr
      have hne : (r == node.h) = false := by
        simpa using fun e : r = node.h => hf (e ▸ hm)
      simp only [hr, if_true, domInsertBefore, hne, Bool.false_eq_true, if_false,
        removeH_not_mem K node.h hf] at h
      cases hi : insertBeforeH K node r with
      | none => rw [hi] at h; cases h
      | some ks =>
        rw [hi] at h
        simp only [Except.ok.injEq, Prod.mk.injEq] at h
        rw [← h.1]
        exact nodup_of_perm _ _ (insertBeforeH_perm _ _ _ _ hi) hcons
    · simp only [hr, Bool.false_eq_true, if_false, Except.ok.injEq, Prod.mk.injEq] at h
      rw [← h.1]
      exact hnd

theorem step_refl (j : Int) (s : UState) (hb : ∀ k ∈ s.kids, LNode.bounded s.st.next k = true) :
    Step j s s :=
  ⟨le_refl _, hb, id, fun _ _ => rfl, rfl, rfl⟩

theorem step_trans (j : Int) (s a b : UState) (h1 : Step j s a) (h2 : Step j a b) :
    Step j s b :=
  ⟨le_trans h1.1 h2.1, h2.2.1, fun hn => h2.2.2.1 (h1.2.2.1 hn),
    fun t ht => (h2.2.2.2.1 t ht).trans (h1.2.2.2.1 t ht),
    h2.2.2.2.2.1.trans h1.2.2.2.2.1, h2.2.2.2.2.2.trans h1.2.2.2.2.2⟩

/-- A patch inside an iteration keeps the live children within the handles
in use and distinct. -/
theorem patchAt_step (pv : PatchVnode) (s sp : UState) (o n : VNode) (i j : Int)
    (hpv : PvKeeps pv n) (hb : ∀ k ∈ s.kids, LNode.bounded s.st.next k = true)
    (h : patchAt pv s o i n j = .ok sp) : Step j s sp := by
  unfold patchAt at h
  cases he : o.elm with
  | none => rw [he] at h; cases h
  | some e =>
    rw [he] at h
    simp only at h
    cases hf : findH s.kids e with
    | none => rw [hf] at h; cases h
    | some sub =>
      rw [hf] at h
      simp only at h
      cases hr : pv o n sub s.st with
      | error err => rw [hr] at h; cases h
      | ok r =>
        obtain ⟨v1, sub1, st1, ev1⟩ := r
        rw [hr] at h
        simp only [Except.ok.injEq] at h
        subst h
        obtain ⟨hm, hh⟩ := findH_mem s.kids e sub hf
        obtain ⟨h1, h2, h3⟩ := hpv o sub s.st v1 sub1 st1 ev1 (hb sub hm) hr
        refine ⟨h2, ?_, ?_, fun t ht => getAt_setAt_ne _ _ _ _ (Ne.symm ht), rfl, rfl⟩
        · intro k hk
          rcases mem_replaceH s.kids e sub1 k hk with hk1 | hk1
          · rw [hk1]; exact h3
          · exact bounded_mono _ _ h2 k (hb k hk1)
        · intro hnd
          show ((replaceH s.kids e sub1).map LNode.h).Nodup
          rw [replaceH_handles s.kids e sub1 (h1.trans hh)]
          exact hnd

/-- A move inside an iteration keeps the live children within the handles in
use and distinct. -/
theorem moveAt_step (p : Handle) (cm : Bool) (s sm : UState) (e ref : Option Handle) (j : Int)
    (hb : ∀ k ∈ s.kids, LNode.bounded s.st.next k = true)
    (h : moveAt p cm s e ref = .ok sm) : Step j s sm := by
  unfold moveAt at h
  by_cases hcm : cm = true
  · simp only [hcm, if_true] at h
    cases e with
    | none => cases h
    | some x =>
      simp only at h
      cases hf : findH s.kids x with
      | none => rw [hf] at h; cases h
      | some node =>
        rw [hf] at h
        simp only at h
        cases hi : domInsertBefore s.kids node ref with
        | error err => rw [hi] at h; cases h
        | ok ks =>
          rw [hi] at h
          simp only [Except.ok.injEq] at h
          subst h
          have hp := move_perm s.kids x node ref ks hf hi
          exact ⟨le_refl _, fun k hk => hb k (hp.mem_iff.1 hk),
            fun hnd => nodup_of_perm _ _ hp hnd, fun _ _ => rfl, rfl, rfl⟩
  · simp only [hcm, Bool.false_eq_true, if_false, Except.ok.injEq] at h
    subst h
    exact step_refl j s hb

/-- A creation inside an iteration keeps the live children within the
handles in use and distinct. -/
theorem createAt_step (ce : CreateElm) (p : Handle) (s sc : UState) (n : VNode) (j : Int)
    (ref : Option Handle) (hce : CeSpec ce n)
    (hb : ∀ k ∈ s.kids, LNode.bounded s.st.next k = true)
    (h : createAt ce p s n j ref = .ok sc) : Step j s sc := by
  obtain ⟨n1, node, st1, ev, _, hnh, _, hlt, hnb, hrun⟩ := hce true s.st
  have hfresh : node.h ∉ s.kids.map LNode.h := by
    rw [hnh]; exact bounded_not_mem s.st.next s.kids hb s.st.next (le_refl _)
  unfold createAt at h
  rw [hrun] at h
  cases hi : insert (some p) s.kids node ref with
  | error err => rw [hi] at h; cases h
  | ok r =>
    obtain ⟨R, ev2⟩ := r
    rw [hi] at h
    simp only [Except.ok.injEq] at h
    subst h
    obtain ⟨r2, hr2, hmem⟩ := insert_fresh (some p) s.kids node ref hfresh
    rw [hi] at hr2
    simp only [Except.ok.injEq] at hr2
    subst hr2
    refine ⟨le_of_lt hlt, ?_, fun hnd => insert_nodup p s.kids node ref hfresh hnd R ev2 hi,
      fun t ht => getAt_setAt_ne _ _ _ _ (Ne.symm ht), rfl, rfl⟩
    intro k hk
    rcases hmem k hk with h1 | h1
    · rw [h1]; exact hnb
    · exact bounded_mono _ _ (le_of_lt hlt) k (hb k h1)

/-- One iteration of the loop keeps the live children within the handles in
use and distinct, and leaves the new nodes still to be handled as they
were, whatever the lists. -/
theorem ucStep_lite (pv : PatchVnode) (ce : CreateElm) (p : Handle) (cm : Bool)
    (news : List VNode) (b0 : Nat) (hpv : ∀ n ∈ news, PvKeeps pv n)
    (hce : ∀ n ∈ news, CeSpec ce n) (s s1 : UState) (hi : Lite news b0 s)
    (hnle : s.newStartIdx ≤ s.newEndIdx) (h : ucStep pv ce p cm s = .ok s1) :
    Lite news b0 s1 ∧ ((s.kids.map LNode.h).Nodup → (s1.kids.map LNode.h).Nodup) := by
  have hb := hi.bnd
  have hmem : ∀ j n, s.newStartIdx ≤ j → j ≤ s.newEndIdx → getAt s.newCh j = some n →
      n ∈ news := by
    intro j n h1 h2 hg
    rw [hi.mid j h1 h2] at hg
    exact getAt_mem news j n hg
  have front : ∀ (sp s2 : UState), Step s.newStartIdx s sp → s2.kids = sp.kids →
      s2.st = sp.st → s2.newCh = sp.newCh → s2.newStartIdx = s.newStartIdx + 1 →
      s2.newEndIdx = sp.newEndIdx →
      Lite news b0 s2 ∧ ((s.kids.map LNode.h).Nodup → (s2.kids.map LNode.h).Nodup) := by
    intro sp s2 hs h1 h2 h3 h4 h5
    obtain ⟨g1, g2, g3, g4, _, g6⟩ := hs
    refine ⟨⟨?_, ?_, ?_⟩, ?_⟩
    · rw [h1, h2]; exact g2
    · rw [h2]; exact le_trans hi.fresh g1
    · intro t ht1 ht2
      rw [h3, g4 t (by omega)]
      exact hi.mid t (by omega) (by omega)
    · rw [h1]; exact g3
  have back : ∀ (sp s2 : UState), Step s.newEndIdx s sp → s2.kids = sp.kids →
      s2.st = sp.st → s2.newCh = sp.newCh → s2.newStartIdx = sp.newStartIdx →
      s2.newEndIdx = s.newEndIdx - 1 →
      Lite news b0 s2 ∧ ((s.kids.map LNode.h).Nodup → (s2.kids.map LNode.h).Nodup) := by
    intro sp s2 hs h1 h2 h3 h4 h5
    obtain ⟨g1, g2, g3, g4, g5, _⟩ := hs
    refine ⟨⟨?_, ?_, ?_⟩, ?_⟩
    · rw [h1, h2]; exact g2
    · rw [h2]; exact le_trans hi.fresh g1
    · intro t ht1 ht2
      rw [h3, g4 t (by omega)]
      exact hi.mid t (by omega) (by omega)
    · rw [h1]; exact g3
  unfold ucStep at h
  split at h
  · simp only [Except.ok.injEq] at h
    subst h
    exact ⟨⟨hi.bnd, hi.fresh, hi.mid⟩, id⟩
  · split at h
    · simp only [Except.ok.injEq] at h
      subst h
      exact ⟨⟨hi.bnd, hi.fresh, hi.mid⟩, id⟩
    · split at h
      · rename_i ns ne hns hne
        have hnsm := hpv ns (hmem _ ns (le_refl _) hnle hns)
        have hnem := hpv ne (hmem _ ne hnle (le_refl _) hne)
        split at h
        · cases h
        · split at h
          · cases h
          · rename_i sp hp
            simp only [Except.ok.injEq] at h
            subst h
            exact front sp _ (patchAt_step pv s sp _ ns _ _ hnsm hb hp) rfl rfl rfl rfl rfl
        · split at h
          · cases h
          · split at h
            · cases h
            · rename_i sp hp
              simp only [Except.ok.injEq] at h
              subst h
              exact back sp _ (patchAt_step pv s sp _ ne _ _ hnem hb hp) rfl rfl rfl rfl rfl
          · split at h
            · cases h
            · split at h
              · cases h
              · rename_i sp hp
                have hsp := patchAt_step pv s sp _ ne _ _ hnem hb hp
                split at h
                · cases h
                · split at h
                  · cases h
                  · rename_i sm hm
                    simp only [Except.ok.injEq] at h
                    subst h
                    exact back sm _ (step_trans _ s sp sm hsp
                      (moveAt_step p cm sp sm _ _ _ hsp.2.1 hm)) rfl rfl rfl rfl rfl
            · split at h
              · cases h
              · split at h
                · cases h
                · rename_i sp hp
                  have hsp := patchAt_step pv s sp _ ns _ _ hnsm hb hp
                  split at h
                  · cases h
                  · rename_i sm hm
                    simp only [Except.ok.injEq] at h
                    subst h
                    exact front sm _ (step_trans _ s sp sm hsp
                      (moveAt_step p cm sp sm _ _ _ hsp.2.1 hm)) rfl rfl rfl rfl rfl
              · -- the lookup
                have hnew : ∀ (m : KeyMap) (os : VNode) (sr : UState),
                    stepNew ce p s m os ns = .ok sr →
                    Lite news b0 sr ∧
                      ((s.kids.map LNode.h).Nodup → (sr.kids.map LNode.h).Nodup) := by
                  intro m os sr hn
                  unfold stepNew at hn
                  split at hn
                  · cases hn
                  · rename_i sc hc
                    simp only [Except.ok.injEq] at hn
                    subst hn
                    have hsc : Step s.newStartIdx s sc :=
                      createAt_step ce p { s with oldKeyToIdx := some m } sc ns _ _
                        (hce ns (hmem _ ns (le_refl _) hnle hns)) hb hc
                    exact front sc _ hsc rfl rfl rfl rfl rfl
                unfold stepLookup at h
                cases hkm : keyMapOf s with
                | error err => rw [hkm] at h; cases h
                | ok m =>
                  rw [hkm] at h
                  simp only at h
                  cases hix : idxInOldOf s ns m with
                  | error err => rw [hix] at h; cases h
                  | ok r =>
                    rw [hix] at h
                    cases r with
                    | inherited =>
                      simp only at h
                      cases h
                    | undefined => exact hnew m _ s1 h
                    | index idx =>
                      simp only at h
                      unfold stepFound at h
                      cases hv : slotAt s.oldCh idx with
                      | none => rw [hv] at h; cases h
                      | some v =>
                        rw [hv] at h
                        simp only at h
                        cases hsv : sameVnode v ns with
                        | error err => rw [hsv] at h; cases h
                        | ok b =>
                          rw [hsv] at h
                          cases b with
                          | false => exact hnew m _ s1 h
                          | true =>
                            simp only at h
                            split at h
                            · cases h
                            · rename_i sp hp
                              have hsp : Step s.newStartIdx s sp :=
                                patchAt_step pv { s with oldKeyToIdx := some m } sp _ ns _ _
                                  hnsm hb hp
                              split at h
                              · cases h
                              · rename_i sm hm
                                simp only [Except.ok.injEq] at h
                                subst h
                                have hsm : Step s.newStartIdx sp sm :=
                                  moveAt_step p cm { sp with oldCh := setAt sp.oldCh idx none }
                                    sm _ _ _ hsp.2.1 hm
                                exact front sm _ (step_trans _ s sp sm hsp hsm)
                                  rfl rfl rfl rfl rfl
      · cases h

/-- The loop keeps the live children within the handles in use and
distinct, whatever the lists. -/
theorem ucLoop_lite (pv : PatchVnode) (ce : CreateElm) (p : Handle) (cm : Bool)
    (news : List VNode) (b0 : Nat) (hpv : ∀ n ∈ news, PvKeeps pv n)
    (hce : ∀ n ∈ news, CeSpec ce n) :
    ∀ (fuel : Nat) (s sr : UState), Lite news b0 s → ucLoop pv ce p cm fuel s = .ok sr →
      Lite news b0 sr ∧ ((s.kids.map LNode.h).Nodup → (sr.kids.map LNode.h).Nodup) := by
  intro fuel
  induction fuel with
  | zero =>
    intro s sr hi h
    unfold ucLoop at h
    split at h
    · cases h
    · simp only [Except.ok.injEq] at h
      subst h
      exact ⟨hi, id⟩
  | succ fuel ih =>
    intro s sr hi h
    unfold ucLoop at h
    by_cases hc : s.oldStartIdx ≤ s.oldEndIdx ∧ s.newStartIdx ≤ s.newEndIdx
    · simp only [hc, and_self, if_true] at h
      cases hs : ucStep pv ce p cm s with
      | error err => rw [hs] at h; cases h
      | ok sn =>
        rw [hs] at h
        simp only at h
        obtain ⟨hin, hn1⟩ := ucStep_lite pv ce p cm news b0 hpv hce s sn hi hc.2 hs
        obtain ⟨hir, hn2⟩ := ih sn sr hin h
        exact ⟨hir, fun hnd => hn2 (hn1 hnd)⟩
    · simp only [hc, if_false, Except.ok.injEq] at h
      subst h
      exact ⟨hi, id⟩

/-- The loop of `addVnodes` keeps the live children within the handles in
use and distinct. -/
theorem addVnodesLoop_keeps (ce : CreateElm) (p : Handle) (ref : Option Handle) (e : Int) :
    ∀ (n : Nat) (i : Int) (vnodes : List VNode) (K : List LNode) (st : St)
      (vn : List VNode) (R : List LNode) (st1 : St) (tr : List UEv) (ev : List Ev),
      (∀ k ∈ K, LNode.bounded st.next k = true) →
      (∀ j v, i ≤ j → j ≤ e → getAt vnodes j = some v → CeSpec ce v) →
      addVnodesLoop ce p ref e n i vnodes K st = .ok (vn, R, st1, tr, ev) →
      st.next ≤ st1.next ∧ (∀ k ∈ R, LNode.bounded st1.next k = true) ∧
        ((K.map LNode.h).Nodup → (R.map LNode.h).Nodup) := by
  intro n
  induction n with
  | zero =>
    intro i vnodes K st vn R st1 tr ev hb _ h
    simp only [addVnodesLoop, Except.ok.injEq, Prod.mk.injEq] at h
    rw [← h.2.1, ← h.2.2.1]
    exact ⟨le_refl _, hb, id⟩
  | succ n ih =>
    intro i vnodes K st vn R st1 tr ev hb hce h
    unfold addVnodesLoop at h
    by_cases hie : i ≤ e
    · simp only [hie, if_true] at h
      cases hg : getAt vnodes i with
      | none => rw [hg] at h; cases h
      | some v =>
        rw [hg] at h
        simp only at h
        obtain ⟨n1, node, st2, ev1, _, hnh, _, hlt, hnb, hrun⟩ := hce i v (le_refl _) hie hg true st
        have hfresh : node.h ∉ K.map LNode.h := by
          rw [hnh]; exact bounded_not_mem st.next K hb st.next (le_refl _)
        rw [hrun] at h
        cases hi : insert (some p) K node ref with
        | error err => rw [hi] at h; cases h
        | ok r =>
          obtain ⟨R0, ev0⟩ := r
          rw [hi] at h
          simp only at h
          obtain ⟨r2, hr2, hmem⟩ := insert_fresh (some p) K node ref hfresh
          rw [hi] at hr2
          simp only [Except.ok.injEq] at hr2
          subst hr2
          have hb1 : ∀ k ∈ R0, LNode.bounded st2.next k = true := by
            intro k hk
            rcases hmem k hk with h1 | h1
            · rw [h1]; exact hnb
            · exact bounded_mono _ _ (by omega) k (hb k h1)
          cases hl : addVnodesLoop ce p ref e n (i + 1) (setAt vnodes i n1) R0 st2 with
          | error err => rw [hl] at h; cases h
          | ok r3 =>
            obtain ⟨vn3, R3, st3, tr3, ev3⟩ := r3
            rw [hl] at h
            simp only [Except.ok.injEq, Prod.mk.injEq] at h
            obtain ⟨g1, g2, g3⟩ := ih (i + 1) (setAt vnodes i n1) R0 st2 vn3 R3 st3 tr3 ev3
              hb1 (fun j w hj hje hw => hce j w (by omega) hje (by
                rw [getAt_setAt_ne vnodes i j n1 (by omega)] at hw
                exact hw)) hl
            rw [← h.2.1, ← h.2.2.1]
            exact ⟨by omega, g2,
              fun hnd => g3 (insert_nodup p K node ref hfresh hnd R0 ev0 hi)⟩
    · simp only [hie, if_false, Except.ok.injEq, Prod.mk.injEq] at h
      rw [← h.2.1, ← h.2.2.1]
      exact ⟨le_refl _, hb, id⟩

theorem removeNode_sublist (p : Handle) (K : List LNode) (el : Option Handle) (R : List LNode)
    (ev : List Ev) (h : removeNode p K el = .ok (R, ev)) : R.Sublist K := by
  unfold removeNode at h
  cases el with
  | none => cases h
  | some e =>
    simp only at h
    by_cases hh : hasH K e = true
    · simp only [hh, if_true, Except.ok.injEq, Prod.mk.injEq] at h
      rw [← h.1]
      exact removeH_sublist K e
    · simp only [hh, Bool.false_eq_true, if_false, Except.ok.injEq, Prod.mk.injEq] at h
      rw [← h.1]

theorem removeHook_sublist (p : Handle) (K : List LNode) (v : VNode) (R : List LNode)
    (ev : List Ev) (h : removeAndInvokeRemoveHook p K v = .ok (R, ev)) : R.Sublist K := by
  unfold removeAndInvokeRemoveHook at h
  by_cases hd : v.info.data.isSome = true
  · simp only [hd, if_true] at h
    by_cases hrd : v.rmDeferred = true
    · simp only [hrd, if_true, Except.ok.injEq, Prod.mk.injEq] at h
      rw [← h.1]
    · simp only [hrd, Bool.false_eq_true, if_false] at h
      cases hr : removeNode p K v.elm with
      | error err => rw [hr] at h; cases h
      | ok r =>
        obtain ⟨R0, ev0⟩ := r
        rw [hr] at h
        simp only [Except.ok.injEq, Prod.mk.injEq] at h
        rw [← h.1]
        exact removeNode_sublist p K v.elm R0 ev0 hr
  · simp only [hd, Bool.false_eq_true, if_false] at h
    exact removeNode_sublist p K v.elm R ev h

/-- The loop of `removeVnodes` only takes live children away. -/
theorem removeVnodesLoop_sublist (d : Nat) (p : Handle) (vnodes : List (Option VNode))
    (e : Int) :
    ∀ (n : Nat) (i : Int) (K R : List LNode) (tr : List UEv) (ev : List Ev),
      removeVnodesLoop d p vnodes e n i K = .ok (R, tr, ev) → R.Sublist K := by
  intro n
  induction n with
  | zero =>
    intro i K R tr ev h
    simp only [removeVnodesLoop, Except.ok.injEq, Prod.mk.injEq] at h
    rw [← h.1]
  | succ n ih =>
    intro i K R tr ev h
    unfold removeVnodesLoop at h
    by_cases hie : i ≤ e
    · simp only [hie, if_true] at h
      cases hs : slotAt vnodes i with
      | none =>
        rw [hs] at h
        simp only at h
        exact ih (i + 1) K R tr ev h
      | some ch =>
        rw [hs] at h
        simp only at h
        by_cases htag : ch.info.tag.isSome = true
        · simp only [htag, if_true] at h
          cases hr : removeAndInvokeRemoveHook p K ch with
          | error err => rw [hr] at h; cases h
          | ok r =>
            obtain ⟨R0, ev0⟩ := r
            rw [hr] at h
            simp only at h
            cases hdh : invokeDestroyHook d ch with
            | error err => rw [hdh] at h; cases h
            | ok ev2 =>
              rw [hdh] at h
              simp only at h
              cases hl : removeVnodesLoop d p vnodes e n (i + 1) R0 with
              | error err => rw [hl] at h; cases h
              | ok r3 =>
                obtain ⟨R3, tr3, ev3⟩ := r3
                rw [hl] at h
                simp only [Except.ok.injEq, Prod.mk.injEq] at h
                rw [← h.1]
                exact (ih (i + 1) R0 R3 tr3 ev3 hl).trans (removeHook_sublist p K ch R0 ev0 hr)
        · simp only [htag, Bool.false_eq_true, if_false] at h
          cases hr : removeNode p K ch.elm with
          | error err => rw [hr] at h; cases h
          | ok r =>
            obtain ⟨R0, ev0⟩ := r
            rw [hr] at h
            simp only at h
            cases hl : removeVnodesLoop d p vnodes e n (i + 1) R0 with
            | error err => rw [hl] at h; cases h
            | ok r3 =>
              obtain ⟨R3, tr3, ev3⟩ := r3
              rw [hl] at h
              simp only [Except.ok.injEq, Prod.mk.injEq] at h
              rw [← h.1]
              exact (ih (i + 1) R0 R3 tr3 ev3 hl).trans (removeNode_sublist p K ch.elm R0 ev0 hr)
    · simp only [hie, if_false, Except.ok.injEq, Prod.mk.injEq] at h
      rw [← h.1]

/-- The code after the loop keeps the live children within the handles in
use and distinct, whatever the lists. -/
theorem ucFinish_lite (ce : CreateElm) (d : Nat) (p : Handle) (news : List VNode) (b0 : Nat)
    (hce : ∀ n ∈ news, CeSpec ce n) (s sr : UState) (hi : Lite news b0 s)
    (h : ucFinish ce d p s = .ok sr) :
    s.st.next ≤ sr.st.next ∧ (∀ k ∈ sr.kids, LNode.bounded sr.st.next k = true) ∧
      ((s.kids.map LNode.h).Nodup → (sr.kids.map LNode.h).Nodup) := by
  unfold ucFinish at h
  by_cases hadd : s.oldStartIdx > s.oldEndIdx
  · simp only [hadd, if_true] at h
    unfold addVnodes at h
    split at h
    · cases h
    · rename_i vn R st1 tr ev hl
      simp only [Except.ok.injEq] at h
      subst h
      exact addVnodesLoop_keeps ce p _ s.newEndIdx _ s.newStartIdx s.newCh s.kids s.st vn R st1
        tr ev hi.bnd (fun j v hj hje hv => hce v (by
          rw [hi.mid j hj hje] at hv
          exact getAt_mem news j v hv)) hl
  · simp only [hadd, if_false] at h
    by_cases hrem : s.newStartIdx > s.newEndIdx
    · simp only [hrem, if_true] at h
      unfold removeVnodes at h
      split at h
      · cases h
      · rename_i R tr ev hl
        simp only [Except.ok.injEq] at h
        subst h
        have hsub := removeVnodesLoop_sublist d p s.oldCh s.oldEndIdx _ s.oldStartIdx s.kids R
          tr ev hl
        exact ⟨le_refl _, fun k hk => hi.bnd k (hsub.subset hk),
          fun hnd => (hsub.map LNode.h).nodup hnd⟩
    · simp only [hrem, if_false, Except.ok.injEq] at h
      subst h
      exact ⟨le_refl _, hi.bnd, id⟩

/-- Whatever the lists, when `updateChildren` returns it has taken fresh
handles only, and the live children are within the handles in use and
distinct if they were. -/
theorem updateChildrenWith_keeps (pv : PatchVnode) (ce : CreateElm) (d : Nat) (p : Handle)
    (kids : List LNode) (oldCh : List (Option VNode)) (news : List VNode) (ro : Bool) (st : St)
    (hpv : ∀ n ∈ news, PvKeeps pv n) (hce : ∀ n ∈ news, CeSpec ce n)
    (hb : ∀ k ∈ kids, LNode.bounded st.next k = true) (s : UState)
    (h : updateChildrenWith pv ce d p kids oldCh news ro st = .ok s) :
    st.next ≤ s.st.next ∧ (∀ k ∈ s.kids, LNode.bounded s.st.next k = true) ∧
      ((kids.map LNode.h).Nodup → (s.kids.map LNode.h).Nodup) := by
  unfold updateChildrenWith at h
  split at h
  · cases h
  · rename_i sL hL
    obtain ⟨hiL, hn1⟩ := ucLoop_lite pv ce p (!ro) news st.next hpv hce _ _ sL
      ⟨hb, le_refl _, fun _ _ _ => rfl⟩ hL
    obtain ⟨g1, g2, g3⟩ := ucFinish_lite ce d p news st.next hce sL s hiL h
    exact ⟨le_trans hiL.fresh g1, g2, fun hnd => g3 (hn1 hnd)⟩

/-- Whatever the old node, when `patchVnode` returns it has kept the handle
of the live node and taken fresh handles only. -/
theorem patchVnode_keeps : ∀ (d : Nat) (hasOwner removeOnly : Bool) (n : VNode),
    n.height ≤ d → PvKeeps (patchVnode d hasOwner removeOnly) n := by
  intro d
  induction d with
  | zero =>
    intro _ _ n hn
    have := height_pos n
    omega
  | succ d ih =>
    intro hasOwner removeOnly n hhn o sub st v1 sub1 st1 ev hb h
    have hbnd := (bounded_iff _ _).1 hb
    have hvch : ((cloneIfUsed n hasOwner).setElm o.elm).children = n.children := by simp
    have hvh : ((cloneIfUsed n hasOwner).setElm o.elm).height = n.height :=
      height_congr _ _ hvch
    unfold patchVnode at h
    simp only [] at h
    generalize (cloneIfUsed n hasOwner).setElm o.elm = vnode at *
    have hout : ∀ (x : VNode) (y : LNode) (z : St) (w : List Ev),
        y.h = sub.h ∧ st.next ≤ z.next ∧ LNode.bounded z.next y = true →
        (Except.ok (x, y, z, w) : Except Err (VNode × LNode × St × List Ev))
          = .ok (v1, sub1, st1, ev) →
        sub1.h = sub.h ∧ st.next ≤ st1.next ∧ LNode.bounded st1.next sub1 = true := by
      intro x y z w hxyz he
      simp only [Except.ok.injEq, Prod.mk.injEq] at he
      rw [← he.2.1, ← he.2.2.1]
      exact hxyz
    by_cases hA : o.info.isAsyncPlaceholder = true
    · simp only [hA, if_true] at h
      cases hf : vnode.info.asyncFactory with
      | none => rw [hf] at h; cases h
      | some f =>
        rw [hf] at h
        simp only at h
        by_cases hr : f.resolved = true
        · obtain ⟨b, w1, n1, s1, ev1, hrun, h1, _, _, h4, h5⟩ :=
            hydrate_ok (d + 1) vnode (by omega) sub st hb
          simp only [hr, if_true, hrun] at h
          exact hout _ _ _ _ ⟨h1, h4, h5⟩ h
        · simp only [hr, Bool.false_eq_true, if_false] at h
          exact hout _ _ _ _ ⟨rfl, le_refl _, hb⟩ h
    · simp only [hA, Bool.false_eq_true, if_false] at h
      split at h
      · exact hout _ _ _ _ ⟨rfl, le_refl _, hb⟩ h
      · cases htx : vnode.info.text with
        | some t =>
          rw [htx] at h
          simp only at h
          have hd := domSetTextContent_ok sub t st hb
          split at h
          · exact hout _ _ _ _ hd h
          · exact hout _ _ _ _ ⟨rfl, le_refl _, hb⟩ h
        | none =>
          rw [htx] at h
          simp only at h
          have hd := domSetTextContent_ok sub "" st hb
          cases hoc : o.children with
          | none =>
            cases hnc : vnode.children with
            | none =>
              rw [hoc, hnc] at h
              simp only at h
              split at h
              · exact hout _ _ _ _ hd h
              · exact hout _ _ _ _ ⟨rfl, le_refl _, hb⟩ h
            | some ch =>
              rw [hoc, hnc] at h
              simp only at h
              rw [hvch] at hnc
              have hcl : ∃ c : LNode × St × List Ev,
                  (if o.info.text.isSome = true then domSetTextContent sub "" st
                    else (sub, st, [])) = c ∧ c.1.h = sub.h ∧ st.next ≤ c.2.1.next ∧
                    LNode.bounded c.2.1.next c.1 = true := by
                split
                · exact ⟨_, rfl, hd⟩
                · exact ⟨_, rfl, rfl, le_refl _, hb⟩
              obtain ⟨c, hc, hc1, hc2, hc3⟩ := hcl
              rw [hc] at h
              have hcb := (bounded_iff _ _).1 hc3
              unfold addVnodes at h
              split at h
              · cases h
              · rename_i ch1 kids1 s1 tr ev1 hl
                obtain ⟨g1, g2, _⟩ := addVnodesLoop_keeps (createElm d) sub.h none _ _ 0 ch
                  c.1.kids c.2.1 ch1 kids1 s1 tr ev1 hcb.2
                  (fun j v _ _ hv => createElm_spec d v (by
                    have := height_children n ch hnc v (getAt_mem ch j v hv)
                    omega)) hl
                exact hout _ _ _ _ ⟨by simp [hc1], by omega,
                  bounded_setKids _ _ _ (by omega) g2⟩ h
          | some oldCh =>
            cases hnc : vnode.children with
            | none =>
              rw [hoc, hnc] at h
              simp only at h
              unfold removeVnodes at h
              split at h
              · cases h
              · rename_i kids1 tr ev1 hl
                have hsub := removeVnodesLoop_sublist d sub.h _ _ _ _ sub.kids kids1 tr ev1 hl
                exact hout _ _ _ _ ⟨by simp, le_refl _,
                  bounded_setKids _ _ _ hbnd.1 (fun k hk => hbnd.2 k (hsub.subset hk))⟩ h
            | some ch =>
              rw [hoc, hnc] at h
              simp only at h
              rw [hvch] at hnc
              have hnh : ∀ c ∈ ch, c.height ≤ d := fun c hc => by
                have := height_children n ch hnc c hc
                omega
              split at h
              · cases h
              · rename_i s hs
                obtain ⟨g1, g2, _⟩ := updateChildrenWith_keeps (patchVnode d true false)
                  (createElm d) d sub.h sub.kids (oldCh.map some) ch removeOnly st
                  (fun c hc => ih true false c (hnh c hc))
                  (fun c hc => createElm_spec d c (hnh c hc)) hbnd.2 s hs
                exact hout _ _ _ _ ⟨by simp, g1, bounded_setKids _ _ _ (by omega) g2⟩ h

/-- Whatever the lists, the loop with `removeOnly` set follows the loop
without it for as long as that one runs. -/
theorem ucLoop_follow (pv : PatchVnode) (ce : CreateElm) (p : Handle)
    (news : List VNode) (b0 : Nat) (hpv : ∀ n ∈ news, PvKeeps pv n)
    (hce : ∀ n ∈ news, CeSpec ce n) :
    ∀ (fuel : Nat) (s s1 sr : UState), Lite news b0 s → (s.kids.map LNode.h).Nodup →
      Rel s s1 → ucLoop pv ce p true fuel s = .ok sr →
      ∃ sr1, ucLoop pv ce p false fuel s1 = .ok sr1 ∧ Rel sr sr1 ∧ Lite news b0 sr ∧
        (sr.kids.map LNode.h).Nodup := by
  intro fuel
  induction fuel with
  | zero =>
    intro s s1 sr hi hnd hR h
    unfold ucLoop at h ⊢
    rw [hR.hos, hR.hoe, hR.hns, hR.hne]
    split at h
    · cases h
    · rename_i hc
      simp only [Except.ok.injEq] at h
      subst h
      exact ⟨s1, by simp only [hc, if_false], hR, hi, hnd⟩
  | succ fuel ih =>
    intro s s1 sr hi hnd hR h
    unfold ucLoop at h ⊢
    rw [hR.hos, hR.hoe, hR.hns, hR.hne]
    by_cases hc : s.oldStartIdx ≤ s.oldEndIdx ∧ s.newStartIdx ≤ s.newEndIdx
    · simp only [hc, and_self, if_true] at h ⊢
      cases hs : ucStep pv ce p true s with
      | error err => rw [hs] at h; cases h
      | ok sn =>
        rw [hs] at h
        simp only at h
        obtain ⟨hin, hn1⟩ := ucStep_lite pv ce p true news b0 hpv hce s sn hi hc.2 hs
        obtain ⟨sn1, hstep1, hRn⟩ := ucStep_rel pv ce p s s1 sn hR
          (fun n hn => hce n (by
            rw [hi.mid _ (le_refl _) hc.2] at hn
            exact getAt_mem news _ n hn))
          hnd hi.bnd hs
        rw [hstep1]
        exact ih sn sn1 sr hin (hn1 hnd) hRn h
    · simp only [hc, if_false, Except.ok.injEq] at h ⊢
      subst h
      exact ⟨s1, rfl, hR, hi, hnd⟩

/-- Whatever the lists, when `updateChildren` returns without `removeOnly`
it returns with it, and the two runs differ by the moves only. -/
theorem updateChildrenWith_follow (pv : PatchVnode) (ce : CreateElm) (d : Nat) (p : Handle)
    (kids : List LNode) (oldCh : List (Option VNode)) (news : List VNode) (st : St)
    (hpv : ∀ n ∈ news, PvKeeps pv n) (hce : ∀ n ∈ news, CeSpec ce n)
    (hb : ∀ k ∈ kids, LNode.bounded st.next k = true) (hnd : (kids.map LNode.h).Nodup)
    (s : UState) (h : updateChildrenWith pv ce d p kids oldCh news false st = .ok s) :
    ∃ s1, updateChildrenWith pv ce d p kids oldCh news true st = .ok s1 ∧ Rel s s1 := by
  unfold updateChildrenWith at h ⊢
  simp only [Bool.not_false, Bool.not_true] at h ⊢
  split at h
  · cases h
  · rename_i sL hL
    obtain ⟨sL1, hL1, hRL, hiL, hndL⟩ := ucLoop_follow pv ce p news st.next hpv hce _ _ _ sL
      ⟨hb, le_refl _, fun _ _ _ => rfl⟩ hnd
      ⟨rfl, rfl, rfl, rfl, rfl, rfl, rfl, rfl, List.Perm.refl _, rfl⟩ hL
    rw [hL1]
    exact ucFinish_rel ce d p sL sL1 s hiL.bnd hndL
      (fun j v hj hje hv => hce v (by
        rw [hiL.mid j hj hje] at hv
        exact getAt_mem news j v hv)) hRL h

/-! ## `patchVnode` on a single node -/

theorem cloneIfUsed_flags (n : VNode) (b : Bool) :
    (cloneIfUsed n b).info.isStatic = n.info.isStatic ∧
      (cloneIfUsed n b).info.isOnce = n.info.isOnce ∧
      (cloneIfUsed n b).info.text = n.info.text ∧
      (n.info.isCloned = true → (cloneIfUsed n b).info.isCloned = true) := by
  unfold cloneIfUsed cloneVNode
  split
  · cases n
    exact ⟨rfl, rfl, rfl, fun _ => rfl⟩
  · exact ⟨rfl, rfl, rfl, id⟩

theorem updateHooks_noOp (v : VNode) (e : Handle) : (updateHooks v e).filter isNodeOp = [] := by
  unfold updateHooks
  split <;> split <;> (try split) <;> rfl

theorem postHooks_noOp (v : VNode) (e : Handle) : (postHooks v e).filter isNodeOp = [] := by
  unfold postHooks
  split <;> rfl

/-! ## `insert` -/

theorem mem_removeH_ne (kids : List LNode) (x r : Handle) (hr : r ∈ kids.map LNode.h)
    (hne : r ≠ x) : r ∈ (removeH kids x).map LNode.h := by
  induction kids with
  | nil => simp at hr
  | cons k ks ih =>
    unfold removeH
    by_cases hk : (k.h == x) = true
    · simp only [hk, if_true]
      simp only [List.map_cons, List.mem_cons] at hr
      rcases hr with hr | hr
      · exact absurd (hr.trans (beq_iff_eq.1 hk)) hne
      · exact hr
    · simp only [hk, Bool.false_eq_true, if_false, List.map_cons, List.mem_cons]
      simp only [List.map_cons, List.mem_cons] at hr
      rcases hr with hr | hr
      · exact Or.inl hr
      · exact Or.inr (ih hr)

/-! ## Destruction order -/

theorem preorder_children (v : VNode) (cs : List VNode) (h : v.children = some cs) :
    preorder v = v.info :: preorderL cs := by
  cases v with
  | mk i c =>
    simp only [VNode.children] at h
    subst h
    rfl

theorem preorder_leaf (v : VNode) (h : v.children = none) : preorder v = [v.info] := by
  cases v with
  | mk i c =>
    simp only [VNode.children] at h
    subst h
    rfl

theorem destroyLoop_order (f : VNode → Except Err (List Ev)) (cs : List VNode)
    (h : ∀ c ∈ cs, f c = .ok ((preorder c).map destroyCalls).flatten) :
    destroyLoop f cs = .ok ((preorderL cs).map destroyCalls).flatten := by
  induction cs with
  | nil => rfl
  | cons c cs ih =>
    unfold destroyLoop
    rw [h c (List.mem_cons_self _ _), ih (fun x hx => h x (List.mem_cons_of_mem _ hx))]
    simp only [preorderL, List.map_append, List.flatten_append]

/-- With depth for the whole tree, the hooks `invokeDestroyHook` runs are
those of the nodes of the subtree in pre-order. -/
theorem invokeDestroyHook_order : ∀ (d : Nat) (v : VNode), v.height ≤ d →
    invokeDestroyHook d v = .ok ((preorder v).map destroyCalls).flatten := by
  intro d
  induction d with
  | zero =>
    intro v hv
    have := height_pos v
    omega
  | succ d ih =>
    intro v hv
    have hown : (if v.info.data.isSome = true then
        (if hasHook v Hooks.destroy = true then [Ev.hook .destroy v.elm] else []) ++
          [.hook .moduleDestroy v.elm]
        else []) = destroyCalls v.info := rfl
    unfold invokeDestroyHook
    simp only [hown]
    cases hc : v.children with
    | none =>
      simp only [preorder_leaf v hc, List.map_cons, List.map_nil, List.flatten_cons, List.flatten_nil,
        List.append_nil]
    | some cs =>
      simp only
      rw [destroyLoop_order (invokeDestroyHook d) cs (fun c hcm => ih c (by
        have := height_children v cs hc c hcm
        omega))]
      simp only [preorder_children v cs hc, List.map_cons, List.flatten_cons]

/-! ## The removal callback -/

theorem calls_idle (p : Handle) (kids : List LNode) :
    ∀ (k : Nat) (rm : RmCb), (rm.listeners ≤ 0 ∨ (k : Int) < rm.listeners) →
      rm.calls k p kids = .ok ({ rm with listeners := rm.listeners - k }, kids, []) := by
  intro k
  induction k with
  | zero =>
    intro rm _
    simp [RmCb.calls]
  | succ k ih =>
    intro rm h
    have hz : ¬ (rm.listeners - 1 = 0) := by
      rcases h with h | h
      · omega
      · push_cast at h
        omega
    unfold RmCb.calls RmCb.call
    simp only [hz, if_false]
    rw [ih _ (by
      rcases h with h | h
      · left; show rm.listeners - 1 ≤ 0; omega
      · right; show (k : Int) < rm.listeners - 1; push_cast at h; omega)]
    simp only [List.append_nil, Except.ok.injEq, Prod.mk.injEq, and_true]
    show ({ childElm := rm.childElm, listeners := rm.listeners - 1 - k } : RmCb)
      = { childElm := rm.childElm, listeners := rm.listeners - ((k + 1 : Nat) : Int) }
    congr 1
    push_cast
    omega

/-- The callback detaches its element at the call that brings `listeners` to
zero, not before and not again. -/
theorem calls_spec (p : Handle) (kids : List LNode) (e : Handle) (he : hasH kids e = true) :
    ∀ (k : Nat) (L : Int), 0 < L →
      (createRmCb (some e) L).calls k p kids = .ok
        ({ childElm := some e, listeners := L - k },
          (if (k : Int) < L then kids else removeH kids e),
          (if (k : Int) < L then [] else [.removeChild p e])) := by
  intro k
  induction k with
  | zero =>
    intro L hL
    simp [RmCb.calls, createRmCb, hL]
  | succ k ih =>
    intro L hL
    unfold RmCb.calls RmCb.call
    by_cases hz : L - 1 = 0
    · have hL1 : L = 1 := by omega
      subst hL1
      simp only [createRmCb, sub_self, if_true, removeNode, he]
      rw [calls_idle p _ k _ (Or.inl (le_refl _))]
      have hk : ¬ (((k + 1 : Nat) : Int) < 1) := by push_cast; omega
      simp only [hk, if_false, List.append_nil, Except.ok.injEq, Prod.mk.injEq, and_true]
      show ({ childElm := some e, listeners := 0 - (k : Int) } : RmCb)
        = { childElm := some e, listeners := 1 - ((k + 1 : Nat) : Int) }
      congr 1
      push_cast
      omega
    · have hz1 : ¬ ((createRmCb (some e) L).listeners - 1 = 0) := hz
      simp only [hz1, if_false]
      have h1 := ih (L - 1) (by omega)
      have e1 : ({ createRmCb (some e) L with listeners := (createRmCb (some e) L).listeners - 1 }
          : RmCb) = createRmCb (some e) (L - 1) := rfl
      rw [e1, h1]
      have hc : ((k : Int) < L - 1) ↔ (((k + 1 : Nat) : Int) < L) := by
        push_cast
        omega
      simp only [hc, List.nil_append, Except.ok.injEq, Prod.mk.injEq, and_true]
      show ({ childElm := some e, listeners := L - 1 - (k : Int) } : RmCb)
        = { childElm := some e, listeners := L - ((k + 1 : Nat) : Int) }
      congr 1
      push_cast
      omega

/-! ## The entry point `patch` -/

theorem insertHookLoop_queue (q : List { i : VInfo // declaresInsert i = true }) :
    insertHookLoop (q.map Subtype.val) = .ok (q.map (fun x => Ev.hook .insert x.val.elm)) := by
  induction q with
  | nil => rfl
  | cons x xs ih =>
    simp only [List.map_cons, insertHookLoop, x.property, if_true, ih]

theorem invokeInsertHook_queue (q : List { i : VInfo // declaresInsert i = true })
    (initial : Bool) :
    invokeInsertHook none (q.map Subtype.val) initial
      = .ok (none, q.map (fun x => Ev.hook .insert x.val.elm)) := by
  unfold invokeInsertHook
  simp only [Option.isSome_none, Bool.and_false, Bool.false_eq_true, if_false,
    insertHookLoop_queue]

theorem createChildren_elm (ce : CreateElm) (v : VNode) (node : LNode) (st : St)
    (v1 : VNode) (n1 : LNode) (st1 : St) (ev : List Ev)
    (h : createChildren ce v node st = .ok (v1, n1, st1, ev)) : v1.elm = v.elm := by
  unfold createChildren at h
  split at h
  · split at h
    · cases h
    · simp only [Except.ok.injEq, Prod.mk.injEq] at h
      rw [← h.1]
      cases v
      rfl
  · split at h
    · simp only [Except.ok.injEq, Prod.mk.injEq] at h
      rw [← h.1]
    · simp only [Except.ok.injEq, Prod.mk.injEq] at h
      rw [← h.1]

theorem hydrateFinish_vnode (v : VNode) (n : LNode) (st : St) (ev : List Ev) (b : Bool)
    (v1 : VNode) (n1 : LNode) (st1 : St) (ev1 : List Ev)
    (h : hydrateFinish v n st ev = .ok (b, v1, n1, st1, ev1)) : v1 = v := by
  unfold hydrateFinish at h
  split at h
  · split at h <;>
    · simp only [Except.ok.injEq, Prod.mk.injEq] at h
      exact h.2.1.symm
  · simp only [Except.ok.injEq, Prod.mk.injEq] at h
    exact h.2.1.symm

/-- Whenever `hydrate` returns, it has given the handle of the live node to
the VNode. -/
theorem hydrate_elm (d : Nat) (elm : LNode) (v : VNode) (st : St) (b : Bool) (v1 : VNode)
    (n1 : LNode) (st1 : St) (ev : List Ev)
    (h : hydrate d elm v st = .ok (b, v1, n1, st1, ev)) : v1.elm = some elm.h := by
  cases d with
  | zero => cases h
  | succ d =>
    have hve : (v.setElm (some elm.h)).elm = some elm.h := by simp
    unfold hydrate at h
    simp only [] at h
    generalize v.setElm (some elm.h) = vnode at *
    split at h
    · simp only [Except.ok.injEq, Prod.mk.injEq] at h
      rw [← h.2.1]
      cases vnode
      exact hve
    · split at h
      · simp only [Except.ok.injEq, Prod.mk.injEq] at h
        rw [← h.2.1]
        exact hve
      · split at h
        · split at h
          · split at h
            · split at h
              · cases h
              · rename_i w1 m1 s1 e1 hc
                rw [hydrateFinish_vnode _ _ _ _ _ _ _ _ _ h,
                  createChildren_elm _ _ _ _ _ _ _ _ hc]
                exact hve
            · split at h
              · split at h
                · simp only [Except.ok.injEq, Prod.mk.injEq] at h
                  rw [← h.2.1]
                  exact hve
                · rw [hydrateFinish_vnode _ _ _ _ _ _ _ _ _ h]
                  exact hve
              · split at h
                · cases h
                · split at h
                  · simp only [Except.ok.injEq, Prod.mk.injEq] at h
                    rw [← h.2.1]
                    cases vnode
                    exact hve
                  · rw [hydrateFinish_vnode _ _ _ _ _ _ _ _ _ h]
                    cases vnode
                    exact hve
          · rw [hydrateFinish_vnode _ _ _ _ _ _ _ _ _ h]
            exact hve
        · split at h <;>
          · simp only [Except.ok.injEq, Prod.mk.injEq] at h
            rw [← h.2.1]
            exact hve

/-- Whenever `patchVnode` returns, the new node has the handle of the old
one. -/
theorem patchVnode_elm (d : Nat) (hasOwner removeOnly : Bool) (o n : VNode) (sub : LNode)
    (st : St) (v1 : VNode) (sub1 : LNode) (st1 : St) (ev : List Ev)
    (he : o.elm = some sub.h)
    (h : patchVnode d hasOwner removeOnly o n sub st = .ok (v1, sub1, st1, ev)) :
    v1.elm = o.elm := by
  cases d with
  | zero => cases h
  | succ d =>
    have hve : ((cloneIfUsed n hasOwner).setElm o.elm).elm = o.elm := by simp
    unfold patchVnode at h
    simp only [] at h
    generalize (cloneIfUsed n hasOwner).setElm o.elm = vnode at *
    have hout : ∀ (x : VNode) (y : LNode) (z : St) (w : List Ev), x.elm = o.elm →
        (Except.ok (x, y, z, w) : Except Err (VNode × LNode × St × List Ev))
          = .ok (v1, sub1, st1, ev) → v1.elm = o.elm := by
      intro x y z w hx hxy
      simp only [Except.ok.injEq, Prod.mk.injEq] at hxy
      rw [← hxy.1]
      exact hx
    have hsc : ∀ c, (vnode.setChildren c).elm = o.elm := fun c => by cases vnode; exact hve
    split at h
    · split at h
      · cases h
      · split at h
        · split at h
          · cases h
          · rename_i b w1 m1 s1 e1 hh
            simp only [Except.ok.injEq, Prod.mk.injEq] at h
            rw [← h.1, hydrate_elm _ _ _ _ _ _ _ _ _ hh, he]
        · exact hout _ _ _ _ (by cases vnode; exact hve) h
    · split at h
      · exact hout _ _ _ _ (by cases vnode; exact hve) h
      · split at h
        · split at h
          · split at h
            · cases h
            · exact hout _ _ _ _ (hsc _) h
          · split at h
            · cases h
            · exact hout _ _ _ _ (hsc _) h
          · split at h
            · cases h
            · exact hout _ _ _ _ hve h
          · split at h
            · exact hout _ _ _ _ hve h
            · exact hout _ _ _ _ hve h
        · split at h
          · exact hout _ _ _ _ hve h
          · exact hout _ _ _ _ hve h

/-- When `patchVnode` returns without `removeOnly` it returns with it, with
the same new node and the same state. -/
theorem patchVnode_follow (d : Nat) (hasOwner : Bool) (o n : VNode) (sub : LNode) (st : St)
    (hn : n.height ≤ d) (hb : LNode.bounded st.next sub = true)
    (hnd : ∀ cs, o.children = some cs → (sub.kids.map LNode.h).Nodup)
    (v1 : VNode) (sub1 : LNode) (st1 : St) (ev : List Ev)
    (h : patchVnode d hasOwner false o n sub st = .ok (v1, sub1, st1, ev)) :
    ∃ sub2 ev2, patchVnode d hasOwner true o n sub st = .ok (v1, sub2, st1, ev2) := by
  cases d with
  | zero => cases h
  | succ d =>
    have hbnd := (bounded_iff _ _).1 hb
    have hvch : ((cloneIfUsed n hasOwner).setElm o.elm).children = n.children := by simp
    unfold patchVnode at h ⊢
    simp only [] at h ⊢
    generalize (cloneIfUsed n hasOwner).setElm o.elm = vnode at *
    by_cases hA : o.info.isAsyncPlaceholder = true
    · simp only [hA, if_true] at h ⊢
      exact ⟨sub1, ev, h⟩
    · simp only [hA, Bool.false_eq_true, if_false] at h ⊢
      by_cases hs : (vnode.info.isStatic && o.info.isStatic && decide (vnode.key = o.key)
          && (vnode.info.isCloned || vnode.info.isOnce)) = true
      · simp only [hs, if_true] at h ⊢
        exact ⟨sub1, ev, h⟩
      · simp only [hs, Bool.false_eq_true, if_false] at h ⊢
        cases htx : vnode.info.text with
        | some t =>
          rw [htx] at h
          exact ⟨sub1, ev, h⟩
        | none =>
          rw [htx] at h
          simp only at h ⊢
          cases hoc : o.children with
          | none =>
            rw [hoc] at h
            cases hnc : vnode.children with
            | none =>
              rw [hnc] at h
              exact ⟨sub1, ev, h⟩
            | some ch =>
              rw [hnc] at h
              exact ⟨sub1, ev, h⟩
          | some oldCh =>
            cases hnc : vnode.children with
            | none =>
              rw [hoc, hnc] at h
              exact ⟨sub1, ev, h⟩
            | some ch =>
              rw [hoc, hnc] at h
              simp only at h ⊢
              rw [hvch] at hnc
              have hnh : ∀ c ∈ ch, c.height ≤ d := fun c hc => by
                have := height_children n ch hnc c hc
                omega
              cases hs0 : updateChildrenWith (patchVnode d true false) (createElm d) d sub.h
                  sub.kids (oldCh.map some) ch false st with
              | error err => rw [hs0] at h; cases h
              | ok s =>
                rw [hs0] at h
                simp only [Except.ok.injEq, Prod.mk.injEq] at h
                obtain ⟨s1, hs1, hR⟩ := updateChildrenWith_follow (patchVnode d true false)
                  (createElm d) d sub.h sub.kids (oldCh.map some) ch st
                  (fun c hc => patchVnode_keeps d true false c (hnh c hc))
                  (fun c hc => createElm_spec d c (hnh c hc)) hbnd.2 (hnd oldCh hoc) s hs0
                simp only [hs1]
                refine ⟨sub.setKids s1.kids,
                  updateHooks vnode sub.h ++ s1.log ++ postHooks vnode sub.h, ?_⟩
                rw [hR.hN, hR.hst, h.1, h.2.2.1]

theorem patchReplace_ret (d : Nat) (o v : VNode) (parent : Option Handle) (kids : List LNode)
    (st : St) (ev0 : List Ev) (r : PatchOut) (h : patchReplace d o v parent kids st ev0 = .ok r) :
    ∃ v1, r.vnode = some v1 ∧ r.ret = v1.elm := by
  unfold patchReplace at h
  split at h
  · cases h
  · split at h
    · cases h
    · split at h
      · cases h
      · split at h
        · cases h
        · split at h
          · cases h
          · simp only [Except.ok.injEq] at h
            subst h
            exact ⟨_, rfl, rfl⟩

/-- Whenever `patch` returns on a defined new VNode, the value it returns is
the `elm` of the new VNode as the call leaves it, and the `elm` of the old
VNode when the two are the same node. -/
theorem patch_ret (d : Nat) (old : OldRoot) (v : VNode) (hydrating removeOnly : Bool)
    (parent : Option Handle) (kids : List LNode) (st : St) (r : PatchOut)
    (h : patch d old (some v) hydrating removeOnly parent kids st = .ok r) :
    (∃ v1, r.vnode = some v1 ∧ r.ret = v1.elm) ∧
      ∀ o, old = .vnode o → sameVnode o v = .ok true → r.ret = o.elm := by
  unfold patch at h
  simp only at h
  cases old with
  | absent =>
    simp only at h
    refine ⟨?_, fun o ho => by cases ho⟩
    split at h
    · cases h
    · split at h
      · cases h
      · simp only [Except.ok.injEq] at h
        subst h
        exact ⟨_, rfl, rfl⟩
  | vnode o =>
    simp only at h
    cases hs : sameVnode o v with
    | error err => rw [hs] at h; cases h
    | ok b =>
      rw [hs] at h
      cases b with
      | false =>
        simp only at h
        refine ⟨patchReplace_ret _ _ _ _ _ _ _ _ h, ?_⟩
        intro o1 ho1 hs1
        simp only [OldRoot.vnode.injEq] at ho1
        subst ho1
        rw [hs] at hs1
        cases hs1
      | true =>
        simp only at h
        split at h
        · cases h
        · rename_i e he
          split at h
          · cases h
          · rename_i sub hf
            split at h
            · cases h
            · rename_i v1 sub1 st1 ev1 hp
              split at h
              · cases h
              · simp only [Except.ok.injEq] at h
                subst h
                refine ⟨⟨_, rfl, rfl⟩, ?_⟩
                intro o1 ho1 _
                simp only [OldRoot.vnode.injEq] at ho1
                subst ho1
                exact patchVnode_elm _ _ _ _ _ _ _ _ _ _ _
                  (by rw [he, (findH_mem kids e sub hf).2]) hp
  | real e ssr =>
    simp only at h
    refine ⟨?_, fun o ho => by cases ho⟩
    split at h
    · cases h
    · rename_i elm hf
      split at h
      · split at h
        · cases h
        · rename_i v1 n1 st1 ev1 hh
          split at h
          · cases h
          · simp only [Except.ok.injEq] at h
            subst h
            refine ⟨_, rfl, ?_⟩
            rw [hydrate_elm _ _ _ _ _ _ _ _ _ hh, (findH_mem kids e elm hf).2]
        · split at h
          · cases h
          · exact patchReplace_ret _ _ _ _ _ _ _ _ h
      · split at h
        · cases h
        · exact patchReplace_ret _ _ _ _ _ _ _ _ h

/-- On a rendered, well-formed old VNode and a new VNode that is the same
node, `patch` returns the handle of the old VNode. -/
theorem patch_reuse (d : Nat) (o v : VNode) (hydrating removeOnly : Bool)
    (parent : Option Handle) (kids : List LNode) (st : St) (sub : LNode)
    (hs : sameVnode o v = .ok true) (hm : mirrors sub o = true)
    (hf : findH kids sub.h = some sub) (hb : LNode.bounded st.next sub = true)
    (hwo : o.wellFormed = true) (hwn : v.wellFormed = true) (hho : o.height ≤ d)
    (hhn : v.height ≤ d) :
    ∃ r, patch d (.vnode o) (some v) hydrating removeOnly parent kids st = .ok r ∧
      r.ret = o.elm := by
  have he := mirrors_elm sub o hm
  have hb1 : LNode.bounded ({ st with queue := [] } : St).next sub = true := hb
  obtain ⟨n1, sub1, st1, ev, hrun, _, hn1, _, _, _⟩ :=
    patchVnode_spec d false o v hwo hwn hho hhn (fun ha => by
      rw [← sameVnode_factory o v hs]
      exact wellFormed_nodeOk o hwo ha) sub { st with queue := [] } hm hb1
  have hany : ∃ sub2 ev2, patchVnode d false removeOnly o v sub { st with queue := [] }
      = .ok (n1, sub2, st1, ev2) := by
    cases removeOnly with
    | false => exact ⟨sub1, ev, hrun⟩
    | true =>
      exact patchVnode_follow d false o v sub _ hhn hb1
        (fun cs hc => (mirrors_children sub o cs hm hc).1) n1 sub1 st1 ev hrun
  obtain ⟨sub2, ev2, hrun2⟩ := hany
  unfold patch
  simp only [hs, he, hf, hrun2, invokeInsertHook_queue]
  exact ⟨_, rfl, hn1.trans he⟩

theorem insert_after_mid (p : Handle) (A B : List LNode) (oldNode node : LNode)
    (hnd : ((A ++ oldNode :: B).map LNode.h).Nodup)
    (hf : node.h ∉ (A ++ oldNode :: B).map LNode.h) :
    ∃ ev, insert (some p) (A ++ oldNode :: B) node (B.head?.map LNode.h)
      = .ok (A ++ oldNode :: node :: B, ev) := by
  cases B with
  | nil =>
    refine ⟨[.appendChild p node.h], ?_⟩
    simp only [List.head?_nil, Option.map_none']
    rw [insert_append p _ node hf]
    simp
  | cons b B1 =>
    have hb : b.h ∉ (A ++ [oldNode]).map LNode.h := by
      have h1 : ((A ++ [oldNode]) ++ b :: B1).map LNode.h = (A ++ oldNode :: b :: B1).map LNode.h := by
        simp
      rw [← h1, List.map_append, List.map_cons] at hnd
      have := (List.nodup_append.1 hnd).2.2
      intro hin
      exact this hin (List.mem_cons_self _ _)
    have hf1 : node.h ∉ ((A ++ [oldNode]) ++ b :: B1).map LNode.h := by
      simpa using hf
    have := insert_before p (A ++ [oldNode]) B1 b node hb hf1
    refine ⟨[.insertBefore p node.h (some b.h)], ?_⟩
    simp only [List.head?_cons, Option.map_some']
    have e1 : A ++ oldNode :: b :: B1 = (A ++ [oldNode]) ++ b :: B1 := by simp
    rw [e1, this]
    simp

theorem destroyOld_mid (d : Nat) (o : VNode) (p : Handle) (A C : List LNode) (oldNode : LNode)
    (he : o.elm = some oldNode.h) (hA : oldNode.h ∉ A.map LNode.h) (hh : o.height ≤ d)
    (hrd : o.rmDeferred = false) :
    ∃ ev, destroyOld d o (some p) (A ++ oldNode :: C) = .ok (A ++ C, ev) := by
  obtain ⟨evd, hd⟩ := invokeDestroyHook_ok d o hh
  have hrm := removeNode_mid p A C oldNode hA
  unfold destroyOld removeVnodes
  have hfuel : ((0 : Int) - 0 + 1).toNat = 1 := by decide
  have hslot : slotAt [some o] 0 = some o := rfl
  simp only [hfuel, removeVnodesLoop, le_refl, if_true, hslot, removeAndInvokeRemoveHook, he,
    hrd, Bool.false_eq_true, if_false, hrm, hd]
  by_cases ht : o.info.tag.isSome = true
  · by_cases hdt : o.info.data.isSome = true
    · simp only [ht, hdt, if_true]
      exact ⟨_, rfl⟩
    · simp only [ht, hdt, if_true, Bool.false_eq_true, if_false]
      exact ⟨_, rfl⟩
  · simp only [ht, Bool.false_eq_true, if_false]
    exact ⟨_, rfl⟩


theorem moveAt_moved (p : Handle) (s s1 : UState) (e ref : Option Handle)
    (h : moveAt p true s e ref = .ok s1) :
    ∃ x, e = some x ∧ s1.trace = s.trace ++ [.move x ref] := by
  unfold moveAt at h
  simp only [if_true] at h
  split at h
  · cases h
  · split at h
    · cases h
    · split at h
      · cases h
      · simp only [Except.ok.injEq] at h
        subst h
        exact ⟨_, rfl, rfl⟩

theorem sameVnode_diff (a b : VNode) (h : a.key ≠ b.key) : sameVnode a b = .ok false := by
  unfold sameVnode sameVnodeInfo
  have h1 : ¬ (a.info.key = b.info.key ∧ a.info.asyncFactory = b.info.asyncFactory) :=
    fun hk => h hk.1
  simp only [h1, if_false]

/-- An iteration whose start nodes differ, whose end nodes differ, and whose
old start node and new end node are the same node: the pair is patched and the
live node moves behind the old end node. -/
theorem ucStep_cross1 (pv : PatchVnode) (ce : CreateElm) (p : Handle)
    (olds news : List VNode) (b0 : Nat)
    (hpv : ∀ o ∈ olds, ∀ n ∈ news, sameVnode o n = .ok true → PvSpec pv o n)
    (s : UState) (hi : LoopInv olds news b0 s)
    (hle : s.oldStartIdx ≤ s.oldEndIdx) (hnle : s.newStartIdx ≤ s.newEndIdx)
    (os oe ns ne : VNode) (hos : slotAt s.oldCh s.oldStartIdx = some os)
    (hoe : slotAt s.oldCh s.oldEndIdx = some oe)
    (hns : getAt s.newCh s.newStartIdx = some ns)
    (hne : getAt s.newCh s.newEndIdx = some ne)
    (hd1 : sameVnode os ns = .ok false) (hd2 : sameVnode oe ne = .ok false)
    (hsame : sameVnode os ne = .ok true) :
    ∃ s1 x ref, ucStep pv ce p true s = .ok s1 ∧ LoopInv olds news b0 s1 ∧
      s1.oldStartIdx = s.oldStartIdx + 1 ∧ s1.newStartIdx = s.newStartIdx ∧
      s1.oldEndIdx = s.oldEndIdx ∧ s1.newEndIdx = s.newEndIdx - 1 ∧
      os.elm = some x ∧
      s1.trace = s.trace ++ [.patch s.oldStartIdx s.newEndIdx, .move x ref] ∧
      s1.oldCh = s.oldCh ∧ s1.oldKeyToIdx = s.oldKeyToIdx := by
  have hc := hi.core
  have hom := olds_mem_of_slot olds news b0 s hc _ os hos
  have hnm := news_mem_of_mid olds news b0 s hc _ ne hnle (le_refl _) hne
  obtain ⟨s1, ref, s2, hrun, hnsib, hmv, hc1, hdm1, hnext⟩ :=
    step_b5 pv p olds news b0 s hc hi.dom os oe ne hos hoe hne hle hnle hsame
      (hpv os hom ne hnm hsame)
  have hp1 := patchAt_ptrs _ _ _ _ _ _ _ hrun
  have hp2 := moveAt_ptrs _ _ _ _ _ _ hmv
  have hsh := patchAt_shape _ _ _ _ _ _ _ hrun
  have hms := moveAt_shape _ _ _ _ _ _ hmv
  obtain ⟨x, hx, htr⟩ := moveAt_moved _ _ _ _ _ hmv
  refine ⟨{ s2 with oldStartIdx := s.oldStartIdx + 1, newEndIdx := s.newEndIdx - 1 }, x, ref, ?_,
    ⟨hc1, hdm1, le_trans hi.fresh hnext⟩, rfl, ?_, ?_, rfl, hx, ?_, ?_, ?_⟩
  · unfold ucStep
    simp only [hos, hoe, hns, hne, hd1, hd2, hsame, hrun, if_true, hnsib, hmv]
  · show s2.newStartIdx = _
    rw [hp2.2.2.1, hp1.2.2.1]
  · show s2.oldEndIdx = _
    rw [hp2.2.1, hp1.2.1]
  · show s2.trace = _
    rw [htr, hsh.1, List.append_assoc]
    rfl
  · show s2.oldCh = _
    rw [hms.1, hsh.2.1]
  · show s2.oldKeyToIdx = _
    rw [hms.2.2.1, hsh.2.2]

/-- An iteration whose start nodes differ, whose end nodes differ, whose old
start node and new end node differ, and whose old end node and new start node
are the same node: the pair is patched and the live node moves in front of the
old start node. -/
theorem ucStep_cross2 (pv : PatchVnode) (ce : CreateElm) (p : Handle)
    (olds news : List VNode) (b0 : Nat)
    (hpv : ∀ o ∈ olds, ∀ n ∈ news, sameVnode o n = .ok true → PvSpec pv o n)
    (s : UState) (hi : LoopInv olds news b0 s)
    (hle : s.oldStartIdx ≤ s.oldEndIdx) (hnle : s.newStartIdx ≤ s.newEndIdx)
    (os oe ns ne : VNode) (hos : slotAt s.oldCh s.oldStartIdx = some os)
    (hoe : slotAt s.oldCh s.oldEndIdx = some oe)
    (hns : getAt s.newCh s.newStartIdx = some ns)
    (hne : getAt s.newCh s.newEndIdx = some ne)
    (hd1 : sameVnode os ns = .ok false) (hd2 : sameVnode oe ne = .ok false)
    (hd3 : sameVnode os ne = .ok false) (hsame : sameVnode oe ns = .ok true) :
    ∃ s1 x, ucStep pv ce p true s = .ok s1 ∧ LoopInv olds news b0 s1 ∧
      s1.oldStartIdx = s.oldStartIdx ∧ s1.newStartIdx = s.newStartIdx + 1 ∧
      s1.oldEndIdx = s.oldEndIdx - 1 ∧ s1.newEndIdx = s.newEndIdx ∧
      oe.elm = some x ∧
      s1.trace = s.trace ++ [.patch s.oldEndIdx s.newStartIdx, .move x os.elm] ∧
      s1.oldCh = s.oldCh ∧ s1.oldKeyToIdx = s.oldKeyToIdx := by
  have hc := hi.core
  have hom := olds_mem_of_slot olds news b0 s hc _ oe hoe
  have hnm := news_mem_of_mid olds news b0 s hc _ ns (le_refl _) hnle hns
  obtain ⟨s1, s2, hrun, hmv, hc1, hdm1, hnext⟩ :=
    step_b6 pv p olds news b0 s hc hi.dom oe os ns hoe hos hns hle hnle hsame
      (hpv oe hom ns hnm hsame)
  have hp1 := patchAt_ptrs _ _ _ _ _ _ _ hrun
  have hp2 := moveAt_ptrs _ _ _ _ _ _ hmv
  have hsh := patchAt_shape _ _ _ _ _ _ _ hrun
  have hms := moveAt_shape _ _ _ _ _ _ hmv
  obtain ⟨x, hx, htr⟩ := moveAt_moved _ _ _ _ _ hmv
  refine ⟨{ s2 with oldEndIdx := s.oldEndIdx - 1, newStartIdx := s.newStartIdx + 1 }, x, ?_,
    ⟨hc1, hdm1, le_trans hi.fresh hnext⟩, ?_, rfl, rfl, ?_, hx, ?_, ?_, ?_⟩
  · unfold ucStep
    simp only [hos, hoe, hns, hne, hd1, hd2, hd3, hsame, hrun, hmv]
  · show s2.oldStartIdx = _
    rw [hp2.1, hp1.1]
  · show s2.newEndIdx = _
    rw [hp2.2.2.2, hp1.2.2.2]
  · show s2.trace = _
    rw [htr, hsh.1, List.append_assoc]
    rfl
  · show s2.oldCh = _
    rw [hms.1, hsh.2.1]
  · show s2.oldKeyToIdx = _
    rw [hms.2.2.1, hsh.2.2]

/-! ## The claims -/

/-- C1 fails as stated: the old child keyed `"a"` is rendered, the one new
child is keyed `"constructor"`, no key is declared twice and there is no
remove hook, and `updateChildren` throws.  The key map is a plain object: the
read under `"constructor"` yields the function it inherits, `oldCh` has no
element under it, and `sameVnode` reads the key of `undefined`. -/
theorem inherited_key_name_throws :
    Rendered 1 [mkEl "li" (some (.str "a")) (some 10)]
        [mkEl "li" (some (.str "constructor")) none] [liveEl 10 "li"] st0 ∧
      (keysOf [mkEl "li" (some (.str "constructor")) none]).Nodup ∧
      updateChildren 1 0 [liveEl 10 "li"] [some (mkEl "li" (some (.str "a")) (some 10))]
        [mkEl "li" (some (.str "constructor")) none] false st0 = .error .typeError := by
  refine ⟨{ wfOld := by decide, wfNew := by decide, hOld := by decide,
            hNew := by decide, mir := by decide, nodup := by decide, bnd := by decide },
    by decide, ?_⟩
  have h1 : ucStep (patchVnode 1 true false) (createElm 1) 0 true protoS0
      = .error .typeError := rfl
  rw [updateChildren_run 1 0 _ _ _ false st0 2 protoS0 true rfl rfl rfl,
    ucLoop_fail _ _ _ _ 1 _ _ (by decide) h1]

/-- C1, amended: with moves allowed, when the live children of the parent are
the rendering of the old children (distinct handles, in order), no remove
listener defers a detachment, and the keys of the new children are plain (no
two of them have the same property name, and none is named like a property of
`Object.prototype`), `updateChildren` returns and the live child handles of
the parent are then `newCh[0].elm, ..., newCh[n-1].elm`, in that order. -/
theorem updateChildren_matches_new (d : Nat) (p : Handle) (olds news : List VNode)
    (kids : List LNode) (st : St) (hr : Rendered d olds news kids st)
    (hpk : plainKeys news = true) :
    ∃ s, updateChildren d p kids (olds.map some) news false st = .ok s ∧
      s.newCh.length = news.length ∧
      s.kids.map (fun k => some k.h) = s.newCh.map VNode.elm := by
  have hr : Ready d olds news kids st := { toRendered := hr, keysNew := hpk }
  obtain ⟨s, hrun, hd⟩ := updateChildren_ok d p olds news kids st hr hpk
  exact ⟨s, hrun, hd.lenN, hd.order⟩

theorem updateChildren_matches_new_witness :
    ∃ s, updateChildren 1 0 kidsAbcd (oldAbcd.map some) newDbca false st0 = .ok s ∧
      s.newCh.length = newDbca.length ∧
      s.kids.map (fun k => some k.h) = s.newCh.map VNode.elm :=
  updateChildren_matches_new 1 0 oldAbcd newDbca kidsAbcd st0
    { wfOld := by decide
      wfNew := by decide
      hOld := by decide
      hNew := by decide
      mir := by decide
      nodup := by decide
      bnd := by decide }
    (by decide)

/-- C3: for old keyed children `[a, b, c, d]` and new keyed children
`[d, b, c, a]` (pairwise distinct keys; the new `a`, `b`, `c`, `d` are the
same nodes as the old ones, which for elements means the same tags), on
rendered and well-formed input and with moves allowed, `updateChildren`
returns and its trace is the patch of `a` followed by one move of the handle
of `a`, the patch of `d` followed by one move of the handle of `d` in front of
`b`, and the patches of `b` and `c` in place: exactly two moves
(`insertBefore` of existing handles), no creation and no removal. -/
theorem abcd_to_dbca_two_moves (d : Nat) (p : Handle) (a b c e a1 b1 c1 e1 : VNode)
    (kids : List LNode) (st : St)
    (hr : Rendered d [a, b, c, e] [e1, b1, c1, a1] kids st)
    (hk : ([a, b, c, e].map VNode.key).Nodup)
    (ha : sameVnode a a1 = .ok true) (hb : sameVnode b b1 = .ok true)
    (hc : sameVnode c c1 = .ok true) (he : sameVnode e e1 = .ok true) :
    ∃ s x y ref, updateChildren d p kids ([a, b, c, e].map some) [e1, b1, c1, a1] false st
        = .ok s ∧ a.elm = some x ∧ e.elm = some y ∧
      s.trace = [.patch 0 3, .move x ref, .patch 3 0, .move y b.elm, .patch 1 1, .patch 2 2] ∧
      (∀ j, UEv.create j ∉ s.trace) ∧ (∀ i, UEv.remove i ∉ s.trace) := by
  -- the keys
  have ka := sameVnode_key a a1 ha
  have kb := sameVnode_key b b1 hb
  have kc := sameVnode_key c c1 hc
  have ke := sameVnode_key e e1 he
  simp only [List.map_cons, List.map_nil, List.nodup_cons, List.mem_cons, List.mem_singleton,
    List.not_mem_nil, not_or, or_false, not_false_eq_true, List.nodup_nil, and_true] at hk
  obtain ⟨⟨hab, hac, hae⟩, ⟨hbc, hbe⟩, hce⟩ := hk
  have hpv := (rendered_real d _ _ kids st hr).2.2.1
  have hinit := loopInv_init [a, b, c, e] [e1, b1, c1, a1] kids st
    (mirrorsL_map _ kids hr.mir) hr.nodup ((boundedL_iff _ _).1 hr.bnd)
    (mirrorsL_pair _ kids hr.mir hr.nodup)
  -- first iteration: `a` goes behind `d`
  obtain ⟨s1, x, ref, r1, i1, p1, p2, p3, p4, hx, t1, o1, _⟩ :=
    ucStep_cross1 (patchVnode d true false) (createElm d) p _ _ st.next hpv _ hinit
      (by simp) (by simp) a e e1 a1 rfl rfl rfl rfl
      (sameVnode_diff a e1 (by rw [← ke]; exact hae))
      (sameVnode_diff e a1 (by rw [← ka]; exact fun h => hae h.symm)) ha
  norm_num at p1 p2 p3 p4 t1
  have o1 : s1.oldCh = [some a, some b, some c, some e] := o1
  have n1 : ∀ j, s1.newStartIdx ≤ j → j ≤ s1.newEndIdx →
      getAt s1.newCh j = getAt [e1, b1, c1, a1] j := i1.core.newMid
  -- second iteration: `d` goes in front of `b`
  obtain ⟨s2, y, r2, i2, q1, q2, q3, q4, hy, t2, o2, _⟩ :=
    ucStep_cross2 (patchVnode d true false) (createElm d) p _ _ st.next hpv s1 i1
      (by omega) (by omega) b e e1 c1
      (by rw [o1, p1]; rfl) (by rw [o1, p3]; rfl)
      (by rw [n1 s1.newStartIdx (le_refl _) (by omega), p2]; rfl)
      (by rw [n1 s1.newEndIdx (by omega) (le_refl _), p4]; rfl)
      (sameVnode_diff b e1 (by rw [← ke]; exact hbe))
      (sameVnode_diff e c1 (by rw [← kc]; exact fun h => hce h.symm))
      (sameVnode_diff b c1 (by rw [← kc]; exact hbc)) he
  rw [p1] at q1
  rw [p2] at q2
  rw [p3] at q3
  rw [p4] at q4
  rw [t1, p3, p2] at t2
  rw [o1] at o2
  norm_num at q2 q3 t2
  have n2 : ∀ j, s2.newStartIdx ≤ j → j ≤ s2.newEndIdx →
      getAt s2.newCh j = getAt [e1, b1, c1, a1] j := i2.core.newMid
  -- third iteration: `b` in place
  obtain ⟨s3, r3, i3, u1, u2, u3, u4, t3, o3, _⟩ :=
    ucStep_front (patchVnode d true false) (createElm d) p true _ _ st.next hpv s2 i2
      (by omega) (by omega) b b1
      (by rw [o2, q1]; rfl)
      (by rw [n2 s2.newStartIdx (le_refl _) (by omega), q2]; rfl)
      (by rw [o2, q3]; simp [slotAt, getAt]) hb
  rw [q1] at u1
  rw [q2] at u2
  rw [q3] at u3
  rw [q4] at u4
  rw [t2, q1, q2] at t3
  rw [o2] at o3
  norm_num at u1 u2 t3
  have n3 : ∀ j, s3.newStartIdx ≤ j → j ≤ s3.newEndIdx →
      getAt s3.newCh j = getAt [e1, b1, c1, a1] j := i3.core.newMid
  -- fourth iteration: `c` in place
  obtain ⟨s4, r4, i4, v1, v2, v3, v4, t4, o4, _⟩ :=
    ucStep_front (patchVnode d true false) (createElm d) p true _ _ st.next hpv s3 i3
      (by omega) (by omega) c c1
      (by rw [o3, u1]; rfl)
      (by rw [n3 s3.newStartIdx (le_refl _) (by omega), u2]; rfl)
      (by rw [o3, u3]; simp [slotAt, getAt]) hc
  rw [u1] at v1
  rw [u2] at v2
  rw [u3] at v3
  rw [u4] at v4
  rw [t3, u1, u2] at t4
  norm_num at v1 v2 t4
  -- the code after the loop has nothing to add
  have hfin : ∃ s5, ucFinish (createElm d) d p s4 = .ok s5 ∧ s5.trace = s4.trace := by
    unfold ucFinish addVnodes
    have h1 : s4.oldStartIdx > s4.oldEndIdx := by omega
    have h2 : (s4.newEndIdx - s4.newStartIdx + 1).toNat = 0 := by omega
    simp only [h1, if_true, h2, addVnodesLoop]
    exact ⟨_, rfl, by simp⟩
  obtain ⟨s5, hf, t5⟩ := hfin
  have htr : s5.trace
      = [.patch 0 3, .move x ref, .patch 3 0, .move y b.elm, .patch 1 1, .patch 2 2] := by
    rw [t5, t4]
  refine ⟨s5, x, y, ref, ?_, hx, hy, htr, ?_, ?_⟩
  · rw [updateChildren_run d p kids ([a, b, c, e].map some) [e1, b1, c1, a1] false st 8
        { kids := kids, oldCh := List.map some [a, b, c, e], newCh := [e1, b1, c1, a1],
          oldStartIdx := 0, oldEndIdx := (([a, b, c, e].length : Nat) : Int) - 1,
          newStartIdx := 0, newEndIdx := (([e1, b1, c1, a1].length : Nat) : Int) - 1,
          oldKeyToIdx := none, st := st, trace := [], log := [] } true rfl rfl rfl,
      ucLoop_succ _ _ _ _ 7 _ _ (by simp) r1,
      ucLoop_succ _ _ _ _ 6 _ _ (by omega) r2,
      ucLoop_succ _ _ _ _ 5 _ _ (by omega) r3,
      ucLoop_succ _ _ _ _ 4 _ _ (by omega) r4,
      ucLoop_exit _ _ _ _ _ _ (by omega)]
    exact hf
  · intro j hj
    rw [htr] at hj
    simp at hj
  · intro i hi
    rw [htr] at hi
    simp at hi

/-- C3 on four `li` keyed 1, 2, 3, 4 with the handles 10, 11, 12, 13. -/
theorem abcd_to_dbca_two_moves_witness :
    ∃ s x y ref, updateChildren 1 0 kidsAbcd
          ([mkEl "li" (some 1) (some 10), mkEl "li" (some 2) (some 11),
            mkEl "li" (some 3) (some 12), mkEl "li" (some 4) (some 13)].map some)
          [mkEl "li" (some 4) none, mkEl "li" (some 2) none, mkEl "li" (some 3) none,
            mkEl "li" (some 1) none] false st0
        = .ok s ∧ (mkEl "li" (some 1) (some 10)).elm = some x ∧
      (mkEl "li" (some 4) (some 13)).elm = some y ∧
      s.trace = [.patch 0 3, .move x ref, .patch 3 0,
        .move y (mkEl "li" (some 2) (some 11)).elm, .patch 1 1, .patch 2 2] ∧
      (∀ j, UEv.create j ∉ s.trace) ∧ (∀ i, UEv.remove i ∉ s.trace) :=
  abcd_to_dbca_two_moves 1 0 (mkEl "li" (some 1) (some 10)) (mkEl "li" (some 2) (some 11))
    (mkEl "li" (some 3) (some 12)) (mkEl "li" (some 4) (some 13))
    (mkEl "li" (some 1) none) (mkEl "li" (some 2) none) (mkEl "li" (some 3) none)
    (mkEl "li" (some 4) none) kidsAbcd st0
    { wfOld := by decide
      wfNew := by decide
      hOld := by decide
      hNew := by decide
      mir := by decide
      nodup := by decide
      bnd := by decide }
    (by decide) rfl rfl rfl rfl

/-- C8, counterexample: with the key 1 declared twice among the new children
`updateChildren` throws: the second new child of key 1 finds in the key map
the slot the first one emptied, and `sameVnode` reads the key of
`undefined`. -/
theorem duplicate_new_keys_throw :
    updateChildren 1 0 [liveEl 10 "li", liveEl 11 "li", liveEl 12 "li"]
      [some (mkEl "li" (some 2) (some 10)), some (mkEl "li" (some 1) (some 11)),
       some (mkEl "li" (some 3) (some 12))]
      [mkEl "li" (some 1) none, mkEl "li" (some 1) none] false st0 = .error .typeError := by
  have h1 : ucStep (patchVnode 1 true false) (createElm 1) 0 true dupS0 = .ok dupS1 := rfl
  have h2 : ucStep (patchVnode 1 true false) (createElm 1) 0 true dupS1 = .error .typeError :=
    rfl
  rw [updateChildren_run 1 0 _ _ _ false st0 5 dupS0 true rfl rfl rfl,
    ucLoop_succ _ _ _ _ 4 _ _ (by decide) h1, ucLoop_fail _ _ _ _ 3 _ _ (by decide) h2]

/-- C5: pure append.  On rendered and well-formed input, whatever the keys:
when every old child is the same node (`sameVnode`) as the new child at its
index and `k` new children follow, `updateChildren` returns, it
patches exactly the pairs `(oldCh[i], newCh[i])`, then creates exactly the `k`
remaining new children, in order, each at the end of the parent, and makes no
move and no removal: the trace is the patches followed by the creations, and
the live child handles are the old ones followed by `k` fresh ones. -/
theorem pure_append_minimal (d : Nat) (p : Handle) (olds A B : List VNode)
    (kids : List LNode) (removeOnly : Bool) (st : St)
    (hr : Rendered d olds (A ++ B) kids st)
    (hAB : List.Forall₂ (fun o n => sameVnode o n = .ok true) olds A) :
    ∃ s fresh, updateChildren d p kids (olds.map some) (A ++ B) removeOnly st = .ok s ∧
      s.trace = (List.range olds.length).map (fun (t : Nat) => UEv.patch t t) ++
        (List.range B.length).map (fun (t : Nat) => UEv.create ((olds.length : Int) + t)) ∧
      s.kids.map LNode.h = kids.map LNode.h ++ fresh ∧ fresh.length = B.length ∧
      (∀ x ∈ fresh, st.next ≤ x) ∧
      s.kids.map (fun k => some k.h) = s.newCh.map VNode.elm :=
  updateChildrenWith_append (patchVnode d true false) (createElm d) d p olds A B
    (rendered_real d olds (A ++ B) kids st hr).2.2.1
    (rendered_real d olds (A ++ B) kids st hr).2.2.2 hAB kids removeOnly st
    (mirrorsL_map olds kids hr.mir) hr.nodup ((boundedL_iff _ _).1 hr.bnd)
    (mirrorsL_pair olds kids hr.mir hr.nodup)

theorem pure_append_minimal_witness :
    ∃ s fresh, updateChildren 1 0 [liveEl 10 "li", liveEl 11 "li"]
        ([mkEl "li" (some 1) (some 10), mkEl "li" (some 2) (some 11)].map some)
        ([mkEl "li" (some 1) none, mkEl "li" (some 2) none] ++ [mkEl "li" (some 3) none])
        false st0 = .ok s ∧
      s.trace = (List.range [mkEl "li" (some 1) (some 10),
          mkEl "li" (some 2) (some 11)].length).map (fun (t : Nat) => UEv.patch t t) ++
        (List.range [mkEl "li" (some 3) none].length).map
          (fun (t : Nat) => UEv.create (([mkEl "li" (some 1) (some 10),
            mkEl "li" (some 2) (some 11)].length : Int) + t)) ∧
      s.kids.map LNode.h = [liveEl 10 "li", liveEl 11 "li"].map LNode.h ++ fresh ∧
      fresh.length = [mkEl "li" (some 3) none].length ∧
      (∀ x ∈ fresh, st0.next ≤ x) ∧
      s.kids.map (fun k => some k.h) = s.newCh.map VNode.elm :=
  pure_append_minimal 1 0 [mkEl "li" (some 1) (some 10), mkEl "li" (some 2) (some 11)]
    [mkEl "li" (some 1) none, mkEl "li" (some 2) none] [mkEl "li" (some 3) none]
    [liveEl 10 "li", liveEl 11 "li"] false st0
    { wfOld := by decide
      wfNew := by decide
      hOld := by decide
      hNew := by decide
      mir := by decide
      nodup := by decide
      bnd := by decide }
    (List.Forall₂.cons rfl (List.Forall₂.cons rfl List.Forall₂.nil))

/-- C6: pure removal.  For old children `P ++ R ++ S` with distinct keys and
new children `P' ++ S'` whose nodes are the same nodes (`sameVnode`) as the
corresponding nodes of `P` and `S`, `updateChildren` returns; every event of
its trace is the patch of a surviving pair in place or the removal of a node
of `R` (so there is no move and no creation), every surviving pair is patched
exactly once and every node of `R` is removed exactly once. -/
theorem pure_removal_minimal (d : Nat) (p : Handle) (P R S P' S' : List VNode)
    (kids : List LNode) (removeOnly : Bool) (st : St)
    (hr : Ready d (P ++ (R ++ S)) (P' ++ S') kids st)
    (hko : ∀ o ∈ P ++ (R ++ S), o.key.isSome = true)
    (hkn : (keysOf (P ++ (R ++ S))).Nodup)
    (hP : List.Forall₂ (fun o n => sameVnode o n = .ok true) P P')
    (hS : List.Forall₂ (fun o n => sameVnode o n = .ok true) S S') :
    ∃ s, updateChildren d p kids ((P ++ (R ++ S)).map some) (P' ++ S') removeOnly st = .ok s ∧
      (∀ ev ∈ s.trace, Kept P.length R.length S.length ev) ∧
      (∀ t : Nat, t < P.length → s.trace.count (UEv.patch t t) = 1) ∧
      (∀ t : Nat, t < S.length →
        s.trace.count (UEv.patch ((P.length : Int) + R.length + t) ((P.length : Int) + t)) = 1) ∧
      (∀ t : Nat, t < R.length → s.trace.count (UEv.remove ((P.length : Int) + t)) = 1) ∧
      s.kids.map (fun k => some k.h) = s.newCh.map VNode.elm := by
  have hlP : P.length = P'.length := List.Forall₂.length_eq hP
  have hlS : S.length = S'.length := List.Forall₂.length_eq hS
  have hlo : (P ++ (R ++ S)).length = P.length + R.length + S.length := by
    simp only [List.length_append]; omega
  have hln : (P' ++ S').length = P.length + S.length := by
    simp only [List.length_append]; omega
  have hP1 : ∀ (t : Nat) (o n : VNode), t < P.length → getAt (P ++ (R ++ S)) t = some o →
      getAt (P' ++ S') t = some n → sameVnode o n = .ok true := by
    intro t o n ht ho hn
    rw [getAt_append_left _ _ _ (by omega)] at ho hn
    exact forall2_getAt _ P P' hP t o n ho hn
  have hS1 : ∀ (t : Nat) (o n : VNode), t < S.length →
      getAt (P ++ (R ++ S)) ((P.length : Int) + R.length + t) = some o →
      getAt (P' ++ S') ((P.length : Int) + t) = some n → sameVnode o n = .ok true := by
    intro t o n ht ho hn
    rw [getAt_append_right _ _ _ (by omega), getAt_append_right _ _ _ (by omega)] at ho
    rw [getAt_append_right _ _ _ (by omega)] at hn
    have e1 : (P.length : Int) + R.length + t - P.length - R.length = t := by omega
    have e2 : (P.length : Int) + t - P'.length = t := by omega
    rw [e1] at ho
    rw [e2] at hn
    exact forall2_getAt _ S S' hS t o n ho hn
  obtain ⟨s, hrun, hd, hkept⟩ := updateChildrenWith_removal (patchVnode d true false)
    (createElm d) d p _ _ (hyp_real d _ _ kids st hr)
    (rendered_old d _ _ kids st hr.toRendered) P.length R.length S.length hlo hln hP1 hS1
    hko hkn kids removeOnly st (mirrorsL_map _ kids hr.mir) hr.nodup
    ((boundedL_iff _ _).1 hr.bnd) (mirrorsL_pair _ kids hr.mir hr.nodup)
  refine ⟨s, hrun, hkept, ?_, ?_, ?_, hd.order⟩
  · intro t ht
    have hj : (t : Int) ∈ newIdxs s.trace := (hd.trNewMem t).2 ⟨by omega, by rw [hln]; omega⟩
    have hmem : UEv.patch t t ∈ s.trace := by
      rcases (mem_newIdxs_iff _ _).1 hj with ⟨i, hi⟩ | hcr
      · rcases hkept _ hi with ⟨u, _, hu⟩ | ⟨u, _, hu⟩ | ⟨u, _, hu⟩
        · simp only [UEv.patch.injEq] at hu
          rw [hu.1, hu.2] at hi
          rw [hu.2]
          exact hi
        · simp only [UEv.patch.injEq] at hu
          omega
        · cases hu
      · rcases hkept _ hcr with ⟨u, _, hu⟩ | ⟨u, _, hu⟩ | ⟨u, _, hu⟩ <;> cases hu
    have hle := count_patch_le s.trace t t
    rw [count_one_of_mem _ _ hd.trNewNodup hj] at hle
    have := List.count_pos_iff.2 hmem
    omega
  · intro t ht
    have hj : ((P.length : Int) + t) ∈ newIdxs s.trace :=
      (hd.trNewMem _).2 ⟨by omega, by rw [hln]; push_cast; omega⟩
    have hmem : UEv.patch ((P.length : Int) + R.length + t) ((P.length : Int) + t) ∈ s.trace := by
      rcases (mem_newIdxs_iff _ _).1 hj with ⟨i, hi⟩ | hcr
      · rcases hkept _ hi with ⟨u, _, hu⟩ | ⟨u, _, hu⟩ | ⟨u, _, hu⟩
        · simp only [UEv.patch.injEq] at hu
          omega
        · simp only [UEv.patch.injEq] at hu
          have hut : u = t := by omega
          subst hut
          rw [hu.1] at hi
          exact hi
        · cases hu
      · rcases hkept _ hcr with ⟨u, _, hu⟩ | ⟨u, _, hu⟩ | ⟨u, _, hu⟩ <;> cases hu
    have hle := count_patch_le s.trace ((P.length : Int) + R.length + t) ((P.length : Int) + t)
    rw [count_one_of_mem _ _ hd.trNewNodup hj] at hle
    have := List.count_pos_iff.2 hmem
    omega
  · intro t ht
    have hi : ((P.length : Int) + t) ∈ oldIdxs s.trace :=
      (hd.trOldMem _).2 ⟨by omega, by rw [hlo]; push_cast; omega⟩
    have hmem : UEv.remove ((P.length : Int) + t) ∈ s.trace := by
      rcases (mem_oldIdxs_iff _ _).1 hi with ⟨j, hj⟩ | hrm
      · rcases hkept _ hj with ⟨u, _, hu⟩ | ⟨u, _, hu⟩ | ⟨u, _, hu⟩
        · simp only [UEv.patch.injEq] at hu
          omega
        · simp only [UEv.patch.injEq] at hu
          omega
        · cases hu
      · exact hrm
    have hle := count_remove_le s.trace ((P.length : Int) + t)
    rw [count_one_of_mem _ _ hd.trOldNodup hi] at hle
    have := List.count_pos_iff.2 hmem
    omega

theorem pure_removal_minimal_witness :
    ∃ s, updateChildren 1 0 [liveEl 10 "li", liveEl 11 "li", liveEl 12 "li"]
        (([mkEl "li" (some 1) (some 10)] ++
          ([mkEl "li" (some 2) (some 11)] ++ [mkEl "li" (some 3) (some 12)])).map some)
        ([mkEl "li" (some 1) none] ++ [mkEl "li" (some 3) none]) false st0 = .ok s ∧
      (∀ ev ∈ s.trace, Kept [mkEl "li" (some 1) (some 10)].length
        [mkEl "li" (some 2) (some 11)].length [mkEl "li" (some 3) (some 12)].length ev) ∧
      (∀ t : Nat, t < [mkEl "li" (some 1) (some 10)].length →
        s.trace.count (UEv.patch t t) = 1) ∧
      (∀ t : Nat, t < [mkEl "li" (some 3) (some 12)].length →
        s.trace.count (UEv.patch (([mkEl "li" (some 1) (some 10)].length : Int) +
          [mkEl "li" (some 2) (some 11)].length + t)
          (([mkEl "li" (some 1) (some 10)].length : Int) + t)) = 1) ∧
      (∀ t : Nat, t < [mkEl "li" (some 2) (some 11)].length →
        s.trace.count (UEv.remove (([mkEl "li" (some 1) (some 10)].length : Int) + t)) = 1) ∧
      s.kids.map (fun k => some k.h) = s.newCh.map VNode.elm :=
  pure_removal_minimal 1 0 [mkEl "li" (some 1) (some 10)] [mkEl "li" (some 2) (some 11)]
    [mkEl "li" (some 3) (some 12)] [mkEl "li" (some 1) none] [mkEl "li" (some 3) none]
    [liveEl 10 "li", liveEl 11 "li", liveEl 12 "li"] false st0
    { wfOld := by decide
      wfNew := by decide
      keysNew := by decide
      hOld := by decide
      hNew := by decide
      mir := by decide
      nodup := by decide
      bnd := by decide }
    (by decide) (by decide)
    (List.Forall₂.cons rfl List.Forall₂.nil) (List.Forall₂.cons rfl List.Forall₂.nil)

/-- C2 fails as stated: the old children are keyed by the numbers 10 and 1,
the string `"1"` and the number 20, four distinct keys, and the new children
are the same nodes in the order 1, 20, 10, `"1"`.  The key map is a plain
object, in which the number 1 and the string `"1"` name one property: the new
child keyed 1 finds the old child keyed `"1"`, which is not the same node, and
is created; the old child keyed 1 is removed. -/
theorem same_name_keys_recreated :
    PermHyp mixOld mixNew ∧
      updateChildren 1 0 mixKids (mixOld.map some) mixNew false st0 = .ok mixS5 ∧
      UEv.create 0 ∈ mixS5.trace ∧ UEv.remove 1 ∈ mixS5.trace := by
  refine ⟨{ hko := by decide, hkn := by decide, hperm := by decide, hsame := ?_ }, ?_,
    by decide, by decide⟩
  · intro o ho n hn hk
    simp only [mixOld, mixNew, List.mem_cons, List.mem_singleton, List.not_mem_nil,
      or_false] at ho hn
    rcases ho with rfl | rfl | rfl | rfl <;> rcases hn with rfl | rfl | rfl | rfl <;>
      first
      | rfl
      | exact absurd hk (by decide)
  · have h1 : ucStep (patchVnode 1 true false) (createElm 1) 0 true mixS0 = .ok mixS1 := rfl
    have h2 : ucStep (patchVnode 1 true false) (createElm 1) 0 true mixS1 = .ok mixS2 := rfl
    have h3 : ucStep (patchVnode 1 true false) (createElm 1) 0 true mixS2 = .ok mixS3 := rfl
    have h4 : ucStep (patchVnode 1 true false) (createElm 1) 0 true mixS3 = .ok mixS4 := rfl
    have hf : ucFinish (createElm 1) 1 0 mixS4 = .ok mixS5 := rfl
    rw [updateChildren_run 1 0 mixKids (mixOld.map some) mixNew false st0 8 mixS0 true rfl rfl
        rfl,
      ucLoop_succ _ _ _ _ 7 _ _ (by decide) h1, ucLoop_succ _ _ _ _ 6 _ _ (by decide) h2,
      ucLoop_succ _ _ _ _ 5 _ _ (by decide) h3, ucLoop_succ _ _ _ _ 4 _ _ (by decide) h4,
      ucLoop_exit _ _ _ _ _ _ (by decide)]
    exact hf

/-- C2, amended: identity preservation under permutation.  When the old
children all declare keys, the keys are plain (no two of them have the same
property name, and none is named like a property of `Object.prototype`) and
the new children are a permutation of the old ones (the same keys, and the
children of a key are the same node), `updateChildren` returns, creates
nothing, removes nothing, and the `elm` of every new child is the handle of
the old child of the same key. -/
theorem permutation_preserves_identity (d : Nat) (p : Handle) (olds news : List VNode)
    (kids : List LNode) (st : St) (hr : Rendered d olds news kids st) (removeOnly : Bool)
    (hp : PermHyp olds news) (hpk : plainKeys news = true) :
    ∃ s, updateChildren d p kids (olds.map some) news removeOnly st = .ok s ∧
      (∀ j, UEv.create j ∉ s.trace) ∧ (∀ i, UEv.remove i ∉ s.trace) ∧
      ∀ j n, getAt news j = some n →
        ∃ v o, getAt s.newCh j = some v ∧ o ∈ olds ∧ o.key = n.key ∧ v.elm = o.elm := by
  have hr : Ready d olds news kids st := { toRendered := hr, keysNew := hpk }
  obtain ⟨s0, s, h0, hrun, hd, hsame⟩ := updateChildren_any d p olds news kids st hr hpk removeOnly
  obtain ⟨s1, h1, _, hnc, hnr⟩ := updateChildrenWith_perm (patchVnode d true false)
    (createElm d) d p olds news (hyp_real d olds news kids st hr) hpk
    (rendered_old d olds news kids st hr.toRendered) hp kids st
    (mirrorsL_map olds kids hr.mir) hr.nodup ((boundedL_iff _ _).1 hr.bnd)
    (mirrorsL_pair olds kids hr.mir hr.nodup)
  have e : s1 = s0 := by
    have h2 : updateChildren d p kids (olds.map some) news false st = .ok s1 := h1
    rw [h0] at h2
    simp only [Except.ok.injEq] at h2
    exact h2.symm
  subst e
  refine ⟨s, hrun, ?_, ?_, ?_⟩
  · intro j hj
    exact hnc j ((same_mem s1 s hsame (UEv.create j) rfl).1 hj)
  · intro i hi
    exact hnr i ((same_mem s1 s hsame (UEv.remove i) rfl).1 hi)
  · intro j n hn
    have hjl := getAt_length_lt news j n hn
    have hjm : j ∈ newIdxs s1.trace := (hd.trNewMem j).2 hjl
    rcases (mem_newIdxs_iff _ _).1 hjm with ⟨i, hi⟩ | hcr
    · obtain ⟨o, n1, v, ho, hn1, hs, hv, hve⟩ := hd.trPatch i j hi
      rw [hn] at hn1
      simp only [Option.some.injEq] at hn1
      subst hn1
      exact ⟨v, o, by rw [hsame.hN]; exact hv, getAt_mem _ _ _ ho, sameVnode_key o n hs, hve⟩
    · exact absurd hcr (hnc j)

theorem permutation_preserves_identity_witness :
    ∃ s, updateChildren 1 0 kidsAbcd (oldAbcd.map some) newDbca false st0 = .ok s ∧
      (∀ j, UEv.create j ∉ s.trace) ∧ (∀ i, UEv.remove i ∉ s.trace) ∧
      ∀ j n, getAt newDbca j = some n →
        ∃ v o, getAt s.newCh j = some v ∧ o ∈ oldAbcd ∧ o.key = n.key ∧ v.elm = o.elm :=
  permutation_preserves_identity 1 0 oldAbcd newDbca kidsAbcd st0
    { wfOld := by decide
      wfNew := by decide
      hOld := by decide
      hNew := by decide
      mir := by decide
      nodup := by decide
      bnd := by decide }
    false
    { hko := by decide
      hkn := by decide
      hperm := by decide
      hsame := by
        intro o ho n hn hk
        simp only [oldAbcd, newDbca, List.mem_cons, List.mem_singleton, List.not_mem_nil,
          or_false] at ho hn
        rcases ho with rfl | rfl | rfl | rfl <;> rcases hn with rfl | rfl | rfl | rfl <;>
          first
          | rfl
          | exact absurd hk (by decide) }
    (by decide)

/-- C7 fails as stated: a rendered `div` of key 1 whose remove hook keeps the
removal callback is replaced by a `span` of key 1.  The two are not the same
node, the `span` is created, the remove hooks of the `div` are invoked, and
`updateChildren` returns while the handle of the `div` is still among the
children of the parent: its detachment is left to the hook. -/
theorem deferred_removal_keeps_handle :
    deferDiv.key = (mkEl "span" (some 1) none).key ∧
      sameVnode deferDiv (mkEl "span" (some 1) none) = .ok false ∧
      deferDiv.elm = some 10 ∧
      updateChildren 1 0 [liveEl 10 "div"] [some deferDiv] [mkEl "span" (some 1) none] false st0
        = .ok deferS2 ∧
      10 ∈ deferS2.kids.map LNode.h := by
  refine ⟨rfl, rfl, rfl, ?_, by decide⟩
  have h1 : ucStep (patchVnode 1 true false) (createElm 1) 0 true deferS0 = .ok deferS1 := rfl
  have hf : ucFinish (createElm 1) 1 0 deferS1 = .ok deferS2 := rfl
  rw [updateChildren_run 1 0 _ _ _ false st0 2 deferS0 true rfl rfl rfl,
    ucLoop_succ _ _ _ _ 1 _ _ (by decide) h1, ucLoop_exit _ _ _ _ _ _ (by decide)]
  exact hf

/-- C7, amended: key collision safety.  When an old child `o` and a new child
`n` declare the same key and are not the same node (`sameVnode` answers no),
in lists without duplicate keys where the keys of the new children are plain
and no remove listener defers a detachment, `updateChildren` returns, never
patches the pair `(o, n)`, creates `n` exactly once, removes `o` exactly once,
and the handle of `o` is no longer among the live children of the parent. -/
theorem key_collision_safe (d : Nat) (p : Handle) (olds news : List VNode)
    (kids : List LNode) (st : St) (hr : Rendered d olds news kids st) (removeOnly : Bool)
    (hko : (keysOf olds).Nodup) (i j : Int) (o n : VNode) (k : Key)
    (ho : getAt olds i = some o) (hn : getAt news j = some n)
    (hok : o.key = some k) (hnk : n.key = some k) (hs : sameVnode o n = .ok false)
    (hpk : plainKeys news = true) :
    ∃ s, updateChildren d p kids (olds.map some) news removeOnly st = .ok s ∧
      UEv.patch i j ∉ s.trace ∧ s.trace.count (UEv.create j) = 1 ∧
      s.trace.count (UEv.remove i) = 1 ∧
      (∀ x, o.elm = some x → x ∉ s.kids.map LNode.h) := by
  have hr : Ready d olds news kids st := { toRendered := hr, keysNew := hpk }
  obtain ⟨s0, s, _, hrun, hd, hsame⟩ := updateChildren_any d p olds news kids st hr hpk removeOnly
  have hil := getAt_length_lt olds i o ho
  have hjl := getAt_length_lt news j n hn
  -- a patch of `o` is a patch against `n`, and conversely
  have hpo : ∀ j1, UEv.patch i j1 ∈ s0.trace → False := by
    intro j1 hm
    obtain ⟨o1, n1, _, ho1, hn1, hs1, _, _⟩ := hd.trPatch i j1 hm
    rw [ho] at ho1
    simp only [Option.some.injEq] at ho1
    subst ho1
    have hk1 : n1.key = some k := by rw [← sameVnode_key o n1 hs1]; exact hok
    have := keys_distinct news (plainKeys_keys news hpk) j1 j n1 n k hn1 hn hk1 hnk
    subst this
    rw [hn] at hn1
    simp only [Option.some.injEq] at hn1
    subst hn1
    rw [hs] at hs1
    cases hs1
  have hpn : ∀ i1, UEv.patch i1 j ∈ s0.trace → False := by
    intro i1 hm
    obtain ⟨o1, n1, _, ho1, hn1, hs1, _, _⟩ := hd.trPatch i1 j hm
    rw [hn] at hn1
    simp only [Option.some.injEq] at hn1
    subst hn1
    have hk1 : o1.key = some k := by rw [sameVnode_key o1 n hs1]; exact hnk
    have := keys_distinct olds hko i1 i o1 o k ho1 ho hk1 hok
    subst this
    exact hpo j hm
  have hjm : j ∈ newIdxs s0.trace := (hd.trNewMem j).2 hjl
  have him : i ∈ oldIdxs s0.trace := (hd.trOldMem i).2 hil
  have hcr : UEv.create j ∈ s0.trace := by
    rcases (mem_newIdxs_iff _ _).1 hjm with ⟨i1, h1⟩ | h1
    · exact absurd h1 (fun h => hpn i1 h)
    · exact h1
  have hrm : UEv.remove i ∈ s0.trace := by
    rcases (mem_oldIdxs_iff _ _).1 him with ⟨j1, h1⟩ | h1
    · exact absurd h1 (fun h => hpo j1 h)
    · exact h1
  refine ⟨s, hrun, ?_, ?_, ?_, ?_⟩
  · intro hm
    exact hpo j ((same_mem s0 s hsame (UEv.patch i j) rfl).1 hm)
  · rw [same_count s0 s hsame (UEv.create j) rfl]
    have hle := count_create_le s0.trace j
    rw [count_one_of_mem _ _ hd.trNewNodup hjm] at hle
    have := List.count_pos_iff.2 hcr
    omega
  · rw [same_count s0 s hsame (UEv.remove i) rfl]
    have hle := count_remove_le s0.trace i
    rw [count_one_of_mem _ _ hd.trOldNodup him] at hle
    have := List.count_pos_iff.2 hrm
    omega
  · intro x hx hmem
    have hmem0 : x ∈ s0.kids.map LNode.h := (hsame.hK.map LNode.h).mem_iff.1 hmem
    have hk := mirrorsL_map olds kids hr.mir
    -- the handles of the old children are distinct and in use
    have hondup : (olds.map VNode.elm).Nodup := by
      rw [← hk]
      have : kids.map (fun k => some k.h) = (kids.map LNode.h).map some := by
        rw [List.map_map]; rfl
      rw [this]
      exact List.Nodup.map (Option.some_injective _) hr.nodup
    have hxlt : x < st.next := by
      have h1 : some x ∈ olds.map VNode.elm := by
        rw [← hx]; exact List.mem_map_of_mem _ (getAt_mem _ _ _ ho)
      rw [← hk] at h1
      obtain ⟨k1, hk1, hk2⟩ := List.mem_map.1 h1
      simp only [Option.some.injEq] at hk2
      rw [← hk2]
      exact bounded_h_lt _ _ ((boundedL_iff _ _).1 hr.bnd k1 hk1)
    have h2 : some x ∈ s0.newCh.map VNode.elm := by
      rw [← hd.order]
      obtain ⟨k1, hk1, hk2⟩ := List.mem_map.1 hmem0
      exact List.mem_map.2 ⟨k1, hk1, by rw [hk2]⟩
    obtain ⟨v, hv, hve⟩ := List.mem_map.1 h2
    obtain ⟨j1, hj1⟩ := mem_getAt _ _ hv
    have hj1l := getAt_length_lt _ _ _ hj1
    rw [hd.lenN] at hj1l
    have hj1m : j1 ∈ newIdxs s0.trace := (hd.trNewMem j1).2 hj1l
    rcases (mem_newIdxs_iff _ _).1 hj1m with ⟨i1, h1⟩ | h1
    · obtain ⟨o1, n1, v1, ho1, _, _, hv1, he1⟩ := hd.trPatch i1 j1 h1
      rw [hj1] at hv1
      simp only [Option.some.injEq] at hv1
      subst hv1
      have : i1 = i := index_unique VNode.elm olds hondup i1 i o1 o ho1 ho (by
        rw [← he1, hve, hx])
      subst this
      exact hpo j1 h1
    · obtain ⟨v1, x1, hv1, he1, hb1⟩ := hd.trCreate j1 h1
      rw [hj1] at hv1
      simp only [Option.some.injEq] at hv1
      subst hv1
      rw [hve] at he1
      simp only [Option.some.injEq] at he1
      subst he1
      exact absurd hxlt (Nat.not_lt.2 hb1)

theorem key_collision_safe_witness :
    ∃ s, updateChildren 1 0 [liveEl 10 "div"] ([mkEl "div" (some 1) (some 10)].map some)
        [mkEl "span" (some 1) none] false st0 = .ok s ∧
      UEv.patch 0 0 ∉ s.trace ∧ s.trace.count (UEv.create 0) = 1 ∧
      s.trace.count (UEv.remove 0) = 1 ∧
      (∀ x, (mkEl "div" (some 1) (some 10)).elm = some x → x ∉ s.kids.map LNode.h) :=
  key_collision_safe 1 0 [mkEl "div" (some 1) (some 10)] [mkEl "span" (some 1) none]
    [liveEl 10 "div"] st0
    { wfOld := by decide
      wfNew := by decide
      hOld := by decide
      hNew := by decide
      mir := by decide
      nodup := by decide
      bnd := by decide }
    false (by decide) 0 0 (mkEl "div" (some 1) (some 10)) (mkEl "span" (some 1) none) 1
    rfl rfl rfl rfl rfl (by decide)

/-- C8, amended: when the keys of the new children are plain (no two of them
have the same property name, and none is named like a property of
`Object.prototype`; the old children may repeat keys), on well-formed input
`updateChildren` runs to completion, with or without `removeOnly`. -/
theorem distinct_new_keys_no_throw (d : Nat) (p : Handle) (olds news : List VNode)
    (kids : List LNode) (st : St) (hr : Rendered d olds news kids st) (removeOnly : Bool)
    (hpk : plainKeys news = true) :
    ∃ s, updateChildren d p kids (olds.map some) news removeOnly st = .ok s := by
  have hr : Ready d olds news kids st := { toRendered := hr, keysNew := hpk }
  obtain ⟨_, s, _, hrun, _, _⟩ := updateChildren_any d p olds news kids st hr hpk removeOnly
  exact ⟨s, hrun⟩

theorem distinct_new_keys_no_throw_witness :
    ∃ s, updateChildren 1 0 [liveEl 10 "li", liveEl 11 "li", liveEl 12 "li"]
      ([mkEl "li" (some 1) (some 10), mkEl "li" (some 1) (some 11),
        mkEl "li" (some 3) (some 12)].map some)
      [mkEl "li" (some 3) none, mkEl "li" (some 1) none] false st0 = .ok s :=
  distinct_new_keys_no_throw 1 0
    [mkEl "li" (some 1) (some 10), mkEl "li" (some 1) (some 11), mkEl "li" (some 3) (some 12)]
    [mkEl "li" (some 3) none, mkEl "li" (some 1) none]
    [liveEl 10 "li", liveEl 11 "li", liveEl 12 "li"] st0
    { wfOld := by decide
      wfNew := by decide
      hOld := by decide
      hNew := by decide
      mir := by decide
      nodup := by decide
      bnd := by decide }
    false (by decide)

/-- C9 fails as stated: on old children keyed `"a"`, `"b"` and new children
keyed `"toString"`, `"y"`, without duplicate keys, `updateChildren` throws at
the lookup of the first new child, so that no new child is patched or created
and no old child is patched or removed. -/
theorem lookup_of_inherited_name_throws :
    (keysOf [mkEl "li" (some (.str "toString")) none, mkEl "li" (some (.str "y")) none]).Nodup ∧
      updateChildren 1 0 [liveEl 10 "li", liveEl 11 "li"]
          [some (mkEl "li" (some (.str "a")) (some 10)),
           some (mkEl "li" (some (.str "b")) (some 11))]
          [mkEl "li" (some (.str "toString")) none, mkEl "li" (some (.str "y")) none] false st0
        = .error .typeError := by
  refine ⟨by decide, ?_⟩
  have h1 : ucStep (patchVnode 1 true false) (createElm 1) 0 true protoT0
      = .error .typeError := rfl
  rw [updateChildren_run 1 0 _ _ _ false st0 4 protoT0 true rfl rfl rfl,
    ucLoop_fail _ _ _ _ 3 _ _ (by decide) h1]

/-- C9, amended: exactly-once accounting.  On well-formed input where the
keys of the new children are plain (no two of them have the same property
name, and none is named like a property of `Object.prototype`),
`updateChildren` returns, every new index is
handled by exactly one event of the trace (a patch against one old child, or
a creation, never both and never twice) and every old index is handled by
exactly one event (a patch against one new child, or a removal). -/
theorem updateChildren_exactly_once (d : Nat) (p : Handle) (olds news : List VNode)
    (kids : List LNode) (st : St) (hr : Rendered d olds news kids st) (removeOnly : Bool)
    (hpk : plainKeys news = true) :
    ∃ s, updateChildren d p kids (olds.map some) news removeOnly st = .ok s ∧
      (∀ j : Int, 0 ≤ j → j < news.length → (newIdxs s.trace).count j = 1) ∧
      (∀ i : Int, 0 ≤ i → i < olds.length → (oldIdxs s.trace).count i = 1) := by
  have hr : Ready d olds news kids st := { toRendered := hr, keysNew := hpk }
  obtain ⟨s0, s, _, hrun, hd, hsame⟩ := updateChildren_any d p olds news kids st hr hpk removeOnly
  refine ⟨s, hrun, ?_, ?_⟩
  · intro j h0 h1
    rw [same_newIdxs s0 s hsame]
    exact count_one_of_mem _ _ hd.trNewNodup ((hd.trNewMem j).2 ⟨h0, h1⟩)
  · intro i h0 h1
    rw [same_oldIdxs s0 s hsame]
    exact count_one_of_mem _ _ hd.trOldNodup ((hd.trOldMem i).2 ⟨h0, h1⟩)

theorem updateChildren_exactly_once_witness :
    ∃ s, updateChildren 1 0 kidsAbcd (oldAbcd.map some) newDbca true st0 = .ok s ∧
      (∀ j : Int, 0 ≤ j → j < newDbca.length → (newIdxs s.trace).count j = 1) ∧
      (∀ i : Int, 0 ≤ i → i < oldAbcd.length → (oldIdxs s.trace).count i = 1) :=
  updateChildren_exactly_once 1 0 oldAbcd newDbca kidsAbcd st0
    { wfOld := by decide
      wfNew := by decide
      hOld := by decide
      hNew := by decide
      mir := by decide
      nodup := by decide
      bnd := by decide }
    true (by decide)

/-- C10: `removeOnly` only suppresses moves.  For every old and every new
child list, on live children with distinct handles in use and a depth that
is enough for the new trees: whenever the run of `updateChildren` without
`removeOnly` returns, the run with `removeOnly` set returns, its trace is
the trace of the other run without the moves (the same patches of the same
pairs, the same creations and the same removals, in the same order), it moves
no existing handle, and it leaves the same new children and the same engine
state; and on well-formed input the run without `removeOnly` does return. -/
theorem removeOnly_only_suppresses_moves (d : Nat) (p : Handle) (olds news : List VNode)
    (kids : List LNode) (st : St) (hnd : (handlesOf kids).Nodup)
    (hb : LNode.boundedL st.next kids = true) (hh : VNode.heightL news ≤ d) :
    (∀ s, updateChildren d p kids (olds.map some) news false st = .ok s →
      ∃ s1, updateChildren d p kids (olds.map some) news true st = .ok s1 ∧
        s1.trace = s.trace.filter notMove ∧ (∀ e r, UEv.move e r ∉ s1.trace) ∧
        s1.newCh = s.newCh ∧ s1.st = s.st) ∧
      (Ready d olds news kids st →
        ∃ s, updateChildren d p kids (olds.map some) news false st = .ok s) := by
  constructor
  · intro s hs
    obtain ⟨s1, h1, hR⟩ := updateChildrenWith_follow (patchVnode d true false) (createElm d) d p
      kids (olds.map some) news st
      (fun n hn => patchVnode_keeps d true false n (le_trans (heightL_le news n hn) hh))
      (fun n hn => createElm_spec d n (le_trans (heightL_le news n hn) hh))
      ((boundedL_iff _ _).1 hb) hnd s hs
    refine ⟨s1, h1, hR.hT, ?_, hR.hN, hR.hst⟩
    intro e r hm
    rw [hR.hT, List.mem_filter] at hm
    exact absurd hm.2 (by simp [notMove])
  · intro hr
    obtain ⟨s, _, h0, _⟩ := updateChildrenWith_rel (patchVnode d true false)
      (createElm d) d p olds news (hyp_real d olds news kids st hr) hr.keysNew
      (rendered_old d olds news kids st hr.toRendered) kids st
      (mirrorsL_map olds kids hr.mir) hr.nodup ((boundedL_iff _ _).1 hr.bnd)
      (mirrorsL_pair olds kids hr.mir hr.nodup)
    exact ⟨s, h0⟩

/-- C10 on old children `[a, b, c, d]` and new children `[d, b, c, a]`: both
runs return, and the run with `removeOnly` does what the other does, without
the two moves. -/
theorem removeOnly_only_suppresses_moves_witness :
    ∃ s s1, updateChildren 1 0 kidsAbcd (oldAbcd.map some) newDbca false st0 = .ok s ∧
      updateChildren 1 0 kidsAbcd (oldAbcd.map some) newDbca true st0 = .ok s1 ∧
      s1.trace = s.trace.filter notMove ∧ (∀ e r, UEv.move e r ∉ s1.trace) ∧
      s1.newCh = s.newCh ∧ s1.st = s.st :=
  have h := removeOnly_only_suppresses_moves 1 0 oldAbcd newDbca kidsAbcd st0 (by decide)
    (by decide) (by decide)
  (h.2
    { wfOld := by decide
      wfNew := by decide
      keysNew := by decide
      hOld := by decide
      hNew := by decide
      mir := by decide
      nodup := by decide
      bnd := by decide }).elim fun s hs => (h.1 s hs).elim fun s1 h1 => ⟨s, s1, hs, h1⟩

/-- C4, counterexample: a `div` holding a checkbox and a `div` holding a
radio button have the same shape, tags, keys, comment flags, data presence
and text at every position, yet `patchVnode` creates a new `input` and
removes the old one: `sameVnode` compares the `type` of two inputs. -/
theorem identical_inputs_recreated :
    structurallyIdentical formOld formNew = true ∧
      ∃ n1 sub1 st1 ev, patchVnode 2 false false formOld formNew formLive st0
          = .ok (n1, sub1, st1, ev) ∧
        Ev.createElement "input" 100 ∈ ev ∧ Ev.removeChild 10 11 ∈ ev := by
  have h1 : ucStep (patchVnode 1 true false) (createElm 1) 10 true formS0 = .ok formS1 := rfl
  have hf : ucFinish (createElm 1) 1 10 formS1 = .ok formS2 := rfl
  have hrun : updateChildren 1 10 [liveEl 11 "input"]
      ([inputEl "checkbox" (some 11)].map some) [inputEl "radio" none] false st0
        = .ok formS2 := by
    rw [updateChildren_run 1 10 [liveEl 11 "input"] ([inputEl "checkbox" (some 11)].map some)
        [inputEl "radio" none] false st0 2 formS0 true rfl rfl rfl,
      ucLoop_succ _ _ _ _ 1 _ _ (by decide) h1, ucLoop_exit _ _ _ _ _ _ (by decide)]
    exact hf
  refine ⟨by decide,
    ((cloneIfUsed formNew false).setElm formOld.elm).setChildren (some formS2.newCh),
    formLive.setKids formS2.kids, formS2.st,
    updateHooks ((cloneIfUsed formNew false).setElm formOld.elm) formLive.h ++ formS2.log ++
      postHooks ((cloneIfUsed formNew false).setElm formOld.elm) formLive.h, ?_, ?_, ?_⟩
  · have hrun1 : updateChildren 1 formLive.h formLive.kids
        ([inputEl "checkbox" (some 11)].map some) [inputEl "radio" none] false st0
          = .ok formS2 := hrun
    rw [patchVnode_children 1 false false formOld formNew formLive st0
      [inputEl "checkbox" (some 11)] [inputEl "radio" none] rfl rfl rfl rfl rfl, hrun1]
  · decide
  · decide

/-- C4, amended: for every rendered old VNode tree and every new VNode tree
such that at every position the two nodes are the same node for `sameVnode`
(which for two `input` elements also asks for the same `type`, or two
text-like types), the old node is not an async placeholder, the texts are
equal and the child arrays have the same length, `patchVnode` returns, the
live tree and the handle counter are as they were, and every event is a
hook of the update phase: no creation, no removal, no move and no
`setTextContent`. -/
theorem patchVnode_idempotent (d : Nat) (hasOwner removeOnly : Bool) (o n : VNode) (sub : LNode)
    (st : St) (hs : sameTree o n = true) (hm : mirrors sub o = true) (hd : o.height ≤ d) :
    ∃ n1 ev, patchVnode d hasOwner removeOnly o n sub st = .ok (n1, sub, st, ev) ∧
      ∀ x ∈ ev, isUpdateHook x = true :=
  patchVnode_quiet d hasOwner removeOnly o n sub st hs hm hd

/-- C4, amended, on a `div` holding a text input patched against the same
`div` holding an e-mail input. -/
theorem patchVnode_idempotent_witness :
    sameTree textOld emailNew = true ∧ mirrors formLive textOld = true ∧ textOld.height ≤ 2 ∧
      ∃ n1 ev, patchVnode 2 false false textOld emailNew formLive st0
          = .ok (n1, formLive, st0, ev) ∧ ∀ x ∈ ev, isUpdateHook x = true :=
  ⟨by decide, by decide, by decide,
    patchVnode_idempotent 2 false false textOld emailNew formLive st0 (by decide) (by decide)
      (by decide)⟩

/-! ## The identity predicate -/

/-- C11: reference definition of `sameVnode`.  When `a` is not an async
placeholder `sameVnode(a, b)` returns a boolean, and it is `true` exactly
when the keys are equal (two undefined keys are equal), the async factories
are equal, the tags are equal, the comment flags are equal, the two nodes
agree on whether `data` is defined, and `sameInputType(a, b)` holds. -/
theorem sameVnode_reference (a b : VNode) (ha : a.info.isAsyncPlaceholder = false) :
    sameVnode a b = .ok (decide (a.key = b.key ∧ a.info.asyncFactory = b.info.asyncFactory ∧
      a.info.tag = b.info.tag ∧ a.info.isComment = b.info.isComment ∧
      a.info.data.isSome = b.info.data.isSome ∧ sameInputType a.info b.info = true)) := by
  unfold sameVnode sameVnodeInfo VNode.key
  by_cases h1 : a.info.key = b.info.key ∧ a.info.asyncFactory = b.info.asyncFactory
  · by_cases h2 : a.info.tag = b.info.tag ∧ a.info.isComment = b.info.isComment ∧
        a.info.data.isSome = b.info.data.isSome ∧ sameInputType a.info b.info = true
    · simp only [h1, h2, and_self, if_true, decide_True]
    · have h3 : ¬ (a.info.key = b.info.key ∧ a.info.asyncFactory = b.info.asyncFactory ∧
          a.info.tag = b.info.tag ∧ a.info.isComment = b.info.isComment ∧
          a.info.data.isSome = b.info.data.isSome ∧ sameInputType a.info b.info = true) :=
        fun h => h2 h.2.2
      rw [decide_eq_false h3]
      simp only [h1, and_self, if_true, h2, if_false, ha, Bool.false_eq_true]
  · have h3 : ¬ (a.info.key = b.info.key ∧ a.info.asyncFactory = b.info.asyncFactory ∧
        a.info.tag = b.info.tag ∧ a.info.isComment = b.info.isComment ∧
        a.info.data.isSome = b.info.data.isSome ∧ sameInputType a.info b.info = true) :=
      fun h => h1 ⟨h.1, h.2.1⟩
    rw [decide_eq_false h3]
    simp only [h1, if_false]

/-- C11 on two `li` elements of key 1. -/
theorem sameVnode_reference_witness :
    sameVnode (mkEl "li" (some 1) (some 10)) (mkEl "li" (some 1) none) = .ok
      (decide ((mkEl "li" (some 1) (some 10)).key = (mkEl "li" (some 1) none).key ∧
        (mkEl "li" (some 1) (some 10)).info.asyncFactory
          = (mkEl "li" (some 1) none).info.asyncFactory ∧
        (mkEl "li" (some 1) (some 10)).info.tag = (mkEl "li" (some 1) none).info.tag ∧
        (mkEl "li" (some 1) (some 10)).info.isComment
          = (mkEl "li" (some 1) none).info.isComment ∧
        (mkEl "li" (some 1) (some 10)).info.data.isSome
          = (mkEl "li" (some 1) none).info.data.isSome ∧
        sameInputType (mkEl "li" (some 1) (some 10)).info (mkEl "li" (some 1) none).info
          = true)) :=
  sameVnode_reference (mkEl "li" (some 1) (some 10)) (mkEl "li" (some 1) none) rfl

/-- C12, counterexample: an old `div` flagged as an async placeholder and a new
`span` with the same key and the same factory, which has no error; the tags
differ and the new node is not flagged as an async placeholder, yet
`sameVnode` answers yes: the flag of the new node is not read. -/
theorem placeholder_flag_of_new_not_read :
    asyncOld.key = asyncNew.key ∧ asyncOld.info.asyncFactory = asyncNew.info.asyncFactory ∧
      asyncOld.info.tag ≠ asyncNew.info.tag ∧ asyncNew.info.isAsyncPlaceholder = false ∧
      sameVnode asyncOld asyncNew = .ok true := by
  refine ⟨rfl, rfl, by decide, rfl, rfl⟩

/-- C12, amended: for `a` and `b` with equal key and equal async factory whose
tag, comment-flag, data-presence and input-type condition does not hold,
`sameVnode(a, b)` holds exactly when `a` is an async placeholder and the
factory of `b` is defined and has no recorded error. -/
theorem sameVnode_placeholder_branch (a b : VNode) (hk : a.key = b.key)
    (hf : a.info.asyncFactory = b.info.asyncFactory)
    (hc : ¬ (a.info.tag = b.info.tag ∧ a.info.isComment = b.info.isComment ∧
      a.info.data.isSome = b.info.data.isSome ∧ sameInputType a.info b.info = true)) :
    sameVnode a b = .ok true ↔
      a.info.isAsyncPlaceholder = true ∧
        ∃ f, b.info.asyncFactory = some f ∧ f.hasError = false := by
  have hk1 : a.info.key = b.info.key := hk
  unfold sameVnode sameVnodeInfo
  simp only [hk1, hf, and_self, if_true, hc, if_false]
  by_cases hA : a.info.isAsyncPlaceholder = true
  · simp only [hA, if_true, true_and]
    cases hb : b.info.asyncFactory with
    | none => simp
    | some f => simp
  · simp only [hA, Bool.false_eq_true, if_false, false_and, iff_false]
    intro h
    cases h

/-- C12, amended, on the old placeholder `div` and the new `span`. -/
theorem sameVnode_placeholder_branch_witness :
    sameVnode asyncOld asyncNew = .ok true ↔
      asyncOld.info.isAsyncPlaceholder = true ∧
        ∃ f, asyncNew.info.asyncFactory = some f ∧ f.hasError = false :=
  sameVnode_placeholder_branch asyncOld asyncNew rfl rfl (by decide)

/-- C13, counterexample: on an old node flagged as an async placeholder that
carries no factory and a new node of another tag without factory, `sameVnode`
throws: it reads `error` of the undefined `asyncFactory`. -/
theorem sameVnode_throws_without_factory :
    sameVnode orphanOld (mkEl "span" none none) = .error .typeError := rfl

/-- C13, amended: `sameVnode(a, b)` returns a boolean whenever `a` is not an
async placeholder, or `a` or `b` carries an async factory.  The embedding is a
function of the two nodes that yields the verdict only: there is nothing it
could modify. -/
theorem sameVnode_returns (a b : VNode)
    (h : a.info.isAsyncPlaceholder = true →
      a.info.asyncFactory.isSome = true ∨ b.info.asyncFactory.isSome = true) :
    ∃ r, sameVnode a b = .ok r := by
  unfold sameVnode sameVnodeInfo
  split
  · rename_i hk
    split
    · exact ⟨_, rfl⟩
    · split
      · rename_i hp
        have hb : b.info.asyncFactory.isSome = true := by
          rcases h hp with h1 | h1
          · rw [← hk.2]; exact h1
          · exact h1
        obtain ⟨f, hf⟩ := Option.isSome_iff_exists.1 hb
        rw [hf]
        exact ⟨_, rfl⟩
      · exact ⟨_, rfl⟩
  · exact ⟨_, rfl⟩

/-- C13, amended, on the old placeholder `div` and the new `span`, which carry
the same factory. -/
theorem sameVnode_returns_witness : ∃ r, sameVnode asyncOld asyncNew = .ok r :=
  sameVnode_returns asyncOld asyncNew (fun _ => Or.inl rfl)

/-- C14: static short-circuit.  For an old node that is not an async
placeholder and a new node that are both static, with equal keys, the new one
cloned or once, `patchVnode` returns without any event (no Node Operations
call, no hook), leaves the live node and the state as they were, leaves the
children of the new node untouched (no child diff), and leaves the new node
with the `elm` and the `componentInstance` of the old node. -/
theorem static_short_circuit (d : Nat) (hasOwner removeOnly : Bool) (o n : VNode) (sub : LNode)
    (st : St) (ha : o.info.isAsyncPlaceholder = false) (hn : n.info.isStatic = true)
    (ho : o.info.isStatic = true) (hk : n.key = o.key)
    (hc : n.info.isCloned = true ∨ n.info.isOnce = true) :
    ∃ n1, patchVnode (d + 1) hasOwner removeOnly o n sub st = .ok (n1, sub, st, []) ∧
      n1.elm = o.elm ∧ n1.info.componentInstance = o.info.componentInstance ∧
      n1.children = n.children := by
  obtain ⟨f1, f2, _, f4⟩ := cloneIfUsed_flags n hasOwner
  have hvk : ((cloneIfUsed n hasOwner).setElm o.elm).key = o.key := by
    rw [VNode.setElm_key, cloneIfUsed_key]
    exact hk
  have hvs : ((cloneIfUsed n hasOwner).setElm o.elm).info.isStatic = true := by
    cases hcl : cloneIfUsed n hasOwner
    rw [hcl] at f1
    rw [← hn, ← f1]
    rfl
  have hvc : (((cloneIfUsed n hasOwner).setElm o.elm).info.isCloned
      || ((cloneIfUsed n hasOwner).setElm o.elm).info.isOnce) = true := by
    cases hcl : cloneIfUsed n hasOwner
    rw [hcl] at f2 f4
    rcases hc with hc | hc
    · have := f4 hc
      simp only [VNode.setElm, VNode.setInfo, VNode.info, Bool.or_eq_true] at this ⊢
      exact Or.inl this
    · rw [← f2] at hc
      simp only [VNode.setElm, VNode.setInfo, VNode.info, Bool.or_eq_true] at hc ⊢
      exact Or.inr hc
  have hvch : ((cloneIfUsed n hasOwner).setElm o.elm).children = n.children := by simp
  have hve : ((cloneIfUsed n hasOwner).setElm o.elm).elm = o.elm := by simp
  unfold patchVnode
  simp only []
  generalize (cloneIfUsed n hasOwner).setElm o.elm = vnode at *
  simp only [ha, Bool.false_eq_true, if_false, hvs, ho, hvk, decide_True, hvc, Bool.and_self,
    if_true]
  refine ⟨_, rfl, ?_, ?_, ?_⟩
  · cases vnode; exact hve
  · cases vnode; rfl
  · cases vnode; exact hvch

/-- C14 on two static text nodes, the new one cloned. -/
theorem static_short_circuit_witness :
    ∃ n1, patchVnode (0 + 1) true false (staticText "a" (some 10) false)
        (staticText "b" none true) (LNode.mk 10 .text "a" []) st0
          = .ok (n1, LNode.mk 10 .text "a" [], st0, []) ∧
      n1.elm = (staticText "a" (some 10) false).elm ∧
      n1.info.componentInstance = (staticText "a" (some 10) false).info.componentInstance ∧
      n1.children = (staticText "b" none true).children :=
  static_short_circuit 0 true false (staticText "a" (some 10) false) (staticText "b" none true)
    (LNode.mk 10 .text "a" []) st0 rfl rfl rfl rfl (Or.inl rfl)

/-- C15: text update.  For a new node whose text is defined, an old node
that is not an async placeholder, and the static short-circuit not taken,
`patchVnode` returns; its only Node Operations call is one
`setTextContent(elm, newText)` when the texts differ, and it makes none when
they are equal; the children of the new node are left untouched (no child
creation, removal or diff). -/
theorem text_update (d : Nat) (hasOwner removeOnly : Bool) (o n : VNode) (sub : LNode) (st : St)
    (t : String) (ht : n.info.text = some t) (ha : o.info.isAsyncPlaceholder = false)
    (hs : ((cloneIfUsed n hasOwner).info.isStatic && o.info.isStatic
      && decide ((cloneIfUsed n hasOwner).key = o.key)
      && ((cloneIfUsed n hasOwner).info.isCloned || (cloneIfUsed n hasOwner).info.isOnce))
        = false) :
    ∃ n1 sub1 st1 ev, patchVnode (d + 1) hasOwner removeOnly o n sub st
        = .ok (n1, sub1, st1, ev) ∧
      ev.filter isNodeOp = (if o.info.text = some t then [] else [.setTextContent sub.h t]) ∧
      n1.children = n.children := by
  have hvt : ((cloneIfUsed n hasOwner).setElm o.elm).info.text = some t := by
    have := (cloneIfUsed_flags n hasOwner).2.2.1
    cases hcl : cloneIfUsed n hasOwner
    rw [hcl] at this
    rw [← ht, ← this]
    rfl
  have hvs : (((cloneIfUsed n hasOwner).setElm o.elm).info.isStatic && o.info.isStatic
      && decide (((cloneIfUsed n hasOwner).setElm o.elm).key = o.key)
      && (((cloneIfUsed n hasOwner).setElm o.elm).info.isCloned
        || ((cloneIfUsed n hasOwner).setElm o.elm).info.isOnce)) = false := by
    rw [← hs, VNode.setElm_key]
    cases cloneIfUsed n hasOwner
    rfl
  have hvch : ((cloneIfUsed n hasOwner).setElm o.elm).children = n.children := by simp
  unfold patchVnode
  simp only []
  generalize (cloneIfUsed n hasOwner).setElm o.elm = vnode at *
  simp only [ha, Bool.false_eq_true, if_false, hvs, hvt]
  by_cases hot : o.info.text = some t
  · simp only [hot, ne_eq, not_true_eq_false, if_false, if_true]
    refine ⟨_, _, _, _, rfl, ?_, hvch⟩
    rw [List.filter_append, updateHooks_noOp, postHooks_noOp]
    rfl
  · simp only [hot, ne_eq, not_false_eq_true, if_true, if_false]
    refine ⟨_, _, _, _, rfl, ?_, hvch⟩
    rw [List.filter_append, List.filter_append, updateHooks_noOp, postHooks_noOp]
    unfold domSetTextContent
    split
    · split <;> rfl
    · rfl

/-- C15 on the text node "a" patched against the text node "b". -/
theorem text_update_witness :
    ∃ n1 sub1 st1 ev, patchVnode (0 + 1) true false (textNode "a" (some 10)) (textNode "b" none)
        (LNode.mk 10 .text "a" []) st0 = .ok (n1, sub1, st1, ev) ∧
      ev.filter isNodeOp = (if (textNode "a" (some 10)).info.text = some "b" then []
        else [.setTextContent (LNode.mk 10 .text "a" []).h "b"]) ∧
      n1.children = (textNode "b" none).children :=
  text_update 0 true false (textNode "a" (some 10)) (textNode "b" none)
    (LNode.mk 10 .text "a" []) st0 "b" rfl rfl rfl

/-- C20, counterexample: with a reference handle that is not a child of the
parent, `insert` does nothing: the element is not made a child of the
parent. -/
theorem insert_skips_foreign_ref :
    insert (some 0) [liveEl 10 "li"] (liveEl 11 "li") (some 99) = .ok ([liveEl 10 "li"], []) ∧
      liveEl 11 "li" ∉ [liveEl 10 "li"] := by
  refine ⟨rfl, ?_⟩
  simp [liveEl]

/-- C20, amended: for a defined parent, `insert(parent, elm, ref)` without
`ref` leaves `elm` as the last child of the parent; with a `ref` that is a
child of the parent and is not `elm` itself, it leaves `elm` immediately
before `ref`; the other children keep their order. -/
theorem insert_position (p : Handle) (kids : List LNode) (node : LNode) (r : Handle)
    (hr : hasH kids r = true) (hne : r ≠ node.h) :
    insert (some p) kids node none
        = .ok (removeH kids node.h ++ [node], [.appendChild p node.h]) ∧
      ∃ X y Z, removeH kids node.h = X ++ y :: Z ∧ y.h = r ∧ r ∉ X.map LNode.h ∧
        insert (some p) kids node (some r)
          = .ok (X ++ node :: y :: Z, [.insertBefore p node.h (some r)]) := by
  refine ⟨rfl, ?_⟩
  have hm := (hasH_iff kids r).1 hr
  obtain ⟨X, y, Z, hX, hy, hnX⟩ := mem_split_handle _ r (mem_removeH_ne kids node.h r hm hne)
  refine ⟨X, y, Z, hX, hy, hnX, ?_⟩
  have hb : (r == node.h) = false := by simpa using hne
  unfold insert
  simp only [hr, if_true, domInsertBefore, hb, Bool.false_eq_true, if_false]
  rw [hX, ← hy, insertBeforeH_mid X Z y node (by rw [hy]; exact hnX)]

/-- C20, amended, on a parent with children 10 and 11 and a new element 12
inserted before 11. -/
theorem insert_position_witness :
    insert (some 0) [liveEl 10 "li", liveEl 11 "li"] (liveEl 12 "li") none
        = .ok (removeH [liveEl 10 "li", liveEl 11 "li"] (liveEl 12 "li").h ++ [liveEl 12 "li"],
            [.appendChild 0 (liveEl 12 "li").h]) ∧
      ∃ X y Z, removeH [liveEl 10 "li", liveEl 11 "li"] (liveEl 12 "li").h = X ++ y :: Z ∧
        y.h = 11 ∧ 11 ∉ X.map LNode.h ∧
        insert (some 0) [liveEl 10 "li", liveEl 11 "li"] (liveEl 12 "li") (some 11)
          = .ok (X ++ liveEl 12 "li" :: y :: Z,
              [.insertBefore 0 (liveEl 12 "li").h (some 11)]) :=
  insert_position 0 [liveEl 10 "li", liveEl 11 "li"] (liveEl 12 "li") 11 (by decide) (by decide)

/-- C18, counterexample: an element without data has no destroy hook run on
it, module destroy hooks included, while the claim has the module destroy
hooks run at every node. -/
theorem destroy_skips_node_without_data :
    invokeDestroyHook 1 (mkEl "li" none (some 10)) = .ok [] ∧
      ((preorder (mkEl "li" none (some 10))).map destroyCallsClaimed).flatten
        = [.hook .moduleDestroy (some 10)] :=
  ⟨rfl, rfl⟩

/-- C18, amended: with depth for the whole subtree, `invokeDestroyHook`
returns, and the hooks it runs are those of the nodes of the subtree taken
once each in depth-first pre-order: at a node that has data its own destroy
hook if declared, then the module destroy hooks (the loop over `cbs.destroy`
from index 0), all before any hook of its children; at a node without data
none. -/
theorem destroy_order (d : Nat) (v : VNode) (h : v.height ≤ d) :
    invokeDestroyHook d v = .ok ((preorder v).map destroyCalls).flatten :=
  invokeDestroyHook_order d v h

/-- C18, amended, on a `div` without data that holds an `input` with data. -/
theorem destroy_order_witness :
    invokeDestroyHook 2 formOld = .ok ((preorder formOld).map destroyCalls).flatten :=
  destroy_order 2 formOld (by decide)

/-- C19: reference-counted removal.  For a node with data whose element is a
child of the parent, with `n` module remove hooks registered,
`removeAndInvokeRemoveHook` makes a callback that expects `n + 1` calls, and
calls it once itself when the node has no remove hook.  After any number `k`
of further calls the element is detached exactly when the calls made (`k`,
plus the one for a missing remove hook) are more than `n`, and `removeChild`
has then been issued exactly once. -/
theorem reference_counted_removal (n : Nat) (p : Handle) (kids : List LNode) (v : VNode)
    (e : Handle) (hd : v.info.data.isSome = true) (he : v.elm = some e)
    (hk : hasH kids e = true) :
    ∃ rm kids0 ev0, removeAndInvokeRemoveHookCb n p kids v = .ok (some rm, kids0, ev0) ∧
      rm.listeners = (n : Int) + 1 - (if hasHook v Hooks.remove then 0 else 1) ∧
      ∀ k : Nat, ∃ rm1 evk, rm.calls k p kids0 = .ok (rm1,
          (if (if hasHook v Hooks.remove then 0 else 1) + k ≤ n then kids else removeH kids e),
          evk) ∧
        (ev0 ++ evk).count (.removeChild p e)
          = if (if hasHook v Hooks.remove then 0 else 1) + k ≤ n then 0 else 1 := by
  unfold removeAndInvokeRemoveHookCb
  simp only [hd, if_true, he]
  by_cases hh : hasHook v Hooks.remove = true
  · simp only [hh, if_true, zero_add]
    refine ⟨createRmCb (some e) ((n : Int) + 1), kids,
      [.hook .moduleRemove (some e), .hook .remove (some e)], rfl, by simp [createRmCb], ?_⟩
    intro k
    have hs := calls_spec p kids e hk k ((n : Int) + 1) (by omega)
    by_cases hkn : k ≤ n
    · have hc : (k : Int) < (n : Int) + 1 := by omega
      simp only [hc, if_true] at hs
      refine ⟨{ childElm := some e, listeners := (n : Int) + 1 - k }, [], ?_, ?_⟩
      · simp only [hkn, if_true]
        exact hs
      · simp [hkn]
    · have hc : ¬ ((k : Int) < (n : Int) + 1) := by omega
      simp only [hc, if_false] at hs
      refine ⟨{ childElm := some e, listeners := (n : Int) + 1 - k }, [.removeChild p e], ?_, ?_⟩
      · simp only [hkn, if_false]
        exact hs
      · simp [hkn]
  · simp only [hh, Bool.false_eq_true, if_false]
    by_cases hn : n = 0
    · subst hn
      have h1 : (createRmCb (some e) (((0 : Nat) : Int) + 1)).call p kids
          = .ok ({ childElm := some e, listeners := 0 }, removeH kids e, [.removeChild p e]) := by
        simp [RmCb.call, createRmCb, removeNode, hk]
      rw [h1]
      refine ⟨{ childElm := some e, listeners := 0 }, removeH kids e,
        [.hook .moduleRemove (some e)] ++ [.removeChild p e], rfl, by simp, ?_⟩
      intro k
      have hkn : ¬ (1 + k ≤ 0) := by omega
      refine ⟨{ childElm := some e, listeners := 0 - (k : Int) }, [], ?_, ?_⟩
      · simp only [hkn, if_false]
        exact calls_idle p _ k _ (Or.inl (le_refl _))
      · simp [hkn]
    · have hz : ¬ ((createRmCb (some e) ((n : Int) + 1)).listeners - 1 = 0) := by
        show ¬ ((n : Int) + 1 - 1 = 0)
        omega
      have h1 : (createRmCb (some e) ((n : Int) + 1)).call p kids
          = .ok (createRmCb (some e) (n : Int), kids, []) := by
        unfold RmCb.call
        simp only [hz, if_false]
        simp [createRmCb]
      rw [h1]
      refine ⟨createRmCb (some e) (n : Int), kids, [.hook .moduleRemove (some e)] ++ [], rfl,
        by simp [createRmCb], ?_⟩
      intro k
      have hs := calls_spec p kids e hk k (n : Int) (by omega)
      by_cases hkn : 1 + k ≤ n
      · have hc : (k : Int) < (n : Int) := by omega
        simp only [hc, if_true] at hs
        refine ⟨{ childElm := some e, listeners := (n : Int) - k }, [], ?_, ?_⟩
        · simp only [hkn, if_true]
          exact hs
        · simp [hkn]
      · have hc : ¬ ((k : Int) < (n : Int)) := by omega
        simp only [hc, if_false] at hs
        refine ⟨{ childElm := some e, listeners := (n : Int) - k }, [.removeChild p e], ?_, ?_⟩
        · simp only [hkn, if_false]
          exact hs
        · simp [hkn]

/-- C19 on a `div` with a remove hook and two module remove hooks. -/
theorem reference_counted_removal_witness :
    ∃ rm kids0 ev0, removeAndInvokeRemoveHookCb 2 0 [liveEl 10 "div"] (hookedDiv (some 10) true)
        = .ok (some rm, kids0, ev0) ∧
      rm.listeners = ((2 : Nat) : Int) + 1
        - (if hasHook (hookedDiv (some 10) true) Hooks.remove then 0 else 1) ∧
      ∀ k : Nat, ∃ rm1 evk, rm.calls k 0 kids0 = .ok (rm1,
          (if (if hasHook (hookedDiv (some 10) true) Hooks.remove then 0 else 1) + k ≤ 2
            then [liveEl 10 "div"] else removeH [liveEl 10 "div"] 10),
          evk) ∧
        (ev0 ++ evk).count (.removeChild 0 10)
          = if (if hasHook (hookedDiv (some 10) true) Hooks.remove then 0 else 1) + k ≤ 2
            then 0 else 1 :=
  reference_counted_removal 2 0 [liveEl 10 "div"] (hookedDiv (some 10) true) 10 rfl rfl
    (by decide)

/-- C16: `patch` returns the new root handle.  For every call with a defined new
VNode that returns, the returned handle is the `elm` of the new VNode as it
stands after the call, and when the old root is a VNode that is the same node
as the new one (`sameVnode` holds) the returned handle is the `elm` of the old
VNode: the root handle is reused.  In that case the call does return, whatever
the flags, when the old VNode mirrors a live node found among the children of
the parent and both trees are well formed and within the depth bound. -/
theorem patch_returns_root (d : Nat) (old : OldRoot) (v : VNode) (hydrating removeOnly : Bool)
    (parent : Option Handle) (kids : List LNode) (st : St) :
    (∀ r, patch d old (some v) hydrating removeOnly parent kids st = .ok r →
      (∃ v1, r.vnode = some v1 ∧ r.ret = v1.elm) ∧
        ∀ o, old = .vnode o → sameVnode o v = .ok true → r.ret = o.elm) ∧
    (∀ o sub, old = .vnode o → sameVnode o v = .ok true → mirrors sub o = true →
      findH kids sub.h = some sub → LNode.bounded st.next sub = true →
      o.wellFormed = true → v.wellFormed = true → o.height ≤ d → v.height ≤ d →
      ∃ r, patch d old (some v) hydrating removeOnly parent kids st = .ok r ∧ r.ret = o.elm) := by
  refine ⟨fun r h => patch_ret d old v hydrating removeOnly parent kids st r h, ?_⟩
  intro o sub ho hs hm hf hb hwo hwn hho hhn
  subst ho
  exact patch_reuse d o v hydrating removeOnly parent kids st sub hs hm hf hb hwo hwn hho hhn

theorem patch_returns_root_witness :
    ∃ r, patch 2 (.vnode textOld) (some emailNew) false false (some 1) [formLive] st0 = .ok r ∧
      r.ret = some 10 ∧ ∃ v1, r.vnode = some v1 ∧ v1.elm = some 10 := by
  have T := patch_returns_root 2 (.vnode textOld) emailNew false false (some 1) [formLive] st0
  obtain ⟨r, hr, he⟩ := T.2 textOld formLive rfl rfl (by decide) rfl (by decide)
    (by decide) (by decide) (by decide) (by decide)
  obtain ⟨⟨v1, hv, hv1⟩, _⟩ := T.1 r hr
  exact ⟨r, hr, he, v1, hv, hv1.symm.trans he⟩

/-- C17: root replacement keeps the position.  The old VNode is rendered by the
child `oldNode` of the live parent `p`, whose child list is `A ++ oldNode :: B`
(handles pairwise distinct and allocated), and the new VNode is not the same
node (`sameVnode` returns false).  The remove listeners of the old root report
completion at once, so its detachment is not deferred.  Then
`patch` returns; the child list of `p` afterwards is `A ++ newNode :: B`, where
`newNode` is the freshly created node that `vnode.elm` names after the call and
that `patch` returns; and the handle of the old root is no longer among the
children of `p`. -/
theorem root_replacement (d : Nat) (p : Handle) (A B : List LNode) (oldNode : LNode) (o n : VNode)
    (hydrating removeOnly : Bool) (st : St)
    (hnd : ((A ++ oldNode :: B).map LNode.h).Nodup)
    (hb : ∀ k ∈ A ++ oldNode :: B, LNode.bounded st.next k = true)
    (he : o.elm = some oldNode.h) (hs : sameVnode o n = .ok false)
    (hho : o.height ≤ d) (hhn : n.height ≤ d) (hrd : o.rmDeferred = false) :
    ∃ r newNode v1, patch d (.vnode o) (some n) hydrating removeOnly (some p)
        (A ++ oldNode :: B) st = .ok r ∧
      r.kids = A ++ newNode :: B ∧ newNode.h = st.next ∧ r.ret = some newNode.h ∧
      r.node = some newNode ∧ r.vnode = some v1 ∧ v1.elm = some newNode.h ∧
      oldNode.h ∉ r.kids.map LNode.h := by
  have hA : oldNode.h ∉ A.map LNode.h := by
    rw [List.map_append, List.map_cons] at hnd
    have := (List.nodup_append.1 hnd).2.2
    intro hin
    exact this hin (List.mem_cons_self _ _)
  have hB : oldNode.h ∉ B.map LNode.h := by
    rw [List.map_append, List.map_cons] at hnd
    exact (List.nodup_cons.1 (List.nodup_append.1 hnd).2.1).1
  obtain ⟨n1, node, st1, ev, hn1e, hnh, _, hlt, _, hrun⟩ :=
    createElm_spec d n hhn false { st with queue := [] }
  have hnh1 : node.h = st.next := hnh
  have hfresh : node.h ∉ (A ++ oldNode :: B).map LNode.h := by
    rw [hnh1]
    exact bounded_not_mem st.next _ hb st.next (le_refl _)
  obtain ⟨evi, hins⟩ := insert_after_mid p A B oldNode node hnd hfresh
  obtain ⟨evd, hdes⟩ := destroyOld_mid d o p A (node :: B) oldNode he hA hho hrd
  have hhas : hasH (A ++ oldNode :: B) oldNode.h = true :=
    (hasH_iff _ _).2 (by simp)
  have hold : oldNode.h < st.next :=
    bounded_h_lt _ _ (hb oldNode (by simp))
  refine ⟨{ ret := n1.elm, vnode := some n1, node := some node, kids := A ++ node :: B,
            st := st1,
            log := [] ++ (ev ++ evi) ++ evd
              ++ st1.queue.map (fun x => Ev.hook .insert x.val.elm) },
    node, n1, ?_, rfl, hnh1, ?_, rfl, rfl, ?_, ?_⟩
  · unfold patch
    simp only [hs]
    unfold patchReplace
    simp only [he, hhas, Bool.not_true, Bool.false_eq_true, if_false, Option.isSome_some,
      if_true, nextSiblingH_mid A B oldNode hA, hrun, hins, hdes, invokeInsertHook_queue]
  · show n1.elm = some node.h
    rw [hn1e, hnh1]
  · rw [hn1e, hnh1]
  · show oldNode.h ∉ (A ++ node :: B).map LNode.h
    simp only [List.map_append, List.map_cons, List.mem_append, List.mem_cons, not_or]
    exact ⟨hA, by omega, hB⟩

theorem root_replacement_witness :
    ∃ r newNode v1, patch 2 (.vnode formOld) (some (mkEl "span" none none)) false false (some 1)
        ([liveEl 5 "p"] ++ formLive :: [liveEl 6 "p"]) st0 = .ok r ∧
      r.kids = [liveEl 5 "p"] ++ newNode :: [liveEl 6 "p"] ∧ newNode.h = st0.next ∧
      r.ret = some newNode.h ∧ r.node = some newNode ∧ r.vnode = some v1 ∧
      v1.elm = some newNode.h ∧ formLive.h ∉ r.kids.map LNode.h :=
  root_replacement 2 1 [liveEl 5 "p"] [liveEl 6 "p"] formLive formOld (mkEl "span" none none)
    false false st0 (by decide) (by decide) rfl rfl (by decide) (by decide) rfl

/-! ## Insert hooks -/

theorem insertHookLoop_declared : ∀ (queue : List VInfo),
    (∀ q ∈ queue, declaresInsert q = true) →
    insertHookLoop queue = .ok (queue.map (fun q => Ev.hook .insert q.elm)) := by
  intro queue
  induction queue with
  | nil => intro _; rfl
  | cons q qs ih =>
    intro h
    have hq := h q (List.mem_cons_self _ _)
    have := ih (fun x hx => h x (List.mem_cons_of_mem _ hx))
    simp only [insertHookLoop, hq, if_true, this, List.map_cons]

/-! ## Instance events -/

theorem getElem?_length_append_cons {α : Type} (x : α) (S : List α) : ∀ (P : List α),
    (P ++ x :: S)[P.length]? = some x := by
  intro P
  induction P with
  | nil => simp
  | cons p P ih => simpa using ih

theorem offLoop_none (t : Fn) (S : List Fn) : ∀ (P : List Fn),
    (∀ x ∈ P, sameHandler x t = false) → offLoop (P ++ S) t P.length = P ++ S := by
  intro P
  induction P using List.reverseRecOn generalizing S with
  | nil => intro _; rfl
  | append_singleton P x ih =>
    intro h
    have hx : sameHandler x t = false := h x (by simp)
    have hP : ∀ y ∈ P, sameHandler y t = false := fun y hy => h y (by simp [hy])
    have hget : (P ++ [x] ++ S)[P.length]? = some x := by
      rw [List.append_assoc]
      exact getElem?_length_append_cons x S P
    rw [List.length_append, List.length_singleton, offLoop, hget]
    simp only [hx, Bool.false_eq_true, if_false]
    have := ih (x :: S) hP
    simpa using this

theorem offLoop_last (t : Fn) (A : List Fn) (c : Fn) (hc : sameHandler c t = true) :
    ∀ (B S : List Fn), (∀ b ∈ B, sameHandler b t = false) →
      offLoop (A ++ c :: (B ++ S)) t (A.length + 1 + B.length) = A ++ (B ++ S) := by
  intro B
  induction B using List.reverseRecOn with
  | nil =>
    intro S _
    have hget : (A ++ c :: ([] ++ S))[A.length]? = some c :=
      getElem?_length_append_cons c _ A
    simp only [List.length_nil, Nat.add_zero, offLoop, hget, hc, if_true]
    simp [List.eraseIdx_append_of_length_le]
  | append_singleton B x ih =>
    intro S h
    have hx : sameHandler x t = false := h x (by simp)
    have hB : ∀ y ∈ B, sameHandler y t = false := fun y hy => h y (by simp [hy])
    have hget : (A ++ c :: (B ++ [x] ++ S))[A.length + 1 + B.length]? = some x := by
      have e1 : A ++ c :: (B ++ [x] ++ S) = (A ++ c :: B) ++ x :: S := by simp
      have e2 : A.length + 1 + B.length = (A ++ c :: B).length := by simp; omega
      rw [e1, e2]
      exact getElem?_length_append_cons x S _
    rw [List.length_append, List.length_singleton, ← Nat.add_assoc, offLoop, hget]
    simp only [hx, Bool.false_eq_true, if_false]
    have := ih (x :: S) hB
    simpa using this

theorem last_match_split (p : Fn → Bool) : ∀ (L : List Fn),
    (∀ x ∈ L, p x = false) ∨
      ∃ A c B, L = A ++ c :: B ∧ p c = true ∧ ∀ b ∈ B, p b = false := by
  intro L
  induction L with
  | nil => exact Or.inl (by simp)
  | cons x xs ih =>
    rcases ih with h | ⟨A, c, B, hL, hc, hB⟩
    · by_cases hx : p x = true
      · exact Or.inr ⟨[], x, xs, rfl, hx, h⟩
      · refine Or.inl ?_
        intro y hy
        rcases List.mem_cons.1 hy with hy | hy
        · rw [hy]; simpa using hx
        · exact h y hy
    · exact Or.inr ⟨x :: A, c, B, by rw [hL]; rfl, hc, hB⟩

theorem off_events (vm : Vm) (e : String) (t : Fn) (x : String) :
    (vm.off e (some t)).events x =
      if x = e then (vm.events e).map (fun cbs => offLoop cbs t cbs.length) else vm.events x := by
  unfold Vm.off
  cases h : vm.events e with
  | none =>
    simp only [Option.map_none']
    split
    · rename_i hx
      rw [hx, h]
    · rfl
  | some cbs =>
    simp only [Option.map_some', setEvents]

theorem off_onces (vm : Vm) (e : String) (t : Option Fn) : (vm.off e t).onces = vm.onces := by
  unfold Vm.off
  cases vm.events e with
  | none => rfl
  | some cbs => cases t <;> rfl

theorem sameHandler_self (w : Fn) : sameHandler w w = true := by
  simp [sameHandler]

theorem offLoop_mem (cbs : List Fn) (t : Fn) : ∀ (i : Nat) (x : Fn),
    x ∈ offLoop cbs t i → x ∈ cbs := by
  intro i
  induction i with
  | zero => intro x hx; exact hx
  | succ i ih =>
    intro x hx
    unfold offLoop at hx
    split at hx
    · split at hx
      · exact (List.eraseIdx_sublist cbs i).subset hx
      · exact ih x hx
    · exact ih x hx

theorem offLoop_sublist (cbs : List Fn) (t : Fn) : ∀ (i : Nat), (offLoop cbs t i).Sublist cbs := by
  intro i
  induction i with
  | zero => exact List.Sublist.refl _
  | succ i ih =>
    unfold offLoop
    split
    · split
      · exact List.eraseIdx_sublist cbs i
      · exact ih
    · exact ih

theorem held_of_sublist (s : Nat) (e : String) (w : Fn) (k : Nat) (vm vm1 : Vm)
    (ho : vm.onces ≤ vm1.onces)
    (hs : ∀ cbs1, vm1.events e = some cbs1 → ∃ cbs, vm.events e = some cbs ∧ cbs1.Sublist cbs)
    (h : Held s e w k vm) : Held s e w k vm1 := by
  refine ⟨Nat.lt_of_lt_of_le h.1 ho, ?_⟩
  intro cbs1 hc
  obtain ⟨cbs, hv, hsub⟩ := hs cbs1 hc
  obtain ⟨h1, h2⟩ := h.2 cbs hv
  exact ⟨fun c hc1 => h1 c (hsub.subset hc1), le_trans (hsub.count_le w) h2⟩

theorem held_off (s : Nat) (e : String) (w : Fn) (k : Nat) (vm : Vm) (ev : String)
    (t : Option Fn) (h : Held s e w k vm) : Held s e w k (vm.off ev t) := by
  refine held_of_sublist s e w k vm _ (le_of_eq (off_onces vm ev t).symm) ?_ h
  intro cbs1 hc
  unfold Vm.off at hc
  cases hv : vm.events ev with
  | none => rw [hv] at hc; exact ⟨cbs1, hc, List.Sublist.refl _⟩
  | some cbs =>
    rw [hv] at hc
    cases t with
    | none =>
      simp only [setEvents] at hc
      by_cases he : e = ev
      · simp [he] at hc
      · simp only [he, if_false] at hc
        exact ⟨cbs1, hc, List.Sublist.refl _⟩
    | some f =>
      simp only [setEvents] at hc
      by_cases he : e = ev
      · subst he
        simp only [if_true, Option.some.injEq] at hc
        subst hc
        exact ⟨cbs, hv, offLoop_sublist cbs f _⟩
      · simp only [he, if_false] at hc
        exact ⟨cbs1, hc, List.Sublist.refl _⟩

theorem held_offAll (s : Nat) (e : String) (w : Fn) (k : Nat) (vm : Vm)
    (h : Held s e w k vm) : Held s e w k vm.offAll := by
  refine ⟨h.1, ?_⟩
  intro cbs hc
  simp [Vm.offAll] at hc

theorem held_on (s : Nat) (e : String) (w : Fn) (k : Nat) (vm : Vm) (ev : String) (x : Fn)
    (hw : hasSerial s w = true) (hx : hasSerial s x = false) (h : Held s e w k vm) :
    Held s e w k (vm.on ev x) := by
  have hxw : x ≠ w := by
    intro hh
    rw [hh, hw] at hx
    cases hx
  refine ⟨h.1, ?_⟩
  intro cbs hc
  simp only [Vm.on, setEvents] at hc
  by_cases he : e = ev
  · subst he
    simp only [if_true, Option.some.injEq] at hc
    subst hc
    cases hv : vm.events e with
    | none =>
      simp only [Option.getD_none, List.nil_append, List.mem_singleton]
      refine ⟨fun c hc hs => ?_, ?_⟩
      · rw [hc, hx] at hs
        cases hs
      · rw [List.count_cons, List.count_nil]
        simp [hxw]
    | some cbs =>
      obtain ⟨h1, h2⟩ := h.2 cbs hv
      simp only [Option.getD_some, List.mem_append, List.mem_singleton]
      refine ⟨fun c hc hs => ?_, ?_⟩
      · rcases hc with hc | hc
        · exact h1 c hc hs
        · rw [hc, hx] at hs
          cases hs
      · rw [List.count_append, List.count_cons, List.count_nil]
        simp [hxw, h2]
  · simp only [he, if_false] at hc
    exact h.2 cbs hc

theorem held_once (s : Nat) (e : String) (w : Fn) (k : Nat) (vm : Vm) (ev : String) (f : Nat)
    (hw : hasSerial s w = true) (h : Held s e w k vm) : Held s e w k (vm.once ev f) := by
  unfold Vm.once
  refine held_on s e w k _ ev _ hw ?_ ⟨Nat.lt_succ_of_lt h.1, h.2⟩
  simp only [hasSerial, beq_eq_false_iff_ne, ne_eq]
  exact Nat.ne_of_gt h.1

theorem runActs_held (s : Nat) (e : String) (w : Fn) (k : Nat) (emit : Emit)
    (hw : hasSerial s w = true) : ∀ (acts : List Act) (vm : Vm),
    (∀ act ∈ acts, Act.isEmit act = false) → Held s e w k vm →
      ∃ vm1, runActs emit acts vm = some (vm1, []) ∧ Held s e w k vm1 := by
  intro acts
  induction acts with
  | nil => intro vm _ h; exact ⟨vm, rfl, h⟩
  | cons a rest ih =>
    intro vm hne h
    have hr : ∀ act ∈ rest, Act.isEmit act = false := fun act ha => hne act (List.mem_cons_of_mem _ ha)
    have ha := hne a (List.mem_cons_self _ _)
    rcases a with ⟨ev, ar⟩ | ⟨ev, f⟩ | ⟨ev, f⟩ | ⟨ev, f⟩ | _
    · cases ha
    · obtain ⟨vm1, h1, h2⟩ := ih (vm.on ev (.user f)) hr (held_on s e w k vm ev _ hw rfl h)
      exact ⟨vm1, by simp only [runActs, h1, List.nil_append], h2⟩
    · obtain ⟨vm1, h1, h2⟩ := ih (vm.once ev f) hr (held_once s e w k vm ev f hw h)
      exact ⟨vm1, by simp only [runActs, h1, List.nil_append], h2⟩
    · obtain ⟨vm1, h1, h2⟩ := ih (vm.off ev (f.map Fn.user)) hr (held_off s e w k vm ev _ h)
      exact ⟨vm1, by simp only [runActs, h1, List.nil_append], h2⟩
    · obtain ⟨vm1, h1, h2⟩ := ih vm.offAll hr (held_offAll s e w k vm h)
      exact ⟨vm1, by simp only [runActs, h1, List.nil_append], h2⟩

theorem sameHandler_once (c : Fn) (s : Nat) (e : String) (f : Nat)
    (h : sameHandler c (.once s e f) = true) : c = .once s e f := by
  unfold sameHandler at h
  cases c with
  | user g => simp at h
  | once s1 e1 f1 => simpa using h

theorem held_off_self (s : Nat) (e : String) (fn : Nat) (vm : Vm)
    (h : Held s e (.once s e fn) 1 vm) :
    Held s e (.once s e fn) 0 (vm.off e (some (.once s e fn))) := by
  refine ⟨by rw [off_onces]; exact h.1, ?_⟩
  intro cbs1 hc
  rw [off_events, if_pos rfl] at hc
  cases hv : vm.events e with
  | none => rw [hv] at hc; cases hc
  | some cbs =>
    rw [hv, Option.map_some', Option.some.injEq] at hc
    subst hc
    obtain ⟨h1, h2⟩ := h.2 cbs hv
    refine ⟨fun c hc => h1 c (offLoop_mem cbs _ _ c hc), ?_⟩
    rcases last_match_split (fun c => sameHandler c (.once s e fn)) cbs with hno | ⟨A, c, B, hL, hcm, hB⟩
    · have := offLoop_none (.once s e fn) [] cbs hno
      rw [List.append_nil] at this
      rw [this, Nat.le_zero, List.count_eq_zero]
      intro hm
      have := hno _ hm
      rw [sameHandler_self] at this
      cases this
    · have hcw := sameHandler_once c s e fn hcm
      subst hcw
      have := offLoop_last (.once s e fn) A _ hcm B [] hB
      rw [List.append_nil] at this
      have hlen : (A ++ Fn.once s e fn :: B).length = A.length + 1 + B.length := by
        simp; omega
      rw [hL, hlen, this]
      rw [hL, List.count_append, List.count_cons_self] at h2
      rw [List.count_append]
      omega

theorem invokeHandler_other (code : Code) (emit : Emit) (s : Nat) (e : String) (w : Fn) (k : Nat)
    (hw : hasSerial s w = true) (hne : noEmit code) (vm : Vm) (cb : Fn) (args : List Nat)
    (hcb : hasSerial s cb = false) (h : Held s e w k vm) :
    ∃ vm1 c, invokeHandler code emit vm cb args = some (vm1, c) ∧ Held s e w k vm1 ∧
      c.filter (viaSerial s) = [] := by
  cases cb with
  | user f =>
    obtain ⟨vm1, h1, h2⟩ := runActs_held s e w k emit hw (code f args) vm (hne f args) h
    exact ⟨vm1, [{ fn := f, args := args, via := none }], by simp only [invokeHandler, h1], h2,
      by simp [viaSerial]⟩
  | once s1 ev f =>
    obtain ⟨vm1, h1, h2⟩ := runActs_held s e w k emit hw (code f args) _ (hne f args)
      (held_off s e w k vm ev (some (.once s1 ev f)) h)
    refine ⟨vm1, [{ fn := f, args := args, via := some s1 }], by simp only [invokeHandler, h1],
      h2, ?_⟩
    simp only [hasSerial, beq_eq_false_iff_ne, ne_eq] at hcb
    simp [viaSerial, hcb]

theorem invokeHandler_self (code : Code) (emit : Emit) (s : Nat) (e : String) (fn : Nat)
    (hne : noEmit code) (vm : Vm) (args : List Nat) (h : Held s e (.once s e fn) 1 vm) :
    ∃ vm1 c, invokeHandler code emit vm (.once s e fn) args = some (vm1, c) ∧
      Held s e (.once s e fn) 0 vm1 ∧
      c.filter (viaSerial s) = [{ fn := fn, args := args, via := some s }] := by
  obtain ⟨vm1, h1, h2⟩ := runActs_held s e (.once s e fn) 0 emit (by simp [hasSerial])
    (code fn args) _ (hne fn args) (held_off_self s e fn vm h)
  exact ⟨vm1, [{ fn := fn, args := args, via := some s }], by simp only [invokeHandler, h1], h2,
    by simp [viaSerial]⟩

theorem emitLoop_append (code : Code) (emit : Emit) (ys : List Fn) (args : List Nat) :
    ∀ (xs : List Fn) (vm vm1 vm2 : Vm) (c1 c2 : List Call),
      emitLoop code emit xs vm args = some (vm1, c1) →
      emitLoop code emit ys vm1 args = some (vm2, c2) →
      emitLoop code emit (xs ++ ys) vm args = some (vm2, c1 ++ c2) := by
  intro xs
  induction xs with
  | nil =>
    intro vm vm1 vm2 c1 c2 h1 h2
    simp only [emitLoop, Option.some.injEq, Prod.mk.injEq] at h1
    obtain ⟨rfl, rfl⟩ := h1
    simpa using h2
  | cons x xs ih =>
    intro vm vm1 vm2 c1 c2 h1 h2
    simp only [emitLoop] at h1
    cases hi : invokeHandler code emit vm x args with
    | none => rw [hi] at h1; cases h1
    | some r =>
      obtain ⟨vma, ca⟩ := r
      rw [hi] at h1
      simp only at h1
      cases hl : emitLoop code emit xs vma args with
      | none => rw [hl] at h1; cases h1
      | some r2 =>
        obtain ⟨vmb, cb⟩ := r2
        rw [hl] at h1
        simp only [Option.some.injEq, Prod.mk.injEq] at h1
        obtain ⟨rfl, rfl⟩ := h1
        have := ih vma vmb vm2 cb c2 hl h2
        rw [List.cons_append, emitLoop, hi]
        simp only [this, List.append_assoc]

theorem emitLoop_others (code : Code) (emit : Emit) (s : Nat) (e : String) (w : Fn) (k : Nat)
    (hw : hasSerial s w = true) (hne : noEmit code) (args : List Nat) :
    ∀ (L : List Fn) (vm : Vm), (∀ c ∈ L, hasSerial s c = false) → Held s e w k vm →
      ∃ vm1 c, emitLoop code emit L vm args = some (vm1, c) ∧ Held s e w k vm1 ∧
        c.filter (viaSerial s) = [] := by
  intro L
  induction L with
  | nil => intro vm _ h; exact ⟨vm, [], rfl, h, rfl⟩
  | cons x xs ih =>
    intro vm hL h
    obtain ⟨vm1, c1, h1, hh1, hf1⟩ := invokeHandler_other code emit s e w k hw hne vm x args
      (hL x (List.mem_cons_self _ _)) h
    obtain ⟨vm2, c2, h2, hh2, hf2⟩ := ih vm1 (fun c hc => hL c (List.mem_cons_of_mem _ hc)) hh1
    exact ⟨vm2, c1 ++ c2, by simp only [emitLoop, h1, h2], hh2, by
      rw [List.filter_append, hf1, hf2]; rfl⟩

theorem held_zero_free (s : Nat) (e : String) (w : Fn) (vm : Vm) (h : Held s e w 0 vm)
    (cbs : List Fn) (hc : vm.events e = some cbs) :
    w ∉ cbs ∧ ∀ c ∈ cbs, hasSerial s c = false := by
  obtain ⟨h1, h2⟩ := h.2 cbs hc
  have hw : w ∉ cbs := List.count_eq_zero.1 (Nat.le_zero.1 h2)
  refine ⟨hw, fun c hcm => ?_⟩
  cases hs : hasSerial s c with
  | false => rfl
  | true => exact absurd (h1 c hcm hs ▸ hcm) hw

theorem emit_gone (code : Code) (d : Nat) (s : Nat) (e : String) (w : Fn)
    (hw : hasSerial s w = true) (hne : noEmit code) (vm : Vm) (args : List Nat)
    (h : Held s e w 0 vm) :
    ∃ vm1 c, Vm.emit code (d + 1) vm e args = some (vm1, c) ∧ Held s e w 0 vm1 ∧
      c.filter (viaSerial s) = [] := by
  cases hv : vm.events e with
  | none => exact ⟨vm, [], by simp only [Vm.emit, hv], h, rfl⟩
  | some cbs =>
    obtain ⟨vm1, c, h1, h2, h3⟩ := emitLoop_others code (Vm.emit code d) s e w 0 hw hne args cbs vm
      (held_zero_free s e w vm h cbs hv).2 h
    exact ⟨vm1, c, by simp only [Vm.emit, hv, h1], h2, h3⟩

theorem emits_gone (code : Code) (d : Nat) (s : Nat) (e : String) (w : Fn)
    (hw : hasSerial s w = true) (hne : noEmit code) :
    ∀ (rest : List (List Nat)) (vm : Vm), Held s e w 0 vm →
      ∃ vm1 c, emits code (d + 1) vm e rest = some (vm1, c) ∧ Held s e w 0 vm1 ∧
        c.filter (viaSerial s) = [] := by
  intro rest
  induction rest with
  | nil => intro vm h; exact ⟨vm, [], rfl, h, rfl⟩
  | cons a rest ih =>
    intro vm h
    obtain ⟨vm1, c1, h1, hh1, hf1⟩ := emit_gone code d s e w hw hne vm a h
    obtain ⟨vm2, c2, h2, hh2, hf2⟩ := ih vm1 hh1
    exact ⟨vm2, c1 ++ c2, by simp only [emits, h1, h2], hh2, by
      rw [List.filter_append, hf1, hf2]; rfl⟩

theorem once_events (vm : Vm) (e : String) (fn : Nat) :
    (vm.once e fn).events e = some ((vm.events e).getD [] ++ [.once vm.onces e fn]) := by
  simp [Vm.once, Vm.on, setEvents]

/-! ## Termination of the keyed child diff -/

theorem stepNew_measure (ce : CreateElm) (p : Handle) (s s1 : UState) (m : KeyMap)
    (o n : VNode) (h : stepNew ce p s m o n = .ok s1) : ucMeasure s1 < ucMeasure s := by
  unfold stepNew at h
  split at h
  · cases h
  · rename_i s2 hc
    obtain ⟨a, b, c, d⟩ := createAt_ptrs ce p _ s2 _ _ _ hc
    simp only [Except.ok.injEq] at h
    subst h
    simp only [ucMeasure] at *
    omega

theorem stepFound_measure (pv : PatchVnode) (ce : CreateElm) (p : Handle) (cm : Bool)
    (s s1 : UState) (m : KeyMap) (o n : VNode) (i : Int)
    (h : stepFound pv ce p cm s m o n i = .ok s1) : ucMeasure s1 < ucMeasure s := by
  unfold stepFound at h
  split at h
  · cases h
  · split at h
    · cases h
    · split at h
      · cases h
      · rename_i s2 hp
        split at h
        · cases h
        · rename_i s3 hm
          obtain ⟨a, b, c, d⟩ := patchAt_ptrs pv _ s2 _ _ _ _ hp
          obtain ⟨a1, b1, c1, d1⟩ := moveAt_ptrs p cm _ s3 _ _ hm
          simp only [Except.ok.injEq] at h
          subst h
          simp only [ucMeasure] at *
          omega
    · exact stepNew_measure ce p s s1 m o n h

theorem stepLookup_measure (pv : PatchVnode) (ce : CreateElm) (p : Handle) (cm : Bool)
    (s s1 : UState) (o n : VNode)
    (h : stepLookup pv ce p cm s o n = .ok s1) : ucMeasure s1 < ucMeasure s := by
  unfold stepLookup at h
  split at h
  · cases h
  · split at h
    · cases h
    · exact stepNew_measure ce p s s1 _ o n h
    · exact stepFound_measure pv ce p cm s s1 _ o n _ h
    · cases h

/-- Every iteration of the loop that returns has made the quantity strictly
smaller. -/
theorem ucStep_measure (pv : PatchVnode) (ce : CreateElm) (p : Handle) (cm : Bool)
    (s s1 : UState) (h : ucStep pv ce p cm s = .ok s1) : ucMeasure s1 < ucMeasure s := by
  unfold ucStep at h
  split at h
  · simp only [Except.ok.injEq] at h
    subst h
    simp only [ucMeasure]
    omega
  · split at h
    · simp only [Except.ok.injEq] at h
      subst h
      simp only [ucMeasure]
      omega
    · split at h
      · split at h
        · cases h
        · split at h
          · cases h
          · rename_i sp hp
            obtain ⟨a, b, c, d⟩ := patchAt_ptrs pv _ sp _ _ _ _ hp
            simp only [Except.ok.injEq] at h
            subst h
            simp only [ucMeasure] at *
            omega
        · split at h
          · cases h
          · split at h
            · cases h
            · rename_i sp hp
              obtain ⟨a, b, c, d⟩ := patchAt_ptrs pv _ sp _ _ _ _ hp
              simp only [Except.ok.injEq] at h
              subst h
              simp only [ucMeasure] at *
              omega
          · split at h
            · cases h
            · split at h
              · cases h
              · rename_i sp hp
                obtain ⟨a, b, c, d⟩ := patchAt_ptrs pv _ sp _ _ _ _ hp
                split at h
                · cases h
                · split at h
                  · cases h
                  · rename_i sm hm
                    obtain ⟨a1, b1, c1, d1⟩ := moveAt_ptrs p cm _ sm _ _ hm
                    simp only [Except.ok.injEq] at h
                    subst h
                    simp only [ucMeasure] at *
                    omega
            · split at h
              · cases h
              · split at h
                · cases h
                · rename_i sp hp
                  obtain ⟨a, b, c, d⟩ := patchAt_ptrs pv _ sp _ _ _ _ hp
                  split at h
                  · cases h
                  · rename_i sm hm
                    obtain ⟨a1, b1, c1, d1⟩ := moveAt_ptrs p cm _ sm _ _ hm
                    simp only [Except.ok.injEq] at h
                    subst h
                    simp only [ucMeasure] at *
                    omega
              · exact stepLookup_measure pv ce p cm s s1 _ _ h
      · cases h

/-- With an allowance above the quantity, the loop ends: either it exits, one
of the two ranges being empty, or an iteration throws. -/
theorem ucLoop_terminates (pv : PatchVnode) (ce : CreateElm) (p : Handle) (cm : Bool) :
    ∀ (n : Nat) (s : UState), ucMeasure s < n →
      (∃ s1, ucLoop pv ce p cm n s = .ok s1 ∧
        (s1.oldEndIdx < s1.oldStartIdx ∨ s1.newEndIdx < s1.newStartIdx)) ∨
      (∃ s2 e, ucStep pv ce p cm s2 = .error e ∧ ucLoop pv ce p cm n s = .error e) := by
  intro n
  induction n with
  | zero =>
    intro s hn
    refine Or.inl ⟨s, ?_, ?_⟩
    · unfold ucLoop
      rw [if_neg]
      intro hc
      simp only [ucMeasure] at hn
      omega
    · simp only [ucMeasure] at hn
      omega
  | succ n ih =>
    intro s hn
    by_cases hc : s.oldStartIdx ≤ s.oldEndIdx ∧ s.newStartIdx ≤ s.newEndIdx
    · cases hs : ucStep pv ce p cm s with
      | error e =>
        refine Or.inr ⟨s, e, hs, ?_⟩
        simp only [ucLoop, hc, and_self, if_true, hs]
      | ok s1 =>
        have hm := ucStep_measure pv ce p cm s s1 hs
        have hn1 : ucMeasure s1 < n := by
          have : ucMeasure s < (n : Int) + 1 := by exact_mod_cast hn
          omega
        rcases ih s1 hn1 with ⟨s2, h2, hx⟩ | ⟨s2, e, h2, h3⟩
        · refine Or.inl ⟨s2, ?_, hx⟩
          simp only [ucLoop, hc, and_self, if_true, hs, h2]
        · refine Or.inr ⟨s2, e, h2, ?_⟩
          simp only [ucLoop, hc, and_self, if_true, hs, h3]
    · refine Or.inl ⟨s, ?_, ?_⟩
      · simp only [ucLoop, hc, if_false]
      · by_contra hx
        apply hc
        constructor <;> omega

/-! ## Symmetry of the identity predicate -/

theorem sameInputType_symm (a b : VInfo) (ht : a.tag = b.tag) :
    sameInputType a b = sameInputType b a := by
  unfold sameInputType
  rw [ht]
  split
  · rfl
  · rw [Bool.and_comm]
    congr 1
    rw [Bool.eq_iff_iff]
    simp only [beq_iff_eq]
    exact ⟨fun h => h.symm, fun h => h.symm⟩

theorem sameVnode_symm (a b : VNode) (ha : a.info.isAsyncPlaceholder = false)
    (hb : b.info.isAsyncPlaceholder = false) : sameVnode a b = sameVnode b a := by
  unfold sameVnode sameVnodeInfo
  simp only [ha, hb, Bool.false_eq_true, if_false]
  by_cases hk : a.info.key = b.info.key ∧ a.info.asyncFactory = b.info.asyncFactory
  · have hk1 : b.info.key = a.info.key ∧ b.info.asyncFactory = a.info.asyncFactory :=
      ⟨hk.1.symm, hk.2.symm⟩
    rw [if_pos hk, if_pos hk1]
    by_cases ht : a.info.tag = b.info.tag
    · have hs := sameInputType_symm a.info b.info ht
      by_cases hc : a.info.tag = b.info.tag ∧ a.info.isComment = b.info.isComment ∧
          a.info.data.isSome = b.info.data.isSome ∧ sameInputType a.info b.info = true
      · have hc1 : b.info.tag = a.info.tag ∧ b.info.isComment = a.info.isComment ∧
            b.info.data.isSome = a.info.data.isSome ∧ sameInputType b.info a.info = true :=
          ⟨hc.1.symm, hc.2.1.symm, hc.2.2.1.symm, by rw [← hs]; exact hc.2.2.2⟩
        rw [if_pos hc, if_pos hc1]
      · have hc1 : ¬ (b.info.tag = a.info.tag ∧ b.info.isComment = a.info.isComment ∧
            b.info.data.isSome = a.info.data.isSome ∧ sameInputType b.info a.info = true) :=
          fun h => hc ⟨h.1.symm, h.2.1.symm, h.2.2.1.symm, by rw [hs]; exact h.2.2.2⟩
        rw [if_neg hc, if_neg hc1]
    · have hc : ¬ (a.info.tag = b.info.tag ∧ a.info.isComment = b.info.isComment ∧
          a.info.data.isSome = b.info.data.isSome ∧ sameInputType a.info b.info = true) :=
        fun h => ht h.1
      have hc1 : ¬ (b.info.tag = a.info.tag ∧ b.info.isComment = a.info.isComment ∧
          b.info.data.isSome = a.info.data.isSome ∧ sameInputType b.info a.info = true) :=
        fun h => ht h.1.symm
      rw [if_neg hc, if_neg hc1]
  · have hk1 : ¬ (b.info.key = a.info.key ∧ b.info.asyncFactory = a.info.asyncFactory) :=
      fun h => hk ⟨h.1.symm, h.2.symm⟩
    rw [if_neg hk, if_neg hk1]

theorem sameVnode_refl (a : VNode) : sameVnode a a = .ok true := by
  unfold sameVnode sameVnodeInfo sameInputType
  simp

theorem findIdxInOldLoop_swapped (node : VNode) (oldCh : List (Option VNode)) (endIdx : Int)
    (hn : node.info.isAsyncPlaceholder = false)
    (ho : ∀ c, some c ∈ oldCh → c.info.isAsyncPlaceholder = false) :
    ∀ (n : Nat) (i : Int),
      findIdxInOldLoop node oldCh endIdx n i = findIdxInOldLoopSwapped node oldCh endIdx n i := by
  intro n
  induction n with
  | zero => intro i; rfl
  | succ n ih =>
    intro i
    unfold findIdxInOldLoop findIdxInOldLoopSwapped
    split
    · cases hs : slotAt oldCh i with
      | none => exact ih (i + 1)
      | some c =>
        have hmem : some c ∈ oldCh := by
          unfold slotAt at hs
          cases hg : getAt oldCh i with
          | none => rw [hg] at hs; cases hs
          | some x =>
            rw [hg] at hs
            simp only [Option.bind_some, id] at hs
            subst hs
            exact getAt_mem oldCh i _ hg
        simp only
        rw [sameVnode_symm node c hn (ho c hmem), ih (i + 1)]
    · rfl

/-! ## The key map -/

theorem lookup_cons_eq (k : String) (i : Int) (map : KeyMap) :
    List.lookup k ((k, i) :: map) = some i := by
  simp [List.lookup_cons]

theorem lookup_cons_ne (k key : String) (i : Int) (map : KeyMap) (h : k ≠ key) :
    List.lookup k ((key, i) :: map) = List.lookup k map := by
  have : (k == key) = false := by simpa using h
  simp [List.lookup_cons, this]

/-- The loop of `createKeyToOldIdx` keeps, for every property name, the
greatest index met so far whose child stores under that name. -/
theorem createKeyToOldIdxLoop_last (children : List (Option VNode)) (b endIdx : Int) :
    ∀ (n : Nat) (i : Int) (map : KeyMap), i + n = endIdx + 1 → b ≤ i →
      (∀ i1, i ≤ i1 → i1 ≤ endIdx → slotAt children i1 ≠ none) →
      (∀ k j, map.lookup k = some j ↔
        (b ≤ j ∧ j < i ∧ (∃ c, slotAt children j = some c ∧ storedName c = some k) ∧
          ∀ j1 c, j < j1 → j1 < i → slotAt children j1 = some c → storedName c ≠ some k)) →
      (∀ k, map.lookup k = none ↔
        ∀ j c, b ≤ j → j < i → slotAt children j = some c → storedName c ≠ some k) →
      ∃ m, createKeyToOldIdxLoop children endIdx n i map = .ok m ∧
        (∀ k j, m.lookup k = some j ↔
          (b ≤ j ∧ j ≤ endIdx ∧ (∃ c, slotAt children j = some c ∧ storedName c = some k) ∧
            ∀ j1 c, j < j1 → j1 ≤ endIdx → slotAt children j1 = some c → storedName c ≠ some k)) ∧
        (∀ k, m.lookup k = none ↔
          ∀ j c, b ≤ j → j ≤ endIdx → slotAt children j = some c → storedName c ≠ some k) := by
  intro n
  induction n with
  | zero =>
    intro i map hn hb _ h1 h2
    have hi : i = endIdx + 1 := by omega
    subst hi
    refine ⟨map, rfl, ?_, ?_⟩
    · intro k j
      rw [h1 k j]
      constructor
      · rintro ⟨a, b1, c, d⟩
        exact ⟨a, by omega, c, fun j1 c1 x y => d j1 c1 x (by omega)⟩
      · rintro ⟨a, b1, c, d⟩
        exact ⟨a, by omega, c, fun j1 c1 x y => d j1 c1 x (by omega)⟩
    · intro k
      rw [h2 k]
      constructor
      · intro h j c x y
        exact h j c x (by omega)
      · intro h j c x y
        exact h j c x (by omega)
  | succ n ih =>
    intro i map hn hb hdef h1 h2
    have hle : i ≤ endIdx := by omega
    cases hs : slotAt children i with
    | none => exact absurd hs (hdef i (le_refl _) hle)
    | some c0 =>
      have hrun : createKeyToOldIdxLoop children endIdx (n + 1) i map =
          createKeyToOldIdxLoop children endIdx n (i + 1)
            (match storedName c0 with
             | some key => (key, i) :: map
             | none => map) := by
        simp only [createKeyToOldIdxLoop, hle, if_true, hs]
        congr 1
        unfold storedName keyMapSet
        cases c0.key with
        | none => rfl
        | some key =>
          simp only
          split <;> rfl
      rw [hrun]
      apply ih (i + 1) _ (by omega) (by omega) (fun i1 x y => hdef i1 (by omega) y)
      · intro k j
        cases hk0 : storedName c0 with
        | none =>
          simp only
          rw [h1 k j]
          constructor
          · rintro ⟨a, b1, c, d⟩
            refine ⟨a, by omega, c, ?_⟩
            intro j1 c1 x y hj1
            by_cases hji : j1 = i
            · subst hji
              rw [hs] at hj1
              simp only [Option.some.injEq] at hj1
              subst hj1
              rw [hk0]; simp
            · exact d j1 c1 x (by omega) hj1
          · rintro ⟨a, b1, ⟨c, hc, hck⟩, d⟩
            have hji : j ≠ i := by
              intro hji
              subst hji
              rw [hs] at hc
              simp only [Option.some.injEq] at hc
              subst hc
              rw [hk0] at hck
              cases hck
            exact ⟨a, by omega, ⟨c, hc, hck⟩, fun j1 c1 x y => d j1 c1 x (by omega)⟩
        | some key =>
          simp only
          by_cases hkk : k = key
          · subst hkk
            rw [lookup_cons_eq]
            constructor
            · intro h
              simp only [Option.some.injEq] at h
              subst h
              exact ⟨hb, by omega, ⟨c0, hs, hk0⟩, fun j1 c1 x y => by omega⟩
            · rintro ⟨a, b1, c, d⟩
              by_cases hji : j = i
              · rw [hji]
              · exact absurd hk0 (d i c0 (by omega) (by omega) hs)
          · rw [lookup_cons_ne k key i map hkk, h1 k j]
            constructor
            · rintro ⟨a, b1, c, d⟩
              refine ⟨a, by omega, c, ?_⟩
              intro j1 c1 x y hj1
              by_cases hji : j1 = i
              · subst hji
                rw [hs] at hj1
                simp only [Option.some.injEq] at hj1
                subst hj1
                rw [hk0]
                intro h
                simp only [Option.some.injEq] at h
                exact hkk h.symm
              · exact d j1 c1 x (by omega) hj1
            · rintro ⟨a, b1, ⟨c, hc, hck⟩, d⟩
              have hji : j ≠ i := by
                intro hji
                subst hji
                rw [hs] at hc
                simp only [Option.some.injEq] at hc
                subst hc
                rw [hk0] at hck
                simp only [Option.some.injEq] at hck
                exact hkk hck.symm
              exact ⟨a, by omega, ⟨c, hc, hck⟩, fun j1 c1 x y => d j1 c1 x (by omega)⟩
      · intro k
        have key_at : ∀ (map1 : KeyMap), (map1.lookup k = none ↔
              (map.lookup k = none ∧ storedName c0 ≠ some k)) →
            (map1.lookup k = none ↔
              ∀ j c, b ≤ j → j < i + 1 → slotAt children j = some c → storedName c ≠ some k) := by
          intro map1 hm
          rw [hm, h2 k]
          constructor
          · rintro ⟨a, b1⟩ j c x y hj
            by_cases hji : j = i
            · subst hji
              rw [hs] at hj
              simp only [Option.some.injEq] at hj
              subst hj
              exact b1
            · exact a j c x (by omega) hj
          · intro h
            exact ⟨fun j c x y => h j c x (by omega), h i c0 hb (by omega) hs⟩
        apply key_at
        cases hk0 : storedName c0 with
        | none => simp
        | some key =>
          simp only
          by_cases hkk : k = key
          · subst hkk
            rw [lookup_cons_eq]
            simp
          · rw [lookup_cons_ne k key i map hkk]
            constructor
            · intro h
              refine ⟨h, ?_⟩
              intro h3
              simp only [Option.some.injEq] at h3
              exact hkk h3.symm
            · exact fun h => h.1

/-- The key map `createKeyToOldIdx` returns, by property name: a name is
mapped to the greatest index of the range whose child stores under it, and
has no entry exactly when no child of the range stores under it. -/
theorem createKeyToOldIdx_names (children : List (Option VNode)) (b e : Int)
    (hdef : ∀ i, b ≤ i → i ≤ e → slotAt children i ≠ none) :
    ∃ m, createKeyToOldIdx children b e = .ok m ∧
      (∀ k i, m.lookup k = some i ↔
        (b ≤ i ∧ i ≤ e ∧ (∃ c, slotAt children i = some c ∧ storedName c = some k) ∧
          ∀ j c, i < j → j ≤ e → slotAt children j = some c → storedName c ≠ some k)) ∧
      (∀ k, m.lookup k = none ↔
        ∀ i c, b ≤ i → i ≤ e → slotAt children i = some c → storedName c ≠ some k) := by
  by_cases hbe : b ≤ e + 1
  · exact createKeyToOldIdxLoop_last children b e (e - b + 1).toNat b [] (by omega)
      (le_refl _) hdef
      (fun k j => by
        simp only [List.lookup_nil]
        constructor
        · intro h; cases h
        · rintro ⟨a, b1, _⟩; omega)
      (fun k => by
        simp only [List.lookup_nil, true_iff]
        intro j c x y
        omega)
  · have hn : (e - b + 1).toNat = 0 := by omega
    refine ⟨[], ?_, ?_, ?_⟩
    · unfold createKeyToOldIdx
      rw [hn]
      rfl
    · intro k i
      simp only [List.lookup_nil]
      constructor
      · intro h; cases h
      · rintro ⟨a, b1, _⟩; omega
    · intro k
      simp only [List.lookup_nil, true_iff]
      intro i c x y
      omega

/-! ## The unkeyed lookup -/

/-- The loop of `findIdxInOld` returns the first index below `endIdx` whose
old node is there and is the same node. -/
theorem findIdxInOldLoop_first (node : VNode) (oldCh : List (Option VNode)) (endIdx : Int)
    (hn : nodeOk node) :
    ∀ (n : Nat) (i : Int), endIdx ≤ i + n →
      ∃ r, findIdxInOldLoop node oldCh endIdx n i = .ok r ∧
        (∀ i1, r = some i1 ↔
          (i ≤ i1 ∧ i1 < endIdx ∧ (∃ c, slotAt oldCh i1 = some c ∧ sameVnode node c = .ok true) ∧
            ∀ j c, i ≤ j → j < i1 → slotAt oldCh j = some c → sameVnode node c ≠ .ok true)) ∧
        (r = none ↔
          ∀ j c, i ≤ j → j < endIdx → slotAt oldCh j = some c → sameVnode node c ≠ .ok true) := by
  intro n
  induction n with
  | zero =>
    intro i hi
    refine ⟨none, rfl, ?_, ?_⟩
    · intro i1
      constructor
      · intro h; cases h
      · rintro ⟨a, b, _⟩
        simp only [Nat.cast_zero, add_zero] at hi
        omega
    · simp only [true_iff]
      intro j c a b
      simp only [Nat.cast_zero, add_zero] at hi
      omega
  | succ n ih =>
    intro i hi
    by_cases hlt : i < endIdx
    · obtain ⟨r, hr, h1, h2⟩ := ih (i + 1) (by push_cast at hi; omega)
      have skip : (∀ c, slotAt oldCh i = some c → sameVnode node c ≠ .ok true) →
          (∀ i1, r = some i1 ↔
            (i ≤ i1 ∧ i1 < endIdx ∧
              (∃ c, slotAt oldCh i1 = some c ∧ sameVnode node c = .ok true) ∧
              ∀ j c, i ≤ j → j < i1 → slotAt oldCh j = some c → sameVnode node c ≠ .ok true)) ∧
          (r = none ↔
            ∀ j c, i ≤ j → j < endIdx → slotAt oldCh j = some c →
              sameVnode node c ≠ .ok true) := by
        intro hno
        refine ⟨?_, ?_⟩
        · intro i1
          rw [h1 i1]
          constructor
          · rintro ⟨a, b, c, d⟩
            refine ⟨by omega, b, c, ?_⟩
            intro j c1 x y hj
            by_cases hji : j = i
            · subst hji; exact hno c1 hj
            · exact d j c1 (by omega) y hj
          · rintro ⟨a, b, ⟨c, hc, hcs⟩, d⟩
            have hne : i1 ≠ i := by
              intro h
              subst h
              exact hno c hc hcs
            exact ⟨by omega, b, ⟨c, hc, hcs⟩, fun j c1 x y => d j c1 (by omega) y⟩
        · rw [h2]
          constructor
          · intro h j c x y hj
            by_cases hji : j = i
            · subst hji; exact hno c hj
            · exact h j c (by omega) y hj
          · intro h j c x y
            exact h j c (by omega) y
      cases hs : slotAt oldCh i with
      | none =>
        refine ⟨r, ?_, skip (fun c hc => by rw [hs] at hc; cases hc)⟩
        simp only [findIdxInOldLoop, hlt, if_true, hs]
        exact hr
      | some c0 =>
        obtain ⟨v, hv⟩ := sameVnode_total node c0 hn
        cases v with
        | true =>
          refine ⟨some i, ?_, ?_, ?_⟩
          · simp only [findIdxInOldLoop, hlt, if_true, hs, hv]
          · intro i1
            constructor
            · intro h
              simp only [Option.some.injEq] at h
              subst h
              exact ⟨le_refl _, hlt, ⟨c0, hs, hv⟩, fun j c x y => by omega⟩
            · rintro ⟨a, b, _, d⟩
              by_cases hji : i1 = i
              · rw [hji]
              · exact absurd hv (d i c0 (le_refl _) (by omega) hs)
          · constructor
            · intro h; cases h
            · intro h
              exact absurd hv (h i c0 (le_refl _) hlt hs)
        | false =>
          refine ⟨r, ?_, skip (fun c hc => by
            rw [hs] at hc
            simp only [Option.some.injEq] at hc
            subst hc
            rw [hv]
            intro h
            cases h)⟩
          simp only [findIdxInOldLoop, hlt, if_true, hs, hv]
          exact hr
    · refine ⟨none, ?_, ?_, ?_⟩
      · simp only [findIdxInOldLoop, hlt, if_false]
      · intro i1
        constructor
        · intro h; cases h
        · rintro ⟨a, b, _⟩
          omega
      · simp only [true_iff]
        intro j c a b
        omega

/-! ## Prop extraction -/

theorem lookup_filter_ne (o : Obj) (key x : String) :
    List.lookup x (o.filter (fun p => decide (p.1 ≠ key))) =
      if x = key then none else List.lookup x o := by
  induction o with
  | nil => simp
  | cons p ps ih =>
    obtain ⟨k, v⟩ := p
    by_cases hk : k = key
    · subst hk
      simp only [List.filter_cons, ne_eq, not_true_eq_false, decide_False, Bool.false_eq_true,
        if_false, ih, List.lookup_cons]
      by_cases hx : x = k
      · simp [hx]
      · have : (x == k) = false := by simpa using hx
        simp [hx, this]
    · have hd : decide (k ≠ key) = true := by simpa using hk
      simp only [List.filter_cons, hd, if_true, List.lookup_cons, ih]
      by_cases hx : x = k
      · subst hx
        simp [hk]
      · have : (x == k) = false := by simpa using hx
        simp [this]

theorem lookup_objSet (o : Obj) (key x : String) (v : Nat) :
    List.lookup x (objSet o key v) = if x = key then some v else List.lookup x o := by
  unfold objSet
  by_cases hx : x = key
  · subst hx
    simp [List.lookup_cons]
  · have : (x == key) = false := by simpa using hx
    simp only [List.lookup_cons, this, lookup_filter_ne, hx, if_false]

theorem lookup_objDelete (o : Obj) (key x : String) :
    List.lookup x (objDelete o key) = if x = key then none else List.lookup x o :=
  lookup_filter_ne o key x

/-- Deleting a key that a name does not read leaves what the name reads. -/
theorem propValue_delete (o : Obj) (props : Option Obj) (key k : String)
    (h1 : k ≠ key) (h2 : hyphenate k ≠ key) :
    propValue (some (objDelete o key)) props k = propValue (some o) props k ∧
      takenKey (some (objDelete o key)) props k = takenKey (some o) props k := by
  unfold propValue takenKey
  simp only [Option.some_bind, lookup_objDelete, h1, h2, if_false, and_self]

theorem extractLoop_spec (props : Option Obj) : ∀ (R : List String) (res : Obj)
    (a : Option Obj), R.Nodup → noSharedKey R → (∀ k ∈ R, res.lookup k = none) →
      (∀ k, (extractLoop props R res a).1.lookup k =
        if k ∈ R then propValue a props k else res.lookup k) ∧
      (extractLoop props R res a).2 =
        a.map (fun o => o.filter (fun p => decide (p.1 ∉ R.filterMap (takenKey a props)))) := by
  intro R
  induction R with
  | nil =>
    intro res a _ _ _
    refine ⟨fun k => by simp [extractLoop], ?_⟩
    cases a with
    | none => rfl
    | some o => simp [extractLoop]
  | cons key rest ih =>
    intro res a hnd hdis hres
    have hres0 : res.lookup key = none := hres key (List.mem_cons_self _ _)
    have hres1 : ∀ k ∈ rest, res.lookup k = none := fun k hk =>
      hres k (List.mem_cons_of_mem _ hk)
    have hnd1 : rest.Nodup := (List.nodup_cons.1 hnd).2
    have hkr : key ∉ rest := (List.nodup_cons.1 hnd).1
    have hset : ∀ v, ∀ k ∈ rest, (objSet res key v).lookup k = none := by
      intro v k hk
      rw [lookup_objSet, if_neg (fun (h : k = key) => hkr (h ▸ hk))]
      exact hres1 k hk
    have hdis1 : noSharedKey rest := fun k1 h1 k2 h2 hne =>
      hdis k1 (List.mem_cons_of_mem _ h1) k2 (List.mem_cons_of_mem _ h2) hne
    have hrest : ∀ k ∈ rest, k ≠ key ∧ k ≠ hyphenate key ∧ hyphenate k ≠ key ∧
        hyphenate k ≠ hyphenate key := by
      intro k hk
      have hne : k ≠ key := fun h => hkr (h ▸ hk)
      have h1 := hdis k (List.mem_cons_of_mem _ hk) key (List.mem_cons_self _ _) hne
      have h2 := hdis key (List.mem_cons_self _ _) k (List.mem_cons_of_mem _ hk)
        (fun h => hne h.symm)
      exact ⟨hne, h1.1, fun h => h2.1 h.symm, h1.2⟩
    -- the value found in `props`
    cases hp : (props.bind (fun o => o.lookup key)).orElse fun _ =>
        (props.bind (fun o => o.lookup (hyphenate key))) with
    | some v =>
      have hfound : checkProp res props key (hyphenate key) true
          = { found := true, res := objSet res key v, hash := props } := by
        cases props with
        | none => simp at hp
        | some po =>
          simp only [Option.some_bind] at hp
          unfold checkProp
          cases h1 : po.lookup key with
          | some v1 =>
            rw [h1] at hp
            simp only [Option.orElse, Option.some.injEq] at hp
            subst hp
            simp [h1]
          | none =>
            rw [h1] at hp
            simp only [Option.orElse] at hp
            simp [hp, h1]
      obtain ⟨ih1, ih2⟩ := ih (objSet res key v) a hnd1 hdis1 (hset v)
      have hrun : extractLoop props (key :: rest) res a
          = extractLoop props rest (objSet res key v) a := by
        simp only [extractLoop, hfound, if_true]
      rw [hrun]
      have htk : takenKey a props key = none := by
        unfold takenKey
        rw [hp]
        simp
      refine ⟨?_, ?_⟩
      · intro k
        rw [ih1 k]
        by_cases hk : k ∈ rest
        · simp [hk]
        · by_cases hkk : k = key
          · subst hkk
            simp only [hk, if_false, lookup_objSet, if_true, List.mem_cons, true_or]
            unfold propValue
            rw [hp]
            simp
          · simp only [hk, if_false, lookup_objSet, hkk, List.mem_cons, or_self]
      · rw [ih2]
        simp only [List.filterMap_cons, htk]
    | none =>
      have hnf : checkProp res props key (hyphenate key) true
          = { found := false, res := res, hash := props } := by
        cases props with
        | none => rfl
        | some po =>
          simp only [Option.some_bind] at hp
          unfold checkProp
          cases h1 : po.lookup key with
          | some v1 => rw [h1] at hp; simp at hp
          | none =>
            rw [h1] at hp
            simp only [Option.orElse] at hp
            simp [hp, h1]
      have hrun : extractLoop props (key :: rest) res a
          = extractLoop props rest (checkProp res a key (hyphenate key) false).res
              (checkProp res a key (hyphenate key) false).hash := by
        simp only [extractLoop, hnf, Bool.false_eq_true, if_false]
      rw [hrun]
      cases a with
      | none =>
        obtain ⟨ih1, ih2⟩ := ih res none hnd1 hdis1 hres1
        have hc : checkProp res none key (hyphenate key) false
            = { found := false, res := res, hash := none } := rfl
        rw [hc]
        refine ⟨?_, ?_⟩
        · intro k
          rw [ih1 k]
          by_cases hk : k ∈ rest
          · simp [hk]
          · by_cases hkk : k = key
            · subst hkk
              simp only [hk, if_false, List.mem_cons, true_or, if_true, hres0]
              unfold propValue
              rw [hp]
              simp
            · simp only [hk, if_false, List.mem_cons, hkk, or_self]
        · rw [ih2]
          rfl
      | some o =>
        -- what is deleted, and what value is taken
        have key_case : ∀ (dk : String) (v : Nat),
            (dk = key ∨ dk = hyphenate key) →
            takenKey (some o) props key = some dk →
            propValue (some o) props key = some v →
            checkProp res (some o) key (hyphenate key) false
              = { found := true, res := objSet res key v, hash := some (objDelete o dk) } →
            (∀ k, (extractLoop props rest (objSet res key v) (some (objDelete o dk))).1.lookup k =
              if k ∈ key :: rest then propValue (some o) props k else res.lookup k) ∧
            (extractLoop props rest (objSet res key v) (some (objDelete o dk))).2 =
              (some o).map (fun o => o.filter
                (fun p => decide (p.1 ∉ (key :: rest).filterMap (takenKey (some o) props)))) := by
          intro dk v hdk htk hpv _
          obtain ⟨ih1, ih2⟩ := ih (objSet res key v) (some (objDelete o dk)) hnd1 hdis1 (hset v)
          have hsame : ∀ k ∈ rest,
              propValue (some (objDelete o dk)) props k = propValue (some o) props k ∧
              takenKey (some (objDelete o dk)) props k = takenKey (some o) props k := by
            intro k hk
            obtain ⟨a1, a2, a3, a4⟩ := hrest k hk
            rcases hdk with rfl | rfl
            · exact propValue_delete o props _ k a1 a3
            · exact propValue_delete o props _ k a2 a4
          refine ⟨?_, ?_⟩
          · intro k
            rw [ih1 k]
            by_cases hk : k ∈ rest
            · simp only [hk, if_true, List.mem_cons, or_true]
              exact (hsame k hk).1
            · by_cases hkk : k = key
              · subst hkk
                simp only [hk, if_false, lookup_objSet, if_true, List.mem_cons, true_or]
                exact hpv.symm
              · simp only [hk, if_false, lookup_objSet, hkk, List.mem_cons, or_self]
          · have hfm : rest.filterMap (takenKey (some (objDelete o dk)) props)
                = rest.filterMap (takenKey (some o) props) := by
              apply List.filterMap_congr
              intro k hk
              exact (hsame k hk).2
            rw [ih2, hfm]
            simp only [Option.map_some', Option.some.injEq, List.filterMap_cons, htk,
              objDelete, List.filter_filter]
            apply List.filter_congr
            intro p _
            by_cases g1 : p.1 = dk <;>
              by_cases g2 : p.1 ∈ rest.filterMap (takenKey (some o) props) <;>
              simp [g1, g2]
        cases h1 : o.lookup key with
        | some v =>
          have hc : checkProp res (some o) key (hyphenate key) false
              = { found := true, res := objSet res key v, hash := some (objDelete o key) } := by
            unfold checkProp
            simp [h1]
          rw [hc]
          apply key_case key v (Or.inl rfl) _ _ hc
          · unfold takenKey
            rw [hp]
            simp [h1]
          · unfold propValue
            rw [hp]
            simp [h1]
        | none =>
          cases h2 : o.lookup (hyphenate key) with
          | some v =>
            have hc : checkProp res (some o) key (hyphenate key) false
                = { found := true, res := objSet res key v,
                    hash := some (objDelete o (hyphenate key)) } := by
              unfold checkProp
              simp [h1, h2]
            rw [hc]
            apply key_case (hyphenate key) v (Or.inr rfl) _ _ hc
            · unfold takenKey
              rw [hp]
              simp [h1, h2]
            · unfold propValue
              rw [hp]
              simp [h1, h2]
          | none =>
            have hc : checkProp res (some o) key (hyphenate key) false
                = { found := false, res := res, hash := some o } := by
              unfold checkProp
              simp [h1, h2]
            rw [hc]
            obtain ⟨ih1, ih2⟩ := ih res (some o) hnd1 hdis1 hres1
            have htk : takenKey (some o) props key = none := by
              unfold takenKey
              rw [hp]
              simp [h1, h2]
            refine ⟨?_, ?_⟩
            · intro k
              rw [ih1 k]
              by_cases hk : k ∈ rest
              · simp [hk]
              · by_cases hkk : k = key
                · subst hkk
                  simp only [hk, if_false, List.mem_cons, true_or, if_true, hres0]
                  unfold propValue
                  rw [hp]
                  simp [h1, h2]
                · simp only [hk, if_false, List.mem_cons, hkk, or_self]
            · rw [ih2]
              simp only [List.filterMap_cons, htk]

/-! ## Input type compatibility -/

/-- C28, counterexample: two `input` elements that agree on key, factory,
comment flag and data presence and both declare no type, the first with an
empty `attrs` block and the second without `attrs`: `sameVnode` answers no,
because the type expression is `undefined` for the first and `false` for the
second. -/
theorem input_without_type_attrs_mismatch :
    typeAttr (inputWith (some { attrs := some { inputType := none }, hook := none })).info
        = .undef ∧
      typeAttr (inputWith (some { attrs := none, hook := none })).info = .boolFalse ∧
      sameVnode (inputWith (some { attrs := some { inputType := none }, hook := none }))
        (inputWith (some { attrs := none, hook := none })) = .ok false := by
  exact ⟨rfl, rfl, rfl⟩

/-- C28, amended: for `input` elements `a` and `b` that agree on key, async
factory, comment flag and data presence, `a` not being an async placeholder,
`sameVnode(a, b)` holds exactly when the values of the type expression are
strictly equal (`false` without data or `attrs`, `undefined` with `attrs` and
no type, else the type) or both types are text-like. -/
theorem input_type_compat (a b : VNode) (hta : a.info.tag = some "input")
    (htb : b.info.tag = some "input") (hk : a.key = b.key)
    (hf : a.info.asyncFactory = b.info.asyncFactory) (hc : a.info.isComment = b.info.isComment)
    (hd : a.info.data.isSome = b.info.data.isSome) (hp : a.info.isAsyncPlaceholder = false) :
    sameVnode a b = .ok true ↔
      typeAttr a.info = typeAttr b.info ∨
        (isTextInputType (typeAttr a.info) = true ∧ isTextInputType (typeAttr b.info) = true) := by
  have hk1 : a.info.key = b.info.key := hk
  unfold sameVnode sameVnodeInfo sameInputType
  simp only [hk1, hf, and_self, if_true, hta, htb, hc, hd, hp, true_and, ne_eq,
    not_true_eq_false, if_false, Bool.false_eq_true, Bool.or_eq_true, beq_iff_eq,
    Bool.and_eq_true]
  split
  · rename_i h
    simp only [true_iff]
    exact h
  · rename_i h
    constructor
    · intro h1
      cases h1
    · intro h1
      exact absurd h1 h

/-- C28, amended, on an `input` of type `text` and one of type `email`. -/
theorem input_type_compat_witness :
    sameVnode (inputEl "text" none) (inputEl "email" none) = .ok true ↔
      typeAttr (inputEl "text" none).info = typeAttr (inputEl "email" none).info ∨
        (isTextInputType (typeAttr (inputEl "text" none).info) = true ∧
          isTextInputType (typeAttr (inputEl "email" none).info) = true) :=
  input_type_compat (inputEl "text" none) (inputEl "email" none) rfl rfl rfl rfl rfl rfl rfl

/-- C22: insert-hook deferral.  The queue holds nodes that declare an insert
hook and `vnode.parent`, when defined, has a data block.  With `initial` true
and `vnode.parent` defined, `invokeInsertHook` invokes no hook and stores the
queue in `vnode.parent.data.pendingInsert`; in every other case it stores
nothing and invokes the insert hook of each queued node once, in queue
order. -/
theorem insert_hook_deferral (parent : Option (Option VData)) (queue : List VInfo)
    (initial : Bool) (hp : parent ≠ some none)
    (hq : ∀ q ∈ queue, declaresInsert q = true) :
    invokeInsertHook parent queue initial =
      if initial = true ∧ parent.isSome = true then .ok (some queue, [])
      else .ok (none, queue.map (fun q => Ev.hook .insert q.elm)) := by
  unfold invokeInsertHook
  rw [insertHookLoop_declared queue hq]
  cases initial with
  | false => simp
  | true =>
    cases parent with
    | none => simp
    | some pd =>
      cases pd with
      | none => exact absurd rfl hp
      | some d => simp

/-- C22 on a queue of two nodes, on the first render of a component root and
on a later one. -/
theorem insert_hook_deferral_witness :
    invokeInsertHook (some (some { attrs := none, hook := none }))
        [(insertDiv (some 10) true none).info, (insertDiv (some 11) true none).info] true
      = .ok (some [(insertDiv (some 10) true none).info, (insertDiv (some 11) true none).info],
          []) ∧
    invokeInsertHook (some (some { attrs := none, hook := none }))
        [(insertDiv (some 10) true none).info, (insertDiv (some 11) true none).info] false
      = .ok (none, [.hook .insert (some 10), .hook .insert (some 11)]) :=
  ⟨insert_hook_deferral (some (some { attrs := none, hook := none }))
      [(insertDiv (some 10) true none).info, (insertDiv (some 11) true none).info] true
      (by decide) (by decide),
   insert_hook_deferral (some (some { attrs := none, hook := none }))
      [(insertDiv (some 10) true none).info, (insertDiv (some 11) true none).info] false
      (by decide) (by decide)⟩

/-- C25 fails as stated: a handler is free to call `$emit` while it runs.  The
handler 1, registered on `"e"`, emits `"e"` again with the argument 1 when it
is called with the argument 0.  After `$once("e", 2)` one call `$emit("e", 0)`
invokes the handler 2 twice, first with the argument of the inner call: the
outer loop walks the copy of the list it took, in which the wrapper still
stands. -/
theorem reentrant_emit_calls_once_twice :
    (vmOne.once "e" 2).events "e" = some [.user 1, .once 0 "e" 2] ∧
      (Vm.emit codeAgain 2 (vmOne.once "e" 2) "e" [0]).map
          (fun r => r.2.filter (viaSerial 0))
        = some [{ fn := 2, args := [1], via := some 0 }, { fn := 2, args := [0], via := some 0 }] :=
  ⟨rfl, rfl⟩

/-- C25, amended: once-only handlers.  On an instance where no registration on
`e` carries the serial number of the wrapper about to be made (the wrapper is
a new function), `$once(e, fn)` registers the wrapper at the end of the list
of `e`.  When no handler calls `$emit` while it runs (handlers are free to
call `$on`, `$once` and `$off`), every later sequence of `$emit(e, ...)` calls
returns; the wrapper calls `fn` exactly once, in the first of them and with
the arguments of that call; and after the first call, as after all of them,
the wrapper is no longer in the list of `e`. -/
theorem once_only (code : Code) (d : Nat) (vm : Vm) (e : String) (fn : Nat) (args : List Nat)
    (rest : List (List Nat))
    (hfresh : ∀ cbs, vm.events e = some cbs → ∀ c ∈ cbs, hasSerial vm.onces c = false)
    (hne : noEmit code) :
    (vm.once e fn).events e = some ((vm.events e).getD [] ++ [.once vm.onces e fn]) ∧
    ∃ vm1 c1 vm2 c2,
      Vm.emit code (d + 1) (vm.once e fn) e args = some (vm1, c1) ∧
      c1.filter (viaSerial vm.onces) = [{ fn := fn, args := args, via := some vm.onces }] ∧
      (∀ cbs, vm1.events e = some cbs → Fn.once vm.onces e fn ∉ cbs) ∧
      emits code (d + 1) vm1 e rest = some (vm2, c2) ∧
      c2.filter (viaSerial vm.onces) = [] ∧
      emits code (d + 1) (vm.once e fn) e (args :: rest) = some (vm2, c1 ++ c2) ∧
      (∀ cbs, vm2.events e = some cbs → Fn.once vm.onces e fn ∉ cbs) := by
  have hev := once_events vm e fn
  have hws : hasSerial vm.onces (Fn.once vm.onces e fn) = true := by simp [hasSerial]
  have hL : ∀ c ∈ (vm.events e).getD [], hasSerial vm.onces c = false := by
    intro c hc
    cases hv : vm.events e with
    | none => rw [hv] at hc; cases hc
    | some cbs => rw [hv] at hc; exact hfresh cbs hv c hc
  have hwL : Fn.once vm.onces e fn ∉ (vm.events e).getD [] := by
    intro hm
    have := hL _ hm
    rw [hws] at this
    cases this
  have h0 : Held vm.onces e (.once vm.onces e fn) 1 (vm.once e fn) := by
    refine ⟨by simp [Vm.once, Vm.on], ?_⟩
    intro cbs hc
    rw [hev, Option.some.injEq] at hc
    subst hc
    refine ⟨fun c hc hs => ?_, ?_⟩
    · rcases List.mem_append.1 hc with hc | hc
      · rw [hL c hc] at hs; cases hs
      · exact List.mem_singleton.1 hc
    · rw [List.count_append, List.count_eq_zero.2 hwL]
      simp
  obtain ⟨vma, ca, ha, hha, hfa⟩ := emitLoop_others code (Vm.emit code d) vm.onces e _ 1 hws hne
    args _ (vm.once e fn) hL h0
  obtain ⟨vm1, cw, hb, hh1, hfw⟩ := invokeHandler_self code (Vm.emit code d) vm.onces e fn hne
    vma args hha
  have hlw : emitLoop code (Vm.emit code d) [Fn.once vm.onces e fn] vma args
      = some (vm1, cw ++ []) := by
    simp only [emitLoop, hb]
  have e1 : Vm.emit code (d + 1) (vm.once e fn) e args = some (vm1, ca ++ (cw ++ [])) := by
    simp only [Vm.emit, hev]
    exact emitLoop_append code _ _ args _ _ _ _ _ _ ha hlw
  obtain ⟨vm2, c2, e2, hh2, hf2⟩ := emits_gone code d vm.onces e _ hws hne rest vm1 hh1
  refine ⟨hev, vm1, ca ++ (cw ++ []), vm2, c2, e1, ?_, ?_, e2, hf2, ?_, ?_⟩
  · rw [List.filter_append, hfa, List.append_nil, hfw]
    rfl
  · exact fun cbs hc => (held_zero_free _ e _ vm1 hh1 cbs hc).1
  · simp only [emits, e1, e2]
  · exact fun cbs hc => (held_zero_free _ e _ vm2 hh2 cbs hc).1

/-- C25, amended, on the example instance with handlers that register and
unregister handlers while they run: `$once("save", 5)` followed by two `$emit`
calls. -/
theorem once_only_witness :
    (vmExample.once "save" 5).events "save"
      = some ((vmExample.events "save").getD [] ++ [.once vmExample.onces "save" 5]) ∧
    ∃ vm1 c1 vm2 c2,
      Vm.emit codeBusy (0 + 1) (vmExample.once "save" 5) "save" [7] = some (vm1, c1) ∧
      c1.filter (viaSerial vmExample.onces)
        = [{ fn := 5, args := [7], via := some vmExample.onces }] ∧
      (∀ cbs, vm1.events "save" = some cbs → Fn.once vmExample.onces "save" 5 ∉ cbs) ∧
      emits codeBusy (0 + 1) vm1 "save" [[8]] = some (vm2, c2) ∧
      c2.filter (viaSerial vmExample.onces) = [] ∧
      emits codeBusy (0 + 1) (vmExample.once "save" 5) "save" ([7] :: [[8]])
        = some (vm2, c1 ++ c2) ∧
      (∀ cbs, vm2.events "save" = some cbs → Fn.once vmExample.onces "save" 5 ∉ cbs) :=
  once_only codeBusy 0 vmExample "save" 5 [7] [[8]] (by
    intro cbs h c hc
    have h1 : vmExample.events "save" = some [.user 1, .once 0 "save" 2, .user 2] := rfl
    rw [h1, Option.some.injEq] at h
    subst h
    simp only [List.mem_cons, List.mem_singleton, List.not_mem_nil, or_false] at hc
    rcases hc with rfl | rfl | rfl <;> rfl) (by
    intro f a act h
    unfold codeBusy at h
    split at h
    · simp only [List.mem_cons, List.mem_singleton, List.not_mem_nil, or_false] at h
      rcases h with rfl | rfl <;> rfl
    · split at h
      · simp only [List.mem_singleton] at h
        rw [h]
        rfl
      · cases h)

/-- C26: targeted unsubscription.  On an instance with a handler list for
`e`, `$off(e, fn)` looks for the registrations that are `fn` itself or a
`$once` wrapper of `fn`.  When there is one, the last of them in the list
(the most recently added) is removed and the others stay in their order; when
there is none the instance is unchanged; the lists of the other events, the
flag and the wrapper count are never touched. -/
theorem targeted_unsubscription (vm : Vm) (e : String) (fn : Fn) (cbs : List Fn)
    (h : vm.events e = some cbs) :
    (∀ c, sameHandler c fn = true ↔ (c = fn ∨ ∃ s ev f, c = .once s ev f ∧ fn = .user f)) ∧
    (∀ A c B, cbs = A ++ c :: B → sameHandler c fn = true →
      (∀ b ∈ B, sameHandler b fn = false) →
      (vm.off e (some fn)).events e = some (A ++ B)) ∧
    ((∀ c ∈ cbs, sameHandler c fn = false) → (vm.off e (some fn)).events = vm.events) ∧
    (∀ x, x ≠ e → (vm.off e (some fn)).events x = vm.events x) ∧
    (vm.off e (some fn)).hasHookEvent = vm.hasHookEvent ∧
    (vm.off e (some fn)).onces = vm.onces := by
  refine ⟨?_, ?_, ?_, ?_, ?_, off_onces vm e _⟩
  · intro c
    cases c with
    | user i => simp [sameHandler]
    | once s ev f =>
      simp only [sameHandler, Bool.or_eq_true, beq_iff_eq]
      constructor
      · rintro (h1 | h1)
        · exact Or.inl h1
        · exact Or.inr ⟨s, ev, f, rfl, h1.symm⟩
      · rintro (h1 | ⟨s1, ev1, f1, h1, h2⟩)
        · exact Or.inl h1
        · injection h1 with _ _ h3
          exact Or.inr (by rw [h2, h3])
  · intro A c B hcbs hc hB
    rw [off_events, if_pos rfl, h, Option.map_some']
    have := offLoop_last fn A c hc B [] hB
    simp only [List.append_nil] at this
    have e2 : cbs.length = A.length + 1 + B.length := by rw [hcbs]; simp; omega
    rw [e2, hcbs, this]
  · intro hn
    funext x
    rw [off_events]
    split
    · rename_i hx
      have := offLoop_none fn [] cbs hn
      simp only [List.append_nil] at this
      rw [hx, h, Option.map_some', this]
    · rfl
  · intro x hx
    rw [off_events, if_neg hx]
  · unfold Vm.off
    rw [h]

/-- C26 on the example instance: `$off("save", 2)` removes the handler 2
registered last and keeps its once-wrapper registered before. -/
theorem targeted_unsubscription_witness :
    (vmExample.off "save" (some (.user 2))).events "save"
      = some ([.user 1, .once 0 "save" 2] ++ []) :=
  (targeted_unsubscription vmExample "save" (.user 2) [.user 1, .once 0 "save" 2, .user 2]
    rfl).2.1 [.user 1, .once 0 "save" 2] (.user 2) [] rfl rfl (by simp)

/-- C31: termination of the keyed child diff.  Every iteration of the loop of
`updateChildren` that returns, whichever of the seven branches it takes,
makes `(oldEndIdx - oldStartIdx) + (newEndIdx - newStartIdx)` strictly
smaller.  So with an allowance of iterations above that quantity the loop
ends, either by exit, and then `oldStartIdx > oldEndIdx` or `newStartIdx >
newEndIdx`, or by an exception thrown in an iteration; and the allowance
`updateChildren` gives, the sum of the two lengths, is above the quantity at
entry. -/
theorem keyed_diff_terminates (pv : PatchVnode) (ce : CreateElm) (p : Handle) (cm : Bool)
    (s : UState) (n : Nat) (hn : ucMeasure s < n) :
    (∀ s1, ucStep pv ce p cm s = .ok s1 → ucMeasure s1 < ucMeasure s) ∧
    ((∃ s1, ucLoop pv ce p cm n s = .ok s1 ∧
        (s1.oldEndIdx < s1.oldStartIdx ∨ s1.newEndIdx < s1.newStartIdx)) ∨
      (∃ s2 e, ucStep pv ce p cm s2 = .error e ∧ ucLoop pv ce p cm n s = .error e)) ∧
    (∀ (kids : List LNode) (oldCh : List (Option VNode)) (newCh : List VNode) (st : St),
      ucMeasure { kids := kids, oldCh := oldCh, newCh := newCh,
                  oldStartIdx := 0, oldEndIdx := (oldCh.length : Int) - 1,
                  newStartIdx := 0, newEndIdx := (newCh.length : Int) - 1,
                  oldKeyToIdx := none, st := st, trace := [], log := [] }
        < ((oldCh.length + newCh.length : Nat) : Int)) := by
  refine ⟨fun s1 h => ucStep_measure pv ce p cm s s1 h, ucLoop_terminates pv ce p cm n s hn, ?_⟩
  intro kids oldCh newCh st
  simp only [ucMeasure]
  push_cast
  omega

/-- C31 on the children of a `div` holding a checkbox, patched against a
radio button: the quantity is 0 at entry and the allowance is 2. -/
theorem keyed_diff_terminates_witness :
    ucMeasure formS0 < 2 ∧ ucMeasure formS1 < ucMeasure formS0 ∧
    ((∃ s1, ucLoop (patchVnode 1 true false) (createElm 1) 10 true 2 formS0 = .ok s1 ∧
        (s1.oldEndIdx < s1.oldStartIdx ∨ s1.newEndIdx < s1.newStartIdx)) ∨
      (∃ s2 e, ucStep (patchVnode 1 true false) (createElm 1) 10 true s2 = .error e ∧
        ucLoop (patchVnode 1 true false) (createElm 1) 10 true 2 formS0 = .error e)) :=
  ⟨by decide,
    (keyed_diff_terminates (patchVnode 1 true false) (createElm 1) 10 true formS0 2
      (by decide)).1 formS1 rfl,
    (keyed_diff_terminates (patchVnode 1 true false) (createElm 1) 10 true formS0 2
      (by decide)).2.1⟩

/-- C32: away from async placeholders `sameVnode` is reflexive and symmetric.
For `a` and `b` that are not async placeholders, `sameVnode(a, a)` holds and
`sameVnode(a, b) = sameVnode(b, a)`; so over old children none of which is an
async placeholder, `findIdxInOld`, which calls `sameVnode(node, c)`, returns
what it would with the arguments in the order `sameVnode(c, node)` of the
pointer comparisons of `updateChildren`. -/
theorem sameVnode_reflexive_symmetric (a b : VNode) (ha : a.info.isAsyncPlaceholder = false)
    (hb : b.info.isAsyncPlaceholder = false) :
    sameVnode a a = .ok true ∧ sameVnode a b = sameVnode b a ∧
      ∀ (oldCh : List (Option VNode)) (start endIdx : Int),
        (∀ c, some c ∈ oldCh → c.info.isAsyncPlaceholder = false) →
        findIdxInOld a oldCh start endIdx = findIdxInOldSwapped a oldCh start endIdx :=
  ⟨sameVnode_refl a, sameVnode_symm a b ha hb, fun oldCh start endIdx ho =>
    findIdxInOldLoop_swapped a oldCh endIdx ha ho _ start⟩

/-- C32 on an `input` of type `text` and one of type `email`. -/
theorem sameVnode_reflexive_symmetric_witness :
    sameVnode (inputEl "text" none) (inputEl "text" none) = .ok true ∧
      sameVnode (inputEl "text" none) (inputEl "email" none)
        = sameVnode (inputEl "email" none) (inputEl "text" none) ∧
      findIdxInOld (inputEl "text" none) [some (inputEl "email" (some 11))] 0 1
        = findIdxInOldSwapped (inputEl "text" none) [some (inputEl "email" (some 11))] 0 1 :=
  ⟨(sameVnode_reflexive_symmetric (inputEl "text" none) (inputEl "email" none) rfl rfl).1,
   (sameVnode_reflexive_symmetric (inputEl "text" none) (inputEl "email" none) rfl rfl).2.1,
   (sameVnode_reflexive_symmetric (inputEl "text" none) (inputEl "email" none) rfl rfl).2.2
      [some (inputEl "email" (some 11))] 0 1 (by
        intro c hc
        simp only [List.mem_singleton, Option.some.injEq] at hc
        subst hc
        rfl)⟩

/-- C33 fails as stated: the key map is a plain object indexed by property
names.  Of two children keyed by the number `1` and the string `"1"`, a read
under the key `1` yields the index of the second child, which does not declare
the key `1`; and under the key `"constructor"`, which no child declares, the
read yields a defined value. -/
theorem key_map_reads_by_property_name :
    createKeyToOldIdx [some (mkEl "li" (some (.num 1)) none),
        some (mkEl "li" (some (.str "1")) none)] 0 1 = .ok [("1", 1), ("1", 0)] ∧
      keyMapGet [("1", 1), ("1", 0)] (.num 1) = .index 1 ∧
      (mkEl "li" (some (.str "1")) none).key ≠ some (.num 1) ∧
      keyMapGet [("1", 1), ("1", 0)] (.str "constructor") = .inherited := by
  refine ⟨rfl, rfl, by decide, by decide⟩

/-- C33, amended: the key map is last-write-wins over the given range.  When
the slots `beginIdx..endIdx` of the child list are all defined,
`createKeyToOldIdx` returns a map; for every key `k` whose property name is no
property of `Object.prototype` and is the property name of no other key
declared in the range, the map sends `k` to the greatest index of the range
whose child declares the key `k`, and a read under `k` yields `undefined`
exactly when no child of the range declares it. -/
theorem key_map_last_write_wins (children : List (Option VNode)) (b e : Int)
    (hdef : ∀ i, b ≤ i → i ≤ e → slotAt children i ≠ none) :
    ∃ m, createKeyToOldIdx children b e = .ok m ∧
      ∀ k : Key, k.name ∉ objectPrototypeNames →
        (∀ i c, b ≤ i → i ≤ e → slotAt children i = some c → c.keyName = some k.name →
          c.key = some k) →
        (∀ i, keyMapGet m k = .index i ↔
          (b ≤ i ∧ i ≤ e ∧ (∃ c, slotAt children i = some c ∧ c.key = some k) ∧
            ∀ j c, i < j → j ≤ e → slotAt children j = some c → c.key ≠ some k)) ∧
        (keyMapGet m k = .undefined ↔
          ∀ i c, b ≤ i → i ≤ e → slotAt children i = some c → c.key ≠ some k) := by
  obtain ⟨m, hm, h1, h2⟩ := createKeyToOldIdx_names children b e hdef
  refine ⟨m, hm, ?_⟩
  intro k hnp hinj
  have hnp1 : k.name ≠ "__proto__" := fun h => hnp (by rw [h]; decide)
  -- within the range, storing under the name of `k` is declaring `k`
  have hst : ∀ i c, b ≤ i → i ≤ e → slotAt children i = some c →
      (storedName c = some k.name ↔ c.key = some k) := by
    intro i c x y hc
    constructor
    · intro h
      apply hinj i c x y hc
      unfold storedName at h
      cases hk : c.key with
      | none => rw [hk] at h; cases h
      | some key =>
        rw [hk] at h
        simp only at h
        split at h
        · cases h
        · simp only [Option.some.injEq] at h
          rw [keyName_some c key hk, h]
    · intro h
      unfold storedName
      rw [h]
      simp only [if_neg hnp1]
  constructor
  · intro i
    have e1 : keyMapGet m k = .index i ↔ m.lookup k.name = some i := by
      unfold keyMapGet
      cases hl : m.lookup k.name with
      | none =>
        simp only [if_neg hnp]
        constructor
        · intro h; cases h
        · intro h; cases h
      | some i0 => simp
    rw [e1, h1 k.name i]
    constructor
    · rintro ⟨x, y, ⟨c, hc, hck⟩, d⟩
      exact ⟨x, y, ⟨c, hc, (hst i c x y hc).1 hck⟩,
        fun j c1 u v hj hk => d j c1 u v hj ((hst j c1 (by omega) v hj).2 hk)⟩
    · rintro ⟨x, y, ⟨c, hc, hck⟩, d⟩
      exact ⟨x, y, ⟨c, hc, (hst i c x y hc).2 hck⟩,
        fun j c1 u v hj hk => d j c1 u v hj ((hst j c1 (by omega) v hj).1 hk)⟩
  · have e2 : keyMapGet m k = .undefined ↔ m.lookup k.name = none := by
      unfold keyMapGet
      cases hl : m.lookup k.name with
      | none => simp [if_neg hnp]
      | some i0 => simp
    rw [e2, h2 k.name]
    constructor
    · intro h i c x y hc hk
      exact h i c x y hc ((hst i c x y hc).2 hk)
    · intro h i c x y hc hk
      exact h i c x y hc ((hst i c x y hc).1 hk)

/-- C33, amended, on three children with the keys 1, 2, 1, read under the
key 1: it is mapped to the index 2. -/
theorem key_map_last_write_wins_witness :
    ∃ m, createKeyToOldIdx
        [some (mkEl "li" (some 1) none), some (mkEl "li" (some 2) none),
          some (mkEl "li" (some 1) none)] 0 2 = .ok m ∧
      ∀ k : Key, k.name ∉ objectPrototypeNames →
        (∀ i c, (0 : Int) ≤ i → i ≤ 2 →
          slotAt [some (mkEl "li" (some 1) none), some (mkEl "li" (some 2) none),
            some (mkEl "li" (some 1) none)] i = some c → c.keyName = some k.name →
          c.key = some k) →
        (∀ i, keyMapGet m k = .index i ↔
          (0 ≤ i ∧ i ≤ 2 ∧
            (∃ c, slotAt [some (mkEl "li" (some 1) none), some (mkEl "li" (some 2) none),
              some (mkEl "li" (some 1) none)] i = some c ∧ c.key = some k) ∧
            ∀ j c, i < j → j ≤ 2 →
              slotAt [some (mkEl "li" (some 1) none), some (mkEl "li" (some 2) none),
                some (mkEl "li" (some 1) none)] j = some c → c.key ≠ some k)) ∧
        (keyMapGet m k = .undefined ↔
          ∀ i c, (0 : Int) ≤ i → i ≤ 2 →
            slotAt [some (mkEl "li" (some 1) none), some (mkEl "li" (some 2) none),
              some (mkEl "li" (some 1) none)] i = some c → c.key ≠ some k) :=
  key_map_last_write_wins
    [some (mkEl "li" (some 1) none), some (mkEl "li" (some 2) none),
      some (mkEl "li" (some 1) none)] 0 2 (by
      intro i h1 h2
      interval_cases i <;> simp [slotAt, getAt])

/-- C34, counterexample: the old children are a `div` and a `span`, the new
node is a `span` without key, and the range is 0..1.  The index 1 is in the
range, its old node is there and is the same node as the new one, yet
`findIdxInOld` returns undefined: the scan stops before `end`. -/
theorem findIdxInOld_skips_end :
    slotAt [some (mkEl "div" none (some 10)), some (mkEl "span" none (some 11))] 1
        = some (mkEl "span" none (some 11)) ∧
      sameVnode (mkEl "span" none none) (mkEl "span" none (some 11)) = .ok true ∧
      findIdxInOld (mkEl "span" none none)
        [some (mkEl "div" none (some 10)), some (mkEl "span" none (some 11))] 0 1 = .ok none :=
  ⟨rfl, rfl, rfl⟩

/-- C34, amended: for a node that carries its factory if it is an async
placeholder, `findIdxInOld(node, oldCh, start, end)` returns the smallest
index `i` with `start <= i < end` whose old node is defined and is the same
node as `node`, and undefined exactly when no index of `start..end - 1`
qualifies; the index `end` is not examined. -/
theorem unkeyed_lookup (node : VNode) (oldCh : List (Option VNode)) (start endIdx : Int)
    (hn : node.info.isAsyncPlaceholder = true → node.info.asyncFactory.isSome = true) :
    ∃ r, findIdxInOld node oldCh start endIdx = .ok r ∧
      (∀ i, r = some i ↔
        (start ≤ i ∧ i < endIdx ∧
          (∃ c, slotAt oldCh i = some c ∧ sameVnode node c = .ok true) ∧
          ∀ j c, start ≤ j → j < i → slotAt oldCh j = some c → sameVnode node c ≠ .ok true)) ∧
      (r = none ↔
        ∀ j c, start ≤ j → j < endIdx → slotAt oldCh j = some c →
          sameVnode node c ≠ .ok true) :=
  findIdxInOldLoop_first node oldCh endIdx hn (endIdx - start).toNat start (by omega)

/-- C34, amended, on the old children `div`, `span` and the range 0..2. -/
theorem unkeyed_lookup_witness :
    ∃ r, findIdxInOld (mkEl "span" none none)
        [some (mkEl "div" none (some 10)), some (mkEl "span" none (some 11))] 0 2 = .ok r ∧
      (∀ i, r = some i ↔
        (0 ≤ i ∧ i < 2 ∧
          (∃ c, slotAt [some (mkEl "div" none (some 10)), some (mkEl "span" none (some 11))] i
              = some c ∧ sameVnode (mkEl "span" none none) c = .ok true) ∧
          ∀ j c, 0 ≤ j → j < i →
            slotAt [some (mkEl "div" none (some 10)), some (mkEl "span" none (some 11))] j
              = some c → sameVnode (mkEl "span" none none) c ≠ .ok true)) ∧
      (r = none ↔
        ∀ j c, 0 ≤ j → j < 2 →
          slotAt [some (mkEl "div" none (some 10)), some (mkEl "span" none (some 11))] j
            = some c → sameVnode (mkEl "span" none none) c ≠ .ok true) :=
  unkeyed_lookup (mkEl "span" none none)
    [some (mkEl "div" none (some 10)), some (mkEl "span" none (some 11))] 0 2
    (fun h => by cases h)

/-- C27, counterexample: the component declares `fooBar` and `FooBar`, which
have the same hyphenated form, and the data has `attrs` with the one entry
`foo-bar`.  The rule names the value of that entry for both, yet the result
has it for `fooBar` only: it was deleted from `attrs` when `fooBar` took it. -/
theorem shared_attr_taken_once :
    ∃ r, extractPropsFromVNodeData (some [("foo-bar", 1)]) none (some ["fooBar", "FooBar"])
        = some r ∧
      r.res = [("fooBar", 1)] ∧ r.attrs = some [] ∧ r.res.lookup "FooBar" = none ∧
      propValue (some [("foo-bar", 1)]) none "FooBar" = some 1 :=
  ⟨_, rfl, by decide, by decide, by decide, by decide⟩

/-- C27, amended: the component declares distinct names of which no two read
the same key (neither a name nor its hyphenated form is the hyphenated form
of another).  Then `extractPropsFromVNodeData` returns an object whose keys
are declared names and where a declared name `k` has the value `props[k]`,
else `props[hyphenate(k)]`, else `attrs[k]`, else `attrs[hyphenate(k)]`, and
is absent when none of the four exists; the entries taken from `attrs` are
deleted from `attrs`, and `props` is left as it was. -/
theorem prop_extraction (attrs props : Option Obj) (declared : List String)
    (hnd : declared.Nodup) (hns : noSharedKey declared) :
    ∃ r, extractPropsFromVNodeData attrs props (some declared) = some r ∧
      (∀ k, r.res.lookup k = if k ∈ declared then propValue attrs props k else none) ∧
      r.attrs = attrs.map (fun o =>
        o.filter (fun p => decide (p.1 ∉ declared.filterMap (takenKey attrs props)))) ∧
      r.props = props := by
  unfold extractPropsFromVNodeData
  by_cases hd : (attrs.isSome || props.isSome) = true
  · obtain ⟨h1, h2⟩ := extractLoop_spec props declared [] attrs hnd hns (fun k _ => rfl)
    simp only [hd, if_true]
    exact ⟨_, rfl, fun k => by rw [h1 k]; rfl, h2, rfl⟩
  · simp only [hd, Bool.false_eq_true, if_false]
    have ha : attrs = none := by
      cases attrs with
      | none => rfl
      | some o => simp at hd
    have hp : props = none := by
      cases props with
      | none => rfl
      | some o => simp at hd
    subst ha
    subst hp
    refine ⟨_, rfl, ?_, rfl, rfl⟩
    intro k
    simp [propValue]

/-- C27, amended, on a component that declares `msg` and `fooBar`, with `msg`
in `props` and `foo-bar` in `attrs`. -/
theorem prop_extraction_witness :
    ∃ r, extractPropsFromVNodeData (some [("foo-bar", 1), ("id", 9)]) (some [("msg", 2)])
        (some ["msg", "fooBar"]) = some r ∧
      (∀ k, r.res.lookup k =
        if k ∈ ["msg", "fooBar"] then
          propValue (some [("foo-bar", 1), ("id", 9)]) (some [("msg", 2)]) k
        else none) ∧
      r.attrs = (some [("foo-bar", 1), ("id", 9)]).map (fun o =>
        o.filter (fun p => decide (p.1 ∉ ["msg", "fooBar"].filterMap
          (takenKey (some [("foo-bar", 1), ("id", 9)]) (some [("msg", 2)]))))) ∧
      r.props = some [("msg", 2)] :=
  prop_extraction (some [("foo-bar", 1), ("id", 9)]) (some [("msg", 2)]) ["msg", "fooBar"]
    (by decide) (by unfold noSharedKey; decide)

/-! ## Hydration of child lists -/

theorem hydrateChildrenLoop_paired (hy : Hydrate) : ∀ (cs : List VNode) (ks : List LNode)
    (st : St) (cs1 : List VNode) (done : List LNode) (st1 : St) (ev : List Ev),
    hydrateChildrenLoop hy cs ks st = .ok (true, cs1, done, [], st1, ev) →
      pairedOk hy cs ks st = true := by
  intro cs
  induction cs with
  | nil =>
    intro ks st cs1 done st1 ev h
    cases ks with
    | nil => rfl
    | cons k ks =>
      simp only [hydrateChildrenLoop, Except.ok.injEq, Prod.mk.injEq] at h
      exact absurd h.2.2.2.1 (by simp)
  | cons c cs ih =>
    intro ks st cs1 done st1 ev h
    cases ks with
    | nil => simp [hydrateChildrenLoop] at h
    | cons n rest =>
      unfold hydrateChildrenLoop at h
      unfold pairedOk
      cases hr : hy n c st with
      | error e => rw [hr] at h; cases h
      | ok r =>
        obtain ⟨b, c1, n1, st2, ev1⟩ := r
        rw [hr] at h
        cases b with
        | false => simp at h
        | true =>
          simp only at h ⊢
          cases hl : hydrateChildrenLoop hy cs rest st2 with
          | error e => rw [hl] at h; cases h
          | ok r2 =>
            obtain ⟨b2, cs2, done2, ahead2, st3, ev2⟩ := r2
            rw [hl] at h
            simp only [Except.ok.injEq, Prod.mk.injEq] at h
            obtain ⟨hb, _, _, ha, _, _⟩ := h
            subst hb
            subst ha
            exact ih rest st2 cs2 done2 st3 ev2 hl

theorem pairedOk_length (hy : Hydrate) : ∀ (cs : List VNode) (ks : List LNode) (st : St),
    pairedOk hy cs ks st = true → cs.length = ks.length := by
  intro cs
  induction cs with
  | nil =>
    intro ks st h
    cases ks with
    | nil => rfl
    | cons k ks => simp [pairedOk] at h
  | cons c cs ih =>
    intro ks st h
    cases ks with
    | nil => simp [pairedOk] at h
    | cons n rest =>
      unfold pairedOk at h
      cases hr : hy n c st with
      | error e => rw [hr] at h; cases h
      | ok r =>
        obtain ⟨b, c1, n1, st2, ev1⟩ := r
        rw [hr] at h
        cases b with
        | false => simp at h
        | true =>
          simp only at h
          simp only [List.length_cons, ih rest st2 h]

/-- When `hydrate` answers yes on an element with a child array and no
`innerHTML`, whose live element has children, the children were paired. -/
theorem hydrate_true_paired (d : Nat) (elm : LNode) (v : VNode) (st : St) (cs : List VNode)
    (ht : v.info.tag.isSome = true) (hcs : v.children = some cs)
    (hi : v.info.data.bind VData.innerHTML = none)
    (hc : ¬ (v.info.isComment = true ∧ v.info.asyncFactory.isSome = true))
    (hk : elm.kids ≠ []) (v1 : VNode) (n1 : LNode) (st1 : St) (ev : List Ev)
    (h : hydrate (d + 1) elm v st = .ok (true, v1, n1, st1, ev)) :
    pairedOk (hydrate d) cs elm.kids st = true := by
  obtain ⟨t, ht1⟩ := Option.isSome_iff_exists.1 ht
  have hke : elm.kids.isEmpty = false := by
    cases hkk : elm.kids with
    | nil => exact absurd hkk hk
    | cons _ _ => rfl
  have hc1 : (v.info.isComment && v.info.asyncFactory.isSome) = false := by
    cases h1 : v.info.isComment <;> cases h2 : v.info.asyncFactory.isSome <;> simp
    exact hc ⟨h1, h2⟩
  cases v with
  | mk i c =>
    simp only [VNode.info, VNode.children] at ht1 hcs hi hc1
    subst hcs
    unfold hydrate at h
    simp only [VNode.setElm, VNode.setInfo, VNode.info, VNode.children, hc1,
      Bool.false_eq_true, if_false, ht1, hke, hi] at h
    split at h
    · simp at h
    · cases hl : hydrateChildrenLoop (hydrate d) cs elm.kids st with
      | error e => rw [hl] at h; cases h
      | ok r =>
        obtain ⟨b, cs1, done, ahead, st2, ev1⟩ := r
        rw [hl] at h
        simp only at h
        split at h
        · simp at h
        · rename_i hx
          simp only [Bool.or_eq_true, Bool.not_eq_true', Bool.not_eq_eq_eq_not, Bool.not_true,
            not_or, Bool.not_eq_false] at hx
          obtain ⟨hb, ha⟩ := hx
          subst hb
          have ha1 : ahead = [] := by
            cases ahead with
            | nil => rfl
            | cons _ _ => simp at ha
          subst ha1
          exact hydrateChildrenLoop_paired (hydrate d) cs elm.kids st cs1 done st2 ev1 hl
theorem assertNodeMatch_same (n : LNode) (v : VNode) (t : String)
    (htag : v.info.tag = some t) (hkind : n.kind = .element t) : assertNodeMatch n v = true := by
  unfold assertNodeMatch
  rw [htag, hkind]
  simp

/-- On a live element without children `hydrate` creates the virtual
children and answers yes. -/
theorem hydrate_populates (d : Nat) (elm : LNode) (v : VNode) (st : St) (t : String)
    (cs : List VNode) (htag : v.info.tag = some t) (hkind : elm.kind = .element t)
    (hcs : v.children = some cs) (hk : elm.kids = [])
    (hc : (v.info.isComment && v.info.asyncFactory.isSome) = false)
    (hh : v.height ≤ d + 1) (hb : LNode.bounded st.next elm = true) :
    ∃ v1 n1 st1 ev, hydrate (d + 1) elm v st = .ok (true, v1, n1, st1, ev) := by
  have hbnd := (bounded_iff _ _).1 hb
  have hm : assertNodeMatch elm (v.setElm (some elm.h)) = true :=
    assertNodeMatch_same elm _ t (by cases v; exact htag) hkind
  have hlt : ∀ c ∈ cs, c.height ≤ d := fun c hc1 => by
    have := height_children v cs hcs c hc1
    omega
  obtain ⟨v1, kids1, st1, ev1, hrun, _, _, _⟩ :=
    createChildren_ok (createElm d) (v.setElm (some elm.h)) elm st
      (fun cs0 h0 c hc1 => createElm_spec d c (by
        rw [VNode.setElm_children, hcs] at h0
        simp only [Option.some.injEq] at h0
        subst h0
        exact hlt c hc1)) hbnd.2
  obtain ⟨st2, ev2, hf, _⟩ := hydrateFinish_ok v1 (elm.setKids kids1) st1 ev1
  refine ⟨v1, elm.setKids kids1, st2, ev2, ?_⟩
  have h1 : (v.setElm (some elm.h)).info.isComment = v.info.isComment := by cases v; rfl
  have h2 : (v.setElm (some elm.h)).info.asyncFactory = v.info.asyncFactory := by cases v; rfl
  have h3 : (v.setElm (some elm.h)).info.tag = some t := by cases v; exact htag
  have h4 : (v.setElm (some elm.h)).children = some cs := by cases v; exact hcs
  unfold hydrate
  simp only [h1, h2, hc, Bool.false_eq_true, if_false, hm, Bool.not_true, h3, h4, hk,
    List.isEmpty_nil, if_true, hrun, hf]

/-- C24, counterexample: the live `div` has no child and the VNode has one.
The numbers of children differ, yet `hydrate` answers yes: it takes the live
element for an empty one and creates the child. -/
theorem hydrate_fills_empty_element :
    (∃ v1 n1 st1 ev, hydrate 2 (liveEl 10 "div") (plainDiv [inputEl "text" none]) st0
        = .ok (true, v1, n1, st1, ev)) ∧
      (liveEl 10 "div").kids.length = 0 ∧
      (plainDiv [inputEl "text" none]).children = some [inputEl "text" none] :=
  ⟨hydrate_populates 1 (liveEl 10 "div") (plainDiv [inputEl "text" none]) st0 "div"
      [inputEl "text" none] rfl rfl rfl rfl rfl (by decide) (by decide), rfl, rfl⟩

/-- C24, amended: for an element VNode with a child array and no `innerHTML`
(and not flagged as the comment of an async component) whose live element has
at least one child, `hydrate` answers yes only if the live children were
paired one to one, in order, with the virtual children, each pair hydrated
with success and no child left over; and when the two numbers of children
differ it answers no.  A live element without children is populated instead,
and the answer is yes. -/
theorem hydrate_child_list (d : Nat) (elm : LNode) (v : VNode) (st : St) (cs : List VNode)
    (ht : v.info.tag.isSome = true) (hcs : v.children = some cs)
    (hi : v.info.data.bind VData.innerHTML = none)
    (hc : ¬ (v.info.isComment = true ∧ v.info.asyncFactory.isSome = true))
    (hk : elm.kids ≠ []) :
    (∀ v1 n1 st1 ev, hydrate (d + 1) elm v st = .ok (true, v1, n1, st1, ev) →
      pairedOk (hydrate d) cs elm.kids st = true ∧ cs.length = elm.kids.length) ∧
    (cs.length ≠ elm.kids.length → v.height ≤ d + 1 → LNode.bounded st.next elm = true →
      ∃ v1 n1 st1 ev, hydrate (d + 1) elm v st = .ok (false, v1, n1, st1, ev)) := by
  have h1 : ∀ v1 n1 st1 ev, hydrate (d + 1) elm v st = .ok (true, v1, n1, st1, ev) →
      pairedOk (hydrate d) cs elm.kids st = true ∧ cs.length = elm.kids.length := by
    intro v1 n1 st1 ev h
    have hp := hydrate_true_paired d elm v st cs ht hcs hi hc hk v1 n1 st1 ev h
    exact ⟨hp, pairedOk_length _ _ _ _ hp⟩
  refine ⟨h1, ?_⟩
  intro hlen hh hb
  obtain ⟨b, v1, n1, st1, ev, hrun, _⟩ := hydrate_ok (d + 1) v hh elm st hb
  cases b with
  | false => exact ⟨v1, n1, st1, ev, hrun⟩
  | true => exact absurd (h1 v1 n1 st1 ev hrun).2 hlen

/-- C24, amended, on a live `div` with one child and a VNode with two. -/
theorem hydrate_child_list_witness :
    ∃ v1 n1 st1 ev, hydrate (1 + 1) formLive
        (plainDiv [inputEl "text" none, inputEl "text" none]) st0
      = .ok (false, v1, n1, st1, ev) :=
  (hydrate_child_list 1 formLive (plainDiv [inputEl "text" none, inputEl "text" none]) st0
    [inputEl "text" none, inputEl "text" none] rfl rfl rfl (by decide)
    (by simp [formLive, LNode.kids])).2
    (by decide) (by decide) (by decide)

/-! ## Hydration of a mirrored tree -/

theorem hydrateFinish_hooks (v : VNode) (n : LNode) (st : St) (ev : List Ev) :
    ∃ st1 ev1, hydrateFinish v n st ev = .ok (true, v, n, st1, ev ++ ev1) ∧
      st1.next = st.next ∧ ∀ e ∈ ev1, isNodeOp e = false := by
  unfold hydrateFinish
  split
  · split
    · refine ⟨_, _, rfl, by simp, ?_⟩
      intro e he
      unfold invokeCreateHooks at he
      simp only [List.singleton_append, List.mem_cons] at he
      rcases he with rfl | he
      · rfl
      · split at he
        · simp only [List.mem_singleton] at he
          subst he
          rfl
        · simp at he
    · exact ⟨st, [], by simp, rfl, by simp⟩
  · exact ⟨st, [], by simp, rfl, by simp⟩

theorem allHandles_setKids (n : LNode) (ks : List LNode) :
    allHandles (n.setKids ks) = n.h :: allHandlesL ks := by
  cases n; rfl

theorem allHandles_eq (n : LNode) : allHandles n = n.h :: allHandlesL n.kids := by
  cases n; rfl

theorem allHandles_setData (n : LNode) (t : String) :
    allHandles (n.setData t) = allHandles n := by
  cases n; rfl

theorem sameKind_element (n : LNode) (i : VInfo) (t : String) (ht : i.tag = some t)
    (h : sameKind n i = true) : n.kind = .element t ∧ i.isComment = false := by
  unfold sameKind at h
  rw [ht] at h
  simpa using h

theorem bindInfo_plain (n : LNode) (i : VInfo)
    (h : (i.isComment && i.asyncFactory.isSome) = false) :
    bindInfo n i = { i with elm := some n.h } := by
  unfold bindInfo
  simp [h]

theorem hydrateChildrenLoop_mirror (d : Nat)
    (ih : ∀ (elm : LNode) (v : VNode) (st : St), v.height ≤ d → mirrorsExactly elm v = true →
      noRawHTML v = true →
      ∃ n1 st1 ev, hydrate d elm v st = .ok (true, bindElm elm v, n1, st1, ev) ∧
        st1.next = st.next ∧ (∀ e ∈ ev, isNodeOp e = false) ∧ allHandles n1 = allHandles elm) :
    ∀ (cs : List VNode) (ks : List LNode) (st : St), (∀ c ∈ cs, c.height ≤ d) →
      mirrorsExactlyL ks cs = true → noRawHTMLL cs = true →
      ∃ done st1 ev, hydrateChildrenLoop (hydrate d) cs ks st
          = .ok (true, bindElmL ks cs, done, [], st1, ev) ∧
        st1.next = st.next ∧ (∀ e ∈ ev, isNodeOp e = false) ∧
        allHandlesL done = allHandlesL ks := by
  intro cs
  induction cs with
  | nil =>
    intro ks st _ hm _
    cases ks with
    | nil => exact ⟨[], st, [], by simp [hydrateChildrenLoop, bindElmL], rfl, by simp, rfl⟩
    | cons k ks => simp [mirrorsExactlyL] at hm
  | cons c cs ihl =>
    intro ks st hh hm hr
    cases ks with
    | nil => simp [mirrorsExactlyL] at hm
    | cons k rest =>
      simp only [mirrorsExactlyL, Bool.and_eq_true] at hm
      simp only [noRawHTMLL, Bool.and_eq_true] at hr
      obtain ⟨n1, st1, ev1, hrun, hn1, he1, ha1⟩ :=
        ih k c st (hh c (List.mem_cons_self _ _)) hm.1 hr.1
      obtain ⟨done, st2, ev2, hloop, hn2, he2, ha2⟩ :=
        ihl rest st1 (fun x hx => hh x (List.mem_cons_of_mem _ hx)) hm.2 hr.2
      refine ⟨n1 :: done, st2, ev1 ++ ev2, ?_, by omega, ?_, ?_⟩
      · simp only [hydrateChildrenLoop, hrun, hloop, bindElmL]
      · intro e he
        rcases List.mem_append.1 he with he | he
        · exact he1 e he
        · exact he2 e he
      · simp only [allHandlesL, ha1, ha2]

theorem bindElm_leaf (n : LNode) (v : VNode) (hch : v.children = none)
    (hc : (v.info.isComment && v.info.asyncFactory.isSome) = false) :
    bindElm n v = v.setElm (some n.h) := by
  cases v with
  | mk i c =>
    simp only [VNode.children] at hch
    subst hch
    simp only [VNode.info] at hc
    simp only [bindElm, bindInfo_plain n i hc, VNode.setElm, VNode.setInfo, VNode.info]

theorem bindElm_placeholder (n : LNode) (v : VNode) (hch : v.children = none)
    (hc : (v.info.isComment && v.info.asyncFactory.isSome) = true) :
    bindElm n v = (v.setElm (some n.h)).setInfo
      { (v.setElm (some n.h)).info with isAsyncPlaceholder := true } := by
  cases v with
  | mk i c =>
    simp only [VNode.children] at hch
    subst hch
    simp only [VNode.info] at hc
    simp only [bindElm, bindInfo, hc, if_true, VNode.setElm, VNode.setInfo, VNode.info]

theorem bindElm_node (n : LNode) (v : VNode) (cs : List VNode) (hch : v.children = some cs)
    (hc : (v.info.isComment && v.info.asyncFactory.isSome) = false) :
    bindElm n v = (v.setElm (some n.h)).setChildren (some (bindElmL n.kids cs)) := by
  cases v with
  | mk i c =>
    simp only [VNode.children] at hch
    subst hch
    simp only [VNode.info] at hc
    simp only [bindElm, bindInfo_plain n i hc, VNode.setElm, VNode.setInfo, VNode.info,
      VNode.setChildren]

theorem mirrorsExactly_leaf (n : LNode) (v : VNode) (hch : v.children = none)
    (h : mirrorsExactly n v = true) : sameKind n v.info = true ∧ n.kids.isEmpty = true := by
  cases v with
  | mk i c =>
    simp only [VNode.children] at hch
    subst hch
    simpa [mirrorsExactly] using h

theorem mirrorsExactly_node (n : LNode) (v : VNode) (cs : List VNode)
    (hch : v.children = some cs) (h : mirrorsExactly n v = true) :
    sameKind n v.info = true ∧ v.info.tag.isSome = true ∧ mirrorsExactlyL n.kids cs = true := by
  cases v with
  | mk i c =>
    simp only [VNode.children] at hch
    subst hch
    simp only [mirrorsExactly, Bool.and_eq_true] at h
    exact ⟨h.1.1, h.1.2, h.2⟩

theorem noRawHTML_node (v : VNode) (cs : List VNode) (hch : v.children = some cs)
    (h : noRawHTML v = true) :
    (cs.isEmpty = true ∨ v.info.data.bind VData.innerHTML = none) ∧ noRawHTMLL cs = true := by
  cases v with
  | mk i c =>
    simp only [VNode.children] at hch
    subst hch
    simp only [noRawHTML, Bool.and_eq_true, Bool.or_eq_true, Option.isNone_iff_eq_none] at h
    exact h

/-- On a live tree and a virtual tree that mirror each other exactly, no node
with children carrying `innerHTML`, `hydrate` answers yes, binds every VNode
to the live node at its position, and makes no Node Operations call. -/
theorem hydrate_mirror : ∀ (d : Nat) (elm : LNode) (v : VNode) (st : St), v.height ≤ d →
    mirrorsExactly elm v = true → noRawHTML v = true →
    ∃ n1 st1 ev, hydrate d elm v st = .ok (true, bindElm elm v, n1, st1, ev) ∧
      st1.next = st.next ∧ (∀ e ∈ ev, isNodeOp e = false) ∧ allHandles n1 = allHandles elm := by
  intro d
  induction d with
  | zero =>
    intro elm v st hh
    have := height_pos v
    omega
  | succ d ih =>
    intro elm v st hh hm hr
    have h1 : (v.setElm (some elm.h)).info.isComment = v.info.isComment := by cases v; rfl
    have h2 : (v.setElm (some elm.h)).info.asyncFactory = v.info.asyncFactory := by cases v; rfl
    have h3 : (v.setElm (some elm.h)).info.tag = v.info.tag := by cases v; rfl
    have h4 : (v.setElm (some elm.h)).children = v.children := by cases v; rfl
    have h5 : (v.setElm (some elm.h)).info.text = v.info.text := by cases v; rfl
    have h6 : (v.setElm (some elm.h)).info.data = v.info.data := by cases v; rfl
    cases hch : v.children with
    | none =>
      obtain ⟨hk, hke⟩ := mirrorsExactly_leaf elm v hch hm
      cases htag : v.info.tag with
      | some t =>
        obtain ⟨hkind, hcom⟩ := sameKind_element elm v.info t htag hk
        have hc : (v.info.isComment && v.info.asyncFactory.isSome) = false := by simp [hcom]
        have hmatch : assertNodeMatch elm (v.setElm (some elm.h)) = true :=
          assertNodeMatch_same elm _ t (by rw [h3]; exact htag) hkind
        obtain ⟨st1, ev1, hf, hn, he⟩ := hydrateFinish_hooks (v.setElm (some elm.h)) elm st []
        refine ⟨elm, st1, [] ++ ev1, ?_, hn, by simpa using he, rfl⟩
        unfold hydrate
        simp only [h1, h2, h3, h4, hc, Bool.false_eq_true, if_false, hmatch, Bool.not_true,
          htag, hch, hf, bindElm_leaf elm v hch hc]
      | none =>
        have hkind : elm.kind = (if v.info.isComment then NodeType.comment
            else NodeType.text) := by
          unfold sameKind at hk
          rw [htag] at hk
          simpa using hk
        by_cases hc : (v.info.isComment && v.info.asyncFactory.isSome) = true
        · refine ⟨elm, st, [], ?_, rfl, by simp, rfl⟩
          unfold hydrate
          simp only [h1, h2, hc, if_true, bindElm_placeholder elm v hch hc]
        · have hc1 : (v.info.isComment && v.info.asyncFactory.isSome) = false := by
            simpa using hc
          have hmatch : assertNodeMatch elm (v.setElm (some elm.h)) = true := by
            unfold assertNodeMatch
            simp only [h3, h1, htag, hkind, beq_self_eq_true]
          by_cases hd : elm.data ≠ textOf v.info.text
          · refine ⟨elm.setData (textOf v.info.text), st, [], ?_, rfl, by simp,
              allHandles_setData _ _⟩
            unfold hydrate
            simp only [h1, h2, h3, h5, hc1, Bool.false_eq_true, if_false, hmatch, Bool.not_true,
              htag, hd, if_true, bindElm_leaf elm v hch hc1, ne_eq, not_false_eq_true]
          · refine ⟨elm, st, [], ?_, rfl, by simp, rfl⟩
            unfold hydrate
            simp only [h1, h2, h3, h5, hc1, Bool.false_eq_true, if_false, hmatch, Bool.not_true,
              htag, hd, bindElm_leaf elm v hch hc1]
    | some cs =>
      obtain ⟨hk, htag0, hml⟩ := mirrorsExactly_node elm v cs hch hm
      obtain ⟨t, htag⟩ := Option.isSome_iff_exists.1 htag0
      obtain ⟨hkind, hcom⟩ := sameKind_element elm v.info t htag hk
      have hc : (v.info.isComment && v.info.asyncFactory.isSome) = false := by simp [hcom]
      have hmatch : assertNodeMatch elm (v.setElm (some elm.h)) = true :=
        assertNodeMatch_same elm _ t (by rw [h3]; exact htag) hkind
      obtain ⟨hraw, hrl⟩ := noRawHTML_node v cs hch hr
      have hlt : ∀ c ∈ cs, c.height ≤ d := fun c hc1 => by
        have := height_children v cs hch c hc1
        omega
      by_cases hke : elm.kids.isEmpty = true
      · have hkids : elm.kids = [] := by simpa using hke
        have hcs : cs = [] := by
          rw [hkids] at hml
          cases cs with
          | nil => rfl
          | cons _ _ => simp [mirrorsExactlyL] at hml
        subst hcs
        obtain ⟨st1, ev1, hf, hn, he⟩ :=
          hydrateFinish_hooks ((v.setElm (some elm.h)).setChildren (some []))
            (elm.setKids elm.kids) st []
        refine ⟨elm.setKids elm.kids, st1, [] ++ ev1, ?_, hn, by simpa using he, ?_⟩
        · unfold hydrate
          simp only [h1, h2, h3, h4, hc, Bool.false_eq_true, if_false, hmatch, Bool.not_true,
            htag, hch, hke, if_true, createChildren, createChildrenLoop]
          rw [hf, bindElm_node elm v [] hch hc, hkids]
          simp only [bindElmL]
        · rw [LNode.setKids_self]
      · have hke1 : elm.kids.isEmpty = false := by simpa using hke
        have hcsne : cs.isEmpty = false := by
          cases cs with
          | nil =>
            simp only [mirrorsExactlyL] at hml
            rw [hml] at hke1
            cases hke1
          | cons _ _ => rfl
        have hinner : v.info.data.bind VData.innerHTML = none := by
          rcases hraw with h | h
          · rw [hcsne] at h; cases h
          · exact h
        obtain ⟨done, st1, ev1, hloop, hn1, he1, ha1⟩ :=
          hydrateChildrenLoop_mirror d ih cs elm.kids st hlt hml hrl
        obtain ⟨st2, ev2, hf, hn2, he2⟩ :=
          hydrateFinish_hooks
            ((v.setElm (some elm.h)).setChildren (some (bindElmL elm.kids cs)))
            (elm.setKids (done ++ [])) st1 ev1
        refine ⟨elm.setKids (done ++ []), st2, ev1 ++ ev2, ?_, by omega, ?_, ?_⟩
        · unfold hydrate
          simp only [h1, h2, h3, h4, h6, hc, Bool.false_eq_true, if_false, hmatch, Bool.not_true,
            htag, hch, hke1, hinner, hloop, List.isEmpty_nil, Bool.or_self, Bool.not_false]
          rw [hf, bindElm_node elm v cs hch hc]
        · intro e he
          rcases List.mem_append.1 he with he | he
          · exact he1 e he
          · exact he2 e he
        · rw [allHandles_setKids, List.append_nil, ha1, ← allHandles_eq]

/-- On an element with children whose data sets an `innerHTML` that is not
the markup of the live element, `hydrate` answers no at once. -/
theorem hydrate_rawHTML_mismatch (d : Nat) (elm : LNode) (v : VNode) (st : St) (t : String)
    (cs : List VNode) (html : String) (htag : v.info.tag = some t)
    (hkind : elm.kind = .element t) (hcs : v.children = some cs)
    (hk : elm.kids.isEmpty = false)
    (hc : (v.info.isComment && v.info.asyncFactory.isSome) = false)
    (hi : v.info.data.bind VData.innerHTML = some html) (hne : html ≠ innerHTML elm) :
    hydrate (d + 1) elm v st = .ok (false, v.setElm (some elm.h), elm, st, []) := by
  have hm : assertNodeMatch elm (v.setElm (some elm.h)) = true :=
    assertNodeMatch_same elm _ t (by cases v; exact htag) hkind
  have h1 : (v.setElm (some elm.h)).info.isComment = v.info.isComment := by cases v; rfl
  have h2 : (v.setElm (some elm.h)).info.asyncFactory = v.info.asyncFactory := by cases v; rfl
  have h3 : (v.setElm (some elm.h)).info.tag = some t := by cases v; exact htag
  have h4 : (v.setElm (some elm.h)).children = some cs := by cases v; exact hcs
  have h6 : (v.setElm (some elm.h)).info.data = v.info.data := by cases v; rfl
  unfold hydrate
  simp only [h1, h2, hc, Bool.false_eq_true, if_false, hm, Bool.not_true, h3, h4, hk, h6, hi,
    ne_eq, hne, not_false_eq_true, if_true]

/-- C23, counterexample: a live `div` holding a `span` and a VNode `div`
holding a `span` mirror each other exactly, but the data of the VNode sets
`innerHTML`; `hydrate` compares it with the markup of the live element and,
as they differ, answers no. -/
theorem mirrored_rawHTML_not_hydrated :
    mirrorsExactly spanLive htmlDiv = true ∧
      hydrate 2 spanLive htmlDiv st0 = .ok (false, htmlDiv.setElm (some 10), spanLive, st0, []) :=
  ⟨by decide,
    hydrate_rawHTML_mismatch 1 spanLive htmlDiv st0 "div" [mkEl "span" none none] "<b>x</b>"
      rfl rfl rfl rfl rfl rfl (by decide)⟩

/-- C23, amended: a live tree and a virtual tree mirror each other exactly
(the same tag or text or comment node type at every position, the same number
of children everywhere), and no VNode with children carries the data field
`innerHTML`.  Then `hydrate` returns true; the VNode tree it leaves is the
given one with the `elm` of every VNode bound to the live node at the same
position; it makes no Node Operations call, so creates nothing and takes no
fresh handle; and the live tree keeps its handles. -/
theorem hydration_equivalence (d : Nat) (elm : LNode) (v : VNode) (st : St)
    (hh : v.height ≤ d) (hm : mirrorsExactly elm v = true) (hr : noRawHTML v = true) :
    ∃ n1 st1 ev, hydrate d elm v st = .ok (true, bindElm elm v, n1, st1, ev) ∧
      st1.next = st.next ∧ (∀ e ∈ ev, isNodeOp e = false) ∧ allHandles n1 = allHandles elm :=
  hydrate_mirror d elm v st hh hm hr

/-- C23, amended, on a live `div` holding an `input` and the VNode tree it
renders. -/
theorem hydration_equivalence_witness :
    ∃ n1 st1 ev, hydrate 2 formLive (plainDiv [inputEl "text" none]) st0
        = .ok (true, bindElm formLive (plainDiv [inputEl "text" none]), n1, st1, ev) ∧
      st1.next = st0.next ∧ (∀ e ∈ ev, isNodeOp e = false) ∧
      allHandles n1 = allHandles formLive :=
  hydration_equivalence 2 formLive (plainDiv [inputEl "text" none]) st0 (by decide)
    (by decide) (by decide)

/-! ## Create hooks in hydration -/

theorem invokeCreateHooks_events (v : VNode) (st : St) (h : Option Handle)
    (hm : Ev.hook .moduleCreate h ∈ (invokeCreateHooks v st).2) : h = v.elm := by
  unfold invokeCreateHooks at hm
  rcases List.mem_append.1 hm with hm | hm
  · simp only [List.mem_singleton] at hm
    injection hm
  · by_cases hc : hasHook v Hooks.create = true
    · simp [hc] at hm
    · simp [hc] at hm

theorem invokeCreateHooks_count (v : VNode) (st : St) :
    (invokeCreateHooks v st).2.count (.hook .moduleCreate v.elm) = 1 := by
  unfold invokeCreateHooks
  by_cases hc : hasHook v Hooks.create = true
  · simp [List.count_cons, hc]
  · simp [List.count_cons, hc]

theorem insert_no_hook (p : Option Handle) (kids : List LNode) (node : LNode)
    (ref : Option Handle) (r : List LNode × List Ev) (h : insert p kids node ref = .ok r)
    (k : HookKind) (x : Option Handle) : Ev.hook k x ∉ r.2 := by
  unfold insert at h
  split at h
  · simp only [Except.ok.injEq] at h
    subst h
    simp
  · split at h
    · split at h
      · split at h
        · cases h
        · simp only [Except.ok.injEq] at h
          subst h
          simp
      · simp only [Except.ok.injEq] at h
        subst h
        simp
    · simp only [Except.ok.injEq] at h
      subst h
      simp

theorem createChildrenLoop_hooks (ce : CreateElm) (parent : Handle) :
    ∀ (cs : List VNode) (kids : List LNode) (st : St) (cs1 : List VNode) (kids1 : List LNode)
      (st1 : St) (ev : List Ev), (∀ c ∈ cs, CeHooks ce c) →
      createChildrenLoop ce parent cs kids st = .ok (cs1, kids1, st1, ev) →
      st.next ≤ st1.next ∧
        ∀ h, Ev.hook .moduleCreate h ∈ ev → ∃ x, h = some x ∧ st.next ≤ x := by
  intro cs
  induction cs with
  | nil =>
    intro kids st cs1 kids1 st1 ev _ h
    simp only [createChildrenLoop, Except.ok.injEq, Prod.mk.injEq] at h
    obtain ⟨_, _, h3, h4⟩ := h
    subst h3
    subst h4
    exact ⟨le_refl _, by simp⟩
  | cons c cs ih =>
    intro kids st cs1 kids1 st1 ev hce h
    unfold createChildrenLoop at h
    cases hr : ce c (some parent) kids none true st with
    | error e => rw [hr] at h; cases h
    | ok r =>
      obtain ⟨c1, n1, k1, s1, e1⟩ := r
      rw [hr] at h
      simp only at h
      obtain ⟨hle, hev⟩ := hce c (List.mem_cons_self _ _) _ _ _ _ _ _ hr
      cases hl : createChildrenLoop ce parent cs k1 s1 with
      | error e => rw [hl] at h; cases h
      | ok r2 =>
        obtain ⟨cs2, k2, s2, e2⟩ := r2
        rw [hl] at h
        simp only [Except.ok.injEq, Prod.mk.injEq] at h
        obtain ⟨_, _, h3, h4⟩ := h
        subst h3
        subst h4
        obtain ⟨hle2, hev2⟩ := ih k1 s1 cs2 k2 s2 e2
          (fun x hx => hce x (List.mem_cons_of_mem _ hx)) hl
        refine ⟨le_trans hle hle2, ?_⟩
        intro h0 hm
        rcases List.mem_append.1 hm with hm | hm
        · exact hev h0 hm
        · obtain ⟨x, hx, hx2⟩ := hev2 h0 hm
          exact ⟨x, hx, le_trans hle hx2⟩

theorem createChildren_hooks (ce : CreateElm) (v : VNode) (node : LNode) (st : St)
    (v1 : VNode) (n1 : LNode) (st1 : St) (ev : List Ev)
    (hce : ∀ cs, v.children = some cs → ∀ c ∈ cs, CeHooks ce c)
    (h : createChildren ce v node st = .ok (v1, n1, st1, ev)) :
    st.next ≤ st1.next ∧
      ∀ h, Ev.hook .moduleCreate h ∈ ev → ∃ x, h = some x ∧ st.next ≤ x := by
  unfold createChildren at h
  cases hch : v.children with
  | some cs =>
    rw [hch] at h
    simp only at h
    cases hl : createChildrenLoop ce node.h cs node.kids st with
    | error e => rw [hl] at h; cases h
    | ok r =>
      obtain ⟨cs2, k2, s2, e2⟩ := r
      rw [hl] at h
      simp only [Except.ok.injEq, Prod.mk.injEq] at h
      obtain ⟨_, _, h3, h4⟩ := h
      subst h3
      subst h4
      exact createChildrenLoop_hooks ce node.h cs node.kids st cs2 k2 s2 e2 (hce cs hch) hl
  | none =>
    rw [hch] at h
    simp only at h
    split at h
    · simp only [Except.ok.injEq, Prod.mk.injEq] at h
      obtain ⟨_, _, h3, h4⟩ := h
      subst h3
      subst h4
      exact ⟨by simp, by simp⟩
    · simp only [Except.ok.injEq, Prod.mk.injEq] at h
      obtain ⟨_, _, h3, h4⟩ := h
      subst h3
      subst h4
      exact ⟨le_refl _, by simp⟩

theorem createElm_hooks : ∀ (d : Nat) (v : VNode), CeHooks (createElm d) v := by
  intro d
  induction d with
  | zero =>
    intro v parent kids ref hasOwner st r h
    cases h
  | succ d ih =>
    intro v parent kids ref hasOwner st r h
    unfold createElm at h
    simp only at h
    split at h
    · rename_i tag htag
      split at h
      · cases h
      · rename_i v2 n2 st2 ev2 hc
        obtain ⟨hle, hev⟩ := createChildren_hooks (createElm d) _ _ _ v2 n2 st2 ev2
          (fun cs _ c _ => ih c) hc
        have helm : v2.elm = some st.next := by
          rw [createChildren_elm _ _ _ _ _ _ _ _ hc]
          simp
        split at h
        · cases h
        · rename_i k4 e4 hins
          simp only [Except.ok.injEq] at h
          subst h
          have hle1 : st.next ≤ st2.next := by
            have : st.next + 1 ≤ st2.next := hle
            omega
          refine ⟨?_, ?_⟩
          · show st.next ≤ (if v2.info.data.isSome = true then invokeCreateHooks v2 st2
              else (st2, [])).1.next
            rw [createHooks_next]
            exact hle1
          · intro h0 hm
            rcases List.mem_append.1 hm with hm | hm
            · rcases List.mem_append.1 hm with hm | hm
              · rcases List.mem_append.1 hm with hm | hm
                · simp only [List.mem_singleton] at hm
                  cases hm
                · obtain ⟨x, hx, hx2⟩ := hev h0 hm
                  exact ⟨x, hx, by
                    have : st.next + 1 ≤ x := hx2
                    omega⟩
              · split at hm
                · have := invokeCreateHooks_events v2 st2 h0 hm
                  exact ⟨st.next, by rw [this, helm], le_refl _⟩
                · simp at hm
            · exact absurd hm (insert_no_hook _ _ _ _ (k4, e4) hins _ _)
    · split at h
      · cases h
      · rename_i k2 e2 hins
        simp only [Except.ok.injEq] at h
        subst h
        refine ⟨by simp, ?_⟩
        intro h0 hm
        rcases List.mem_append.1 hm with hm | hm
        · simp only [List.mem_singleton] at hm
          split at hm <;> cases hm
        · exact absurd hm (insert_no_hook _ _ _ _ (k2, e2) hins _ _)

theorem hydrateFinish_own (v0 : VNode) (n0 : LNode) (st0 : St) (ev0 : List Ev) (x : Handle)
    (r : Bool × VNode × LNode × St × List Ev) (h : hydrateFinish v0 n0 st0 ev0 = .ok r)
    (hx : v0.elm = some x) :
    r.2.2.2.1.next = st0.next ∧
      ∃ own, r.2.2.2.2 = ev0 ++ own ∧
        (∀ h1, Ev.hook .moduleCreate h1 ∈ own → h1 = some x) ∧
        own.count (.hook .moduleCreate (some x)) = if fullInvoke v0 then 1 else 0 := by
  unfold hydrateFinish at h
  unfold fullInvoke
  cases hd : v0.info.data with
  | none =>
    rw [hd] at h
    simp only [Except.ok.injEq] at h
    subst h
    exact ⟨rfl, [], by simp, by simp, by simp⟩
  | some dt =>
    rw [hd] at h
    simp only at h ⊢
    by_cases hf : (dataKeys dt).any (fun key => !isRenderedModule key) = true
    · simp only [hf, if_true, Except.ok.injEq] at h ⊢
      subst h
      refine ⟨by simp, (invokeCreateHooks v0 st0).2, rfl, ?_, ?_⟩
      · intro h1 hm
        rw [← hx]
        exact invokeCreateHooks_events v0 st0 h1 hm
      · rw [← hx]
        exact invokeCreateHooks_count v0 st0
    · simp only [hf, Bool.false_eq_true, if_false, Except.ok.injEq] at h ⊢
      subst h
      exact ⟨rfl, [], by simp, by simp, by simp⟩

theorem createChildren_info (ce : CreateElm) (v : VNode) (node : LNode) (st : St)
    (v1 : VNode) (n1 : LNode) (st1 : St) (ev : List Ev)
    (h : createChildren ce v node st = .ok (v1, n1, st1, ev)) : v1.info = v.info := by
  unfold createChildren at h
  split at h
  · split at h
    · cases h
    · simp only [Except.ok.injEq, Prod.mk.injEq] at h
      rw [← h.1]
      cases v
      rfl
  · split at h
    · simp only [Except.ok.injEq, Prod.mk.injEq] at h
      rw [← h.1]
    · simp only [Except.ok.injEq, Prod.mk.injEq] at h
      rw [← h.1]

theorem hydrateChildrenLoop_hooks (hy : Hydrate) :
    ∀ (cs : List VNode) (ks : List LNode) (st : St) (b : Bool) (cs1 : List VNode)
      (done ahead : List LNode) (st1 : St) (ev : List Ev), (∀ c ∈ cs, HyHooks hy c) →
      hydrateChildrenLoop hy cs ks st = .ok (b, cs1, done, ahead, st1, ev) →
      st.next ≤ st1.next ∧
        ∀ h, Ev.hook .moduleCreate h ∈ ev →
          ∃ x, h = some x ∧ (x ∈ allHandlesL ks ∨ st.next ≤ x) := by
  intro cs
  induction cs with
  | nil =>
    intro ks st b cs1 done ahead st1 ev _ h
    simp only [hydrateChildrenLoop, Except.ok.injEq, Prod.mk.injEq] at h
    obtain ⟨_, _, _, _, h5, h6⟩ := h
    subst h5
    subst h6
    exact ⟨le_refl _, by simp⟩
  | cons c cs ih =>
    intro ks st b cs1 done ahead st1 ev hhy h
    cases ks with
    | nil =>
      simp only [hydrateChildrenLoop, Except.ok.injEq, Prod.mk.injEq] at h
      obtain ⟨_, _, _, _, h5, h6⟩ := h
      subst h5
      subst h6
      exact ⟨le_refl _, by simp⟩
    | cons n rest =>
      unfold hydrateChildrenLoop at h
      cases hr : hy n c st with
      | error e => rw [hr] at h; cases h
      | ok r =>
        obtain ⟨b1, c1, n1, s1, e1⟩ := r
        rw [hr] at h
        obtain ⟨hle, hev⟩ := hhy c (List.mem_cons_self _ _) n st _ hr
        cases b1 with
        | false =>
          simp only [Except.ok.injEq, Prod.mk.injEq] at h
          obtain ⟨_, _, _, _, h5, h6⟩ := h
          subst h5
          subst h6
          refine ⟨hle, ?_⟩
          intro h0 hm
          obtain ⟨x, hx, hx2⟩ := hev h0 hm
          refine ⟨x, hx, ?_⟩
          rcases hx2 with hx2 | hx2
          · exact Or.inl (by simp only [allHandlesL, List.mem_append]; exact Or.inl hx2)
          · exact Or.inr hx2
        | true =>
          simp only at h
          cases hl : hydrateChildrenLoop hy cs rest s1 with
          | error e => rw [hl] at h; cases h
          | ok r2 =>
            obtain ⟨b2, cs2, d2, a2, s2, e2⟩ := r2
            rw [hl] at h
            simp only [Except.ok.injEq, Prod.mk.injEq] at h
            obtain ⟨_, _, _, _, h5, h6⟩ := h
            subst h5
            subst h6
            obtain ⟨hle2, hev2⟩ := ih rest s1 b2 cs2 d2 a2 s2 e2
              (fun y hy1 => hhy y (List.mem_cons_of_mem _ hy1)) hl
            refine ⟨le_trans hle hle2, ?_⟩
            intro h0 hm
            rcases List.mem_append.1 hm with hm | hm
            · obtain ⟨x, hx, hx2⟩ := hev h0 hm
              refine ⟨x, hx, ?_⟩
              rcases hx2 with hx2 | hx2
              · exact Or.inl (by simp only [allHandlesL, List.mem_append]; exact Or.inl hx2)
              · exact Or.inr hx2
            · obtain ⟨x, hx, hx2⟩ := hev2 h0 hm
              refine ⟨x, hx, ?_⟩
              rcases hx2 with hx2 | hx2
              · exact Or.inl (by simp only [allHandlesL, List.mem_append]; exact Or.inr hx2)
              · exact Or.inr (le_trans hle hx2)

/-- What `hydrate` does on an element that is not the comment of an async
component, when it returns: the events are those of the children, which
concern live descendants or fresh nodes, followed by the create hooks of the
node itself, run once if its data has a field that is not a rendered module
and not at all otherwise. -/
theorem hydrate_element (hy : Hydrate) (ce : CreateElm) (d : Nat) (elm : LNode) (v : VNode)
    (st : St) (hhy : hy = hydrate d) (hce : ce = createElm d)
    (hyh : ∀ c, HyHooks hy c) (hceh : ∀ c, CeHooks ce c)
    (ht : v.info.tag.isSome = true)
    (hc : (v.info.isComment && v.info.asyncFactory.isSome) = false)
    (b : Bool) (v1 : VNode) (n1 : LNode) (st1 : St) (ev : List Ev)
    (h : hydrate (d + 1) elm v st = .ok (b, v1, n1, st1, ev)) :
    st.next ≤ st1.next ∧
      ∃ ev0 own, ev = ev0 ++ own ∧
        (∀ h1, Ev.hook .moduleCreate h1 ∈ ev0 →
          ∃ x, h1 = some x ∧ (x ∈ allHandlesL elm.kids ∨ st.next ≤ x)) ∧
        (∀ h1, Ev.hook .moduleCreate h1 ∈ own → h1 = some elm.h) ∧
        (b = true → own.count (.hook .moduleCreate (some elm.h))
          = if fullInvoke v then 1 else 0) := by
  subst hhy
  subst hce
  obtain ⟨t, htag⟩ := Option.isSome_iff_exists.1 ht
  have h1 : (v.setElm (some elm.h)).info.isComment = v.info.isComment := by cases v; rfl
  have h2 : (v.setElm (some elm.h)).info.asyncFactory = v.info.asyncFactory := by cases v; rfl
  have h3 : (v.setElm (some elm.h)).info.tag = some t := by cases v; exact htag
  have h4 : (v.setElm (some elm.h)).children = v.children := by cases v; rfl
  have h6 : (v.setElm (some elm.h)).info.data = v.info.data := by cases v; rfl
  have hfull : ∀ v0 : VNode, v0.info.data = v.info.data → fullInvoke v0 = fullInvoke v := by
    intro v0 h0
    unfold fullInvoke
    rw [h0]
  have fin : ∀ (v0 : VNode) (n0 : LNode) (st0 : St) (ev0 : List Ev),
      v0.elm = some elm.h → v0.info.data = v.info.data → st.next ≤ st0.next →
      (∀ h1, Ev.hook .moduleCreate h1 ∈ ev0 →
          ∃ x, h1 = some x ∧ (x ∈ allHandlesL elm.kids ∨ st.next ≤ x)) →
      hydrateFinish v0 n0 st0 ev0 = .ok (b, v1, n1, st1, ev) →
      st.next ≤ st1.next ∧
      ∃ ev0 own, ev = ev0 ++ own ∧
        (∀ h1, Ev.hook .moduleCreate h1 ∈ ev0 →
          ∃ x, h1 = some x ∧ (x ∈ allHandlesL elm.kids ∨ st.next ≤ x)) ∧
        (∀ h1, Ev.hook .moduleCreate h1 ∈ own → h1 = some elm.h) ∧
        (b = true → own.count (.hook .moduleCreate (some elm.h))
          = if fullInvoke v then 1 else 0) := by
    intro v0 n0 st0 ev0 he hd hle hev hf
    obtain ⟨hn, own, ho1, ho2, ho3⟩ := hydrateFinish_own v0 n0 st0 ev0 elm.h _ hf he
    refine ⟨by simp only at hn; omega, ev0, own, ho1, hev, ho2, ?_⟩
    intro _
    rw [ho3, hfull v0 hd]
  have stop : ∀ (ev0 : List Ev) (st0 : St), st.next ≤ st0.next →
      (∀ h1, Ev.hook .moduleCreate h1 ∈ ev0 →
          ∃ x, h1 = some x ∧ (x ∈ allHandlesL elm.kids ∨ st.next ≤ x)) →
      st.next ≤ st0.next ∧
      ∃ ev1 own, ev0 = ev1 ++ own ∧
        (∀ h1, Ev.hook .moduleCreate h1 ∈ ev1 →
          ∃ x, h1 = some x ∧ (x ∈ allHandlesL elm.kids ∨ st.next ≤ x)) ∧
        (∀ h1, Ev.hook .moduleCreate h1 ∈ own → h1 = some elm.h) ∧
        (false = true → own.count (.hook .moduleCreate (some elm.h))
          = if fullInvoke v then 1 else 0) := by
    intro ev0 st0 hle hev
    exact ⟨hle, ev0, [], by simp, hev, by simp, fun hx => by cases hx⟩
  have helm0 : (v.setElm (some elm.h)).elm = some elm.h := by simp
  unfold hydrate at h
  simp only [h1, h2, hc, Bool.false_eq_true, if_false, h3, h4, h6] at h
  split at h
  · simp only [Except.ok.injEq, Prod.mk.injEq] at h
    obtain ⟨hb, _, _, hs, he⟩ := h
    subst hb
    subst hs
    subst he
    exact stop [] st (le_refl _) (by simp)
  · cases hch : v.children with
    | none =>
      rw [hch] at h
      exact fin _ _ _ _ helm0 h6 (le_refl _) (by simp) h
    | some cs =>
      rw [hch] at h
      simp only at h
      split at h
      · cases hcc : createChildren (createElm d) (v.setElm (some elm.h)) elm st with
        | error e => rw [hcc] at h; cases h
        | ok r =>
          obtain ⟨v2, n2, st2, ev2⟩ := r
          rw [hcc] at h
          simp only at h
          obtain ⟨hle, hev⟩ := createChildren_hooks (createElm d) _ _ _ v2 n2 st2 ev2
            (fun _ _ c _ => hceh c) hcc
          refine fin v2 n2 st2 ev2 ?_ ?_ hle ?_ h
          · rw [createChildren_elm _ _ _ _ _ _ _ _ hcc]
            exact helm0
          · rw [createChildren_info _ _ _ _ _ _ _ _ hcc]
            exact h6
          · intro h0 hm
            obtain ⟨x, hx, hx2⟩ := hev h0 hm
            exact ⟨x, hx, Or.inr hx2⟩
      · cases hin : v.info.data.bind VData.innerHTML with
        | some html =>
          rw [hin] at h
          simp only at h
          split at h
          · simp only [Except.ok.injEq, Prod.mk.injEq] at h
            obtain ⟨hb, _, _, hs, he⟩ := h
            subst hb
            subst hs
            subst he
            exact stop [] st (le_refl _) (by simp)
          · exact fin _ _ _ _ helm0 h6 (le_refl _) (by simp) h
        | none =>
          rw [hin] at h
          simp only at h
          cases hl : hydrateChildrenLoop (hydrate d) cs elm.kids st with
          | error e => rw [hl] at h; cases h
          | ok r =>
            obtain ⟨b2, cs2, d2, a2, s2, e2⟩ := r
            rw [hl] at h
            simp only at h
            obtain ⟨hle, hev⟩ := hydrateChildrenLoop_hooks (hydrate d) cs elm.kids st b2 cs2 d2
              a2 s2 e2 (fun c _ => hyh c) hl
            split at h
            · simp only [Except.ok.injEq, Prod.mk.injEq] at h
              obtain ⟨hb, _, _, hs, he⟩ := h
              subst hb
              subst hs
              subst he
              exact stop e2 s2 hle hev
            · refine fin _ _ _ _ ?_ ?_ hle hev h
              · cases v
                exact helm0
              · cases v
                exact h6
theorem mem_allHandles_self (n : LNode) : n.h ∈ allHandles n := by
  rw [allHandles_eq]
  exact List.mem_cons_self _ _

theorem mem_allHandles_kids (n : LNode) (x : Nat) (h : x ∈ allHandlesL n.kids) :
    x ∈ allHandles n := by
  rw [allHandles_eq]
  exact List.mem_cons_of_mem _ h

/-- Whenever `hydrate` returns, the module create hooks it ran are those of
nodes of the live subtree or of nodes given fresh handles. -/
theorem hydrate_hooks : ∀ (d : Nat) (v : VNode), HyHooks (hydrate d) v := by
  intro d
  induction d with
  | zero =>
    intro v elm st r h
    cases h
  | succ d ih =>
    intro v elm st r h
    obtain ⟨b, v1, n1, st1, ev⟩ := r
    by_cases hc : (v.info.isComment && v.info.asyncFactory.isSome) = true
    · have h1 : (v.setElm (some elm.h)).info.isComment = v.info.isComment := by cases v; rfl
      have h2 : (v.setElm (some elm.h)).info.asyncFactory = v.info.asyncFactory := by
        cases v; rfl
      unfold hydrate at h
      simp only [h1, h2, hc, if_true, Except.ok.injEq, Prod.mk.injEq] at h
      obtain ⟨_, _, _, hs, he⟩ := h
      subst hs
      subst he
      exact ⟨le_refl _, by simp⟩
    · have hc1 : (v.info.isComment && v.info.asyncFactory.isSome) = false := by simpa using hc
      cases htag : v.info.tag with
      | some t =>
        obtain ⟨hle, ev0, own, hev, h0, hown, _⟩ :=
          hydrate_element (hydrate d) (createElm d) d elm v st rfl rfl ih (createElm_hooks d)
            (by rw [htag]; rfl) hc1 b v1 n1 st1 ev h
        refine ⟨hle, ?_⟩
        intro hh hm
        rw [hev] at hm
        rcases List.mem_append.1 hm with hm | hm
        · obtain ⟨x, hx, hx2⟩ := h0 hh hm
          refine ⟨x, hx, ?_⟩
          rcases hx2 with hx2 | hx2
          · exact Or.inl (mem_allHandles_kids elm x hx2)
          · exact Or.inr hx2
        · exact ⟨elm.h, hown hh hm, Or.inl (mem_allHandles_self elm)⟩
      | none =>
        have h1 : (v.setElm (some elm.h)).info.isComment = v.info.isComment := by cases v; rfl
        have h2 : (v.setElm (some elm.h)).info.asyncFactory = v.info.asyncFactory := by
          cases v; rfl
        have h3 : (v.setElm (some elm.h)).info.tag = none := by cases v; exact htag
        unfold hydrate at h
        simp only [h1, h2, hc1, Bool.false_eq_true, if_false, h3] at h
        split at h
        · simp only [Except.ok.injEq, Prod.mk.injEq] at h
          obtain ⟨_, _, _, hs, he⟩ := h
          subst hs
          subst he
          exact ⟨le_refl _, by simp⟩
        · split at h
          · simp only [Except.ok.injEq, Prod.mk.injEq] at h
            obtain ⟨_, _, _, hs, he⟩ := h
            subst hs
            subst he
            exact ⟨le_refl _, by simp⟩
          · simp only [Except.ok.injEq, Prod.mk.injEq] at h
            obtain ⟨_, _, _, hs, he⟩ := h
            subst hs
            subst he
            exact ⟨le_refl _, by simp⟩

/-- C30: the create-hook allow-list of hydration.  An element VNode with a
data block, not the comment of an async component, is hydrated with success
on a live element whose handles are in use and whose handle is not borne by
one of its descendants.  Then the module create hooks are invoked for that
node exactly once if its data has a field outside `attrs`, `class`,
`staticClass`, `staticStyle`, `key`, and not at all if every field of the data
lies in that list. -/
theorem hydrate_create_hooks (d : Nat) (elm : LNode) (v : VNode) (st : St) (data : VData)
    (v1 : VNode) (n1 : LNode) (st1 : St) (ev : List Ev)
    (ht : v.info.tag.isSome = true) (hd : v.info.data = some data)
    (hc : (v.info.isComment && v.info.asyncFactory.isSome) = false)
    (hb : LNode.bounded st.next elm = true) (hu : elm.h ∉ allHandlesL elm.kids)
    (h : hydrate (d + 1) elm v st = .ok (true, v1, n1, st1, ev)) :
    ev.count (.hook .moduleCreate (some elm.h)) =
      if (dataKeys data).any (fun key => !isRenderedModule key) then 1 else 0 := by
  obtain ⟨_, ev0, own, hev, h0, _, hown⟩ :=
    hydrate_element (hydrate d) (createElm d) d elm v st rfl rfl (hydrate_hooks d)
      (createElm_hooks d) ht hc true v1 n1 st1 ev h
  have hz : ev0.count (.hook .moduleCreate (some elm.h)) = 0 := by
    apply List.count_eq_zero.2
    intro hm
    obtain ⟨x, hx, hx2⟩ := h0 _ hm
    simp only [Option.some.injEq] at hx
    subst hx
    rcases hx2 with hx2 | hx2
    · exact hu hx2
    · have := bounded_h_lt _ _ hb
      omega
  have hf : fullInvoke v = (dataKeys data).any (fun key => !isRenderedModule key) := by
    unfold fullInvoke
    rw [hd]
  rw [hev, List.count_append, hz, hown rfl, hf, Nat.zero_add]

/-- C30 on a live `div` holding an `input`, hydrated against a `div` whose
data has the fields `attrs` and `on`: the create hooks run once for it. -/
theorem hydrate_create_hooks_witness :
    ∃ n1 st1 ev, hydrate (1 + 1) formLive (listenerDiv [inputEl "text" none]) st0
        = .ok (true, bindElm formLive (listenerDiv [inputEl "text" none]), n1, st1, ev) ∧
      ev.count (.hook .moduleCreate (some formLive.h)) =
        if (dataKeys { attrs := some { inputType := none }, hook := none, others := ["on"] }).any
          (fun key => !isRenderedModule key) then 1 else 0 := by
  obtain ⟨n1, st1, ev, h, _⟩ := hydrate_mirror 2 formLive (listenerDiv [inputEl "text" none])
    st0 (by decide) (by decide) (by decide)
  exact ⟨n1, st1, ev, h,
    hydrate_create_hooks 1 formLive (listenerDiv [inputEl "text" none]) st0
      { attrs := some { inputType := none }, hook := none, others := ["on"] } _ n1 st1 ev
      rfl rfl rfl (by decide) (by decide) h⟩

/-! ## Mounting a tree -/

theorem postorder_eq (v : VNode) :
    postorder v = (match v.children with
      | none => []
      | some cs => postorderL cs) ++ [v.info] := by
  cases v with
  | mk i c => cases c <;> simp [postorder, VNode.children, VNode.info]

theorem strip_eq (v : VNode) :
    strip v = VNode.mk { v.info with elm := none, isCloned := false }
      (v.children.map stripL) := by
  cases v with
  | mk i c => cases c <;> simp [strip, VNode.children, VNode.info]

theorem elementTree_leaf (v : VNode) (hch : v.children = none) (h : elementTree v = true) :
    v.info.tag.isSome = true ∨ declaresInsert v.info = false := by
  cases v with
  | mk i c =>
    simp only [VNode.children] at hch
    subst hch
    simpa [elementTree] using h

theorem elementTree_node (v : VNode) (cs : List VNode) (hch : v.children = some cs)
    (h : elementTree v = true) : v.info.tag.isSome = true ∧ elementTreeL cs = true := by
  cases v with
  | mk i c =>
    simp only [VNode.children] at hch
    subst hch
    simpa [elementTree] using h

theorem elementTreeL_mem : ∀ (cs : List VNode), elementTreeL cs = true →
    ∀ c ∈ cs, elementTree c = true := by
  intro cs
  induction cs with
  | nil => intro _ c hc; cases hc
  | cons x xs ih =>
    intro h c hc
    simp only [elementTreeL, Bool.and_eq_true] at h
    rcases List.mem_cons.1 hc with hc | hc
    · rw [hc]; exact h.1
    · exact ih h.2 c hc

theorem declaresInsert_hasHook (v : VNode) : hasHook v Hooks.insert = declaresInsert v.info :=
  rfl

theorem createChildrenLoop_queue (ce : CreateElm) (parent : Handle) :
    ∀ (cs : List VNode) (kids : List LNode) (st : St) (cs1 : List VNode) (kids1 : List LNode)
      (st1 : St) (ev : List Ev), (∀ c ∈ cs, CeQueue ce c) →
      createChildrenLoop ce parent cs kids st = .ok (cs1, kids1, st1, ev) →
      stripL cs1 = stripL cs ∧
        st1.queue.map Subtype.val
          = st.queue.map Subtype.val ++ (postorderL cs1).filter declaresInsert ∧
        ∀ x, Ev.hook .insert x ∉ ev := by
  intro cs
  induction cs with
  | nil =>
    intro kids st cs1 kids1 st1 ev _ h
    simp only [createChildrenLoop, Except.ok.injEq, Prod.mk.injEq] at h
    obtain ⟨h1, _, h3, h4⟩ := h
    subst h1
    subst h3
    subst h4
    exact ⟨rfl, by simp [postorderL], by simp⟩
  | cons c cs ih =>
    intro kids st cs1 kids1 st1 ev hce h
    unfold createChildrenLoop at h
    cases hr : ce c (some parent) kids none true st with
    | error e => rw [hr] at h; cases h
    | ok r =>
      obtain ⟨c1, n1, k1, s1, e1⟩ := r
      rw [hr] at h
      simp only at h
      obtain ⟨hs, hq, hev⟩ := hce c (List.mem_cons_self _ _) _ _ _ _ _ _ hr
      cases hl : createChildrenLoop ce parent cs k1 s1 with
      | error e => rw [hl] at h; cases h
      | ok r2 =>
        obtain ⟨cs2, k2, s2, e2⟩ := r2
        rw [hl] at h
        simp only [Except.ok.injEq, Prod.mk.injEq] at h
        obtain ⟨h1, _, h3, h4⟩ := h
        subst h1
        subst h3
        subst h4
        obtain ⟨hs2, hq2, hev2⟩ := ih k1 s1 cs2 k2 s2 e2
          (fun x hx => hce x (List.mem_cons_of_mem _ hx)) hl
        refine ⟨?_, ?_, ?_⟩
        · simp only [stripL]
          rw [hs2]
          exact congrArg (fun z => z :: stripL cs) hs
        · rw [hq2]
          simp only at hq
          rw [hq]
          simp only [postorderL, List.filter_append, List.append_assoc]
        · intro x hm
          rcases List.mem_append.1 hm with hm | hm
          · exact hev x hm
          · exact hev2 x hm

theorem invokeCreateHooks_queue (v : VNode) (st : St) :
    (invokeCreateHooks v st).1.queue.map Subtype.val
        = st.queue.map Subtype.val ++ [v.info].filter declaresInsert ∧
      ∀ x, Ev.hook .insert x ∉ (invokeCreateHooks v st).2 := by
  unfold invokeCreateHooks
  refine ⟨?_, ?_⟩
  · by_cases hi : hasHook v Hooks.insert = true
    · have hd : declaresInsert v.info = true := hi
      simp [hi, hd]
    · have hd : declaresInsert v.info = false := by
        rw [← declaresInsert_hasHook]
        simpa using hi
      simp [hi, hd]
  · intro x hm
    by_cases hc : hasHook v Hooks.create = true
    · simp [hc] at hm
    · simp [hc] at hm

theorem strip_cloneIfUsed (v : VNode) (b : Bool) (e : Option Handle) :
    strip ((cloneIfUsed v b).setElm e) = strip v := by
  cases v with
  | mk i c =>
    unfold cloneIfUsed cloneVNode
    split <;> cases c <;> simp [strip, VNode.setElm, VNode.setInfo, VNode.info]

theorem strip_setChildren (v : VNode) (cs cs1 : List VNode) (hch : v.children = some cs)
    (h : stripL cs1 = stripL cs) : strip (v.setChildren (some cs1)) = strip v := by
  cases v with
  | mk i c =>
    simp only [VNode.children] at hch
    subst hch
    simp [strip, VNode.setChildren, h]

/-- Whenever `createElm` returns on a tree of elements, the queue has gained
the created nodes that declare an insert hook, in post-order. -/
theorem createElm_queue : ∀ (d : Nat) (v : VNode), elementTree v = true →
    CeQueue (createElm d) v := by
  intro d
  induction d with
  | zero =>
    intro v _ parent kids ref hasOwner st r h
    cases h
  | succ d ih =>
    intro v het parent kids ref hasOwner st r h
    have hct : (cloneIfUsed v hasOwner).info.tag = v.info.tag := cloneIfUsed_info_tag v hasOwner
    have hcc : (cloneIfUsed v hasOwner).children = v.children := cloneIfUsed_children v hasOwner
    have hcd : (cloneIfUsed v hasOwner).info.data = v.info.data := by
      unfold cloneIfUsed cloneVNode
      split
      · cases v; rfl
      · rfl
    unfold createElm at h
    simp only at h
    split at h
    · rename_i tag htag
      split at h
      · cases h
      · rename_i v2 n2 st2 ev2 hc
        split at h
        · cases h
        · rename_i k4 e4 hins
          simp only [Except.ok.injEq] at h
          subst h
          have hinfo := createChildren_info _ _ _ _ _ _ _ _ hc
          have hv2d : v2.info.data = v.info.data := by
            rw [hinfo]
            show ((cloneIfUsed v hasOwner).setElm (some st.next)).info.data = _
            rw [← hcd]
            cases (cloneIfUsed v hasOwner)
            rfl
          -- the children
          have hkids : strip v2 = strip v ∧
              st2.queue.map Subtype.val = st.queue.map Subtype.val ++
                (match v2.children with
                  | none => []
                  | some cs => postorderL cs).filter declaresInsert ∧
              ∀ x, Ev.hook .insert x ∉ ev2 := by
            unfold createChildren at hc
            cases hch : v.children with
            | some cs =>
              have hch1 : ((cloneIfUsed v hasOwner).setElm (some st.next)).children
                  = some cs := by
                rw [VNode.setElm_children, hcc, hch]
              rw [hch1] at hc
              simp only at hc
              cases hl : createChildrenLoop (createElm d) st.next cs [] _ with
              | error e =>
                simp only [LNode.h, LNode.kids] at hc
                rw [hl] at hc
                cases hc
              | ok r2 =>
                obtain ⟨cs2, k2, s2, e2⟩ := r2
                simp only [LNode.h, LNode.kids] at hc
                rw [hl] at hc
                simp only [Except.ok.injEq, Prod.mk.injEq] at hc
                obtain ⟨g1, _, g3, g4⟩ := hc
                subst g1
                subst g3
                subst g4
                obtain ⟨hs, hq, hev⟩ := createChildrenLoop_queue (createElm d) st.next cs [] _
                  cs2 k2 s2 e2
                  (fun c hcm => ih c (elementTreeL_mem cs (elementTree_node v cs hch het).2 c hcm))
                  hl
                refine ⟨?_, ?_, hev⟩
                · rw [strip_setChildren _ cs cs2 hch1 hs, strip_cloneIfUsed]
                · rw [hq]
                  cases (cloneIfUsed v hasOwner)
                  rfl
            | none =>
              have hch1 : ((cloneIfUsed v hasOwner).setElm (some st.next)).children = none := by
                rw [VNode.setElm_children, hcc, hch]
              rw [hch1] at hc
              simp only at hc
              split at hc
              · simp only [Except.ok.injEq, Prod.mk.injEq] at hc
                obtain ⟨g1, _, g3, g4⟩ := hc
                subst g1
                subst g3
                subst g4
                rw [hch1]
                exact ⟨strip_cloneIfUsed v hasOwner _, by simp, by simp⟩
              · simp only [Except.ok.injEq, Prod.mk.injEq] at hc
                obtain ⟨g1, _, g3, g4⟩ := hc
                subst g1
                subst g3
                subst g4
                rw [hch1]
                exact ⟨strip_cloneIfUsed v hasOwner _, by simp, by simp⟩
          obtain ⟨hs, hq, hev⟩ := hkids
          refine ⟨hs, ?_, ?_⟩
          · show (if v2.info.data.isSome = true then invokeCreateHooks v2 st2
                else (st2, [])).1.queue.map Subtype.val = _
            rw [postorder_eq v2, List.filter_append]
            by_cases hd : v2.info.data.isSome = true
            · simp only [hd, if_true]
              rw [(invokeCreateHooks_queue v2 st2).1, hq, List.append_assoc]
            · simp only [hd, Bool.false_eq_true, if_false]
              have hno : declaresInsert v2.info = false := by
                unfold declaresInsert
                have : v2.info.data = none := by
                  cases hx : v2.info.data with
                  | none => rfl
                  | some _ => rw [hx] at hd; simp at hd
                rw [this]
                rfl
              rw [hq]
              simp [hno]
          · intro x hm
            rcases List.mem_append.1 hm with hm | hm
            · rcases List.mem_append.1 hm with hm | hm
              · rcases List.mem_append.1 hm with hm | hm
                · simp only [List.mem_singleton] at hm
                  cases hm
                · exact hev x hm
              · split at hm
                · exact (invokeCreateHooks_queue v2 st2).2 x hm
                · simp at hm
            · exact absurd hm (insert_no_hook _ _ _ _ (k4, e4) hins _ _)
    · rename_i htag
      split at h
      · cases h
      · rename_i k2 e2 hins
        simp only [Except.ok.injEq] at h
        subst h
        have htn : v.info.tag = none := by rw [← hct]; exact htag
        have hchn : v.children = none := by
          cases hch : v.children with
          | none => rfl
          | some cs =>
            have := (elementTree_node v cs hch het).1
            rw [htn] at this
            cases this
        have hno : declaresInsert v.info = false := by
          rcases elementTree_leaf v hchn het with h1 | h1
          · rw [htn] at h1; cases h1
          · exact h1
        refine ⟨strip_cloneIfUsed v hasOwner _, ?_, ?_⟩
        · show st.queue.map Subtype.val = _
          rw [postorder_eq]
          have hch1 : ((cloneIfUsed v hasOwner).setElm (some st.next)).children = none := by
            rw [VNode.setElm_children, hcc, hchn]
          have hd1 : declaresInsert ((cloneIfUsed v hasOwner).setElm (some st.next)).info
              = false := by
            unfold declaresInsert
            have : ((cloneIfUsed v hasOwner).setElm (some st.next)).info.data = v.info.data := by
              rw [← hcd]
              cases (cloneIfUsed v hasOwner)
              rfl
            rw [this]
            exact hno
          rw [hch1]
          simp [hd1]
        · intro x hm
          rcases List.mem_append.1 hm with hm | hm
          · simp only [List.mem_singleton] at hm
            split at hm <;> cases hm
          · exact absurd hm (insert_no_hook _ _ _ _ (k2, e2) hins _ _)

/-- C29: the insertion queue on mount.  For a tree of elements (text and
comment leaves that declare no insert hook may stand among them), given depth
for the tree and siblings whose handles are in use, `createElm` returns; the
tree it leaves is the given one with handles and clone marks; the insertion
queue has gained exactly the nodes of that tree whose data declares an insert
hook, each once, in post-order; and `createElm` has invoked no insert hook. -/
theorem insertion_queue_order (d : Nat) (v : VNode) (parent : Option Handle)
    (kids : List LNode) (ref : Option Handle) (hasOwner : Bool) (st : St)
    (het : elementTree v = true) (hh : v.height ≤ d)
    (hb : ∀ k ∈ kids, LNode.bounded st.next k = true) :
    ∃ v1 node kids1 st1 ev,
      createElm d v parent kids ref hasOwner st = .ok (v1, node, kids1, st1, ev) ∧
      strip v1 = strip v ∧
      st1.queue.map Subtype.val
        = st.queue.map Subtype.val ++ (postorder v1).filter declaresInsert ∧
      ∀ x, Ev.hook .insert x ∉ ev := by
  obtain ⟨n1, node, st1, ev, _, hnh, _, _, _, hrun⟩ := createElm_spec d v hh hasOwner st
  have hfresh : node.h ∉ kids.map LNode.h := by
    rw [hnh]
    exact bounded_not_mem st.next kids hb st.next (le_refl _)
  obtain ⟨r, hr, _⟩ := insert_fresh parent kids node ref hfresh
  have hce : createElm d v parent kids ref hasOwner st = .ok (n1, node, r.1, st1, ev ++ r.2) := by
    rw [hrun parent kids ref, hr]
  obtain ⟨h1, h2, h3⟩ := createElm_queue d v het parent kids ref hasOwner st _ hce
  exact ⟨n1, node, r.1, st1, ev ++ r.2, hce, h1, h2, h3⟩

/-- C29 on a `div` that declares an insert hook and holds two `div`s, the
first of which declares one. -/
theorem insertion_queue_order_witness :
    ∃ v1 node kids1 st1 ev,
      createElm 2 (insertDiv none true
          (some [insertDiv none true none, insertDiv none false none])) none [] none false st0
        = .ok (v1, node, kids1, st1, ev) ∧
      strip v1 = strip (insertDiv none true
          (some [insertDiv none true none, insertDiv none false none])) ∧
      st1.queue.map Subtype.val
        = st0.queue.map Subtype.val ++ (postorder v1).filter declaresInsert ∧
      ∀ x, Ev.hook .insert x ∉ ev :=
  insertion_queue_order 2 (insertDiv none true
      (some [insertDiv none true none, insertDiv none false none])) none [] none false st0
    (by decide) (by decide) (by simp)

theorem cloneIfUsed_none (v : VNode) (b : Bool) (h : v.elm = none) : cloneIfUsed v b = v := by
  unfold cloneIfUsed
  rw [h]
  rfl

theorem unrealized_elm (v : VNode) (h : unrealized v = true) : v.elm = none := by
  cases v with
  | mk i c =>
    cases c with
    | none => simpa [unrealized, VNode.elm, VNode.info] using h
    | some cs =>
      simp only [unrealized, Bool.and_eq_true] at h
      simpa [VNode.elm, VNode.info] using h.1

theorem unrealized_children (v : VNode) (cs : List VNode) (hch : v.children = some cs)
    (h : unrealized v = true) : unrealizedL cs = true := by
  cases v with
  | mk i c =>
    simp only [VNode.children] at hch
    subst hch
    simp only [unrealized, Bool.and_eq_true] at h
    exact h.2

theorem plainTree_children (v : VNode) (cs : List VNode) (hch : v.children = some cs)
    (h : plainTree v = true) : v.info.tag.isSome = true ∧ plainTreeL cs = true := by
  cases v with
  | mk i c =>
    simp only [VNode.children] at hch
    subst hch
    simpa [plainTree] using h

theorem plainTree_leaf (v : VNode) (hch : v.children = none) (h : plainTree v = true) :
    v.info.tag = none ∨ v.info.text = none := by
  cases v with
  | mk i c =>
    simp only [VNode.children] at hch
    subst hch
    simpa [plainTree] using h

theorem assign_leaf (n : Nat) (v : VNode) (hch : v.children = none) :
    assign n v = v.setElm (some n) := by
  cases v with
  | mk i c =>
    simp only [VNode.children] at hch
    subst hch
    rfl

theorem assign_node (n : Nat) (v : VNode) (cs : List VNode) (hch : v.children = some cs) :
    assign n v = (v.setElm (some n)).setChildren (some (assignL (n + 1) cs)) := by
  cases v with
  | mk i c =>
    simp only [VNode.children] at hch
    subst hch
    simp [assign, VNode.setElm, VNode.setInfo, VNode.setChildren, VNode.info]

theorem size_leaf (v : VNode) (hch : v.children = none) : size v = 1 := by
  cases v with
  | mk i c =>
    simp only [VNode.children] at hch
    subst hch
    rfl

theorem size_node (v : VNode) (cs : List VNode) (hch : v.children = some cs) :
    size v = 1 + sizeL cs := by
  cases v with
  | mk i c =>
    simp only [VNode.children] at hch
    subst hch
    simp [size]

theorem rendersL_append (ks : List LNode) (cs : List VNode) (k : LNode) (c : VNode)
    (h1 : rendersL ks cs = true) (h2 : renders k c = true) :
    rendersL (ks ++ [k]) (cs ++ [c]) = true := by
  induction cs generalizing ks with
  | nil =>
    cases ks with
    | nil => simp [rendersL, h2]
    | cons _ _ => simp [rendersL] at h1
  | cons x xs ih =>
    cases ks with
    | nil => simp [rendersL] at h1
    | cons y ys =>
      simp only [rendersL, Bool.and_eq_true] at h1
      simp only [List.cons_append, rendersL, Bool.and_eq_true]
      exact ⟨h1.1, ih ys h1.2⟩

theorem assignL_append (n : Nat) (cs : List VNode) (c : VNode) :
    assignL n (cs ++ [c]) = assignL n cs ++ [assign (n + sizeL cs) c] := by
  induction cs generalizing n with
  | nil => simp [assignL, sizeL]
  | cons x xs ih =>
    rw [List.cons_append]
    simp only [assignL, sizeL]
    rw [ih, Nat.add_assoc]
    rfl

theorem sizeL_append (cs : List VNode) (c : VNode) : sizeL (cs ++ [c]) = sizeL cs + size c := by
  induction cs with
  | nil => simp [sizeL]
  | cons x xs ih =>
    rw [List.cons_append]
    simp only [sizeL]
    rw [ih]
    omega

/-- The loop of `createChildren` over children it mounts as mirrors: the
children come out with handles assigned one tree after the other, and the
nodes made are appended, in order, to the child list. -/
theorem createChildrenLoop_mount (ce : CreateElm) (parent : Handle) :
    ∀ (cs : List VNode) (kids : List LNode) (st : St) (cs1 : List VNode) (kids1 : List LNode)
      (st1 : St) (ev : List Ev), (∀ c ∈ cs, CeMount ce c) →
      (∀ c ∈ cs, plainTree c = true ∧ unrealized c = true) →
      (∀ k ∈ kids, k.h < st.next) →
      createChildrenLoop ce parent cs kids st = .ok (cs1, kids1, st1, ev) →
      cs1 = assignL st.next cs ∧ st1.next = st.next + sizeL cs ∧
        ∃ nodes, kids1 = kids ++ nodes ∧ rendersL nodes cs1 = true := by
  intro cs
  induction cs with
  | nil =>
    intro kids st cs1 kids1 st1 ev _ _ _ h
    simp only [createChildrenLoop, Except.ok.injEq, Prod.mk.injEq] at h
    obtain ⟨h1, h2, h3, _⟩ := h
    subst h1
    subst h2
    subst h3
    exact ⟨rfl, rfl, [], by simp, rfl⟩
  | cons c cs ih =>
    intro kids st cs1 kids1 st1 ev hce hpu hk h
    unfold createChildrenLoop at h
    cases hr : ce c (some parent) kids none true st with
    | error e => rw [hr] at h; cases h
    | ok r =>
      obtain ⟨c1, n1, k1, s1, e1⟩ := r
      rw [hr] at h
      simp only at h
      obtain ⟨ha, hrd, hnh, hnx, e, hins⟩ :=
        hce c (List.mem_cons_self _ _) (hpu c (List.mem_cons_self _ _)).1
          (hpu c (List.mem_cons_self _ _)).2 _ _ _ _ _ _ hr
      simp only at ha hrd hnh hnx hins
      have hfresh : n1.h ∉ kids.map LNode.h := by
        intro hm
        obtain ⟨k, hkm, hke⟩ := List.mem_map.1 hm
        have := hk k hkm
        omega
      have hk1 : k1 = kids ++ [n1] := by
        rw [insert_append parent kids n1 hfresh] at hins
        simp only [Except.ok.injEq, Prod.mk.injEq] at hins
        exact hins.1.symm
      have hpos : 0 < size c := by
        cases c with
        | mk i cc => cases cc <;> simp [size]
      cases hl : createChildrenLoop ce parent cs k1 s1 with
      | error e => rw [hl] at h; cases h
      | ok r2 =>
        obtain ⟨cs2, k2, s2, e2⟩ := r2
        rw [hl] at h
        simp only [Except.ok.injEq, Prod.mk.injEq] at h
        obtain ⟨h1, h2, h3, _⟩ := h
        subst h1
        subst h2
        subst h3
        obtain ⟨ia, inx, nodes, ik, ir⟩ := ih k1 s1 cs2 k2 s2 e2
          (fun x hx => hce x (List.mem_cons_of_mem _ hx))
          (fun x hx => hpu x (List.mem_cons_of_mem _ hx))
          (by
            intro k hkm
            rw [hk1] at hkm
            rcases List.mem_append.1 hkm with hkm | hkm
            · have := hk k hkm
              omega
            · have : k = n1 := by simpa using hkm
              rw [this, hnh]
              omega) hl
        refine ⟨?_, ?_, n1 :: nodes, ?_, ?_⟩
        · simp only [assignL]
          rw [ha, ia, hnx]
        · rw [inx, hnx]
          simp only [sizeL]
          omega
        · rw [ik, hk1]
          simp
        · simp only [rendersL, Bool.and_eq_true]
          exact ⟨hrd, ir⟩
theorem renders_node (n : LNode) (v : VNode) (cs : List VNode) (t : String)
    (hch : v.children = some cs) (he : v.info.elm = some n.h) (ht : v.info.tag = some t)
    (hk : n.kind = .element t) (hr : rendersL n.kids cs = true) : renders n v = true := by
  cases v with
  | mk i c =>
    simp only [VNode.children] at hch
    subst hch
    simp only [VNode.info] at he ht
    simp [renders, he, ht, hk, hr]

theorem renders_leaf_element (n : LNode) (v : VNode) (t : String)
    (hch : v.children = none) (he : v.info.elm = some n.h) (ht : v.info.tag = some t)
    (hk : n.kind = .element t) (hn : n.kids = []) : renders n v = true := by
  cases v with
  | mk i c =>
    simp only [VNode.children] at hch
    subst hch
    simp only [VNode.info] at he ht
    simp [renders, he, ht, hk, hn]

theorem renders_leaf_text (n : LNode) (v : VNode)
    (hch : v.children = none) (he : v.info.elm = some n.h) (ht : v.info.tag = none)
    (hk : n.kind = (if v.info.isComment then NodeType.comment else NodeType.text))
    (hd : n.data = textOf v.info.text) (hn : n.kids = []) : renders n v = true := by
  cases v with
  | mk i c =>
    simp only [VNode.children] at hch
    subst hch
    simp only [VNode.info] at he ht hk hd
    simp [renders, he, ht, hk, hd, hn]

theorem plainTreeL_mem (cs : List VNode) (h : plainTreeL cs = true) :
    ∀ c ∈ cs, plainTree c = true := by
  induction cs with
  | nil => intro c hc; cases hc
  | cons x xs ih =>
    simp only [plainTreeL, Bool.and_eq_true] at h
    intro c hc
    rcases List.mem_cons.1 hc with hc | hc
    · rw [hc]; exact h.1
    · exact ih h.2 c hc

theorem unrealizedL_mem (cs : List VNode) (h : unrealizedL cs = true) :
    ∀ c ∈ cs, unrealized c = true := by
  induction cs with
  | nil => intro c hc; cases hc
  | cons x xs ih =>
    simp only [unrealizedL, Bool.and_eq_true] at h
    intro c hc
    rcases List.mem_cons.1 hc with hc | hc
    · rw [hc]; exact h.1
    · exact ih h.2 c hc

/-- Whenever `createElm` returns on a plain tree without handles, the tree
comes out with the fresh handles assigned in pre-order, the node made is its
mirror, and the parent child list is the one `insert` leaves. -/
theorem createElm_mount : ∀ (d : Nat) (v : VNode), CeMount (createElm d) v := by
  intro d
  induction d with
  | zero =>
    intro v _ _ parent kids ref hasOwner st r h
    cases h
  | succ d ih =>
    intro v hp hu parent kids ref hasOwner st r h
    have hcl := cloneIfUsed_none v hasOwner (unrealized_elm v hu)
    unfold createElm at h
    simp only at h
    rw [hcl] at h
    have hse : (v.setElm (some st.next)).info.elm = some st.next := by cases v; rfl
    have hst : (v.setElm (some st.next)).info.tag = v.info.tag := by cases v; rfl
    have hsx : (v.setElm (some st.next)).info.text = v.info.text := by cases v; rfl
    have hsc : (v.setElm (some st.next)).info.isComment = v.info.isComment := by cases v; rfl
    split at h
    · rename_i tag htag
      split at h
      · cases h
      · rename_i v2 n2 st2 ev2 hc
        split at h
        · cases h
        · rename_i k4 e4 hins
          simp only [Except.ok.injEq] at h
          subst h
          have hmain : v2 = assign st.next v ∧ renders n2 v2 = true ∧ n2.h = st.next ∧
              st2.next = st.next + size v := by
            unfold createChildren at hc
            cases hch : v.children with
            | some cs =>
              have hch1 : (v.setElm (some st.next)).children = some cs := by
                rw [VNode.setElm_children, hch]
              rw [hch1] at hc
              simp only [LNode.h, LNode.kids] at hc
              cases hl : createChildrenLoop (createElm d) st.next cs []
                  { st with next := st.next + 1 } with
              | error e => rw [hl] at hc; cases hc
              | ok r2 =>
                obtain ⟨cs2, k2, s2, e2⟩ := r2
                rw [hl] at hc
                simp only [Except.ok.injEq, Prod.mk.injEq] at hc
                obtain ⟨g1, g2, g3, _⟩ := hc
                subst g1
                subst g2
                subst g3
                obtain ⟨ha, hnx, nodes, hk2, hr⟩ := createChildrenLoop_mount (createElm d) st.next
                  cs [] _ cs2 k2 _ e2 (fun c _ => ih c)
                  (fun c hcm => ⟨plainTreeL_mem cs (plainTree_children v cs hch hp).2 c hcm,
                    unrealizedL_mem cs (unrealized_children v cs hch hu) c hcm⟩)
                  (by intro k hk; cases hk) hl
                simp only [List.nil_append] at hk2
                subst hk2
                refine ⟨?_, ?_, rfl, ?_⟩
                · rw [assign_node st.next v cs hch, ha]
                · refine renders_node _ _ cs2 tag (by cases v; rfl) ?_ ?_ rfl hr
                  · cases v; rfl
                  · rw [← htag]; cases v; rfl
                · rw [hnx, size_node v cs hch]
                  show st.next + 1 + sizeL cs = _
                  omega
            | none =>
              have hch1 : (v.setElm (some st.next)).children = none := by
                rw [VNode.setElm_children, hch]
              have htx : v.info.text = none := by
                rcases plainTree_leaf v hch hp with h1 | h1
                · rw [h1] at htag; cases htag
                · exact h1
              rw [hch1, hsx, htx] at hc
              simp only [Except.ok.injEq, Prod.mk.injEq] at hc
              obtain ⟨g1, g2, g3, _⟩ := hc
              subst g1
              subst g2
              subst g3
              refine ⟨(assign_leaf st.next v hch).symm, ?_, rfl, ?_⟩
              · exact renders_leaf_element _ _ tag hch1 hse (by rw [hst]; exact htag) rfl rfl
              · rw [size_leaf v hch]
          obtain ⟨h1, h2, h3, h4⟩ := hmain
          refine ⟨h1, h2, h3, ?_, e4, hins⟩
          show (if v2.info.data.isSome = true then invokeCreateHooks v2 st2
            else (st2, [])).1.next = _
          rw [createHooks_next, h4]
    · rename_i htag
      split at h
      · cases h
      · rename_i k2 e2 hins
        simp only [Except.ok.injEq] at h
        subst h
        have hch : v.children = none := by
          cases hch : v.children with
          | none => rfl
          | some cs =>
            have := (plainTree_children v cs hch hp).1
            rw [htag] at this
            cases this
        have hch1 : (v.setElm (some st.next)).children = none := by
          rw [VNode.setElm_children, hch]
        refine ⟨(assign_leaf st.next v hch).symm, ?_, rfl, ?_, e2, hins⟩
        · exact renders_leaf_text _ _ hch1 hse (by rw [hst]; exact htag)
            (by rw [hsc]; rfl) (by rw [hsx]; rfl) rfl
        · show st.next + 1 = _
          rw [size_leaf v hch]

/-- C21 fails as stated, twice.  An element without child array that carries
a text has no realized handle, yet `createElm` gives its live element a text
child, which is the handle of no VNode child; and with a reference that is no
child of the parent, `createElm` builds the tree and leaves the child list of
the parent as it was: the root is not inserted. -/
theorem mount_leaves_the_mirror :
    (unrealized textP = true ∧ textP.children = none ∧
      createElm 1 textP (some 1) [] none false st0
        = .ok (textP.setElm (some 100),
            LNode.mk 100 (.element "p") "" [LNode.mk 101 .text "hi" []],
            [LNode.mk 100 (.element "p") "" [LNode.mk 101 .text "hi" []]],
            { next := 102, queue := [] },
            [.createElement "p" 100, .createTextNode "hi" 101, .appendChild 100 101,
             .appendChild 1 100])) ∧
    (unrealized (plainDiv [textNode "a" none]) = true ∧
      ∃ v1 st1 ev,
        createElm 2 (plainDiv [textNode "a" none]) (some 1) [liveEl 5 "p"] (some 99) false st0
          = .ok (v1, LNode.mk 100 (.element "div") "" [LNode.mk 101 .text "a" []],
              [liveEl 5 "p"], st1, ev)) :=
  ⟨⟨rfl, rfl, rfl⟩, rfl, _, _, _, rfl⟩

/-- C21, amended: mount builds a mirror of the virtual tree.  Take a tree of
element, text and comment nodes without handles in which every node with a
child array is an element and no element without child array carries a text,
depth for the tree, a parent whose children have handles in use, and a
reference that is absent or a child of that parent.  Then `createElm` returns;
the tree it leaves is the given one with the fresh handles assigned in
pre-order; the node it has made is the mirror of that tree (every element
holds exactly the nodes of its VNode children, in order, and every text or
comment carries the text of its VNode); and the child list of the parent has
gained that node immediately before the reference, or at the end without one. -/
theorem mount_mirror (d : Nat) (v : VNode) (p : Handle) (kids : List LNode)
    (ref : Option Handle) (hasOwner : Bool) (st : St)
    (hp : plainTree v = true) (hu : unrealized v = true) (hh : v.height ≤ d)
    (hb : ∀ k ∈ kids, LNode.bounded st.next k = true)
    (hr : ∀ r, ref = some r → r ∈ kids.map LNode.h) :
    ∃ node kids1 st1 ev,
      createElm d v (some p) kids ref hasOwner st
        = .ok (assign st.next v, node, kids1, st1, ev) ∧
      renders node (assign st.next v) = true ∧ node.h = st.next ∧
      st1.next = st.next + size v ∧ insertedAt kids node ref kids1 := by
  obtain ⟨n1, node, st1, ev, _, hnh, _, _, _, hrun⟩ := createElm_spec d v hh hasOwner st
  have hfresh : node.h ∉ kids.map LNode.h := by
    rw [hnh]
    exact bounded_not_mem st.next kids hb st.next (le_refl _)
  obtain ⟨r, hins, _⟩ := insert_fresh (some p) kids node ref hfresh
  have hce : createElm d v (some p) kids ref hasOwner st
      = .ok (n1, node, r.1, st1, ev ++ r.2) := by
    rw [hrun (some p) kids ref, hins]
  obtain ⟨h1, h2, h3, h4, e, h5⟩ :=
    createElm_mount d v hp hu (some p) kids ref hasOwner st _ hce
  simp only at h1 h2 h3 h4 h5
  refine ⟨node, r.1, st1, ev ++ r.2, ?_, ?_, h3, h4, ?_⟩
  · rw [hce, h1]
  · rw [← h1]
    exact h2
  · cases ref with
    | none =>
      rw [insert_append p kids node hfresh] at h5
      simp only [Except.ok.injEq, Prod.mk.injEq] at h5
      exact h5.1.symm
    | some x =>
      obtain ⟨KX, y, KY, hk, hy, hx⟩ := mem_split_handle kids x (hr x rfl)
      subst hy
      subst hk
      rw [insert_before p KX KY y node hx hfresh] at h5
      simp only [Except.ok.injEq, Prod.mk.injEq] at h5
      exact ⟨KX, y, KY, rfl, rfl, hx, h5.1.symm⟩

/-- C21, amended, on a `div` that holds a text and an empty `div`,
mounted before the child `5` of the parent `1`. -/
theorem mount_mirror_witness :
    ∃ node kids1 st1 ev,
      createElm 3 (plainDiv [textNode "a" none, plainDiv []]) (some 1)
          [liveEl 4 "p", liveEl 5 "p"] (some 5) false st0
        = .ok (assign st0.next (plainDiv [textNode "a" none, plainDiv []]),
            node, kids1, st1, ev) ∧
      renders node (assign st0.next (plainDiv [textNode "a" none, plainDiv []])) = true ∧
      node.h = st0.next ∧
      st1.next = st0.next + size (plainDiv [textNode "a" none, plainDiv []]) ∧
      insertedAt [liveEl 4 "p", liveEl 5 "p"] node (some 5) kids1 :=
  mount_mirror 3 (plainDiv [textNode "a" none, plainDiv []]) 1 [liveEl 4 "p", liveEl 5 "p"]
    (some 5) false st0 (by decide) (by decide) (by decide) (by decide)
    (by intro r hr; cases hr; decide)

/-! ## The two embeddings of `removeAndInvokeRemoveHook` agree -/

/-- The callback embedding and the embedding with the record `rmDeferred`
describe the same function.  For a node with data whose element is a child of
the parent, with `n` module remove hooks registered: once every listener left
has called the callback, the children of the parent are those that
`removeAndInvokeRemoveHook` returns on a node whose listeners do not keep the
callback; and as long as a listener keeps it (`k` calls made, fewer than the
callback expects), they are those it returns on a node whose listeners do. -/
theorem removeHook_agrees (n : Nat) (p : Handle) (kids : List LNode) (v : VNode) (e : Handle)
    (hd : v.info.data.isSome = true) (he : v.elm = some e) (hk : hasH kids e = true) :
    ∃ rm kids0 ev0, removeAndInvokeRemoveHookCb n p kids v = .ok (some rm, kids0, ev0) ∧
      (v.rmDeferred = false → ∃ rm1 evk ev,
        rm.calls rm.listeners.toNat p kids0 = .ok (rm1, removeH kids e, evk) ∧
        removeAndInvokeRemoveHook p kids v = .ok (removeH kids e, ev)) ∧
      (v.rmDeferred = true → ∀ k : Nat, (k : Int) < rm.listeners → ∃ rm1 evk ev,
        rm.calls k p kids0 = .ok (rm1, kids, evk) ∧
        removeAndInvokeRemoveHook p kids v = .ok (kids, ev)) := by
  have hprompt : v.rmDeferred = false → ∃ ev,
      removeAndInvokeRemoveHook p kids v = .ok (removeH kids e, ev) := by
    intro hr
    unfold removeAndInvokeRemoveHook
    simp only [hd, if_true, hr, Bool.false_eq_true, if_false, he, removeNode, hk]
    exact ⟨_, rfl⟩
  have hkeep : v.rmDeferred = true → ∃ ev,
      removeAndInvokeRemoveHook p kids v = .ok (kids, ev) := by
    intro hr
    unfold removeAndInvokeRemoveHook
    simp only [hd, if_true, hr]
    exact ⟨_, rfl⟩
  unfold removeAndInvokeRemoveHookCb
  simp only [hd, if_true, he]
  by_cases hh : hasHook v Hooks.remove = true
  · simp only [hh, if_true]
    refine ⟨createRmCb (some e) ((n : Int) + 1), kids,
      [.hook .moduleRemove (some e), .hook .remove (some e)], rfl, ?_, ?_⟩
    · intro hr
      obtain ⟨ev, hev⟩ := hprompt hr
      have hs := calls_spec p kids e hk (n + 1) ((n : Int) + 1) (by omega)
      have hc : ¬ (((n + 1 : Nat) : Int) < (n : Int) + 1) := by omega
      simp only [hc, if_false] at hs
      have hl : (createRmCb (some e) ((n : Int) + 1)).listeners.toNat = n + 1 := by
        show ((n : Int) + 1).toNat = n + 1
        omega
      rw [hl]
      exact ⟨_, _, ev, hs, hev⟩
    · intro hr k hlt
      obtain ⟨ev, hev⟩ := hkeep hr
      have hlt1 : (k : Int) < (n : Int) + 1 := hlt
      have hs := calls_spec p kids e hk k ((n : Int) + 1) (by omega)
      simp only [hlt1, if_true] at hs
      exact ⟨_, _, ev, hs, hev⟩
  · simp only [hh, Bool.false_eq_true, if_false]
    by_cases hn : n = 0
    · subst hn
      have h1 : (createRmCb (some e) (((0 : Nat) : Int) + 1)).call p kids
          = .ok ({ childElm := some e, listeners := 0 }, removeH kids e, [.removeChild p e]) := by
        simp [RmCb.call, createRmCb, removeNode, hk]
      rw [h1]
      refine ⟨{ childElm := some e, listeners := 0 }, removeH kids e,
        [.hook .moduleRemove (some e)] ++ [.removeChild p e], rfl, ?_, ?_⟩
      · intro hr
        obtain ⟨ev, hev⟩ := hprompt hr
        exact ⟨_, [], ev, rfl, hev⟩
      · intro _ k hlt
        have : (k : Int) < 0 := hlt
        omega
    · have hz : ¬ ((createRmCb (some e) ((n : Int) + 1)).listeners - 1 = 0) := by
        show ¬ ((n : Int) + 1 - 1 = 0)
        omega
      have h1 : (createRmCb (some e) ((n : Int) + 1)).call p kids
          = .ok (createRmCb (some e) (n : Int), kids, []) := by
        unfold RmCb.call
        simp only [hz, if_false]
        simp [createRmCb]
      rw [h1]
      refine ⟨createRmCb (some e) (n : Int), kids, [.hook .moduleRemove (some e)] ++ [], rfl,
        ?_, ?_⟩
      · intro hr
        obtain ⟨ev, hev⟩ := hprompt hr
        have hs := calls_spec p kids e hk n (n : Int) (by omega)
        have hc : ¬ ((n : Int) < (n : Int)) := by omega
        simp only [hc, if_false] at hs
        have hl : (createRmCb (some e) (n : Int)).listeners.toNat = n := by
          show ((n : Int)).toNat = n
          omega
        rw [hl]
        exact ⟨_, _, ev, hs, hev⟩
      · intro hr k hlt
        obtain ⟨ev, hev⟩ := hkeep hr
        have hlt1 : (k : Int) < (n : Int) := hlt
        have hs := calls_spec p kids e hk k (n : Int) (by omega)
        simp only [hlt1, if_true] at hs
        exact ⟨_, _, ev, hs, hev⟩

end VuePatch
